import Mathlib

/-!
# Dancing X with Decomposition (DXD): a verification development

Shallow embedding of the exact-cover counter of this repository
(`DancingMatrix.cpp`, `DynamicGraph.cpp`, `ComponentDetector.cpp`,
`SplayETT.h`, `DXDSolver.cpp`) and the properties proved about it.

Conventions of the embedding.
* Pointers are indices into one arena.  Index `i ≤ COLS` is the column header
  `ColIndex[i]` (index `0` is `root`); the `k`-th data node created by `insert`
  has index `COLS + 1 + k`.
* `std::set<int>` is the ascending list of its elements; `std::unordered_set`
  and `std::unordered_map` are lists in order of first insertion.
* Loops that walk linked lists take fuel and yield `none` when it runs out
  (the C++ loop would not terminate).
-/

set_option autoImplicit false

namespace AlgLab

/-! ## Containers -/

/-- Array or pointer-field read; the default is never used on a well-formed arena. -/
def nth (l : List Nat) (i : Nat) : Nat := l.getD i 0

/-- Read of an `int` array. -/
def nthI (l : List Int) (i : Nat) : Int := l.getD i 0

/-- The operation `std::set<int>::insert` on the ascending list of the set. -/
def setInsert (x : Nat) : List Nat → List Nat
  | [] => [x]
  | y :: ys => if x < y then x :: y :: ys else if x = y then y :: ys else y :: setInsert x ys

/-- The operation `std::set<int>::erase`. -/
def setErase (x : Nat) (s : List Nat) : List Nat := s.erase x

/-- The operation `unordered_set::insert`: append when absent. -/
def usetInsert (x : Nat) (s : List Nat) : List Nat := if x ∈ s then s else s ++ [x]

/-- Lookup `map[k]` of a map to containers, empty when the key is absent. -/
def mapGet (mp : List (Nat × List Nat)) (k : Nat) : List Nat :=
  match mp.find? (fun e => e.1 = k) with
  | some e => e.2
  | none => []

/-- The update `map[k] = f (map[k])`, creating the entry when absent. -/
def mapModify (mp : List (Nat × List Nat)) (k : Nat) (f : List Nat → List Nat) :
    List (Nat × List Nat) :=
  if mp.any (fun e => e.1 = k) then mp.map (fun e => if e.1 = k then (e.1, f e.2) else e)
  else mp ++ [(k, f [])]

/-! ## Block.h -/

/-- A sub-problem: `rows` and `cols` are `std::set<int>`. -/
@[ext]
structure Block where
  rows : List Nat
  cols : List Nat
  deriving DecidableEq, Repr

/-! ## DynamicGraph.cpp: the union-find based detector

Only the fields read by `computeComponentsInRows`, `deactivateRow` and
`reactivateRow` are kept: `N` and `rowStates`.  The global union-find
(`parent`, `rank`, `componentColumns`, `numComponents`), `activeColumnToRows`
and `needsRebuild` are written by `initialize`, `deactivateRow` and
`reactivateRow` but read only by `rebuildIfNeeded` and its callers, which the
search never calls. -/

/-- One `RowState`: `activeColumns` and `removedColumns`. -/
structure RowState where
  activeColumns : List Nat
  removedColumns : List Nat
  deriving DecidableEq, Repr

/-- The class `IncrementalConnectedGraph`, restricted as explained above. -/
structure IncrementalConnectedGraph where
  N : Nat
  rowStates : List RowState
  deriving DecidableEq, Repr

/-- The local union-find of `rebuildLocally`: `localParent`, `localRank`,
`localComponentColumns`. -/
structure LocalUF where
  parent : List Nat
  rank : List Nat
  cols : List (List Nat)
  deriving DecidableEq, Repr

/-- The first loop of `localFind`: `while (localParent[root] != root) root = localParent[root]`.
It is also the whole of the `localFind` of `computeComponentsInRows`. -/
def findRoot (parent : List Nat) : Nat → Nat → Option Nat
  | 0, _ => none
  | f + 1, root => if nth parent root ≠ root then findRoot parent f (nth parent root) else some root

/-- The second loop of `localFind` (path compression): `while (x != root) { nxt =
localParent[x]; localParent[x] = root; x = nxt; }`. -/
def compressPath (root : Nat) : Nat → List Nat → Nat → Option (List Nat)
  | 0, _, _ => none
  | f + 1, parent, x =>
    if x ≠ root then compressPath root f (parent.set x root) (nth parent x) else some parent

/-- The lambda `localFind` of `rebuildLocally`. -/
def localFind (uf : LocalUF) (x : Nat) : Option (Nat × LocalUF) :=
  match findRoot uf.parent (uf.parent.length + 1) x with
  | none => none
  | some root =>
    match compressPath root (uf.parent.length + 1) uf.parent x with
    | none => none
    | some p => some (root, { uf with parent := p })

/-- The lambda `localUnite` of `rebuildLocally`. -/
def localUnite (uf : LocalUF) (a b : Nat) : Option LocalUF :=
  match localFind uf a with
  | none => none
  | some (ra0, uf1) =>
    match localFind uf1 b with
    | none => none
    | some (rb0, uf2) =>
      if ra0 = rb0 then some uf2
      else
        -- if (localRank[ra] < localRank[rb]) std::swap(ra, rb);
        let ra := if nth uf2.rank ra0 < nth uf2.rank rb0 then rb0 else ra0
        let rb := if nth uf2.rank ra0 < nth uf2.rank rb0 then ra0 else rb0
        let parent := uf2.parent.set rb ra
        let rank := if nth uf2.rank ra = nth uf2.rank rb then uf2.rank.set ra (nth uf2.rank ra + 1)
                    else uf2.rank
        -- if (cols[ra].size() < cols[rb].size()) cols[ra].swap(cols[rb]);
        let ca0 := uf2.cols.getD ra []
        let cb0 := uf2.cols.getD rb []
        let ca := if ca0.length < cb0.length then cb0 else ca0
        let cb := if ca0.length < cb0.length then ca0 else cb0
        -- cols[ra].insert(cols[rb].begin(), cols[rb].end());
        let merged := cb.foldl (fun acc x => usetInsert x acc) ca
        some { parent := parent, rank := rank, cols := (uf2.cols.set rb cb).set ra merged }

/-- The loop `for (int row : rows) if (row != firstRow) localUnite(firstRow, row)`. -/
def uniteAll (firstRow : Nat) : List Nat → LocalUF → Option LocalUF
  | [], uf => some uf
  | row :: rest, uf =>
    if row ≠ firstRow then
      match localUnite uf firstRow row with
      | none => none
      | some uf1 => uniteAll firstRow rest uf1
    else uniteAll firstRow rest uf

/-- The loop of `rebuildLocally` over `localColumnToRows`. -/
def rebuildCols : List (Nat × List Nat) → LocalUF → Option LocalUF
  | [], uf => some uf
  | (col, rows) :: rest, uf =>
    match rows with
    | [] => rebuildCols rest uf
    | [row] =>
      match localFind uf row with
      | none => none
      | some (root, uf1) =>
        rebuildCols rest { uf1 with cols := uf1.cols.set root (usetInsert col (uf1.cols.getD root [])) }
    | firstRow :: _ =>
      match uniteAll firstRow rows uf with
      | none => none
      | some uf1 =>
        match localFind uf1 firstRow with
        | none => none
        | some (root, uf2) =>
          rebuildCols rest { uf2 with cols := uf2.cols.set root (usetInsert col (uf2.cols.getD root [])) }

/-- The construction of `localColumnToRows` in `rebuildLocally`: for each row of
`restrictedRows` inside `[0, N)`, each of its active columns gets the row. -/
def localColumnToRows (g : IncrementalConnectedGraph) (restrictedRows : List Nat) :
    List (Nat × List Nat) :=
  restrictedRows.foldl
    (fun mp row =>
      if row ≥ g.N then mp
      else ((g.rowStates.getD row (RowState.mk [] [])).activeColumns).foldl
        (fun mp2 col => mapModify mp2 col (usetInsert row)) mp)
    []

/-- The method `IncrementalConnectedGraph::rebuildLocally`. -/
def IncrementalConnectedGraph.rebuildLocally (g : IncrementalConnectedGraph)
    (restrictedRows : List Nat) : Option LocalUF :=
  rebuildCols (localColumnToRows g restrictedRows)
    { parent := List.range g.N, rank := List.replicate g.N 0, cols := List.replicate g.N [] }

/-- The conversion of a container to `std::set<int>`. -/
def toSet (l : List Nat) : List Nat := l.foldl (fun acc x => setInsert x acc) []

/-- The loop of `computeComponentsInRows` that groups the rows by their root. -/
def groupByRoot (parent : List Nat) : List Nat → List (Nat × List Nat) →
    Option (List (Nat × List Nat))
  | [], mp => some mp
  | row :: rest, mp =>
    match findRoot parent (parent.length + 1) row with
    | none => none
    | some root => groupByRoot parent rest (mapModify mp root (fun l => l ++ [row]))

/-- The method `IncrementalConnectedGraph::computeComponentsInRows`.  The final
`std::sort` by descending `size()` is taken as a stable sort. -/
def IncrementalConnectedGraph.computeComponentsInRows (g : IncrementalConnectedGraph)
    (rows : List Nat) : Option (List Block) :=
  match g.rebuildLocally rows with
  | none => none
  | some uf =>
    match groupByRoot uf.parent rows [] with
    | none => none
    | some componentMap =>
      some ((componentMap.map (fun e => Block.mk (toSet e.2) (toSet (uf.cols.getD e.1 [])))).insertionSort
        (fun a b => a.rows.length ≥ b.rows.length))

/-- The method `IncrementalConnectedGraph::deactivateRow`. -/
def IncrementalConnectedGraph.deactivateRow (g : IncrementalConnectedGraph) (row : Nat) :
    IncrementalConnectedGraph :=
  let st := g.rowStates.getD row (RowState.mk [] [])
  let st1 := RowState.mk [] (st.activeColumns.foldl (fun acc c => usetInsert c acc) st.removedColumns)
  { g with rowStates := g.rowStates.set row st1 }

/-- The method `IncrementalConnectedGraph::reactivateRow`. -/
def IncrementalConnectedGraph.reactivateRow (g : IncrementalConnectedGraph) (row : Nat) :
    IncrementalConnectedGraph :=
  let st := g.rowStates.getD row (RowState.mk [] [])
  let st1 := RowState.mk (st.removedColumns.foldl (fun acc c => usetInsert c acc) st.activeColumns) []
  { g with rowStates := g.rowStates.set row st1 }

/-! ## SplayETT.h: the Euler-tour forest

Nodes live in one pool; a `Node*` is an index into it and `nullptr` is `none`.
`node_id` is drawn from the process-wide counter, taken to start at `0`.  All
calls run on thread `0`, so `getLocalData().edges` is one map. -/

/-- The struct `SplayETT::Node`. -/
structure ETTNode where
  left : Option Nat
  right : Option Nat
  parent : Option Nat
  vertex : Int
  edgeKey : Nat
  reversed : Bool
  node_id : Nat
  deriving DecidableEq, Repr, Inhabited

/-- The struct `SplayETT::Edge`. -/
structure ETTEdge where
  first : Nat
  second : Nat
  u : Nat
  v : Nat
  deriving DecidableEq, Repr

/-- The class `SplayETT`. -/
structure SplayETT where
  pool : List ETTNode
  vertexNodes : List Nat
  edges : List (Nat × ETTEdge)
  global_counter : Nat
  deriving DecidableEq, Repr

/-- Dereference of a `Node*`. -/
def SplayETT.node (t : SplayETT) (x : Nat) : ETTNode := t.pool.getD x default

/-- Store through a `Node*`. -/
def SplayETT.setNode (t : SplayETT) (x : Nat) (nd : ETTNode) : SplayETT :=
  { t with pool := t.pool.set x nd }

/-- The key of an edge: `(min(u,v) << 32) | max(u,v)`. -/
def makeEdgeKey (u v : Nat) : Nat := ((min u v) <<< 32) ||| (max u v)

/-- The inverse of `makeEdgeKey`: `u = key >> 32`, `v = key & 0xFFFFFFFF`. -/
def decodeEdgeKey (key : Nat) : Nat × Nat := (key >>> 32, key &&& 0xFFFFFFFF)

/-- The method `SplayETT::pushDown`. -/
def SplayETT.pushDown (t : SplayETT) (x : Option Nat) : SplayETT :=
  match x with
  | none => t
  | some x =>
    if !(t.node x).reversed then t
    else
      -- std::swap(x->left, x->right);
      let t1 := t.setNode x { t.node x with left := (t.node x).right, right := (t.node x).left }
      let t2 := match (t1.node x).left with
        | some l => t1.setNode l { t1.node l with reversed := !(t1.node l).reversed }
        | none => t1
      let t3 := match (t2.node x).right with
        | some r => t2.setNode r { t2.node r with reversed := !(t2.node r).reversed }
        | none => t2
      t3.setNode x { t3.node x with reversed := false }

/-- The method `SplayETT::rotate`; it is only called on a node that has a parent. -/
def SplayETT.rotate (t : SplayETT) (x : Nat) : SplayETT :=
  match (t.node x).parent with
  | none => t
  | some p =>
    let g := (t.node p).parent
    let t1 := (t.pushDown (some p)).pushDown (some x)
    let t2 :=
      if (t1.node p).left = some x then
        let a := t1.setNode p { t1.node p with left := (t1.node x).right }
        let b := match (a.node x).right with
          | some r => a.setNode r { a.node r with parent := some p }
          | none => a
        b.setNode x { b.node x with right := some p }
      else
        let a := t1.setNode p { t1.node p with right := (t1.node x).left }
        let b := match (a.node x).left with
          | some l => a.setNode l { a.node l with parent := some p }
          | none => a
        b.setNode x { b.node x with left := some p }
    let t3 := t2.setNode x { t2.node x with parent := g }
    let t4 := t3.setNode p { t3.node p with parent := some x }
    match g with
    | none => t4
    | some g =>
      if (t4.node g).left = some p then t4.setNode g { t4.node g with left := some x }
      else t4.setNode g { t4.node g with right := some x }

/-- The loop of `SplayETT::splay`. -/
def splayLoop (x : Nat) : Nat → SplayETT → Option SplayETT
  | 0, _ => none
  | f + 1, t =>
    match (t.node x).parent with
    | none => some t
    | some p =>
      let g := (t.node p).parent
      let t1 := ((match g with | some _ => t.pushDown g | none => t).pushDown (some p)).pushDown (some x)
      match g with
      | none => splayLoop x f (t1.rotate x)
      | some g =>
        if (decide ((t1.node g).left = some p)) = (decide ((t1.node p).left = some x)) then
          splayLoop x f ((t1.rotate p).rotate x)
        else splayLoop x f ((t1.rotate x).rotate x)

/-- The method `SplayETT::splay`. -/
def SplayETT.splay (t : SplayETT) (x : Nat) : Option SplayETT :=
  match splayLoop x (t.pool.length + 1) t with
  | none => none
  | some t1 => some (t1.pushDown (some x))

/-- The method `SplayETT::split`: the detached right part and the new forest. -/
def SplayETT.split (t : SplayETT) (x : Nat) : Option (Option Nat × SplayETT) :=
  match t.splay x with
  | none => none
  | some t1 =>
    let t2 := t1.pushDown (some x)
    match (t2.node x).right with
    | none => some (none, t2)
    | some r =>
      let t3 := t2.setNode r { t2.node r with parent := none }
      some (some r, t3.setNode x { t3.node x with right := none })

/-- The loop of `merge`: `while (curr->right) { pushDown(curr); curr = curr->right; }`. -/
def mergeSeek : Nat → SplayETT → Nat → Option (Nat × SplayETT)
  | 0, _, _ => none
  | f + 1, t, curr =>
    match (t.node curr).right with
    | none => some (curr, t)
    | some _ =>
      let t1 := t.pushDown (some curr)
      match (t1.node curr).right with
      | none => none
      | some r => mergeSeek f t1 r

/-- The method `SplayETT::merge`. -/
def SplayETT.merge (t : SplayETT) (left right : Option Nat) : Option (Option Nat × SplayETT) :=
  match left, right with
  | none, _ => some (right, t)
  | _, none => some (left, t)
  | some l, some r =>
    match mergeSeek (t.pool.length + 1) t l with
    | none => none
    | some (curr, t1) =>
      match t1.splay curr with
      | none => none
      | some t2 =>
        let t3 := t2.pushDown (some curr)
        let t4 := t3.setNode curr { t3.node curr with right := some r }
        some (some curr, t4.setNode r { t4.node r with parent := some curr })

/-- The method `SplayETT::allocNode`: the new pointer and the new forest. -/
def SplayETT.allocNode (t : SplayETT) (v : Int) (key : Nat) : Nat × SplayETT :=
  (t.pool.length,
   { t with
     pool := t.pool ++ [{ left := none, right := none, parent := none, vertex := v,
                          edgeKey := key, reversed := false, node_id := t.global_counter }]
     global_counter := t.global_counter + 1 })

/-- The constructor `SplayETT(n)`: one vertex node per vertex. -/
def SplayETT.new (n : Nat) : SplayETT :=
  (List.range n).foldl
    (fun t i => let r := t.allocNode (i : Int) 0; { r.2 with vertexNodes := r.2.vertexNodes ++ [r.1] })
    { pool := [], vertexNodes := [], edges := [], global_counter := 0 }

/-- The loop of `getRoot`: `while (x->parent) x = x->parent`. -/
def getRootLoop (t : SplayETT) : Nat → Nat → Option Nat
  | 0, _ => none
  | f + 1, x =>
    match (t.node x).parent with
    | none => some x
    | some p => getRootLoop t f p

/-- The method `SplayETT::getRoot`. -/
def SplayETT.getRoot (t : SplayETT) (x : Nat) : Option Nat := getRootLoop t (t.pool.length + 1) x

/-- The method `SplayETT::connected`. -/
def SplayETT.connected (t : SplayETT) (u v : Nat) : Option Bool :=
  match t.getRoot (nth t.vertexNodes u), t.getRoot (nth t.vertexNodes v) with
  | some a, some b => some (decide (a = b))
  | _, _ => none

/-- The method `SplayETT::getComponentId`. -/
def SplayETT.getComponentId (t : SplayETT) (u : Nat) : Option Nat :=
  match t.getRoot (nth t.vertexNodes u) with
  | some r => some (t.node r).node_id
  | none => none

/-- The method `SplayETT::isTreeEdge`. -/
def SplayETT.isTreeEdge (t : SplayETT) (u v : Nat) : Bool :=
  t.edges.any (fun e => e.1 = makeEdgeKey u v)

/-- The method `SplayETT::link`: the returned flag and the new forest. -/
def SplayETT.link (t : SplayETT) (u v : Nat) : Option (Bool × SplayETT) :=
  if u = v then some (false, t)
  else
    let key := makeEdgeKey u v
    if t.edges.any (fun e => e.1 = key) then some (false, t)
    else
      match t.connected u v with
      | none => none
      | some true => some (false, t)
      | some false =>
        let a1 := t.allocNode (-1) key
        let a2 := a1.2.allocNode (-1) key
        let e1 := a1.1
        let e2 := a2.1
        let t2 := a2.2
        match t2.getRoot (nth t2.vertexNodes v) with
        | none => none
        | some rootV =>
          match t2.split (nth t2.vertexNodes u) with
          | none => none
          | some (rightU, t3) =>
            match t3.merge (some (nth t3.vertexNodes u)) (some e1) with
            | none => none
            | some (r1, t4) =>
              match t4.merge r1 (some rootV) with
              | none => none
              | some (r2, t5) =>
                match t5.merge r2 (some e2) with
                | none => none
                | some (r3, t6) =>
                  match t6.merge r3 rightU with
                  | none => none
                  | some (_, t7) =>
                    some (true, { t7 with edges := t7.edges ++ [(key, ETTEdge.mk e1 e2 u v)] })

/-- The method `SplayETT::cut`: the returned flag and the new forest. -/
def SplayETT.cut (t : SplayETT) (u v : Nat) : Option (Bool × SplayETT) :=
  if u = v then some (false, t)
  else
    let key := makeEdgeKey u v
    match t.edges.find? (fun e => e.1 = key) with
    | none => some (false, t)
    | some (_, edge) =>
      match t.splay edge.first with
      | none => none
      | some t1 =>
        match t1.splay edge.second with
        | none => none
        | some t2 =>
          -- if (e2->parent) { std::swap(e1, e2); splay(e1); }
          let swapped := ((t2.node edge.second).parent).isSome
          let e1 := if swapped then edge.second else edge.first
          let e2 := if swapped then edge.first else edge.second
          match (if swapped then t2.splay e1 else some t2) with
          | none => none
          | some t3 =>
            match t3.split e2 with
            | none => none
            | some (right, t4) =>
              match t4.split e1 with
              | none => none
              | some (_, t5) =>
                let left := (t5.node e1).left
                let t6 := match left with
                  | some l => t5.setNode l { t5.node l with parent := none }
                  | none => t5
                match t6.merge left right with
                | none => none
                | some (_, t7) => some (true, { t7 with edges := t7.edges.filter (fun e => e.1 ≠ key) })

/-- The method `SplayETT::batchLink`. -/
def SplayETT.batchLink (t : SplayETT) : List (Nat × Nat) → Option SplayETT
  | [] => some t
  | (u, v) :: rest =>
    match t.link u v with
    | none => none
    | some (_, t1) => SplayETT.batchLink t1 rest

/-! ## ComponentDetector.h / ComponentDetector.cpp: the ETT based detector -/

/-- Lookup `map.find(k)` in a map. -/
def assocGet {α : Type} (mp : List (Nat × α)) (k : Nat) : Option α :=
  match mp.find? (fun e => e.1 = k) with
  | some e => some e.2
  | none => none

/-- The assignment `map[k] = v`. -/
def assocSet {α : Type} (mp : List (Nat × α)) (k : Nat) (v : α) : List (Nat × α) :=
  if mp.any (fun e => e.1 = k) then mp.map (fun e => if e.1 = k then (k, v) else e)
  else mp ++ [(k, v)]

/-- The struct `LayeredNonTreeEdges`. -/
structure LayeredNonTreeEdges where
  levels : List (List Nat)
  edge_to_level : List (Nat × Nat)
  max_level : Nat
  deriving DecidableEq, Repr

/-- The constructor `LayeredNonTreeEdges(max_lvl)`. -/
def LayeredNonTreeEdges.new (max_lvl : Nat) : LayeredNonTreeEdges :=
  { levels := List.replicate (max_lvl + 1) [], edge_to_level := [], max_level := max_lvl }

/-- The method `LayeredNonTreeEdges::addEdge`. -/
def LayeredNonTreeEdges.addEdge (s : LayeredNonTreeEdges) (key level : Nat) : LayeredNonTreeEdges :=
  if level > s.max_level then s
  else
    { s with
      levels := s.levels.set level (usetInsert key (s.levels.getD level []))
      edge_to_level := assocSet s.edge_to_level key level }

/-- The method `LayeredNonTreeEdges::removeEdge`. -/
def LayeredNonTreeEdges.removeEdge (s : LayeredNonTreeEdges) (key : Nat) : LayeredNonTreeEdges :=
  match assocGet s.edge_to_level key with
  | none => s
  | some level =>
    { s with
      levels := s.levels.set level ((s.levels.getD level []).erase key)
      edge_to_level := s.edge_to_level.filter (fun e => e.1 ≠ key) }

/-- The method `LayeredNonTreeEdges::demoteEdge`: the returned flag and the new index. -/
def LayeredNonTreeEdges.demoteEdge (s : LayeredNonTreeEdges) (key : Nat) :
    Bool × LayeredNonTreeEdges :=
  match assocGet s.edge_to_level key with
  | none => (false, s)
  | some curr_level =>
    if curr_level ≤ 0 then (false, s)
    else
      let l1 := s.levels.set curr_level ((s.levels.getD curr_level []).erase key)
      let l2 := l1.set (curr_level - 1) (usetInsert key (l1.getD (curr_level - 1) []))
      (true, { s with levels := l2, edge_to_level := assocSet s.edge_to_level key (curr_level - 1) })

/-- The method `LayeredNonTreeEdges::promoteEdge`: the returned flag and the new index. -/
def LayeredNonTreeEdges.promoteEdge (s : LayeredNonTreeEdges) (key : Nat) :
    Bool × LayeredNonTreeEdges :=
  match assocGet s.edge_to_level key with
  | none => (false, s)
  | some curr_level =>
    if curr_level ≥ s.max_level then (false, s)
    else
      let l1 := s.levels.set curr_level ((s.levels.getD curr_level []).erase key)
      let l2 := l1.set (curr_level + 1) (usetInsert key (l1.getD (curr_level + 1) []))
      (true, { s with levels := l2, edge_to_level := assocSet s.edge_to_level key (curr_level + 1) })

/-- The method `LayeredNonTreeEdges::getLevel` (`-1` when absent). -/
def LayeredNonTreeEdges.getLevel (s : LayeredNonTreeEdges) (key : Nat) : Int :=
  match assocGet s.edge_to_level key with
  | some l => (l : Int)
  | none => -1

/-- The method `LayeredNonTreeEdges::getEdgesAtLevel`. -/
def LayeredNonTreeEdges.getEdgesAtLevel (s : LayeredNonTreeEdges) (level : Nat) : List Nat :=
  if level > s.max_level then [] else s.levels.getD level []

/-- The method `LayeredNonTreeEdges::clear`. -/
def LayeredNonTreeEdges.clear (s : LayeredNonTreeEdges) : LayeredNonTreeEdges :=
  { s with levels := s.levels.map (fun _ => []), edge_to_level := [] }

/-- The struct `ComponentInfo` (the fields `tree_edges` and `tree_root` are never
accessed). -/
structure ComponentInfo where
  vertices : List Nat
  non_tree_edges : Option LayeredNonTreeEdges
  deriving DecidableEq, Repr

/-- The class `ComponentDetector`.  `edge_info_map` maps a key to its `level`. -/
structure ComponentDetector where
  num_rows : Nat
  num_cols : Nat
  col_to_rows : List (Nat × List Nat)
  row_to_cols : List (Nat × List Nat)
  adj_list : List (List Nat)
  row_active : List Bool
  active_cols : List Nat
  ett : SplayETT
  tree_edges : List Nat
  edge_info_map : List (Nat × Int)
  component_map : List (Nat × ComponentInfo)
  deriving DecidableEq, Repr

/-- The constructor `ComponentDetector(n, m)`. -/
def ComponentDetector.new (n m : Nat) : ComponentDetector where
  num_rows := n
  num_cols := m
  col_to_rows := []
  row_to_cols := []
  adj_list := List.replicate n []
  row_active := List.replicate n true
  active_cols := (List.range m).map (fun i => i + 1)
  ett := SplayETT.new n
  tree_edges := []
  edge_info_map := []
  component_map := []

/-- The method `addEdgeToAdjList`. -/
def ComponentDetector.addEdgeToAdjList (d : ComponentDetector) (u v : Nat) : ComponentDetector :=
  if u = v then d
  else
    let a1 := d.adj_list.set u (usetInsert v (d.adj_list.getD u []))
    { d with adj_list := a1.set v (usetInsert u (a1.getD v [])) }

/-- The function `calculateMaxLevel`: `0` for at most one vertex, else
`ceil(log2(num_vertices))`, the least `k` with `num_vertices ≤ 2^k`. -/
def calculateMaxLevel (num_vertices : Nat) : Nat :=
  if num_vertices ≤ 1 then 0
  else ((List.range (num_vertices + 1)).find? (fun k => num_vertices ≤ 2 ^ k)).getD 0

/-- The pairs `(rows[i], rows[j])`, `i < j`, in the order of the two nested loops of
`Initialize`. -/
def pairsOf : List Nat → List (Nat × Nat)
  | [] => []
  | r :: rest => rest.map (fun x => (r, x)) ++ pairsOf rest

/-- The state of one breadth-first search of `BuildSpanningForest`. -/
structure BFSState where
  visited : List Bool
  q : List Nat
  component_vertices : List Nat
  tree_edge_list : List (Nat × Nat)
  all_edges_in_comp : List Nat
  tree_edges : List Nat
  deriving DecidableEq, Repr

/-- The loop `for (int v : adj_list[u])` of the breadth-first search. -/
def bfsNeighbours (u : Nat) : List Nat → BFSState → BFSState
  | [], st => st
  | v :: rest, st =>
    let key := makeEdgeKey u v
    let st1 := { st with all_edges_in_comp := usetInsert key st.all_edges_in_comp }
    if !(st1.visited.getD v false) then
      bfsNeighbours u rest
        { st1 with
          visited := st1.visited.set v true
          component_vertices := st1.component_vertices ++ [v]
          tree_edge_list := st1.tree_edge_list ++ [(u, v)]
          tree_edges := usetInsert key st1.tree_edges
          q := st1.q ++ [v] }
    else bfsNeighbours u rest st1

/-- The loop `while (!q.empty())` of the breadth-first search. -/
def bfsLoop (adj_list : List (List Nat)) : Nat → BFSState → Option BFSState
  | 0, _ => none
  | f + 1, st =>
    match st.q with
    | [] => some st
    | u :: q1 => bfsLoop adj_list f (bfsNeighbours u (adj_list.getD u []) { st with q := q1 })

/-- The loop `for (int start = 0; start < num_rows; start++)` of
`BuildSpanningForest`, over the values of `start` still to be treated. -/
def buildForestLoop : List Nat → List Bool → ComponentDetector → Option ComponentDetector
  | [], _, d => some d
  | start :: rest, visited, d =>
    if !(d.row_active.getD start false) || visited.getD start false then
      buildForestLoop rest visited d
    else
      match bfsLoop d.adj_list (d.num_rows + 1)
          { visited := visited.set start true, q := [start], component_vertices := [start],
            tree_edge_list := [], all_edges_in_comp := [], tree_edges := d.tree_edges } with
      | none => none
      | some st =>
        match d.ett.batchLink st.tree_edge_list with
        | none => none
        | some ett1 =>
          match ett1.getComponentId start with
          | none => none
          | some comp_id =>
            let max_level := calculateMaxLevel st.component_vertices.length
            let nte := st.all_edges_in_comp.foldl
              (fun acc key => if key ∈ st.tree_edges then acc else acc.addEdge key max_level)
              (LayeredNonTreeEdges.new max_level)
            let comp_info : ComponentInfo :=
              { vertices := st.component_vertices.foldl (fun acc x => usetInsert x acc) [],
                non_tree_edges := some nte }
            buildForestLoop rest st.visited
              { d with
                ett := ett1
                tree_edges := st.tree_edges
                component_map := assocSet d.component_map comp_id comp_info }

/-- The method `ComponentDetector::BuildSpanningForest`. -/
def ComponentDetector.BuildSpanningForest (d : ComponentDetector) : Option ComponentDetector :=
  buildForestLoop (List.range d.num_rows) (List.replicate d.num_rows false) d

/-- The method `ComponentDetector::Initialize`. -/
def ComponentDetector.Initialize (d : ComponentDetector) (col_rows_map : List (Nat × List Nat)) :
    Option ComponentDetector :=
  let d1 := { d with col_to_rows := col_rows_map }
  let d2 := col_rows_map.foldl
    (fun acc e =>
      let a1 := { acc with
        row_to_cols := e.2.foldl (fun mp row => mapModify mp row (usetInsert e.1)) acc.row_to_cols }
      (pairsOf e.2).foldl (fun a pr => a.addEdgeToAdjList pr.1 pr.2) a1)
    d1
  d2.BuildSpanningForest

/-- The first loop of `GetBlocks`: group the active rows by component id. -/
def groupByComponent (d : ComponentDetector) : List Nat → List (Nat × List Nat) →
    Option (List (Nat × List Nat))
  | [], mp => some mp
  | row :: rest, mp =>
    if d.row_active.getD row false then
      match d.ett.getComponentId row with
      | none => none
      | some comp_id => groupByComponent d rest (mapModify mp comp_id (setInsert row))
    else groupByComponent d rest mp

/-- The method `ComponentDetector::GetBlocks`. -/
def ComponentDetector.GetBlocks (d : ComponentDetector) (block_rows : List Nat) :
    Option (List Block) :=
  match groupByComponent d block_rows [] with
  | none => none
  | some comp_rows_map =>
    if comp_rows_map.length ≤ 1 then some []
    else
      some (comp_rows_map.map (fun e =>
        Block.mk e.2 (e.2.foldl (fun cs r => (mapGet d.row_to_cols r).foldl
          (fun cs2 c => setInsert c cs2) cs) [])))

/-- The loop of `FindReplacementLayered` over the edges of one level: the
replacement found, if any, and `edges_to_demote`. -/
def scanLevel (d : ComponentDetector) : List Nat → List Nat → Option (Option (Nat × Nat) × List Nat)
  | [], dem => some (none, dem)
  | key :: rest, dem =>
    let e_u := (decodeEdgeKey key).1
    let e_v := (decodeEdgeKey key).2
    if !(d.row_active.getD e_u false) || !(d.row_active.getD e_v false) then
      scanLevel d rest (dem ++ [key])
    else
      match d.ett.getComponentId e_u, d.ett.getComponentId e_v with
      | some root_eu, some root_ev =>
        if root_eu ≠ root_ev then some (some (e_u, e_v), dem)
        else scanLevel d rest (dem ++ [key])
      | _, _ => none

/-- The loop `for (int level = max_level; level >= 0; level--)` of
`FindReplacementLayered`, over the levels still to be scanned. -/
def findReplacementLoop (d : ComponentDetector) :
    List Nat → LayeredNonTreeEdges → List (Nat × Int) →
    Option (Option (Nat × Nat) × LayeredNonTreeEdges × List (Nat × Int))
  | [], nt, eim => some (none, nt, eim)
  | level :: rest, nt, eim =>
    match scanLevel d (nt.getEdgesAtLevel level) [] with
    | none => none
    | some (some pr, _) => some (some pr, nt, eim)
    | some (none, dem) =>
      findReplacementLoop d rest
        (dem.foldl (fun a key => (a.demoteEdge key).2) nt)
        (dem.foldl (fun mp key =>
          if mp.any (fun e => e.1 = key) then assocSet mp key ((level : Int) - 1) else mp) eim)

/-- The method `ComponentDetector::FindReplacementLayered`: the replacement, the
component record after the demotions, and `edge_info_map`. -/
def ComponentDetector.FindReplacementLayered (d : ComponentDetector) (comp_info : ComponentInfo) :
    Option (Option (Nat × Nat) × ComponentInfo × List (Nat × Int)) :=
  match comp_info.non_tree_edges with
  | none => some (none, comp_info, d.edge_info_map)
  | some nt =>
    match findReplacementLoop d ((List.range (nt.max_level + 1)).reverse) nt d.edge_info_map with
    | none => none
    | some (r, nt1, eim) => some (r, { comp_info with non_tree_edges := some nt1 }, eim)

/-- The application of `non_tree_edges->removeEdge(key)` to `component_map[id]`, under
the guards `component_map.count(id)` and `non_tree_edges != nullptr`. -/
def removeNonTree (cm : List (Nat × ComponentInfo)) (id key : Nat) : List (Nat × ComponentInfo) :=
  match assocGet cm id with
  | none => cm
  | some ci =>
    match ci.non_tree_edges with
    | none => cm
    | some nt => assocSet cm id { ci with non_tree_edges := some (nt.removeEdge key) }

/-- The first loop of `DeleteEdges`: deactivate the rows and collect the edges. -/
def collectDeleted (deleted_rows : List Nat) :
    List Nat → ComponentDetector → List (Nat × Nat) → List Nat →
    ComponentDetector × List (Nat × Nat)
  | [], d, edges, _ => (d, edges)
  | u :: rest, d, edges, processed =>
    let d1 := { d with row_active := d.row_active.set u false }
    let r := (d1.adj_list.getD u []).foldl
      (fun (acc : List (Nat × Nat) × List Nat) v =>
        if !(d1.row_active.getD v false) || decide (v ∈ deleted_rows) then acc
        else if makeEdgeKey u v ∈ acc.2 then acc
        else (acc.1 ++ [(u, v)], acc.2 ++ [makeEdgeKey u v]))
      (edges, processed)
    collectDeleted deleted_rows rest d1 r.1 r.2

/-- The second loop of `DeleteEdges`, over `edges_to_delete`. -/
def deleteLoop (deleted_rows : List Nat) : List (Nat × Nat) → ComponentDetector →
    Option ComponentDetector
  | [], d => some d
  | (u, v) :: rest, d =>
    let key := makeEdgeKey u v
    let active_vertex := if u ∈ deleted_rows then v else u
    match d.ett.getComponentId active_vertex with
    | none => none
    | some component_id =>
      if d.ett.isTreeEdge u v then
        match d.ett.cut u v with
        | none => none
        | some (_, ett1) =>
          let d1 := { d with ett := ett1 }
          let new_comp_v_vertex := if u ∈ deleted_rows then u else v
          if new_comp_v_vertex ∉ deleted_rows then
            match d1.ett.getComponentId active_vertex, d1.ett.getComponentId new_comp_v_vertex with
            | some new_comp_u, some new_comp_v =>
              match assocGet d1.component_map component_id with
              | none => deleteLoop deleted_rows rest d1
              | some ci =>
                if new_comp_u ≠ new_comp_v then
                  match d1.FindReplacementLayered ci with
                  | none => none
                  | some (replacement, ci1, eim) =>
                    let d2 := { d1 with
                      component_map := assocSet d1.component_map component_id ci1
                      edge_info_map := eim }
                    match replacement with
                    | none => deleteLoop deleted_rows rest d2
                    | some (ru, rv) =>
                      match d2.ett.link ru rv with
                      | none => none
                      | some (_, ett2) =>
                        deleteLoop deleted_rows rest
                          { d2 with
                            ett := ett2
                            component_map := removeNonTree d2.component_map component_id (makeEdgeKey ru rv) }
                else deleteLoop deleted_rows rest d1
            | _, _ => none
          else deleteLoop deleted_rows rest d1
      else
        deleteLoop deleted_rows rest
          { d with component_map := removeNonTree d.component_map component_id key }

/-- The method `ComponentDetector::DeleteEdges`. -/
def ComponentDetector.DeleteEdges (d : ComponentDetector) (deleted_rows : List Nat) :
    Option ComponentDetector :=
  if deleted_rows.isEmpty then some d
  else
    let r := collectDeleted deleted_rows deleted_rows d [] []
    deleteLoop deleted_rows r.2 r.1

/-- The second loop of `AddEdges`: try to link each collected edge; an edge whose
link fails is stored as a non-tree edge at the top level of its component. -/
def addLoop : List (Nat × Nat) → ComponentDetector → Option ComponentDetector
  | [], d => some d
  | (u, v) :: rest, d =>
    match d.ett.link u v with
    | none => none
    | some (linked, ett1) =>
      let d1 := { d with ett := ett1 }
      if !linked then
        match d1.ett.getComponentId u with
        | none => none
        | some comp_id =>
          match assocGet d1.component_map comp_id with
          | none => addLoop rest d1
          | some ci =>
            match ci.non_tree_edges with
            | none => addLoop rest d1
            | some nt =>
              let nt1 := nt.addEdge (makeEdgeKey u v) (calculateMaxLevel ci.vertices.length)
              let ci1 : ComponentInfo := { ci with non_tree_edges := some nt1 }
              addLoop rest { d1 with component_map := assocSet d1.component_map comp_id ci1 }
      else addLoop rest d1

/-- The method `ComponentDetector::AddEdges`. -/
def ComponentDetector.AddEdges (d : ComponentDetector) (add_rows : List Nat) :
    Option ComponentDetector :=
  if add_rows.isEmpty then some d
  else
    let d1 := { d with row_active := add_rows.foldl (fun ra row => ra.set row true) d.row_active }
    let r := add_rows.foldl
      (fun (acc : List (Nat × Nat) × List Nat) u =>
        (d1.adj_list.getD u []).foldl
          (fun (acc2 : List (Nat × Nat) × List Nat) v =>
            if !(d1.row_active.getD v false) then acc2
            else if makeEdgeKey u v ∈ acc2.2 then acc2
            else (acc2.1 ++ [(u, v)], acc2.2 ++ [makeEdgeKey u v]))
          acc)
      (([] : List (Nat × Nat)), ([] : List Nat))
    addLoop r.1 d1

/-! ## DancingMatrix.h / DancingMatrix.cpp: the toroidal matrix -/

/-- The links and counters of `DancingMatrix`.  `left right up down col row` are
the fields of `Node`, indexed by arena index; `size` is `ColumnHeader::size`,
indexed by column; `rowRight[r]` is `RowIndex[r].right` (`none` is `nullptr`). -/
@[ext]
structure DancingMatrix where
  ROWS : Nat
  COLS : Nat
  left : List Nat
  right : List Nat
  up : List Nat
  down : List Nat
  col : List Nat
  row : List Nat
  size : List Int
  rowRight : List (Option Nat)
  rowSize : List Nat
  rowsSet : List Nat
  colsSet : List Nat
  ONE_COUNT : Nat
  col_to_rows : List (Nat × List Nat)
  row_to_cols : List (Nat × List Nat)
  InitBlock : Block
  useETT : Bool
  useIG : Bool
  dxz_mode : Bool
  single_thread_mode : Bool
  enableGraphSync : Bool
  detector : Option ComponentDetector
  incrementalGraph : Option IncrementalConnectedGraph
  deriving DecidableEq, Repr

/-- Number of nodes of the arena. -/
def DancingMatrix.nodes (m : DancingMatrix) : Nat := m.col.length

/-- Fuel that suffices for one walk round any circular list of the arena. -/
def DancingMatrix.fuel (m : DancingMatrix) : Nat := m.col.length + 1

/-- The header part of both constructors: `ColIndex[0..cols]` linked into the root
list, every header its own `up` and `down`, `ColIndex[i].col = i`, sizes `0`,
`RowIndex[0..rows)` with null `right`, the flags at their member initialisers.  (`root->down` is set to `&RowIndex[0]` in
the source and never read; it is left pointing to `root` here.) -/
def emptyMatrix (rows cols : Nat) (useIg useETT : Bool) : DancingMatrix where
  InitBlock := Block.mk [] []
  useETT := useETT
  useIG := useIg
  dxz_mode := false
  single_thread_mode := false
  enableGraphSync := true
  detector := none
  incrementalGraph := none
  ROWS := rows
  COLS := cols
  left := (List.range (cols + 1)).map (fun i => if i = 0 then cols else i - 1)
  right := (List.range (cols + 1)).map (fun i => if i = cols then 0 else i + 1)
  up := List.range (cols + 1)
  down := List.range (cols + 1)
  col := List.range (cols + 1)
  row := List.replicate (cols + 1) 0
  size := List.replicate (cols + 1) 0
  rowRight := List.replicate rows none
  rowSize := List.replicate rows 0
  rowsSet := []
  colsSet := []
  ONE_COUNT := 0
  col_to_rows := []
  row_to_cols := []

/-- The first loop of `insert`: `while (cur->down != &ColIndex[c] && cur->down->row < r)
cur = cur->down`. -/
def insertSeekDown (m : DancingMatrix) (r c : Nat) : Nat → Nat → Option Nat
  | 0, _ => none
  | f + 1, cur =>
    if nth m.down cur ≠ c ∧ nth m.row (nth m.down cur) < r then
      insertSeekDown m r c f (nth m.down cur)
    else some cur

/-- The second loop of `insert`: `while (cur->right != rowHead && cur->right->col < c)
cur = cur->right`. -/
def insertSeekRight (m : DancingMatrix) (rowHead c : Nat) : Nat → Nat → Option Nat
  | 0, _ => none
  | f + 1, cur =>
    if nth m.right cur ≠ rowHead ∧ nth m.col (nth m.right cur) < c then
      insertSeekRight m rowHead c f (nth m.right cur)
    else some cur

/-- The method `DancingMatrix::insert(r, c)`.  `none` when an index is outside the
allocated arrays or a loop does not terminate. -/
def DancingMatrix.insert (m : DancingMatrix) (r c : Nat) : Option DancingMatrix :=
  if r < m.ROWS ∧ c ≤ m.COLS then
    let new := m.nodes
    match insertSeekDown m r c m.fuel c with
    | none => none
    | some cur =>
      let dn := nth m.down cur
      -- newNode->down = cur->down; newNode->up = cur; cur->down->up = newNode; cur->down = newNode
      let up1 := (m.up ++ [cur]).set dn new
      let down1 := (m.down ++ [dn]).set cur new
      let m1 : DancingMatrix :=
        { m with
          size := m.size.set c (nthI m.size c + 1)
          rowSize := m.rowSize.set r (nth m.rowSize r + 1)
          col := m.col ++ [c]
          row := m.row ++ [r]
          up := up1
          down := down1 }
      match m.rowRight.getD r none with
      | none =>
        some { m1 with
          rowRight := m.rowRight.set r (some new)
          left := m.left ++ [new]
          right := m.right ++ [new] }
      | some rowHead =>
        match insertSeekRight m rowHead c m.fuel rowHead with
        | none => none
        | some cur2 =>
          let rt := nth m.right cur2
          -- newNode->right = cur->right; newNode->left = cur; cur->right->left = newNode; cur->right = newNode
          some { m1 with
            left := (m.left ++ [cur2]).set rt new
            right := (m.right ++ [rt]).set cur2 new }
  else none

/-- The inner loop of the file constructor over the column indices of one line:
range check (`exit(1)` is `none`), `insert`, and the bookkeeping maps and sets. -/
def loadLine (currentRow : Nat) : List Nat → DancingMatrix → Option DancingMatrix
  | [], m => some m
  | currentCol :: rest, m =>
    if currentCol < 1 ∨ currentCol > m.COLS then none
    else
      match m.insert currentRow currentCol with
      | none => none
      | some m1 =>
        loadLine currentRow rest
          { m1 with
            col_to_rows := mapModify m1.col_to_rows currentCol (fun l => l ++ [currentRow])
            row_to_cols := mapModify m1.row_to_cols currentRow (setInsert currentCol)
            ONE_COUNT := m1.ONE_COUNT + 1
            rowsSet := setInsert currentRow m1.rowsSet
            colsSet := setInsert currentCol m1.colsSet }

/-- The outer loop of the file constructor over the non-empty data lines; a line is
given by the column indices read from it after the leading tokens of its format.
The loop stops after the line that makes `currentRow >= rows`. -/
def loadLines : Nat → List (List Nat) → DancingMatrix → Option DancingMatrix
  | _, [], m => some m
  | currentRow, line :: rest, m =>
    match loadLine currentRow line m with
    | none => none
    | some m1 => if currentRow + 1 ≥ m1.ROWS then some m1 else loadLines (currentRow + 1) rest m1

/-- The vertical splice inside `cover`: `curR->down->up = curR->up;
curR->up->down = curR->down; --ColIndex[curR->col].size`. -/
def DancingMatrix.unlinkV (m : DancingMatrix) (y : Nat) : DancingMatrix :=
  let up1 := m.up.set (nth m.down y) (nth m.up y)
  let down1 := m.down.set (nth up1 y) (nth m.down y)
  { m with up := up1, down := down1, size := m.size.set (nth m.col y) (nthI m.size (nth m.col y) - 1) }

/-- The vertical splice inside `uncover`: `++ColIndex[curR->col].size;
curR->down->up = curR; curR->up->down = curR`. -/
def DancingMatrix.relinkV (m : DancingMatrix) (y : Nat) : DancingMatrix :=
  let up1 := m.up.set (nth m.down y) y
  let down1 := m.down.set (nth up1 y) y
  { m with up := up1, down := down1, size := m.size.set (nth m.col y) (nthI m.size (nth m.col y) + 1) }

/-- The row loop of `cover`: `curR = curC->right; while (curR != curC) { splice curR;
curR = curR->right; }`, entered with `curR`. -/
def coverRow (curC : Nat) : Nat → DancingMatrix → Nat → Option DancingMatrix
  | 0, _, _ => none
  | f + 1, m, curR =>
    if curR = curC then some m
    else coverRow curC f (m.unlinkV curR) (nth (m.unlinkV curR).right curR)

/-- The row loop of `uncover`: `curR = curC->left; while (curR != curC) { relink curR;
curR = curR->left; }`, entered with `curR`. -/
def uncoverRow (curC : Nat) : Nat → DancingMatrix → Nat → Option DancingMatrix
  | 0, _, _ => none
  | f + 1, m, curR =>
    if curR = curC then some m
    else uncoverRow curC f (m.relinkV curR) (nth (m.relinkV curR).left curR)

/-- The column loop of `cover(c)`: for each `curC` down from the header, splice the
other cells of its row and erase `curC->row` from `rowsSet`. -/
def coverLoop (c : Nat) : Nat → DancingMatrix → Nat → Option DancingMatrix
  | 0, _, _ => none
  | f + 1, m, curC =>
    if curC = c then some m
    else
      match coverRow curC m.fuel m (nth m.right curC) with
      | none => none
      | some m1 =>
        let m2 := { m1 with rowsSet := setErase (nth m1.row curC) m1.rowsSet }
        coverLoop c f m2 (nth m2.down curC)

/-- The column loop of `uncover(c)`: upwards from the header. -/
def uncoverLoop (c : Nat) : Nat → DancingMatrix → Nat → Option DancingMatrix
  | 0, _, _ => none
  | f + 1, m, curC =>
    if curC = c then some m
    else
      match uncoverRow curC m.fuel m (nth m.left curC) with
      | none => none
      | some m1 =>
        let m2 := { m1 with rowsSet := setInsert (nth m1.row curC) m1.rowsSet }
        uncoverLoop c f m2 (nth m2.up curC)

/-- The header splice `col->right->left = col->left; col->left->right = col->right`. -/
def DancingMatrix.unlinkH (m : DancingMatrix) (c : Nat) : DancingMatrix :=
  let left1 := m.left.set (nth m.right c) (nth m.left c)
  let right1 := m.right.set (nth left1 c) (nth m.right c)
  { m with left := left1, right := right1 }

/-- The header splice `col->right->left = col; col->left->right = col`. -/
def DancingMatrix.relinkH (m : DancingMatrix) (c : Nat) : DancingMatrix :=
  let left1 := m.left.set (nth m.right c) c
  let right1 := m.right.set (nth left1 c) c
  { m with left := left1, right := right1 }

/-- The method `DancingMatrix::cover(c)`. -/
def DancingMatrix.cover (m : DancingMatrix) (c : Nat) : Option DancingMatrix :=
  let m1 := m.unlinkH c
  let m2 := { m1 with colsSet := setErase c m1.colsSet }
  coverLoop c m2.fuel m2 (nth m2.down c)

/-- The method `DancingMatrix::uncover(c)`. -/
def DancingMatrix.uncover (m : DancingMatrix) (c : Nat) : Option DancingMatrix :=
  match uncoverLoop c m.fuel m (nth m.up c) with
  | none => none
  | some m1 =>
    let m2 := m1.relinkH c
    some { m2 with colsSet := setInsert c m2.colsSet }

/-- The inner loop of `IncrementalConnectedGraph::initialize` down one column:
`rowStates[row].activeColumns.insert(colIndex)` for every cell of the column. -/
def igInitRows (m : DancingMatrix) (colIndex curCol : Nat) :
    Nat → Nat → List RowState → Option (List RowState)
  | 0, _, _ => none
  | f + 1, curRow, rs =>
    if curRow = curCol then some rs
    else
      let st := rs.getD (nth m.row curRow) (RowState.mk [] [])
      igInitRows m colIndex curCol f (nth m.down curRow)
        (rs.set (nth m.row curRow) { st with activeColumns := usetInsert colIndex st.activeColumns })

/-- The outer loop of `IncrementalConnectedGraph::initialize` along the root list;
`colIndex` counts the headers met. -/
def igInitCols (m : DancingMatrix) : Nat → Nat → Nat → List RowState → Option (List RowState)
  | 0, _, _, _ => none
  | f + 1, curCol, colIndex, rs =>
    if curCol = 0 then some rs
    else
      match igInitRows m colIndex curCol m.fuel (nth m.down curCol) rs with
      | none => none
      | some rs1 => igInitCols m f (nth m.right curCol) (colIndex + 1) rs1

/-- The constructor `IncrementalConnectedGraph(rows)` followed by `initialize(matrix)`. -/
def IncrementalConnectedGraph.initializeGraph (rows : Nat) (m : DancingMatrix) :
    Option IncrementalConnectedGraph :=
  match igInitCols m m.fuel (nth m.right 0) 1 (List.replicate rows (RowState.mk [] [])) with
  | none => none
  | some rs => some { N := rows, rowStates := rs }

/-- The constant `MAX_ROW`. -/
def MAX_ROW : Nat := 250000

/-- The bound `INT_MAX + 1` of the type `int` of `rows` and `cols`. -/
def INT_RANGE : Nat := 2 ^ 31

/-- The file constructor `DancingMatrix(file_path, from, useIg, useETT)` on a file
whose header gives `cols` and `rows` and whose non-empty data lines carry the
column indices `lines`.  `none` stands for every abnormal end (`exit(1)`, an
exception, an access outside the arrays, undefined behaviour): the rows beyond
`MAX_ROW` throw, and the `int` expressions `cols + 1` (the length of `ColIndex`) and
`rows * cols` (in `dataNodes.reserve(rows * cols / 2)`) must not overflow. -/
def DancingMatrix.fromFile (cols rows : Nat) (lines : List (List Nat)) (useIg useETT : Bool) :
    Option DancingMatrix :=
  if rows > MAX_ROW then none
  else if cols + 1 ≥ INT_RANGE ∨ rows * cols ≥ INT_RANGE then none
  else
    match loadLines 0 lines (emptyMatrix rows cols useIg useETT) with
    | none => none
    | some m =>
      let m1 := { m with InitBlock := Block.mk m.rowsSet m.colsSet }
      match (if useETT then
              (match (ComponentDetector.new m1.ROWS m1.COLS).Initialize m1.col_to_rows with
               | none => none
               | some d => some { m1 with detector := some d })
            else some m1) with
      | none => none
      | some m2 =>
        if useIg then
          match IncrementalConnectedGraph.initializeGraph rows m2 with
          | none => none
          | some g => some { m2 with incrementalGraph := some g }
        else some m2

/-- The method `getComponentsByIG`. -/
def DancingMatrix.getComponentsByIG (m : DancingMatrix) (rows : List Nat) : Option (List Block) :=
  match m.incrementalGraph with
  | none => none
  | some g => g.computeComponentsInRows rows

/-- The column loop of `coverInBlock(c, block, removed_rows)`. -/
def coverInBlockLoop (c : Nat) : Nat → DancingMatrix → Block → Nat → Option (DancingMatrix × Block)
  | 0, _, _, _ => none
  | f + 1, m, block, curC =>
    if curC = c then some (m, block)
    else
      let row_id := nth m.row curC
      let m1 := if m.enableGraphSync && m.useIG then
          { m with incrementalGraph := m.incrementalGraph.map (fun g => g.deactivateRow row_id) }
        else m
      let block1 : Block := { block with rows := setErase row_id block.rows }
      match coverRow curC m1.fuel m1 (nth m1.right curC) with
      | none => none
      | some m2 => coverInBlockLoop c f m2 block1 (nth m2.down curC)

/-- The method `DancingMatrix::coverInBlock(c, block, removed_rows)`: the new matrix,
the new block and `removed_rows`, which no statement of the method writes. -/
def DancingMatrix.coverInBlock (m : DancingMatrix) (c : Nat) (block : Block)
    (removed_rows : List Nat) : Option (DancingMatrix × Block × List Nat) :=
  let m1 := m.unlinkH c
  let block1 : Block := { block with cols := setErase c block.cols }
  match coverInBlockLoop c m1.fuel m1 block1 (nth m1.down c) with
  | none => none
  | some (m2, block2) => some (m2, block2, removed_rows)

/-- The column loop of `uncoverInBlock(c, block)`. -/
def uncoverInBlockLoop (c : Nat) : Nat → DancingMatrix → Block → Nat → Option (DancingMatrix × Block)
  | 0, _, _, _ => none
  | f + 1, m, block, curC =>
    if curC = c then some (m, block)
    else
      let row_id := nth m.row curC
      match uncoverRow curC m.fuel m (nth m.left curC) with
      | none => none
      | some m1 =>
        let block1 : Block := { block with rows := setInsert row_id block.rows }
        let m2 := if m1.enableGraphSync && m1.useIG then
            { m1 with incrementalGraph := m1.incrementalGraph.map (fun g => g.reactivateRow row_id) }
          else m1
        uncoverInBlockLoop c f m2 block1 (nth m2.up curC)

/-- The method `DancingMatrix::uncoverInBlock(c, block)`. -/
def DancingMatrix.uncoverInBlock (m : DancingMatrix) (c : Nat) (block : Block) :
    Option (DancingMatrix × Block) :=
  match uncoverInBlockLoop c m.fuel m block (nth m.up c) with
  | none => none
  | some (m1, block1) => some (m1.relinkH c, { block1 with cols := setInsert c block1.cols })

/-- The constant `TARGET_THRESHOLD`. -/
def TARGET_THRESHOLD : Int := 5

/-- The method `selectColumnByLinear`: the header (column index) chosen; `none` on an
empty set, where the source dereferences `cols.begin()`. -/
def DancingMatrix.selectColumnByLinear (m : DancingMatrix) (cols : List Nat) (_threshold : Int) :
    Option Nat :=
  match cols with
  | [] => none
  | c0 :: _ =>
    some (cols.foldl
      (fun (best : Nat × Int) colId =>
        if nthI m.size colId < best.2 then (colId, nthI m.size colId) else best)
      (c0, nthI m.size c0)).1

/-- The operation `push` of the `std::priority_queue` ordered by `greater` on `size`:
the queue is kept as the list in which it will be popped; among equal sizes the
order of popping, which the library leaves open, is the order of pushing. -/
def heapPush (x : Nat × Int) : List (Nat × Int) → List (Nat × Int)
  | [] => [x]
  | y :: ys => if x.2 < y.2 then x :: y :: ys else y :: heapPush x ys

/-- The loop `while (!minHeap.empty())` of `selectColumnByMinHeap`. -/
def minHeapLoop (threshold : Int) : List (Nat × Int) → Nat → Int → Nat
  | [], bestCol, _ => bestCol
  | current :: rest, bestCol, bestDistance =>
    let distance := |current.2 - threshold|
    let bestCol1 := if distance < bestDistance then current.1 else bestCol
    let bestDistance1 := if distance < bestDistance then distance else bestDistance
    if distance = 0 then bestCol1
    else if current.2 > threshold ∧ distance > bestDistance1 then bestCol1
    else minHeapLoop threshold rest bestCol1 bestDistance1

/-- The method `selectColumnByMinHeap`; `none` on an empty set, where the source
reads `top()` of an empty queue. -/
def DancingMatrix.selectColumnByMinHeap (m : DancingMatrix) (cols : List Nat) (threshold : Int) :
    Option Nat :=
  match cols.foldl (fun h colId => heapPush (colId, nthI m.size colId) h) [] with
  | [] => none
  | firstCol :: rest => some (minHeapLoop threshold (firstCol :: rest) firstCol.1 |firstCol.2 - threshold|)

/-- The method `selectOptimalColumn`. -/
def DancingMatrix.selectOptimalColumn (m : DancingMatrix) (cols : List Nat) : Option Nat :=
  if m.single_thread_mode then m.selectColumnByMinHeap cols TARGET_THRESHOLD
  else m.selectColumnByLinear cols TARGET_THRESHOLD

/-- The value `std::hash<int>()(x)` as a `size_t`: the identity in the library the
sources are written for; a negative `int` wraps modulo `2^64`. -/
def stdHash (x : Int) : Nat := (x % (2 ^ 64 : Int)).toNat

/-- The method `hashBlockState`, with `size_t` arithmetic modulo `2^64`. -/
def hashBlockState (cols : List Nat) : Nat :=
  cols.foldl
    (fun hash col =>
      hash ^^^ ((stdHash (col : Int) + 0x9e3779b9 + (hash <<< 6) + (hash >>> 2)) % 2 ^ 64))
    0

/-! ## common.h: counts

`long double` arithmetic is taken as exact rational arithmetic; the two loops of
`normalize` get fuel `64`, more than any value built from 64-bit counts needs. -/

/-- The struct `ScientificCount`. -/
structure ScientificCount where
  mantissa : ℚ
  exponent : Int
  deriving DecidableEq, Repr

/-- The first loop of `normalize`: `while (abs(mantissa) >= 10) { mantissa /= 10; exponent++; }`. -/
def normalizeDown : Nat → ScientificCount → ScientificCount
  | 0, s => s
  | f + 1, s =>
    if |s.mantissa| ≥ 10 then normalizeDown f ⟨s.mantissa / 10, s.exponent + 1⟩ else s

/-- The second loop of `normalize`: `while (abs(mantissa) < 1 && mantissa != 0)
{ mantissa *= 10; exponent--; }`. -/
def normalizeUp : Nat → ScientificCount → ScientificCount
  | 0, s => s
  | f + 1, s =>
    if |s.mantissa| < 1 ∧ s.mantissa ≠ 0 then normalizeUp f ⟨s.mantissa * 10, s.exponent - 1⟩ else s

/-- The method `ScientificCount::normalize`. -/
def ScientificCount.normalize (s : ScientificCount) : ScientificCount :=
  if s.mantissa = 0 then ⟨s.mantissa, 0⟩ else normalizeUp 64 (normalizeDown 64 s)

/-- The constructor `ScientificCount(uint64_t value)`. -/
def ScientificCount.ofCount (value : Nat) : ScientificCount :=
  if value = 0 then ⟨0, 0⟩ else ScientificCount.normalize ⟨(value : ℚ), 0⟩

/-- The method `ScientificCount::isZero`. -/
def ScientificCount.isZero (s : ScientificCount) : Bool := decide (s.mantissa = 0)

/-- The operator `ScientificCount * ScientificCount`. -/
def ScientificCount.mul (a b : ScientificCount) : ScientificCount :=
  ScientificCount.normalize ⟨a.mantissa * b.mantissa, a.exponent + b.exponent⟩

/-- The operator `ScientificCount + ScientificCount`. -/
def ScientificCount.add (a b : ScientificCount) : ScientificCount :=
  if a.isZero then b
  else if b.isZero then a
  else
    let expDiff := a.exponent - b.exponent
    if expDiff > 15 ∨ expDiff < -15 then (if a.exponent > b.exponent then a else b)
    else if expDiff ≥ 0 then
      ScientificCount.normalize ⟨a.mantissa * (10 : ℚ) ^ expDiff.toNat + b.mantissa, b.exponent⟩
    else
      ScientificCount.normalize ⟨a.mantissa + b.mantissa * (10 : ℚ) ^ (-expDiff).toNat, a.exponent⟩

/-- The struct `DNNFResult`. -/
structure DNNFResult where
  count : Nat
  overflowed : Bool
  sciCount : ScientificCount
  deriving DecidableEq, Repr

/-- The constant `ULLONG_MAX`. -/
def ULLONG_MAX : Nat := 2 ^ 64 - 1

/-- The constructor `DNNFResult(uint64_t c)`. -/
def DNNFResult.ofCount (c : Nat) : DNNFResult := ⟨c, false, ScientificCount.ofCount c⟩

/-- The constructor `DNNFResult(const ScientificCount&)`. -/
def DNNFResult.ofSci (sc : ScientificCount) : DNNFResult := ⟨0, true, sc⟩

/-- The default constructor `DNNFResult()`. -/
def DNNFResult.zero : DNNFResult := ⟨0, false, ScientificCount.ofCount 0⟩

/-- The method `DNNFResult::isZero`. -/
def DNNFResult.isZero (r : DNNFResult) : Bool :=
  if r.overflowed then r.sciCount.isZero else decide (r.count = 0)

/-- The operator `DNNFResult * DNNFResult`. -/
def DNNFResult.mul (a b : DNNFResult) : DNNFResult :=
  if a.isZero || b.isZero then DNNFResult.ofCount 0
  else if a.overflowed || b.overflowed then DNNFResult.ofSci (a.sciCount.mul b.sciCount)
  else if a.count ≤ ULLONG_MAX / b.count then DNNFResult.ofCount (a.count * b.count)
  else DNNFResult.ofSci (a.sciCount.mul b.sciCount)

/-- The operator `DNNFResult + DNNFResult`. -/
def DNNFResult.add (a b : DNNFResult) : DNNFResult :=
  if a.isZero then b
  else if b.isZero then a
  else if a.overflowed || b.overflowed then DNNFResult.ofSci (a.sciCount.add b.sciCount)
  else if a.count ≤ ULLONG_MAX - b.count then DNNFResult.ofCount (a.count + b.count)
  else DNNFResult.ofSci (a.sciCount.add b.sciCount)

/-! ## DXD.h / DXDSolver.cpp: the search -/

/-- The enum `NodeType`. -/
inductive NodeType where
  | OR | Decision | Decomposed | Variable | Terminal
  deriving DecidableEq, Repr

/-- The struct `DNNFNode`.  A `shared_ptr<DNNFNode>` is an index into the list of all
nodes ever made; a field that the constructor used leaves unset is `0`, `[]` or
`none`. -/
structure DNNFNode where
  type : NodeType
  label : Int
  count : Nat
  children : List Nat
  left : Option Nat
  right : Option Nat
  deriving DecidableEq, Repr

/-- The class `DanceDNNF`: the matrix it derives from and its own members.  The
stopwatch is a counter `clock` of the calls of `timeBoundBroken()` and the number
`deadline` of the first call that answers `true` (`none`: no call does). -/
structure DanceDNNF where
  m : DancingMatrix
  clock : Nat
  deadline : Option Nat
  MAX_B_COUNT : Nat
  isParallelSearch : Bool
  num_of_DNNFNodes : Int
  max_depth : Int
  dnnfNodes : List DNNFNode
  node_table : List (Nat × Nat)
  countCache : List (Nat × DNNFResult)
  deriving DecidableEq, Repr

/-- The node `T`: `DNNFNode(NodeType::Terminal, -1, 1)`. -/
def DanceDNNF.T : Nat := 0

/-- The node `F`: `DNNFNode(NodeType::Terminal, -2, 0)`. -/
def DanceDNNF.F : Nat := 1

/-- The constructor `DanceDNNF(file_path, from, logger, useIG, useETT, ...)`. -/
def DanceDNNF.fromFile (cols rows : Nat) (lines : List (List Nat)) (useIG useETT : Bool)
    (deadline : Option Nat) : Option DanceDNNF :=
  match DancingMatrix.fromFile cols rows lines useIG useETT with
  | none => none
  | some m =>
    some
      { m := m, clock := 0, deadline := deadline, MAX_B_COUNT := 0, isParallelSearch := false,
        num_of_DNNFNodes := 0, max_depth := 1,
        dnnfNodes := [DNNFNode.mk NodeType.Terminal (-1) 1 [] none none,
                      DNNFNode.mk NodeType.Terminal (-2) 0 [] none none],
        node_table := [], countCache := [] }

/-- The outcome of a call that may throw or not return. -/
inductive Outcome (α : Type) where
  | ok (a : α)
  | timeBound
  | diverged
  deriving Repr

/-- The method `timer.timeBoundBroken()`: the answer and the advanced stopwatch. -/
def DanceDNNF.timeBoundBroken (s : DanceDNNF) : Bool × DanceDNNF :=
  ((match s.deadline with
    | none => false
    | some d => decide (d ≤ s.clock)),
   { s with clock := s.clock + 1 })

/-- The method `gen_key(r, x, y)`, with `size_t` arithmetic modulo `2^64`. -/
def DanceDNNF.gen_key (s : DanceDNNF) (r : Int) (x y : Nat) : Nat :=
  let lx := (s.dnnfNodes.getD x (DNNFNode.mk NodeType.Terminal 0 0 [] none none)).label
  let ly := (s.dnnfNodes.getD y (DNNFNode.mk NodeType.Terminal 0 0 [] none none)).label
  (stdHash r ^^^ ((stdHash lx <<< 1) % 2 ^ 64)) ^^^ ((stdHash ly <<< 2) % 2 ^ 64)

/-- The method `buildDecisionNode(r, lo, hi)`: the node returned and the new state. -/
def DanceDNNF.buildDecisionNode (s : DanceDNNF) (r : Int) (lo hi : Nat) : Nat × DanceDNNF :=
  if hi = DanceDNNF.F then (lo, s)
  else
    let key := s.gen_key r lo hi
    match assocGet s.node_table key with
    | some nd => (nd, s)
    | none =>
      let decision_node := s.dnnfNodes.length
      let s1 := { s with
        dnnfNodes := s.dnnfNodes ++ [DNNFNode.mk NodeType.Decision 0 0 [] (some lo) (some hi)]
        node_table := assocSet s.node_table key decision_node }
      let s2 := if s1.m.dxz_mode then { s1 with num_of_DNNFNodes := s1.num_of_DNNFNodes + 1 } else s1
      (decision_node, { s2 with num_of_DNNFNodes := s2.num_of_DNNFNodes + 1 })

/-- The method `buildDecomposableNode(subDNNFs)`. -/
def DanceDNNF.buildDecomposableNode (s : DanceDNNF) (subDNNFs : List Nat) : Nat × DanceDNNF :=
  (s.dnnfNodes.length,
   { s with dnnfNodes := s.dnnfNodes ++ [DNNFNode.mk NodeType.Decomposed (-3) 0 subDNNFs none none] })

/-- The method `setCacheCount`. -/
def DanceDNNF.setCacheCount (s : DanceDNNF) (key : Nat) (count : DNNFResult) : DanceDNNF :=
  { s with countCache := assocSet s.countCache key count }

/-- The call `detector->DeleteEdges(rows)`.  Without the ETT detector the pointer is
null and the call returns at once on the empty set; on another set it reads
through the null pointer. -/
def DanceDNNF.detectorDeleteEdges (s : DanceDNNF) (rows : List Nat) : Option DanceDNNF :=
  match s.m.detector with
  | none => if rows.isEmpty then some s else none
  | some d =>
    match d.DeleteEdges rows with
    | none => none
    | some d1 => some { s with m := { s.m with detector := some d1 } }

/-- The call `detector->AddEdges(rows)`, as `detectorDeleteEdges`. -/
def DanceDNNF.detectorAddEdges (s : DanceDNNF) (rows : List Nat) : Option DanceDNNF :=
  match s.m.detector with
  | none => if rows.isEmpty then some s else none
  | some d =>
    match d.AddEdges rows with
    | none => none
    | some d1 => some { s with m := { s.m with detector := some d1 } }

/-- The loop `while (curR != curC) { coverInBlock(curR->col, block, deleted_rows_);
curR = curR->right; }` of `DXD`. -/
def coverRowInBlock (curC : Nat) :
    Nat → DancingMatrix → Block → List Nat → Nat → Option (DancingMatrix × Block × List Nat)
  | 0, _, _, _, _ => none
  | f + 1, m, block, del, curR =>
    if curR = curC then some (m, block, del)
    else
      match m.coverInBlock (nth m.col curR) block del with
      | none => none
      | some (m1, block1, del1) => coverRowInBlock curC f m1 block1 del1 (nth m1.right curR)

/-- The loop `while (curR != curC) { uncoverInBlock(curR->col, block); curR =
curR->left; }` of `DXD`. -/
def uncoverRowInBlock (curC : Nat) :
    Nat → DancingMatrix → Block → Nat → Option (DancingMatrix × Block)
  | 0, _, _, _ => none
  | f + 1, m, block, curR =>
    if curR = curC then some (m, block)
    else
      match m.uncoverInBlock (nth m.col curR) block with
      | none => none
      | some (m1, block1) => uncoverRowInBlock curC f m1 block1 (nth m1.left curR)

/-- The type of `DXD(block, depth)` as a function of the state. -/
abbrev Search := DanceDNNF → Block → Int → Outcome (DNNFResult × Block × DanceDNNF)

/-- The method `serialSearch(blocks, parent_depth)`, `dxd` standing for the calls of
`DXD`; the blocks are local to the caller and are dropped. -/
def serialSearch (dxd : Search) (parent_depth : Int) :
    List Block → DNNFResult → DanceDNNF → Outcome (DNNFResult × DanceDNNF)
  | [], totalResult, s => Outcome.ok (totalResult, s)
  | b :: rest, totalResult, s =>
    match dxd s b (parent_depth + 1) with
    | Outcome.timeBound => Outcome.timeBound
    | Outcome.diverged => Outcome.diverged
    | Outcome.ok (result, _, s1) =>
      if result.isZero then Outcome.ok (DNNFResult.ofCount 0, s1)
      else serialSearch dxd parent_depth rest (totalResult.mul result) s1

/-- The parallel-for of `parallelSearchUseOmp`, its iterations taken one after
another in index order: `results`, `has_failure`, `has_timeout` and the state. -/
def parallelLoop (dxd : Search) (parent_depth : Int) :
    List Block → List DNNFResult → Bool → Bool → DanceDNNF →
    Option (List DNNFResult × Bool × Bool × DanceDNNF)
  | [], results, has_failure, has_timeout, s => some (results, has_failure, has_timeout, s)
  | b :: rest, results, has_failure, has_timeout, s =>
    if has_failure || has_timeout then
      parallelLoop dxd parent_depth rest (results ++ [DNNFResult.zero]) has_failure has_timeout s
    else
      match dxd s b (parent_depth + 1) with
      | Outcome.diverged => none
      | Outcome.timeBound =>
        -- the state a throwing call leaves behind is not used again: the later
        -- iterations are skipped and the exception is raised anew after the loop
        parallelLoop dxd parent_depth rest (results ++ [DNNFResult.zero]) has_failure true s
      | Outcome.ok (result, _, s1) =>
        if result.isZero then
          parallelLoop dxd parent_depth rest (results ++ [DNNFResult.zero]) true has_timeout s1
        else parallelLoop dxd parent_depth rest (results ++ [result]) has_failure has_timeout s1

/-- The method `parallelSearchUseOmp(blocks, parent_depth)`. -/
def parallelSearchUseOmp (dxd : Search) (parent_depth : Int) (blocks : List Block)
    (s : DanceDNNF) : Outcome (DNNFResult × DanceDNNF) :=
  match parallelLoop dxd parent_depth blocks [] false false s with
  | none => Outcome.diverged
  | some (results, has_failure, has_timeout, s1) =>
    if has_timeout then Outcome.timeBound
    else if has_failure then Outcome.ok (DNNFResult.ofCount 0, s1)
    else Outcome.ok (results.foldl (fun totalResult result => totalResult.mul result)
                      (DNNFResult.ofCount 1), s1)

/-- The branching loop of `DXD`: `while (curC != choose) { ... curC = curC->down; }`. -/
def branchLoop (dxd : Search) (choose : Nat) (depth : Int) :
    Nat → DanceDNNF → Block → DNNFResult → Nat → Nat →
    Outcome (DNNFResult × Block × DanceDNNF)
  | 0, _, _, _, _, _ => Outcome.diverged
  | f + 1, s, block, totalResult, x, curC =>
    if curC = choose then Outcome.ok (totalResult, block, s)
    else
      match coverRowInBlock curC s.m.fuel s.m block [] (nth s.m.right curC) with
      | none => Outcome.diverged
      | some (m1, block1, deleted_rows_) =>
        match ({ s with m := m1 } : DanceDNNF).detectorDeleteEdges deleted_rows_ with
        | none => Outcome.diverged
        | some s2 =>
          match dxd s2 block1 (depth + 1) with
          | Outcome.timeBound => Outcome.timeBound
          | Outcome.diverged => Outcome.diverged
          | Outcome.ok (result, block2, s3) =>
            -- after the loop above `curR == curC`, so `curR->row` is `curC->row`
            let s4 :=
              if !result.isZero then
                let y := s3.dnnfNodes.length
                let yNode := DNNFNode.mk NodeType.Decision (nth s3.m.row curC : Int) result.count [] none none
                let s3a := { s3 with dnnfNodes := s3.dnnfNodes ++ [yNode] }
                (s3a.buildDecisionNode (nth s3a.m.row curC : Int) x y).2
              else s3
            let totalResult1 := if !result.isZero then totalResult.add result else totalResult
            match uncoverRowInBlock curC s4.m.fuel s4.m block2 (nth s4.m.left curC) with
            | none => Outcome.diverged
            | some (m5, block3) =>
              match ({ s4 with m := m5 } : DanceDNNF).detectorAddEdges deleted_rows_ with
              | none => Outcome.diverged
              | some s6 => branchLoop dxd choose depth f s6 block3 totalResult1 x (nth s6.m.down curC)

/-- The method `DanceDNNF::DXD(block, depth)`; the first argument bounds the depth
of the recursion. -/
def DXD : Nat → Search
  | 0, _, _, _ => Outcome.diverged
  | fuel + 1, s0, block, depth =>
    let tb := s0.timeBoundBroken
    let s := tb.2
    if tb.1 then Outcome.timeBound
    else if block.cols.isEmpty then Outcome.ok (DNNFResult.ofCount 1, block, s)
    else
      let state := hashBlockState block.cols
      match assocGet s.countCache state with
      | some r => Outcome.ok (r, block, s)
      | none =>
        let branch : DanceDNNF → Outcome (DNNFResult × Block × DanceDNNF) := fun s =>
          match s.m.selectOptimalColumn block.cols with
          | none => Outcome.diverged
          | some choose =>
            if nthI s.m.size choose ≤ 0 then
              Outcome.ok (DNNFResult.ofCount 0, block, s.setCacheCount state (DNNFResult.ofCount 0))
            else
              match s.m.coverInBlock (nth s.m.col choose) block [] with
              | none => Outcome.diverged
              | some (m1, block1, deleted_rows) =>
                match ({ s with m := m1 } : DanceDNNF).detectorDeleteEdges deleted_rows with
                | none => Outcome.diverged
                | some s2 =>
                  match branchLoop (DXD fuel) choose depth s2.m.fuel s2 block1
                      (DNNFResult.ofCount 0) DanceDNNF.F (nth s2.m.down choose) with
                  | Outcome.timeBound => Outcome.timeBound
                  | Outcome.diverged => Outcome.diverged
                  | Outcome.ok (totalResult, block2, s3) =>
                    match s3.m.uncoverInBlock (nth s3.m.col choose) block2 with
                    | none => Outcome.diverged
                    | some (m4, block3) =>
                      match ({ s3 with m := m4 } : DanceDNNF).detectorAddEdges deleted_rows with
                      | none => Outcome.diverged
                      | some s5 => Outcome.ok (totalResult, block3, s5.setCacheCount state totalResult)
        if block.rows.length > 2 ∧ s.m.enableGraphSync then
          match (if s.m.useETT then
                  (match s.m.detector with
                   | none => none
                   | some d => d.GetBlocks block.rows)
                else if s.m.useIG then s.m.getComponentsByIG block.rows
                else some []) with
          | none => Outcome.diverged
          | some curBlock =>
            let s1 := { s with MAX_B_COUNT := max s.MAX_B_COUNT curBlock.length }
            if curBlock.length > 1 then
              let s2 : DanceDNNF :=
                if s1.m.useETT && s1.isParallelSearch then
                  { s1 with m := { s1.m with enableGraphSync := false } }
                else s1
              match (if s2.isParallelSearch then parallelSearchUseOmp (DXD fuel) depth curBlock s2
                     else serialSearch (DXD fuel) depth curBlock (DNNFResult.ofCount 1) s2) with
              | Outcome.timeBound => Outcome.timeBound
              | Outcome.diverged => Outcome.diverged
              | Outcome.ok (result, s3) => Outcome.ok (result, block, s3.setCacheCount state result)
            else branch s1
        else branch s

/-- The body of `startDXD` up to the value of `ResSols`: the flags are set and
`DXD(InitBlock, 1)` is run; `InitBlock` is passed by reference. -/
def DanceDNNF.startDXD (s : DanceDNNF) : Outcome (DNNFResult × DanceDNNF) :=
  let s1 := { s with isParallelSearch := false, MAX_B_COUNT := 1 }
  let s2 : DanceDNNF :=
    if !s1.m.dxz_mode then { s1 with m := { s1.m with single_thread_mode := true } } else s1
  match DXD (s2.m.InitBlock.cols.length + 1) s2 s2.m.InitBlock 1 with
  | Outcome.timeBound => Outcome.timeBound
  | Outcome.diverged => Outcome.diverged
  | Outcome.ok (r, block, s3) => Outcome.ok (r, { s3 with m := { s3.m with InitBlock := block } })

/-- The body of `startMultiThreadDXD` up to the value of `ResSols`. -/
def DanceDNNF.startMultiThreadDXD (s : DanceDNNF) : Outcome (DNNFResult × DanceDNNF) :=
  let s1 := { s with isParallelSearch := true, MAX_B_COUNT := 1 }
  match DXD (s1.m.InitBlock.cols.length + 1) s1 s1.m.InitBlock 1 with
  | Outcome.timeBound => Outcome.timeBound
  | Outcome.diverged => Outcome.diverged
  | Outcome.ok (r, block, s3) => Outcome.ok (r, { s3 with m := { s3.m with InitBlock := block } })

/-- The method `runDXZ`. -/
def DanceDNNF.runDXZ (s : DanceDNNF) : Outcome (DNNFResult × DanceDNNF) :=
  ({ s with m := { s.m with enableGraphSync := false, dxz_mode := true } } : DanceDNNF).startDXD

/-! ## main.cpp: dispatch -/

/-- The enum `algorithm_type`. -/
inductive algorithm_type where
  | dxd
  | mdxd
  deriving DecidableEq, Repr

/-- The `switch` of `main`: with `ett` the object is built with `useIG = false,
useETT = true`, without it with `useIG = true, useETT = false`; `dxd` runs
`startDXD`, `mdxd` runs `startMultiThreadDXD`.  `none` when the constructor fails.
The stopwatch never reaches its bound (`deadline = none`). -/
def mainSearch (type : algorithm_type) (use_ett : Bool) (cols rows : Nat) (lines : List (List Nat)) :
    Option (Outcome (DNNFResult × DanceDNNF)) :=
  match DanceDNNF.fromFile cols rows lines (!use_ett) use_ett none with
  | none => none
  | some s =>
    match type with
    | algorithm_type.dxd => some s.startDXD
    | algorithm_type.mdxd => some s.startMultiThreadDXD

/-- The exact count `ResSols.count` of a search that returned, with `MAX_B_COUNT`
after it. -/
def reported (o : Option (Outcome (DNNFResult × DanceDNNF))) : Option (Nat × Nat) :=
  match o with
  | some (Outcome.ok (r, s)) => if r.overflowed then none else some (r.count, s.MAX_B_COUNT)
  | _ => none

/-! ## Specification level notions -/

/-- The number of exact covers of the columns `cols` by the rows `rows` of the matrix
whose row `r` has its 1s in the columns `lines[r]`: the number of sets of rows (a
set is a sublist of the ascending list `rows`) such that every column of `cols`
contains a 1 in exactly one chosen row. -/
def exactCoverCount (lines : List (List Nat)) (rows cols : List Nat) : Nat :=
  (rows.sublists.filter (fun chosen =>
    cols.all (fun c => decide ((chosen.filter (fun r => decide (c ∈ lines.getD r []))).length = 1)))).length

/-- The input with 6 columns and 7 rows on which the union-find detector splits a
block that still holds a column without rows. -/
def splitInput : List (List Nat) := [[1, 2], [2, 6], [1, 3], [1, 4, 5], [3], [4], [5]]

/-! ## Well-formed matrix states -/

/-- The nodes `cur, next[cur], ...` met before `stop` is reached; `none` when `stop` is
not reached within the fuel. -/
def walk (next : List Nat) (stop : Nat) : Nat → Nat → Option (List Nat)
  | 0, _ => none
  | f + 1, cur =>
    if cur = stop then some [] else (walk next stop f (nth next cur)).map (fun l => cur :: l)

/-- The cells of column `c` from `c->down` downwards, back to the header. -/
def DancingMatrix.colRing (m : DancingMatrix) (c : Nat) : Option (List Nat) :=
  walk m.down c m.fuel (nth m.down c)

/-- The cells of column `c` from `c->up` upwards, back to the header. -/
def DancingMatrix.colRingUp (m : DancingMatrix) (c : Nat) : Option (List Nat) :=
  walk m.up c m.fuel (nth m.up c)

/-- The other cells of the row of cell `x`, from `x->right` rightwards, back to `x`. -/
def DancingMatrix.rowRing (m : DancingMatrix) (x : Nat) : Option (List Nat) :=
  walk m.right x m.fuel (nth m.right x)

/-- The other cells of the row of cell `x`, from `x->left` leftwards, back to `x`. -/
def DancingMatrix.rowRingLeft (m : DancingMatrix) (x : Nat) : Option (List Nat) :=
  walk m.left x m.fuel (nth m.left x)

/-- The uncovered columns: the headers from `root->right` rightwards, back to `root`. -/
def DancingMatrix.headerRing (m : DancingMatrix) : Option (List Nat) :=
  walk m.right 0 m.fuel (nth m.right 0)

/-- The headers from `root->left` leftwards, back to `root`. -/
def DancingMatrix.headerRingLeft (m : DancingMatrix) : Option (List Nat) :=
  walk m.left 0 m.fuel (nth m.left 0)

/-- The live cells of column `c` (empty when the list is not closed). -/
def DancingMatrix.cells (m : DancingMatrix) (c : Nat) : List Nat := (m.colRing c).getD []

/-- The list of uncovered columns (empty when the list is not closed). -/
def DancingMatrix.uncovered (m : DancingMatrix) : List Nat := (m.headerRing).getD []

/-- Well-formedness of the links of a matrix state.
* `lengths`: the six node arrays have one entry per node and the headers are nodes.
* `headers`: the root list is a closed doubly linked list of headers `1..COLS`.
* `columns`: the vertical list of every header `1..COLS` is a closed doubly linked list
  of cells of that column.
* `rows`: the horizontal list of every cell is a closed doubly linked list and holds
  exactly the other cells with the same `row`.
* `live`: every cell of the row of a live cell of an uncovered column is a live cell of
  an uncovered column. -/
structure WF (m : DancingMatrix) : Prop where
  lengths : m.left.length = m.nodes ∧ m.right.length = m.nodes ∧ m.up.length = m.nodes ∧
    m.down.length = m.nodes ∧ m.row.length = m.nodes ∧ m.COLS + 1 ≤ m.nodes
  headers : m.headerRing ≠ none ∧ m.headerRingLeft = some m.uncovered.reverse ∧
    m.uncovered.Nodup ∧ ∀ h ∈ m.uncovered, 1 ≤ h ∧ h ≤ m.COLS
  columns : ∀ k, k < m.COLS + 1 → 1 ≤ k →
    m.colRing k ≠ none ∧ m.colRingUp k = some (m.cells k).reverse ∧ (m.cells k).Nodup ∧
    ∀ x ∈ m.cells k, m.COLS < x ∧ x < m.nodes ∧ nth m.col x = k
  rows : ∀ x, x < m.nodes → m.COLS < x →
    (1 ≤ nth m.col x ∧ nth m.col x ≤ m.COLS) ∧
    m.rowRing x ≠ none ∧ m.rowRingLeft x = some ((m.rowRing x).getD []).reverse ∧
    ((m.rowRing x).getD []).Nodup ∧
    (∀ y ∈ (m.rowRing x).getD [], m.COLS < y ∧ y < m.nodes ∧ y ≠ x ∧ nth m.row y = nth m.row x) ∧
    ∀ y, y < m.nodes → m.COLS < y → y ≠ x → nth m.row y = nth m.row x → y ∈ (m.rowRing x).getD []
  live : ∀ c ∈ m.uncovered, ∀ x ∈ m.cells c, ∀ y, y < m.nodes → m.COLS < y →
    nth m.row y = nth m.row x → y ∈ m.cells (nth m.col y) ∧ nth m.col y ∈ m.uncovered

/-- A path `a → xs[0] → ... → xs[last] → b` along the pointer field `next`. -/
def Chain (next : List Nat) : Nat → List Nat → Nat → Prop
  | a, [], b => nth next a = b
  | a, x :: xs, b => nth next a = x ∧ Chain next x xs b

/-- The vertical list of header `k` is the closed doubly linked list of the cells `xs`
of column `k`. -/
def VRing (m : DancingMatrix) (k : Nat) (xs : List Nat) : Prop :=
  Chain m.down k xs k ∧ Chain m.up k xs.reverse k ∧ xs.Nodup ∧
  ∀ x ∈ xs, m.COLS < x ∧ x < m.nodes ∧ nth m.col x = k

/-- The vertical lists of all columns `1..COLS` are closed doubly linked lists, `rg k`
being the cells of column `k`. -/
def VGood (m : DancingMatrix) (rg : Nat → List Nat) : Prop :=
  (m.up.length = m.nodes ∧ m.down.length = m.nodes ∧ m.COLS + 1 ≤ m.nodes) ∧
  ∀ k, 1 ≤ k → k ≤ m.COLS → VRing m k (rg k)

/-- The cell `y` is linked into its vertical list: `y->down->up == y` and
`y->up->down == y`. -/
def DancingMatrix.linkedV (m : DancingMatrix) (y : Nat) : Prop :=
  nth m.up (nth m.down y) = y ∧ nth m.down (nth m.up y) = y

/-- The header `c` is linked into the root list. -/
def DancingMatrix.linkedH (m : DancingMatrix) (c : Nat) : Prop :=
  nth m.left (nth m.right c) = c ∧ nth m.right (nth m.left c) = c

/-- The other cells of the row of cell `x` (empty when the list is not closed). -/
def DancingMatrix.mates (m : DancingMatrix) (x : Nat) : List Nat := (m.rowRing x).getD []

/-- One call of a sequence of `cover` and `uncover` calls. -/
inductive CoverOp where
  | cover (c : Nat)
  | uncover (c : Nat)
  deriving DecidableEq, Repr

/-- The run of a sequence of `cover` and `uncover` calls. -/
def runOps : List CoverOp → DancingMatrix → Option DancingMatrix
  | [], m => some m
  | CoverOp.cover c :: rest, m =>
    match m.cover c with
    | none => none
    | some m1 => runOps rest m1
  | CoverOp.uncover c :: rest, m =>
    match m.uncover c with
    | none => none
    | some m1 => runOps rest m1

/-- Proper nesting of a sequence of calls, given the covers `stack` still unmatched
(most recent first) and the columns `unc` uncovered at its start: a `cover(c)` is
made while `c` is uncovered, an `uncover(c)` matches the most recent unmatched
`cover(c)`, and no cover is left unmatched at the end. -/
def properlyNested : List CoverOp → List Nat → List Nat → Bool
  | [], stack, _ => stack.isEmpty
  | CoverOp.cover c :: rest, stack, unc =>
    decide (c ∈ unc) && properlyNested rest (c :: stack) (unc.erase c)
  | CoverOp.uncover c :: rest, stack, unc =>
    match stack with
    | [] => false
    | top :: stack1 => decide (top = c) && properlyNested rest stack1 (c :: unc)

/-- The condition on `rowsSet` that every freshly built matrix meets: it is a
`std::set` (ascending) and holds the row of every live cell of an uncovered column. -/
def RowsOK (m : DancingMatrix) : Prop :=
  m.rowsSet.Sorted (· < ·) ∧ ∀ c ∈ m.uncovered, ∀ x ∈ m.cells c, nth m.row x ∈ m.rowsSet

/-- The horizontal lists of all cells are closed doubly linked lists, `mt x` being the
other cells of the row of cell `x`: exactly the other cells with the same `row`. -/
def RowsGood (m : DancingMatrix) (mt : Nat → List Nat) : Prop :=
  (m.left.length = m.nodes ∧ m.right.length = m.nodes) ∧
  ∀ x, m.COLS < x → x < m.nodes →
    (1 ≤ nth m.col x ∧ nth m.col x ≤ m.COLS) ∧
    Chain m.right x (mt x) x ∧ Chain m.left x (mt x).reverse x ∧ (mt x).Nodup ∧
    ∀ y, y ∈ mt x ↔ (m.COLS < y ∧ y < m.nodes ∧ y ≠ x ∧ nth m.row y = nth m.row x)

/-- The root list is the closed doubly linked list of the headers `hs`. -/
def HGood (m : DancingMatrix) (hs : List Nat) : Prop :=
  Chain m.right 0 hs 0 ∧ Chain m.left 0 hs.reverse 0 ∧ hs.Nodup ∧ ∀ h ∈ hs, 1 ≤ h ∧ h ≤ m.COLS

/-- Every cell of the row of a live cell of an uncovered column is a live cell of an
uncovered column. -/
def Live (m : DancingMatrix) (hs : List Nat) (rg mt : Nat → List Nat) : Prop :=
  ∀ c ∈ hs, ∀ x ∈ rg c, ∀ y ∈ mt x, y ∈ rg (nth m.col y) ∧ nth m.col y ∈ hs

/-- The invariant of the matrix under `cover` and `uncover`: `hs` are the uncovered
columns, `rg k` the live cells of column `k`, `mt x` the other cells of the row of `x`;
`rowsSet` is ascending and holds the row of every live cell of an uncovered column. -/
def Inv (m : DancingMatrix) (hs : List Nat) (rg mt : Nat → List Nat) : Prop :=
  HGood m hs ∧ VGood m rg ∧ RowsGood m mt ∧ Live m hs rg mt ∧
  m.rowsSet.Sorted (· < ·) ∧ ∀ c ∈ hs, ∀ x ∈ rg c, nth m.row x ∈ m.rowsSet

/-- The `cover` calls not yet matched, most recent first, each with the state it was
made in: `uncover` of the column on the current state gives that state back, which
meets the invariant with the column uncovered again and has its uncovered columns
in `colsSet`; `t` is the state before the oldest of them. -/
def Pending (mt : Nat → List Nat) :
    List (Nat × DancingMatrix) → DancingMatrix → List Nat → DancingMatrix → Prop
  | [], m, _, t => m = t
  | (c, mb) :: rest, m, hs, t =>
    m.uncover c = some mb ∧ c ∉ hs ∧
    ∃ (hsb : List Nat) (rgb : Nat → List Nat), Inv mb hsb rgb mt ∧
      (mb.colsSet.Sorted (· < ·) ∧ ∀ h ∈ hsb, h ∈ mb.colsSet) ∧
      (∀ x, x ∈ hsb ↔ x = c ∨ x ∈ hs) ∧ Pending mt rest mb hsb t

/-- The matrix built from the file with header `3 3` and the rows {1,2}, {3}, {2,3}. -/
def sampleMatrix : DancingMatrix :=
  (DancingMatrix.fromFile 3 3 [[1, 2], [3], [2, 3]] false false).getD (emptyMatrix 0 0 false false)

/-- The matrix built from the file with header `2 1` and the row {1}: column 2 has no
cell. -/
def emptyColumnMatrix : DancingMatrix :=
  (DancingMatrix.fromFile 2 1 [[1]] false false).getD (emptyMatrix 0 0 false false)

/-- The state of the file constructor on the `n`-by-`n` identity matrix after `k`
lines: node `j ≤ n` is the header of column `j`, node `n + 1 + i` the cell of row
`i`. -/
def identityLoaded (n k : Nat) (useIg useETT : Bool) : DancingMatrix where
  InitBlock := Block.mk [] []
  useETT := useETT
  useIG := useIg
  dxz_mode := false
  single_thread_mode := false
  enableGraphSync := true
  detector := none
  incrementalGraph := none
  ROWS := n
  COLS := n
  left := (List.range (n + 1 + k)).map (fun j => if j = 0 then n else if j ≤ n then j - 1 else j)
  right := (List.range (n + 1 + k)).map (fun j => if j = n then 0 else if j < n then j + 1 else j)
  up := (List.range (n + 1 + k)).map
    (fun j => if j = 0 then 0 else if j ≤ n then (if j ≤ k then n + j else j) else j - n)
  down := (List.range (n + 1 + k)).map
    (fun j => if j = 0 then 0 else if j ≤ n then (if j ≤ k then n + j else j) else j - n)
  col := (List.range (n + 1 + k)).map (fun j => if j ≤ n then j else j - n)
  row := (List.range (n + 1 + k)).map (fun j => if j ≤ n then 0 else j - n - 1)
  size := (List.range (n + 1)).map (fun j => if 1 ≤ j ∧ j ≤ k then (1 : Int) else 0)
  rowRight := (List.range n).map (fun r => if r < k then some (n + 1 + r) else none)
  rowSize := (List.range n).map (fun r => if r < k then 1 else 0)
  rowsSet := List.range k
  colsSet := (List.range k).map (fun i => i + 1)
  ONE_COUNT := k
  col_to_rows := (List.range k).map (fun i => (i + 1, [i]))
  row_to_cols := (List.range k).map (fun i => (i, [i + 1]))

/-- The links, columns, rows and sizes of `m` are those of the loaded `n`-by-`n`
identity matrix. -/
def IdentityLinks (n : Nat) (m : DancingMatrix) : Prop :=
  m.COLS = n ∧ m.left = (identityLoaded n n false false).left ∧
  m.right = (identityLoaded n n false false).right ∧ m.up = (identityLoaded n n false false).up ∧
  m.down = (identityLoaded n n false false).down ∧ m.col = (identityLoaded n n false false).col ∧
  m.row = (identityLoaded n n false false).row ∧ m.size = (identityLoaded n n false false).size

/-! ## Sample forests, detectors and call sequences -/

/-- The forest on three vertices after `link(0, 1)`. -/
def linkedForest1 : SplayETT := (((SplayETT.new 3).link 0 1).map Prod.snd).getD (SplayETT.new 0)

/-- The forest after `link(0, 1); link(2, 1)`. -/
def linkedForest2 : SplayETT := ((linkedForest1.link 2 1).map Prod.snd).getD (SplayETT.new 0)

/-- The forest after `link(0, 1); link(2, 1); cut(0, 1)`. -/
def cutForest : SplayETT := ((linkedForest2.cut 0 1).map Prod.snd).getD (SplayETT.new 0)

/-- The columns of three rows that share a column pairwise: the row-graph is the
triangle on the rows `0, 1, 2`. -/
def triangleCols : List (Nat × List Nat) := [(1, [0, 1]), (2, [0, 2]), (3, [1, 2])]

/-- The detector initialised on `triangleCols`. -/
def triangleDetector : ComponentDetector :=
  ((ComponentDetector.new 3 3).Initialize triangleCols).getD (ComponentDetector.new 0 0)

/-- The columns of three rows where row `1` shares a column with row `0` and another
with row `2`: the row-graph is the path `0 - 1 - 2`. -/
def pathCols : List (Nat × List Nat) := [(1, [0, 1]), (2, [1, 2])]

/-- The detector initialised on `pathCols`. -/
def pathDetector : ComponentDetector :=
  ((ComponentDetector.new 3 2).Initialize pathCols).getD (ComponentDetector.new 0 0)

/-- The detector initialised on one column shared by the rows `0` and `1`. -/
def edgeDetector : ComponentDetector :=
  ((ComponentDetector.new 2 1).Initialize [(1, [0, 1])]).getD (ComponentDetector.new 0 0)

/-- A call of `DeleteEdges` or of `AddEdges`. -/
inductive DetectorOp where
  | deleteEdges (rows : List Nat)
  | addEdges (rows : List Nat)
  deriving DecidableEq, Repr

/-- The calls of a sequence, one after the other. -/
def runDetectorOps : List DetectorOp → ComponentDetector → Option ComponentDetector
  | [], d => some d
  | DetectorOp.deleteEdges rows :: rest, d =>
    match d.DeleteEdges rows with
    | none => none
    | some d1 => runDetectorOps rest d1
  | DetectorOp.addEdges rows :: rest, d =>
    match d.AddEdges rows with
    | none => none
    | some d1 => runDetectorOps rest d1

/-- Proper nesting of a sequence of calls: every `AddEdges` restores the set of the
most recent unmatched `DeleteEdges`, and no `DeleteEdges` is left unmatched.  The
second argument is the stack of the unmatched sets. -/
def detectorNested : List DetectorOp → List (List Nat) → Bool
  | [], pending => pending.isEmpty
  | DetectorOp.deleteEdges rows :: rest, pending => detectorNested rest (rows :: pending)
  | DetectorOp.addEdges _ :: _, [] => false
  | DetectorOp.addEdges rows :: rest, top :: pending =>
    decide (rows = top) && detectorNested rest pending

/-- The classes of `IsConnected` on the rows `0 .. n-1`, as the table of all answers. -/
def connectedTable (d : ComponentDetector) (n : Nat) : List (List (Option Bool)) :=
  (List.range n).map (fun u => (List.range n).map (fun v => d.ett.connected u v))

/-- The keys stored in some bucket of some component of `component_map`. -/
def indexedKeys (d : ComponentDetector) : List Nat :=
  d.component_map.foldl
    (fun acc e =>
      match e.2.non_tree_edges with
      | none => acc
      | some nt => nt.levels.foldl (fun a l => a ++ l) acc)
    []

/-- The keys stored at the top level of the index of the component of row `u`. -/
def topLevelKeys (d : ComponentDetector) (u : Nat) : Option (List Nat) :=
  match d.ett.getComponentId u with
  | none => none
  | some comp_id =>
    match assocGet d.component_map comp_id with
    | none => some []
    | some ci =>
      match ci.non_tree_edges with
      | none => some []
      | some nt => some (nt.getEdgesAtLevel (calculateMaxLevel ci.vertices.length))

/-- The invariant of `LayeredNonTreeEdges`: every key of `edge_to_level` lies in
exactly one bucket, the one of its level, and every key of a bucket is a key of
`edge_to_level`. -/
def LayeredNonTreeEdges.BucketInv (s : LayeredNonTreeEdges) : Prop :=
  (∀ e ∈ s.edge_to_level, e.2 < s.levels.length ∧
    ∀ i, i < s.levels.length → (e.1 ∈ s.levels.getD i [] ↔ i = e.2)) ∧
  (∀ l ∈ s.levels, ∀ k ∈ l, ∃ e ∈ s.edge_to_level, e.1 = k)

/-- The parent pointers of the pool form a forest: parents lie in the pool and `rank`
(for instance the depth) decreases from a node to its parent and is below the number of
nodes; the nodes carry distinct `node_id`s; the vertex nodes lie in the pool. -/
def SplayETT.Forest (t : SplayETT) (rank : Nat → Nat) : Prop :=
  (∀ x p, x < t.pool.length → (t.node x).parent = some p →
    p < t.pool.length ∧ rank p < rank x) ∧
  (∀ x, x < t.pool.length → rank x < t.pool.length) ∧
  (∀ x y, x < t.pool.length → y < t.pool.length →
    (t.node x).node_id = (t.node y).node_id → x = y) ∧
  (∀ v ∈ t.vertexNodes, v < t.pool.length)

/-- The test of `Forest` for the ranks given as a table. -/
def SplayETT.forestCheck (t : SplayETT) (ranks : List Nat) : Bool :=
  (List.range t.pool.length).all (fun x =>
    (match (t.node x).parent with
      | none => true
      | some p => decide (p < t.pool.length) && decide (ranks.getD p 0 < ranks.getD x 0)) &&
    decide (ranks.getD x 0 < t.pool.length) &&
    (List.range t.pool.length).all (fun y =>
      decide ((t.node x).node_id = (t.node y).node_id → x = y))) &&
  t.vertexNodes.all (fun v => decide (v < t.pool.length))

/-- The active rows of a row set. -/
def ComponentDetector.activeRows (d : ComponentDetector) (rows : List Nat) : List Nat :=
  rows.filter (fun r => d.row_active.getD r false)

/-- The triangle detector after `DeleteEdges({0})`: the rows `1` and `2` are alone. -/
def triangleDeleted : ComponentDetector :=
  (triangleDetector.DeleteEdges [0]).getD (ComponentDetector.new 0 0)

/-- The state of the first loop of `GetBlocks` after the rows `pre`: the keys of the
map are distinct, and the entry of an id holds, in ascending order, the active rows of
`pre` with that id. -/
def GroupedBy (d : ComponentDetector) (mp : List (Nat × List Nat)) (pre : List Nat) : Prop :=
  mp.Pairwise (fun a b => a.1 ≠ b.1) ∧
  (∀ e ∈ mp, e.2 ≠ [] ∧ e.2.Sorted (· < ·) ∧
    ∀ r, r ∈ e.2 ↔ (r ∈ pre ∧ d.row_active.getD r false = true ∧
      d.ett.getComponentId r = some e.1)) ∧
  (∀ r ∈ pre, d.row_active.getD r false = true → ∃ e ∈ mp, d.ett.getComponentId r = some e.1)

/-! ## main.cpp: arguments and exit code -/

/-- The value of `std::stoi(s)`: leading blanks are skipped, an optional sign and the
longest run of decimal digits are read; `none` when the call throws
(`invalid_argument` when no digit is read, `out_of_range` outside `int`). -/
def stoi (s : String) : Option Int :=
  let cs := s.toList.dropWhile Char.isWhitespace
  let neg : Bool := cs.head? = some '-'
  let ds := if cs.head? = some '-' ∨ cs.head? = some '+' then cs.tail else cs
  let digits := ds.takeWhile Char.isDigit
  if digits.isEmpty then none
  else
    let v : Int := digits.foldl (fun a c => 10 * a + ((c.toNat - 48 : Nat) : Int)) 0
    let w : Int := if neg then -v else v
    if w < -(2 ^ 31 : Int) ∨ w ≥ (2 ^ 31 : Int) then none else some w

/-- The function `parseAlgorithmType`; `none` when it throws `invalid_argument`. -/
def parseAlgorithmType (name : String) : Option algorithm_type :=
  if name = "dxd" then some algorithm_type.dxd
  else if name = "mdxd" then some algorithm_type.mdxd
  else none

/-- The constant `DEFAULT_THREADS`. -/
def DEFAULT_THREADS : Int := 16

/-- The exit code of `main(argc, argv)`.  `argv` holds the program name and the
arguments; `file path read_mode` is the header and the data lines of the file at
`path` as the constructor reads them, `none` when the file cannot be opened.  Every
`std::exception` thrown inside the `try` block is caught and the function goes on
to `return 0`.  The result is `none` when the model does not fix the exit code:
the loader ends abnormally (see `DancingMatrix.fromFile`) or the search does not
return. -/
def main (argv : List String) (file : String → Int → Option (Nat × Nat × List (List Nat))) :
    Option Nat :=
  if argv.length < 4 then some 1
  else
    let algType := argv.getD 1 ""
    let input_file := argv.getD 2 ""
    match stoi (argv.getD 3 "") with
    | none => some 0
    | some read_mode =>
      let use_ett : Bool := if argv.length > 4 then decide (argv.getD 4 "" = "ett") else false
      match (if argv.length > 5 then stoi (argv.getD 5 "") else some DEFAULT_THREADS) with
      | none => some 0
      | some _ =>
        match parseAlgorithmType algType with
        | none => some 0
        | some type =>
          match file input_file read_mode with
          | none => some 0
          | some (cols, rows, lines) =>
            match mainSearch type use_ett cols rows lines with
            | none => none
            | some Outcome.diverged => none
            | some Outcome.timeBound => some 0
            | some (Outcome.ok _) => some 0

/-! ## Notions and sample states for the cache and the DAG -/

/-- The state an object is left in by a search that returned. -/
def searchState (o : Option (Outcome (DNNFResult × DanceDNNF))) : Option DanceDNNF :=
  match o with
  | some (Outcome.ok (_, s)) => some s
  | _ => none

/-- The rows of the matrix all of whose 1s lie in the columns `S`. -/
def rowsWithin (lines : List (List Nat)) (S : List Nat) : List Nat :=
  (List.range lines.length).filter (fun r => (lines.getD r []).all (fun c => decide (c ∈ S)))

/-- The exact count stored in `countCache` under the hash of the column set `S`. -/
def cachedCount (s : DanceDNNF) (S : List Nat) : Option Nat :=
  match assocGet s.countCache (hashBlockState S) with
  | some r => if r.overflowed then none else some r.count
  | none => none

/-- The object of a matrix with one column and two rows, after two nodes `y` have been
made as `DXD` makes them: `make_shared<DNNFNode>(NodeType::Decision, row, count)`
with `row = 0` and the counts 1 and 2, and a third one for the row 1. -/
def sampleDag : DanceDNNF :=
  match DanceDNNF.fromFile 1 2 [[1], [1]] true false none with
  | some s =>
    { s with dnnfNodes := s.dnnfNodes ++
        [DNNFNode.mk NodeType.Decision 0 1 [] none none,
         DNNFNode.mk NodeType.Decision 0 2 [] none none,
         DNNFNode.mk NodeType.Decision 1 1 [] none none] }
  | none =>
    { m := emptyMatrix 0 0 false false, clock := 0, deadline := none, MAX_B_COUNT := 0,
      isParallelSearch := false, num_of_DNNFNodes := 0, max_depth := 1, dnnfNodes := [],
      node_table := [], countCache := [] }

/-- The nodes of the given type among all nodes made. -/
def nodesOfType (s : DanceDNNF) (t : NodeType) : List DNNFNode :=
  s.dnnfNodes.filter (fun nd => decide (nd.type = t))

/-! ## Invariants of the DAG members -/

/-- The members of the object that hold the DAG: all nodes made and `node_table`. -/
def DanceDNNF.dag (s : DanceDNNF) : List DNNFNode × List (Nat × Nat) := (s.dnnfNodes, s.node_table)

/-- The two statements `auto y = make_shared<DNNFNode>(NodeType::Decision, row, count);
buildDecisionNode(row, x, y);` of the branching loop of `DXD`. -/
def DanceDNNF.recordBranch (s : DanceDNNF) (row : Int) (count : Nat) (x : Nat) : DanceDNNF :=
  (({ s with dnnfNodes := s.dnnfNodes ++ [DNNFNode.mk NodeType.Decision row count [] none none] } :
      DanceDNNF).buildDecisionNode row x s.dnnfNodes.length).2

/-- Every node stored in `node_table` is one of the nodes made, is a Decision node and
has a high (right) child other than the terminal `F`. -/
def DanceDNNF.TableReduced (s : DanceDNNF) : Prop :=
  ∀ e ∈ s.node_table, ∃ nd hi, s.dnnfNodes[e.2]? = some nd ∧ nd.type = NodeType.Decision ∧
    nd.right = some hi ∧ hi ≠ DanceDNNF.F

/-! ## Notions for the union-find detector -/

/-- The active columns of a row in the union-find detector. -/
def IncrementalConnectedGraph.active (g : IncrementalConnectedGraph) (r : Nat) : List Nat :=
  (g.rowStates.getD r (RowState.mk [] [])).activeColumns

/-- Two rows of `rows` share an active column. -/
def IncrementalConnectedGraph.Share (g : IncrementalConnectedGraph) (rows : List Nat)
    (u v : Nat) : Prop :=
  u ∈ rows ∧ v ∈ rows ∧ ∃ c, c ∈ g.active u ∧ c ∈ g.active v

/-- The node `r` is the root that the parent links lead to from `x`. -/
def RepOf (parent : List Nat) (x r : Nat) : Prop :=
  ∃ k, (nth parent)^[k] x = r ∧ nth parent r = r

/-- The union-find arrays are well formed: the three arrays have `N` entries, parents are
inside the array, and the rank grows along every parent link. -/
structure UFInv (N : Nat) (uf : LocalUF) : Prop where
  plen : uf.parent.length = N
  rlen : uf.rank.length = N
  clen : uf.cols.length = N
  plt : ∀ x, x < N → nth uf.parent x < N
  rk : ∀ x, x < N → nth uf.parent x ≠ x → nth uf.rank x < nth uf.rank (nth uf.parent x)

/-- Two rows occur together in the rows of one of the columns `done`. -/
def Linked (done : List (Nat × List Nat)) (x y : Nat) : Prop :=
  ∃ e ∈ done, x ∈ e.2 ∧ y ∈ e.2

/-- The function `rep` gives the root of every node below `N` of a well-formed
union-find. -/
def Reps (N : Nat) (uf : LocalUF) (rep : Nat → Nat) : Prop :=
  UFInv N uf ∧ ∀ x, x < N → RepOf uf.parent x (rep x)

/-- The state of the loop of `rebuildLocally` over the columns: `rep` gives the roots,
nodes with one root are joined by rows occurring together in a column of `doneS`,
the rows of each column of `doneC` have one root, and the columns collected at a
root are the columns of `doneC` with a row of that root. -/
structure Rebuilding (N : Nat) (uf : LocalUF) (rep : Nat → Nat)
    (doneS doneC : List (Nat × List Nat)) : Prop where
  reps : Reps N uf rep
  sound : ∀ x y, x < N → y < N → rep x = rep y → Relation.ReflTransGen (Linked doneS) x y
  complete : ∀ e ∈ doneC, ∀ x ∈ e.2, ∀ y ∈ e.2, rep x = rep y
  cols : ∀ r, r < N → rep r = r →
    ∀ c, c ∈ uf.cols.getD r [] ↔ ∃ e ∈ doneC, e.1 = c ∧ ∃ x ∈ e.2, rep x = r

/-- The map `mp` from columns to rows indexes the pairs `P` of a row and a column: the
rows of an entry are the rows paired with its key, and every paired column is a key. -/
def ColIndexed (mp : List (Nat × List Nat)) (P : Nat → Nat → Prop) : Prop :=
  (∀ e ∈ mp, ∀ x ∈ e.2, P x e.1) ∧ (∀ e ∈ mp, ∀ x, P x e.1 → x ∈ e.2) ∧
  (∀ x c, P x c → ∃ e ∈ mp, e.1 = c)

/-- The state of the grouping loop of `computeComponentsInRows` after the rows `pre`:
the keys of the map are distinct, the entry of a root holds the rows of `pre` with
that root, in their order, and is not empty. -/
def GroupedByRoot (rep : Nat → Nat) (mp : List (Nat × List Nat)) (pre : List Nat) : Prop :=
  mp.Pairwise (fun a b => a.1 ≠ b.1) ∧
  (∀ e ∈ mp, e.2 = pre.filter (fun r => decide (rep r = e.1)) ∧ e.2 ≠ []) ∧
  (∀ r ∈ pre, ∃ e ∈ mp, e.1 = rep r)

/-- A union-find detector with three rows: row 0 has the active columns 1 and 2, row 1
the column 2, row 2 the column 3. -/
def sampleGraph : IncrementalConnectedGraph :=
  ⟨3, [RowState.mk [1, 2] [], RowState.mk [2] [], RowState.mk [3] []]⟩

/-! ## Notions for the frame of `DXD` -/

/-- The state `m1` differs from `m` at most in the links `left`, `right`, `up`, `down`, in
the column sizes and in the union-find graph: what `coverInBlock` and
`uncoverInBlock` write. -/
def Touched (m1 m : DancingMatrix) : Prop :=
  m1 = { m with left := m1.left, right := m1.right, up := m1.up, down := m1.down,
                size := m1.size, incrementalGraph := m1.incrementalGraph }

/-- The state `m1` differs from `m` at most in the union-find graph and in the flag
`enableGraphSync`: all links and all column sizes are those of `m`. -/
def AuxEq (m1 m : DancingMatrix) : Prop :=
  m1 = { m with incrementalGraph := m1.incrementalGraph, enableGraphSync := m1.enableGraphSync }

/-- The invariant of a block under `coverInBlock` and `uncoverInBlock`: the matrix is well
formed (`hs` are the uncovered columns, `rg k` the live cells of column `k`, `mt x`
the other cells of the row of `x`), the cells of a row lie in distinct columns, the
block's sets are ascending, its columns are uncovered, the rows of their live cells
are in `block.rows`, the columns of those rows are in `block.cols`, and the header of a
column of the block names that column. -/
structure BInv (m : DancingMatrix) (hs : List Nat) (rg mt : Nat → List Nat) (block : Block) :
    Prop where
  hgood : HGood m hs
  vgood : VGood m rg
  rgood : RowsGood m mt
  live : Live m hs rg mt
  distinct : ∀ x, m.COLS < x → x < m.nodes → ∀ y ∈ mt x, nth m.col y ≠ nth m.col x
  rsorted : block.rows.Sorted (· < ·)
  csorted : block.cols.Sorted (· < ·)
  cols_unc : ∀ c ∈ block.cols, c ∈ hs
  rows_in : ∀ c ∈ block.cols, ∀ x ∈ rg c, nth m.row x ∈ block.rows
  closed : ∀ c ∈ block.cols, ∀ x ∈ rg c, ∀ y ∈ mt x, nth m.col y ∈ block.cols
  hdr : ∀ c ∈ block.cols, nth m.col c = c

/-- The rows `coverInBlock(c, ...)` takes out, in the order of the column loop: the
`row` of every cell the loop stops at. -/
def coverTrace (c : Nat) : Nat → DancingMatrix → Nat → List Nat
  | 0, _, _ => []
  | f + 1, m, curC =>
    if curC = c then []
    else
      match coverRow curC m.fuel m (nth m.right curC) with
      | none => []
      | some m1 => nth m.row curC :: coverTrace c f m1 (nth m1.down curC)

/-- The rows `uncoverInBlock(c, ...)` puts back, in the order of the column loop. -/
def uncoverTrace (c : Nat) : Nat → DancingMatrix → Nat → List Nat
  | 0, _, _ => []
  | f + 1, m, curC =>
    if curC = c then []
    else
      match uncoverRow curC m.fuel m (nth m.left curC) with
      | none => []
      | some m1 => nth m.row curC :: uncoverTrace c f m1 (nth m1.up curC)

/-- The columns `colsOf r` that a detector records for the rows of the block are the
columns of the block in which the row has a live cell. -/
def ColsOK (colsOf : Nat → List Nat) (m : DancingMatrix) (rg : Nat → List Nat) (block : Block) :
    Prop :=
  (∀ r ∈ block.rows, ∀ c ∈ colsOf r, c ∈ block.cols ∧ ∃ x ∈ rg c, nth m.row x = r) ∧
  ∀ c ∈ block.cols, ∀ x ∈ rg c, c ∈ colsOf (nth m.row x)

/-- The union-find graph is in step with the block: every row of the block is a row of
the graph with no removed column, its active columns are distinct and are exactly the
columns of the block in which the row has a live cell. -/
def IGOK (m : DancingMatrix) (rg : Nat → List Nat) (block : Block) : Prop :=
  ∃ g, m.incrementalGraph = some g ∧ g.rowStates.length = g.N ∧
    (∀ r ∈ block.rows, r < g.N ∧
      (g.rowStates.getD r (RowState.mk [] [])).removedColumns = [] ∧ (g.active r).Nodup) ∧
    ColsOK g.active m rg block

/-- The Euler-tour detector is in step with the block: every row of the block is active
and has a component id, `row_to_cols` of the row holds exactly the columns of the block
in which the row has a live cell, and two rows of the block that share a column have the
same component id. -/
def ETTOK (m : DancingMatrix) (rg : Nat → List Nat) (block : Block) : Prop :=
  ∃ d, m.detector = some d ∧
    (∀ r ∈ block.rows, d.row_active.getD r false = true ∧
      (d.ett.getComponentId r).isSome = true) ∧
    ColsOK (fun r => mapGet d.row_to_cols r) m rg block ∧
    ∀ u ∈ block.rows, ∀ v ∈ block.rows,
      (∃ c, c ∈ mapGet d.row_to_cols u ∧ c ∈ mapGet d.row_to_cols v) →
      d.ett.getComponentId u = d.ett.getComponentId v

/-- The detector that `DXD` asks for components is in step with the block; nothing is
asked of it once `enableGraphSync` is off. -/
def GOK (m : DancingMatrix) (rg : Nat → List Nat) (block : Block) : Prop :=
  m.enableGraphSync = true →
    (m.useETT = true → ETTOK m rg block) ∧
    (m.useETT = false → m.useIG = true → IGOK m rg block)

/-- The state `a` is the state `b` up to the union-find graph and the flag
`enableGraphSync`; the flag is not switched on, and without the Euler-tour detector
the two states are equal. -/
def Rel (a b : DancingMatrix) : Prop :=
  AuxEq a b ∧ (a.enableGraphSync = true → b.enableGraphSync = true) ∧ (b.useETT = false → a = b)

/-- Every call of `dxd` that returns gives back the block and the matrix it was
entered with. -/
def FrameOK (mt : Nat → List Nat) (dxd : Search) : Prop :=
  ∀ (s : DanceDNNF) (block : Block) (depth : Int) (r : DNNFResult) (b1 : Block) (s1 : DanceDNNF),
    dxd s block depth = Outcome.ok (r, b1, s1) →
    (∃ hs rg, BInv s.m hs rg mt block ∧ GOK s.m rg block) → b1 = block ∧ Rel s1.m s.m

/-- The state that `deactivateRow` gives a row. -/
def RowState.deactivated (st : RowState) : RowState :=
  RowState.mk [] (st.activeColumns.foldl (fun acc c => usetInsert c acc) st.removedColumns)

/-- The state that `reactivateRow` gives a row. -/
def RowState.reactivated (st : RowState) : RowState :=
  RowState.mk (st.removedColumns.foldl (fun acc c => usetInsert c acc) st.activeColumns) []

/-- What a call returned, when it returned. -/
def returned {α : Type} (o : Outcome α) : Option α :=
  match o with
  | Outcome.ok a => some a
  | _ => none

/-- The object built from the file with header `4 4` and the rows {1,2}, {3}, {2,3}, {4},
with the union-find detector: the rows 0, 1, 2 are joined by shared columns, row 3
stands alone. -/
def frameSample : DanceDNNF :=
  match DanceDNNF.fromFile 4 4 [[1, 2], [3], [2, 3], [4]] true false none with
  | some s => s
  | none =>
    { m := emptyMatrix 0 0 false false, clock := 0, deadline := none, MAX_B_COUNT := 0,
      isParallelSearch := false, num_of_DNNFNodes := 0, max_depth := 1, dnnfNodes := [],
      node_table := [], countCache := [] }

/-- The object built from the same file with the Euler-tour detector, set to search in
parallel as `startMultiThreadDXD` sets it. -/
def frameSampleTour : DanceDNNF :=
  match DanceDNNF.fromFile 4 4 [[1, 2], [3], [2, 3], [4]] false true none with
  | some s => { s with isParallelSearch := true }
  | none =>
    { m := emptyMatrix 0 0 false false, clock := 0, deadline := none, MAX_B_COUNT := 0,
      isParallelSearch := false, num_of_DNNFNodes := 0, max_depth := 1, dnnfNodes := [],
      node_table := [], countCache := [] }

/-- The Euler-tour detector of `frameSampleTour`. -/
def frameDetector : ComponentDetector :=
  frameSampleTour.m.detector.getD (ComponentDetector.new 0 0)

/-- The object built from the file with header `2 1` and the row {1,2}, with the union-find
detector. -/
def pairSample : DanceDNNF :=
  match DanceDNNF.fromFile 2 1 [[1, 2]] true false none with
  | some s => s
  | none =>
    { m := emptyMatrix 0 0 false false, clock := 0, deadline := none, MAX_B_COUNT := 0,
      isParallelSearch := false, num_of_DNNFNodes := 0, max_depth := 1, dnnfNodes := [],
      node_table := [], countCache := [] }

/-- The object built from the file with header `1 1` whose data line names column 1
twice, with the union-find detector. -/
def doubledSample : DanceDNNF :=
  match DanceDNNF.fromFile 1 1 [[1, 1]] true false none with
  | some s => s
  | none =>
    { m := emptyMatrix 0 0 false false, clock := 0, deadline := none, MAX_B_COUNT := 0,
      isParallelSearch := false, num_of_DNNFNodes := 0, max_depth := 1, dnnfNodes := [],
      node_table := [], countCache := [] }

/-! ## The shape of the Euler-tour forest -/

/-- The chain of ancestors of a node: `Anc t y l` says that the parents met from `y`
upwards are the nodes of `l`, in this order, the last one being parentless. -/
def Anc (t : SplayETT) : Nat → List Nat → Prop
  | y, [] => (t.node y).parent = none
  | y, p :: l => (t.node y).parent = some p ∧ Anc t p l

/-- The node `r` is the root of the splay tree that holds `y`: the node `getRoot`
walks to. -/
def RootOf (t : SplayETT) (y r : Nat) : Prop := ∃ l, Anc t y l ∧ l.getLastD y = r

/-- A well-formed splay forest: no pending reversal, parents inside the pool, every
child pointer answered by the parent pointer of the child, the two children of a node
distinct, and every walk towards the parents ends. -/
structure SplayForest (t : SplayETT) : Prop where
  rev : ∀ x, (t.node x).reversed = false
  par_lt : ∀ x p, (t.node x).parent = some p → p < t.pool.length
  left_par : ∀ x c, (t.node x).left = some c → c < t.pool.length ∧ (t.node c).parent = some x
  right_par : ∀ x c, (t.node x).right = some c → c < t.pool.length ∧ (t.node c).parent = some x
  left_ne_right : ∀ x c, (t.node x).left = some c → (t.node x).right ≠ some c
  anc : ∀ y, ∃ l, Anc t y l

/-- The store `a->left = v`. -/
def SplayETT.setLeft (t : SplayETT) (a : Nat) (v : Option Nat) : SplayETT :=
  t.setNode a { t.node a with left := v }

/-- The store `a->right = v`. -/
def SplayETT.setRight (t : SplayETT) (a : Nat) (v : Option Nat) : SplayETT :=
  t.setNode a { t.node a with right := v }

/-- The store `a->parent = v`. -/
def SplayETT.setParent (t : SplayETT) (a : Nat) (v : Option Nat) : SplayETT :=
  t.setNode a { t.node a with parent := v }

/-- The stores of `rotate(x)` in a forest without pending reversal, `p` being the
parent of `x`. -/
def rotComp (t : SplayETT) (x p : Nat) : SplayETT :=
  let g := (t.node p).parent
  let t2 :=
    if (t.node p).left = some x then
      let a := t.setLeft p (t.node x).right
      let b := match (a.node x).right with
        | some r => a.setParent r (some p)
        | none => a
      b.setRight x (some p)
    else
      let a := t.setRight p (t.node x).left
      let b := match (a.node x).left with
        | some l => a.setParent l (some p)
        | none => a
      b.setLeft x (some p)
  let t3 := t2.setParent x g
  let t4 := t3.setParent p (some x)
  match g with
  | none => t4
  | some g =>
    if (t4.node g).left = some p then t4.setLeft g (some x)
    else t4.setRight g (some x)

/-- The inner child of `x`, which `rotate(x)` hands over to the parent `p` of `x`. -/
def rotInner (t : SplayETT) (x p : Nat) : Option Nat :=
  if (t.node p).left = some x then (t.node x).right else (t.node x).left

/-- Between the forests `t` and `s` the tree with root `a` keeps its nodes and gets the
root `b`, and every other tree keeps its nodes and its root. -/
structure ClassMove (t s : SplayETT) (a b : Nat) : Prop where
  src : RootOf t b a
  root : (s.node b).parent = none
  map : ∀ y r, RootOf t y r → RootOf s y (if r = a then b else r)

/-- The fields of a forest that the splay operations never touch. -/
def SameFrame (t s : SplayETT) : Prop :=
  s.pool.length = t.pool.length ∧ s.vertexNodes = t.vertexNodes ∧ s.edges = t.edges ∧
  s.global_counter = t.global_counter ∧ ∀ y, (s.node y).node_id = (t.node y).node_id

/-- The bookkeeping of `link`: `t` is the forest before the call and `s` a forest met
during the call.  A node whose root in `t` satisfies `Big` has in `s` a root that
satisfies `Q`; every other node has kept its root; and the roots that satisfy `Q` are
nodes of the trees that `Big` selects. -/
def LinkInv (t s : SplayETT) (Big Q : Nat → Prop) : Prop :=
  (∀ y b, RootOf t y b → (Big b → ∃ ρ, Q ρ ∧ RootOf s y ρ) ∧ (¬ Big b → RootOf s y b)) ∧
  (∀ ρ, Q ρ → ∃ b, RootOf t ρ b ∧ Big b)

/-- Two distinct rows have a column of the map in common. -/
def RowAdj (crm : List (Nat × List Nat)) (u v : Nat) : Prop :=
  u ≠ v ∧ ∃ e ∈ crm, u ∈ e.2 ∧ v ∈ e.2

/-- The edges of the list grow a tree from the vertices `S`: each edge starts at a vertex
of `S` or at the end of an earlier edge and ends at a vertex that is neither. -/
def GrowFrom : (Nat → Prop) → List (Nat × Nat) → Prop
  | _, [] => True
  | S, e :: rest => S e.1 ∧ ¬ S e.2 ∧ GrowFrom (fun x => S x ∨ x = e.2) rest

/-- The invariant of one breadth-first search of `BuildSpanningForest` from `start`,
`vis0` being the vertices visited before it: the vertices visited since are `start` and
the ends of the tree edges, each of them is reached from `start`, the tree edges grow a
tree from `start`, and the queue holds such vertices only. -/
structure BfsInv (adj : List (List Nat)) (n : Nat) (vis0 : Nat → Prop) (start : Nat)
    (st : BFSState) : Prop where
  len : st.visited.length = n
  vis : ∀ x, st.visited.getD x false = true ↔
    (vis0 x ∨ x = start ∨ x ∈ st.tree_edge_list.map Prod.snd)
  fresh : ∀ x ∈ st.tree_edge_list.map Prod.snd, ¬ vis0 x ∧ x < n
  grow : GrowFrom (fun x => x = start) st.tree_edge_list
  reach : ∀ x ∈ st.tree_edge_list.map Prod.snd,
    Relation.ReflTransGen (fun a b => b ∈ adj.getD a []) start x
  qsub : ∀ x ∈ st.q, x = start ∨ x ∈ st.tree_edge_list.map Prod.snd

/-- Every vertex visited by the search that has left the queue has all its neighbours
visited. -/
def BfsDone (adj : List (List Nat)) (start : Nat) (st : BFSState) : Prop :=
  ∀ x, (x = start ∨ x ∈ st.tree_edge_list.map Prod.snd) → x ∉ st.q →
    ∀ y ∈ adj.getD x [], st.visited.getD y false = true

/-- The invariant of the Euler-tour forest while `BuildSpanningForest` links tree edges:
`T` are the vertices touched so far and `lab` names the class of each vertex. Two
vertices are in the same splay tree exactly when their labels agree, an untouched vertex
is alone in its tree, and every stored edge key is the key of two touched vertices. -/
structure EttInv (n : Nat) (t : SplayETT) (T : Nat → Prop) (lab : Nat → Nat) : Prop where
  forest : SplayForest t
  verts : t.vertexNodes = List.range n
  pool : n ≤ t.pool.length
  cls : ∀ x y, x < n → y < n → ((∃ r, RootOf t x r ∧ RootOf t y r) ↔ lab x = lab y)
  alone : ∀ x, x < n → ¬ T x →
    lab x = x ∧ (t.node x).parent = none ∧ ∀ y, RootOf t y x → y = x
  keys : ∀ e ∈ t.edges, ∃ a b, a < n ∧ b < n ∧ T a ∧ T b ∧ e.1 = makeEdgeKey a b

/-- The method `IsConnected(u, v)`: `ett->connected(u, v)`. -/
def ComponentDetector.IsConnected (d : ComponentDetector) (u v : Nat) : Option Bool :=
  d.ett.connected u v

/-- The invariant of the loop of `BuildSpanningForest` over `start`: the visited rows
are the touched vertices of the Euler-tour forest, they are closed under adjacency, the
label is constant along every edge, and each visited row is reached from its label. -/
structure ForestInv (adj : List (List Nat)) (n : Nat) (visited : List Bool) (t : SplayETT)
    (lab : Nat → Nat) : Prop where
  len : visited.length = n
  ett : EttInv n t (fun x => visited.getD x false = true) lab
  edge : ∀ x, visited.getD x false = true → ∀ y ∈ adj.getD x [],
    visited.getD y false = true ∧ lab y = lab x
  reach : ∀ x, visited.getD x false = true →
    Relation.ReflTransGen (fun a b => b ∈ adj.getD a []) (lab x) x

/-! ## Notions and sample inputs for the claims on the search as a whole -/

/-- The input with 16 columns and 6 rows whose search meets the column sets
`{2,3,4,6,16}` and `{2,3,4,7,14}`, which `hashBlockState` sends to one value. -/
def collisionInput : List (List Nat) :=
  [[1, 7, 14], [1, 6, 16], [2, 3, 4, 6, 16], [2, 3, 4, 6], [16], [2, 3, 4, 7, 14]]

/-- The input `collisionInput` without its eight all-zero columns: the columns
`1, 2, 3, 4, 6, 7, 14, 16` renumbered `1 .. 8`. -/
def collisionCompressed : List (List Nat) :=
  [[1, 6, 7], [1, 5, 8], [2, 3, 4, 5, 8], [2, 3, 4, 5], [8], [2, 3, 4, 6, 7]]

/-- The frame that the single-threaded search on `splitInput` reaches first below its
root: the matrix and the block after `coverInBlock` of the chosen column 1 and of the
other column of its first row. -/
def splitFrame : Option (DanceDNNF × Block) :=
  (DanceDNNF.fromFile 6 7 splitInput true false none).bind (fun s =>
    (s.m.coverInBlock 1 s.m.InitBlock []).bind (fun r1 =>
      (coverRowInBlock (nth r1.1.down 1) r1.1.fuel r1.1 r1.2.1 []
          (nth r1.1.right (nth r1.1.down 1))).map
        (fun r2 => ({ s with m := r2.1 }, r2.2.1))))

/-- The two kinds of exception that the handlers of `parallelSearchUseOmp` tell apart:
a `std::runtime_error` whose message contains "Time bound", and any other exception. -/
inductive Thrown where
  | timeBound
  | other
  deriving DecidableEq, Repr

/-- The outcome of a call that may throw an exception of either kind, with the state
the throwing call leaves behind, or not return. -/
inductive Raising (α : Type) where
  | ok (a : α)
  | thrown (k : Thrown) (s : DanceDNNF)
  | diverged

/-- The type of `DXD(block, depth)` as the handlers of `parallelSearchUseOmp` see it. -/
abbrev RaisingSearch := DanceDNNF → Block → Int → Raising (DNNFResult × Block × DanceDNNF)

/-- The parallel-for of `parallelSearchUseOmp` with both of its handlers, its iterations
taken one after another in index order: `catch (const std::runtime_error&)` sets
`has_timeout` when the message contains "Time bound" and `has_failure` otherwise,
`catch (...)` sets `has_failure`. -/
def parallelLoopE (dxd : RaisingSearch) (parent_depth : Int) :
    List Block → List DNNFResult → Bool → Bool → DanceDNNF →
    Option (List DNNFResult × Bool × Bool × DanceDNNF)
  | [], results, has_failure, has_timeout, s => some (results, has_failure, has_timeout, s)
  | b :: rest, results, has_failure, has_timeout, s =>
    if has_failure || has_timeout then
      parallelLoopE dxd parent_depth rest (results ++ [DNNFResult.zero]) has_failure has_timeout s
    else
      match dxd s b (parent_depth + 1) with
      | Raising.diverged => none
      | Raising.thrown Thrown.timeBound s1 =>
        parallelLoopE dxd parent_depth rest (results ++ [DNNFResult.zero]) has_failure true s1
      | Raising.thrown Thrown.other s1 =>
        parallelLoopE dxd parent_depth rest (results ++ [DNNFResult.zero]) true has_timeout s1
      | Raising.ok (result, _, s1) =>
        if result.isZero then
          parallelLoopE dxd parent_depth rest (results ++ [DNNFResult.zero]) true has_timeout s1
        else parallelLoopE dxd parent_depth rest (results ++ [result]) has_failure has_timeout s1

/-- The method `parallelSearchUseOmp(blocks, parent_depth)` with the exceptions of both
kinds: after the loop `has_timeout` throws "Time bound broken", `has_failure` returns
`DNNFResult(0)`, and otherwise the product of `results` is returned. -/
def parallelSearchUseOmpE (dxd : RaisingSearch) (parent_depth : Int) (blocks : List Block)
    (s : DanceDNNF) : Raising (DNNFResult × DanceDNNF) :=
  match parallelLoopE dxd parent_depth blocks [] false false s with
  | none => Raising.diverged
  | some (results, has_failure, has_timeout, s1) =>
    if has_timeout then Raising.thrown Thrown.timeBound s1
    else if has_failure then Raising.ok (DNNFResult.ofCount 0, s1)
    else Raising.ok (results.foldl (fun totalResult result => totalResult.mul result)
                      (DNNFResult.ofCount 1), s1)

/-- An outcome without the second kind of exception, as an outcome with it; `s` is the
state that a call throwing "Time bound broken" is taken to leave behind. -/
def Outcome.raising {α : Type} (s : DanceDNNF) : Outcome α → Raising α
  | Outcome.ok a => Raising.ok a
  | Outcome.timeBound => Raising.thrown Thrown.timeBound s
  | Outcome.diverged => Raising.diverged

/-- The sub-block searches that return a count other than zero, from the first block
onwards: the counts and the state after them, `none` when one of the searches raises,
does not return or returns zero. -/
def okRun (dxd : RaisingSearch) (parent_depth : Int) :
    List Block → DanceDNNF → Option (List DNNFResult × DanceDNNF)
  | [], s => some ([], s)
  | b :: rest, s =>
    match dxd s b (parent_depth + 1) with
    | Raising.ok (result, _, s1) =>
      if result.isZero then none
      else (okRun dxd parent_depth rest s1).map (fun p => (result :: p.1, p.2))
    | _ => none

/-- A search that throws an exception other than "Time bound broken" on every block. -/
def failingSearch : RaisingSearch := fun s _ _ => Raising.thrown Thrown.other s

/-- A search that returns the count 2 on every block. -/
def constantSearch : RaisingSearch := fun s b _ => Raising.ok (DNNFResult.ofCount 2, b, s)

/-- The body of `DanceDNNF::DXD(block, depth)`, with `dxd` standing for the calls that
the method makes to itself (in the branching loop, in `serialSearch` and in
`parallelSearchUseOmp`). -/
def DXDstep (dxd : Search) : Search := fun s0 block depth =>
  let tb := s0.timeBoundBroken
  let s := tb.2
  if tb.1 then Outcome.timeBound
  else if block.cols.isEmpty then Outcome.ok (DNNFResult.ofCount 1, block, s)
  else
    let state := hashBlockState block.cols
    match assocGet s.countCache state with
    | some r => Outcome.ok (r, block, s)
    | none =>
      let branch : DanceDNNF → Outcome (DNNFResult × Block × DanceDNNF) := fun s =>
        match s.m.selectOptimalColumn block.cols with
        | none => Outcome.diverged
        | some choose =>
          if nthI s.m.size choose ≤ 0 then
            Outcome.ok (DNNFResult.ofCount 0, block, s.setCacheCount state (DNNFResult.ofCount 0))
          else
            match s.m.coverInBlock (nth s.m.col choose) block [] with
            | none => Outcome.diverged
            | some (m1, block1, deleted_rows) =>
              match ({ s with m := m1 } : DanceDNNF).detectorDeleteEdges deleted_rows with
              | none => Outcome.diverged
              | some s2 =>
                match branchLoop dxd choose depth s2.m.fuel s2 block1
                    (DNNFResult.ofCount 0) DanceDNNF.F (nth s2.m.down choose) with
                | Outcome.timeBound => Outcome.timeBound
                | Outcome.diverged => Outcome.diverged
                | Outcome.ok (totalResult, block2, s3) =>
                  match s3.m.uncoverInBlock (nth s3.m.col choose) block2 with
                  | none => Outcome.diverged
                  | some (m4, block3) =>
                    match ({ s3 with m := m4 } : DanceDNNF).detectorAddEdges deleted_rows with
                    | none => Outcome.diverged
                    | some s5 => Outcome.ok (totalResult, block3, s5.setCacheCount state totalResult)
      if block.rows.length > 2 ∧ s.m.enableGraphSync then
        match (if s.m.useETT then
                (match s.m.detector with
                 | none => none
                 | some d => d.GetBlocks block.rows)
              else if s.m.useIG then s.m.getComponentsByIG block.rows
              else some []) with
        | none => Outcome.diverged
        | some curBlock =>
          let s1 := { s with MAX_B_COUNT := max s.MAX_B_COUNT curBlock.length }
          if curBlock.length > 1 then
            let s2 : DanceDNNF :=
              if s1.m.useETT && s1.isParallelSearch then
                { s1 with m := { s1.m with enableGraphSync := false } }
              else s1
            match (if s2.isParallelSearch then parallelSearchUseOmp dxd depth curBlock s2
                   else serialSearch dxd depth curBlock (DNNFResult.ofCount 1) s2) with
            | Outcome.timeBound => Outcome.timeBound
            | Outcome.diverged => Outcome.diverged
            | Outcome.ok (result, s3) => Outcome.ok (result, block, s3.setCacheCount state result)
          else branch s1
      else branch s

/-- A search that stops (as a search that does not return) on a state whose detector
is not `d0`. -/
def guardDetector (d0 : Option ComponentDetector) (dxd : Search) : Search :=
  fun s block depth => if s.m.detector = d0 then dxd s block depth else Outcome.diverged

/-- The method `DXD` with a check at the entry of every frame below the first one: the
search stops as soon as a frame is entered with a detector other than `d0`. -/
def DXDwatch (d0 : Option ComponentDetector) : Nat → Search
  | 0 => fun _ _ _ => Outcome.diverged
  | fuel + 1 => DXDstep (guardDetector d0 (DXDwatch d0 fuel))

/-- A search leaves the detector as it finds it. -/
def KeepsDetector (dxd : Search) : Prop :=
  ∀ s block depth r b1 s1, dxd s block depth = Outcome.ok (r, b1, s1) →
    s1.m.detector = s.m.detector

/-- The part of the body of `DXD` from `selectOptimalColumn` on: the test of the size of
the chosen column, the branching loop between `coverInBlock` and `uncoverInBlock` of
the chosen column, and the store into `countCache`; `state` is the cache key of the
frame. -/
def branchStep (dxd : Search) (block : Block) (depth : Int) (state : Nat) (s : DanceDNNF) :
    Outcome (DNNFResult × Block × DanceDNNF) :=
  match s.m.selectOptimalColumn block.cols with
  | none => Outcome.diverged
  | some choose =>
    if nthI s.m.size choose ≤ 0 then
      Outcome.ok (DNNFResult.ofCount 0, block, s.setCacheCount state (DNNFResult.ofCount 0))
    else
      match s.m.coverInBlock (nth s.m.col choose) block [] with
      | none => Outcome.diverged
      | some (m1, block1, deleted_rows) =>
        match ({ s with m := m1 } : DanceDNNF).detectorDeleteEdges deleted_rows with
        | none => Outcome.diverged
        | some s2 =>
          match branchLoop dxd choose depth s2.m.fuel s2 block1
              (DNNFResult.ofCount 0) DanceDNNF.F (nth s2.m.down choose) with
          | Outcome.timeBound => Outcome.timeBound
          | Outcome.diverged => Outcome.diverged
          | Outcome.ok (totalResult, block2, s3) =>
            match s3.m.uncoverInBlock (nth s3.m.col choose) block2 with
            | none => Outcome.diverged
            | some (m4, block3) =>
              match ({ s3 with m := m4 } : DanceDNNF).detectorAddEdges deleted_rows with
              | none => Outcome.diverged
              | some s5 => Outcome.ok (totalResult, block3, s5.setCacheCount state totalResult)

/-- The blocks that the detector in use returns for the rows of a block: `GetBlocks`
with the Euler-tour detector, `getComponentsByIG` with the union-find detector, and
the empty vector without a detector. -/
def detectBlocks (s : DanceDNNF) (block : Block) : Option (List Block) :=
  if s.m.useETT then
    (match s.m.detector with
     | none => none
     | some d => d.GetBlocks block.rows)
  else if s.m.useIG then s.m.getComponentsByIG block.rows
  else some []

/-- The part of the body of `DXD` that follows the call of the detector: with more than
one block the search of the blocks and the store into `countCache`, otherwise the
branching on a column. -/
def decompStep (dxd : Search) (block : Block) (depth : Int) (state : Nat) (s : DanceDNNF)
    (curBlock : List Block) : Outcome (DNNFResult × Block × DanceDNNF) :=
  let s1 := { s with MAX_B_COUNT := max s.MAX_B_COUNT curBlock.length }
  if curBlock.length > 1 then
    let s2 : DanceDNNF :=
      if s1.m.useETT && s1.isParallelSearch then
        { s1 with m := { s1.m with enableGraphSync := false } }
      else s1
    match (if s2.isParallelSearch then parallelSearchUseOmp dxd depth curBlock s2
           else serialSearch dxd depth curBlock (DNNFResult.ofCount 1) s2) with
    | Outcome.timeBound => Outcome.timeBound
    | Outcome.diverged => Outcome.diverged
    | Outcome.ok (result, s3) => Outcome.ok (result, block, s3.setCacheCount state result)
  else branchStep dxd block depth state s1

/-! ## Notions for the construction by `insert` -/

/-- The nodes `L` form a closed doubly linked list in the order given: `next` leads from
each node to the one after it and from the last to the first, `prev` leads back. -/
def Cyc (next prev : List Nat) : List Nat → Prop
  | [] => True
  | h :: t => Chain next h t h ∧ Chain prev h t.reverse h

/-- The invariant of a matrix while the constructor fills it by `insert`: every column
`1..COLS` is uncovered, `rg k` are the cells of column `k` and all of them are live,
`mt x` are the other cells of the row of `x`, every column size is the number of cells
of the column, `RowIndex[r].right` is null exactly when row `r` has no cell and else
a cell of row `r`, and header `k` names column `k`. -/
structure Built (m : DancingMatrix) (rg mt : Nat → List Nat) : Prop where
  hgood : HGood m (List.range' 1 m.COLS)
  vgood : VGood m rg
  rgood : RowsGood m mt
  full : ∀ x, m.COLS < x → x < m.nodes → x ∈ rg (nth m.col x)
  lens : m.row.length = m.nodes ∧ m.size.length = m.COLS + 1 ∧ m.rowRight.length = m.ROWS
  sizes : ∀ k, 1 ≤ k → k ≤ m.COLS → nthI m.size k = ((rg k).length : Int)
  heads : ∀ r, r < m.ROWS →
    (m.rowRight.getD r none = none → ∀ x, m.COLS < x → x < m.nodes → nth m.row x ≠ r) ∧
    (∀ h, m.rowRight.getD r none = some h → m.COLS < h ∧ h < m.nodes ∧ nth m.row h = r)
  hdr : ∀ k, k ≤ m.COLS → nth m.col k = k

/-- Every column size is the number of live cells of the column, `rg k` being the live
cells of column `k`. -/
def SizeGood (m : DancingMatrix) (rg : Nat → List Nat) : Prop :=
  m.size.length = m.COLS + 1 ∧
  ∀ k, 1 ≤ k → k ≤ m.COLS → nthI m.size k = ((rg k).length : Int)

/-- The states `a` and `b` have the same links, column sizes and row heads: they differ at
most in the bookkeeping sets, the flags and the detectors. -/
def SameLinks (a b : DancingMatrix) : Prop :=
  a.left = b.left ∧ a.right = b.right ∧ a.up = b.up ∧ a.down = b.down ∧ a.col = b.col ∧
  a.row = b.row ∧ a.size = b.size ∧ a.COLS = b.COLS ∧ a.ROWS = b.ROWS ∧ a.rowRight = b.rowRight

instance (a b : DancingMatrix) : Decidable (SameLinks a b) := by
  unfold SameLinks
  infer_instance

/-- The invariant of the links and the column sizes under the four covering methods:
`hs` are the uncovered columns, `rg k` the live cells of column `k`, `mt x` the other
cells of the row of `x`, and every column size is the number of live cells. -/
def LInv (m : DancingMatrix) (hs : List Nat) (rg mt : Nat → List Nat) : Prop :=
  HGood m hs ∧ VGood m rg ∧ RowsGood m mt ∧ Live m hs rg mt ∧ SizeGood m rg

/-- The covering calls not yet matched, most recent first, each with the state it was made
in: from every state with the links of the current one, `uncover` and `uncoverInBlock`
of the column lead to a state with the links of that state, which meets the
invariant with the column uncovered again. -/
def PendL (mt : Nat → List Nat) : List (Nat × DancingMatrix) → DancingMatrix → List Nat → Prop
  | [], _, _ => True
  | (c, mb) :: rest, m, hs =>
    (∀ a, SameLinks a m → ∃ a2, a.uncover c = some a2 ∧ SameLinks a2 mb) ∧
    (∀ a block, SameLinks a m → ∃ a2 bl, a.uncoverInBlock c block = some (a2, bl) ∧
      SameLinks a2 mb) ∧
    c ∉ hs ∧
    ∃ (hsb : List Nat) (rgb : Nat → List Nat), LInv mb hsb rgb mt ∧
      (∀ x, x ∈ hsb ↔ x = c ∨ x ∈ hs) ∧ PendL mt rest mb hsb

/-- One call of a sequence of calls of `cover`, `uncover`, `coverInBlock` and
`uncoverInBlock`, with its arguments. -/
inductive BlockOp where
  | cover (c : Nat)
  | uncover (c : Nat)
  | coverInBlock (c : Nat) (block : Block) (removed_rows : List Nat)
  | uncoverInBlock (c : Nat) (block : Block)
  deriving DecidableEq, Repr

/-- The run of a sequence of calls on the matrix; the blocks are arguments of the calls
and what the calls make of them is dropped. -/
def runBlockOps : List BlockOp → DancingMatrix → Option DancingMatrix
  | [], m => some m
  | BlockOp.cover c :: rest, m =>
    match m.cover c with
    | none => none
    | some m1 => runBlockOps rest m1
  | BlockOp.uncover c :: rest, m =>
    match m.uncover c with
    | none => none
    | some m1 => runBlockOps rest m1
  | BlockOp.coverInBlock c block removed_rows :: rest, m =>
    match m.coverInBlock c block removed_rows with
    | none => none
    | some (m1, _, _) => runBlockOps rest m1
  | BlockOp.uncoverInBlock c block :: rest, m =>
    match m.uncoverInBlock c block with
    | none => none
    | some (m1, _) => runBlockOps rest m1

/-- Proper nesting of a sequence of calls that may stop inside a pair, given the covering
calls `stack` still unmatched (most recent first) and the columns `unc` uncovered at
its start: a covering call of `c` is made while `c` is uncovered, and an uncovering
call of `c` matches the most recent unmatched covering call, which was one of `c`. -/
def nestedSoFar : List BlockOp → List Nat → List Nat → Bool
  | [], _, _ => true
  | BlockOp.cover c :: rest, stack, unc =>
    decide (c ∈ unc) && nestedSoFar rest (c :: stack) (unc.erase c)
  | BlockOp.coverInBlock c _ _ :: rest, stack, unc =>
    decide (c ∈ unc) && nestedSoFar rest (c :: stack) (unc.erase c)
  | BlockOp.uncover c :: rest, stack, unc =>
    match stack with
    | [] => false
    | top :: stack1 => decide (top = c) && nestedSoFar rest stack1 (c :: unc)
  | BlockOp.uncoverInBlock c _ :: rest, stack, unc =>
    match stack with
    | [] => false
    | top :: stack1 => decide (top = c) && nestedSoFar rest stack1 (c :: unc)

/-- The states reachable from construction: the header part of a constructor for `rows`
rows and `cols` columns, then calls `insert(r, c)` with `r < rows` and `1 ≤ c ≤ cols`
that return; in between the constructors write their bookkeeping fields, which
leaves the links, the column sizes and the row heads as they are. -/
inductive Constructed (rows cols : Nat) : DancingMatrix → Prop
  | empty (useIg useETT : Bool) : Constructed rows cols (emptyMatrix rows cols useIg useETT)
  | insert (m m1 : DancingMatrix) (r c : Nat) : Constructed rows cols m → r < rows → 1 ≤ c →
      c ≤ cols → m.insert r c = some m1 → Constructed rows cols m1
  | book (m m1 : DancingMatrix) : Constructed rows cols m → SameLinks m1 m →
      Constructed rows cols m1

/-! ## Notions for the termination of the search -/

/-- Every row of the block has a live cell in a column of the block. -/
def RowsLive (m : DancingMatrix) (rg : Nat → List Nat) (block : Block) : Prop :=
  ∀ r ∈ block.rows, ∃ c ∈ block.cols, ∃ x ∈ rg c, nth m.row x = r

/-- A property `Q` of the matrix, its live cells and the block is kept by `coverInBlock` of a
column of a block that meets the invariant; `rem` are the cells spliced out. -/
def KeptByCover (mt : Nat → List Nat) (Q : DancingMatrix → (Nat → List Nat) → Block → Prop) :
    Prop :=
  ∀ (m : DancingMatrix) (hs : List Nat) (rg : Nat → List Nat) (block : Block) (c : Nat)
    (m1 : DancingMatrix) (b1 : Block) (rem : List Nat),
    BInv m hs rg mt block → GOK m rg block → c ∈ block.cols → Q m rg block →
    m.coverInBlock c block [] = some (m1, b1, []) →
    BInv m1 (hs.erase c) (fun j => (rg j).filter (fun z => decide (z ∉ rem))) mt b1 →
    b1.cols = setErase c block.cols → (∀ y ∈ rem, ∃ z ∈ rg c, y ∈ mt z) →
    Q m1 (fun j => (rg j).filter (fun z => decide (z ∉ rem))) b1

/-- The matrix and the block are in the state the search keeps: the block meets the
invariant, the detector is in step with it, and every row of the block has a live cell
in a column of the block. -/
def Sound (mt : Nat → List Nat) (m : DancingMatrix) (block : Block) : Prop :=
  ∃ hs rg, BInv m hs rg mt block ∧ GOK m rg block ∧ RowsLive m rg block

/-- Every call of `dxd` on a sound block with fewer than `n` columns, made while the
stopwatch never reaches its bound, returns, gives back the block and a state related
to the entry state, and leaves the stopwatch without a bound. -/
def TotalBelow (mt : Nat → List Nat) (n : Nat) (dxd : Search) : Prop :=
  ∀ (s : DanceDNNF) (block : Block) (depth : Int),
    Sound mt s.m block → s.deadline = none → block.cols.length < n →
    ∃ r s1, dxd s block depth = Outcome.ok (r, block, s1) ∧ Rel s1.m s.m ∧ s1.deadline = none

/-- A search that stops (as a search that does not return) when the block it is called
with has not strictly fewer than `n` columns. -/
def guardCols (n : Nat) (dxd : Search) : Search :=
  fun s block depth => if block.cols.length < n then dxd s block depth else Outcome.diverged

/-- The method `DXD` with a check at every recursive call, whether from the branching
loop or from the search of the blocks of a decomposition: the call stops when its block
has not strictly fewer columns than the block of the calling frame had at entry. -/
def DXDcols : Nat → Search
  | 0 => fun _ _ _ => Outcome.diverged
  | fuel + 1 => fun s block depth =>
    DXDstep (guardCols block.cols.length (DXDcols fuel)) s block depth

/-- Wherever the search `dxd1` returns or throws, the search `dxd2` does the same. -/
def Within (dxd1 dxd2 : Search) : Prop :=
  ∀ s block depth, dxd1 s block depth = Outcome.diverged ∨ dxd1 s block depth = dxd2 s block depth

/-- The content of the arena while the file constructor reads line `k`, `seen` being the
column indices of the line read so far: the data nodes are the indices above `C`;
`rs` and `cs` are ascending and hold exactly the rows and the columns of the data
nodes; every row is below `R` and at most `k`, and the nodes of row `k` lie in the
columns `seen`; two nodes of one row lie in different columns; `crm` (the map
`col_to_rows`) has one entry for a column and lists under a column exactly the rows of
its nodes. -/
structure Content (C R : Nat) (col row rs cs : List Nat) (crm : List (Nat × List Nat))
    (k : Nat) (seen : List Nat) : Prop where
  rowlen : row.length = col.length
  hC : C < col.length
  rsorted : rs.Sorted (· < ·)
  csorted : cs.Sorted (· < ·)
  cells : ∀ x, C < x → x < col.length →
    nth row x ∈ rs ∧ nth col x ∈ cs ∧ nth row x < R ∧ nth row x ≤ k ∧
      (nth row x = k → nth col x ∈ seen)
  rows_hit : ∀ r ∈ rs, ∃ x, C < x ∧ x < col.length ∧ nth row x = r
  cols_hit : ∀ c ∈ cs, ∃ x, C < x ∧ x < col.length ∧ nth col x = c
  distinct : ∀ x y, C < x → x < col.length → C < y → y < col.length → x ≠ y →
    nth row x = nth row y → nth col x ≠ nth col y
  keys : (crm.map Prod.fst).Nodup
  sound : ∀ e ∈ crm, ∀ r ∈ e.2, ∃ x, C < x ∧ x < col.length ∧ nth col x = e.1 ∧ nth row x = r
  complete : ∀ x, C < x → x < col.length → ∃ e ∈ crm, e.1 = nth col x ∧ nth row x ∈ e.2

/-- The content of a matrix under construction, see `Content`. -/
def Filled (m : DancingMatrix) (k : Nat) (seen : List Nat) : Prop :=
  Content m.COLS m.ROWS m.col m.row m.rowsSet m.colsSet m.col_to_rows k seen

/-- The call does not return and does not throw. -/
def Outcome.isDiverged {α : Type} (o : Outcome α) : Bool :=
  match o with
  | Outcome.diverged => true
  | _ => false

/-- The object built from the file with header `1 2` (one column, two rows) whose data
lines are `1 1` and `1`: the first line names column 1 twice. -/
def twiceSample : DanceDNNF :=
  match DanceDNNF.fromFile 1 2 [[1, 1], [1]] true false none with
  | some s => s
  | none =>
    { m := emptyMatrix 0 0 false false, clock := 0, deadline := none, MAX_B_COUNT := 0,
      isParallelSearch := false, num_of_DNNFNodes := 0, max_depth := 1, dnnfNodes := [],
      node_table := [], countCache := [] }

/-! ## Notions for the count of exact covers -/

/-- The number of sets of rows among `R` that cover every column of `S` exactly once, a
row `r` having its 1s in the columns `L r`. -/
def coverCount (L : Nat → List Nat) (R : Finset Nat) (S : List Nat) : Nat :=
  ((R.powerset).filter (fun T => ∀ c ∈ S, (T.filter (fun r => c ∈ L r)).card = 1)).card

/-- The rows among `R` all of whose 1s lie in the columns `S`. -/
def within (L : Nat → List Nat) (R : Finset Nat) (S : List Nat) : Finset Nat :=
  R.filter (fun r => ∀ c ∈ L r, c ∈ S)

/-- The number of exact covers of the columns `S` by rows among `R` that lie within `S`. -/
def subCount (L : Nat → List Nat) (R : Finset Nat) (S : List Nat) : Nat :=
  coverCount L (within L R S) S

/-- The result `r` stands for the number `N`: it is the exact 64-bit count when `N` is
below `2^64`, and it is flagged as overflowed, with a positive scientific value,
otherwise. -/
def Counts (r : DNNFResult) (N : Nat) : Prop :=
  (N < 2 ^ 64 → r = DNNFResult.ofCount N) ∧
  (2 ^ 64 ≤ N → r.overflowed = true ∧ 0 < r.sciCount.mantissa)

/-- The rows `R` and their columns `L r` are those of the matrix: the row of every cell is
among `R`, and the columns of the row of a cell are the column of the cell and the
columns of the other cells of its row. -/
def RowCols (L : Nat → List Nat) (R : Finset Nat) (m : DancingMatrix) (mt : Nat → List Nat) :
    Prop :=
  ∀ x, m.COLS < x → x < m.nodes →
    nth m.row x ∈ R ∧
    ∀ d, d ∈ L (nth m.row x) ↔ (d = nth m.col x ∨ ∃ y ∈ mt x, nth m.col y = d)

/-- Every row among `R` that lies within the columns of the block has a live cell in each
of its columns. -/
def AllLive (L : Nat → List Nat) (R : Finset Nat) (m : DancingMatrix) (rg : Nat → List Nat)
    (block : Block) : Prop :=
  ∀ r ∈ R, (∀ d ∈ L r, d ∈ block.cols) → ∀ c ∈ L r, ∃ x ∈ rg c, nth m.row x = r

/-- The properties of the state of the search that the count rests on: every row of the
block has a live cell, the column sizes are the numbers of live cells, the columns of the
rows are those of the matrix, and the rows within the block are wholly live. -/
def CountState (L : Nat → List Nat) (R : Finset Nat) (mt : Nat → List Nat)
    (m : DancingMatrix) (rg : Nat → List Nat) (block : Block) : Prop :=
  RowsLive m rg block ∧ SizeGood m rg ∧ RowCols L R m mt ∧ AllLive L R m rg block

/-- The function `hashBlockState` takes distinct values on distinct subsets of the columns
`cols0`, a subset being an ascending sublist. -/
def HashInj (cols0 : List Nat) : Prop :=
  ∀ a ∈ cols0.sublists, ∀ b ∈ cols0.sublists, hashBlockState a = hashBlockState b → a = b

/-- Every entry of `countCache` is stored under the hash of a subset `S` of the columns
`cols0` and stands for the number of exact covers of `S`. -/
def CacheOK (L : Nat → List Nat) (R : Finset Nat) (cols0 : List Nat) (s : DanceDNNF) : Prop :=
  ∀ k v, assocGet s.countCache k = some v →
    ∃ S ∈ cols0.sublists, hashBlockState S = k ∧ Counts v (subCount L R S)

/-- The state in which a frame of the search without decomposition is entered: the block
meets the invariant and the properties the count rests on, `enableGraphSync` is off, the
columns of the block are a subset of `cols0`, the cache is sound and the stopwatch has no
bound. -/
def CountPre (L : Nat → List Nat) (R : Finset Nat) (mt : Nat → List Nat) (cols0 : List Nat)
    (s : DanceDNNF) (block : Block) : Prop :=
  (∃ hs rg, BInv s.m hs rg mt block ∧ CountState L R mt s.m rg block) ∧
  s.m.enableGraphSync = false ∧ block.cols.Sublist cols0 ∧ CacheOK L R cols0 s ∧
  s.deadline = none

/-- Every call of `dxd` in such a state on a block with fewer than `n` columns returns the
number of exact covers of the columns of the block, gives back the block and a related
state, and keeps the cache sound. -/
def CountBelow (L : Nat → List Nat) (R : Finset Nat) (mt : Nat → List Nat) (cols0 : List Nat)
    (n : Nat) (dxd : Search) : Prop :=
  ∀ (s : DanceDNNF) (block : Block) (depth : Int),
    CountPre L R mt cols0 s block → block.cols.length < n →
    ∃ r s1, dxd s block depth = Outcome.ok (r, block, s1) ∧ Rel s1.m s.m ∧
      s1.deadline = none ∧ CacheOK L R cols0 s1 ∧ Counts r (subCount L R block.cols)

/-- The nodes of the arena while the file constructor reads line `k`, `seen` being the
column indices of the line read so far: row `r` has a node in column `d` exactly when
`r` is an earlier line that names `d`, or `r` is the line being read and `d` has been
read. -/
def LinesRead (lines : List (List Nat)) (m : DancingMatrix) (k : Nat) (seen : List Nat) : Prop :=
  m.row.length = m.col.length ∧ m.COLS < m.col.length ∧
  ∀ r d, (∃ x, m.COLS < x ∧ x < m.col.length ∧ nth m.row x = r ∧ nth m.col x = d) ↔
    ((r < k ∧ d ∈ lines.getD r []) ∨ (r = k ∧ d ∈ seen))

instance (cols0 : List Nat) : Decidable (HashInj cols0) := by
  unfold HashInj
  infer_instance

/-! ## Notions for the splay trees as sequences -/

/-- The shape of a splay tree: a binary tree of nodes of the pool. -/
inductive BT where
  | leaf : BT
  | node : BT → Nat → BT → BT
  deriving DecidableEq, Repr

/-- The nodes of a tree in symmetric order: the sequence the splay tree stands for. -/
def BT.toList : BT → List Nat
  | BT.leaf => []
  | BT.node l x r => l.toList ++ x :: r.toList

/-- The pointer to the root of a tree. -/
def BT.root : BT → Option Nat
  | BT.leaf => none
  | BT.node _ x _ => some x

/-- The pool holds the tree `b` below the parent `par`: the child pointers of every node
of `b` lead to the roots of its two subtrees, and its parent pointer leads back. -/
def Rep (t : SplayETT) : BT → Option Nat → Prop
  | BT.leaf, _ => True
  | BT.node l x r, par =>
    x < t.pool.length ∧ (t.node x).parent = par ∧ (t.node x).left = l.root ∧
    (t.node x).right = r.root ∧ Rep t l (some x) ∧ Rep t r (some x)

/-- The conditions under which `rotate(x)` is followed store by store: no pending
reversal, `p` the parent of `x`, and `x`, `p`, the parent of `p` and the children of `x`
pairwise distinct nodes of the pool. -/
structure RotOK (t : SplayETT) (x p : Nat) : Prop where
  rev : ∀ y, (t.node y).reversed = false
  pl : p < t.pool.length
  xp : x ≠ p
  g : ∀ gg, (t.node p).parent = some gg → gg < t.pool.length ∧ x ≠ gg ∧ p ≠ gg
  innerR : ∀ r, (t.node x).right = some r →
    r < t.pool.length ∧ r ≠ x ∧ r ≠ p ∧ ∀ gg, (t.node p).parent = some gg → r ≠ gg
  innerL : ∀ r, (t.node x).left = some r →
    r < t.pool.length ∧ r ≠ x ∧ r ≠ p ∧ ∀ gg, (t.node p).parent = some gg → r ≠ gg

/-- The parent and child pointers of the node `y` are the same in `s` as in `t`. -/
def PtrEq (s t : SplayETT) (y : Nat) : Prop :=
  (s.node y).parent = (t.node y).parent ∧ (s.node y).left = (t.node y).left ∧
  (s.node y).right = (t.node y).right

/-- The depth of the node `y` in the tree `b`, the root being at depth 0. -/
def BT.depth (y : Nat) : BT → Nat
  | BT.leaf => 0
  | BT.node l x r => if x = y then 0 else if y ∈ l.toList then l.depth y + 1 else r.depth y + 1

/-- The forest `s` comes from the forest `t` by stores inside one tree: the tree `b` of
`t` has become the tree `b1` with the same sequence of nodes, the nodes outside it keep
their pointers, no reversal is pending and the other fields are unchanged. -/
structure TreeStep (t s : SplayETT) (b b1 : BT) : Prop where
  rev : ∀ y, (s.node y).reversed = false
  len : s.pool.length = t.pool.length
  vn : s.vertexNodes = t.vertexNodes
  ed : s.edges = t.edges
  gc : s.global_counter = t.global_counter
  rep : Rep s b1 none
  list : b1.toList = b.toList
  frame : ∀ y, y ∉ b.toList → PtrEq s t y

/-- The forest `s` comes from the forest `t` by stores at the nodes `touched` only: every
other node keeps its pointers, no reversal is pending and the other fields are
unchanged. -/
structure Shell (t s : SplayETT) (touched : List Nat) : Prop where
  rev : ∀ y, (s.node y).reversed = false
  len : s.pool.length = t.pool.length
  vn : s.vertexNodes = t.vertexNodes
  ed : s.edges = t.edges
  gc : s.global_counter = t.global_counter
  frame : ∀ y, y ∉ touched → PtrEq s t y

/-- The node `a` comes before the node `b` in the sequence `S`. -/
def Bef (S : List Nat) (a b : Nat) : Prop := List.Sublist [a, b] S

/-- The splay trees of the forest: the pool holds every tree of `F`, without pending
reversal; the trees have no node twice and no node in common, and every vertex node is a
node of one of them. -/
structure TreesOK (t : SplayETT) (F : BT → Prop) : Prop where
  rev : ∀ y, (t.node y).reversed = false
  reps : ∀ b, F b → Rep t b none
  nd : ∀ b, F b → b.toList.Nodup
  disj : ∀ b c, F b → F c → b ≠ c → ∀ y ∈ b.toList, y ∉ c.toList
  vmem : ∀ u, ∃ b, F b ∧ nth t.vertexNodes u ∈ b.toList

/-- The nodes `x` and `y` are nodes of one tree of `F`. -/
def SameT (F : BT → Prop) (x y : Nat) : Prop := ∃ b, F b ∧ x ∈ b.toList ∧ y ∈ b.toList

/-- The node `x` comes before the node `y` in the sequence of one tree of `F`. -/
def FBef (F : BT → Prop) (x y : Nat) : Prop := ∃ b, F b ∧ Bef b.toList x y

/-- The edge map of the forest: the two nodes of every edge lie in one tree, the first
before the second; of two edges, both nodes of the one lie between the nodes of the other
or neither does; edges with different keys have different nodes, and no vertex node is the
first node of an edge. -/
structure EdgesOK (t : SplayETT) (F : BT → Prop) : Prop where
  ein : ∀ e ∈ t.edges, FBef F e.2.first e.2.second
  lam : ∀ e ∈ t.edges, ∀ g ∈ t.edges,
    (FBef F e.2.first g.2.first ∧ FBef F g.2.first e.2.second) ↔
      (FBef F e.2.first g.2.second ∧ FBef F g.2.second e.2.second)
  edist : ∀ e ∈ t.edges, ∀ g ∈ t.edges, e.1 ≠ g.1 →
    g.2.first ≠ e.2.first ∧ g.2.first ≠ e.2.second ∧ g.2.second ≠ e.2.first ∧
      g.2.second ≠ e.2.second
  vne : ∀ e ∈ t.edges, ∀ u, nth t.vertexNodes u ≠ e.2.first

/-- The tree `N` is made of two trees `Tu` and `Tv` of `F`: its sequence is that of `Tu`
with the node `n1`, the sequence of `Tv` and the node `n2` put in after the node `a`; the
nodes `n1` and `n2` are nodes of no tree of `F`. -/
structure Spliced (F : BT → Prop) (Tu Tv N : BT) (L R : List Nat) (a n1 n2 : Nat) : Prop where
  fu : F Tu
  fv : F Tv
  ne : Tu ≠ Tv
  hu : L ++ a :: R = Tu.toList
  hN : N.toList = L ++ a :: n1 :: (Tv.toList ++ n2 :: R)
  nd : N.toList.Nodup
  fresh : ∀ b, F b → ∀ y ∈ b.toList, y ≠ n1 ∧ y ≠ n2

/-- The trees `A` and `B` are made of the tree `S` of `F`: the sequence of `A` is the part
of the sequence of `S` outside the nodes `e1` and `e2`, the sequence of `B` the part
between them and `e2`. -/
structure Unspliced (F : BT → Prop) (S A B : BT) (X Y Z : List Nat) (e1 e2 : Nat) : Prop where
  fs : F S
  hS : S.toList = X ++ e1 :: (Y ++ e2 :: Z)
  hA : A.toList = X ++ Z
  hB : B.toList = Y ++ [e2]

/-- The forests reached from `SplayETT(n)` by calls of `link` and `cut`. -/
inductive ETTReach (n : Nat) : SplayETT → Prop
  | init : ETTReach n (SplayETT.new n)
  | link (t : SplayETT) (u v : Nat) (b : Bool) (t1 : SplayETT) :
      ETTReach n t → t.link u v = some (b, t1) → ETTReach n t1
  | cut (t : SplayETT) (u v : Nat) (b : Bool) (t1 : SplayETT) :
      ETTReach n t → t.cut u v = some (b, t1) → ETTReach n t1

/-! # Theorems -/

/-! ## Evaluations of the search on the inputs named by the specification -/

/-- C1 (defect of the code): on `splitInput` the single-threaded search with the
union-find detector returns 3, while the block of the loaded matrix has exactly 2
exact covers. -/
theorem C1_dxd_count_exceeds_exact_covers :
    reported (mainSearch algorithm_type.dxd false 6 7 splitInput) = some (3, 3) ∧
    (DancingMatrix.fromFile 6 7 splitInput true false).map
      (fun m => exactCoverCount splitInput m.InitBlock.rows m.InitBlock.cols) = some 2 := by
  decide!

/-- C4: for the header `4 4` and the data rows {1},{2,3},{4},{2},{3} the loader
followed by the search reports count 1, for both detectors and both modes. -/
theorem C4_header_4_4_count_one :
    (reported (mainSearch algorithm_type.dxd false 4 4 [[1], [2, 3], [4], [2], [3]])).map Prod.fst = some 1 ∧
    (reported (mainSearch algorithm_type.dxd true 4 4 [[1], [2, 3], [4], [2], [3]])).map Prod.fst = some 1 ∧
    (reported (mainSearch algorithm_type.mdxd false 4 4 [[1], [2, 3], [4], [2], [3]])).map Prod.fst = some 1 ∧
    (reported (mainSearch algorithm_type.mdxd true 4 4 [[1], [2, 3], [4], [2], [3]])).map Prod.fst = some 1 := by
  decide!

/-- C5: on the two triangles over 6 columns both detectors split the rows of the top
frame into the blocks of the two triangles, the search returns 0 and `MAX_B_COUNT`
is 2 afterwards, for both detectors and both modes. -/
theorem C5_two_triangles :
    ((DancingMatrix.fromFile 6 6 [[1, 2], [2, 3], [1, 3], [4, 5], [5, 6], [4, 6]] false true).bind
      (fun m => m.detector.bind (fun d => d.GetBlocks m.InitBlock.rows))
        = some [Block.mk [0, 1, 2] [1, 2, 3], Block.mk [3, 4, 5] [4, 5, 6]]) ∧
    ((DancingMatrix.fromFile 6 6 [[1, 2], [2, 3], [1, 3], [4, 5], [5, 6], [4, 6]] true false).bind
      (fun m => m.getComponentsByIG m.InitBlock.rows)
        = some [Block.mk [0, 1, 2] [1, 2, 3], Block.mk [3, 4, 5] [4, 5, 6]]) ∧
    reported (mainSearch algorithm_type.dxd false 6 6 [[1, 2], [2, 3], [1, 3], [4, 5], [5, 6], [4, 6]]) = some (0, 2) ∧
    reported (mainSearch algorithm_type.dxd true 6 6 [[1, 2], [2, 3], [1, 3], [4, 5], [5, 6], [4, 6]]) = some (0, 2) ∧
    reported (mainSearch algorithm_type.mdxd false 6 6 [[1, 2], [2, 3], [1, 3], [4, 5], [5, 6], [4, 6]]) = some (0, 2) ∧
    reported (mainSearch algorithm_type.mdxd true 6 6 [[1, 2], [2, 3], [1, 3], [4, 5], [5, 6], [4, 6]]) = some (0, 2) := by
  decide!

/-- C6 (defect of the code): on `splitInput`, with the union-find detector, the
single-threaded search returns 3 and the parallel search returns 2. -/
theorem C6_single_and_parallel_differ :
    (reported (mainSearch algorithm_type.dxd false 6 7 splitInput)).map Prod.fst = some 3 ∧
    (reported (mainSearch algorithm_type.mdxd false 6 7 splitInput)).map Prod.fst = some 2 := by
  decide!

/-- C7 (defect of the code): on `splitInput`, in the single-threaded mode, the search
with the ETT detector returns 2 and the search with the union-find detector
returns 3. -/
theorem C7_ett_and_union_find_differ :
    (reported (mainSearch algorithm_type.dxd true 6 7 splitInput)).map Prod.fst = some 2 ∧
    (reported (mainSearch algorithm_type.dxd false 6 7 splitInput)).map Prod.fst = some 3 := by
  decide!

/-- C9 (defect of the code): on the matrix of the header `4 4` with rows
{1},{2,3},{4},{2}, `coverInBlock(2, InitBlock, out)` with `out` empty erases the rows
1 and 3 of column 2 from `block.rows` and leaves `out` empty. -/
theorem C9_coverInBlock_leaves_out_empty :
    (DancingMatrix.fromFile 4 4 [[1], [2, 3], [4], [2], [3]] true false).bind
      (fun m => (m.coverInBlock 2 m.InitBlock []).map (fun r => (m.InitBlock.rows, r.2.1.rows, r.2.2)))
      = some ([0, 1, 2, 3], [0, 2], []) := by
  decide!

/-! ## The loader and the detectors on inputs whose rows share no column -/

theorem nth_map_range (f : Nat → Nat) (n i : Nat) (h : i < n) :
    nth ((List.range n).map f) i = f i := by
  simp [nth, h]

theorem nth_range (n i : Nat) (h : i < n) : nth (List.range n) i = i := by
  simp [nth, h]

theorem getD_replicate_nil (n u : Nat) : (List.replicate n ([] : List Nat)).getD u [] = [] := by
  simp only [List.getD_eq_getElem?_getD]
  rcases Nat.lt_or_ge u n with h | h
  · simp [List.getElem?_replicate, h]
  · simp [List.getElem?_replicate, Nat.not_lt.mpr h]

theorem loadLines_all_empty (lines : List (List Nat)) (hz : ∀ l ∈ lines, l = []) :
    ∀ (k : Nat) (m : DancingMatrix), loadLines k lines m = some m := by
  induction lines with
  | nil => intro k m; rfl
  | cons l rest ih =>
    intro k m
    have hl : l = [] := hz l (List.mem_cons_self _ _)
    subst hl
    have ih2 := ih (fun l hl => hz l (List.mem_cons_of_mem _ hl))
    simp only [loadLines, loadLine]
    split
    · rfl
    · exact ih2 _ _

theorem SplayETT.new_succ (n : Nat) :
    SplayETT.new (n + 1) =
      { ((SplayETT.new n).allocNode (n : Int) 0).2 with
        vertexNodes := ((SplayETT.new n).allocNode (n : Int) 0).2.vertexNodes ++
          [((SplayETT.new n).allocNode (n : Int) 0).1] } := by
  simp [SplayETT.new, List.range_succ, List.foldl_append]

/-- The forest of `SplayETT(n)`: `n` parentless vertex nodes, node `i` carrying id `i`. -/
theorem SplayETT.new_spec (n : Nat) :
    (SplayETT.new n).pool.length = n ∧ (SplayETT.new n).vertexNodes = List.range n ∧
    (SplayETT.new n).global_counter = n ∧
    ∀ i, i < n → ((SplayETT.new n).node i).parent = none ∧ ((SplayETT.new n).node i).node_id = i := by
  induction n with
  | zero => simp [SplayETT.new]
  | succ n ih =>
    obtain ⟨h1, h2, h3, h4⟩ := ih
    rw [SplayETT.new_succ]
    refine ⟨?_, ?_, ?_, ?_⟩
    · simp [SplayETT.allocNode, h1]
    · simp [SplayETT.allocNode, h1, h2, List.range_succ]
    · simp [SplayETT.allocNode, h3]
    · intro i hi
      rcases Nat.lt_succ_iff_lt_or_eq.mp hi with hlt | heq
      · have := h4 i hlt
        simp only [SplayETT.node] at this ⊢
        simp only [SplayETT.allocNode]
        rw [List.getD_append _ _ _ _ (by omega)]
        exact this
      · subst heq
        simp only [SplayETT.node, SplayETT.allocNode]
        rw [List.getD_append_right _ _ _ _ (by omega)]
        simp [h1, h3]

theorem getComponentId_new (n i : Nat) (h : i < n) : (SplayETT.new n).getComponentId i = some i := by
  obtain ⟨h1, h2, _, h4⟩ := SplayETT.new_spec n
  have hp := (h4 i h).1
  have hid := (h4 i h).2
  simp only [SplayETT.getComponentId, SplayETT.getRoot, h1, h2, getRootLoop]
  have : nth (List.range n) i = i := by simp [nth, h]
  rw [this, hp]
  simp [hid]

/-- Without edges `BuildSpanningForest` links nothing: it returns, and the forest, the
activity flags and the row-to-columns map are untouched. -/
theorem buildForestLoop_isolated (n : Nat) :
    ∀ (rest : List Nat) (visited : List Bool) (d : ComponentDetector),
      (∀ s ∈ rest, s < n) → d.num_rows = n → d.ett = SplayETT.new n →
      (∀ u, d.adj_list.getD u [] = []) →
      ∃ d1, buildForestLoop rest visited d = some d1 ∧ d1.ett = SplayETT.new n ∧
        d1.row_active = d.row_active ∧ d1.row_to_cols = d.row_to_cols ∧
        d1.adj_list = d.adj_list ∧ d1.num_rows = n := by
  intro rest
  induction rest with
  | nil => intro visited d _ hn he _; exact ⟨d, rfl, he, rfl, rfl, rfl, hn⟩
  | cons start rest ih =>
    intro visited d hlt hn he hadj
    have hs : start < n := hlt start (List.mem_cons_self _ _)
    have hrest : ∀ s ∈ rest, s < n := fun s hs => hlt s (List.mem_cons_of_mem _ hs)
    obtain ⟨k, hk⟩ : ∃ k, n = k + 1 := ⟨n - 1, by omega⟩
    unfold buildForestLoop
    split
    · exact ih visited d hrest hn he hadj
    · simp only [hn, hk, bfsLoop, hadj, bfsNeighbours, he, SplayETT.batchLink]
      rw [← hk, getComponentId_new n start hs]
      simp only []
      exact ih _ _ hrest rfl rfl hadj

theorem Initialize_nil (n m : Nat) :
    ∃ d, (ComponentDetector.new n m).Initialize [] = some d := by
  obtain ⟨d1, h1, _⟩ := buildForestLoop_isolated n (List.range n) (List.replicate n false)
    { ComponentDetector.new n m with col_to_rows := [] }
    (fun s hs => List.mem_range.mp hs) rfl rfl (fun u => getD_replicate_nil n u)
  exact ⟨d1, h1⟩

/-- On a matrix without cells `IncrementalConnectedGraph::initialize` walks the root
list and leaves `rowStates` as constructed. -/
theorem igInitCols_no_cells (m : DancingMatrix) (cols : Nat)
    (hd : ∀ c, c ≤ cols → nth m.down c = c)
    (hr : ∀ c, c ≤ cols → nth m.right c = if c = cols then 0 else c + 1)
    (hf : 1 ≤ m.fuel) :
    ∀ (j c f idx : Nat) (rs : List RowState), c + j = cols → 1 ≤ c → j + 2 ≤ f →
      igInitCols m f c idx rs = some rs := by
  intro j
  induction j with
  | zero =>
    intro c f idx rs hc h1 hf2
    obtain ⟨f1, rfl⟩ : ∃ f1, f = f1 + 2 := ⟨f - 2, by omega⟩
    obtain ⟨g, hg⟩ : ∃ g, m.fuel = g + 1 := ⟨m.fuel - 1, by omega⟩
    have hcc : c = cols := by omega
    subst hcc
    simp [igInitCols, igInitRows, hg, hd c (le_refl _), hr c (le_refl _)]
  | succ j ih =>
    intro c f idx rs hc h1 hf2
    obtain ⟨f1, rfl⟩ : ∃ f1, f = f1 + 1 := ⟨f - 1, by omega⟩
    obtain ⟨g, hg⟩ : ∃ g, m.fuel = g + 1 := ⟨m.fuel - 1, by omega⟩
    have hle : c ≤ cols := by omega
    have hne : c ≠ cols := by omega
    have hc0 : c ≠ 0 := by omega
    simp only [igInitCols, igInitRows, hg, hd c hle, hr c hle, hne, hc0, if_false, if_true]
    exact ih (c + 1) f1 (idx + 1) rs (by omega) (by omega) (by omega)

/-- The file constructor on an all-zero input: it succeeds and `InitBlock` is empty. -/
theorem fromFile_all_zero (cols rows : Nat) (lines : List (List Nat)) (useIg useETT : Bool)
    (hcols : 1 ≤ cols) (hrows : rows ≤ MAX_ROW)
    (hint : cols + 1 < INT_RANGE ∧ rows * cols < INT_RANGE) (hz : ∀ l ∈ lines, l = []) :
    ∃ m, DancingMatrix.fromFile cols rows lines useIg useETT = some m ∧
      m.InitBlock = Block.mk [] [] ∧ m.dxz_mode = false := by
  have hload := loadLines_all_empty lines hz 0 (emptyMatrix rows cols useIg useETT)
  have hnot : ¬ rows > MAX_ROW := by omega
  have hnot2 : ¬ (cols + 1 ≥ INT_RANGE ∨ rows * cols ≥ INT_RANGE) := by
    intro h; rcases h with h | h <;> omega
  obtain ⟨d, hd⟩ := Initialize_nil rows cols
  have hig : ∀ (det : Option ComponentDetector),
      ∃ g, IncrementalConnectedGraph.initializeGraph rows
        { emptyMatrix rows cols useIg useETT with
          InitBlock := Block.mk [] [], detector := det } = some g := by
    intro det
    have := igInitCols_no_cells
      { emptyMatrix rows cols useIg useETT with InitBlock := Block.mk [] [], detector := det } cols
      (fun c hc => by simp [emptyMatrix, nth, Nat.lt_succ_of_le hc])
      (fun c hc => by simp [emptyMatrix, nth, Nat.lt_succ_of_le hc])
      (by simp [DancingMatrix.fuel])
      (cols - 1) 1 (cols + 2) 1 (List.replicate rows (RowState.mk [] [])) (by omega) (le_refl _) (by omega)
    refine ⟨⟨rows, List.replicate rows (RowState.mk [] [])⟩, ?_⟩
    have hr0 : nth (emptyMatrix rows cols useIg useETT).right 0 = 1 := by
      have : (0 : Nat) ≠ cols := by omega
      simp [emptyMatrix, nth, this]
    simp only [IncrementalConnectedGraph.initializeGraph]
    simp only [hr0]
    have hfuel : ({ emptyMatrix rows cols useIg useETT with
          InitBlock := Block.mk [] [], detector := det } : DancingMatrix).fuel = cols + 2 := by
      simp [DancingMatrix.fuel, emptyMatrix]
    rw [hfuel, this]
  unfold DancingMatrix.fromFile
  rw [if_neg hnot, if_neg hnot2, hload]
  cases useETT <;> cases useIg
  · exact ⟨_, rfl, rfl, rfl⟩
  · obtain ⟨g, hg⟩ := hig none
    simp only [emptyMatrix] at hg ⊢
    simp [hg]
  · simp only [emptyMatrix] at hd ⊢
    simp [hd]
  · obtain ⟨g, hg⟩ := hig (some d)
    simp only [emptyMatrix] at hd hg ⊢
    simp [hd, hg]

set_option maxRecDepth 100000 in
/-- C2: on the all-zero matrix with 1 column and 1 row (the file `1 1` with an empty data
line) the search reports the count 1, with either detector and in both modes, where the
claim asks for 0: no set of rows covers column 1.  The file constructor leaves the
column out of `InitBlock.cols`, so `DXD` returns 1 at its test `block.cols.empty()`. -/
theorem C2_all_zero_matrix_reports_one :
    (DanceDNNF.fromFile 1 1 [[]] true false none).map (fun s => s.m.InitBlock.cols) = some [] ∧
    ∀ (type : algorithm_type) (use_ett : Bool),
      (reported (mainSearch type use_ett 1 1 [[]])).map Prod.fst = some 1 ∧
      (reported (mainSearch type use_ett 1 1 [[]])).map Prod.fst ≠ some 0 := by
  refine ⟨by decide!, ?_⟩
  intro type use_ett
  cases type <;> cases use_ett <;> decide!

/-- The count that the search reports on an all-zero matrix: for every matrix with at
least one column and every data line empty that the file constructor loads, it is 1,
with either detector and in both modes, since `InitBlock.cols` is empty. -/
theorem all_zero_matrix_count_one (type : algorithm_type) (use_ett : Bool) (cols rows : Nat)
    (lines : List (List Nat)) (hcols : 1 ≤ cols) (hrows : rows ≤ MAX_ROW)
    (hint : cols + 1 < INT_RANGE ∧ rows * cols < INT_RANGE) (hz : ∀ l ∈ lines, l = []) :
    (reported (mainSearch type use_ett cols rows lines)).map Prod.fst = some 1 := by
  obtain ⟨m, hm, hb, hx⟩ :=
    fromFile_all_zero cols rows lines (!use_ett) use_ett hcols hrows hint hz
  cases type <;>
    simp [mainSearch, DanceDNNF.fromFile, hm, DanceDNNF.startDXD, DanceDNNF.startMultiThreadDXD,
      hb, hx, DXD, DanceDNNF.timeBoundBroken, reported, DNNFResult.ofCount]

theorem all_zero_matrix_count_one_sample :
    1 ≤ 1 ∧ 1 ≤ MAX_ROW ∧ (1 + 1 < INT_RANGE ∧ 1 * 1 < INT_RANGE) ∧
    (∀ l ∈ [([] : List Nat)], l = []) ∧
    (reported (mainSearch algorithm_type.mdxd true 1 1 [[]])).map Prod.fst = some 1 :=
  ⟨by decide, by decide, by decide, by decide,
   all_zero_matrix_count_one algorithm_type.mdxd true 1 1 [[]] (by decide) (by decide)
     (by decide) (by decide)⟩


/-! ## Doubly linked lists in arrays -/

theorem nth_set (l : List Nat) (i v j : Nat) :
    nth (l.set i v) j = if j = i ∧ i < l.length then v else nth l j := by
  unfold nth
  simp only [List.getD_eq_getElem?_getD, List.getElem?_set]
  by_cases h : i = j
  · subst h
    by_cases h2 : i < l.length
    · simp [h2]
    · simp [h2]
      have : l[i]? = none := by simp; omega
      simp [this]
  · have h' : ¬ j = i := fun e => h e.symm
    simp [h, h']

theorem nth_set_ne (l : List Nat) (i v j : Nat) (h : j ≠ i) : nth (l.set i v) j = nth l j := by
  rw [nth_set]; simp [h]

theorem nth_set_eq (l : List Nat) (i v : Nat) (h : i < l.length) : nth (l.set i v) i = v := by
  rw [nth_set]; simp [h]

theorem set_nth_self (l : List Nat) (i : Nat) : l.set i (nth l i) = l := by
  apply List.ext_getElem?
  intro j
  simp only [List.getElem?_set, nth, List.getD_eq_getElem?_getD]
  by_cases h : i = j
  · subst h
    by_cases h2 : i < l.length
    · simp [h2]
    · simp [h2]; omega
  · simp [h]

theorem walk_iff (next : List Nat) (stop : Nat) :
    ∀ (xs : List Nat) (a f : Nat),
      walk next stop f (nth next a) = some xs ↔ Chain next a xs stop ∧ stop ∉ xs ∧ xs.length < f := by
  intro xs
  induction xs with
  | nil =>
    intro a f
    cases f with
    | zero => simp [walk]
    | succ f =>
      simp only [walk, Chain]
      by_cases h : nth next a = stop
      · simp [h]
      · simp [h]
  | cons x rest ih =>
    intro a f
    cases f with
    | zero => simp [walk]
    | succ f =>
      simp only [walk, Chain]
      by_cases h : nth next a = stop
      · simp only [h, if_true]
        constructor
        · intro h1; simp at h1
        · rintro ⟨⟨h1, _⟩, h2, _⟩
          exfalso; apply h2; rw [← h1]; simp
      · simp only [h, if_false, Option.map_eq_some']
        constructor
        · rintro ⟨l, hl, hcons⟩
          injection hcons with h1 h2
          subst h2
          have := (ih (nth next a) f).mp hl
          subst h1
          refine ⟨⟨rfl, this.1⟩, ?_, ?_⟩
          · simp only [List.mem_cons, not_or]
            exact ⟨fun e => h e.symm, this.2.1⟩
          · simp only [List.length_cons]; omega
        · rintro ⟨⟨h1, h2⟩, h3, h4⟩
          subst h1
          refine ⟨rest, ?_, rfl⟩
          apply (ih (nth next a) f).mpr
          simp only [List.mem_cons, not_or] at h3
          simp only [List.length_cons] at h4
          exact ⟨h2, h3.2, by omega⟩

theorem walk_mono (next : List Nat) (stop : Nat) (xs : List Nat) (a f g : Nat) (hfg : f ≤ g)
    (h : walk next stop f (nth next a) = some xs) : walk next stop g (nth next a) = some xs := by
  rw [walk_iff] at h ⊢
  exact ⟨h.1, h.2.1, by omega⟩

theorem chain_frame (next next1 : List Nat) :
    ∀ (xs : List Nat) (a b : Nat), (∀ z ∈ a :: xs, nth next1 z = nth next z) →
      Chain next a xs b → Chain next1 a xs b := by
  intro xs
  induction xs with
  | nil =>
    intro a b h hc
    simp only [Chain] at hc ⊢
    rw [h a (List.mem_cons_self _ _)]; exact hc
  | cons x rest ih =>
    intro a b h hc
    simp only [Chain] at hc ⊢
    refine ⟨by rw [h a (List.mem_cons_self _ _)]; exact hc.1, ?_⟩
    exact ih x b (fun z hz => h z (List.mem_cons_of_mem _ hz)) hc.2

theorem chain_append (next : List Nat) :
    ∀ (xs : List Nat) (a y : Nat) (zs : List Nat) (b : Nat),
      Chain next a (xs ++ y :: zs) b ↔ Chain next a xs y ∧ Chain next y zs b := by
  intro xs
  induction xs with
  | nil => intro a y zs b; simp [Chain]
  | cons x rest ih =>
    intro a y zs b
    show (nth next a = x ∧ Chain next x (rest ++ y :: zs) b) ↔
      (nth next a = x ∧ Chain next x rest y) ∧ Chain next y zs b
    rw [ih]
    tauto

theorem chain_head (next : List Nat) (a : Nat) (xs : List Nat) (b : Nat) (h : Chain next a xs b) :
    nth next a = xs.headD b := by
  cases xs with
  | nil => exact h
  | cons x rest => exact h.1

theorem chain_last (next : List Nat) :
    ∀ (xs : List Nat) (a b : Nat), Chain next a xs b → nth next (xs.getLastD a) = b := by
  intro xs
  induction xs with
  | nil => intro a b h; exact h
  | cons x rest ih =>
    intro a b h
    have := ih x b h.2
    rw [List.getLastD_cons]; exact this

theorem getLastD_mem (xs : List Nat) (a : Nat) : xs.getLastD a ∈ a :: xs := by
  induction xs generalizing a with
  | nil => simp
  | cons x rest ih =>
    rw [List.getLastD_cons]
    exact List.mem_cons_of_mem _ (ih x)

theorem headD_mem (xs : List Nat) (b : Nat) : xs.headD b ∈ b :: xs := by
  cases xs <;> simp

theorem getLastD_reverse (xs : List Nat) (a : Nat) : xs.reverse.getLastD a = xs.headD a := by
  cases xs with
  | nil => rfl
  | cons x rest => simp [List.getLastD_eq_getLast?]

theorem headD_reverse (xs : List Nat) (a : Nat) : xs.reverse.headD a = xs.getLastD a := by
  rw [← getLastD_reverse, List.reverse_reverse]

/-- Splicing `y` out of a path: the predecessor of `y` is redirected to the successor. -/
theorem chain_erase (D : List Nat) (y : Nat) (post : List Nat) (b : Nat) :
    ∀ (pre : List Nat) (a : Nat), Chain D a (pre ++ y :: post) b →
      (a :: (pre ++ y :: post)).Nodup → pre.getLastD a < D.length →
      Chain (D.set (pre.getLastD a) (nth D y)) a (pre ++ post) b := by
  intro pre
  induction pre with
  | nil =>
    intro a h hnd hlt
    simp only [List.nil_append, List.getLastD_nil] at h hnd hlt ⊢
    have hy : Chain D y post b := h.2
    have hnd2 : a ∉ y :: post := (List.nodup_cons.mp hnd).1
    cases post with
    | nil =>
      simp only [Chain] at hy ⊢
      rw [nth_set_eq _ _ _ hlt]; exact hy
    | cons z post1 =>
      simp only [Chain] at hy ⊢
      refine ⟨by rw [nth_set_eq _ _ _ hlt]; exact hy.1, ?_⟩
      apply chain_frame D _ post1 z b _ hy.2
      intro w hw
      apply nth_set_ne
      intro e; subst e
      exact hnd2 (List.mem_cons_of_mem _ hw)
  | cons a1 pre1 ih =>
    intro a h hnd hlt
    simp only [List.cons_append, List.getLastD_cons] at h hnd hlt ⊢
    have hnd1 : (a1 :: (pre1 ++ y :: post)).Nodup := (List.nodup_cons.mp hnd).2
    have hnot : a ∉ a1 :: (pre1 ++ y :: post) := (List.nodup_cons.mp hnd).1
    have := ih a1 h.2 hnd1 hlt
    refine ⟨?_, this⟩
    rw [nth_set_ne]
    · exact h.1
    · intro e
      apply hnot
      have hm := getLastD_mem pre1 a1
      rw [← e] at hm
      rcases List.mem_cons.mp hm with h1 | h1
      · exact h1 ▸ List.mem_cons_self _ _
      · exact List.mem_cons_of_mem _ (List.mem_append_left _ h1)

/-- Splicing `y` out of a closed doubly linked list. -/
theorem dll_erase (D U : List Nat) (k y : Nat) (pre post : List Nat)
    (hD : Chain D k (pre ++ y :: post) k) (hU : Chain U k (pre ++ y :: post).reverse k)
    (hnd : (k :: (pre ++ y :: post)).Nodup)
    (hr : ∀ z ∈ k :: (pre ++ y :: post), z < D.length ∧ z < U.length) :
    nth U y = pre.getLastD k ∧ nth D y = post.headD k ∧
    nth U (nth D y) = y ∧ nth D (nth U y) = y ∧
    Chain (D.set (nth U y) (nth D y)) k (pre ++ post) k ∧
    Chain (U.set (nth D y) (nth U y)) k (pre ++ post).reverse k := by
  have hD2 := (chain_append D pre k y post k).mp hD
  have hrev : (pre ++ y :: post).reverse = post.reverse ++ y :: pre.reverse := by simp
  rw [hrev] at hU
  have hU2 := (chain_append U post.reverse k y pre.reverse k).mp hU
  have e1 : nth U y = pre.getLastD k := by
    rw [chain_head U y _ k hU2.2, headD_reverse]
  have e2 : nth D y = post.headD k := chain_head D y _ k hD2.2
  have e3 : nth U (nth D y) = y := by
    rw [e2, ← getLastD_reverse]; exact chain_last U _ k y hU2.1
  have e4 : nth D (nth U y) = y := by
    rw [e1]; exact chain_last D _ k y hD2.1
  refine ⟨e1, e2, e3, e4, ?_, ?_⟩
  · rw [e1]
    apply chain_erase D y post k pre k hD hnd
    have hm := getLastD_mem pre k
    have : pre.getLastD k ∈ k :: (pre ++ y :: post) := by
      rcases List.mem_cons.mp hm with h1 | h1
      · rw [h1]; exact List.mem_cons_self _ _
      · exact List.mem_cons_of_mem _ (List.mem_append_left _ h1)
    exact (hr _ this).1
  · have hrev2 : (pre ++ post).reverse = post.reverse ++ pre.reverse := by simp
    rw [hrev2, e2, ← getLastD_reverse]
    apply chain_erase U y pre.reverse k post.reverse k hU
    · have : (k :: (post.reverse ++ y :: pre.reverse)).Nodup := by
        rw [← hrev]
        have h1 := List.nodup_cons.mp hnd
        exact List.nodup_cons.mpr ⟨fun h => h1.1 (List.mem_reverse.mp h), List.nodup_reverse.mpr h1.2⟩
      exact this
    · have hm := getLastD_mem post.reverse k
      have : post.reverse.getLastD k ∈ k :: (pre ++ y :: post) := by
        rcases List.mem_cons.mp hm with h1 | h1
        · rw [h1]; exact List.mem_cons_self _ _
        · refine List.mem_cons_of_mem _ (List.mem_append_right _ (List.mem_cons_of_mem _ ?_))
          exact List.mem_reverse.mp h1
      exact (hr _ this).2

theorem nthI_set (l : List Int) (i : Nat) (v : Int) (j : Nat) :
    nthI (l.set i v) j = if j = i ∧ i < l.length then v else nthI l j := by
  unfold nthI
  simp only [List.getD_eq_getElem?_getD, List.getElem?_set]
  by_cases h : i = j
  · subst h
    by_cases h2 : i < l.length
    · simp [h2]
    · simp [h2]
      have : l[i]? = none := by simp; omega
      simp [this]
  · have h' : ¬ j = i := fun e => h e.symm
    simp [h, h']

theorem set_nthI_self (l : List Int) (i : Nat) : l.set i (nthI l i) = l := by
  apply List.ext_getElem?
  intro j
  simp only [List.getElem?_set, nthI, List.getD_eq_getElem?_getD]
  by_cases h : i = j
  · subst h
    by_cases h2 : i < l.length
    · simp [h2]
    · simp [h2]; omega
  · simp [h]

theorem nth_set_self_val (l : List Nat) (i j : Nat) : nth (l.set i (nth l j)) j = nth l j := by
  rw [nth_set]; split <;> rfl

theorem unlinkV_up (m : DancingMatrix) (y : Nat) :
    (m.unlinkV y).up = m.up.set (nth m.down y) (nth m.up y) := rfl

theorem unlinkV_down (m : DancingMatrix) (y : Nat) :
    (m.unlinkV y).down = m.down.set (nth m.up y) (nth m.down y) := by
  show m.down.set (nth (m.up.set (nth m.down y) (nth m.up y)) y) (nth m.down y) = _
  rw [nth_set_self_val]

/-- The splice of `uncover` undoes the splice of `cover` on a linked cell. -/
theorem relinkV_unlinkV (m : DancingMatrix) (y : Nat) (h : m.linkedV y) :
    (m.unlinkV y).relinkV y = m := by
  obtain ⟨h1, h2⟩ := h
  have hup : (m.unlinkV y).up = m.up.set (nth m.down y) (nth m.up y) := unlinkV_up m y
  have hdown : (m.unlinkV y).down = m.down.set (nth m.up y) (nth m.down y) := unlinkV_down m y
  have hd_y : nth (m.unlinkV y).down y = nth m.down y := by
    rw [hdown, nth_set_self_val]
  have upfinal : (m.unlinkV y).up.set (nth (m.unlinkV y).down y) y = m.up := by
    rw [hd_y, hup, List.set_set]
    have := set_nth_self m.up (nth m.down y)
    rw [h1] at this
    exact this
  have hu_y : nth ((m.unlinkV y).up.set (nth (m.unlinkV y).down y) y) y = nth m.up y := by
    rw [upfinal]
  have downfinal : (m.unlinkV y).down.set (nth ((m.unlinkV y).up.set (nth (m.unlinkV y).down y) y) y) y
      = m.down := by
    rw [hu_y, hdown, List.set_set]
    have := set_nth_self m.down (nth m.up y)
    rw [h2] at this
    exact this
  have sizefinal : (m.unlinkV y).size.set (nth (m.unlinkV y).col y)
      (nthI (m.unlinkV y).size (nth (m.unlinkV y).col y) + 1) = m.size := by
    show (m.size.set (nth m.col y) (nthI m.size (nth m.col y) - 1)).set (nth m.col y)
      (nthI (m.size.set (nth m.col y) (nthI m.size (nth m.col y) - 1)) (nth m.col y) + 1) = m.size
    rw [List.set_set, nthI_set]
    by_cases hlt : nth m.col y < m.size.length
    · simp only [hlt, and_self, if_true, sub_add_cancel]
      exact set_nthI_self _ _
    · simp only [hlt, and_false, if_false]
      apply List.ext_getElem?
      intro j
      rw [List.getElem?_set]
      split
      · rename_i e
        subst e
        simp [hlt]
        omega
      · rfl
  apply DancingMatrix.ext <;> first | rfl | exact upfinal | exact downfinal | exact sizefinal


theorem unlinkV_static (m : DancingMatrix) (y : Nat) :
    (m.unlinkV y).left = m.left ∧ (m.unlinkV y).right = m.right ∧ (m.unlinkV y).col = m.col ∧
    (m.unlinkV y).row = m.row ∧ (m.unlinkV y).COLS = m.COLS ∧ (m.unlinkV y).nodes = m.nodes ∧
    (m.unlinkV y).fuel = m.fuel ∧ (m.unlinkV y).rowsSet = m.rowsSet ∧
    (m.unlinkV y).up.length = m.up.length ∧ (m.unlinkV y).down.length = m.down.length :=
  ⟨rfl, rfl, rfl, rfl, rfl, rfl, rfl, rfl, by rw [unlinkV_up]; simp, by rw [unlinkV_down]; simp⟩

theorem filter_ne_split (pre post : List Nat) (y : Nat) (h : (pre ++ y :: post).Nodup) :
    (pre ++ y :: post).filter (fun z => decide (z ≠ y)) = pre ++ post := by
  have h1 : y ∉ pre := by
    intro hm
    have := List.nodup_append.mp h
    exact this.2.2 hm (List.mem_cons_self _ _)
  have h2 : y ∉ post := by
    have := (List.nodup_append.mp h).2.1
    exact (List.nodup_cons.mp this).1
  rw [List.filter_append, List.filter_cons]
  simp only [ne_eq, not_true_eq_false, decide_False, Bool.false_eq_true, if_false]
  rw [List.filter_eq_self.mpr, List.filter_eq_self.mpr]
  · intro a ha; simp; intro e; exact h2 (e ▸ ha)
  · intro a ha; simp; intro e; exact h1 (e ▸ ha)

/-- Splicing a cell out of its column keeps the column a closed doubly linked list. -/
theorem vring_unlinkV (m : DancingMatrix) (k y : Nat) (xs : List Nat) (h : VRing m k xs)
    (hy : y ∈ xs) (hlen : m.up.length = m.nodes ∧ m.down.length = m.nodes) (hk : k ≤ m.COLS)
    (hn : m.COLS + 1 ≤ m.nodes) :
    m.linkedV y ∧ nth m.down y ∈ k :: xs ∧ nth m.up y ∈ k :: xs ∧
    VRing (m.unlinkV y) k (xs.filter (fun z => decide (z ≠ y))) := by
  obtain ⟨hD, hU, hnd, hmem⟩ := h
  obtain ⟨pre, post, rfl⟩ := List.append_of_mem hy
  have hknot : k ∉ pre ++ y :: post := fun hm => by have := (hmem k hm).1; omega
  have hnd2 : (k :: (pre ++ y :: post)).Nodup := List.nodup_cons.mpr ⟨hknot, hnd⟩
  have hr : ∀ z ∈ k :: (pre ++ y :: post), z < m.down.length ∧ z < m.up.length := by
    intro z hz
    rw [hlen.1, hlen.2]
    rcases List.mem_cons.mp hz with e | hz
    · subst e; omega
    · have := (hmem z hz).2.1; omega
  obtain ⟨e1, e2, e3, e4, c1, c2⟩ := dll_erase m.down m.up k y pre post hD hU hnd2 hr
  refine ⟨⟨e3, e4⟩, ?_, ?_, ?_⟩
  · rw [e2]
    rcases List.mem_cons.mp (headD_mem post k) with e | hm
    · rw [e]; exact List.mem_cons_self _ _
    · exact List.mem_cons_of_mem _ (List.mem_append_right _ (List.mem_cons_of_mem _ hm))
  · rw [e1]
    rcases List.mem_cons.mp (getLastD_mem pre k) with e | hm
    · rw [e]; exact List.mem_cons_self _ _
    · exact List.mem_cons_of_mem _ (List.mem_append_left _ hm)
  · rw [filter_ne_split pre post y hnd]
    refine ⟨?_, ?_, ?_, ?_⟩
    · rw [unlinkV_down]; exact c1
    · rw [unlinkV_up]; exact c2
    · have := hnd.filter (fun z => decide (z ≠ y))
      rw [filter_ne_split pre post y hnd] at this
      exact this
    · intro x hx
      have hx2 : x ∈ pre ++ y :: post := by
        rcases List.mem_append.mp hx with h1 | h1
        · exact List.mem_append_left _ h1
        · exact List.mem_append_right _ (List.mem_cons_of_mem _ h1)
      exact hmem x hx2

/-- Splicing a cell of another column leaves a column as it is. -/
theorem vring_unlinkV_frame (m : DancingMatrix) (k2 y : Nat) (xs2 : List Nat)
    (h : VRing m k2 xs2) (hp : nth m.up y ∉ k2 :: xs2) (hq : nth m.down y ∉ k2 :: xs2) :
    VRing (m.unlinkV y) k2 xs2 := by
  obtain ⟨hD, hU, hnd, hmem⟩ := h
  refine ⟨?_, ?_, hnd, hmem⟩
  · rw [unlinkV_down]
    apply chain_frame m.down _ xs2 k2 k2 _ hD
    intro z hz
    apply nth_set_ne
    intro e; exact hp (e ▸ hz)
  · rw [unlinkV_up]
    apply chain_frame m.up _ xs2.reverse k2 k2 _ hU
    intro z hz
    apply nth_set_ne
    intro e
    apply hq
    rw [← e]
    rcases List.mem_cons.mp hz with e2 | hz
    · rw [e2]; exact List.mem_cons_self _ _
    · exact List.mem_cons_of_mem _ (List.mem_reverse.mp hz)

theorem vgood_unlinkV (m : DancingMatrix) (rg : Nat → List Nat) (y : Nat) (h : VGood m rg)
    (hc : 1 ≤ nth m.col y ∧ nth m.col y ≤ m.COLS) (hy : y ∈ rg (nth m.col y)) :
    m.linkedV y ∧ VGood (m.unlinkV y) (fun k => (rg k).filter (fun z => decide (z ≠ y))) := by
  obtain ⟨⟨hl1, hl2, hl3⟩, hr⟩ := h
  have hring := hr _ hc.1 hc.2
  obtain ⟨hlk, hq, hp, hnew⟩ := vring_unlinkV m _ y _ hring hy ⟨hl1, hl2⟩ hc.2 hl3
  refine ⟨hlk, ⟨?_, ?_, hl3⟩, ?_⟩
  · rw [(unlinkV_static m y).2.2.2.2.2.2.2.2.1]; exact hl1
  · rw [(unlinkV_static m y).2.2.2.2.2.2.2.2.2]; exact hl2
  · intro k hk1 hk2
    have hk2 : k ≤ m.COLS := hk2
    by_cases hkc : k = nth m.col y
    · subst hkc; exact hnew
    · have hrk := hr k hk1 hk2
      have hynot : y ∉ rg k := fun hm => hkc ((hrk.2.2.2 y hm).2.2).symm
      have hfil : (rg k).filter (fun z => decide (z ≠ y)) = rg k := by
        apply List.filter_eq_self.mpr
        intro a ha; simp; intro e; exact hynot (e ▸ ha)
      show VRing (m.unlinkV y) k ((rg k).filter (fun z => decide (z ≠ y)))
      rw [hfil]
      have hdisj : ∀ w, w ∈ nth m.col y :: rg (nth m.col y) → w ∉ k :: rg k := by
        intro w hw hw2
        rcases List.mem_cons.mp hw with e | hw
        · subst e
          rcases List.mem_cons.mp hw2 with e2 | hw2
          · exact hkc e2.symm
          · have := (hrk.2.2.2 _ hw2).1; omega
        · have hwd := hring.2.2.2 w hw
          rcases List.mem_cons.mp hw2 with e2 | hw2
          · subst e2; omega
          · exact hkc ((hrk.2.2.2 w hw2).2.2.symm.trans hwd.2.2)
      exact vring_unlinkV_frame m k y (rg k) hrk (hdisj _ hp) (hdisj _ hq)

/-! ## The row loops of `cover` and `uncover` -/

theorem coverRow_eq (x : Nat) : ∀ (ys : List Nat) (a : Nat) (m : DancingMatrix) (f : Nat),
    Chain m.right a ys x → x ∉ ys → ys.length < f →
    coverRow x f m (nth m.right a) = some (ys.foldl DancingMatrix.unlinkV m) := by
  intro ys
  induction ys with
  | nil =>
    intro a m f hc _ hf
    cases f with
    | zero => simp at hf
    | succ f => simp [coverRow, show nth m.right a = x from hc]
  | cons y ys ih =>
    intro a m f hc hx hf
    cases f with
    | zero => simp at hf
    | succ f =>
      have hyx : y ≠ x := fun e => hx (e ▸ List.mem_cons_self _ _)
      have h1 : nth m.right a = y := hc.1
      rw [h1]
      simp only [coverRow, if_neg hyx, List.foldl_cons]
      exact ih y (m.unlinkV y) f hc.2 (fun h => hx (List.mem_cons_of_mem _ h))
        (by simp at hf; omega)

theorem uncoverRow_eq (x : Nat) : ∀ (ys : List Nat) (a : Nat) (m : DancingMatrix) (f : Nat),
    Chain m.left a ys x → x ∉ ys → ys.length < f →
    uncoverRow x f m (nth m.left a) = some (ys.foldl DancingMatrix.relinkV m) := by
  intro ys
  induction ys with
  | nil =>
    intro a m f hc _ hf
    cases f with
    | zero => simp at hf
    | succ f => simp [uncoverRow, show nth m.left a = x from hc]
  | cons y ys ih =>
    intro a m f hc hx hf
    cases f with
    | zero => simp at hf
    | succ f =>
      have hyx : y ≠ x := fun e => hx (e ▸ List.mem_cons_self _ _)
      have h1 : nth m.left a = y := hc.1
      rw [h1]
      simp only [uncoverRow, if_neg hyx, List.foldl_cons]
      exact ih y (m.relinkV y) f hc.2 (fun h => hx (List.mem_cons_of_mem _ h))
        (by simp at hf; omega)

theorem foldl_unlinkV_static : ∀ (ys : List Nat) (m : DancingMatrix),
    (ys.foldl DancingMatrix.unlinkV m).left = m.left ∧
    (ys.foldl DancingMatrix.unlinkV m).right = m.right ∧
    (ys.foldl DancingMatrix.unlinkV m).col = m.col ∧
    (ys.foldl DancingMatrix.unlinkV m).row = m.row ∧
    (ys.foldl DancingMatrix.unlinkV m).COLS = m.COLS ∧
    (ys.foldl DancingMatrix.unlinkV m).rowsSet = m.rowsSet ∧
    (ys.foldl DancingMatrix.unlinkV m).colsSet = m.colsSet := by
  intro ys
  induction ys with
  | nil => intro m; exact ⟨rfl, rfl, rfl, rfl, rfl, rfl, rfl⟩
  | cons y ys ih => intro m; exact ih (m.unlinkV y)

theorem filter_filter_ne (l ys : List Nat) (y : Nat) :
    (l.filter (fun z => decide (z ≠ y))).filter (fun z => decide (z ∉ ys)) =
      l.filter (fun z => decide (z ∉ y :: ys)) := by
  rw [List.filter_filter]
  congr 1
  funext z
  simp only [List.mem_cons, not_or, Bool.decide_and, Bool.and_comm]

theorem filter_not_mem_nil (l : List Nat) :
    l.filter (fun z => decide (z ∉ ([] : List Nat))) = l := by
  simp

/-- Splicing out the cells `ys` one after another and putting them back in the reverse
order gives the state back. -/
theorem foldl_unlinkV_roundtrip : ∀ (ys : List Nat) (m : DancingMatrix) (rg : Nat → List Nat),
    VGood m rg →
    (∀ y ∈ ys, (1 ≤ nth m.col y ∧ nth m.col y ≤ m.COLS) ∧ y ∈ rg (nth m.col y)) → ys.Nodup →
    VGood (ys.foldl DancingMatrix.unlinkV m) (fun k => (rg k).filter (fun z => decide (z ∉ ys))) ∧
    ys.reverse.foldl DancingMatrix.relinkV (ys.foldl DancingMatrix.unlinkV m) = m := by
  intro ys
  induction ys with
  | nil =>
    intro m rg h _ _
    refine ⟨?_, rfl⟩
    have : (fun k => (rg k).filter (fun z => decide (z ∉ ([] : List Nat)))) = rg := by
      funext k; exact filter_not_mem_nil _
    rw [this]; exact h
  | cons y ys ih =>
    intro m rg h hy hnd
    have hy0 := hy y (List.mem_cons_self _ _)
    obtain ⟨hlk, hg⟩ := vgood_unlinkV m rg y h hy0.1 hy0.2
    have hnd2 := List.nodup_cons.mp hnd
    have hys : ∀ z ∈ ys, (1 ≤ nth (m.unlinkV y).col z ∧ nth (m.unlinkV y).col z ≤ (m.unlinkV y).COLS) ∧
        z ∈ (fun k => (rg k).filter (fun z => decide (z ≠ y))) (nth (m.unlinkV y).col z) := by
      intro z hz
      have hz0 := hy z (List.mem_cons_of_mem _ hz)
      refine ⟨hz0.1, ?_⟩
      show z ∈ (rg (nth m.col z)).filter (fun z => decide (z ≠ y))
      rw [List.mem_filter]
      refine ⟨hz0.2, ?_⟩
      have : z ≠ y := fun e => hnd2.1 (e ▸ hz)
      simp [this]
    obtain ⟨g1, g2⟩ := ih (m.unlinkV y) _ hg hys hnd2.2
    refine ⟨?_, ?_⟩
    · have : (fun k => (rg k).filter (fun z => decide (z ∉ y :: ys))) =
          (fun k => ((fun k => (rg k).filter (fun z => decide (z ≠ y))) k).filter
            (fun z => decide (z ∉ ys))) := by
        funext k; exact (filter_filter_ne _ _ _).symm
      rw [this]; exact g1
    · rw [List.reverse_cons, List.foldl_append, List.foldl_cons, List.foldl_nil, List.foldl_cons, g2]
      exact relinkV_unlinkV m y hlk

/-! ## Sets as ascending lists -/

theorem setInsert_erase : ∀ (s : List Nat) (r : Nat), s.Sorted (· < ·) → r ∈ s →
    setInsert r (setErase r s) = s := by
  intro s
  induction s with
  | nil => intro r _ h; simp at h
  | cons a s ih =>
    intro r hs hr
    unfold setErase at ih ⊢
    have hs2 := List.sorted_cons.mp hs
    by_cases e : a = r
    · subst e
      rw [List.erase_cons_head]
      cases s with
      | nil => rfl
      | cons b s =>
        have : a < b := hs2.1 b (List.mem_cons_self _ _)
        simp [setInsert, this]
    · have hr2 : r ∈ s := by
        rcases List.mem_cons.mp hr with h | h
        · exact absurd h.symm e
        · exact h
      have hlt : a < r := hs2.1 r hr2
      rw [List.erase_cons_tail (by simpa using e)]
      have h1 : ¬ r < a := by omega
      have h2 : ¬ r = a := by omega
      simp only [setInsert, if_neg h1, if_neg h2]
      rw [ih r hs2.2 hr2]

theorem sorted_setErase (s : List Nat) (r : Nat) (h : s.Sorted (· < ·)) :
    (setErase r s).Sorted (· < ·) :=
  List.Pairwise.sublist (List.erase_sublist r s) h

theorem mem_setErase_of_ne (s : List Nat) (r a : Nat) (h : a ≠ r) (ha : a ∈ s) :
    a ∈ setErase r s :=
  (List.mem_erase_of_ne h).mpr ha

theorem nodup_bounded_length (n : Nat) (l : List Nat) (hnd : l.Nodup) (hb : ∀ x ∈ l, x < n) :
    l.length ≤ n := by
  have hsub : l ⊆ List.range n := fun x hx => List.mem_range.mpr (hb x hx)
  have := (List.Nodup.subperm hnd hsub).length_le
  simpa using this

/-! ## The lists of a column -/

theorem vring_ptr (m : DancingMatrix) (k x : Nat) (pre post : List Nat)
    (h : VRing m k (pre ++ x :: post)) :
    nth m.down x = post.headD k ∧ nth m.up x = pre.getLastD k := by
  obtain ⟨hD, hU, _, _⟩ := h
  constructor
  · exact chain_head _ _ _ _ ((chain_append m.down pre k x post k).mp hD).2
  · rw [List.reverse_append, List.reverse_cons, List.append_assoc] at hU
    have := ((chain_append m.up post.reverse k x pre.reverse k).mp hU).2
    rw [chain_head _ _ _ _ this, headD_reverse]

theorem vring_ends (m : DancingMatrix) (k : Nat) (xs : List Nat) (h : VRing m k xs) :
    nth m.down k = xs.headD k ∧ nth m.up k = xs.getLastD k := by
  obtain ⟨hD, hU, _, _⟩ := h
  exact ⟨chain_head _ _ _ _ hD, by rw [chain_head _ _ _ _ hU, headD_reverse]⟩

theorem RowsGood_congr (m m1 : DancingMatrix) (mt : Nat → List Nat)
    (h1 : m1.left = m.left) (h2 : m1.right = m.right) (h3 : m1.col = m.col) (h4 : m1.row = m.row)
    (h5 : m1.COLS = m.COLS) (h : RowsGood m mt) : RowsGood m1 mt := by
  unfold RowsGood DancingMatrix.nodes at *
  rw [h1, h2, h3, h4, h5]
  exact h

theorem mates_trans (m : DancingMatrix) (mt : Nat → List Nat) (h : RowsGood m mt) (x z y : Nat)
    (hx : m.COLS < x ∧ x < m.nodes) (hz : z ∈ mt x) (hy : y ∈ mt z) : y = x ∨ y ∈ mt x := by
  have hz1 := ((h.2 x hx.1 hx.2).2.2.2.2 z).mp hz
  have hy1 := ((h.2 z hz1.1 hz1.2.1).2.2.2.2 y).mp hy
  by_cases e : y = x
  · exact Or.inl e
  · exact Or.inr (((h.2 x hx.1 hx.2).2.2.2.2 y).mpr ⟨hy1.1, hy1.2.1, e, hy1.2.2.2.trans hz1.2.2.2⟩)

theorem mates_symm (m : DancingMatrix) (mt : Nat → List Nat) (h : RowsGood m mt) (x z : Nat)
    (hx : m.COLS < x ∧ x < m.nodes) (hz : z ∈ mt x) : x ∈ mt z := by
  have hz1 := ((h.2 x hx.1 hx.2).2.2.2.2 z).mp hz
  exact ((h.2 z hz1.1 hz1.2.1).2.2.2.2 x).mpr ⟨hx.1, hx.2, fun e => hz1.2.2.1 e.symm, hz1.2.2.2.symm⟩

/-! ## The column loops of `cover` and `uncover` -/

theorem foldl_relinkV_rowsSet : ∀ (zs : List Nat) (m : DancingMatrix) (s : List Nat),
    zs.foldl DancingMatrix.relinkV { m with rowsSet := s } =
      { zs.foldl DancingMatrix.relinkV m with rowsSet := s } := by
  intro zs
  induction zs with
  | nil => intro m s; rfl
  | cons z zs ih =>
    intro m s
    exact ih (m.relinkV z) s

/-- One turn of the column loop of `cover`. -/
theorem coverLoop_step (c x : Nat) (ys : List Nat) (m : DancingMatrix) (f : Nat) (hxc : x ≠ c)
    (hcr : coverRow x m.fuel m (nth m.right x) = some (ys.foldl DancingMatrix.unlinkV m)) :
    coverLoop c (f + 1) m x =
      coverLoop c f { ys.foldl DancingMatrix.unlinkV m with
          rowsSet := setErase (nth m.row x) m.rowsSet }
        (nth (ys.foldl DancingMatrix.unlinkV m).down x) := by
  have hs := foldl_unlinkV_static ys m
  simp only [coverLoop, if_neg hxc, hcr]
  rw [hs.2.2.2.1, hs.2.2.2.2.2.1]

/-- One turn of the column loop of `uncover`, undoing a turn of the loop of `cover`. -/
theorem uncoverLoop_step (c x : Nat) (ys : List Nat) (m : DancingMatrix) (g : Nat) (hxc : x ≠ c)
    (hch : Chain m.left x ys.reverse x) (hx : x ∉ ys) (hlen : ys.length < m.fuel)
    (hback : ys.reverse.foldl DancingMatrix.relinkV (ys.foldl DancingMatrix.unlinkV m) = m)
    (hsort : m.rowsSet.Sorted (· < ·)) (hrow : nth m.row x ∈ m.rowsSet) :
    uncoverLoop c (g + 1)
        { ys.foldl DancingMatrix.unlinkV m with rowsSet := setErase (nth m.row x) m.rowsSet } x =
      uncoverLoop c g m (nth m.up x) := by
  have hs := foldl_unlinkV_static ys m
  have hur := uncoverRow_eq x ys.reverse x
    { ys.foldl DancingMatrix.unlinkV m with rowsSet := setErase (nth m.row x) m.rowsSet }
    m.fuel (by show Chain (ys.foldl DancingMatrix.unlinkV m).left x ys.reverse x
               rw [hs.1]; exact hch)
    (fun h => hx (List.mem_reverse.mp h)) (by simpa using hlen)
  have hfuel : DancingMatrix.fuel
      { ys.foldl DancingMatrix.unlinkV m with rowsSet := setErase (nth m.row x) m.rowsSet } =
      m.fuel := by
    show (ys.foldl DancingMatrix.unlinkV m).col.length + 1 = m.col.length + 1
    rw [hs.2.2.1]
  rw [foldl_relinkV_rowsSet, hback] at hur
  have hfin : ({ m with rowsSet := setInsert (nth m.row x) (setErase (nth m.row x) m.rowsSet) } :
      DancingMatrix) = m := by
    rw [setInsert_erase _ _ hsort hrow]
  simp only [uncoverLoop, if_neg hxc, hfuel]
  rw [hur]
  simp only []
  rw [hfin]


theorem filter_filter_not_mem (l ys rem : List Nat) :
    (l.filter (fun z => decide (z ∉ ys))).filter (fun z => decide (z ∉ rem)) =
      l.filter (fun z => decide (z ∉ ys ++ rem)) := by
  rw [List.filter_filter]
  congr 1
  funext z
  simp only [List.mem_append, not_or, Bool.decide_and, Bool.and_comm]

theorem mem_filter_not_mem (l ys : List Nat) (z : Nat) :
    z ∈ l.filter (fun z => decide (z ∉ ys)) ↔ z ∈ l ∧ z ∉ ys := by
  rw [List.mem_filter]; simp

/-- One turn of the column loop of `cover` at the live cell `x` of column `c`: the
state reached, from which one turn of the loop of `uncover` leads back. -/
theorem coverLoop_turn (c : Nat) (mt : Nat → List Nat) (m : DancingMatrix) (rg : Nat → List Nat)
    (pre : List Nat) (x : Nat) (post : List Nat)
    (hV : VGood m rg) (hR : RowsGood m mt) (hc1 : 1 ≤ c) (hc2 : c ≤ m.COLS)
    (hring : rg c = pre ++ x :: post)
    (hlive : ∀ z ∈ x :: post, ∀ y ∈ mt z, y ∈ rg (nth m.col y))
    (hsort : m.rowsSet.Sorted (· < ·)) (hrows : ∀ z ∈ x :: post, nth m.row z ∈ m.rowsSet) :
    ∃ m2 : DancingMatrix,
      (∀ f, coverLoop c (f + 1) m x = coverLoop c f m2 (nth m2.down x)) ∧
      (∀ g, uncoverLoop c (g + 1) m2 x = uncoverLoop c g m (nth m.up x)) ∧
      VGood m2 (fun j => (rg j).filter (fun z => decide (z ∉ mt x))) ∧
      RowsGood m2 mt ∧
      (m2.left = m.left ∧ m2.right = m.right ∧ m2.col = m.col ∧ m2.row = m.row ∧
        m2.COLS = m.COLS ∧ m2.colsSet = m.colsSet) ∧
      (∀ z ∈ post.filter (fun z => decide (z ∉ mt x)), ∀ y ∈ mt z,
        y ∈ (rg (nth m.col y)).filter (fun z => decide (z ∉ mt x))) ∧
      m2.rowsSet.Sorted (· < ·) ∧
      (∀ z ∈ post.filter (fun z => decide (z ∉ mt x)), nth m.row z ∈ m2.rowsSet) ∧
      (∀ r ∈ m.rowsSet, r ≠ nth m.row x → r ∈ m2.rowsSet) := by
  have hVc : VRing m c (pre ++ x :: post) := hring ▸ hV.2 c hc1 hc2
  have hmemx : x ∈ pre ++ x :: post := List.mem_append_right _ (List.mem_cons_self _ _)
  have hx := hVc.2.2.2 x hmemx
  have hxc : x ≠ c := by omega
  have hRx := hR.2 x hx.1 hx.2.1
  have hxn : x ∉ mt x := fun h => ((hRx.2.2.2.2 x).mp h).2.2.1 rfl
  have hlen : (mt x).length < m.fuel := by
    have := nodup_bounded_length m.nodes (mt x) hRx.2.2.2.1
      (fun y hy => ((hRx.2.2.2.2 y).mp hy).2.1)
    unfold DancingMatrix.fuel; unfold DancingMatrix.nodes at this; omega
  have hcr := coverRow_eq x (mt x) x m m.fuel hRx.2.1 hxn hlen
  have hys : ∀ y ∈ mt x, (1 ≤ nth m.col y ∧ nth m.col y ≤ m.COLS) ∧ y ∈ rg (nth m.col y) := by
    intro y hy
    have hy1 := (hRx.2.2.2.2 y).mp hy
    exact ⟨(hR.2 y hy1.1 hy1.2.1).1, hlive x (List.mem_cons_self _ _) y hy⟩
  obtain ⟨hVM, hback⟩ := foldl_unlinkV_roundtrip (mt x) m rg hV hys hRx.2.2.2.1
  have hs := foldl_unlinkV_static (mt x) m
  have hpost : ∀ z ∈ post, (m.COLS < z ∧ z < m.nodes) ∧ z ≠ x := by
    intro z hz
    have hz1 := hVc.2.2.2 z (List.mem_append_right _ (List.mem_cons_of_mem _ hz))
    refine ⟨⟨hz1.1, hz1.2.1⟩, ?_⟩
    intro e
    have hnd := (List.nodup_append.mp hVc.2.2.1).2.1
    exact (List.nodup_cons.mp hnd).1 (e ▸ hz)
  refine ⟨{ (mt x).foldl DancingMatrix.unlinkV m with
      rowsSet := setErase (nth m.row x) m.rowsSet }, ?_, ?_, hVM, ?_, ?_, ?_, ?_, ?_, ?_⟩
  · intro f; exact coverLoop_step c x (mt x) m f hxc hcr
  · intro g
    exact uncoverLoop_step c x (mt x) m g hxc hRx.2.2.1 hxn hlen hback hsort
      (hrows x (List.mem_cons_self _ _))
  · exact RowsGood_congr m _ mt hs.1 hs.2.1 hs.2.2.1 hs.2.2.2.1 hs.2.2.2.2.1 hR
  · exact ⟨hs.1, hs.2.1, hs.2.2.1, hs.2.2.2.1, hs.2.2.2.2.1, hs.2.2.2.2.2.2⟩
  · intro z hz y hy
    rw [mem_filter_not_mem] at hz ⊢
    refine ⟨hlive z (List.mem_cons_of_mem _ hz.1) y hy, ?_⟩
    intro hyx
    have hzc := hpost z hz.1
    have hy1 := (hRx.2.2.2.2 y).mp hyx
    have hzy : z ∈ mt y := mates_symm m mt hR z y hzc.1 hy
    rcases mates_trans m mt hR x y z ⟨hx.1, hx.2.1⟩ hyx hzy with e | h
    · exact hzc.2 e
    · exact hz.2 h
  · exact sorted_setErase _ _ hsort
  · intro z hz
    rw [mem_filter_not_mem] at hz
    have hzc := hpost z hz.1
    apply mem_setErase_of_ne _ _ _ _ (hrows z (List.mem_cons_of_mem _ hz.1))
    intro e
    exact hz.2 ((hRx.2.2.2.2 z).mpr ⟨hzc.1.1, hzc.1.2, hzc.2, e⟩)
  · intro r hr hne
    exact mem_setErase_of_ne _ _ _ hne hr


theorem getLastD_append_singleton (l : List Nat) (x d : Nat) : (l ++ [x]).getLastD d = x := by
  rw [List.getLastD_eq_getLast?]; simp

theorem filter_ring (pre post ys : List Nat) (x : Nat) (hx : x ∉ ys) :
    (pre ++ x :: post).filter (fun z => decide (z ∉ ys)) =
      pre.filter (fun z => decide (z ∉ ys)) ++ x :: post.filter (fun z => decide (z ∉ ys)) := by
  rw [List.filter_append, List.filter_cons]
  simp [hx]

/-- The last turn of the column loop of `cover(c)`: no live cell of column `c` is left
below `x` once the row of `x` is spliced out. -/
theorem coverLoop_last (c : Nat) (mt : Nat → List Nat) (m : DancingMatrix) (rg : Nat → List Nat)
    (pre : List Nat) (x : Nat) (post : List Nat)
    (hV : VGood m rg) (hR : RowsGood m mt) (hc1 : 1 ≤ c) (hc2 : c ≤ m.COLS)
    (hring : rg c = pre ++ x :: post)
    (hlive : ∀ z ∈ x :: post, ∀ y ∈ mt z, y ∈ rg (nth m.col y))
    (hsort : m.rowsSet.Sorted (· < ·)) (hrows : ∀ z ∈ x :: post, nth m.row z ∈ m.rowsSet)
    (hp : post.filter (fun z => decide (z ∉ mt x)) = []) :
    ∃ (m1 : DancingMatrix) (k : Nat) (rem : List Nat),
      (∀ f, post.length + 2 ≤ f → coverLoop c f m x = some m1) ∧
      (∀ g, uncoverLoop c (g + k) m1 (nth m1.up c) = uncoverLoop c g m (nth m.up x)) ∧
      k ≤ post.length + 1 ∧
      (m1.left = m.left ∧ m1.right = m.right ∧ m1.col = m.col ∧ m1.row = m.row ∧
        m1.COLS = m.COLS ∧ m1.colsSet = m.colsSet) ∧
      VGood m1 (fun j => (rg j).filter (fun z => decide (z ∉ rem))) ∧
      (∀ y ∈ rem, ∃ z ∈ x :: post, y ∈ mt z) ∧
      (∀ z ∈ x :: post, ∀ y ∈ mt z, nth m.col y ≠ c → y ∈ rem) ∧
      m1.rowsSet.Sorted (· < ·) ∧
      (∀ r ∈ m.rowsSet, (∀ z ∈ x :: post, nth m.row z ≠ r) → r ∈ m1.rowsSet) := by
  obtain ⟨m2, t1, t2, t3, t4, t5, t6, t7, t8, t9⟩ :=
    coverLoop_turn c mt m rg pre x post hV hR hc1 hc2 hring hlive hsort hrows
  have hVc : VRing m c (pre ++ x :: post) := hring ▸ hV.2 c hc1 hc2
  have hx := hVc.2.2.2 x (List.mem_append_right _ (List.mem_cons_self _ _))
  have hRx := hR.2 x hx.1 hx.2.1
  have hxn : x ∉ mt x := fun h => ((hRx.2.2.2.2 x).mp h).2.2.1 rfl
  have hr2 : VRing m2 c (pre.filter (fun z => decide (z ∉ mt x)) ++ x :: []) := by
    have := t3.2 c hc1 (by rw [t5.2.2.2.2.1]; exact hc2)
    simp only [hring, filter_ring pre post (mt x) x hxn, hp] at this
    exact this
  have hdown : nth m2.down x = c := (vring_ptr m2 c x _ [] hr2).1
  have hup : nth m2.up c = x := by
    rw [(vring_ends m2 c _ hr2).2]; exact getLastD_append_singleton _ _ _
  refine ⟨m2, 1, mt x, ?_, ?_, by omega, t5, t3, ?_, ?_, t7, ?_⟩
  · intro f hf
    obtain ⟨f1, rfl⟩ : ∃ f1, f = f1 + 1 + 1 := ⟨f - 2, by omega⟩
    rw [t1, hdown]
    simp [coverLoop]
  · intro g; rw [hup]; exact t2 g
  · intro y hy; exact ⟨x, List.mem_cons_self _ _, hy⟩
  · intro z hz y hy hcol
    rcases List.mem_cons.mp hz with e | hz
    · rw [e] at hy; exact hy
    · have hzx : z ∈ mt x := by
        by_contra hcon
        have : z ∈ post.filter (fun z => decide (z ∉ mt x)) :=
          (mem_filter_not_mem _ _ _).mpr ⟨hz, hcon⟩
        rw [hp] at this; simp at this
      rcases mates_trans m mt hR x z y ⟨hx.1, hx.2.1⟩ hzx hy with e | h
      · exact absurd (e ▸ hx.2.2) hcol
      · exact h
  · intro r hr hall
    exact t9 r hr (fun e => hall x (List.mem_cons_self _ _) e.symm)

/-- The column loop of `cover(c)` entered at the live cell `x` of column `c` ends, and
the column loop of `uncover(c)` run on its result comes back to the entry state with
the cursor above `x`.  `rem` are the cells spliced out of their columns. -/
theorem coverLoop_spec (c : Nat) (mt : Nat → List Nat) :
    ∀ (n : Nat) (m : DancingMatrix) (rg : Nat → List Nat) (pre : List Nat) (x : Nat)
      (post : List Nat),
      post.length ≤ n → VGood m rg → RowsGood m mt → 1 ≤ c → c ≤ m.COLS →
      rg c = pre ++ x :: post →
      (∀ z ∈ x :: post, ∀ y ∈ mt z, y ∈ rg (nth m.col y)) →
      m.rowsSet.Sorted (· < ·) → (∀ z ∈ x :: post, nth m.row z ∈ m.rowsSet) →
      ∃ (m1 : DancingMatrix) (k : Nat) (rem : List Nat),
        (∀ f, post.length + 2 ≤ f → coverLoop c f m x = some m1) ∧
        (∀ g, uncoverLoop c (g + k) m1 (nth m1.up c) = uncoverLoop c g m (nth m.up x)) ∧
        k ≤ post.length + 1 ∧
        (m1.left = m.left ∧ m1.right = m.right ∧ m1.col = m.col ∧ m1.row = m.row ∧
          m1.COLS = m.COLS ∧ m1.colsSet = m.colsSet) ∧
        VGood m1 (fun j => (rg j).filter (fun z => decide (z ∉ rem))) ∧
        (∀ y ∈ rem, ∃ z ∈ x :: post, y ∈ mt z) ∧
        (∀ z ∈ x :: post, ∀ y ∈ mt z, nth m.col y ≠ c → y ∈ rem) ∧
        m1.rowsSet.Sorted (· < ·) ∧
        (∀ r ∈ m.rowsSet, (∀ z ∈ x :: post, nth m.row z ≠ r) → r ∈ m1.rowsSet) := by
  intro n
  induction n with
  | zero =>
    intro m rg pre x post hn hV hR hc1 hc2 hring hlive hsort hrows
    have hp0 : post = [] := List.length_eq_zero.mp (Nat.le_zero.mp hn)
    exact coverLoop_last c mt m rg pre x post hV hR hc1 hc2 hring hlive hsort hrows
      (by rw [hp0]; rfl)
  | succ n ih =>
    intro m rg pre x post hn hV hR hc1 hc2 hring hlive hsort hrows
    rcases hp : post.filter (fun z => decide (z ∉ mt x)) with _ | ⟨x2, post3⟩
    · exact coverLoop_last c mt m rg pre x post hV hR hc1 hc2 hring hlive hsort hrows hp
    · obtain ⟨m2, t1, t2, t3, t4, t5, t6, t7, t8, t9⟩ :=
        coverLoop_turn c mt m rg pre x post hV hR hc1 hc2 hring hlive hsort hrows
      have hVc : VRing m c (pre ++ x :: post) := hring ▸ hV.2 c hc1 hc2
      have hx := hVc.2.2.2 x (List.mem_append_right _ (List.mem_cons_self _ _))
      have hRx := hR.2 x hx.1 hx.2.1
      have hxn : x ∉ mt x := fun h => ((hRx.2.2.2.2 x).mp h).2.2.1 rfl
      have hc2b : c ≤ m2.COLS := by rw [t5.2.2.2.2.1]; exact hc2
      have hring2 : (fun j => (rg j).filter (fun z => decide (z ∉ mt x))) c =
          (pre.filter (fun z => decide (z ∉ mt x)) ++ [x]) ++ x2 :: post3 := by
        show (rg c).filter (fun z => decide (z ∉ mt x)) = _
        rw [hring, filter_ring pre post (mt x) x hxn, hp]; simp
      have hr2 : VRing m2 c ((pre.filter (fun z => decide (z ∉ mt x)) ++ [x]) ++ x2 :: post3) := by
        have := t3.2 c hc1 hc2b
        rw [hring2] at this
        exact this
      have hr2b : VRing m2 c (pre.filter (fun z => decide (z ∉ mt x)) ++ x :: (x2 :: post3)) := by
        have := hr2
        rw [List.append_assoc] at this
        exact this
      have hdown : nth m2.down x = x2 := (vring_ptr m2 c x _ _ hr2b).1
      have hup : nth m2.up x2 = x := by
        rw [(vring_ptr m2 c x2 _ _ hr2).2]; exact getLastD_append_singleton _ _ _
      have hlen3 : post3.length + 1 ≤ post.length := by
        have := List.length_filter_le (fun z => decide (z ∉ mt x)) post
        rw [hp] at this; simpa using this
      have hsub : ∀ z ∈ x2 :: post3, z ∈ post ∧ z ∉ mt x := by
        intro z hz; rw [← hp] at hz; exact (mem_filter_not_mem _ _ _).mp hz
      obtain ⟨m1, k, rem, i1, i2, i3, i4, i5, i6, i7, i8, i9⟩ :=
        ih m2 _ (pre.filter (fun z => decide (z ∉ mt x)) ++ [x]) x2 post3 (by omega) t3 t4 hc1 hc2b
          hring2
          (by intro z hz y hy
              rw [t5.2.2.1]
              exact t6 z (by rw [hp]; exact hz) y hy)
          t7
          (by intro z hz
              rw [t5.2.2.2.1]
              exact t8 z (by rw [hp]; exact hz))
      refine ⟨m1, k + 1, mt x ++ rem, ?_, ?_, by omega, ?_, ?_, ?_, ?_, i8, ?_⟩
      · intro f hf
        obtain ⟨f1, rfl⟩ : ∃ f1, f = f1 + 1 := ⟨f - 1, by omega⟩
        rw [t1, hdown]
        exact i1 f1 (by omega)
      · intro g
        rw [← Nat.add_assoc, Nat.add_right_comm, i2 (g + 1), hup]
        exact t2 g
      · exact ⟨i4.1.trans t5.1, i4.2.1.trans t5.2.1, i4.2.2.1.trans t5.2.2.1,
          i4.2.2.2.1.trans t5.2.2.2.1, i4.2.2.2.2.1.trans t5.2.2.2.2.1,
          i4.2.2.2.2.2.trans t5.2.2.2.2.2⟩
      · have : (fun j => (rg j).filter (fun z => decide (z ∉ mt x ++ rem))) =
            (fun j => ((fun j => (rg j).filter (fun z => decide (z ∉ mt x))) j).filter
              (fun z => decide (z ∉ rem))) := by
          funext j; exact (filter_filter_not_mem _ _ _).symm
        rw [this]; exact i5
      · intro y hy
        rcases List.mem_append.mp hy with h | h
        · exact ⟨x, List.mem_cons_self _ _, h⟩
        · obtain ⟨z, hz, hyz⟩ := i6 y h
          exact ⟨z, List.mem_cons_of_mem _ (hsub z hz).1, hyz⟩
      · intro z hz y hy hcol
        rcases List.mem_cons.mp hz with e | hz
        · rw [e] at hy; exact List.mem_append_left _ hy
        · by_cases hzx : z ∈ mt x
          · rcases mates_trans m mt hR x z y ⟨hx.1, hx.2.1⟩ hzx hy with e | h
            · exact absurd (e ▸ hx.2.2) hcol
            · exact List.mem_append_left _ h
          · have hz2 : z ∈ x2 :: post3 := by
              rw [← hp]; exact (mem_filter_not_mem _ _ _).mpr ⟨hz, hzx⟩
            exact List.mem_append_right _ (i7 z hz2 y hy (by rw [t5.2.2.1]; exact hcol))
      · intro r hr hall
        apply i9 r (t9 r hr (fun e => hall x (List.mem_cons_self _ _) e.symm))
        intro z hz
        rw [t5.2.2.2.1]
        exact hall z (List.mem_cons_of_mem _ (hsub z hz).1)

/-! ## The header splice -/

theorem unlinkH_left (m : DancingMatrix) (c : Nat) :
    (m.unlinkH c).left = m.left.set (nth m.right c) (nth m.left c) := rfl

theorem unlinkH_right (m : DancingMatrix) (c : Nat) :
    (m.unlinkH c).right = m.right.set (nth m.left c) (nth m.right c) := by
  show m.right.set (nth (m.left.set (nth m.right c) (nth m.left c)) c) (nth m.right c) = _
  rw [nth_set_self_val]

/-- The header splice of `uncover` undoes the header splice of `cover`. -/
theorem relinkH_unlinkH (m : DancingMatrix) (c : Nat) (h : m.linkedH c) :
    (m.unlinkH c).relinkH c = m := by
  obtain ⟨h1, h2⟩ := h
  have hl := unlinkH_left m c
  have hr := unlinkH_right m c
  have hr_c : nth (m.unlinkH c).right c = nth m.right c := by
    rw [hr, nth_set_self_val]
  have leftfinal : (m.unlinkH c).left.set (nth (m.unlinkH c).right c) c = m.left := by
    rw [hr_c, hl, List.set_set]
    have := set_nth_self m.left (nth m.right c)
    rw [h1] at this
    exact this
  have hl_c : nth ((m.unlinkH c).left.set (nth (m.unlinkH c).right c) c) c = nth m.left c := by
    rw [leftfinal]
  have rightfinal :
      (m.unlinkH c).right.set (nth ((m.unlinkH c).left.set (nth (m.unlinkH c).right c) c) c) c
        = m.right := by
    rw [hl_c, hr, List.set_set]
    have := set_nth_self m.right (nth m.left c)
    rw [h2] at this
    exact this
  apply DancingMatrix.ext <;> first | rfl | exact leftfinal | exact rightfinal

theorem erase_split (pre post : List Nat) (c : Nat) (h : (pre ++ c :: post).Nodup) :
    (pre ++ c :: post).erase c = pre ++ post := by
  have h1 : c ∉ pre := by
    intro hm
    exact (List.nodup_append.mp h).2.2 hm (List.mem_cons_self _ _)
  rw [List.erase_append_right _ h1, List.erase_cons_head]

/-- Splicing an uncovered header out of the root list. -/
theorem HGood_unlinkH (m : DancingMatrix) (hs : List Nat) (c : Nat) (h : HGood m hs)
    (hlen : m.left.length = m.nodes ∧ m.right.length = m.nodes) (hn : m.COLS + 1 ≤ m.nodes)
    (hc : c ∈ hs) :
    m.linkedH c ∧ nth m.right c ≤ m.COLS ∧ nth m.left c ≤ m.COLS ∧
    HGood (m.unlinkH c) (hs.erase c) := by
  obtain ⟨hR, hL, hnd, hmem⟩ := h
  obtain ⟨pre, post, rfl⟩ := List.append_of_mem hc
  have h0 : 0 ∉ pre ++ c :: post := fun hm => by have := (hmem 0 hm).1; omega
  have hnd2 : (0 :: (pre ++ c :: post)).Nodup := List.nodup_cons.mpr ⟨h0, hnd⟩
  have hr : ∀ z ∈ 0 :: (pre ++ c :: post), z < m.right.length ∧ z < m.left.length := by
    intro z hz
    rw [hlen.1, hlen.2]
    rcases List.mem_cons.mp hz with e | hz
    · subst e; omega
    · have := (hmem z hz).2; omega
  have hle : ∀ z ∈ 0 :: (pre ++ c :: post), z ≤ m.COLS := by
    intro z hz
    rcases List.mem_cons.mp hz with e | hz
    · subst e; omega
    · exact (hmem z hz).2
  obtain ⟨e1, e2, e3, e4, c1, c2⟩ := dll_erase m.right m.left 0 c pre post hR hL hnd2 hr
  refine ⟨⟨e3, e4⟩, ?_, ?_, ?_⟩
  · rw [e2]
    apply hle
    rcases List.mem_cons.mp (headD_mem post 0) with e | hm
    · rw [e]; exact List.mem_cons_self _ _
    · exact List.mem_cons_of_mem _ (List.mem_append_right _ (List.mem_cons_of_mem _ hm))
  · rw [e1]
    apply hle
    rcases List.mem_cons.mp (getLastD_mem pre 0) with e | hm
    · rw [e]; exact List.mem_cons_self _ _
    · exact List.mem_cons_of_mem _ (List.mem_append_left _ hm)
  · rw [erase_split pre post c hnd]
    refine ⟨?_, ?_, ?_, ?_⟩
    · rw [unlinkH_right]; exact c1
    · rw [unlinkH_left]; exact c2
    · have := hnd.erase c
      rw [erase_split pre post c hnd] at this
      exact this
    · intro x hx
      have hx2 : x ∈ pre ++ c :: post := by
        rcases List.mem_append.mp hx with h1 | h1
        · exact List.mem_append_left _ h1
        · exact List.mem_append_right _ (List.mem_cons_of_mem _ h1)
      exact hmem x hx2

/-- The header splice leaves the rows as they are. -/
theorem RowsGood_unlinkH (m : DancingMatrix) (mt : Nat → List Nat) (c : Nat) (h : RowsGood m mt)
    (hr : nth m.right c ≤ m.COLS) (hl : nth m.left c ≤ m.COLS) : RowsGood (m.unlinkH c) mt := by
  obtain ⟨hlen, hrows⟩ := h
  refine ⟨⟨?_, ?_⟩, ?_⟩
  · rw [unlinkH_left, List.length_set]; exact hlen.1
  · rw [unlinkH_right, List.length_set]; exact hlen.2
  · intro x hx1 hx2
    obtain ⟨g1, g2, g3, g4, g5⟩ := hrows x hx1 hx2
    have hcell : ∀ z ∈ x :: mt x, m.COLS < z := by
      intro z hz
      rcases List.mem_cons.mp hz with e | hz
      · rw [e]; exact hx1
      · exact ((g5 z).mp hz).1
    refine ⟨g1, ?_, ?_, g4, g5⟩
    · rw [unlinkH_right]
      apply chain_frame m.right _ (mt x) x x _ g2
      intro z hz
      apply nth_set_ne
      have := hcell z hz
      omega
    · rw [unlinkH_left]
      apply chain_frame m.left _ (mt x).reverse x x _ g3
      intro z hz
      apply nth_set_ne
      have : m.COLS < z := by
        apply hcell
        rcases List.mem_cons.mp hz with e | hz
        · rw [e]; exact List.mem_cons_self _ _
        · exact List.mem_cons_of_mem _ (List.mem_reverse.mp hz)
      omega

theorem HGood_congr (m m1 : DancingMatrix) (hs : List Nat)
    (h1 : m1.left = m.left) (h2 : m1.right = m.right) (h5 : m1.COLS = m.COLS)
    (h : HGood m hs) : HGood m1 hs := by
  unfold HGood at *
  rw [h1, h2, h5]
  exact h


/-! ## The column loops on a whole column -/

/-- The column loop of `cover(c)` from the header ends, and the column loop of
`uncover(c)` run on its result gives the entry state back. -/
theorem coverLoop_roundtrip (c : Nat) (mt : Nat → List Nat) (m : DancingMatrix)
    (rg : Nat → List Nat) (hV : VGood m rg) (hR : RowsGood m mt) (hc1 : 1 ≤ c) (hc2 : c ≤ m.COLS)
    (hlive : ∀ z ∈ rg c, ∀ y ∈ mt z, y ∈ rg (nth m.col y))
    (hsort : m.rowsSet.Sorted (· < ·)) (hrows : ∀ z ∈ rg c, nth m.row z ∈ m.rowsSet) :
    ∃ (m1 : DancingMatrix) (rem : List Nat),
      coverLoop c m.fuel m (nth m.down c) = some m1 ∧
      uncoverLoop c m1.fuel m1 (nth m1.up c) = some m ∧
      (m1.left = m.left ∧ m1.right = m.right ∧ m1.col = m.col ∧ m1.row = m.row ∧
        m1.COLS = m.COLS ∧ m1.colsSet = m.colsSet) ∧
      VGood m1 (fun j => (rg j).filter (fun z => decide (z ∉ rem))) ∧
      (∀ y ∈ rem, ∃ z ∈ rg c, y ∈ mt z) ∧
      (∀ z ∈ rg c, ∀ y ∈ mt z, nth m.col y ≠ c → y ∈ rem) ∧
      m1.rowsSet.Sorted (· < ·) ∧
      (∀ r ∈ m.rowsSet, (∀ z ∈ rg c, nth m.row z ≠ r) → r ∈ m1.rowsSet) := by
  have hVc : VRing m c (rg c) := hV.2 c hc1 hc2
  rcases hrg : rg c with _ | ⟨x, post⟩
  · rw [hrg] at hVc
    have hd : nth m.down c = c := (vring_ends m c [] hVc).1
    have hu : nth m.up c = c := (vring_ends m c [] hVc).2
    refine ⟨m, [], ?_, ?_, ⟨rfl, rfl, rfl, rfl, rfl, rfl⟩, ?_, ?_, ?_, hsort, ?_⟩
    · rw [hd]; simp [coverLoop, DancingMatrix.fuel]
    · rw [hu]; simp [uncoverLoop, DancingMatrix.fuel]
    · have : (fun j => (rg j).filter (fun z => decide (z ∉ ([] : List Nat)))) = rg := by
        funext k; exact filter_not_mem_nil _
      rw [this]; exact hV
    · intro y hy; simp at hy
    · intro z hz; simp at hz
    · intro r hr _; exact hr
  · rw [hrg] at hVc hlive hrows
    have hlen : (x :: post).length ≤ m.nodes :=
      nodup_bounded_length m.nodes _ hVc.2.2.1 (fun z hz => (hVc.2.2.2 z hz).2.1)
    obtain ⟨m1, k, rem, i1, i2, i3, i4, i5, i6, i7, i8, i9⟩ :=
      coverLoop_spec c mt post.length m rg [] x post (Nat.le_refl _) hV hR hc1 hc2
        (by rw [hrg]; rfl) hlive hsort hrows
    have hd : nth m.down c = x := (vring_ends m c _ hVc).1
    have hu : nth m.up x = c := (vring_ptr m c x [] post hVc).2
    have hf : m.fuel = m.nodes + 1 := rfl
    have hf1 : m1.fuel = m.nodes + 1 := by
      show m1.col.length + 1 = m.col.length + 1
      rw [i4.2.2.1]
    refine ⟨m1, rem, ?_, ?_, i4, i5, i6, i7, i8, i9⟩
    · rw [hd]
      apply i1
      simp at hlen
      omega
    · have : m1.fuel = (m.nodes - k) + 1 + k := by
        simp at hlen
        omega
      rw [this, i2, hu]
      simp [uncoverLoop]


/-! ## The methods `cover` and `uncover` -/

/-- The call `cover(c)` of an uncovered column returns, keeps the invariant with `c`
taken out of the uncovered columns, and `uncover(c)` on its result gives the state
back, `colsSet` becoming `colsSet` with `c` erased and inserted. -/
theorem cover_spec (m : DancingMatrix) (hs : List Nat) (rg mt : Nat → List Nat) (c : Nat)
    (hI : Inv m hs rg mt) (hc : c ∈ hs) :
    ∃ (m1 : DancingMatrix) (rg1 : Nat → List Nat),
      m.cover c = some m1 ∧ Inv m1 (hs.erase c) rg1 mt ∧
      m1.uncover c = some { m with colsSet := setInsert c (setErase c m.colsSet) } ∧
      m1.colsSet = setErase c m.colsSet := by
  obtain ⟨hH, hV, hR, hL, hsort, hrows⟩ := hI
  have hcr := hH.2.2.2 c hc
  obtain ⟨hlk, hrc, hlc, hH1⟩ := HGood_unlinkH m hs c hH hR.1 hV.1.2.2 hc
  have hR1 := RowsGood_unlinkH m mt c hR hrc hlc
  have hV0 : VGood { m.unlinkH c with colsSet := setErase c (m.unlinkH c).colsSet } rg := hV
  have hR0 : RowsGood { m.unlinkH c with colsSet := setErase c (m.unlinkH c).colsSet } mt := hR1
  obtain ⟨m1, rem, j1, j2, j3, j4, j5, j6, j7, j8⟩ :=
    coverLoop_roundtrip c mt _ rg hV0 hR0 hcr.1 hcr.2
      (fun z hz y hy => (hL c hc z hz y hy).1) hsort (hrows c hc)
  have hcell : ∀ k, k ∈ hs → ∀ z ∈ rg k, m.COLS < z ∧ z < m.nodes ∧ nth m.col z = k := by
    intro k hk z hz
    have hk2 := hH.2.2.2 k hk
    exact (hV.2 k hk2.1 hk2.2).2.2.2 z hz
  have hkey : ∀ c1 ∈ hs, c1 ≠ c → ∀ x ∈ rg c1, x ∉ rem → ∀ z ∈ rg c, nth m.row z ≠ nth m.row x := by
    intro c1 hc1 hne x hx hxr z hz e
    have hxc := hcell c1 hc1 x hx
    have hzc := hcell c hc z hz
    have hxz : x ∈ mt z := ((hR.2 z hzc.1 hzc.2.1).2.2.2.2 x).mpr
      ⟨hxc.1, hxc.2.1, fun e2 => hne (by rw [← hxc.2.2, e2, hzc.2.2]), e.symm⟩
    exact hxr (j6 z hz x hxz (by show nth m.col x ≠ c; rw [hxc.2.2]; exact hne))
  refine ⟨m1, fun j => (rg j).filter (fun z => decide (z ∉ rem)), j1, ?_, ?_, j3.2.2.2.2.2⟩
  · refine ⟨HGood_congr _ m1 _ j3.1 j3.2.1 j3.2.2.2.2.1 hH1, j4,
      RowsGood_congr _ m1 mt j3.1 j3.2.1 j3.2.2.1 j3.2.2.2.1 j3.2.2.2.2.1 hR0, ?_, j7, ?_⟩
    · intro c1 hc1 x hx y hy
      have hc1b := (List.Nodup.mem_erase_iff hH.2.2.1).mp hc1
      have hx2 := (mem_filter_not_mem _ _ _).mp hx
      have hxc := hcell c1 hc1b.2 x hx2.1
      have hold := hL c1 hc1b.2 x hx2.1 y hy
      have hyc := ((hR.2 x hxc.1 hxc.2.1).2.2.2.2 y).mp hy
      have hrow := hkey c1 hc1b.2 hc1b.1 x hx2.1 hx2.2
      rw [j3.2.2.1]
      show y ∈ (rg (nth m.col y)).filter (fun z => decide (z ∉ rem)) ∧ nth m.col y ∈ hs.erase c
      refine ⟨(mem_filter_not_mem _ _ _).mpr ⟨hold.1, ?_⟩,
        (List.Nodup.mem_erase_iff hH.2.2.1).mpr ⟨?_, hold.2⟩⟩
      · intro hyr
        obtain ⟨z, hz, hyz⟩ := j5 y hyr
        have hzc := hcell c hc z hz
        have := ((hR.2 z hzc.1 hzc.2.1).2.2.2.2 y).mp hyz
        exact hrow z hz (this.2.2.2.symm.trans hyc.2.2.2)
      · intro e
        have hyrg : y ∈ rg c := e ▸ hold.1
        exact hrow y hyrg hyc.2.2.2
    · intro c1 hc1 x hx
      have hc1b := (List.Nodup.mem_erase_iff hH.2.2.1).mp hc1
      have hx2 := (mem_filter_not_mem _ _ _).mp hx
      rw [j3.2.2.2.1]
      exact j8 _ (hrows c1 hc1b.2 x hx2.1) (hkey c1 hc1b.2 hc1b.1 x hx2.1 hx2.2)
  · have h0 : DancingMatrix.relinkH
        { m.unlinkH c with colsSet := setErase c (m.unlinkH c).colsSet } c =
        { m with colsSet := setErase c m.colsSet } := by
      show ({ (m.unlinkH c).relinkH c with colsSet := setErase c m.colsSet } : DancingMatrix) = _
      rw [relinkH_unlinkH m c hlk]
    unfold DancingMatrix.uncover
    rw [j2]
    simp only []
    rw [h0]

/-! ## Well-formed states meet the invariant -/

theorem option_ne_none_getD (o : Option (List Nat)) (h : o ≠ none) : o = some (o.getD []) := by
  cases o with
  | none => exact absurd rfl h
  | some v => rfl

theorem WF_parts (m : DancingMatrix) (h : WF m) :
    HGood m m.uncovered ∧ VGood m m.cells ∧ RowsGood m m.mates ∧
    Live m m.uncovered m.cells m.mates := by
  obtain ⟨hlen, hhead, hcols, hrows, hlive⟩ := h
  have hrowsG : RowsGood m m.mates := by
    refine ⟨⟨hlen.1, hlen.2.1⟩, ?_⟩
    intro x hx1 hx2
    obtain ⟨r1, r2, r3, r4, r5, r6⟩ := hrows x hx2 hx1
    have e1 := option_ne_none_getD _ r2
    refine ⟨r1, ?_, ?_, r4, ?_⟩
    · exact ((walk_iff m.right x _ x m.fuel).mp e1).1
    · exact ((walk_iff m.left x _ x m.fuel).mp r3).1
    · intro y
      constructor
      · intro hy; exact r5 y hy
      · intro hy; exact r6 y hy.2.1 hy.1 hy.2.2.1 hy.2.2.2
  refine ⟨?_, ?_, hrowsG, ?_⟩
  · have e1 := option_ne_none_getD _ hhead.1
    exact ⟨((walk_iff m.right 0 _ 0 m.fuel).mp e1).1,
      ((walk_iff m.left 0 _ 0 m.fuel).mp hhead.2.1).1, hhead.2.2.1, hhead.2.2.2⟩
  · refine ⟨⟨hlen.2.2.1, hlen.2.2.2.1, hlen.2.2.2.2.2⟩, ?_⟩
    intro k hk1 hk2
    obtain ⟨c1, c2, c3, c4⟩ := hcols k (by omega) hk1
    have e1 := option_ne_none_getD _ c1
    exact ⟨((walk_iff m.down k _ k m.fuel).mp e1).1, ((walk_iff m.up k _ k m.fuel).mp c2).1, c3, c4⟩
  · intro c hc x hx y hy
    have hcr := hhead.2.2.2 c hc
    have hxc := (hcols c (by omega) hcr.1).2.2.2 x hx
    have hy1 := ((hrowsG.2 x hxc.1 hxc.2.1).2.2.2.2 y).mp hy
    exact hlive c hc x hx y hy1.2.1 hy1.1 hy1.2.2.2

theorem WF_inv (m : DancingMatrix) (h : WF m) (hr : RowsOK m) :
    Inv m m.uncovered m.cells m.mates := by
  obtain ⟨h1, h2, h3, h4⟩ := WF_parts m h
  exact ⟨h1, h2, h3, h4, hr.1, hr.2⟩

/-! ## Properly nested sequences of `cover` and `uncover` -/

theorem runOps_nested (mt : Nat → List Nat) :
    ∀ (ops : List CoverOp) (hist : List (Nat × DancingMatrix)) (unc hs : List Nat)
      (rg : Nat → List Nat) (m t : DancingMatrix),
      Inv m hs rg mt → (m.colsSet.Sorted (· < ·) ∧ ∀ h ∈ hs, h ∈ m.colsSet) →
      (∀ x, x ∈ hs ↔ x ∈ unc) → unc.Nodup → Pending mt hist m hs t →
      properlyNested ops (hist.map Prod.fst) unc = true → runOps ops m = some t := by
  intro ops
  induction ops with
  | nil =>
    intro hist unc hs rg m t _ _ _ _ hp hn
    cases hist with
    | nil => simp only [runOps]; rw [show m = t from hp]
    | cons a rest => simp [properlyNested] at hn
  | cons op rest ih =>
    intro hist unc hs rg m t hI hC hmem hnd hp hn
    cases op with
    | cover c =>
      simp only [properlyNested, Bool.and_eq_true, decide_eq_true_eq] at hn
      have hc : c ∈ hs := (hmem c).mpr hn.1
      obtain ⟨m1, rg1, k1, k2, k3, k4⟩ := cover_spec m hs rg mt c hI hc
      have hback : m1.uncover c = some m := by
        rw [k3, setInsert_erase _ _ hC.1 (hC.2 c hc)]
      have hnds : hs.Nodup := hI.1.2.2.1
      simp only [runOps, k1]
      apply ih ((c, m) :: hist) (unc.erase c) (hs.erase c) rg1 m1 t k2
      · refine ⟨?_, ?_⟩
        · rw [k4]; exact sorted_setErase _ _ hC.1
        · intro h hh
          have := (List.Nodup.mem_erase_iff hnds).mp hh
          rw [k4]
          exact mem_setErase_of_ne _ _ _ this.1 (hC.2 h this.2)
      · intro x
        rw [List.Nodup.mem_erase_iff hnds, List.Nodup.mem_erase_iff hnd, hmem x]
      · exact hnd.erase c
      · refine ⟨hback, ?_, hs, rg, hI, hC, ?_, hp⟩
        · intro h; exact ((List.Nodup.mem_erase_iff hnds).mp h).1 rfl
        · intro x
          rw [List.Nodup.mem_erase_iff hnds]
          constructor
          · intro hx
            by_cases e : x = c
            · exact Or.inl e
            · exact Or.inr ⟨e, hx⟩
          · intro hx
            rcases hx with e | hx
            · rw [e]; exact hc
            · exact hx.2
      · exact hn.2
    | uncover c =>
      cases hist with
      | nil => simp [properlyNested] at hn
      | cons a hist1 =>
        obtain ⟨c0, mb⟩ := a
        simp only [List.map_cons, properlyNested, Bool.and_eq_true, decide_eq_true_eq] at hn
        obtain ⟨p1, p2, hsb, rgb, p3, p4, p5, p6⟩ := hp
        have e : c0 = c := hn.1
        subst e
        simp only [runOps, p1]
        apply ih hist1 (c0 :: unc) hsb rgb mb t p3 p4 _ _ p6 hn.2
        · intro x
          rw [p5 x, List.mem_cons, hmem x]
        · exact List.nodup_cons.mpr ⟨fun h => p2 ((hmem c0).mpr h), hnd⟩


/-! ## The set `colsSet` does not steer `cover` and `uncover` -/

theorem coverRow_colsSet (x : Nat) (s : List Nat) : ∀ (f : Nat) (m : DancingMatrix) (y : Nat),
    coverRow x f { m with colsSet := s } y =
      (coverRow x f m y).map (fun r => { r with colsSet := s }) := by
  intro f
  induction f with
  | zero => intro m y; rfl
  | succ f ih =>
    intro m y
    simp only [coverRow]
    split
    · rfl
    · exact ih (m.unlinkV y) _

theorem uncoverRow_colsSet (x : Nat) (s : List Nat) : ∀ (f : Nat) (m : DancingMatrix) (y : Nat),
    uncoverRow x f { m with colsSet := s } y =
      (uncoverRow x f m y).map (fun r => { r with colsSet := s }) := by
  intro f
  induction f with
  | zero => intro m y; rfl
  | succ f ih =>
    intro m y
    simp only [uncoverRow]
    split
    · rfl
    · exact ih (m.relinkV y) _

theorem coverLoop_colsSet (c : Nat) (s : List Nat) : ∀ (f : Nat) (m : DancingMatrix) (x : Nat),
    coverLoop c f { m with colsSet := s } x =
      (coverLoop c f m x).map (fun r => { r with colsSet := s }) := by
  intro f
  induction f with
  | zero => intro m x; rfl
  | succ f ih =>
    intro m x
    simp only [coverLoop]
    split
    · rfl
    · have h := coverRow_colsSet x s m.fuel m (nth m.right x)
      have hf : DancingMatrix.fuel { m with colsSet := s } = m.fuel := rfl
      rw [hf, h]
      cases coverRow x m.fuel m (nth m.right x) with
      | none => rfl
      | some m1 =>
        exact ih { m1 with rowsSet := setErase (nth m1.row x) m1.rowsSet } (nth m1.down x)

theorem uncoverLoop_colsSet (c : Nat) (s : List Nat) : ∀ (f : Nat) (m : DancingMatrix) (x : Nat),
    uncoverLoop c f { m with colsSet := s } x =
      (uncoverLoop c f m x).map (fun r => { r with colsSet := s }) := by
  intro f
  induction f with
  | zero => intro m x; rfl
  | succ f ih =>
    intro m x
    simp only [uncoverLoop]
    split
    · rfl
    · have h := uncoverRow_colsSet x s m.fuel m (nth m.left x)
      have hf : DancingMatrix.fuel { m with colsSet := s } = m.fuel := rfl
      rw [hf, h]
      cases uncoverRow x m.fuel m (nth m.left x) with
      | none => rfl
      | some m1 =>
        exact ih { m1 with rowsSet := setInsert (nth m1.row x) m1.rowsSet } (nth m1.up x)

theorem cover_colsSet (m : DancingMatrix) (c : Nat) (s : List Nat) :
    DancingMatrix.cover { m with colsSet := s } c =
      (m.cover c).map (fun r => { r with colsSet := setErase c s }) := by
  unfold DancingMatrix.cover
  have h := coverLoop_colsSet c (setErase c s) (m.unlinkH c).fuel
    { m.unlinkH c with colsSet := setErase c (m.unlinkH c).colsSet } (nth (m.unlinkH c).down c)
  exact h

theorem uncover_colsSet (m : DancingMatrix) (c : Nat) (s : List Nat) :
    DancingMatrix.uncover { m with colsSet := s } c =
      (m.uncover c).map (fun r => { r with colsSet := setInsert c s }) := by
  unfold DancingMatrix.uncover
  have h := uncoverLoop_colsSet c s m.fuel m (nth m.up c)
  have hf : DancingMatrix.fuel { m with colsSet := s } = m.fuel := rfl
  rw [hf]
  show (match uncoverLoop c m.fuel { m with colsSet := s } (nth m.up c) with
    | none => none
    | some m1 => some { m1.relinkH c with colsSet := setInsert c (m1.relinkH c).colsSet }) = _
  rw [h]
  cases uncoverLoop c m.fuel m (nth m.up c) with
  | none => rfl
  | some m1 => rfl

theorem runOps_colsSet : ∀ (ops : List CoverOp) (m : DancingMatrix) (s : List Nat),
    ∃ s1, runOps ops { m with colsSet := s } =
      (runOps ops m).map (fun r => { r with colsSet := s1 }) := by
  intro ops
  induction ops with
  | nil => intro m s; exact ⟨s, rfl⟩
  | cons op rest ih =>
    intro m s
    cases op with
    | cover c =>
      simp only [runOps, cover_colsSet]
      cases m.cover c with
      | none => exact ⟨s, rfl⟩
      | some m1 => exact ih m1 _
    | uncover c =>
      simp only [runOps, uncover_colsSet]
      cases m.uncover c with
      | none => exact ⟨s, rfl⟩
      | some m1 => exact ih m1 _

/-! ## The sample states -/

set_option maxRecDepth 100000 in
set_option synthInstance.maxSize 2000 in
set_option synthInstance.maxHeartbeats 200000 in
theorem sample_WF : WF sampleMatrix :=
  ⟨by decide!, by decide!, by decide!, by decide!, by decide!⟩

set_option maxRecDepth 100000 in
theorem sample_RowsOK : RowsOK sampleMatrix := by
  unfold RowsOK
  decide!

set_option maxRecDepth 100000 in
set_option synthInstance.maxSize 2000 in
set_option synthInstance.maxHeartbeats 200000 in
theorem emptyColumn_WF : WF emptyColumnMatrix :=
  ⟨by decide!, by decide!, by decide!, by decide!, by decide!⟩

set_option maxRecDepth 100000 in
theorem emptyColumn_RowsOK : RowsOK emptyColumnMatrix := by
  unfold RowsOK
  decide!

/-! ## Claim C8 -/

set_option maxRecDepth 100000 in
/-- C8: on the freshly built matrix of the file `2 1` with the row {1}, whose column 2 has
no cell, the sequence `cover(2); uncover(2)` is properly nested and does not leave
`colsSet` as it was: `colsSet` is {1} before and {1, 2} after.  The file constructor
leaves the column without cells out of `colsSet`, and `uncover` inserts its column
whatever `colsSet` held. -/
theorem C8_uncover_grows_colsSet :
    WF emptyColumnMatrix ∧ RowsOK emptyColumnMatrix ∧
    properlyNested [CoverOp.cover 2, CoverOp.uncover 2] [] emptyColumnMatrix.uncovered = true ∧
    emptyColumnMatrix.colsSet = [1] ∧
    (runOps [CoverOp.cover 2, CoverOp.uncover 2] emptyColumnMatrix).map (fun r => r.colsSet) =
      some [1, 2] :=
  ⟨emptyColumn_WF, emptyColumn_RowsOK, by decide!, by decide!, by decide!⟩

/-- Properly nested `cover` and `uncover` calls: on a well-formed state whose `rowsSet`
holds the rows of the live cells, the sequence returns and leaves every
left/right/up/down link, every column size and `rowsSet` as they were; the whole
state, `colsSet` included, is as it was when `colsSet` held every uncovered column
before the sequence. -/
theorem nested_cover_uncover_restores (m : DancingMatrix) (ops : List CoverOp) (hwf : WF m)
    (hrows : RowsOK m) (hn : properlyNested ops [] m.uncovered = true) :
    ∃ m1, runOps ops m = some m1 ∧ m1.left = m.left ∧ m1.right = m.right ∧ m1.up = m.up ∧
      m1.down = m.down ∧ m1.size = m.size ∧ m1.rowsSet = m.rowsSet ∧
      (m.colsSet.Sorted (· < ·) → (∀ c ∈ m.uncovered, c ∈ m.colsSet) → m1 = m) := by
  have hI := WF_inv m hwf hrows
  have hI0 : Inv { m with colsSet := List.range (m.COLS + 1) } m.uncovered m.cells m.mates := hI
  have hC0 : (List.range (m.COLS + 1)).Sorted (· < ·) ∧
      ∀ h ∈ m.uncovered, h ∈ List.range (m.COLS + 1) := by
    refine ⟨List.sorted_lt_range _, ?_⟩
    intro h hh
    have := hI.1.2.2.2 h hh
    exact List.mem_range.mpr (by omega)
  have h0 := runOps_nested m.mates ops [] m.uncovered m.uncovered m.cells
    { m with colsSet := List.range (m.COLS + 1) } { m with colsSet := List.range (m.COLS + 1) }
    hI0 hC0 (fun _ => Iff.rfl) hI.1.2.2.1 rfl hn
  obtain ⟨s1, hs1⟩ := runOps_colsSet ops { m with colsSet := List.range (m.COLS + 1) } m.colsSet
  rw [h0] at hs1
  have hm : ({ ({ m with colsSet := List.range (m.COLS + 1) } : DancingMatrix) with
      colsSet := m.colsSet } : DancingMatrix) = m := rfl
  rw [hm] at hs1
  refine ⟨_, hs1, rfl, rfl, rfl, rfl, rfl, rfl, ?_⟩
  intro hsort hall
  have h1 := runOps_nested m.mates ops [] m.uncovered m.uncovered m.cells m m
    hI ⟨hsort, hall⟩ (fun _ => Iff.rfl) hI.1.2.2.1 rfl hn
  rw [h1] at hs1
  exact (Option.some.inj hs1).symm

set_option maxRecDepth 100000 in
theorem nested_cover_uncover_restores_sample :
    WF sampleMatrix ∧ RowsOK sampleMatrix ∧
    properlyNested [CoverOp.cover 2, CoverOp.cover 3, CoverOp.uncover 3, CoverOp.uncover 2] []
      sampleMatrix.uncovered = true ∧
    ∃ m1, runOps [CoverOp.cover 2, CoverOp.cover 3, CoverOp.uncover 3, CoverOp.uncover 2]
        sampleMatrix = some m1 ∧
      m1.left = sampleMatrix.left ∧ m1.right = sampleMatrix.right ∧ m1.up = sampleMatrix.up ∧
      m1.down = sampleMatrix.down ∧ m1.size = sampleMatrix.size ∧
      m1.rowsSet = sampleMatrix.rowsSet ∧
      (sampleMatrix.colsSet.Sorted (· < ·) → (∀ c ∈ sampleMatrix.uncovered, c ∈ sampleMatrix.colsSet) →
        m1 = sampleMatrix) :=
  ⟨sample_WF, sample_RowsOK, by decide!,
    nested_cover_uncover_restores sampleMatrix
      [CoverOp.cover 2, CoverOp.cover 3, CoverOp.uncover 3, CoverOp.uncover 2]
      sample_WF sample_RowsOK (by decide!)⟩

/-! ## The block variants of `cover` and `uncover` -/

theorem coverRow_aux (x : Nat) (g : Option IncrementalConnectedGraph) (s : List Nat) :
    ∀ (f : Nat) (m : DancingMatrix) (y : Nat),
      coverRow x f { m with incrementalGraph := g, rowsSet := s } y =
        (coverRow x f m y).map (fun r => { r with incrementalGraph := g, rowsSet := s }) := by
  intro f
  induction f with
  | zero => intro m y; rfl
  | succ f ih =>
    intro m y
    simp only [coverRow]
    split
    · rfl
    · exact ih (m.unlinkV y) _

theorem uncoverRow_aux (x : Nat) (g : Option IncrementalConnectedGraph) (s : List Nat) :
    ∀ (f : Nat) (m : DancingMatrix) (y : Nat),
      uncoverRow x f { m with incrementalGraph := g, rowsSet := s } y =
        (uncoverRow x f m y).map (fun r => { r with incrementalGraph := g, rowsSet := s }) := by
  intro f
  induction f with
  | zero => intro m y; rfl
  | succ f ih =>
    intro m y
    simp only [uncoverRow]
    split
    · rfl
    · exact ih (m.relinkV y) _

theorem coverRow_static (x : Nat) : ∀ (f : Nat) (m : DancingMatrix) (y : Nat) (r : DancingMatrix),
    coverRow x f m y = some r →
      r.row = m.row ∧ r.col = m.col ∧ r.rowsSet = m.rowsSet := by
  intro f
  induction f with
  | zero => intro m y r h; simp [coverRow] at h
  | succ f ih =>
    intro m y r h
    simp only [coverRow] at h
    split at h
    · cases h; exact ⟨rfl, rfl, rfl⟩
    · exact ih (m.unlinkV y) _ r h

theorem uncoverRow_static (x : Nat) : ∀ (f : Nat) (m : DancingMatrix) (y : Nat) (r : DancingMatrix),
    uncoverRow x f m y = some r →
      r.row = m.row ∧ r.col = m.col ∧ r.rowsSet = m.rowsSet := by
  intro f
  induction f with
  | zero => intro m y r h; simp [uncoverRow] at h
  | succ f ih =>
    intro m y r h
    simp only [uncoverRow] at h
    split at h
    · cases h; exact ⟨rfl, rfl, rfl⟩
    · exact ih (m.relinkV y) _ r h

/-- The column loop of `coverInBlock` does to the links and to `block.rows` what the
column loop of `cover` does to the links and to `rowsSet`. -/
theorem coverInBlockLoop_sim (c : Nat) : ∀ (f : Nat) (m : DancingMatrix) (block : Block) (x : Nat)
    (r : DancingMatrix) (g0 : Option IncrementalConnectedGraph),
    coverLoop c f { m with rowsSet := block.rows, incrementalGraph := g0 } x = some r →
    ∃ g, coverInBlockLoop c f m block x =
      some ({ r with incrementalGraph := g, rowsSet := m.rowsSet }, { block with rows := r.rowsSet }) := by
  intro f
  induction f with
  | zero => intro m block x r g0 h; simp [coverLoop] at h
  | succ f ih =>
    intro m block x r g0 h
    simp only [coverLoop] at h
    simp only [coverInBlockLoop]
    by_cases hx : x = c
    · rw [if_pos hx] at h ⊢
      cases h
      exact ⟨m.incrementalGraph, rfl⟩
    · rw [if_neg hx] at h ⊢
      have hm1 : ∃ g1, (if (m.enableGraphSync && m.useIG) = true then
            { m with incrementalGraph :=
                m.incrementalGraph.map (fun g => g.deactivateRow (nth m.row x)) }
          else m) = { m with incrementalGraph := g1, rowsSet := m.rowsSet } := by
        split
        · exact ⟨_, rfl⟩
        · exact ⟨m.incrementalGraph, rfl⟩
      obtain ⟨g1, hg1⟩ := hm1
      rw [hg1]
      have hc1 := coverRow_aux x g1 m.rowsSet m.fuel m (nth m.right x)
      have hc0 := coverRow_aux x g0 block.rows m.fuel m (nth m.right x)
      have hf1 : DancingMatrix.fuel { m with incrementalGraph := g1, rowsSet := m.rowsSet } = m.fuel := rfl
      have hf0 : DancingMatrix.fuel { m with rowsSet := block.rows, incrementalGraph := g0 } = m.fuel := rfl
      rw [hf0] at h
      rw [hf1]
      change (match coverRow x m.fuel { m with incrementalGraph := g0, rowsSet := block.rows }
          (nth m.right x) with
        | none => none
        | some m1 => coverLoop c f { m1 with rowsSet := setErase (nth m1.row x) m1.rowsSet }
            (nth m1.down x)) = some r at h
      rw [hc0] at h
      change ∃ g, (match coverRow x m.fuel { m with incrementalGraph := g1, rowsSet := m.rowsSet }
          (nth m.right x) with
        | none => none
        | some m2 => coverInBlockLoop c f m2 { block with rows := setErase (nth m.row x) block.rows }
            (nth m2.down x)) = _
      rw [hc1]
      cases hcr : coverRow x m.fuel m (nth m.right x) with
      | none => rw [hcr] at h; simp at h
      | some M0 =>
        rw [hcr] at h
        have hst := coverRow_static x m.fuel m _ M0 hcr
        simp only [Option.map] at h ⊢
        refine ih { M0 with incrementalGraph := g1, rowsSet := m.rowsSet }
          { block with rows := setErase (nth m.row x) block.rows } (nth M0.down x) r g0 ?_
        rw [← hst.1]
        exact h


/-- The column loop of `uncoverInBlock` does to the links and to `block.rows` what the
column loop of `uncover` does to the links and to `rowsSet`. -/
theorem uncoverInBlockLoop_sim (c : Nat) : ∀ (f : Nat) (m : DancingMatrix) (block : Block)
    (x : Nat) (r : DancingMatrix) (g0 : Option IncrementalConnectedGraph),
    uncoverLoop c f { m with rowsSet := block.rows, incrementalGraph := g0 } x = some r →
    ∃ g, uncoverInBlockLoop c f m block x =
      some ({ r with incrementalGraph := g, rowsSet := m.rowsSet }, { block with rows := r.rowsSet }) := by
  intro f
  induction f with
  | zero => intro m block x r g0 h; simp [uncoverLoop] at h
  | succ f ih =>
    intro m block x r g0 h
    simp only [uncoverLoop] at h
    simp only [uncoverInBlockLoop]
    by_cases hx : x = c
    · rw [if_pos hx] at h ⊢
      cases h
      exact ⟨m.incrementalGraph, rfl⟩
    · rw [if_neg hx] at h ⊢
      have hc0 := uncoverRow_aux x g0 block.rows m.fuel m (nth m.left x)
      have hf0 : DancingMatrix.fuel { m with rowsSet := block.rows, incrementalGraph := g0 } = m.fuel := rfl
      rw [hf0] at h
      change (match uncoverRow x m.fuel { m with incrementalGraph := g0, rowsSet := block.rows }
          (nth m.left x) with
        | none => none
        | some m1 => uncoverLoop c f { m1 with rowsSet := setInsert (nth m1.row x) m1.rowsSet }
            (nth m1.up x)) = some r at h
      rw [hc0] at h
      cases hcr : uncoverRow x m.fuel m (nth m.left x) with
      | none => rw [hcr] at h; simp at h
      | some M0 =>
        rw [hcr] at h
        have hst := uncoverRow_static x m.fuel m _ M0 hcr
        simp only [Option.map_some'] at h
        dsimp only
        have hm2 : ∃ g1, (if (M0.enableGraphSync && M0.useIG) = true then
              { M0 with incrementalGraph :=
                  M0.incrementalGraph.map (fun g => g.reactivateRow (nth m.row x)) }
            else M0) = { M0 with incrementalGraph := g1, rowsSet := M0.rowsSet } := by
          split
          · exact ⟨_, rfl⟩
          · exact ⟨M0.incrementalGraph, rfl⟩
        obtain ⟨g1, hg1⟩ := hm2
        rw [hg1]
        have := ih { M0 with incrementalGraph := g1, rowsSet := M0.rowsSet }
          { block with rows := setInsert (nth m.row x) block.rows } (nth M0.up x) r g0
          (by rw [← hst.1]; exact h)
        rw [← hst.2.2]
        exact this


/-- Claim C10: on a well-formed state, `coverInBlock(c, block, _)` of an uncovered
column `c` of the block, whose live rows are all in `block.rows`, followed by
`uncoverInBlock(c, block)` returns and gives back all links, all column sizes and the
block. -/
theorem C10_coverInBlock_uncoverInBlock_restores (m : DancingMatrix) (c : Nat) (block : Block)
    (out : List Nat) (hwf : WF m) (hc : c ∈ m.uncovered) (hcb : c ∈ block.cols)
    (hrows : ∀ x ∈ m.cells c, nth m.row x ∈ block.rows)
    (hsr : block.rows.Sorted (· < ·)) (hsc : block.cols.Sorted (· < ·)) :
    ∃ (m1 : DancingMatrix) (b1 : Block) (out1 : List Nat) (m2 : DancingMatrix) (b2 : Block),
      m.coverInBlock c block out = some (m1, b1, out1) ∧
      m1.uncoverInBlock c b1 = some (m2, b2) ∧
      m2.left = m.left ∧ m2.right = m.right ∧ m2.up = m.up ∧ m2.down = m.down ∧
      m2.size = m.size ∧ b2 = block := by
  obtain ⟨hH, hV, hR, hL⟩ := WF_parts m hwf
  have hcr := hH.2.2.2 c hc
  obtain ⟨hlk, hrc, hlc, _⟩ := HGood_unlinkH m _ c hH hR.1 hV.1.2.2 hc
  have hR1 := RowsGood_unlinkH m m.mates c hR hrc hlc
  have hV0 : VGood { m.unlinkH c with rowsSet := block.rows } m.cells := hV
  have hR0 : RowsGood { m.unlinkH c with rowsSet := block.rows } m.mates := hR1
  obtain ⟨r1, rem, j1, j2, _⟩ :=
    coverLoop_roundtrip c m.mates _ m.cells hV0 hR0 hcr.1 hcr.2
      (fun z hz y hy => (hL c hc z hz y hy).1) hsr hrows
  obtain ⟨g, hg⟩ := coverInBlockLoop_sim c (m.unlinkH c).fuel (m.unlinkH c)
    { block with cols := setErase c block.cols } (nth (m.unlinkH c).down c) r1
    (m.unlinkH c).incrementalGraph j1
  obtain ⟨g2, hg2⟩ := uncoverInBlockLoop_sim c r1.fuel
    { r1 with incrementalGraph := g, rowsSet := (m.unlinkH c).rowsSet }
    { rows := r1.rowsSet, cols := setErase c block.cols } (nth r1.up c)
    { m.unlinkH c with rowsSet := block.rows } r1.incrementalGraph j2
  have hback := relinkH_unlinkH m c hlk
  refine ⟨{ r1 with incrementalGraph := g, rowsSet := (m.unlinkH c).rowsSet },
    { rows := r1.rowsSet, cols := setErase c block.cols }, out,
    DancingMatrix.relinkH
      { m.unlinkH c with incrementalGraph := g2, rowsSet := (m.unlinkH c).rowsSet } c,
    { rows := block.rows, cols := setInsert c (setErase c block.cols) },
    ?_, ?_, ?_, ?_, ?_, ?_, ?_, ?_⟩
  · unfold DancingMatrix.coverInBlock
    simp only []
    rw [hg]
  · unfold DancingMatrix.uncoverInBlock
    exact congrArg (fun o => match o with
      | none => none
      | some (m1, block1) =>
        some (m1.relinkH c, ({ block1 with cols := setInsert c block1.cols } : Block))) hg2
  · show ((m.unlinkH c).relinkH c).left = m.left
    rw [hback]
  · show ((m.unlinkH c).relinkH c).right = m.right
    rw [hback]
  · show ((m.unlinkH c).relinkH c).up = m.up
    rw [hback]
  · show ((m.unlinkH c).relinkH c).down = m.down
    rw [hback]
  · show ((m.unlinkH c).relinkH c).size = m.size
    rw [hback]
  · apply Block.ext
    · rfl
    · exact setInsert_erase _ _ hsc hcb

set_option maxRecDepth 100000 in
theorem C10_coverInBlock_uncoverInBlock_restores_witness :
    WF sampleMatrix ∧ 2 ∈ sampleMatrix.uncovered ∧ 2 ∈ sampleMatrix.InitBlock.cols ∧
    (∀ x ∈ sampleMatrix.cells 2, nth sampleMatrix.row x ∈ sampleMatrix.InitBlock.rows) ∧
    sampleMatrix.InitBlock.rows.Sorted (· < ·) ∧ sampleMatrix.InitBlock.cols.Sorted (· < ·) ∧
    ∃ (m1 : DancingMatrix) (b1 : Block) (out1 : List Nat) (m2 : DancingMatrix) (b2 : Block),
      sampleMatrix.coverInBlock 2 sampleMatrix.InitBlock [] = some (m1, b1, out1) ∧
      m1.uncoverInBlock 2 b1 = some (m2, b2) ∧
      m2.left = sampleMatrix.left ∧ m2.right = sampleMatrix.right ∧ m2.up = sampleMatrix.up ∧
      m2.down = sampleMatrix.down ∧ m2.size = sampleMatrix.size ∧ b2 = sampleMatrix.InitBlock :=
  ⟨sample_WF, by decide!, by decide!, by decide!, by decide!, by decide!,
    C10_coverInBlock_uncoverInBlock_restores sampleMatrix 2 sampleMatrix.InitBlock []
      sample_WF (by decide!) (by decide!) (by decide!) (by decide!) (by decide!)⟩


/-! ## The file constructor on the identity matrix -/

theorem nthI_map_range (f : Nat → Int) (n i : Nat) (h : i < n) :
    nthI ((List.range n).map f) i = f i := by
  simp [nthI, List.getD_eq_getElem?_getD, h]

theorem mapModify_snoc (mp : List (Nat × List Nat)) (k : Nat) (f : List Nat → List Nat)
    (h : ∀ e ∈ mp, e.1 ≠ k) : mapModify mp k f = mp ++ [(k, f [])] := by
  unfold mapModify
  have : mp.any (fun e => decide (e.1 = k)) = false := by
    rw [List.any_eq_false]
    intro e he
    simpa using h e he
  rw [if_neg (by rw [this]; simp)]

theorem IdentityLinks.header (n : Nat) (m : DancingMatrix) (h : IdentityLinks n m) (c : Nat)
    (h1 : 1 ≤ c) (h2 : c ≤ n) :
    nth m.right c = (if c = n then 0 else c + 1) ∧ nth m.left c = c - 1 ∧
    nth m.down c = n + c ∧ nth m.up c = n + c ∧ nth m.col c = c ∧ nthI m.size c = 1 := by
  obtain ⟨_, hl, hr, hu, hd, hc, _, hs⟩ := h
  rw [hl, hr, hu, hd, hc, hs]
  refine ⟨?_, ?_, ?_, ?_, ?_, ?_⟩
  · show nth ((List.range (n + 1 + n)).map _) c = _
    rw [nth_map_range _ _ _ (by omega)]
    split_ifs <;> omega
  · show nth ((List.range (n + 1 + n)).map _) c = _
    rw [nth_map_range _ _ _ (by omega)]
    split_ifs <;> omega
  · show nth ((List.range (n + 1 + n)).map _) c = _
    rw [nth_map_range _ _ _ (by omega)]
    split_ifs <;> omega
  · show nth ((List.range (n + 1 + n)).map _) c = _
    rw [nth_map_range _ _ _ (by omega)]
    split_ifs <;> omega
  · show nth ((List.range (n + 1 + n)).map _) c = _
    rw [nth_map_range _ _ _ (by omega)]
    split_ifs
    omega
  · show nthI ((List.range (n + 1)).map _) c = _
    rw [nthI_map_range _ _ _ (by omega)]
    simp [h1, h2]

theorem IdentityLinks.root (n : Nat) (m : DancingMatrix) (h : IdentityLinks n m) (hn : 1 ≤ n) :
    nth m.right 0 = 1 ∧ nth m.left 0 = n ∧ m.fuel = n + 1 + n + 1 := by
  obtain ⟨_, hl, hr, _, _, hc, _, _⟩ := h
  rw [hl, hr]
  refine ⟨?_, ?_, ?_⟩
  · show nth ((List.range (n + 1 + n)).map _) 0 = _
    rw [nth_map_range _ _ _ (by omega)]
    split_ifs <;> omega
  · show nth ((List.range (n + 1 + n)).map _) 0 = _
    rw [nth_map_range _ _ _ (by omega)]
    split_ifs <;> omega
  · show m.col.length + 1 = _
    rw [hc]
    simp [identityLoaded]


/-! ## The union-find detector on the identity matrix -/

theorem detectorDeleteEdges_nil (s : DanceDNNF) : s.detectorDeleteEdges [] = some s := by
  unfold DanceDNNF.detectorDeleteEdges
  cases h : s.m.detector with
  | none => rfl
  | some d =>
    simp only [ComponentDetector.DeleteEdges, List.isEmpty_nil, if_true]
    rw [← h]

theorem detectorAddEdges_nil (s : DanceDNNF) : s.detectorAddEdges [] = some s := by
  unfold DanceDNNF.detectorAddEdges
  cases h : s.m.detector with
  | none => rfl
  | some d =>
    simp only [ComponentDetector.AddEdges, List.isEmpty_nil, if_true]
    rw [← h]

theorem coverRowInBlock_nil (x f : Nat) (m : DancingMatrix) (block : Block) (del : List Nat) :
    coverRowInBlock x (f + 1) m block del x = some (m, block, del) := by
  simp [coverRowInBlock]

theorem uncoverRowInBlock_nil (x f : Nat) (m : DancingMatrix) (block : Block) :
    uncoverRowInBlock x (f + 1) m block x = some (m, block) := by
  simp [uncoverRowInBlock]

theorem buildDecisionNode_frame (s : DanceDNNF) (r : Int) (lo hi : Nat) :
    (s.buildDecisionNode r lo hi).2.m = s.m ∧ (s.buildDecisionNode r lo hi).2.deadline = s.deadline ∧
    (s.buildDecisionNode r lo hi).2.countCache = s.countCache ∧
    (s.buildDecisionNode r lo hi).2.isParallelSearch = s.isParallelSearch ∧
    s.dnnfNodes.length ≤ (s.buildDecisionNode r lo hi).2.dnnfNodes.length := by
  unfold DanceDNNF.buildDecisionNode
  split
  · exact ⟨rfl, rfl, rfl, rfl, le_refl _⟩
  · simp only []
    split
    · exact ⟨rfl, rfl, rfl, rfl, le_refl _⟩
    · split
      · refine ⟨rfl, rfl, rfl, rfl, ?_⟩
        simp
      · refine ⟨rfl, rfl, rfl, rfl, ?_⟩
        simp

theorem assocSet_forall {α : Type} (mp : List (Nat × α)) (k : Nat) (v : α) (P : α → Prop)
    (h : ∀ e ∈ mp, P e.2) (hv : P v) : ∀ e ∈ assocSet mp k v, P e.2 := by
  unfold assocSet
  split
  · intro e he
    obtain ⟨e0, he0, rfl⟩ := List.mem_map.mp he
    split
    · exact hv
    · exact h e0 he0
  · intro e he
    rcases List.mem_append.mp he with h1 | h1
    · exact h e h1
    · simp at h1; rw [h1]; exact hv

theorem IdentityLinks.linkedH (n : Nat) (m : DancingMatrix) (hL : IdentityLinks n m) (hn : 1 ≤ n)
    (i : Nat) (hi : i < n) : m.linkedH (i + 1) := by
  have hh := IdentityLinks.header n m hL (i + 1) (by omega) (by omega)
  constructor
  · rw [hh.1]
    split_ifs with e
    · rw [(IdentityLinks.root n m hL hn).2.1]; omega
    · rw [(IdentityLinks.header n m hL (i + 1 + 1) (by omega) (by omega)).2.1]; omega
  · rw [hh.2.1]
    by_cases e : i = 0
    · subst e; exact (IdentityLinks.root n m hL hn).1
    · rw [(IdentityLinks.header n m hL (i + 1 - 1) (by omega) (by omega)).1]
      split_ifs <;> omega

/-- The loop of `selectColumnByLinear` over the columns still to be met: `pre` holds the
columns met so far, `b` the best of them. -/
theorem linearFold_spec (size : Nat → Int) (l pre : List Nat) (b : Nat)
    (hb : b ∈ pre) (hmin : ∀ d ∈ pre, size b ≤ size d)
    (htie : ∀ d ∈ pre, size d = size b → b ≤ d)
    (hord : ∀ x ∈ pre, ∀ y ∈ l, x ≤ y) (hs : l.Pairwise (· < ·)) :
    ∃ r, (l.foldl (fun (best : Nat × Int) colId =>
            if size colId < best.2 then (colId, size colId) else best) (b, size b)) = (r, size r) ∧
      r ∈ pre ++ l ∧ (∀ d ∈ pre ++ l, size r ≤ size d) ∧
      (∀ d ∈ pre ++ l, size d = size r → r ≤ d) := by
  induction l generalizing pre b with
  | nil =>
    refine ⟨b, rfl, by simpa using hb, ?_, ?_⟩
    · intro d hd
      exact hmin d (by simpa using hd)
    · intro d hd
      exact htie d (by simpa using hd)
  | cons y l ih =>
    have hs1 := List.pairwise_cons.mp hs
    have hord1 : ∀ x ∈ pre ++ [y], ∀ z ∈ l, x ≤ z := by
      intro x hx z hz
      rcases List.mem_append.mp hx with hx | hx
      · exact hord x hx z (List.mem_cons_of_mem _ hz)
      · have hxy : x = y := by simpa using hx
        rw [hxy]
        exact le_of_lt (hs1.1 z hz)
    rw [List.foldl_cons]
    by_cases hlt : size y < size b
    · simp only [hlt, if_true]
      obtain ⟨r, hr, hmem, hm, ht⟩ := ih (pre ++ [y]) y (by simp)
        (by
          intro d hd
          rcases List.mem_append.mp hd with hd | hd
          · exact le_trans (le_of_lt hlt) (hmin d hd)
          · have hdy : d = y := by simpa using hd
            rw [hdy])
        (by
          intro d hd he
          rcases List.mem_append.mp hd with hd | hd
          · have := hmin d hd
            omega
          · have hdy : d = y := by simpa using hd
            rw [hdy])
        hord1 hs1.2
      refine ⟨r, hr, ?_, ?_, ?_⟩
      · simpa using hmem
      · intro d hd
        exact hm d (by simpa using hd)
      · intro d hd
        exact ht d (by simpa using hd)
    · simp only [hlt, if_false]
      obtain ⟨r, hr, hmem, hm, ht⟩ := ih (pre ++ [y]) b (by simp [hb])
        (by
          intro d hd
          rcases List.mem_append.mp hd with hd | hd
          · exact hmin d hd
          · have hdy : d = y := by simpa using hd
            rw [hdy]
            omega)
        (by
          intro d hd he
          rcases List.mem_append.mp hd with hd | hd
          · exact htie d hd he
          · have hdy : d = y := by simpa using hd
            rw [hdy]
            exact hord b hb y (List.mem_cons_self _ _))
        hord1 hs1.2
      refine ⟨r, hr, ?_, ?_, ?_⟩
      · simpa using hmem
      · intro d hd
        exact hm d (by simpa using hd)
      · intro d hd
        exact ht d (by simpa using hd)

/-- C11: on a non-empty `std::set` of columns (an ascending list), `selectColumnByLinear`
returns a column of the set whose size is minimal over the set, and among the columns
of minimal size the one of smallest index; the threshold plays no part. -/
theorem C11_selectColumnByLinear_minimal_first (m : DancingMatrix) (cols : List Nat)
    (threshold : Int) (hne : cols ≠ []) (hs : cols.Sorted (· < ·)) :
    ∃ c, m.selectColumnByLinear cols threshold = some c ∧ c ∈ cols ∧
      (∀ d ∈ cols, nthI m.size c ≤ nthI m.size d) ∧
      (∀ d ∈ cols, nthI m.size d = nthI m.size c → c ≤ d) := by
  cases cols with
  | nil => exact absurd rfl hne
  | cons c0 rest =>
    have hs1 := List.pairwise_cons.mp hs
    obtain ⟨r, hr, hmem, hm, ht⟩ := linearFold_spec (nthI m.size) (c0 :: rest) [c0] c0
      (by simp) (by simp) (by simp)
      (by
        intro x hx y hy
        have hx0 : x = c0 := by simpa using hx
        rw [hx0]
        rcases List.mem_cons.mp hy with hy | hy
        · rw [hy]
        · exact le_of_lt (hs1.1 y hy))
      hs
    refine ⟨r, ?_, ?_, ?_, ?_⟩
    · simp only [DancingMatrix.selectColumnByLinear]
      rw [hr]
    · simpa using hmem
    · intro d hd
      exact hm d (by simp [List.mem_cons.mp hd])
    · intro d hd
      exact ht d (by simp [List.mem_cons.mp hd])

theorem C11_selectColumnByLinear_minimal_first_witness :
    ([1, 2, 3] : List Nat) ≠ [] ∧ ([1, 2, 3] : List Nat).Sorted (· < ·) ∧
    ∃ c, sampleMatrix.selectColumnByLinear [1, 2, 3] 5 = some c ∧ c ∈ [1, 2, 3] ∧
      (∀ d ∈ [1, 2, 3], nthI sampleMatrix.size c ≤ nthI sampleMatrix.size d) ∧
      (∀ d ∈ [1, 2, 3], nthI sampleMatrix.size d = nthI sampleMatrix.size c → c ≤ d) :=
  ⟨by decide, by decide,
   C11_selectColumnByLinear_minimal_first sampleMatrix [1, 2, 3] 5 (by decide) (by decide)⟩

theorem heapPush_mem (x : Nat × Int) (l : List (Nat × Int)) (e : Nat × Int) :
    e ∈ heapPush x l ↔ e = x ∨ e ∈ l := by
  induction l with
  | nil => simp [heapPush]
  | cons y ys ih =>
    simp only [heapPush]
    split_ifs
    · simp
    · simp only [List.mem_cons, ih]
      tauto

theorem heapPush_sorted (x : Nat × Int) (l : List (Nat × Int))
    (hs : l.Pairwise (fun a b => a.2 ≤ b.2)) :
    (heapPush x l).Pairwise (fun a b => a.2 ≤ b.2) := by
  induction l with
  | nil => simp [heapPush]
  | cons y ys ih =>
    have hs1 := List.pairwise_cons.mp hs
    simp only [heapPush]
    split_ifs with h
    · refine List.pairwise_cons.mpr ⟨?_, hs⟩
      intro e he
      rcases List.mem_cons.mp he with he | he
      · rw [he]
        exact le_of_lt h
      · exact le_trans (le_of_lt h) (hs1.1 e he)
    · refine List.pairwise_cons.mpr ⟨?_, ih hs1.2⟩
      intro e he
      rcases (heapPush_mem x ys e).mp he with he | he
      · rw [he]
        omega
      · exact hs1.1 e he

/-- The queue built by the first loop of `selectColumnByMinHeap`. -/
theorem heapFold_spec (size : Nat → Int) (cols : List Nat) (h0 : List (Nat × Int))
    (hs : h0.Pairwise (fun a b => a.2 ≤ b.2)) :
    (cols.foldl (fun h colId => heapPush (colId, size colId) h) h0).Pairwise
        (fun a b => a.2 ≤ b.2) ∧
      ∀ e, e ∈ cols.foldl (fun h colId => heapPush (colId, size colId) h) h0 ↔
        (e ∈ h0 ∨ ∃ c ∈ cols, e = (c, size c)) := by
  induction cols generalizing h0 with
  | nil => simp [hs]
  | cons c cs ih =>
    rw [List.foldl_cons]
    obtain ⟨h1, h2⟩ := ih (heapPush (c, size c) h0) (heapPush_sorted _ _ hs)
    refine ⟨h1, ?_⟩
    intro e
    rw [h2 e, heapPush_mem]
    simp only [List.mem_cons, exists_eq_or_imp]
    tauto

/-- The loop of `selectColumnByMinHeap` on a queue in ascending order of size: the
column returned is the initial one or a column of the queue, and its distance to the
threshold is at most the initial distance and at most that of every queue entry. -/
theorem minHeapLoop_spec (t : Int) (l : List (Nat × Int)) (bc : Nat) (bd : Int)
    (hs : l.Pairwise (fun a b => a.2 ≤ b.2)) :
    ∃ dr, dr ≤ bd ∧ (∀ e ∈ l, dr ≤ |e.2 - t|) ∧
      ((minHeapLoop t l bc bd = bc ∧ dr = bd) ∨
        ∃ e ∈ l, minHeapLoop t l bc bd = e.1 ∧ dr = |e.2 - t|) := by
  induction l generalizing bc bd with
  | nil => exact ⟨bd, le_refl _, by simp, Or.inl ⟨rfl, rfl⟩⟩
  | cons cur rest ih =>
    have hs1 := List.pairwise_cons.mp hs
    simp only [minHeapLoop]
    by_cases h0 : |cur.2 - t| = 0
    · simp only [h0, if_true]
      by_cases hlt : (0 : Int) < bd
      · simp only [hlt, if_true]
        refine ⟨0, le_of_lt hlt, ?_, Or.inr ⟨cur, List.mem_cons_self _ _, rfl, h0.symm⟩⟩
        intro e _
        exact abs_nonneg _
      · simp only [hlt, if_false]
        refine ⟨bd, le_refl _, ?_, Or.inl ⟨by trivial, rfl⟩⟩
        intro e _
        have := abs_nonneg (e.2 - t)
        omega
    · simp only [h0, if_false]
      by_cases hlt : |cur.2 - t| < bd
      · simp only [hlt, if_true]
        have hnot : ¬ (cur.2 > t ∧ |cur.2 - t| > |cur.2 - t|) := by
          intro h
          exact lt_irrefl _ h.2
        simp only [hnot, if_false]
        obtain ⟨dr, h1, h2, h3⟩ := ih cur.1 |cur.2 - t| hs1.2
        refine ⟨dr, by omega, ?_, ?_⟩
        · intro e he
          rcases List.mem_cons.mp he with he | he
          · rw [he]
            exact h1
          · exact h2 e he
        · rcases h3 with ⟨h3, h4⟩ | ⟨e, he, h3, h4⟩
          · exact Or.inr ⟨cur, List.mem_cons_self _ _, h3, h4⟩
          · exact Or.inr ⟨e, List.mem_cons_of_mem _ he, h3, h4⟩
      · simp only [hlt, if_false]
        by_cases hex : cur.2 > t ∧ |cur.2 - t| > bd
        · simp only [hex, and_self, if_true]
          refine ⟨bd, le_refl _, ?_, Or.inl ⟨by trivial, rfl⟩⟩
          intro e he
          rcases List.mem_cons.mp he with he | he
          · rw [he]
            exact le_of_lt hex.2
          · have hle := hs1.1 e he
            have h1 : |cur.2 - t| = cur.2 - t := abs_of_pos (by omega)
            have h2 : |e.2 - t| = e.2 - t := abs_of_pos (by omega)
            have := hex.2
            omega
        · simp only [hex, if_false]
          obtain ⟨dr, h1, h2, h3⟩ := ih bc bd hs1.2
          refine ⟨dr, h1, ?_, ?_⟩
          · intro e he
            rcases List.mem_cons.mp he with he | he
            · rw [he]
              omega
            · exact h2 e he
          · rcases h3 with ⟨h3, h4⟩ | ⟨e, he, h3, h4⟩
            · exact Or.inl ⟨h3, h4⟩
            · exact Or.inr ⟨e, List.mem_cons_of_mem _ he, h3, h4⟩

/-- C12: on a non-empty set of columns, `selectColumnByMinHeap` returns a column of
the set whose size is closest to the threshold: no column of the set is strictly
closer, whatever the early exits of the loop skip. -/
theorem C12_selectColumnByMinHeap_closest (m : DancingMatrix) (cols : List Nat)
    (threshold : Int) (hne : cols ≠ []) :
    ∃ c, m.selectColumnByMinHeap cols threshold = some c ∧ c ∈ cols ∧
      ∀ d ∈ cols, |nthI m.size c - threshold| ≤ |nthI m.size d - threshold| := by
  obtain ⟨hs, hmem⟩ := heapFold_spec (nthI m.size) cols [] List.Pairwise.nil
  unfold DancingMatrix.selectColumnByMinHeap
  generalize hq : cols.foldl (fun h colId => heapPush (colId, nthI m.size colId) h) [] = q
  rw [hq] at hs hmem
  cases q with
  | nil =>
    exfalso
    cases cols with
    | nil => exact hne rfl
    | cons c cs =>
      have := (hmem (c, nthI m.size c)).mpr (Or.inr ⟨c, List.mem_cons_self _ _, rfl⟩)
      simp at this
  | cons firstCol rest =>
    obtain ⟨dr, _, h2, h3⟩ := minHeapLoop_spec threshold (firstCol :: rest) firstCol.1
      |firstCol.2 - threshold| hs
    have hsel : ∃ e ∈ firstCol :: rest,
        minHeapLoop threshold (firstCol :: rest) firstCol.1 |firstCol.2 - threshold| = e.1 ∧
        dr = |e.2 - threshold| := by
      rcases h3 with ⟨h3, h4⟩ | h3
      · exact ⟨firstCol, List.mem_cons_self _ _, h3, h4⟩
      · exact h3
    obtain ⟨e, he, hr, hd⟩ := hsel
    rcases (hmem e).mp he with hx | ⟨c, hc, hec⟩
    · simp at hx
    · refine ⟨c, ?_, hc, ?_⟩
      · dsimp only
        rw [hr, hec]
      · intro d hdm
        have := h2 (d, nthI m.size d) ((hmem _).mpr (Or.inr ⟨d, hdm, rfl⟩))
        rw [hd, hec] at this
        exact this

theorem C12_selectColumnByMinHeap_closest_witness :
    ([1, 2, 3] : List Nat) ≠ [] ∧
    ∃ c, sampleMatrix.selectColumnByMinHeap [1, 2, 3] 5 = some c ∧ c ∈ [1, 2, 3] ∧
      ∀ d ∈ [1, 2, 3], |nthI sampleMatrix.size c - 5| ≤ |nthI sampleMatrix.size d - 5| :=
  ⟨by decide, C12_selectColumnByMinHeap_closest sampleMatrix [1, 2, 3] 5 (by decide)⟩

/-! ## The Euler-tour forest and the detector on small graphs -/

set_option maxRecDepth 100000 in
/-- C13: in the forest reached by `link(0, 1); link(2, 1); cut(0, 1)` (all three return
true) the vertices `1` and `2` are not connected, yet `link(1, 2)` returns false and
changes nothing: the key of the edge `(1, 2)` is still in `edges`. -/
theorem C13_link_refuses_unconnected_pair :
    (SplayETT.new 3).link 0 1 = some (true, linkedForest1) ∧
    linkedForest1.link 2 1 = some (true, linkedForest2) ∧
    linkedForest2.cut 0 1 = some (true, cutForest) ∧
    cutForest.connected 1 2 = some false ∧
    cutForest.link 1 2 = some (false, cutForest) := by
  decide!

set_option maxRecDepth 100000 in
/-- C14: in the forest reached by `link(0, 1); link(2, 1)`, `cut(0, 1)` returns true and
leaves the one tree edge `(2, 1)`; afterwards `2` and `1` are not connected and `0`
and `2` are: the vertex detached is `1`, not `0`. -/
theorem C14_cut_detaches_wrong_side :
    (SplayETT.new 3).link 0 1 = some (true, linkedForest1) ∧
    linkedForest1.link 2 1 = some (true, linkedForest2) ∧
    linkedForest2.cut 0 1 = some (true, cutForest) ∧
    cutForest.edges.map (fun e => (e.2.u, e.2.v)) = [(2, 1)] ∧
    cutForest.connected 2 1 = some false ∧
    cutForest.connected 0 2 = some true := by
  decide!

set_option maxRecDepth 100000 in
/-- C16: on the triangle of rows `0, 1, 2`, `DeleteEdges({0})` cuts the tree edges
`(0, 1)` and `(0, 2)` and never looks for a replacement: the rows `1` and `2` stay
active and adjacent, and are no longer connected in the forest. -/
theorem C16_cut_tree_edge_not_replaced :
    (ComponentDetector.new 3 3).Initialize triangleCols = some triangleDetector ∧
    connectedTable triangleDetector 3 = List.replicate 3 (List.replicate 3 (some true)) ∧
    (triangleDetector.DeleteEdges [0]).map
        (fun d => (d.row_active, d.adj_list.getD 1 [], d.ett.connected 1 2)) =
      some ([false, true, true], [0, 2], some false) := by
  decide!

set_option maxRecDepth 100000 in
/-- C17: on the triangle of rows `0, 1, 2`, after `DeleteEdges({1}); AddEdges({1})` all
rows are active and the edge `(1, 2)` is not a tree edge while no bucket of any
component stores a key: the edge is neither.  On the single edge `(0, 1)`,
`AddEdges({0})` right after `Initialize` stores the tree edge `(0, 1)` at the top level
of its component: the edge is both. -/
theorem C17_added_edge_neither_or_both :
    (ComponentDetector.new 3 3).Initialize triangleCols = some triangleDetector ∧
    (runDetectorOps [DetectorOp.deleteEdges [1], DetectorOp.addEdges [1]] triangleDetector).map
        (fun d => (d.row_active, d.adj_list.getD 1 [])) = some ([true, true, true], [0, 2]) ∧
    (runDetectorOps [DetectorOp.deleteEdges [1], DetectorOp.addEdges [1]] triangleDetector).map
        (fun d => (d.ett.isTreeEdge 1 2, indexedKeys d)) = some (false, []) ∧
    (ComponentDetector.new 2 1).Initialize [(1, [0, 1])] = some edgeDetector ∧
    (edgeDetector.AddEdges [0]).map
        (fun d => (d.row_active, d.ett.isTreeEdge 0 1, topLevelKeys d 0)) =
      some ([true, true], true, some [makeEdgeKey 0 1]) := by
  refine ⟨?_, ?_, ?_, ?_, ?_⟩
  · decide!
  · decide!
  · decide!
  · decide!
  · decide!

set_option maxRecDepth 100000 in
/-- C19: on the path `0 - 1 - 2` the properly nested sequence `DeleteEdges({2});
AddEdges({2}); DeleteEdges({1, 2}); AddEdges({1, 2}); DeleteEdges({2}); AddEdges({2})`
ends with all rows active and row `0` cut off from the rows `1` and `2`, although all
three rows were connected right after `Initialize`. -/
theorem C19_nested_sequence_changes_partition :
    (ComponentDetector.new 3 2).Initialize pathCols = some pathDetector ∧
    connectedTable pathDetector 3 = List.replicate 3 (List.replicate 3 (some true)) ∧
    detectorNested
      [DetectorOp.deleteEdges [2], DetectorOp.addEdges [2], DetectorOp.deleteEdges [1, 2],
       DetectorOp.addEdges [1, 2], DetectorOp.deleteEdges [2], DetectorOp.addEdges [2]] [] = true ∧
    (runDetectorOps
      [DetectorOp.deleteEdges [2], DetectorOp.addEdges [2], DetectorOp.deleteEdges [1, 2],
       DetectorOp.addEdges [1, 2], DetectorOp.deleteEdges [2], DetectorOp.addEdges [2]]
      pathDetector).map (fun d => (d.row_active, connectedTable d 3)) =
      some ([true, true, true],
        [[some true, some false, some false], [some false, some true, some true],
         [some false, some true, some true]]) := by
  decide!

/-- C20: the index reached from the empty one by `addEdge(7, 0); addEdge(7, 1)` holds
the key `7` in the buckets `0` and `1`, with level `1`: the invariant fails. -/
theorem C20_addEdge_leaves_key_in_two_buckets :
    ((LayeredNonTreeEdges.new 1).addEdge 7 0).addEdge 7 1 =
      { levels := [[7], [7]], edge_to_level := [(7, 1)], max_level := 1 } ∧
    ¬ (((LayeredNonTreeEdges.new 1).addEdge 7 0).addEdge 7 1).BucketInv := by
  have h : ((LayeredNonTreeEdges.new 1).addEdge 7 0).addEdge 7 1 =
      { levels := [[7], [7]], edge_to_level := [(7, 1)], max_level := 1 } := by decide
  refine ⟨h, ?_⟩
  rw [h]
  intro hinv
  have h0 := (hinv.1 (7, 1) (by simp)).2 0 (by simp)
  simp at h0

/-! ## GetBlocks -/

theorem mem_setInsert (x : Nat) (s : List Nat) (r : Nat) :
    r ∈ setInsert x s ↔ r = x ∨ r ∈ s := by
  induction s with
  | nil => simp [setInsert]
  | cons y ys ih =>
    simp only [setInsert]
    split_ifs with h1 h2
    · simp
    · subst h2
      simp
    · simp only [List.mem_cons, ih]
      tauto

theorem sorted_setInsert (x : Nat) (s : List Nat) (hs : s.Sorted (· < ·)) :
    (setInsert x s).Sorted (· < ·) := by
  induction s with
  | nil => simp [setInsert]
  | cons y ys ih =>
    have hs1 := List.pairwise_cons.mp hs
    simp only [setInsert]
    split_ifs with h1 h2
    · refine List.pairwise_cons.mpr ⟨?_, hs⟩
      intro z hz
      rcases List.mem_cons.mp hz with hz | hz
      · rw [hz]
        exact h1
      · exact lt_trans h1 (hs1.1 z hz)
    · exact hs
    · refine List.pairwise_cons.mpr ⟨?_, ih hs1.2⟩
      intro z hz
      rcases (mem_setInsert x ys z).mp hz with hz | hz
      · rw [hz]
        omega
      · exact hs1.1 z hz

theorem setInsert_ne_nil (x : Nat) (s : List Nat) : setInsert x s ≠ [] := by
  intro h
  have := (mem_setInsert x s x).mpr (Or.inl rfl)
  rw [h] at this
  simp at this

/-- In a forest the walk of `getRoot` ends at a root of the pool. -/
theorem getRootLoop_forest (t : SplayETT) (rank : Nat → Nat)
    (hp : ∀ x p, x < t.pool.length → (t.node x).parent = some p →
      p < t.pool.length ∧ rank p < rank x) :
    ∀ (f x : Nat), x < t.pool.length → rank x < f →
      ∃ r, getRootLoop t f x = some r ∧ r < t.pool.length ∧ (t.node r).parent = none := by
  intro f
  induction f with
  | zero =>
    intro x _ h
    omega
  | succ f ih =>
    intro x hx hr
    cases hpar : (t.node x).parent with
    | none =>
      refine ⟨x, ?_, hx, hpar⟩
      simp only [getRootLoop, hpar]
    | some p =>
      obtain ⟨hp1, hp2⟩ := hp x p hx hpar
      obtain ⟨r, h1, h2, h3⟩ := ih p hp1 (by omega)
      refine ⟨r, ?_, h2, h3⟩
      simp only [getRootLoop, hpar]
      exact h1

theorem getRoot_forest (t : SplayETT) (rank : Nat → Nat) (hf : t.Forest rank) (u : Nat)
    (hu : u < t.vertexNodes.length) :
    ∃ r, t.getRoot (nth t.vertexNodes u) = some r ∧ r < t.pool.length := by
  have hmem : nth t.vertexNodes u ∈ t.vertexNodes := by
    unfold nth
    rw [List.getD_eq_getElem _ _ hu]
    exact List.getElem_mem hu
  have hx := hf.2.2.2 _ hmem
  obtain ⟨r, h1, h2, _⟩ := getRootLoop_forest t rank hf.1 (t.pool.length + 1) _ hx
    (by have := hf.2.1 _ hx; omega)
  exact ⟨r, h1, h2⟩

/-- In a forest `connected` tells whether the two component ids are equal, and both
ids exist. -/
theorem connected_forest (t : SplayETT) (rank : Nat → Nat) (hf : t.Forest rank) (u v : Nat)
    (hu : u < t.vertexNodes.length) (hv : v < t.vertexNodes.length) :
    ∃ a b, t.getComponentId u = some a ∧ t.getComponentId v = some b ∧
      t.connected u v = some (decide (a = b)) := by
  obtain ⟨r1, h1, hr1⟩ := getRoot_forest t rank hf u hu
  obtain ⟨r2, h2, hr2⟩ := getRoot_forest t rank hf v hv
  refine ⟨(t.node r1).node_id, (t.node r2).node_id, ?_, ?_, ?_⟩
  · simp only [SplayETT.getComponentId, h1]
  · simp only [SplayETT.getComponentId, h2]
  · simp only [SplayETT.connected, h1, h2]
    congr 1
    by_cases h : r1 = r2
    · simp [h]
    · have : (t.node r1).node_id ≠ (t.node r2).node_id := fun he => h (hf.2.2.1 r1 r2 hr1 hr2 he)
      simp [h, this]

theorem groupByComponent_spec (d : ComponentDetector) :
    ∀ (l pre : List Nat) (mp : List (Nat × List Nat)), GroupedBy d mp pre →
      (∀ r ∈ l, d.row_active.getD r false = true → ∃ a, d.ett.getComponentId r = some a) →
      ∃ mp1, groupByComponent d l mp = some mp1 ∧ GroupedBy d mp1 (pre ++ l) := by
  intro l
  induction l with
  | nil =>
    intro pre mp hg _
    exact ⟨mp, rfl, by simpa using hg⟩
  | cons row rest ih =>
    intro pre mp hg hc
    have hrest : ∀ r ∈ rest, d.row_active.getD r false = true →
        ∃ a, d.ett.getComponentId r = some a :=
      fun r hr => hc r (List.mem_cons_of_mem _ hr)
    have happ : pre ++ row :: rest = (pre ++ [row]) ++ rest := by simp
    rw [happ]
    by_cases hact : d.row_active.getD row false = true
    · obtain ⟨id, hid⟩ := hc row (List.mem_cons_self _ _) hact
      simp only [groupByComponent, hact, if_true, hid]
      apply ih
      · obtain ⟨g1, g2, g3⟩ := hg
        by_cases hany : mp.any (fun e => e.1 = id) = true
        · -- the entry exists
          have hmod : mapModify mp id (setInsert row) =
              mp.map (fun e => if e.1 = id then (e.1, setInsert row e.2) else e) := by
            unfold mapModify
            rw [if_pos hany]
          rw [hmod]
          refine ⟨?_, ?_, ?_⟩
          · rw [List.pairwise_map]
            refine g1.imp ?_
            intro a b hab
            by_cases ha : a.1 = id <;> by_cases hb : b.1 = id <;> simp [ha, hb] <;> omega
          · intro e he
            obtain ⟨e0, he0, hee⟩ := List.mem_map.mp he
            obtain ⟨n1, n2, n3⟩ := g2 e0 he0
            by_cases hk : e0.1 = id
            · rw [if_pos hk] at hee
              subst hee
              refine ⟨setInsert_ne_nil _ _, sorted_setInsert _ _ n2, ?_⟩
              intro r
              rw [mem_setInsert, n3 r]
              simp only [List.mem_append, List.mem_singleton]
              constructor
              · rintro (h | ⟨h1, h2, h3⟩)
                · subst h
                  exact ⟨Or.inr rfl, hact, by rw [hid, hk]⟩
                · exact ⟨Or.inl h1, h2, h3⟩
              · rintro ⟨h1 | h1, h2, h3⟩
                · exact Or.inr ⟨h1, h2, h3⟩
                · exact Or.inl h1
            · rw [if_neg hk] at hee
              subst hee
              refine ⟨n1, n2, ?_⟩
              intro r
              rw [n3 r]
              simp only [List.mem_append, List.mem_singleton]
              constructor
              · rintro ⟨h1, h2, h3⟩
                exact ⟨Or.inl h1, h2, h3⟩
              · rintro ⟨h1 | h1, h2, h3⟩
                · exact ⟨h1, h2, h3⟩
                · subst h1
                  rw [hid] at h3
                  exact absurd (Option.some.inj h3).symm hk
          · intro r hr hra
            have hex : ∃ e ∈ mp, d.ett.getComponentId r = some e.1 := by
              rcases List.mem_append.mp hr with hr | hr
              · exact g3 r hr hra
              · have hrr : r = row := by simpa using hr
                subst hrr
                obtain ⟨e, he, hk⟩ := List.any_eq_true.mp hany
                have hk1 : e.1 = id := by simpa using hk
                exact ⟨e, he, by rw [hid, hk1]⟩
            obtain ⟨e, he, hk⟩ := hex
            refine ⟨_, List.mem_map.mpr ⟨e, he, rfl⟩, ?_⟩
            by_cases hki : e.1 = id
            · rw [if_pos hki]
              exact hk
            · rw [if_neg hki]
              exact hk
        · -- a new entry
          have hno : ∀ e ∈ mp, e.1 ≠ id := by
            intro e he hk
            exact hany (List.any_eq_true.mpr ⟨e, he, by simpa using hk⟩)
          rw [mapModify_snoc mp id _ hno]
          refine ⟨?_, ?_, ?_⟩
          · rw [List.pairwise_append]
            refine ⟨g1, List.pairwise_singleton _ _, ?_⟩
            intro a ha b hb
            have hb1 : b = (id, setInsert row []) := by simpa using hb
            rw [hb1]
            exact hno a ha
          · intro e he
            rcases List.mem_append.mp he with hem | hes
            · obtain ⟨n1, n2, n3⟩ := g2 e hem
              refine ⟨n1, n2, ?_⟩
              intro r
              rw [n3 r]
              simp only [List.mem_append, List.mem_singleton]
              constructor
              · rintro ⟨h1, h2, h3⟩
                exact ⟨Or.inl h1, h2, h3⟩
              · rintro ⟨h1 | h1, h2, h3⟩
                · exact ⟨h1, h2, h3⟩
                · subst h1
                  rw [hid] at h3
                  exact absurd (Option.some.inj h3).symm (hno e hem)
            · have he1 : e = (id, setInsert row []) := by simpa using hes
              subst he1
              refine ⟨setInsert_ne_nil _ _, sorted_setInsert _ _ List.Pairwise.nil, ?_⟩
              intro r
              rw [mem_setInsert]
              simp only [List.mem_append, List.mem_singleton, List.not_mem_nil, or_false]
              constructor
              · intro h
                subst h
                exact ⟨Or.inr rfl, hact, hid⟩
              · rintro ⟨h1 | h1, h2, h3⟩
                · obtain ⟨e, he, hk⟩ := g3 r h1 h2
                  rw [h3] at hk
                  exact absurd (Option.some.inj hk).symm (hno e he)
                · exact h1
          · intro r hr hra
            rcases List.mem_append.mp hr with hr | hr
            · obtain ⟨e, he, hk⟩ := g3 r hr hra
              exact ⟨e, List.mem_append_left _ he, hk⟩
            · have hrr : r = row := by simpa using hr
              subst hrr
              exact ⟨(id, setInsert r []), by simp, hid⟩
      · exact hrest
    · have hact1 : d.row_active.getD row false = false := by simpa using hact
      simp only [groupByComponent, hact1]
      apply ih _ _ _ hrest
      obtain ⟨g1, g2, g3⟩ := hg
      refine ⟨g1, ?_, ?_⟩
      · intro e he
        obtain ⟨n1, n2, n3⟩ := g2 e he
        refine ⟨n1, n2, ?_⟩
        intro r
        rw [n3 r]
        simp only [List.mem_append, List.mem_singleton]
        constructor
        · rintro ⟨h1, h2, h3⟩
          exact ⟨Or.inl h1, h2, h3⟩
        · rintro ⟨h1 | h1, h2, h3⟩
          · exact ⟨h1, h2, h3⟩
          · subst h1
            rw [hact1] at h2
            exact absurd h2 (by decide)
      · intro r hr hra
        rcases List.mem_append.mp hr with hr | hr
        · exact g3 r hr hra
        · have hrr : r = row := by simpa using hr
          subst hrr
          rw [hact1] at hra
          exact absurd hra (by decide)

/-- The columns gathered by the second loop of `GetBlocks` for the rows of a block. -/
theorem blockCols_spec (rtc : List (Nat × List Nat)) :
    ∀ (rows : List Nat) (cs : List Nat), cs.Sorted (· < ·) →
      (rows.foldl (fun cs r => (mapGet rtc r).foldl (fun cs2 c => setInsert c cs2) cs) cs).Sorted
          (· < ·) ∧
        ∀ c, c ∈ rows.foldl (fun cs r => (mapGet rtc r).foldl (fun cs2 c => setInsert c cs2) cs) cs ↔
          (c ∈ cs ∨ ∃ r ∈ rows, c ∈ mapGet rtc r) := by
  have inner : ∀ (l : List Nat) (cs : List Nat), cs.Sorted (· < ·) →
      (l.foldl (fun cs2 c => setInsert c cs2) cs).Sorted (· < ·) ∧
        ∀ c, c ∈ l.foldl (fun cs2 c => setInsert c cs2) cs ↔ (c ∈ cs ∨ c ∈ l) := by
    intro l
    induction l with
    | nil =>
      intro cs hs
      simp [hs]
    | cons a l ih =>
      intro cs hs
      rw [List.foldl_cons]
      obtain ⟨h1, h2⟩ := ih (setInsert a cs) (sorted_setInsert _ _ hs)
      refine ⟨h1, ?_⟩
      intro c
      rw [h2 c, mem_setInsert]
      simp only [List.mem_cons]
      tauto
  intro rows
  induction rows with
  | nil =>
    intro cs hs
    simp [hs]
  | cons r rows ih =>
    intro cs hs
    rw [List.foldl_cons]
    obtain ⟨i1, i2⟩ := inner (mapGet rtc r) cs hs
    obtain ⟨h1, h2⟩ := ih _ i1
    refine ⟨h1, ?_⟩
    intro c
    rw [h2 c, i2 c]
    simp only [List.mem_cons, exists_eq_or_imp]
    tauto

theorem forest_of_check (t : SplayETT) (ranks : List Nat) (h : t.forestCheck ranks = true) :
    t.Forest (fun x => ranks.getD x 0) := by
  unfold SplayETT.forestCheck at h
  rw [Bool.and_eq_true, List.all_eq_true, List.all_eq_true] at h
  obtain ⟨h1, h2⟩ := h
  refine ⟨?_, ?_, ?_, ?_⟩
  · intro x p hx hp
    have := h1 x (List.mem_range.mpr hx)
    rw [Bool.and_eq_true, Bool.and_eq_true] at this
    have h3 := this.1.1
    rw [hp] at h3
    simpa using h3
  · intro x hx
    have := h1 x (List.mem_range.mpr hx)
    rw [Bool.and_eq_true, Bool.and_eq_true] at this
    simpa using this.1.2
  · intro x y hx hy he
    have := h1 x (List.mem_range.mpr hx)
    rw [Bool.and_eq_true, List.all_eq_true] at this
    have h3 := this.2 y (List.mem_range.mpr hy)
    exact (of_decide_eq_true h3) he
  · intro v hv
    exact of_decide_eq_true (h2 v hv)

/-- C18: on a detector whose Euler-tour structure is a forest, for rows `S` that are
rows of the detector, `GetBlocks(S)` returns; it returns the empty list when all active
rows of `S` are connected to each other (at most one component), and otherwise a list of
blocks such that each block's rows are a non-empty ascending list holding exactly the
active rows of `S` connected to any of its rows, the blocks are pairwise disjoint, their
union is the set of active rows of `S`, and each block's cols is the ascending list of
the columns that `row_to_cols` records for its rows. -/
theorem C18_GetBlocks_partition (d : ComponentDetector) (S : List Nat) (rank : Nat → Nat)
    (hf : d.ett.Forest rank) (hv : ∀ r ∈ S, r < d.ett.vertexNodes.length) :
    ∃ bs, d.GetBlocks S = some bs ∧
      ((∀ u ∈ d.activeRows S, ∀ v ∈ d.activeRows S, d.ett.connected u v = some true) →
        bs = []) ∧
      (¬ (∀ u ∈ d.activeRows S, ∀ v ∈ d.activeRows S, d.ett.connected u v = some true) →
        (∀ b ∈ bs, b.rows ≠ [] ∧ b.rows.Sorted (· < ·) ∧ b.cols.Sorted (· < ·) ∧
          (∀ u ∈ b.rows, ∀ v, v ∈ b.rows ↔
            (v ∈ d.activeRows S ∧ d.ett.connected u v = some true)) ∧
          (∀ c, c ∈ b.cols ↔ ∃ r ∈ b.rows, c ∈ mapGet d.row_to_cols r)) ∧
        bs.Pairwise (fun a b => ∀ r ∈ a.rows, r ∉ b.rows) ∧
        (∀ r, r ∈ d.activeRows S ↔ ∃ b ∈ bs, r ∈ b.rows)) := by
  have hc : ∀ r ∈ S, d.row_active.getD r false = true → ∃ a, d.ett.getComponentId r = some a := by
    intro r hr _
    obtain ⟨a, _, h, _, _⟩ := connected_forest d.ett rank hf r r (hv r hr) (hv r hr)
    exact ⟨a, h⟩
  obtain ⟨mp, hgr, g1, g2, g3⟩ := groupByComponent_spec d S [] [] ⟨List.Pairwise.nil, by simp, by simp⟩ hc
  rw [List.nil_append] at g2 g3
  have hact : ∀ r, r ∈ d.activeRows S ↔ (r ∈ S ∧ d.row_active.getD r false = true) := by
    intro r
    unfold ComponentDetector.activeRows
    rw [List.mem_filter]
  -- connected rows have equal ids
  have hconn : ∀ u ∈ S, ∀ v ∈ S, ∀ a b, d.ett.getComponentId u = some a →
      d.ett.getComponentId v = some b → (d.ett.connected u v = some true ↔ a = b) := by
    intro u hu v hv1 a b ha hb
    obtain ⟨a1, b1, h1, h2, h3⟩ := connected_forest d.ett rank hf u v (hv u hu) (hv v hv1)
    rw [ha] at h1
    rw [hb] at h2
    have e1 := Option.some.inj h1
    have e2 := Option.some.inj h2
    subst e1
    subst e2
    rw [h3]
    simp
  have hclass : ∀ e ∈ mp, ∀ u ∈ e.2, ∀ v, v ∈ e.2 ↔
      (v ∈ d.activeRows S ∧ d.ett.connected u v = some true) := by
    intro e he u hu v
    obtain ⟨_, _, n3⟩ := g2 e he
    obtain ⟨u1, u2, u3⟩ := (n3 u).mp hu
    rw [n3 v, hact v]
    constructor
    · rintro ⟨h1, h2, h3⟩
      exact ⟨⟨h1, h2⟩, (hconn u u1 v h1 e.1 e.1 u3 h3).mpr rfl⟩
    · rintro ⟨⟨h1, h2⟩, h3⟩
      obtain ⟨b, hb⟩ := hc v h1 h2
      have := (hconn u u1 v h1 e.1 b u3 hb).mp h3
      rw [this]
      exact ⟨h1, h2, hb⟩
  unfold ComponentDetector.GetBlocks
  rw [hgr]
  dsimp only
  by_cases hlen : mp.length ≤ 1
  · rw [if_pos hlen]
    refine ⟨[], rfl, fun _ => rfl, ?_⟩
    intro hnot
    exfalso
    apply hnot
    intro u hu v hv1
    obtain ⟨u1, u2⟩ := (hact u).mp hu
    obtain ⟨v1, v2⟩ := (hact v).mp hv1
    obtain ⟨e1, he1, k1⟩ := g3 u u1 u2
    obtain ⟨e2, he2, k2⟩ := g3 v v1 v2
    have hee : e1 = e2 := by
      cases mp with
      | nil => simp at he1
      | cons a t =>
        cases t with
        | nil =>
          have x1 : e1 = a := by simpa using he1
          have x2 : e2 = a := by simpa using he2
          rw [x1, x2]
        | cons b t2 =>
          simp at hlen
    rw [hee] at k1
    exact (hconn u u1 v v1 e2.1 e2.1 k1 k2).mpr rfl
  · rw [if_neg hlen]
    refine ⟨_, rfl, ?_, ?_⟩
    · intro hall
      exfalso
      cases mp with
      | nil => simp at hlen
      | cons a t =>
        cases t with
        | nil => simp at hlen
        | cons b t2 =>
          have hab : a.1 ≠ b.1 := (List.pairwise_cons.mp g1).1 b (List.mem_cons_self _ _)
          obtain ⟨na, _, n3a⟩ := g2 a (List.mem_cons_self _ _)
          obtain ⟨nb, _, n3b⟩ := g2 b (List.mem_cons_of_mem _ (List.mem_cons_self _ _))
          obtain ⟨u, hu⟩ := List.exists_mem_of_ne_nil _ na
          obtain ⟨v, hv1⟩ := List.exists_mem_of_ne_nil _ nb
          obtain ⟨u1, u2, u3⟩ := (n3a u).mp hu
          obtain ⟨v1, v2, v3⟩ := (n3b v).mp hv1
          have := hall u ((hact u).mpr ⟨u1, u2⟩) v ((hact v).mpr ⟨v1, v2⟩)
          exact hab ((hconn u u1 v v1 a.1 b.1 u3 v3).mp this)
    · intro _
      refine ⟨?_, ?_, ?_⟩
      · intro b hb
        obtain ⟨e, he, hbe⟩ := List.mem_map.mp hb
        obtain ⟨n1, n2, n3⟩ := g2 e he
        obtain ⟨c1, c2⟩ := blockCols_spec d.row_to_cols e.2 [] List.Pairwise.nil
        subst hbe
        refine ⟨n1, n2, c1, hclass e he, ?_⟩
        intro c
        rw [c2 c]
        simp
      · rw [List.pairwise_map]
        refine List.Pairwise.imp_of_mem ?_ g1
        intro a b ha hb hab r hra hrb
        obtain ⟨_, _, n3a⟩ := g2 a ha
        obtain ⟨_, _, n3b⟩ := g2 b hb
        have k1 := ((n3a r).mp hra).2.2
        have k2 := ((n3b r).mp hrb).2.2
        rw [k1] at k2
        exact hab (Option.some.inj k2)
      · intro r
        rw [hact r]
        constructor
        · rintro ⟨h1, h2⟩
          obtain ⟨e, he, hk⟩ := g3 r h1 h2
          refine ⟨_, List.mem_map.mpr ⟨e, he, rfl⟩, ?_⟩
          exact ((g2 e he).2.2 r).mpr ⟨h1, h2, hk⟩
        · rintro ⟨b, hb, hr⟩
          obtain ⟨e, he, hbe⟩ := List.mem_map.mp hb
          subst hbe
          have := ((g2 e he).2.2 r).mp hr
          exact ⟨this.1, this.2.1⟩

set_option maxRecDepth 100000 in
theorem C18_GetBlocks_partition_witness :
    triangleDeleted.ett.Forest (fun x => [0, 0, 0, 0, 1, 0, 1].getD x 0) ∧
    (∀ r ∈ [0, 1, 2], r < triangleDeleted.ett.vertexNodes.length) ∧
    ∃ bs, triangleDeleted.GetBlocks [0, 1, 2] = some bs ∧
      ((∀ u ∈ triangleDeleted.activeRows [0, 1, 2], ∀ v ∈ triangleDeleted.activeRows [0, 1, 2],
          triangleDeleted.ett.connected u v = some true) → bs = []) ∧
      (¬ (∀ u ∈ triangleDeleted.activeRows [0, 1, 2], ∀ v ∈ triangleDeleted.activeRows [0, 1, 2],
          triangleDeleted.ett.connected u v = some true) →
        (∀ b ∈ bs, b.rows ≠ [] ∧ b.rows.Sorted (· < ·) ∧ b.cols.Sorted (· < ·) ∧
          (∀ u ∈ b.rows, ∀ v, v ∈ b.rows ↔
            (v ∈ triangleDeleted.activeRows [0, 1, 2] ∧
              triangleDeleted.ett.connected u v = some true)) ∧
          (∀ c, c ∈ b.cols ↔ ∃ r ∈ b.rows, c ∈ mapGet triangleDeleted.row_to_cols r)) ∧
        bs.Pairwise (fun a b => ∀ r ∈ a.rows, r ∉ b.rows) ∧
        (∀ r, r ∈ triangleDeleted.activeRows [0, 1, 2] ↔ ∃ b ∈ bs, r ∈ b.rows)) :=
  ⟨forest_of_check _ _ (by decide!), by decide!,
   C18_GetBlocks_partition triangleDeleted [0, 1, 2] (fun x => [0, 0, 0, 0, 1, 0, 1].getD x 0)
     (forest_of_check _ _ (by decide!)) (by decide!)⟩

/-! ## The cache, the DAG, the counts and the exit code on sample inputs -/

set_option maxRecDepth 100000 in
/-- C21 (defect of the code): on `splitInput` the single-threaded search with the
union-find detector stores the count 1 under the hash of the column set {3,4,5,6}
and the count 3 under the hash of {1,...,6}; the rows with all their 1s inside
{3,4,5,6} are the rows 4, 5, 6 and cover it in 0 ways, and the rows inside {1,...,6}
cover it in 2 ways. -/
theorem C21_cached_count_is_not_cover_count :
    (searchState (mainSearch algorithm_type.dxd false 6 7 splitInput)).bind
      (fun s => cachedCount s [3, 4, 5, 6]) = some 1 ∧
    rowsWithin splitInput [3, 4, 5, 6] = [4, 5, 6] ∧
    exactCoverCount splitInput (rowsWithin splitInput [3, 4, 5, 6]) [3, 4, 5, 6] = 0 ∧
    (searchState (mainSearch algorithm_type.dxd false 6 7 splitInput)).bind
      (fun s => cachedCount s [1, 2, 3, 4, 5, 6]) = some 3 ∧
    exactCoverCount splitInput (rowsWithin splitInput [1, 2, 3, 4, 5, 6]) [1, 2, 3, 4, 5, 6] = 2 := by
  decide!

set_option maxRecDepth 100000 in
/-- C23 (defect of the code): `gen_key` reads the labels of the children, not their
identities, and combines them by exclusive or.  In `sampleDag`, whose nodes 2 and 3
are distinct and carry the label 0 and whose node 4 carries the label 1,
`buildDecisionNode(0, F, node 2)` makes the node 5 with high child 2; after it
`buildDecisionNode(0, F, node 3)` returns the node 5, whose high child is 2 and not
3, and so does `buildDecisionNode(4, F, node 4)`, which differs in the row label
too (`4 ^ (1 << 2) = 0 ^ (0 << 2)`); neither call makes a node. -/
theorem C23_buildDecisionNode_returns_node_of_other_children :
    (2 : Nat) ≠ DanceDNNF.F ∧ (3 : Nat) ≠ DanceDNNF.F ∧ (4 : Nat) ≠ DanceDNNF.F ∧
    (sampleDag.buildDecisionNode 0 DanceDNNF.F 2).1 = 5 ∧
    ((sampleDag.buildDecisionNode 0 DanceDNNF.F 2).2.buildDecisionNode 0 DanceDNNF.F 3).1 = 5 ∧
    ((sampleDag.buildDecisionNode 0 DanceDNNF.F 2).2.buildDecisionNode 4 DanceDNNF.F 4).1 = 5 ∧
    ((sampleDag.buildDecisionNode 0 DanceDNNF.F 2).2.buildDecisionNode 0 DanceDNNF.F 3).2 =
      (sampleDag.buildDecisionNode 0 DanceDNNF.F 2).2 ∧
    ((sampleDag.buildDecisionNode 0 DanceDNNF.F 2).2.buildDecisionNode 4 DanceDNNF.F 4).2 =
      (sampleDag.buildDecisionNode 0 DanceDNNF.F 2).2 ∧
    ((sampleDag.buildDecisionNode 0 DanceDNNF.F 2).2.dnnfNodes.get? 5).map
      (fun nd => (nd.type, nd.left, nd.right)) = some (NodeType.Decision, some DanceDNNF.F, some 2) := by
  decide!

set_option maxRecDepth 100000 in
/-- C25 (defect of the code): `main` returns 0 when the algorithm name is unknown,
when the read-mode is not a number and when the input file cannot be opened,
whatever the file system holds in the first two cases; with fewer than three
arguments it returns 1. -/
theorem C25_main_returns_zero_on_errors :
    (∀ file, main ["main", "foo", "in.txt", "0"] file = some 0) ∧
    (∀ file, main ["main", "dxd", "in.txt", "abc"] file = some 0) ∧
    main ["main", "dxd", "missing.txt", "0"] (fun _ _ => none) = some 0 ∧
    (∀ file, main ["main", "dxd", "in.txt"] file = some 1) := by
  refine ⟨fun file => ?_, fun file => ?_, ?_, fun file => ?_⟩
  · have h1 : stoi "0" = some 0 := by decide!
    have h2 : parseAlgorithmType "foo" = none := by decide!
    simp [main, h1, h2]
  · have h1 : stoi "abc" = none := by decide!
    simp [main, h1]
  · decide!
  · simp [main]

set_option maxRecDepth 100000 in
/-- C26 (defect of the code): on the 3x3 identity matrix the top frame of the search
obtains three sub-blocks (`MAX_B_COUNT` is 3 afterwards) and returns the count 1,
and among all nodes made by the search there is no Decomposed node, with either
detector and in both modes: `DXD` never calls `buildDecomposableNode`. -/
theorem C26_identity3_no_decomposed_node :
    reported (mainSearch algorithm_type.dxd false 3 3 [[1], [2], [3]]) = some (1, 3) ∧
    reported (mainSearch algorithm_type.dxd true 3 3 [[1], [2], [3]]) = some (1, 3) ∧
    reported (mainSearch algorithm_type.mdxd false 3 3 [[1], [2], [3]]) = some (1, 3) ∧
    reported (mainSearch algorithm_type.mdxd true 3 3 [[1], [2], [3]]) = some (1, 3) ∧
    (searchState (mainSearch algorithm_type.dxd false 3 3 [[1], [2], [3]])).map
      (fun s => nodesOfType s NodeType.Decomposed) = some [] ∧
    (searchState (mainSearch algorithm_type.dxd true 3 3 [[1], [2], [3]])).map
      (fun s => nodesOfType s NodeType.Decomposed) = some [] ∧
    (searchState (mainSearch algorithm_type.mdxd false 3 3 [[1], [2], [3]])).map
      (fun s => nodesOfType s NodeType.Decomposed) = some [] ∧
    (searchState (mainSearch algorithm_type.mdxd true 3 3 [[1], [2], [3]])).map
      (fun s => nodesOfType s NodeType.Decomposed) = some [] := by
  decide!

set_option maxRecDepth 100000 in
/-- C27 (defect of the code): on the matrix with one column and the two rows {1}, {1}
both rows of the chosen column succeed and the search returns 2; the nodes made are
`T`, `F`, the leaf `y` of row 0 (node 2), the decision node over it (node 3), the
leaf `y` of row 1 (node 4) and the decision node over it (node 5).  The low child of
node 5 is `F` (node 1), not the node 3 built for the earlier successful row, and
its high child is a leaf without children: the value of `buildDecisionNode` is
dropped and `x` stays `F`. -/
theorem C27_second_decision_node_has_low_child_F :
    reported (mainSearch algorithm_type.dxd false 1 2 [[1], [1]]) = some (2, 1) ∧
    (searchState (mainSearch algorithm_type.dxd false 1 2 [[1], [1]])).map
      (fun s => s.dnnfNodes.map (fun nd => (nd.type, nd.children, nd.left, nd.right))) =
      some [(NodeType.Terminal, [], none, none), (NodeType.Terminal, [], none, none),
            (NodeType.Decision, [], none, none), (NodeType.Decision, [], some DanceDNNF.F, some 2),
            (NodeType.Decision, [], none, none), (NodeType.Decision, [], some DanceDNNF.F, some 4)] ∧
    (searchState (mainSearch algorithm_type.dxd false 1 2 [[1], [1]])).map
      (fun s => s.node_table.map Prod.snd) = some [3, 5] := by
  decide!

set_option maxRecDepth 100000 in
/-- C30 (defect of the code): in `triangleDetector` the non-tree edge (1, 2) is stored
at level 2, its endpoints are active and connected; one call of
`FindReplacementLayered` on its component finds no replacement and leaves the edge
at level 0, in the bucket of level 0: the edge demoted from level 2 is met again
when level 1 is scanned. -/
theorem C30_one_search_demotes_two_levels :
    triangleDetector.component_map.map
      (fun e => e.2.non_tree_edges.map (fun nt => nt.getLevel (makeEdgeKey 1 2))) = [some 2] ∧
    triangleDetector.row_active = [true, true, true] ∧
    triangleDetector.ett.connected 1 2 = some true ∧
    triangleDetector.component_map.map
      (fun e => (triangleDetector.FindReplacementLayered e.2).map (fun r => r.1)) = [some none] ∧
    triangleDetector.component_map.map
      (fun e => (triangleDetector.FindReplacementLayered e.2).bind
        (fun r => r.2.1.non_tree_edges.map (fun nt => nt.getLevel (makeEdgeKey 1 2)))) = [some 0] ∧
    triangleDetector.component_map.map
      (fun e => (triangleDetector.FindReplacementLayered e.2).bind
        (fun r => r.2.1.non_tree_edges.map (fun nt => nt.levels))) =
      [some [[makeEdgeKey 1 2], [], []]] := by
  refine ⟨?_, ?_, ?_, ?_, ?_, ?_⟩ <;> decide!

/-! ## Exact counts -/

theorem mul_exact (a b : DNNFResult) (ha : a.overflowed = false) (hb : b.overflowed = false) :
    (a.count * b.count < 2 ^ 64 → a.mul b = DNNFResult.ofCount (a.count * b.count)) ∧
    (2 ^ 64 ≤ a.count * b.count → a.mul b = DNNFResult.ofSci (a.sciCount.mul b.sciCount)) := by
  have hza : a.isZero = decide (a.count = 0) := by simp [DNNFResult.isZero, ha]
  have hzb : b.isZero = decide (b.count = 0) := by simp [DNNFResult.isZero, hb]
  by_cases h0 : a.count = 0
  · constructor
    · intro _; simp [DNNFResult.mul, hza, h0]
    · intro h; simp [h0] at h
  by_cases h1 : b.count = 0
  · constructor
    · intro _; simp [DNNFResult.mul, hzb, h1]
    · intro h; simp [h1] at h
  have hb0 : 0 < b.count := Nat.pos_of_ne_zero h1
  have key : a.count ≤ ULLONG_MAX / b.count ↔ a.count * b.count < 2 ^ 64 := by
    rw [Nat.le_div_iff_mul_le hb0]; unfold ULLONG_MAX; omega
  constructor
  · intro h
    simp [DNNFResult.mul, hza, hzb, h0, h1, ha, hb, key.2 h]
  · intro h
    have : ¬ a.count ≤ ULLONG_MAX / b.count := fun hh => by have := key.1 hh; omega
    simp [DNNFResult.mul, hza, hzb, h0, h1, ha, hb, this]

theorem add_exact (a b : DNNFResult) (ha : a.overflowed = false) (hb : b.overflowed = false)
    (hac : a.count < 2 ^ 64) (hbc : b.count < 2 ^ 64) :
    (a.count + b.count < 2 ^ 64 →
      (a.add b).overflowed = false ∧ (a.add b).count = a.count + b.count) ∧
    (2 ^ 64 ≤ a.count + b.count → a.add b = DNNFResult.ofSci (a.sciCount.add b.sciCount)) := by
  have hza : a.isZero = decide (a.count = 0) := by simp [DNNFResult.isZero, ha]
  have hzb : b.isZero = decide (b.count = 0) := by simp [DNNFResult.isZero, hb]
  by_cases h0 : a.count = 0
  · constructor
    · intro _; simp [DNNFResult.add, hza, h0, hb]
    · intro h; omega
  by_cases h1 : b.count = 0
  · constructor
    · intro _; simp [DNNFResult.add, hza, hzb, h0, h1, ha]
    · intro h; omega
  have key : a.count ≤ ULLONG_MAX - b.count ↔ a.count + b.count < 2 ^ 64 := by
    unfold ULLONG_MAX; omega
  constructor
  · intro h
    simp [DNNFResult.add, hza, hzb, h0, h1, ha, hb, key.2 h, DNNFResult.ofCount]
  · intro h
    have : ¬ a.count ≤ ULLONG_MAX - b.count := fun hh => by have := key.1 hh; omega
    simp [DNNFResult.add, hza, hzb, h0, h1, ha, hb, this]

/-- C24: for `DNNFResult` values `a` and `b` that are not overflowed and hold 64-bit
counts, `a * b` is not overflowed and holds `a.count * b.count` when that product is
below `2^64`, and is overflowed exactly when the product is at least `2^64`;
`a + b` is not overflowed and holds `a.count + b.count` when that sum is below
`2^64`, and is overflowed exactly when the sum is at least `2^64`. -/
theorem C24_exact_product_and_sum (a b : DNNFResult) (ha : a.overflowed = false)
    (hb : b.overflowed = false) (hac : a.count < 2 ^ 64) (hbc : b.count < 2 ^ 64) :
    (a.count * b.count < 2 ^ 64 →
      (a.mul b).overflowed = false ∧ (a.mul b).count = a.count * b.count) ∧
    ((a.mul b).overflowed = true ↔ 2 ^ 64 ≤ a.count * b.count) ∧
    (a.count + b.count < 2 ^ 64 →
      (a.add b).overflowed = false ∧ (a.add b).count = a.count + b.count) ∧
    ((a.add b).overflowed = true ↔ 2 ^ 64 ≤ a.count + b.count) := by
  obtain ⟨m1, m2⟩ := mul_exact a b ha hb
  obtain ⟨a1, a2⟩ := add_exact a b ha hb hac hbc
  refine ⟨fun h => ?_, ?_, a1, ?_⟩
  · rw [m1 h]; exact ⟨rfl, rfl⟩
  · constructor
    · intro h
      by_contra hlt
      rw [m1 (by omega)] at h
      simp [DNNFResult.ofCount] at h
    · intro h; rw [m2 h]; rfl
  · constructor
    · intro h
      by_contra hlt
      have := (a1 (by omega)).1
      rw [this] at h; cases h
    · intro h; rw [a2 h]; rfl

/-- C24 at the counts `2^32` and `2^32` (the product overflows, the sum does not). -/
theorem C24_exact_product_and_sum_witness :
    ((DNNFResult.ofCount (2 ^ 32)).count * (DNNFResult.ofCount (2 ^ 32)).count < 2 ^ 64 →
      ((DNNFResult.ofCount (2 ^ 32)).mul (DNNFResult.ofCount (2 ^ 32))).overflowed = false ∧
      ((DNNFResult.ofCount (2 ^ 32)).mul (DNNFResult.ofCount (2 ^ 32))).count =
        (DNNFResult.ofCount (2 ^ 32)).count * (DNNFResult.ofCount (2 ^ 32)).count) ∧
    (((DNNFResult.ofCount (2 ^ 32)).mul (DNNFResult.ofCount (2 ^ 32))).overflowed = true ↔
      2 ^ 64 ≤ (DNNFResult.ofCount (2 ^ 32)).count * (DNNFResult.ofCount (2 ^ 32)).count) ∧
    ((DNNFResult.ofCount (2 ^ 32)).count + (DNNFResult.ofCount (2 ^ 32)).count < 2 ^ 64 →
      ((DNNFResult.ofCount (2 ^ 32)).add (DNNFResult.ofCount (2 ^ 32))).overflowed = false ∧
      ((DNNFResult.ofCount (2 ^ 32)).add (DNNFResult.ofCount (2 ^ 32))).count =
        (DNNFResult.ofCount (2 ^ 32)).count + (DNNFResult.ofCount (2 ^ 32)).count) ∧
    (((DNNFResult.ofCount (2 ^ 32)).add (DNNFResult.ofCount (2 ^ 32))).overflowed = true ↔
      2 ^ 64 ≤ (DNNFResult.ofCount (2 ^ 32)).count + (DNNFResult.ofCount (2 ^ 32)).count) :=
  C24_exact_product_and_sum (DNNFResult.ofCount (2 ^ 32)) (DNNFResult.ofCount (2 ^ 32)) rfl rfl
    (by decide) (by decide)

/-! ## What the search does to the DAG members -/

theorem dag_detectorDeleteEdges (s s1 : DanceDNNF) (rows : List Nat)
    (h : s.detectorDeleteEdges rows = some s1) : s1.dag = s.dag := by
  unfold DanceDNNF.detectorDeleteEdges at h
  split at h
  · split_ifs at h
    cases h; rfl
  · split at h
    · cases h
    · cases h; rfl

theorem dag_detectorAddEdges (s s1 : DanceDNNF) (rows : List Nat)
    (h : s.detectorAddEdges rows = some s1) : s1.dag = s.dag := by
  unfold DanceDNNF.detectorAddEdges at h
  split at h
  · split_ifs at h
    cases h; rfl
  · split at h
    · cases h
    · cases h; rfl

/-- The branching loop keeps a property of the DAG members that each recorded branch
and each call of `DXD` keeps. -/
theorem branchLoop_dag (P : DanceDNNF → Prop)
    (hframe : ∀ s s1 : DanceDNNF, s1.dag = s.dag → P s → P s1)
    (hnode : ∀ (s : DanceDNNF) (row : Int) (count x : Nat), P s → P (s.recordBranch row count x))
    (dxd : Search)
    (hdxd : ∀ s b d r b1 s1, P s → dxd s b d = Outcome.ok (r, b1, s1) → P s1)
    (choose : Nat) (depth : Int) :
    ∀ (f : Nat) (s : DanceDNNF) (block : Block) (total : DNNFResult) (x curC : Nat)
      (r : DNNFResult) (b1 : Block) (s1 : DanceDNNF), P s →
      branchLoop dxd choose depth f s block total x curC = Outcome.ok (r, b1, s1) → P s1
  | 0, s, block, total, x, curC, r, b1, s1 => by
    intro _ h
    simp [branchLoop] at h
  | f + 1, s, block, total, x, curC, r, b1, s1 => by
    intro hP h
    rw [branchLoop] at h
    split_ifs at h with hc
    · cases h; exact hP
    · split at h
      · cases h
      · rename_i m1 block1 del hcov
        split at h
        · cases h
        · rename_i s2 hdel
          have hP2 : P s2 := hframe _ _ (dag_detectorDeleteEdges _ _ _ hdel) (hframe s _ rfl hP)
          split at h
          · cases h
          · cases h
          · rename_i result block2 s3 hrec
            have hP3 : P s3 := hdxd _ _ _ _ _ _ hP2 hrec
            dsimp only at h
            generalize hs4 : (if (!result.isZero) = true then _ else s3) = s4 at h
            have hP4 : P s4 := by
              rw [← hs4]
              split_ifs
              · exact hnode s3 _ _ _ hP3
              · exact hP3
            generalize (if (!result.isZero) = true then _ else total) = tot at h
            split at h
            · cases h
            · rename_i m5 block3 hunc
              split at h
              · cases h
              · rename_i s6 hadd
                refine branchLoop_dag P hframe hnode dxd hdxd choose depth f _ _ _ _ _ _ _ _ ?_ h
                exact hframe _ _ (dag_detectorAddEdges _ _ _ hadd) (hframe s4 _ rfl hP4)

theorem serialSearch_dag (P : DanceDNNF → Prop) (dxd : Search)
    (hdxd : ∀ s b d r b1 s1, P s → dxd s b d = Outcome.ok (r, b1, s1) → P s1) (depth : Int) :
    ∀ (blocks : List Block) (total : DNNFResult) (s : DanceDNNF) (r : DNNFResult)
      (s1 : DanceDNNF), P s → serialSearch dxd depth blocks total s = Outcome.ok (r, s1) → P s1
  | [], total, s, r, s1 => by
    intro hP h
    simp only [serialSearch] at h
    cases h; exact hP
  | b :: rest, total, s, r, s1 => by
    intro hP h
    rw [serialSearch] at h
    split at h
    · cases h
    · cases h
    · rename_i result b2 s2 hrec
      have hP2 : P s2 := hdxd _ _ _ _ _ _ hP hrec
      split_ifs at h
      · cases h; exact hP2
      · exact serialSearch_dag P dxd hdxd depth rest _ _ _ _ hP2 h

theorem parallelLoop_dag (P : DanceDNNF → Prop) (dxd : Search)
    (hdxd : ∀ s b d r b1 s1, P s → dxd s b d = Outcome.ok (r, b1, s1) → P s1) (depth : Int) :
    ∀ (blocks : List Block) (results : List DNNFResult) (hf ht : Bool) (s : DanceDNNF)
      (res : List DNNFResult) (hf1 ht1 : Bool) (s1 : DanceDNNF), P s →
      parallelLoop dxd depth blocks results hf ht s = some (res, hf1, ht1, s1) → P s1
  | [], results, hf, ht, s, res, hf1, ht1, s1 => by
    intro hP h
    simp only [parallelLoop] at h
    cases h; exact hP
  | b :: rest, results, hf, ht, s, res, hf1, ht1, s1 => by
    intro hP h
    rw [parallelLoop] at h
    split_ifs at h
    · exact parallelLoop_dag P dxd hdxd depth rest _ _ _ _ _ _ _ _ hP h
    · split at h
      · cases h
      · exact parallelLoop_dag P dxd hdxd depth rest _ _ _ _ _ _ _ _ hP h
      · rename_i result b2 s2 hrec
        have hP2 : P s2 := hdxd _ _ _ _ _ _ hP hrec
        split_ifs at h
        · exact parallelLoop_dag P dxd hdxd depth rest _ _ _ _ _ _ _ _ hP2 h
        · exact parallelLoop_dag P dxd hdxd depth rest _ _ _ _ _ _ _ _ hP2 h

theorem parallelSearchUseOmp_dag (P : DanceDNNF → Prop) (dxd : Search)
    (hdxd : ∀ s b d r b1 s1, P s → dxd s b d = Outcome.ok (r, b1, s1) → P s1) (depth : Int)
    (blocks : List Block) (s : DanceDNNF) (r : DNNFResult) (s1 : DanceDNNF) (hP : P s)
    (h : parallelSearchUseOmp dxd depth blocks s = Outcome.ok (r, s1)) : P s1 := by
  unfold parallelSearchUseOmp at h
  split at h
  · cases h
  · rename_i results hf ht s2 hloop
    have hP2 : P s2 := parallelLoop_dag P dxd hdxd depth _ _ _ _ _ _ _ _ _ hP hloop
    split_ifs at h
    · cases h; exact hP2
    · cases h; exact hP2

/-- A call of `DXD` that returns keeps a property of the DAG members that each recorded
branch keeps. -/
theorem DXD_dag (P : DanceDNNF → Prop)
    (hframe : ∀ s s1 : DanceDNNF, s1.dag = s.dag → P s → P s1)
    (hnode : ∀ (s : DanceDNNF) (row : Int) (count x : Nat), P s → P (s.recordBranch row count x)) :
    ∀ (fuel : Nat) (s : DanceDNNF) (block : Block) (depth : Int) (r : DNNFResult) (b1 : Block)
      (s1 : DanceDNNF), P s → DXD fuel s block depth = Outcome.ok (r, b1, s1) → P s1
  | 0, s, block, depth, r, b1, s1 => by
    intro _ h
    simp [DXD] at h
  | fuel + 1, s0, block, depth, r, b1, s1 => by
    intro hP0 h
    have ih := DXD_dag P hframe hnode fuel
    rw [DXD] at h
    dsimp only at h
    have hP : P s0.timeBoundBroken.2 := hframe s0 _ rfl hP0
    generalize s0.timeBoundBroken.2 = s at h hP
    have hbranch : ∀ (s : DanceDNNF), P s →
        (match s.m.selectOptimalColumn block.cols with
          | none => Outcome.diverged
          | some choose =>
            if nthI s.m.size choose ≤ 0 then
              Outcome.ok (DNNFResult.ofCount 0, block,
                s.setCacheCount (hashBlockState block.cols) (DNNFResult.ofCount 0))
            else
              match s.m.coverInBlock (nth s.m.col choose) block [] with
              | none => Outcome.diverged
              | some (m1, block1, deleted_rows) =>
                match ({ s with m := m1 } : DanceDNNF).detectorDeleteEdges deleted_rows with
                | none => Outcome.diverged
                | some s2 =>
                  match branchLoop (DXD fuel) choose depth s2.m.fuel s2 block1
                      (DNNFResult.ofCount 0) DanceDNNF.F (nth s2.m.down choose) with
                  | Outcome.timeBound => Outcome.timeBound
                  | Outcome.diverged => Outcome.diverged
                  | Outcome.ok (totalResult, block2, s3) =>
                    match s3.m.uncoverInBlock (nth s3.m.col choose) block2 with
                    | none => Outcome.diverged
                    | some (m4, block3) =>
                      match ({ s3 with m := m4 } : DanceDNNF).detectorAddEdges deleted_rows with
                      | none => Outcome.diverged
                      | some s5 => Outcome.ok (totalResult, block3,
                          s5.setCacheCount (hashBlockState block.cols) totalResult)) =
          Outcome.ok (r, b1, s1) → P s1 := by
      intro s hP h
      split at h
      · cases h
      · rename_i choose hsel
        split_ifs at h
        · cases h; exact hframe s _ rfl hP
        · split at h
          · cases h
          · rename_i m1 block1 del hcov
            split at h
            · cases h
            · rename_i s2 hdel
              have hP2 : P s2 := hframe _ _ (dag_detectorDeleteEdges _ _ _ hdel) (hframe s _ rfl hP)
              split at h
              · cases h
              · cases h
              · rename_i total block2 s3 hloop
                have hP3 : P s3 := branchLoop_dag P hframe hnode (DXD fuel) ih choose depth _ _ _ _ _ _
                  _ _ _ hP2 hloop
                split at h
                · cases h
                · rename_i m4 block3 hunc
                  split at h
                  · cases h
                  · rename_i s5 hadd
                    cases h
                    exact hframe s5 _ rfl
                      (hframe _ _ (dag_detectorAddEdges _ _ _ hadd) (hframe s3 _ rfl hP3))
    by_cases h1 : s0.timeBoundBroken.1 = true
    · rw [if_pos h1] at h; cases h
    rw [if_neg h1] at h
    by_cases h2 : block.cols.isEmpty = true
    · rw [if_pos h2] at h; cases h; exact hP
    rw [if_neg h2] at h
    split at h
    · cases h; exact hP
    by_cases h3 : block.rows.length > 2 ∧ s.m.enableGraphSync = true
    · rw [if_pos h3] at h
      split at h
      · cases h
      · rename_i curBlock hget
        by_cases h4 : curBlock.length > 1
        · rw [if_pos h4] at h
          split at h
          · cases h
          · cases h
          · rename_i result s3 hsearch
            cases h
            refine hframe s3 _ rfl ?_
            split_ifs at hsearch
            · refine parallelSearchUseOmp_dag P (DXD fuel) ih depth _ _ _ _ ?_ hsearch
              exact hframe s _ rfl hP
            · refine serialSearch_dag P (DXD fuel) ih depth _ _ _ _ _ ?_ hsearch
              exact hframe s _ rfl hP
            · refine parallelSearchUseOmp_dag P (DXD fuel) ih depth _ _ _ _ ?_ hsearch
              exact hframe s _ rfl hP
            · refine serialSearch_dag P (DXD fuel) ih depth _ _ _ _ _ ?_ hsearch
              exact hframe s _ rfl hP
        · rw [if_neg h4] at h
          exact hbranch { s with MAX_B_COUNT := max s.MAX_B_COUNT curBlock.length }
            (hframe s _ rfl hP) h
    · rw [if_neg h3] at h
      exact hbranch _ hP h

/-! ## The reduction rule of `buildDecisionNode` -/

theorem buildDecisionNode_F (s : DanceDNNF) (r : Int) (lo : Nat) :
    s.buildDecisionNode r lo DanceDNNF.F = (lo, s) := by
  unfold DanceDNNF.buildDecisionNode
  rw [if_pos rfl]

theorem tableReduced_frame (s s1 : DanceDNNF) (h : s1.dag = s.dag) (hs : s.TableReduced) :
    s1.TableReduced := by
  have h1 : s1.dnnfNodes = s.dnnfNodes := congrArg Prod.fst h
  have h2 : s1.node_table = s.node_table := congrArg Prod.snd h
  unfold DanceDNNF.TableReduced
  rw [h1, h2]
  exact hs

theorem tableReduced_append (s : DanceDNNF) (nd : DNNFNode) (hs : s.TableReduced) :
    ({ s with dnnfNodes := s.dnnfNodes ++ [nd] } : DanceDNNF).TableReduced := by
  intro e he
  obtain ⟨n0, hi, h1, h2, h3, h4⟩ := hs e he
  refine ⟨n0, hi, ?_, h2, h3, h4⟩
  show (s.dnnfNodes ++ [nd])[e.2]? = some n0
  have hlt : e.2 < s.dnnfNodes.length := by
    by_contra hge
    rw [List.getElem?_eq_none (by omega)] at h1
    cases h1
  rw [List.getElem?_append_left hlt]
  exact h1

theorem tableReduced_buildDecisionNode (s : DanceDNNF) (r : Int) (lo hi : Nat)
    (hs : s.TableReduced) : (s.buildDecisionNode r lo hi).2.TableReduced := by
  unfold DanceDNNF.buildDecisionNode
  by_cases hF : hi = DanceDNNF.F
  · rw [if_pos hF]; exact hs
  rw [if_neg hF]
  dsimp only
  split
  · exact hs
  · have hnew : ∀ e ∈ assocSet s.node_table (s.gen_key r lo hi) s.dnnfNodes.length,
        ∃ nd h1, (s.dnnfNodes ++ [DNNFNode.mk NodeType.Decision 0 0 [] (some lo) (some hi)])[e.2]?
          = some nd ∧ nd.type = NodeType.Decision ∧ nd.right = some h1 ∧ h1 ≠ DanceDNNF.F := by
      apply assocSet_forall s.node_table _ _
        (fun idx => ∃ nd h1,
          (s.dnnfNodes ++ [DNNFNode.mk NodeType.Decision 0 0 [] (some lo) (some hi)])[idx]?
            = some nd ∧ nd.type = NodeType.Decision ∧ nd.right = some h1 ∧ h1 ≠ DanceDNNF.F)
      · intro e he
        exact tableReduced_append s _ hs e he
      · refine ⟨DNNFNode.mk NodeType.Decision 0 0 [] (some lo) (some hi), hi, ?_, rfl, rfl, hF⟩
        simp
    split_ifs
    · exact hnew
    · exact hnew

theorem tableReduced_recordBranch (s : DanceDNNF) (row : Int) (count x : Nat)
    (hs : s.TableReduced) : (s.recordBranch row count x).TableReduced :=
  tableReduced_buildDecisionNode _ _ _ _ (tableReduced_append s _ hs)

theorem tableReduced_DXD (fuel : Nat) (s : DanceDNNF) (block : Block) (depth : Int)
    (r : DNNFResult) (b1 : Block) (s1 : DanceDNNF) (hs : s.TableReduced)
    (h : DXD fuel s block depth = Outcome.ok (r, b1, s1)) : s1.TableReduced :=
  DXD_dag DanceDNNF.TableReduced tableReduced_frame tableReduced_recordBranch
    fuel s block depth r b1 s1 hs h

theorem fromFile_node_table (cols rows : Nat) (lines : List (List Nat)) (useIG useETT : Bool)
    (deadline : Option Nat) (s : DanceDNNF)
    (h : DanceDNNF.fromFile cols rows lines useIG useETT deadline = some s) : s.node_table = [] := by
  unfold DanceDNNF.fromFile at h
  split at h
  · cases h
  · cases h; rfl

theorem tableReduced_mainSearch (type : algorithm_type) (use_ett : Bool) (cols rows : Nat)
    (lines : List (List Nat)) (r : DNNFResult) (s : DanceDNNF)
    (h : mainSearch type use_ett cols rows lines = some (Outcome.ok (r, s))) : s.TableReduced := by
  unfold mainSearch at h
  split at h
  · cases h
  · rename_i s0 hfile
    have h0 : s0.TableReduced := by
      intro e he
      rw [fromFile_node_table _ _ _ _ _ _ _ hfile] at he
      cases he
    cases type
    · simp only [Option.some.injEq] at h
      unfold DanceDNNF.startDXD at h
      dsimp only at h
      split at h
      · cases h
      · cases h
      · rename_i r1 b1 s3 hrun
        cases h
        refine tableReduced_frame s3 _ rfl ?_
        refine tableReduced_DXD _ _ _ _ _ _ _ ?_ hrun
        split_ifs
        · exact tableReduced_frame s0 _ rfl h0
        · exact tableReduced_frame s0 _ rfl h0
    · simp only [Option.some.injEq] at h
      unfold DanceDNNF.startMultiThreadDXD at h
      dsimp only at h
      split at h
      · cases h
      · cases h
      · rename_i r1 b1 s3 hrun
        cases h
        refine tableReduced_frame s3 _ rfl ?_
        refine tableReduced_DXD _ _ _ _ _ _ _ ?_ hrun
        exact tableReduced_frame s0 _ rfl h0

/-- C22: `buildDecisionNode(r, lo, F)` returns `lo` and leaves the object as it is; every
call of `buildDecisionNode` and every call of `DXD` that returns keep the property
that each node stored in `node_table` is a Decision node whose high child is not
`F`; and the property holds in the state every search started by `main` ends in. -/
theorem C22_stored_decision_nodes_have_high_child_not_F :
    (∀ (s : DanceDNNF) (r : Int) (lo : Nat), s.buildDecisionNode r lo DanceDNNF.F = (lo, s)) ∧
    (∀ (s : DanceDNNF) (r : Int) (lo hi : Nat), s.TableReduced →
      (s.buildDecisionNode r lo hi).2.TableReduced) ∧
    (∀ (fuel : Nat) (s : DanceDNNF) (block : Block) (depth : Int) (r : DNNFResult) (b1 : Block)
      (s1 : DanceDNNF), s.TableReduced → DXD fuel s block depth = Outcome.ok (r, b1, s1) →
      s1.TableReduced) ∧
    (∀ (type : algorithm_type) (use_ett : Bool) (cols rows : Nat) (lines : List (List Nat))
      (r : DNNFResult) (s : DanceDNNF),
      mainSearch type use_ett cols rows lines = some (Outcome.ok (r, s)) → s.TableReduced) :=
  ⟨buildDecisionNode_F, tableReduced_buildDecisionNode, tableReduced_DXD, tableReduced_mainSearch⟩

set_option maxRecDepth 100000 in
/-- C22 on the matrix with one column and the two rows {1}, {1}: the search returns, it
leaves two nodes in `node_table`, and both have a high child other than `F`. -/
theorem C22_stored_decision_nodes_have_high_child_not_F_witness :
    ∃ r s, mainSearch algorithm_type.dxd false 1 2 [[1], [1]] = some (Outcome.ok (r, s)) ∧
      s.node_table.length = 2 ∧ s.TableReduced := by
  have hsome : (searchState (mainSearch algorithm_type.dxd false 1 2 [[1], [1]])).map
      (fun s => s.node_table.length) = some 2 := by decide!
  cases h : mainSearch algorithm_type.dxd false 1 2 [[1], [1]] with
  | none => rw [h] at hsome; cases hsome
  | some o =>
    cases o with
    | ok p =>
      rw [h] at hsome
      exact ⟨p.1, p.2, rfl, by simpa [searchState] using hsome,
        C22_stored_decision_nodes_have_high_child_not_F.2.2.2 _ _ _ _ _ p.1 p.2 h⟩
    | timeBound => rw [h] at hsome; cases hsome
    | diverged => rw [h] at hsome; cases hsome

/-! ## The union-find forest -/

theorem iterate_root (p : List Nat) (r : Nat) (h : nth p r = r) : ∀ k, (nth p)^[k] r = r := by
  intro k
  induction k with
  | zero => rfl
  | succ k ih => rw [Function.iterate_succ_apply, h, ih]

theorem repOf_unique (p : List Nat) (x r r1 : Nat) (h : RepOf p x r) (h1 : RepOf p x r1) :
    r = r1 := by
  obtain ⟨k, hk, hr⟩ := h
  obtain ⟨j, hj, hr1⟩ := h1
  rcases Nat.le_total k j with hle | hle
  · obtain ⟨d, rfl⟩ := Nat.exists_eq_add_of_le hle
    rw [Nat.add_comm, Function.iterate_add_apply, hk, iterate_root p r hr] at hj
    exact hj
  · obtain ⟨d, rfl⟩ := Nat.exists_eq_add_of_le hle
    rw [Nat.add_comm, Function.iterate_add_apply, hj, iterate_root p r1 hr1] at hk
    exact hk.symm

theorem repOf_root (p : List Nat) (r : Nat) (h : nth p r = r) : RepOf p r r := ⟨0, rfl, h⟩

theorem repOf_of_parent (p : List Nat) (x r : Nat) (h : RepOf p (nth p x) r) : RepOf p x r := by
  obtain ⟨k, hk, hr⟩ := h
  exact ⟨k + 1, by rw [Function.iterate_succ_apply]; exact hk, hr⟩

theorem repOf_parent (p : List Nat) (x r : Nat) (h : RepOf p x r) : RepOf p (nth p x) r := by
  obtain ⟨k, hk, hr⟩ := h
  cases k with
  | zero =>
    have hx : x = r := hk
    rw [hx, hr]
    exact repOf_root p r hr
  | succ k =>
    rw [Function.iterate_succ_apply] at hk
    exact ⟨k, hk, hr⟩

theorem repOf_root_eq (p : List Nat) (x r : Nat) (hx : nth p x = x) (h : RepOf p x r) : r = x :=
  repOf_unique p x r x h (repOf_root p x hx)

theorem repOf_is_root (p : List Nat) (x r : Nat) (h : RepOf p x r) : nth p r = r := by
  obtain ⟨_, _, h2⟩ := h
  exact h2

theorem iterate_lt (N : Nat) (p : List Nat) (hlt : ∀ x, x < N → nth p x < N) (x : Nat)
    (hx : x < N) : ∀ k, (nth p)^[k] x < N := by
  intro k
  induction k with
  | zero => exact hx
  | succ k ih =>
    rw [Function.iterate_succ_apply']
    exact hlt _ ih

theorem repOf_lt (N : Nat) (p : List Nat) (hlt : ∀ x, x < N → nth p x < N) (x r : Nat)
    (hx : x < N) (h : RepOf p x r) : r < N := by
  obtain ⟨k, hk, _⟩ := h
  rw [← hk]
  exact iterate_lt N p hlt x hx k

theorem rank_le_parent (N : Nat) (uf : LocalUF) (inv : UFInv N uf) (x : Nat) (hx : x < N) :
    nth uf.rank x ≤ nth uf.rank (nth uf.parent x) := by
  by_cases h : nth uf.parent x = x
  · rw [h]
  · exact Nat.le_of_lt (inv.rk x hx h)

theorem rank_le_iterate (N : Nat) (uf : LocalUF) (inv : UFInv N uf) (x : Nat) (hx : x < N) :
    ∀ k, nth uf.rank x ≤ nth uf.rank ((nth uf.parent)^[k] x) := by
  intro k
  induction k with
  | zero => exact Nat.le_refl _
  | succ k ih =>
    rw [Function.iterate_succ_apply']
    exact Nat.le_trans ih (rank_le_parent N uf inv _ (iterate_lt N uf.parent inv.plt x hx k))

theorem rank_lt_rep (N : Nat) (uf : LocalUF) (inv : UFInv N uf) (x r : Nat) (hx : x < N)
    (h : RepOf uf.parent x r) (hne : x ≠ r) : nth uf.rank x < nth uf.rank r := by
  obtain ⟨k, hk, hr⟩ := h
  cases k with
  | zero => exact absurd hk hne
  | succ k =>
    rw [Function.iterate_succ_apply] at hk
    have hpx : nth uf.parent x ≠ x := by
      intro e
      rw [e] at hk
      have := iterate_root uf.parent x e k
      rw [this] at hk
      exact hne hk
    have h1 := inv.rk x hx hpx
    have h2 := rank_le_iterate N uf inv (nth uf.parent x) (inv.plt x hx) k
    rw [hk] at h2
    omega

theorem findRoot_steps (p : List Nat) : ∀ (f x r : Nat), findRoot p f x = some r →
    ∃ k, k < f ∧ (nth p)^[k] x = r ∧ nth p r = r := by
  intro f
  induction f with
  | zero => intro x r h; simp [findRoot] at h
  | succ f ih =>
    intro x r h
    rw [findRoot] at h
    split_ifs at h with hp
    · obtain ⟨k, h1, h2, h3⟩ := ih _ _ h
      exact ⟨k + 1, by omega, by rw [Function.iterate_succ_apply]; exact h2, h3⟩
    · have hx : x = r := by simpa using h
      subst hx
      exact ⟨0, by omega, rfl, by simpa using hp⟩

theorem findRoot_of_steps (p : List Nat) : ∀ (f x r k : Nat), k < f → (nth p)^[k] x = r →
    nth p r = r → findRoot p f x = some r := by
  intro f
  induction f with
  | zero => intro x r k hk; omega
  | succ f ih =>
    intro x r k hk hit hr
    rw [findRoot]
    by_cases hp : nth p x = x
    · rw [if_neg (by simpa using hp)]
      rw [iterate_root p x hp k] at hit
      rw [hit]
    · rw [if_pos hp]
      cases k with
      | zero =>
        have hx : x = r := hit
        rw [hx] at hp
        exact absurd hr hp
      | succ k =>
        rw [Function.iterate_succ_apply] at hit
        exact ih _ _ k (by omega) hit hr

/-- The walk to the root either ends within the fuel or has met as many nodes of
strictly growing rank as there was fuel. -/
theorem findRoot_chain (N : Nat) (uf : LocalUF) (inv : UFInv N uf) :
    ∀ (f x : Nat), x < N → (∃ r, findRoot uf.parent f x = some r) ∨
      ∃ l : List Nat, l.length = f ∧ (∀ y ∈ l, y < N ∧ nth uf.rank x ≤ nth uf.rank y) ∧
        l.Pairwise (fun a b => nth uf.rank a < nth uf.rank b) := by
  intro f
  induction f with
  | zero =>
    intro x _
    exact Or.inr ⟨[], rfl, by simp, List.Pairwise.nil⟩
  | succ f ih =>
    intro x hx
    by_cases hp : nth uf.parent x = x
    · left
      exact ⟨x, by rw [findRoot, if_neg (by simpa using hp)]⟩
    · rcases ih (nth uf.parent x) (inv.plt x hx) with ⟨r, hr⟩ | ⟨l, h1, h2, h3⟩
      · left
        exact ⟨r, by rw [findRoot, if_pos hp]; exact hr⟩
      · right
        have hlt := inv.rk x hx hp
        refine ⟨x :: l, by simp [h1], ?_, ?_⟩
        · intro y hy
          rcases List.mem_cons.mp hy with hy | hy
          · subst hy
            exact ⟨hx, Nat.le_refl _⟩
          · exact ⟨(h2 y hy).1, by have := (h2 y hy).2; omega⟩
        · refine List.pairwise_cons.mpr ⟨?_, h3⟩
          intro y hy
          have := (h2 y hy).2
          omega

theorem findRoot_total (N : Nat) (uf : LocalUF) (inv : UFInv N uf) (x : Nat) (hx : x < N) :
    ∃ r, findRoot uf.parent (N + 1) x = some r := by
  rcases findRoot_chain N uf inv (N + 1) x hx with h | ⟨l, h1, h2, h3⟩
  · exact h
  · exfalso
    have hnd : l.Nodup := h3.imp (fun h e => by rw [e] at h; exact Nat.lt_irrefl _ h)
    have hsub : l ⊆ List.range N := fun y hy => List.mem_range.mpr (h2 y hy).1
    have := (List.subperm_of_subset hnd hsub).length_le
    rw [h1, List.length_range] at this
    omega

/-- With well-formed arrays the walk to the root ends: it yields the root of `x`. -/
theorem findRoot_spec (N : Nat) (uf : LocalUF) (inv : UFInv N uf) (x : Nat) (hx : x < N) :
    ∃ r k, findRoot uf.parent (uf.parent.length + 1) x = some r ∧ r < N ∧ RepOf uf.parent x r ∧
      k ≤ N ∧ (nth uf.parent)^[k] x = r := by
  obtain ⟨r, hr⟩ := findRoot_total N uf inv x hx
  obtain ⟨k, h1, h2, h3⟩ := findRoot_steps _ _ _ _ hr
  have hrep : RepOf uf.parent x r := ⟨k, h2, h3⟩
  exact ⟨r, k, by rw [inv.plen]; exact hr, repOf_lt N _ inv.plt x r hx hrep, hrep, by omega, h2⟩

theorem findRoot_eq_of_repOf (N : Nat) (uf : LocalUF) (inv : UFInv N uf) (x r : Nat) (hx : x < N)
    (h : RepOf uf.parent x r) : findRoot uf.parent (uf.parent.length + 1) x = some r := by
  obtain ⟨r1, _, h1, _, h2, _⟩ := findRoot_spec N uf inv x hx
  rw [h1, repOf_unique _ _ _ _ h h2]

/-! ## Path compression -/

theorem root_set (p : List Nat) (y ry r : Nat) (hy : y < p.length) (hrep : RepOf p y ry)
    (hr : nth p r = r) : nth (p.set y ry) r = r := by
  by_cases h : r = y
  · subst h
    rw [nth_set_eq _ _ _ hy]
    exact repOf_root_eq p r ry hr hrep
  · rw [nth_set_ne _ _ _ _ h]
    exact hr

theorem repOf_set_mp (p : List Nat) (y ry : Nat) (hy : y < p.length) (hrep : RepOf p y ry) :
    ∀ (k z r : Nat), (nth (p.set y ry))^[k] z = r → nth (p.set y ry) r = r → RepOf p z r := by
  intro k
  induction k with
  | zero =>
    intro z r hk hr
    have hz : z = r := hk
    subst hz
    by_cases h : z = y
    · subst h
      rw [nth_set_eq _ _ _ hy] at hr
      rw [hr] at hrep
      exact hrep
    · rw [nth_set_ne _ _ _ _ h] at hr
      exact repOf_root p z hr
  | succ k ih =>
    intro z r hk hr
    rw [Function.iterate_succ_apply] at hk
    have h1 := ih _ _ hk hr
    by_cases h : z = y
    · subst h
      rw [nth_set_eq _ _ _ hy] at h1
      have hry := repOf_is_root p z ry hrep
      have : r = ry := repOf_root_eq p ry r hry h1
      rw [this]
      exact hrep
    · rw [nth_set_ne _ _ _ _ h] at h1
      exact repOf_of_parent p z r h1

theorem repOf_set_mpr (p : List Nat) (y ry : Nat) (hy : y < p.length) (hrep : RepOf p y ry) :
    ∀ (k z r : Nat), (nth p)^[k] z = r → nth p r = r → RepOf (p.set y ry) z r := by
  intro k
  induction k with
  | zero =>
    intro z r hk hr
    have hz : z = r := hk
    subst hz
    exact repOf_root _ z (root_set p y ry z hy hrep hr)
  | succ k ih =>
    intro z r hk hr
    have hzr : RepOf p z r := ⟨k + 1, hk, hr⟩
    rw [Function.iterate_succ_apply] at hk
    have h1 := ih _ _ hk hr
    by_cases h : z = y
    · subst h
      have : r = ry := repOf_unique p z r ry hzr hrep
      subst this
      refine ⟨1, ?_, root_set p z r r hy hrep hr⟩
      show nth (p.set z r) z = r
      exact nth_set_eq _ _ _ hy
    · apply repOf_of_parent
      rw [nth_set_ne _ _ _ _ h]
      exact h1

/-- Redirecting a node to its root changes no root. -/
theorem repOf_set (p : List Nat) (y ry : Nat) (hy : y < p.length) (hrep : RepOf p y ry)
    (z r : Nat) : RepOf (p.set y ry) z r ↔ RepOf p z r := by
  constructor
  · rintro ⟨k, hk, hr⟩
    exact repOf_set_mp p y ry hy hrep k z r hk hr
  · rintro ⟨k, hk, hr⟩
    exact repOf_set_mpr p y ry hy hrep k z r hk hr

theorem inv_set (N : Nat) (uf : LocalUF) (inv : UFInv N uf) (y ry : Nat) (hy : y < N)
    (hrep : RepOf uf.parent y ry) : UFInv N { uf with parent := uf.parent.set y ry } := by
  have hry : ry < N := repOf_lt N _ inv.plt y ry hy hrep
  refine ⟨by simp [inv.plen], inv.rlen, inv.clen, ?_, ?_⟩
  · intro x hx
    show nth (uf.parent.set y ry) x < N
    by_cases h : x = y
    · subst h
      rw [nth_set_eq _ _ _ (by rw [inv.plen]; exact hx)]
      exact hry
    · rw [nth_set_ne _ _ _ _ h]
      exact inv.plt x hx
  · intro x hx
    show nth (uf.parent.set y ry) x ≠ x → nth uf.rank x < nth uf.rank (nth (uf.parent.set y ry) x)
    by_cases h : x = y
    · subst h
      rw [nth_set_eq _ _ _ (by rw [inv.plen]; exact hx)]
      intro hne
      exact rank_lt_rep N uf inv x ry hx hrep (fun e => hne e.symm)
    · rw [nth_set_ne _ _ _ _ h]
      exact inv.rk x hx

theorem iterate_set_avoid (N : Nat) (uf : LocalUF) (inv : UFInv N uf) (x v : Nat) (hx : x < N)
    (hp : nth uf.parent x ≠ x) :
    ∀ j, (nth (uf.parent.set x v))^[j] (nth uf.parent x) = (nth uf.parent)^[j] (nth uf.parent x) := by
  intro j
  induction j with
  | zero => rfl
  | succ j ih =>
    rw [Function.iterate_succ_apply', Function.iterate_succ_apply', ih]
    apply nth_set_ne
    intro e
    have h1 := inv.rk x hx hp
    have h2 := rank_le_iterate N uf inv (nth uf.parent x) (inv.plt x hx) j
    rw [e] at h2
    omega

theorem compressPath_spec (N root : Nat) :
    ∀ (f : Nat) (uf : LocalUF) (x k : Nat), UFInv N uf → x < N →
      (nth uf.parent)^[k] x = root → nth uf.parent root = root → k < f →
      ∃ p1, compressPath root f uf.parent x = some p1 ∧ UFInv N { uf with parent := p1 } ∧
        ∀ z r, RepOf p1 z r ↔ RepOf uf.parent z r := by
  intro f
  induction f with
  | zero => intro uf x k _ _ _ _ hk; omega
  | succ f ih =>
    intro uf x k inv hx hit hroot hk
    rw [compressPath]
    by_cases hxr : x = root
    · rw [if_neg (by simpa using hxr)]
      exact ⟨uf.parent, rfl, inv, fun z r => Iff.rfl⟩
    · rw [if_pos hxr]
      have hrep : RepOf uf.parent x root := ⟨k, hit, hroot⟩
      have hpx : nth uf.parent x ≠ x := by
        intro e
        exact hxr (repOf_root_eq uf.parent x root e hrep).symm
      cases k with
      | zero => exact absurd hit hxr
      | succ k =>
        rw [Function.iterate_succ_apply] at hit
        have inv1 := inv_set N uf inv x root hx hrep
        have hlen : x < uf.parent.length := by rw [inv.plen]; exact hx
        have hit1 : (nth (uf.parent.set x root))^[k] (nth uf.parent x) = root := by
          rw [iterate_set_avoid N uf inv x root hx hpx k]
          exact hit
        have hroot1 : nth (uf.parent.set x root) root = root :=
          root_set uf.parent x root root hlen hrep hroot
        obtain ⟨p1, h1, h2, h3⟩ := ih { uf with parent := uf.parent.set x root } (nth uf.parent x) k
          inv1 (inv.plt x hx) hit1 hroot1 (by omega)
        refine ⟨p1, h1, h2, ?_⟩
        intro z r
        rw [h3 z r]
        exact repOf_set uf.parent x root hlen hrep z r

/-- The lambda `localFind` returns the root of `x`; the path compression keeps the arrays
well formed and changes no root. -/
theorem localFind_spec (N : Nat) (uf : LocalUF) (inv : UFInv N uf) (x : Nat) (hx : x < N) :
    ∃ root uf1, localFind uf x = some (root, uf1) ∧ UFInv N uf1 ∧ RepOf uf.parent x root ∧
      root < N ∧ (∀ z r, RepOf uf1.parent z r ↔ RepOf uf.parent z r) ∧
      uf1.rank = uf.rank ∧ uf1.cols = uf.cols := by
  obtain ⟨root, k, h1, h2, h3, h4, h5⟩ := findRoot_spec N uf inv x hx
  obtain ⟨p1, c1, c2, c3⟩ := compressPath_spec N root (uf.parent.length + 1) uf x k inv hx h5
    (repOf_is_root _ _ _ h3) (by rw [inv.plen]; omega)
  refine ⟨root, { uf with parent := p1 }, ?_, c2, h3, h2, c3, rfl, rfl⟩
  unfold localFind
  rw [h1]
  dsimp only
  rw [c1]

/-! ## Unions -/

theorem mem_usetInsert (x : Nat) (s : List Nat) (c : Nat) : c ∈ usetInsert x s ↔ c = x ∨ c ∈ s := by
  unfold usetInsert
  split_ifs with h
  · constructor
    · exact Or.inr
    · rintro (h1 | h1)
      · rw [h1]; exact h
      · exact h1
  · simp only [List.mem_append, List.mem_singleton]
    tauto

theorem mem_foldl_usetInsert (l : List Nat) : ∀ (init : List Nat) (c : Nat),
    c ∈ l.foldl (fun acc x => usetInsert x acc) init ↔ c ∈ init ∨ c ∈ l := by
  induction l with
  | nil => intro init c; simp
  | cons a l ih =>
    intro init c
    rw [List.foldl_cons, ih, mem_usetInsert]
    simp only [List.mem_cons]
    tauto

theorem getD_set_eq (l : List (List Nat)) (i : Nat) (v : List Nat) (h : i < l.length) :
    (l.set i v).getD i [] = v := by
  simp [List.getD_eq_getElem?_getD, List.getElem?_set, h]

theorem getD_set_ne (l : List (List Nat)) (i j : Nat) (v : List Nat) (h : j ≠ i) :
    (l.set i v).getD j [] = l.getD j [] := by
  simp [List.getD_eq_getElem?_getD, List.getElem?_set, Ne.symm h]

theorem reps_lt (N : Nat) (uf : LocalUF) (rep : Nat → Nat) (h : Reps N uf rep) (x : Nat)
    (hx : x < N) : rep x < N :=
  repOf_lt N _ h.1.plt x _ hx (h.2 x hx)

theorem reps_root (N : Nat) (uf : LocalUF) (rep : Nat → Nat) (h : Reps N uf rep) (x : Nat)
    (hx : x < N) : nth uf.parent (rep x) = rep x :=
  repOf_is_root _ _ _ (h.2 x hx)

theorem reps_idem (N : Nat) (uf : LocalUF) (rep : Nat → Nat) (h : Reps N uf rep) (x : Nat)
    (hx : x < N) : rep (rep x) = rep x :=
  repOf_root_eq _ _ _ (reps_root N uf rep h x hx) (h.2 _ (reps_lt N uf rep h x hx))

theorem reps_of_root (N : Nat) (uf : LocalUF) (rep : Nat → Nat) (h : Reps N uf rep) (r : Nat)
    (hr : r < N) (hroot : nth uf.parent r = r) : rep r = r :=
  repOf_root_eq _ _ _ hroot (h.2 r hr)

theorem reps_findRoot (N : Nat) (uf : LocalUF) (rep : Nat → Nat) (h : Reps N uf rep) (x : Nat)
    (hx : x < N) : findRoot uf.parent (uf.parent.length + 1) x = some (rep x) :=
  findRoot_eq_of_repOf N uf h.1 x _ hx (h.2 x hx)

theorem localFind_reps (N : Nat) (uf : LocalUF) (rep : Nat → Nat) (h : Reps N uf rep) (x : Nat)
    (hx : x < N) :
    ∃ uf1, localFind uf x = some (rep x, uf1) ∧ Reps N uf1 rep ∧ uf1.rank = uf.rank ∧
      uf1.cols = uf.cols := by
  obtain ⟨root, uf1, h1, h2, h3, _, h5, h6, h7⟩ := localFind_spec N uf h.1 x hx
  have : root = rep x := repOf_unique _ _ _ _ h3 (h.2 x hx)
  subst this
  exact ⟨uf1, h1, ⟨h2, fun z hz => (h5 z _).mpr (h.2 z hz)⟩, h6, h7⟩

theorem repOf_link (p : List Nat) (ra rb : Nat) (hra : nth p ra = ra) (hrb : nth p rb = rb)
    (hne : ra ≠ rb) (hlen : rb < p.length) :
    ∀ (k z r : Nat), (nth p)^[k] z = r → nth p r = r →
      RepOf (p.set rb ra) z (if r = rb then ra else r) := by
  have hra1 : nth (p.set rb ra) ra = ra := by rw [nth_set_ne _ _ _ _ hne]; exact hra
  intro k
  induction k with
  | zero =>
    intro z r hk hr
    have hz : z = r := hk
    subst hz
    by_cases h : z = rb
    · rw [if_pos h, h]
      exact ⟨1, nth_set_eq _ _ _ hlen, hra1⟩
    · rw [if_neg h]
      exact repOf_root _ z (by rw [nth_set_ne _ _ _ _ h]; exact hr)
  | succ k ih =>
    intro z r hk hr
    rw [Function.iterate_succ_apply] at hk
    have h1 := ih _ _ hk hr
    by_cases h : z = rb
    · rw [h, hrb] at h1
      rw [h]
      exact h1
    · apply repOf_of_parent
      rw [nth_set_ne _ _ _ _ h]
      exact h1

theorem nth_rank_bump (rank : List Nat) (ra y : Nat) :
    nth rank y ≤ nth (rank.set ra (nth rank ra + 1)) y := by
  rw [nth_set]
  split_ifs with h
  · rw [h.1]; omega
  · exact Nat.le_refl _

/-- Hanging the root `rb` under the root `ra` of no smaller rank keeps the arrays well
formed. -/
theorem inv_link (N : Nat) (uf : LocalUF) (inv : UFInv N uf) (ra rb : Nat) (ha : ra < N)
    (hb : rb < N) (hra : nth uf.parent ra = ra) (hne : ra ≠ rb)
    (hrank : nth uf.rank rb ≤ nth uf.rank ra) (cols1 : List (List Nat))
    (hc : cols1.length = N) :
    UFInv N { parent := uf.parent.set rb ra,
              rank := if nth uf.rank ra = nth uf.rank rb then uf.rank.set ra (nth uf.rank ra + 1)
                      else uf.rank,
              cols := cols1 } := by
  have hmono : ∀ y, nth uf.rank y ≤
      nth (if nth uf.rank ra = nth uf.rank rb then uf.rank.set ra (nth uf.rank ra + 1)
           else uf.rank) y := by
    intro y
    split_ifs
    · exact nth_rank_bump _ _ _
    · exact Nat.le_refl _
  refine ⟨by simp [inv.plen], ?_, hc, ?_, ?_⟩
  · show (if nth uf.rank ra = nth uf.rank rb then uf.rank.set ra (nth uf.rank ra + 1)
        else uf.rank).length = N
    split_ifs
    · simp [inv.rlen]
    · exact inv.rlen
  · intro x hx
    show nth (uf.parent.set rb ra) x < N
    by_cases h : x = rb
    · rw [h, nth_set_eq _ _ _ (by rw [inv.plen]; exact hb)]
      exact ha
    · rw [nth_set_ne _ _ _ _ h]
      exact inv.plt x hx
  · intro x hx
    show nth (uf.parent.set rb ra) x ≠ x →
      nth (if nth uf.rank ra = nth uf.rank rb then uf.rank.set ra (nth uf.rank ra + 1)
           else uf.rank) x <
      nth (if nth uf.rank ra = nth uf.rank rb then uf.rank.set ra (nth uf.rank ra + 1)
           else uf.rank) (nth (uf.parent.set rb ra) x)
    by_cases h : x = rb
    · rw [h, nth_set_eq _ _ _ (by rw [inv.plen]; exact hb)]
      intro _
      split_ifs with he
      · rw [nth_set_ne _ _ _ _ (Ne.symm hne), nth_set_eq _ _ _ (by rw [inv.rlen]; exact ha)]
        omega
      · omega
    · rw [nth_set_ne _ _ _ _ h]
      intro hpx
      have hxa : x ≠ ra := fun e => hpx (by rw [e]; exact hra)
      have h1 := inv.rk x hx hpx
      have h2 := hmono (nth uf.parent x)
      have h3 : nth (if nth uf.rank ra = nth uf.rank rb then uf.rank.set ra (nth uf.rank ra + 1)
          else uf.rank) x = nth uf.rank x := by
        split_ifs
        · exact nth_set_ne _ _ _ _ hxa
        · rfl
      omega

/-- The lambda `localUnite`: the classes of `a` and `b` are merged, the root `rb` of one of
them hangs under the root `ra` of the other, and the columns collected at `rb` are
added to those at `ra`. -/
theorem localUnite_spec (N : Nat) (uf : LocalUF) (rep : Nat → Nat) (h : Reps N uf rep)
    (a b : Nat) (ha : a < N) (hb : b < N) :
    ∃ uf1 ra rb, localUnite uf a b = some uf1 ∧
      ((ra = rep a ∧ rb = rep b) ∨ (ra = rep b ∧ rb = rep a)) ∧
      Reps N uf1 (fun x => if rep x = rb then ra else rep x) ∧
      (∀ c, c ∈ uf1.cols.getD ra [] ↔ c ∈ uf.cols.getD ra [] ∨ c ∈ uf.cols.getD rb []) ∧
      (∀ r, r ≠ ra → r ≠ rb → uf1.cols.getD r [] = uf.cols.getD r []) := by
  obtain ⟨uf1, f1, r1, k1, c1⟩ := localFind_reps N uf rep h a ha
  obtain ⟨uf2, f2, r2, k2, c2⟩ := localFind_reps N uf1 rep r1 b hb
  have hA := reps_lt N uf rep h a ha
  have hB := reps_lt N uf rep h b hb
  have rootA := reps_root N uf2 rep r2 a ha
  have rootB := reps_root N uf2 rep r2 b hb
  unfold localUnite
  rw [f1]
  dsimp only
  rw [f2]
  dsimp only
  by_cases heq : rep a = rep b
  · rw [if_pos heq]
    refine ⟨uf2, rep a, rep b, rfl, Or.inl ⟨rfl, rfl⟩, ?_, ?_, ?_⟩
    · have : (fun x => if rep x = rep b then rep a else rep x) = rep := by
        funext x
        split_ifs with e
        · rw [e, heq]
        · rfl
      rw [this]
      exact r2
    · intro c
      rw [c2, c1, heq]
      tauto
    · intro r _ _
      rw [c2, c1]
  · rw [if_neg heq]
    by_cases hlt : nth uf2.rank (rep a) < nth uf2.rank (rep b)
    · simp only [if_pos hlt]
      have hne : rep b ≠ rep a := fun e => heq e.symm
      have hcl : (uf2.cols.set (rep a)
          (if (uf2.cols.getD (rep b) []).length < (uf2.cols.getD (rep a) []).length
            then uf2.cols.getD (rep b) [] else uf2.cols.getD (rep a) [])).length = N := by
        simp [r2.1.clen]
      refine ⟨_, rep b, rep a, rfl, Or.inr ⟨rfl, rfl⟩, ⟨?_, ?_⟩, ?_, ?_⟩
      · exact inv_link N uf2 r2.1 (rep b) (rep a) hB hA rootB hne (by omega) _
          (by rw [List.length_set]; exact hcl)
      · intro x hx
        obtain ⟨k, hk, hr⟩ := r2.2 x hx
        exact repOf_link uf2.parent (rep b) (rep a) rootB rootA hne
          (by rw [r2.1.plen]; exact hA) k x (rep x) hk hr
      · intro c
        show c ∈ ((uf2.cols.set (rep a) _).set (rep b) _).getD (rep b) [] ↔ _
        rw [getD_set_eq _ _ _ (by rw [hcl]; exact hB), mem_foldl_usetInsert, ← c1, ← c2]
        split_ifs <;> tauto
      · intro r hra hrb
        show ((uf2.cols.set (rep a) _).set (rep b) _).getD r [] = _
        rw [getD_set_ne _ _ _ _ hra, getD_set_ne _ _ _ _ hrb, c2, c1]
    · simp only [if_neg hlt]
      have hcl : (uf2.cols.set (rep b)
          (if (uf2.cols.getD (rep a) []).length < (uf2.cols.getD (rep b) []).length
            then uf2.cols.getD (rep a) [] else uf2.cols.getD (rep b) [])).length = N := by
        simp [r2.1.clen]
      refine ⟨_, rep a, rep b, rfl, Or.inl ⟨rfl, rfl⟩, ⟨?_, ?_⟩, ?_, ?_⟩
      · exact inv_link N uf2 r2.1 (rep a) (rep b) hA hB rootA heq (by omega) _
          (by rw [List.length_set]; exact hcl)
      · intro x hx
        obtain ⟨k, hk, hr⟩ := r2.2 x hx
        exact repOf_link uf2.parent (rep a) (rep b) rootA rootB heq
          (by rw [r2.1.plen]; exact hB) k x (rep x) hk hr
      · intro c
        show c ∈ ((uf2.cols.set (rep b) _).set (rep a) _).getD (rep a) [] ↔ _
        rw [getD_set_eq _ _ _ (by rw [hcl]; exact hA), mem_foldl_usetInsert, ← c1, ← c2]
        split_ifs <;> tauto
      · intro r hra hrb
        show ((uf2.cols.set (rep b) _).set (rep a) _).getD r [] = _
        rw [getD_set_ne _ _ _ _ hra, getD_set_ne _ _ _ _ hrb, c2, c1]

/-! ## The loop of `rebuildLocally` over the columns -/

theorem linked_symm (done : List (Nat × List Nat)) : Symmetric (Linked done) := by
  rintro x y ⟨e, he, hx, hy⟩
  exact ⟨e, he, hy, hx⟩

theorem joined_symm (done : List (Nat × List Nat)) (x y : Nat)
    (h : Relation.ReflTransGen (Linked done) x y) : Relation.ReflTransGen (Linked done) y x :=
  Relation.ReflTransGen.symmetric (linked_symm done) h

theorem joined_mono (done : List (Nat × List Nat)) (e : Nat × List Nat) (x y : Nat)
    (h : Relation.ReflTransGen (Linked done) x y) :
    Relation.ReflTransGen (Linked (done ++ [e])) x y := by
  refine Relation.ReflTransGen.mono ?_ h
  rintro a b ⟨e0, he0, ha, hb⟩
  exact ⟨e0, List.mem_append_left _ he0, ha, hb⟩

/-- One union of the first row of a column with another row of it keeps the state of
the loop. -/
theorem rebuilding_unite (N : Nat) (doneS doneC : List (Nat × List Nat)) (uf : LocalUF)
    (rep : Nat → Nat) (h : Rebuilding N uf rep doneS doneC) (a b : Nat) (ha : a < N) (hb : b < N)
    (hab : Linked doneS a b) :
    ∃ uf1 rep1, localUnite uf a b = some uf1 ∧ Rebuilding N uf1 rep1 doneS doneC ∧
      rep1 a = rep1 b ∧ ∀ x y, rep x = rep y → rep1 x = rep1 y := by
  obtain ⟨uf1, ra, rb, h1, h2, h3, h4, h5⟩ := localUnite_spec N uf rep h.reps a b ha hb
  have hida := reps_idem N uf rep h.reps a ha
  have hidb := reps_idem N uf rep h.reps b hb
  have hlta := reps_lt N uf rep h.reps a ha
  have hltb := reps_lt N uf rep h.reps b hb
  have jab : Relation.ReflTransGen (Linked doneS) a b := Relation.ReflTransGen.single hab
  have jba := joined_symm doneS a b jab
  -- a node of root `rb` and a node of root `ra` are joined
  have cross : ∀ x y, x < N → y < N → rep x = rb → rep y = ra →
      Relation.ReflTransGen (Linked doneS) x y := by
    intro x y hx hy ex ey
    rcases h2 with ⟨e1, e2⟩ | ⟨e1, e2⟩
    · have j1 := h.sound x b hx hb (by rw [ex, e2])
      have j2 := h.sound a y ha hy (by rw [ey, e1])
      exact j1.trans (jba.trans j2)
    · have j1 := h.sound x a hx ha (by rw [ex, e2])
      have j2 := h.sound b y hb hy (by rw [ey, e1])
      exact j1.trans (jab.trans j2)
  have hra : ra < N ∧ rep ra = ra := by
    rcases h2 with ⟨e1, _⟩ | ⟨e1, _⟩
    · rw [e1]; exact ⟨hlta, hida⟩
    · rw [e1]; exact ⟨hltb, hidb⟩
  have hrb : rb < N ∧ rep rb = rb := by
    rcases h2 with ⟨_, e2⟩ | ⟨_, e2⟩
    · rw [e2]; exact ⟨hltb, hidb⟩
    · rw [e2]; exact ⟨hlta, hida⟩
  refine ⟨uf1, _, h1, ⟨h3, ?_, ?_, ?_⟩, ?_, ?_⟩
  · intro x y hx hy hxy
    by_cases ex : rep x = rb <;> by_cases ey : rep y = rb
    · exact h.sound x y hx hy (by rw [ex, ey])
    · rw [if_pos ex, if_neg ey] at hxy
      exact cross x y hx hy ex hxy.symm
    · rw [if_neg ex, if_pos ey] at hxy
      exact joined_symm doneS _ _ (cross y x hy hx ey hxy)
    · rw [if_neg ex, if_neg ey] at hxy
      exact h.sound x y hx hy hxy
  · intro e he x hx y hy
    rw [h.complete e he x hx y hy]
  · intro r hr hroot c
    by_cases hab1 : ra = rb
    · -- nothing was merged
      have hrep : ∀ x, (if rep x = rb then ra else rep x) = rep x := by
        intro x
        split_ifs with e
        · rw [hab1, e]
        · rfl
      simp only [hrep] at hroot ⊢
      by_cases hr1 : r = ra
      · rw [hr1, h4 c, ← hab1, ← h.cols ra hra.1 hra.2 c]
        tauto
      · rw [h5 r hr1 (by rw [← hab1]; exact hr1)]
        exact h.cols r hr hroot c
    · by_cases hr1 : r = ra
      · subst hr1
        rw [h4 c, h.cols r hra.1 hra.2 c, h.cols rb hrb.1 hrb.2 c]
        constructor
        · rintro (⟨e, he, hc, x, hx, hxr⟩ | ⟨e, he, hc, x, hx, hxr⟩)
          · refine ⟨e, he, hc, x, hx, ?_⟩
            rw [hxr, if_neg hab1]
          · refine ⟨e, he, hc, x, hx, ?_⟩
            rw [if_pos hxr]
        · rintro ⟨e, he, hc, x, hx, hxr⟩
          split_ifs at hxr with e1
          · exact Or.inr ⟨e, he, hc, x, hx, e1⟩
          · exact Or.inl ⟨e, he, hc, x, hx, hxr⟩
      · by_cases hr2 : rep r = rb
        · rw [if_pos hr2] at hroot
          exact absurd hroot.symm hr1
        · rw [if_neg hr2] at hroot
          have hr3 : r ≠ rb := fun e => hr2 (by rw [e]; exact hrb.2)
          rw [h5 r hr1 hr3, h.cols r hr hroot c]
          constructor
          · rintro ⟨e, he, hc, x, hx, hxr⟩
            refine ⟨e, he, hc, x, hx, ?_⟩
            rw [if_neg (by rw [hxr]; exact hr3), hxr]
          · rintro ⟨e, he, hc, x, hx, hxr⟩
            split_ifs at hxr with e1
            · exact absurd hxr.symm hr1
            · exact ⟨e, he, hc, x, hx, hxr⟩
  · have g : (if rep a = rb then ra else rep a) = if rep b = rb then ra else rep b := by
      rcases h2 with ⟨rfl, rfl⟩ | ⟨rfl, rfl⟩ <;> simp
    exact g
  · intro x y hxy
    simp only [hxy]

theorem uniteAll_spec (N : Nat) (doneS doneC : List (Nat × List Nat)) (firstRow : Nat)
    (hf : firstRow < N) :
    ∀ (l : List Nat) (uf : LocalUF) (rep : Nat → Nat), Rebuilding N uf rep doneS doneC →
      (∀ x ∈ l, x < N ∧ Linked doneS firstRow x) →
      ∃ uf1 rep1, uniteAll firstRow l uf = some uf1 ∧ Rebuilding N uf1 rep1 doneS doneC ∧
        (∀ x ∈ l, rep1 x = rep1 firstRow) ∧ ∀ x y, rep x = rep y → rep1 x = rep1 y := by
  intro l
  induction l with
  | nil =>
    intro uf rep h _
    exact ⟨uf, rep, rfl, h, by simp, fun _ _ e => e⟩
  | cons row rest ih =>
    intro uf rep h hl
    have hrest : ∀ x ∈ rest, x < N ∧ Linked doneS firstRow x :=
      fun x hx => hl x (List.mem_cons_of_mem _ hx)
    rw [uniteAll]
    by_cases hrow : row = firstRow
    · rw [if_neg (by simpa using hrow)]
      obtain ⟨uf1, rep1, h1, h2, h3, h4⟩ := ih uf rep h hrest
      refine ⟨uf1, rep1, h1, h2, ?_, h4⟩
      intro x hx
      rcases List.mem_cons.mp hx with hx | hx
      · rw [hx, hrow]
      · exact h3 x hx
    · rw [if_pos hrow]
      obtain ⟨hrN, hlink⟩ := hl row (List.mem_cons_self _ _)
      obtain ⟨uf1, rep1, u1, u2, u3, u4⟩ := rebuilding_unite N doneS doneC uf rep h firstRow row hf
        hrN hlink
      rw [u1]
      dsimp only
      obtain ⟨uf2, rep2, h1, h2, h3, h4⟩ := ih uf1 rep1 u2 hrest
      refine ⟨uf2, rep2, h1, h2, ?_, fun x y e => h4 x y (u4 x y e)⟩
      intro x hx
      rcases List.mem_cons.mp hx with hx | hx
      · rw [hx]
        exact (h4 _ _ u3).symm
      · exact h3 x hx

theorem rebuilding_mono (N : Nat) (uf : LocalUF) (rep : Nat → Nat)
    (done : List (Nat × List Nat)) (e : Nat × List Nat) (h : Rebuilding N uf rep done done) :
    Rebuilding N uf rep (done ++ [e]) done :=
  ⟨h.reps, fun x y hx hy hxy => joined_mono done e x y (h.sound x y hx hy hxy), h.complete, h.cols⟩

theorem reps_cols (N : Nat) (uf : LocalUF) (rep : Nat → Nat) (h : Reps N uf rep)
    (cols1 : List (List Nat)) (hc : cols1.length = N) : Reps N { uf with cols := cols1 } rep :=
  ⟨⟨h.1.plen, h.1.rlen, hc, h.1.plt, h.1.rk⟩, h.2⟩

/-- The end of the loop body for a column with rows: the column is added at the root of
its first row. -/
theorem finishCol (N : Nat) (done : List (Nat × List Nat)) (col : Nat) (rows : List Nat)
    (first : Nat) (hfirst : first ∈ rows) (hfN : first < N) (uf : LocalUF) (rep : Nat → Nat)
    (h : Rebuilding N uf rep (done ++ [(col, rows)]) done)
    (hsame : ∀ x ∈ rows, rep x = rep first) :
    ∃ uf1, localFind uf first = some (rep first, uf1) ∧
      Rebuilding N
        { uf1 with cols := uf1.cols.set (rep first) (usetInsert col (uf1.cols.getD (rep first) [])) }
        rep (done ++ [(col, rows)]) (done ++ [(col, rows)]) := by
  obtain ⟨uf1, f1, r1, _, c1⟩ := localFind_reps N uf rep h.reps first hfN
  have hlt := reps_lt N uf rep h.reps first hfN
  have hid := reps_idem N uf rep h.reps first hfN
  refine ⟨uf1, f1, ⟨reps_cols N uf1 rep r1 _ (by simp [r1.1.clen]), h.sound, ?_, ?_⟩⟩
  · intro e he x hx y hy
    rcases List.mem_append.mp he with he | he
    · exact h.complete e he x hx y hy
    · have he1 : e = (col, rows) := by simpa using he
      subst he1
      rw [hsame x hx, hsame y hy]
  · intro r hr hroot c
    show c ∈ (uf1.cols.set (rep first) _).getD r [] ↔ _
    by_cases hr1 : r = rep first
    · subst hr1
      rw [getD_set_eq _ _ _ (by rw [r1.1.clen]; exact hlt), mem_usetInsert, c1,
        h.cols (rep first) hlt hid c]
      constructor
      · rintro (hc | ⟨e, he, hc, x, hx, hxr⟩)
        · exact ⟨(col, rows), by simp, hc.symm, first, hfirst, rfl⟩
        · exact ⟨e, List.mem_append_left _ he, hc, x, hx, hxr⟩
      · rintro ⟨e, he, hc, x, hx, hxr⟩
        rcases List.mem_append.mp he with he | he
        · exact Or.inr ⟨e, he, hc, x, hx, hxr⟩
        · have he1 : e = (col, rows) := by simpa using he
          subst he1
          exact Or.inl hc.symm
    · rw [getD_set_ne _ _ _ _ hr1, c1, h.cols r hr hroot c]
      constructor
      · rintro ⟨e, he, hc, x, hx, hxr⟩
        exact ⟨e, List.mem_append_left _ he, hc, x, hx, hxr⟩
      · rintro ⟨e, he, hc, x, hx, hxr⟩
        rcases List.mem_append.mp he with he | he
        · exact ⟨e, he, hc, x, hx, hxr⟩
        · have he1 : e = (col, rows) := by simpa using he
          subst he1
          exact absurd (by rw [← hxr, hsame x hx]) hr1

theorem rebuildCols_spec (N : Nat) :
    ∀ (todo done : List (Nat × List Nat)) (uf : LocalUF) (rep : Nat → Nat),
      Rebuilding N uf rep done done → (∀ e ∈ todo, ∀ x ∈ e.2, x < N) →
      ∃ uf1 rep1, rebuildCols todo uf = some uf1 ∧
        Rebuilding N uf1 rep1 (done ++ todo) (done ++ todo) := by
  intro todo
  induction todo with
  | nil =>
    intro done uf rep h _
    exact ⟨uf, rep, rfl, by simpa using h⟩
  | cons e rest ih =>
    intro done uf rep h hN
    have hrest : ∀ e1 ∈ rest, ∀ x ∈ e1.2, x < N := fun e1 he1 => hN e1 (List.mem_cons_of_mem _ he1)
    have happ : done ++ e :: rest = (done ++ [e]) ++ rest := by simp
    rw [happ]
    obtain ⟨col, rows⟩ := e
    have hrows : ∀ x ∈ rows, x < N := hN (col, rows) (List.mem_cons_self _ _)
    cases rows with
    | nil =>
      rw [rebuildCols]
      apply ih
      · refine ⟨h.reps, fun x y hx hy hxy => joined_mono done _ x y (h.sound x y hx hy hxy), ?_, ?_⟩
        · intro e he x hx y hy
          rcases List.mem_append.mp he with he | he
          · exact h.complete e he x hx y hy
          · have he1 : e = (col, []) := by simpa using he
            subst he1
            cases hx
        · intro r hr hroot c
          rw [h.cols r hr hroot c]
          constructor
          · rintro ⟨e, he, hc, x, hx, hxr⟩
            exact ⟨e, List.mem_append_left _ he, hc, x, hx, hxr⟩
          · rintro ⟨e, he, hc, x, hx, hxr⟩
            rcases List.mem_append.mp he with he | he
            · exact ⟨e, he, hc, x, hx, hxr⟩
            · have he1 : e = (col, []) := by simpa using he
              subst he1
              cases hx
      · exact hrest
    | cons first tl =>
      have hfN : first < N := hrows first (List.mem_cons_self _ _)
      cases tl with
      | nil =>
        obtain ⟨uf1, f1, hreb⟩ := finishCol N done col [first] first (List.mem_cons_self _ _) hfN uf
          rep (rebuilding_mono N uf rep done _ h) (by simp)
        rw [rebuildCols]
        rw [f1]
        exact ih _ _ _ hreb hrest
      | cons second more =>
        obtain ⟨uf1, rep1, u1, u2, u3, _⟩ := uniteAll_spec N (done ++ [(col, first :: second :: more)])
          done first hfN (first :: second :: more) uf rep (rebuilding_mono N uf rep done _ h)
          (fun x hx => ⟨hrows x hx, (col, first :: second :: more), by simp,
            List.mem_cons_self _ _, hx⟩)
        obtain ⟨uf2, f2, hreb⟩ := finishCol N done col (first :: second :: more) first
          (List.mem_cons_self _ _) hfN uf1 rep1 u2 u3
        rw [rebuildCols] <;> try (intro hh; cases hh)
        rw [u1]
        dsimp only
        rw [f2]
        exact ih _ _ _ hreb hrest

/-- The method `rebuildLocally` on a list of columns whose rows are below `N`. -/
theorem rebuildLocally_spec (g : IncrementalConnectedGraph) (rows : List Nat)
    (hN : ∀ e ∈ localColumnToRows g rows, ∀ x ∈ e.2, x < g.N) :
    ∃ uf rep, g.rebuildLocally rows = some uf ∧
      Rebuilding g.N uf rep (localColumnToRows g rows) (localColumnToRows g rows) := by
  have h0 : Rebuilding g.N
      { parent := List.range g.N, rank := List.replicate g.N 0, cols := List.replicate g.N [] }
      id [] [] := by
    refine ⟨⟨⟨by simp, by simp, by simp, ?_, ?_⟩, ?_⟩, ?_, ?_, ?_⟩
    · intro x hx
      show nth (List.range g.N) x < g.N
      rw [nth_range _ _ hx]
      exact hx
    · intro x hx hne
      exact absurd (nth_range _ _ hx) hne
    · intro x hx
      exact repOf_root _ x (nth_range _ _ hx)
    · intro x y _ _ hxy
      have : x = y := hxy
      rw [this]
    · intro e he
      cases he
    · intro r _ _ c
      show c ∈ (List.replicate g.N ([] : List Nat)).getD r [] ↔ _
      rw [getD_replicate_nil]
      simp
  obtain ⟨uf, rep, h1, h2⟩ := rebuildCols_spec g.N (localColumnToRows g rows) [] _ id h0 hN
  exact ⟨uf, rep, h1, by simpa using h2⟩

/-! ## The column index of `rebuildLocally` -/

theorem colIndexed_congr (mp : List (Nat × List Nat)) (P Q : Nat → Nat → Prop)
    (hPQ : ∀ x c, P x c ↔ Q x c) (h : ColIndexed mp P) : ColIndexed mp Q :=
  ⟨fun e he x hx => (hPQ _ _).mp (h.1 e he x hx), fun e he x hx => h.2.1 e he x ((hPQ _ _).mpr hx),
    fun x c hx => h.2.2 x c ((hPQ _ _).mpr hx)⟩

theorem colIndexed_insert (mp : List (Nat × List Nat)) (P : Nat → Nat → Prop) (row col : Nat)
    (h : ColIndexed mp P) :
    ColIndexed (mapModify mp col (usetInsert row)) (fun x c => P x c ∨ (x = row ∧ c = col)) := by
  obtain ⟨h1, h2, h3⟩ := h
  by_cases hany : mp.any (fun e => decide (e.1 = col)) = true
  · have hmod : mapModify mp col (usetInsert row) =
        mp.map (fun e => if e.1 = col then (e.1, usetInsert row e.2) else e) := by
      unfold mapModify
      rw [if_pos hany]
    rw [hmod]
    refine ⟨?_, ?_, ?_⟩
    · intro e he x hx
      obtain ⟨e0, he0, hee⟩ := List.mem_map.mp he
      by_cases hk : e0.1 = col
      · rw [if_pos hk] at hee
        subst hee
        rcases (mem_usetInsert _ _ _).mp hx with hx | hx
        · exact Or.inr ⟨hx, hk⟩
        · exact Or.inl (h1 e0 he0 x hx)
      · rw [if_neg hk] at hee
        subst hee
        exact Or.inl (h1 e0 he0 x hx)
    · intro e he x hx
      obtain ⟨e0, he0, hee⟩ := List.mem_map.mp he
      by_cases hk : e0.1 = col
      · rw [if_pos hk] at hee
        subst hee
        apply (mem_usetInsert _ _ _).mpr
        rcases hx with hx | ⟨hx, _⟩
        · exact Or.inr (h2 e0 he0 x hx)
        · exact Or.inl hx
      · rw [if_neg hk] at hee
        subst hee
        rcases hx with hx | ⟨_, hx⟩
        · exact h2 e0 he0 x hx
        · exact absurd hx hk
    · intro x c hx
      have hex : ∃ e ∈ mp, e.1 = c := by
        rcases hx with hx | ⟨_, hx⟩
        · exact h3 x c hx
        · obtain ⟨e, he, hk⟩ := List.any_eq_true.mp hany
          exact ⟨e, he, by rw [hx]; simpa using hk⟩
      obtain ⟨e, he, hk⟩ := hex
      refine ⟨_, List.mem_map.mpr ⟨e, he, rfl⟩, ?_⟩
      split_ifs
      · exact hk
      · exact hk
  · have hno : ∀ e ∈ mp, e.1 ≠ col := by
      intro e he hk
      exact hany (List.any_eq_true.mpr ⟨e, he, by simpa using hk⟩)
    rw [mapModify_snoc mp col _ hno]
    have hnew : usetInsert row [] = [row] := by simp [usetInsert]
    rw [hnew]
    refine ⟨?_, ?_, ?_⟩
    · intro e he x hx
      rcases List.mem_append.mp he with he | he
      · exact Or.inl (h1 e he x hx)
      · have he1 : e = (col, [row]) := by simpa using he
        subst he1
        exact Or.inr ⟨by simpa using hx, rfl⟩
    · intro e he x hx
      rcases List.mem_append.mp he with he | he
      · rcases hx with hx | ⟨_, hx⟩
        · exact h2 e he x hx
        · exact absurd hx (hno e he)
      · have he1 : e = (col, [row]) := by simpa using he
        subst he1
        rcases hx with hx | ⟨hx, _⟩
        · obtain ⟨e0, he0, hk⟩ := h3 x col hx
          exact absurd hk (hno e0 he0)
        · simp [hx]
    · intro x c hx
      rcases hx with hx | ⟨_, hx⟩
      · obtain ⟨e, he, hk⟩ := h3 x c hx
        exact ⟨e, List.mem_append_left _ he, hk⟩
      · exact ⟨(col, [row]), by simp, hx.symm⟩

theorem colIndexed_row (row : Nat) : ∀ (cols : List Nat) (mp : List (Nat × List Nat))
    (P : Nat → Nat → Prop), ColIndexed mp P →
    ColIndexed (cols.foldl (fun mp2 col => mapModify mp2 col (usetInsert row)) mp)
      (fun x c => P x c ∨ (x = row ∧ c ∈ cols)) := by
  intro cols
  induction cols with
  | nil =>
    intro mp P h
    exact colIndexed_congr mp P _ (fun x c => by simp) h
  | cons col cols ih =>
    intro mp P h
    rw [List.foldl_cons]
    refine colIndexed_congr _ _ _ ?_ (ih _ _ (colIndexed_insert mp P row col h))
    intro x c
    simp only [List.mem_cons]
    constructor
    · rintro ((h1 | ⟨h1, h2⟩) | ⟨h1, h2⟩)
      · exact Or.inl h1
      · exact Or.inr ⟨h1, Or.inl h2⟩
      · exact Or.inr ⟨h1, Or.inr h2⟩
    · rintro (h1 | ⟨h1, h2 | h2⟩)
      · exact Or.inl (Or.inl h1)
      · exact Or.inl (Or.inr ⟨h1, h2⟩)
      · exact Or.inr ⟨h1, h2⟩

theorem colIndexed_rows (g : IncrementalConnectedGraph) :
    ∀ (rows : List Nat) (mp : List (Nat × List Nat)) (P : Nat → Nat → Prop), ColIndexed mp P →
    ColIndexed
      (rows.foldl
        (fun mp row =>
          if row ≥ g.N then mp
          else ((g.rowStates.getD row (RowState.mk [] [])).activeColumns).foldl
            (fun mp2 col => mapModify mp2 col (usetInsert row)) mp)
        mp)
      (fun x c => P x c ∨ (x ∈ rows ∧ x < g.N ∧ c ∈ g.active x)) := by
  intro rows
  induction rows with
  | nil =>
    intro mp P h
    exact colIndexed_congr mp P _ (fun x c => by simp) h
  | cons row rows ih =>
    intro mp P h
    rw [List.foldl_cons]
    by_cases hrow : row ≥ g.N
    · rw [if_pos hrow]
      refine colIndexed_congr _ _ _ ?_ (ih _ _ h)
      intro x c
      simp only [List.mem_cons]
      constructor
      · rintro (h1 | ⟨h1, h2, h3⟩)
        · exact Or.inl h1
        · exact Or.inr ⟨Or.inr h1, h2, h3⟩
      · rintro (h1 | ⟨h1 | h1, h2, h3⟩)
        · exact Or.inl h1
        · rw [h1] at h2; omega
        · exact Or.inr ⟨h1, h2, h3⟩
    · rw [if_neg hrow]
      refine colIndexed_congr _ _ _ ?_ (ih _ _ (colIndexed_row row _ mp P h))
      intro x c
      simp only [List.mem_cons]
      constructor
      · rintro ((h1 | ⟨h1, h2⟩) | ⟨h1, h2, h3⟩)
        · exact Or.inl h1
        · refine Or.inr ⟨Or.inl h1, by omega, ?_⟩
          rw [h1]
          exact h2
        · exact Or.inr ⟨Or.inr h1, h2, h3⟩
      · rintro (h1 | ⟨h1 | h1, h2, h3⟩)
        · exact Or.inl (Or.inl h1)
        · refine Or.inl (Or.inr ⟨h1, ?_⟩)
          rw [h1] at h3
          exact h3
        · exact Or.inr ⟨h1, h2, h3⟩

/-- The map `localColumnToRows` indexes the pairs of a row of `restrictedRows` below `N`
and an active column of it. -/
theorem localColumnToRows_spec (g : IncrementalConnectedGraph) (rows : List Nat) :
    ColIndexed (localColumnToRows g rows) (fun x c => x ∈ rows ∧ x < g.N ∧ c ∈ g.active x) := by
  have h0 : ColIndexed [] (fun _ _ => False) :=
    ⟨fun e he => (by cases he), fun e he => (by cases he), fun x c h => h.elim⟩
  refine colIndexed_congr _ _ _ ?_ (colIndexed_rows g rows [] _ h0)
  intro x c
  simp

/-! ## The grouping loop of `computeComponentsInRows` -/

theorem groupByRoot_spec (N : Nat) (uf : LocalUF) (rep : Nat → Nat) (h : Reps N uf rep) :
    ∀ (l pre : List Nat) (mp : List (Nat × List Nat)), GroupedByRoot rep mp pre →
      (∀ r ∈ l, r < N) →
      ∃ mp1, groupByRoot uf.parent l mp = some mp1 ∧ GroupedByRoot rep mp1 (pre ++ l) := by
  intro l
  induction l with
  | nil =>
    intro pre mp hg _
    exact ⟨mp, rfl, by simpa using hg⟩
  | cons row rest ih =>
    intro pre mp hg hl
    have hrest : ∀ r ∈ rest, r < N := fun r hr => hl r (List.mem_cons_of_mem _ hr)
    have happ : pre ++ row :: rest = (pre ++ [row]) ++ rest := by simp
    rw [happ, groupByRoot, reps_findRoot N uf rep h row (hl row (List.mem_cons_self _ _))]
    dsimp only
    apply ih _ _ _ hrest
    obtain ⟨g1, g2, g3⟩ := hg
    by_cases hany : mp.any (fun e => decide (e.1 = rep row)) = true
    · have hmod : mapModify mp (rep row) (fun l => l ++ [row]) =
          mp.map (fun e => if e.1 = rep row then (e.1, e.2 ++ [row]) else e) := by
        unfold mapModify
        rw [if_pos hany]
      rw [hmod]
      refine ⟨?_, ?_, ?_⟩
      · rw [List.pairwise_map]
        refine g1.imp ?_
        intro a b hab
        by_cases ha : a.1 = rep row <;> by_cases hb : b.1 = rep row <;> simp [ha, hb] <;> omega
      · intro e he
        obtain ⟨e0, he0, hee⟩ := List.mem_map.mp he
        obtain ⟨n1, n2⟩ := g2 e0 he0
        by_cases hk : e0.1 = rep row
        · rw [if_pos hk] at hee
          subst hee
          refine ⟨?_, by simp⟩
          show e0.2 ++ [row] = _
          rw [List.filter_append, ← n1]
          simp [hk]
        · rw [if_neg hk] at hee
          subst hee
          refine ⟨?_, n2⟩
          rw [List.filter_append, ← n1]
          have : ¬ rep row = e0.1 := fun e1 => hk e1.symm
          simp [this]
      · intro r hr
        have hex : ∃ e ∈ mp, e.1 = rep r := by
          rcases List.mem_append.mp hr with hr | hr
          · exact g3 r hr
          · have hrr : r = row := by simpa using hr
            subst hrr
            obtain ⟨e, he, hk⟩ := List.any_eq_true.mp hany
            exact ⟨e, he, by simpa using hk⟩
        obtain ⟨e, he, hk⟩ := hex
        refine ⟨_, List.mem_map.mpr ⟨e, he, rfl⟩, ?_⟩
        split_ifs
        · exact hk
        · exact hk
    · have hno : ∀ e ∈ mp, e.1 ≠ rep row := by
        intro e he hk
        exact hany (List.any_eq_true.mpr ⟨e, he, by simpa using hk⟩)
      rw [mapModify_snoc mp (rep row) _ hno]
      have hpre : pre.filter (fun r => decide (rep r = rep row)) = [] := by
        rw [List.filter_eq_nil_iff]
        intro r hr hk
        obtain ⟨e, he, hke⟩ := g3 r hr
        exact hno e he (by rw [hke]; simpa using hk)
      refine ⟨?_, ?_, ?_⟩
      · rw [List.pairwise_append]
        refine ⟨g1, List.pairwise_singleton _ _, ?_⟩
        intro a ha b hb
        have hb1 : b = (rep row, [] ++ [row]) := by simpa using hb
        rw [hb1]
        exact hno a ha
      · intro e he
        rcases List.mem_append.mp he with he | he
        · obtain ⟨n1, n2⟩ := g2 e he
          refine ⟨?_, n2⟩
          rw [List.filter_append, ← n1]
          have : ¬ rep row = e.1 := fun e1 => hno e he e1.symm
          simp [this]
        · have he1 : e = (rep row, [] ++ [row]) := by simpa using he
          subst he1
          refine ⟨?_, by simp⟩
          show [] ++ [row] = _
          rw [List.filter_append, hpre]
          simp
      · intro r hr
        rcases List.mem_append.mp hr with hr | hr
        · obtain ⟨e, he, hk⟩ := g3 r hr
          exact ⟨e, List.mem_append_left _ he, hk⟩
        · have hrr : r = row := by simpa using hr
          subst hrr
          exact ⟨(rep r, [] ++ [r]), by simp, rfl⟩

theorem toSet_spec (l : List Nat) : ∀ (init : List Nat), init.Sorted (· < ·) →
    (l.foldl (fun acc x => setInsert x acc) init).Sorted (· < ·) ∧
      ∀ c, c ∈ l.foldl (fun acc x => setInsert x acc) init ↔ (c ∈ init ∨ c ∈ l) := by
  induction l with
  | nil =>
    intro init hs
    simp [hs]
  | cons a l ih =>
    intro init hs
    rw [List.foldl_cons]
    obtain ⟨h1, h2⟩ := ih (setInsert a init) (sorted_setInsert _ _ hs)
    refine ⟨h1, ?_⟩
    intro c
    rw [h2 c, mem_setInsert]
    simp only [List.mem_cons]
    tauto

theorem mem_toSet (l : List Nat) (c : Nat) : c ∈ toSet l ↔ c ∈ l := by
  unfold toSet
  rw [(toSet_spec l [] List.sorted_nil).2 c]
  simp

theorem sorted_toSet (l : List Nat) : (toSet l).Sorted (· < ·) :=
  (toSet_spec l [] List.sorted_nil).1

/-! ## The blocks of `computeComponentsInRows` -/

/-- The blocks that `computeComponentsInRows(rows)` returns for rows below `N`: a partition
of `rows` into the classes of the rows joined by shared active columns, each with the
active columns of its rows. -/
theorem computeComponentsInRows_spec (g : IncrementalConnectedGraph) (rows : List Nat)
    (hv : ∀ r ∈ rows, r < g.N) :
    ∃ bs, g.computeComponentsInRows rows = some bs ∧
      (∀ b ∈ bs, b.rows ≠ [] ∧ b.rows.Sorted (· < ·) ∧ b.cols.Sorted (· < ·)) ∧
      bs.Pairwise (fun a b => ∀ r ∈ a.rows, r ∉ b.rows) ∧
      (∀ r, r ∈ rows ↔ ∃ b ∈ bs, r ∈ b.rows) ∧
      bs.Pairwise (fun a b => ∀ c ∈ a.cols, c ∉ b.cols) ∧
      (∀ b ∈ bs, ∀ u ∈ b.rows, ∀ v,
        v ∈ b.rows ↔ Relation.ReflTransGen (g.Share rows) u v) ∧
      (∀ b ∈ bs, ∀ c, c ∈ b.cols ↔ ∃ r ∈ b.rows, c ∈ g.active r) := by
  obtain ⟨i1, i2, i3⟩ := localColumnToRows_spec g rows
  obtain ⟨uf, rep, hreb, R⟩ := rebuildLocally_spec g rows (fun e he x hx => (i1 e he x hx).2.1)
  obtain ⟨mp, hgrp, G⟩ := groupByRoot_spec g.N uf rep R.reps rows [] []
    ⟨List.Pairwise.nil, by simp, by simp⟩ hv
  simp only [List.nil_append] at G
  obtain ⟨G1, G2, G3⟩ := G
  -- sharing a column and having one root
  have linked_share : ∀ x y, Linked (localColumnToRows g rows) x y → g.Share rows x y := by
    rintro x y ⟨e, he, hx, hy⟩
    exact ⟨(i1 e he x hx).1, (i1 e he y hy).1, e.1, (i1 e he x hx).2.2, (i1 e he y hy).2.2⟩
  have share_rep : ∀ x y, g.Share rows x y → rep x = rep y := by
    rintro x y ⟨hx, hy, c, hcx, hcy⟩
    obtain ⟨e, he, hk⟩ := i3 x c ⟨hx, hv x hx, hcx⟩
    exact R.complete e he x (i2 e he x ⟨hx, hv x hx, by rw [hk]; exact hcx⟩) y
      (i2 e he y ⟨hy, hv y hy, by rw [hk]; exact hcy⟩)
  have joined_rep : ∀ x y, Relation.ReflTransGen (g.Share rows) x y → rep x = rep y := by
    intro x y hxy
    induction hxy with
    | refl => rfl
    | tail _ hbc ih => rw [ih, share_rep _ _ hbc]
  have rep_joined : ∀ x y, x ∈ rows → y ∈ rows → rep x = rep y →
      Relation.ReflTransGen (g.Share rows) x y := by
    intro x y hx hy hxy
    exact Relation.ReflTransGen.mono linked_share (R.sound x y (hv x hx) (hv y hy) hxy)
  -- the entries of the map
  have rows_mem : ∀ e ∈ mp, ∀ r, r ∈ toSet e.2 ↔ r ∈ rows ∧ rep r = e.1 := by
    intro e he r
    rw [mem_toSet, (G2 e he).1, List.mem_filter]
    simp
  have key_rep : ∀ e ∈ mp, ∃ r, r ∈ rows ∧ rep r = e.1 := by
    intro e he
    obtain ⟨r, hr⟩ := List.exists_mem_of_ne_nil _ (G2 e he).2
    exact ⟨r, ((rows_mem e he r).mp ((mem_toSet _ _).mpr hr))⟩
  have cols_mem : ∀ e ∈ mp, ∀ c, c ∈ toSet (uf.cols.getD e.1 []) ↔
      ∃ r, r ∈ rows ∧ rep r = e.1 ∧ c ∈ g.active r := by
    intro e he c
    obtain ⟨r0, hr0, hk0⟩ := key_rep e he
    have hlt : e.1 < g.N := by rw [← hk0]; exact reps_lt g.N uf rep R.reps r0 (hv r0 hr0)
    have hroot : rep e.1 = e.1 := by rw [← hk0]; exact reps_idem g.N uf rep R.reps r0 (hv r0 hr0)
    rw [mem_toSet, R.cols e.1 hlt hroot c]
    constructor
    · rintro ⟨e1, he1, hc, x, hx, hxr⟩
      obtain ⟨q1, _, q3⟩ := i1 e1 he1 x hx
      exact ⟨x, q1, hxr, by rw [← hc]; exact q3⟩
    · rintro ⟨r, hr, hrk, hc⟩
      obtain ⟨e1, he1, hk⟩ := i3 r c ⟨hr, hv r hr, hc⟩
      exact ⟨e1, he1, hk, r, i2 e1 he1 r ⟨hr, hv r hr, by rw [hk]; exact hc⟩, hrk⟩
  have hperm := List.perm_insertionSort (fun a b : Block => a.rows.length ≥ b.rows.length)
    (mp.map (fun e => Block.mk (toSet e.2) (toSet (uf.cols.getD e.1 []))))
  have hmem : ∀ b, b ∈ (mp.map (fun e => Block.mk (toSet e.2)
      (toSet (uf.cols.getD e.1 [])))).insertionSort (fun a b => a.rows.length ≥ b.rows.length) ↔
      ∃ e ∈ mp, b = Block.mk (toSet e.2) (toSet (uf.cols.getD e.1 [])) := by
    intro b
    rw [hperm.mem_iff, List.mem_map]
    constructor
    · rintro ⟨e, he, hb⟩
      exact ⟨e, he, hb.symm⟩
    · rintro ⟨e, he, hb⟩
      exact ⟨e, he, hb.symm⟩
  have hcall : g.computeComponentsInRows rows =
      some ((mp.map (fun e => Block.mk (toSet e.2) (toSet (uf.cols.getD e.1 [])))).insertionSort
        (fun a b => a.rows.length ≥ b.rows.length)) := by
    unfold IncrementalConnectedGraph.computeComponentsInRows
    rw [hreb]
    dsimp only
    rw [hgrp]
  refine ⟨_, hcall, ?_, ?_, ?_, ?_, ?_, ?_⟩
  · intro b hb
    obtain ⟨e, he, rfl⟩ := (hmem b).mp hb
    refine ⟨?_, sorted_toSet _, sorted_toSet _⟩
    obtain ⟨r, hr, hk⟩ := key_rep e he
    intro hnil
    have := (rows_mem e he r).mpr ⟨hr, hk⟩
    rw [show (Block.mk (toSet e.2) (toSet (uf.cols.getD e.1 []))).rows = toSet e.2 from rfl] at hnil
    rw [hnil] at this
    cases this
  · rw [hperm.pairwise_iff (by
      intro a b hab r hr hr2
      exact hab r hr2 hr)]
    rw [List.pairwise_map]
    refine G1.imp_of_mem ?_
    intro a b ha hb hab r hr hr2
    have h1 := ((rows_mem a ha r).mp hr).2
    have h2 := ((rows_mem b hb r).mp hr2).2
    exact hab (h1.symm.trans h2)
  · intro r
    constructor
    · intro hr
      obtain ⟨e, he, hk⟩ := G3 r hr
      exact ⟨_, (hmem _).mpr ⟨e, he, rfl⟩, (rows_mem e he r).mpr ⟨hr, hk.symm⟩⟩
    · rintro ⟨b, hb, hr⟩
      obtain ⟨e, he, rfl⟩ := (hmem b).mp hb
      exact ((rows_mem e he r).mp hr).1
  · rw [hperm.pairwise_iff (by
      intro a b hab c hc hc2
      exact hab c hc2 hc)]
    rw [List.pairwise_map]
    refine G1.imp_of_mem ?_
    intro a b ha hb hab c hc hc2
    obtain ⟨r1, hr1, hk1, hc1⟩ := (cols_mem a ha c).mp hc
    obtain ⟨r2, hr2, hk2, hc2⟩ := (cols_mem b hb c).mp hc2
    have := share_rep r1 r2 ⟨hr1, hr2, c, hc1, hc2⟩
    exact hab (by rw [← hk1, ← hk2, this])
  · intro b hb u hu v
    obtain ⟨e, he, rfl⟩ := (hmem b).mp hb
    obtain ⟨hur, huk⟩ := (rows_mem e he u).mp hu
    constructor
    · intro hv1
      obtain ⟨hvr, hvk⟩ := (rows_mem e he v).mp hv1
      exact rep_joined u v hur hvr (by rw [huk, hvk])
    · intro hj
      have hvr : v ∈ rows := by
        cases hj with
        | refl => exact hur
        | tail _ hbc => exact hbc.2.1
      exact (rows_mem e he v).mpr ⟨hvr, by rw [← joined_rep u v hj, huk]⟩
  · intro b hb c
    obtain ⟨e, he, rfl⟩ := (hmem b).mp hb
    show c ∈ toSet (uf.cols.getD e.1 []) ↔ ∃ r ∈ toSet e.2, c ∈ g.active r
    rw [cols_mem e he c]
    constructor
    · rintro ⟨r, hr, hk, hc⟩
      exact ⟨r, (rows_mem e he r).mpr ⟨hr, hk⟩, hc⟩
    · rintro ⟨r, hr, hc⟩
      obtain ⟨h1, h2⟩ := (rows_mem e he r).mp hr
      exact ⟨r, h1, h2, hc⟩

/-- C29: for rows below `N`, `computeComponentsInRows(rows)` returns blocks whose row sets
are not empty, pairwise disjoint and have union `rows`, whose column sets are pairwise
disjoint, where the rows in the block of a row `u` are the rows joined to `u` by a
chain of rows of `rows` in which consecutive rows share an active column, and where
the columns of a block are the active columns of its rows. -/
theorem C29_computeComponentsInRows_partition (g : IncrementalConnectedGraph) (rows : List Nat)
    (hv : ∀ r ∈ rows, r < g.N) :
    ∃ bs, g.computeComponentsInRows rows = some bs ∧
      (∀ b ∈ bs, b.rows ≠ [] ∧ b.rows.Sorted (· < ·) ∧ b.cols.Sorted (· < ·)) ∧
      bs.Pairwise (fun a b => ∀ r ∈ a.rows, r ∉ b.rows) ∧
      (∀ r, r ∈ rows ↔ ∃ b ∈ bs, r ∈ b.rows) ∧
      bs.Pairwise (fun a b => ∀ c ∈ a.cols, c ∉ b.cols) ∧
      (∀ b ∈ bs, ∀ u ∈ b.rows, ∀ v,
        v ∈ b.rows ↔ Relation.ReflTransGen (g.Share rows) u v) ∧
      (∀ b ∈ bs, ∀ c, c ∈ b.cols ↔ ∃ r ∈ b.rows, c ∈ g.active r) :=
  computeComponentsInRows_spec g rows hv

/-- C29 on `sampleGraph` with all its three rows. -/
theorem C29_computeComponentsInRows_partition_witness :
    ∃ bs, sampleGraph.computeComponentsInRows [0, 1, 2] = some bs ∧
      (∀ b ∈ bs, b.rows ≠ [] ∧ b.rows.Sorted (· < ·) ∧ b.cols.Sorted (· < ·)) ∧
      bs.Pairwise (fun a b => ∀ r ∈ a.rows, r ∉ b.rows) ∧
      (∀ r, r ∈ [0, 1, 2] ↔ ∃ b ∈ bs, r ∈ b.rows) ∧
      bs.Pairwise (fun a b => ∀ c ∈ a.cols, c ∉ b.cols) ∧
      (∀ b ∈ bs, ∀ u ∈ b.rows, ∀ v,
        v ∈ b.rows ↔ Relation.ReflTransGen (sampleGraph.Share [0, 1, 2]) u v) ∧
      (∀ b ∈ bs, ∀ c, c ∈ b.cols ↔ ∃ r ∈ b.rows, c ∈ sampleGraph.active r) :=
  C29_computeComponentsInRows_partition sampleGraph [0, 1, 2] (by decide)

/-! # The frame of `DXD` -/

/-! ## What `coverInBlock` and `uncoverInBlock` write -/

theorem coverRow_shape (x : Nat) : ∀ (f : Nat) (m : DancingMatrix) (y : Nat) (r : DancingMatrix),
    coverRow x f m y = some r → r = { m with up := r.up, down := r.down, size := r.size } := by
  intro f
  induction f with
  | zero => intro m y r h; simp [coverRow] at h
  | succ f ih =>
    intro m y r h
    simp only [coverRow] at h
    split at h
    · cases h; rfl
    · exact (ih (m.unlinkV y) _ r h).trans rfl

theorem uncoverRow_shape (x : Nat) : ∀ (f : Nat) (m : DancingMatrix) (y : Nat) (r : DancingMatrix),
    uncoverRow x f m y = some r → r = { m with up := r.up, down := r.down, size := r.size } := by
  intro f
  induction f with
  | zero => intro m y r h; simp [uncoverRow] at h
  | succ f ih =>
    intro m y r h
    simp only [uncoverRow] at h
    split at h
    · cases h; rfl
    · exact (ih (m.relinkV y) _ r h).trans rfl

theorem coverInBlockLoop_shape (c : Nat) : ∀ (f : Nat) (m : DancingMatrix) (block : Block) (x : Nat)
    (r : DancingMatrix) (b : Block), coverInBlockLoop c f m block x = some (r, b) →
    r = { m with up := r.up, down := r.down, size := r.size,
                 incrementalGraph := r.incrementalGraph } ∧ b.cols = block.cols := by
  intro f
  induction f with
  | zero => intro m block x r b h; simp [coverInBlockLoop] at h
  | succ f ih =>
    intro m block x r b h
    simp only [coverInBlockLoop] at h
    split at h
    · cases h; exact ⟨rfl, rfl⟩
    · split at h
      · cases h
      · rename_i m2 hcr
        obtain ⟨h1, h2⟩ := ih _ _ _ r b h
        have h3 := coverRow_shape x _ _ _ m2 hcr
        refine ⟨?_, h2⟩
        rw [h3] at h1
        refine h1.trans ?_
        split <;> rfl

theorem uncoverInBlockLoop_shape (c : Nat) : ∀ (f : Nat) (m : DancingMatrix) (block : Block)
    (x : Nat) (r : DancingMatrix) (b : Block), uncoverInBlockLoop c f m block x = some (r, b) →
    r = { m with up := r.up, down := r.down, size := r.size,
                 incrementalGraph := r.incrementalGraph } ∧ b.cols = block.cols := by
  intro f
  induction f with
  | zero => intro m block x r b h; simp [uncoverInBlockLoop] at h
  | succ f ih =>
    intro m block x r b h
    simp only [uncoverInBlockLoop] at h
    split at h
    · cases h; exact ⟨rfl, rfl⟩
    · split at h
      · cases h
      · rename_i m1 hcr
        have h3 := uncoverRow_shape x _ _ _ m1 hcr
        obtain ⟨h1, h2⟩ := ih _ _ _ r b h
        refine ⟨?_, h2⟩
        refine h1.trans ?_
        rw [h3]
        split <;> rfl

/-- The method `coverInBlock` writes links, sizes and the union-find graph only, and
leaves `removed_rows` as it was. -/
theorem coverInBlock_touched (m : DancingMatrix) (c : Nat) (block : Block) (out : List Nat)
    (m1 : DancingMatrix) (b1 : Block) (out1 : List Nat)
    (h : m.coverInBlock c block out = some (m1, b1, out1)) : Touched m1 m ∧ out1 = out := by
  unfold DancingMatrix.coverInBlock at h
  dsimp only at h
  split at h
  · cases h
  · rename_i m2 b2 hloop
    cases h
    obtain ⟨h1, _⟩ := coverInBlockLoop_shape c _ _ _ _ m1 b1 hloop
    have hl0 := congrArg DancingMatrix.left h1
    have hr0 := congrArg DancingMatrix.right h1
    have hl : m1.left = (m.unlinkH c).left := hl0
    have hr : m1.right = (m.unlinkH c).right := hr0
    refine ⟨?_, rfl⟩
    unfold Touched
    rw [hl, hr]
    exact h1.trans rfl

theorem uncoverInBlock_touched (m : DancingMatrix) (c : Nat) (block : Block)
    (m1 : DancingMatrix) (b1 : Block) (h : m.uncoverInBlock c block = some (m1, b1)) :
    Touched m1 m := by
  unfold DancingMatrix.uncoverInBlock at h
  split at h
  · cases h
  · rename_i m2 b2 hloop
    cases h
    obtain ⟨h1, _⟩ := uncoverInBlockLoop_shape c _ _ _ _ m2 b2 hloop
    unfold Touched
    rw [h1]
    rfl

theorem auxEq_refl (m : DancingMatrix) : AuxEq m m := rfl

theorem auxEq_trans (m2 m1 m : DancingMatrix) (h2 : AuxEq m2 m1) (h1 : AuxEq m1 m) : AuxEq m2 m := by
  unfold AuxEq at *
  rw [h1] at h2
  exact h2.trans rfl

theorem uncoverRow_egs (x : Nat) (e : Bool) : ∀ (f : Nat) (m : DancingMatrix) (y : Nat),
    uncoverRow x f { m with enableGraphSync := e } y =
      (uncoverRow x f m y).map (fun r => { r with enableGraphSync := e }) := by
  intro f
  induction f with
  | zero => intro m y; rfl
  | succ f ih =>
    intro m y
    simp only [uncoverRow]
    split
    · rfl
    · exact ih (m.relinkV y) _

theorem uncoverLoop_egs (c : Nat) (e : Bool) : ∀ (f : Nat) (m : DancingMatrix) (x : Nat),
    uncoverLoop c f { m with enableGraphSync := e } x =
      (uncoverLoop c f m x).map (fun r => { r with enableGraphSync := e }) := by
  intro f
  induction f with
  | zero => intro m x; rfl
  | succ f ih =>
    intro m x
    simp only [uncoverLoop]
    split
    · rfl
    · have h := uncoverRow_egs x e m.fuel m (nth m.left x)
      have hf : DancingMatrix.fuel { m with enableGraphSync := e } = m.fuel := rfl
      rw [hf, h]
      cases uncoverRow x m.fuel m (nth m.left x) with
      | none => rfl
      | some m1 =>
        exact ih { m1 with rowsSet := setInsert (nth m1.row x) m1.rowsSet } (nth m1.up x)

/-! ## One `coverInBlock` and the `uncoverInBlock` that undoes it -/

theorem mem_setErase_sorted (s : List Nat) (c a : Nat) (hs : s.Sorted (· < ·)) :
    a ∈ setErase c s ↔ a ≠ c ∧ a ∈ s := by
  unfold setErase
  exact List.Nodup.mem_erase_iff (hs.imp (fun h => Nat.ne_of_lt h))

/-- On a block that meets the invariant, `coverInBlock(c, block, out)` of a column of the
block returns and keeps the invariant; from every state with the links reached,
`uncoverInBlock(c, block)` returns and gives back the links, the sizes and the
block. -/
theorem coverInBlock_spec (m : DancingMatrix) (hs : List Nat) (rg mt : Nat → List Nat)
    (block : Block) (c : Nat) (out : List Nat) (hB : BInv m hs rg mt block)
    (hc : c ∈ block.cols) :
    ∃ (m1 : DancingMatrix) (b1 : Block) (rem : List Nat),
      m.coverInBlock c block out = some (m1, b1, out) ∧
      BInv m1 (hs.erase c) (fun j => (rg j).filter (fun z => decide (z ∉ rem))) mt b1 ∧
      b1.cols = setErase c block.cols ∧
      (m1.col = m.col ∧ m1.row = m.row ∧ m1.COLS = m.COLS ∧ m1.nodes = m.nodes) ∧
      (∀ y ∈ rem, ∃ z ∈ rg c, y ∈ mt z) ∧
      (∀ m3, AuxEq m3 m1 → ∃ m2, m3.uncoverInBlock c b1 = some (m2, block) ∧ AuxEq m2 m ∧
        m2.enableGraphSync = m3.enableGraphSync) := by
  obtain ⟨hH, hV, hR, hL, hD, hsr, hsc, hcu, hrows, hcl, hhdr⟩ := hB
  have hch := hcu c hc
  have hcr := hH.2.2.2 c hch
  obtain ⟨hlk, hrc, hlc, hH1⟩ := HGood_unlinkH m hs c hH hR.1 hV.1.2.2 hch
  have hR1 := RowsGood_unlinkH m mt c hR hrc hlc
  have hV0 : VGood { m.unlinkH c with rowsSet := block.rows } rg := hV
  have hR0 : RowsGood { m.unlinkH c with rowsSet := block.rows } mt := hR1
  obtain ⟨r1, rem, j1, j2, j3, j4, j5, j6, j7, j8⟩ :=
    coverLoop_roundtrip c mt _ rg hV0 hR0 hcr.1 hcr.2
      (fun z hz y hy => (hL c hch z hz y hy).1) hsr (hrows c hc)
  obtain ⟨g, hg⟩ := coverInBlockLoop_sim c (m.unlinkH c).fuel (m.unlinkH c)
    { block with cols := setErase c block.cols } (nth (m.unlinkH c).down c) r1
    (m.unlinkH c).incrementalGraph j1
  have hcell : ∀ k, k ∈ hs → ∀ z ∈ rg k, m.COLS < z ∧ z < m.nodes ∧ nth m.col z = k := by
    intro k hk z hz
    have hk2 := hH.2.2.2 k hk
    exact (hV.2 k hk2.1 hk2.2).2.2.2 z hz
  have hkey : ∀ c1 ∈ hs, c1 ≠ c → ∀ x ∈ rg c1, x ∉ rem → ∀ z ∈ rg c, nth m.row z ≠ nth m.row x := by
    intro c1 hc1 hne x hx hxr z hz e
    have hxc := hcell c1 hc1 x hx
    have hzc := hcell c hch z hz
    have hxz : x ∈ mt z := ((hR.2 z hzc.1 hzc.2.1).2.2.2.2 x).mpr
      ⟨hxc.1, hxc.2.1, fun e2 => hne (by rw [← hxc.2.2, e2, hzc.2.2]), e.symm⟩
    exact hxr (j6 z hz x hxz (by show nth m.col x ≠ c; rw [hxc.2.2]; exact hne))
  have hlive1 : Live { r1 with incrementalGraph := g, rowsSet := (m.unlinkH c).rowsSet }
      (hs.erase c) (fun j => (rg j).filter (fun z => decide (z ∉ rem))) mt := by
    intro c1 hc1 x hx y hy
    have hc1b := (List.Nodup.mem_erase_iff hH.2.2.1).mp hc1
    have hx2 := (mem_filter_not_mem _ _ _).mp hx
    have hxc := hcell c1 hc1b.2 x hx2.1
    have hold := hL c1 hc1b.2 x hx2.1 y hy
    have hyc := ((hR.2 x hxc.1 hxc.2.1).2.2.2.2 y).mp hy
    have hrow := hkey c1 hc1b.2 hc1b.1 x hx2.1 hx2.2
    show y ∈ (rg (nth r1.col y)).filter (fun z => decide (z ∉ rem)) ∧ nth r1.col y ∈ hs.erase c
    rw [j3.2.2.1]
    show y ∈ (rg (nth m.col y)).filter (fun z => decide (z ∉ rem)) ∧ nth m.col y ∈ hs.erase c
    refine ⟨(mem_filter_not_mem _ _ _).mpr ⟨hold.1, ?_⟩,
      (List.Nodup.mem_erase_iff hH.2.2.1).mpr ⟨?_, hold.2⟩⟩
    · intro hyr
      obtain ⟨z, hz, hyz⟩ := j5 y hyr
      have hzc := hcell c hch z hz
      have := ((hR.2 z hzc.1 hzc.2.1).2.2.2.2 y).mp hyz
      exact hrow z hz (this.2.2.2.symm.trans hyc.2.2.2)
    · intro e
      have hyrg : y ∈ rg c := e ▸ hold.1
      exact hrow y hyrg hyc.2.2.2
  have hback := relinkH_unlinkH m c hlk
  refine ⟨{ r1 with incrementalGraph := g, rowsSet := (m.unlinkH c).rowsSet },
    { rows := r1.rowsSet, cols := setErase c block.cols }, rem, ?_, ?_, rfl, ?_, j5, ?_⟩
  · unfold DancingMatrix.coverInBlock
    simp only []
    rw [hg]
  · refine ⟨HGood_congr _ _ _ j3.1 j3.2.1 j3.2.2.2.2.1 hH1, j4,
      RowsGood_congr _ _ mt j3.1 j3.2.1 j3.2.2.1 j3.2.2.2.1 j3.2.2.2.2.1 hR0, hlive1, ?_, j7,
      sorted_setErase _ _ hsc, ?_, ?_, ?_, ?_⟩
    · intro x hx1 hx2 y hy
      show nth r1.col y ≠ nth r1.col x
      rw [j3.2.2.1]
      have hx1' : m.COLS < x := by
        have : r1.COLS = m.COLS := j3.2.2.2.2.1
        rw [← this]; exact hx1
      have hx2' : x < m.nodes := by
        have : r1.col = m.col := j3.2.2.1
        unfold DancingMatrix.nodes at hx2 ⊢
        rw [← this]; exact hx2
      exact hD x hx1' hx2' y hy
    · intro c1 hc1
      have h1 := (mem_setErase_sorted _ _ _ hsc).mp hc1
      exact (List.Nodup.mem_erase_iff hH.2.2.1).mpr ⟨h1.1, hcu c1 h1.2⟩
    · intro c1 hc1 x hx
      have h1 := (mem_setErase_sorted _ _ _ hsc).mp hc1
      have hx2 := (mem_filter_not_mem _ _ _).mp hx
      show nth r1.row x ∈ r1.rowsSet
      rw [j3.2.2.2.1]
      exact j8 _ (hrows c1 h1.2 x hx2.1) (hkey c1 (hcu c1 h1.2) h1.1 x hx2.1 hx2.2)
    · intro c1 hc1 x hx y hy
      have h1 := (mem_setErase_sorted _ _ _ hsc).mp hc1
      have hx2 := (mem_filter_not_mem _ _ _).mp hx
      have hl1 := hlive1 c1 ((List.Nodup.mem_erase_iff hH.2.2.1).mpr ⟨h1.1, hcu c1 h1.2⟩) x hx y hy
      have hne : nth r1.col y ≠ c := ((List.Nodup.mem_erase_iff hH.2.2.1).mp hl1.2).1
      show nth r1.col y ∈ setErase c block.cols
      refine (mem_setErase_sorted _ _ _ hsc).mpr ⟨hne, ?_⟩
      rw [j3.2.2.1]
      exact hcl c1 h1.2 x hx2.1 y hy
    · intro c1 hc1
      have h1 := (mem_setErase_sorted _ _ _ hsc).mp hc1
      show nth r1.col c1 = c1
      rw [j3.2.2.1]
      exact hhdr c1 h1.2
  · refine ⟨j3.2.2.1, j3.2.2.2.1, j3.2.2.2.2.1, ?_⟩
    have : r1.col = m.col := j3.2.2.1
    show r1.col.length = m.col.length
    rw [this]
  · intro m3 h3
    have hsim := uncoverInBlockLoop_sim c r1.fuel m3
      { rows := r1.rowsSet, cols := setErase c block.cols } (nth r1.up c)
      { m.unlinkH c with rowsSet := block.rows, enableGraphSync := m3.enableGraphSync }
      r1.incrementalGraph
      (by
        have e1 : ({ m3 with rowsSet := r1.rowsSet, incrementalGraph := r1.incrementalGraph } :
            DancingMatrix) = { r1 with enableGraphSync := m3.enableGraphSync } := by
          rw [h3]
        refine (congrArg (fun z => uncoverLoop c r1.fuel z (nth r1.up c)) e1).trans ?_
        show uncoverLoop c r1.fuel _ (nth r1.up c) = _
        rw [uncoverLoop_egs, j2]
        rfl)
    obtain ⟨g2, hg2⟩ := hsim
    have hfuel : m3.fuel = r1.fuel := by rw [h3]; rfl
    have hup : m3.up = r1.up := by rw [h3]
    have hrs : m3.rowsSet = m.rowsSet := by rw [h3]; rfl
    refine ⟨{ m with incrementalGraph := g2, enableGraphSync := m3.enableGraphSync }, ?_, rfl, rfl⟩
    unfold DancingMatrix.uncoverInBlock
    rw [hfuel, hup, hg2]
    dsimp only
    rw [hrs]
    have hblock : ({ rows := block.rows, cols := setInsert c (setErase c block.cols) } : Block) =
        block := by
      apply Block.ext
      · rfl
      · exact setInsert_erase _ _ hsc hc
    rw [hblock]
    have hm := congrArg (fun z : DancingMatrix =>
      ({ z with enableGraphSync := m3.enableGraphSync, incrementalGraph := g2 } : DancingMatrix)) hback
    exact congrArg (fun z => some (z, block)) hm

/-! ## The rows that `coverInBlock` takes out -/

theorem coverTrace_aux (c : Nat) (g : Option IncrementalConnectedGraph) (s : List Nat) :
    ∀ (f : Nat) (m : DancingMatrix) (x : Nat),
      coverTrace c f { m with incrementalGraph := g, rowsSet := s } x = coverTrace c f m x := by
  intro f
  induction f with
  | zero => intro m x; rfl
  | succ f ih =>
    intro m x
    simp only [coverTrace]
    split
    · rfl
    · have h := coverRow_aux x g s m.fuel m (nth m.right x)
      have hf : DancingMatrix.fuel { m with incrementalGraph := g, rowsSet := s } = m.fuel := rfl
      rw [hf]
      change (match coverRow x m.fuel { m with incrementalGraph := g, rowsSet := s }
          (nth m.right x) with
        | none => []
        | some m1 => nth m.row x :: coverTrace c f m1 (nth m1.down x)) = _
      rw [h]
      cases coverRow x m.fuel m (nth m.right x) with
      | none => rfl
      | some m1 =>
        simp only [Option.map_some']
        exact congrArg _ (ih m1 (nth m1.down x))

theorem uncoverTrace_aux (c : Nat) (g : Option IncrementalConnectedGraph) (s : List Nat) :
    ∀ (f : Nat) (m : DancingMatrix) (x : Nat),
      uncoverTrace c f { m with incrementalGraph := g, rowsSet := s } x = uncoverTrace c f m x := by
  intro f
  induction f with
  | zero => intro m x; rfl
  | succ f ih =>
    intro m x
    simp only [uncoverTrace]
    split
    · rfl
    · have h := uncoverRow_aux x g s m.fuel m (nth m.left x)
      have hf : DancingMatrix.fuel { m with incrementalGraph := g, rowsSet := s } = m.fuel := rfl
      rw [hf]
      change (match uncoverRow x m.fuel { m with incrementalGraph := g, rowsSet := s }
          (nth m.left x) with
        | none => []
        | some m1 => nth m.row x :: uncoverTrace c f m1 (nth m1.up x)) = _
      rw [h]
      cases uncoverRow x m.fuel m (nth m.left x) with
      | none => rfl
      | some m1 =>
        simp only [Option.map_some']
        exact congrArg _ (ih m1 (nth m1.up x))

/-- The column loop of `coverInBlock` erases the rows of its trace from `block.rows` and,
when the graph is kept in step, deactivates them in the union-find graph. -/
theorem coverInBlockLoop_trace (c : Nat) : ∀ (f : Nat) (m : DancingMatrix) (block : Block)
    (x : Nat) (m1 : DancingMatrix) (b1 : Block),
    coverInBlockLoop c f m block x = some (m1, b1) →
    b1.rows = (coverTrace c f m x).foldl (fun s r => setErase r s) block.rows ∧
    m1.incrementalGraph =
      (if (m.enableGraphSync && m.useIG) = true then
        m.incrementalGraph.map (fun g =>
          (coverTrace c f m x).foldl IncrementalConnectedGraph.deactivateRow g)
      else m.incrementalGraph) := by
  intro f
  induction f with
  | zero => intro m block x m1 b1 h; simp [coverInBlockLoop] at h
  | succ f ih =>
    intro m block x m1 b1 h
    simp only [coverInBlockLoop] at h
    simp only [coverTrace]
    by_cases hx : x = c
    · rw [if_pos hx] at h ⊢
      cases h
      refine ⟨rfl, ?_⟩
      split
      · simp
      · rfl
    · rw [if_neg hx] at h ⊢
      have key : ∀ g1 : Option IncrementalConnectedGraph,
          (match coverRow x m.fuel { m with incrementalGraph := g1, rowsSet := m.rowsSet }
              (nth m.right x) with
            | none => none
            | some m2 => coverInBlockLoop c f m2
                { block with rows := setErase (nth m.row x) block.rows } (nth m2.down x)) =
            some (m1, b1) →
          ∃ M0, coverRow x m.fuel m (nth m.right x) = some M0 ∧
            b1.rows = (coverTrace c f M0 (nth M0.down x)).foldl (fun s r => setErase r s)
              (setErase (nth m.row x) block.rows) ∧
            m1.incrementalGraph =
              (if (m.enableGraphSync && m.useIG) = true then
                g1.map (fun g => (coverTrace c f M0 (nth M0.down x)).foldl
                  IncrementalConnectedGraph.deactivateRow g)
              else g1) := by
        intro g1 h
        rw [coverRow_aux x g1 m.rowsSet m.fuel m (nth m.right x)] at h
        cases hcr : coverRow x m.fuel m (nth m.right x) with
        | none => rw [hcr] at h; simp at h
        | some M0 =>
          rw [hcr] at h
          simp only [Option.map_some'] at h
          have hsh := coverRow_shape x m.fuel m _ M0 hcr
          have he : M0.enableGraphSync = m.enableGraphSync := by rw [hsh]
          have hi : M0.useIG = m.useIG := by rw [hsh]
          obtain ⟨i1, i2⟩ := ih _ _ _ _ _ h
          rw [coverTrace_aux] at i1 i2
          refine ⟨M0, rfl, i1, ?_⟩
          rw [i2]
          show (if (M0.enableGraphSync && M0.useIG) = true then _ else g1) = _
          rw [he, hi]
      by_cases hfl : (m.enableGraphSync && m.useIG) = true
      · rw [if_pos hfl] at h
        obtain ⟨M0, hM0, k1, k2⟩ := key _ h
        rw [hM0]
        refine ⟨k1, ?_⟩
        rw [k2, if_pos hfl, if_pos hfl, Option.map_map]
        rfl
      · rw [if_neg hfl] at h
        obtain ⟨M0, hM0, k1, k2⟩ := key m.incrementalGraph h
        rw [hM0]
        refine ⟨k1, ?_⟩
        rw [k2, if_neg hfl, if_neg hfl]

/-- The column loop of `uncoverInBlock` inserts the rows of its trace into `block.rows`
and, when the graph is kept in step, reactivates them in the union-find graph. -/
theorem uncoverInBlockLoop_trace (c : Nat) : ∀ (f : Nat) (m : DancingMatrix) (block : Block)
    (x : Nat) (m1 : DancingMatrix) (b1 : Block),
    uncoverInBlockLoop c f m block x = some (m1, b1) →
    b1.rows = (uncoverTrace c f m x).foldl (fun s r => setInsert r s) block.rows ∧
    m1.incrementalGraph =
      (if (m.enableGraphSync && m.useIG) = true then
        m.incrementalGraph.map (fun g =>
          (uncoverTrace c f m x).foldl IncrementalConnectedGraph.reactivateRow g)
      else m.incrementalGraph) := by
  intro f
  induction f with
  | zero => intro m block x m1 b1 h; simp [uncoverInBlockLoop] at h
  | succ f ih =>
    intro m block x m1 b1 h
    simp only [uncoverInBlockLoop] at h
    simp only [uncoverTrace]
    by_cases hx : x = c
    · rw [if_pos hx] at h ⊢
      cases h
      refine ⟨rfl, ?_⟩
      split
      · simp
      · rfl
    · rw [if_neg hx] at h ⊢
      cases hcr : uncoverRow x m.fuel m (nth m.left x) with
      | none => rw [hcr] at h; simp at h
      | some M0 =>
        rw [hcr] at h
        dsimp only at h ⊢
        have hsh := uncoverRow_shape x m.fuel m _ M0 hcr
        have he : M0.enableGraphSync = m.enableGraphSync := by rw [hsh]
        have hi : M0.useIG = m.useIG := by rw [hsh]
        have hg : M0.incrementalGraph = m.incrementalGraph := by rw [hsh]
        have hflag : (M0.enableGraphSync && M0.useIG) = (m.enableGraphSync && m.useIG) := by
          rw [he, hi]
        have hta : ∀ (g1 : Option IncrementalConnectedGraph) (y : Nat),
            uncoverTrace c f ({ M0 with incrementalGraph := g1 } : DancingMatrix) y =
              uncoverTrace c f M0 y :=
          fun g1 y => uncoverTrace_aux c g1 M0.rowsSet f M0 y
        rw [List.foldl_cons, ← hflag, ← hg]
        by_cases hfl : (M0.enableGraphSync && M0.useIG) = true
        · rw [if_pos hfl] at h ⊢
          obtain ⟨i1, i2⟩ := ih _ _ _ _ _ h
          rw [hta] at i1 i2
          refine ⟨i1, ?_⟩
          rw [i2]
          show (if (M0.enableGraphSync && M0.useIG) = true then _ else _) = _
          rw [if_pos hfl, Option.map_map]
          rfl
        · rw [if_neg hfl] at h ⊢
          obtain ⟨i1, i2⟩ := ih _ _ _ _ _ h
          refine ⟨i1, ?_⟩
          rw [i2, if_neg hfl]

/-- On a matrix whose rows have their cells in distinct columns, the column loop of
`cover(c)`, entered at the live cell `x` of column `c`, stops at `x` and at every live
cell below it. -/
theorem coverTrace_spec (c : Nat) (mt : Nat → List Nat) :
    ∀ (post : List Nat) (m : DancingMatrix) (rg : Nat → List Nat) (pre : List Nat) (x f : Nat),
      VGood m rg → RowsGood m mt → 1 ≤ c → c ≤ m.COLS → rg c = pre ++ x :: post →
      (∀ z ∈ x :: post, ∀ y ∈ mt z, y ∈ rg (nth m.col y)) →
      (∀ z ∈ x :: post, ∀ y ∈ mt z, nth m.col y ≠ c) →
      post.length + 2 ≤ f →
      coverTrace c f m x = (x :: post).map (nth m.row) := by
  intro post
  induction post with
  | nil =>
    intro m rg pre x f hV hR hc1 hc2 hring hlive hdist hf
    have hVc : VRing m c (pre ++ [x]) := hring ▸ hV.2 c hc1 hc2
    have hx := hVc.2.2.2 x (by simp)
    have hxc : x ≠ c := by omega
    have hRx := hR.2 x hx.1 hx.2.1
    have hxn : x ∉ mt x := fun h => ((hRx.2.2.2.2 x).mp h).2.2.1 rfl
    have hlen : (mt x).length < m.fuel := by
      have := nodup_bounded_length m.nodes (mt x) hRx.2.2.2.1
        (fun y hy => ((hRx.2.2.2.2 y).mp hy).2.1)
      unfold DancingMatrix.fuel; unfold DancingMatrix.nodes at this; omega
    have hcr := coverRow_eq x (mt x) x m m.fuel hRx.2.1 hxn hlen
    have hys : ∀ y ∈ mt x, (1 ≤ nth m.col y ∧ nth m.col y ≤ m.COLS) ∧ y ∈ rg (nth m.col y) := by
      intro y hy
      have hy1 := (hRx.2.2.2.2 y).mp hy
      exact ⟨(hR.2 y hy1.1 hy1.2.1).1, hlive x (List.mem_cons_self _ _) y hy⟩
    obtain ⟨hVM, _⟩ := foldl_unlinkV_roundtrip (mt x) m rg hV hys hRx.2.2.2.1
    have hs := foldl_unlinkV_static (mt x) m
    have hfilt : (pre ++ [x]).filter (fun z => decide (z ∉ mt x)) = pre ++ [x] := by
      rw [List.filter_eq_self]
      intro z hz
      have hzc := hVc.2.2.2 z hz
      simp only [decide_eq_true_eq]
      intro hzm
      exact hdist x (List.mem_cons_self _ _) z hzm hzc.2.2
    have hr2 : VRing ((mt x).foldl DancingMatrix.unlinkV m) c (pre ++ [x]) := by
      have := hVM.2 c hc1 (by rw [hs.2.2.2.2.1]; exact hc2)
      simp only [hring, hfilt] at this
      exact this
    have hdown : nth ((mt x).foldl DancingMatrix.unlinkV m).down x = c :=
      (vring_ptr _ c x pre [] hr2).1
    obtain ⟨f2, rfl⟩ : ∃ f2, f = f2 + 1 + 1 := ⟨f - 2, by simp at hf; omega⟩
    rw [coverTrace, if_neg hxc, hcr]
    simp only [hdown, coverTrace, if_true, List.map_cons, List.map_nil]
  | cons x2 post ih =>
    intro m rg pre x f hV hR hc1 hc2 hring hlive hdist hf
    have hVc : VRing m c (pre ++ x :: x2 :: post) := hring ▸ hV.2 c hc1 hc2
    have hx := hVc.2.2.2 x (by simp)
    have hxc : x ≠ c := by omega
    have hRx := hR.2 x hx.1 hx.2.1
    have hxn : x ∉ mt x := fun h => ((hRx.2.2.2.2 x).mp h).2.2.1 rfl
    have hlen : (mt x).length < m.fuel := by
      have := nodup_bounded_length m.nodes (mt x) hRx.2.2.2.1
        (fun y hy => ((hRx.2.2.2.2 y).mp hy).2.1)
      unfold DancingMatrix.fuel; unfold DancingMatrix.nodes at this; omega
    have hcr := coverRow_eq x (mt x) x m m.fuel hRx.2.1 hxn hlen
    have hys : ∀ y ∈ mt x, (1 ≤ nth m.col y ∧ nth m.col y ≤ m.COLS) ∧ y ∈ rg (nth m.col y) := by
      intro y hy
      have hy1 := (hRx.2.2.2.2 y).mp hy
      exact ⟨(hR.2 y hy1.1 hy1.2.1).1, hlive x (List.mem_cons_self _ _) y hy⟩
    obtain ⟨hVM, _⟩ := foldl_unlinkV_roundtrip (mt x) m rg hV hys hRx.2.2.2.1
    have hs := foldl_unlinkV_static (mt x) m
    have hfilt : (pre ++ x :: x2 :: post).filter (fun z => decide (z ∉ mt x)) =
        pre ++ x :: x2 :: post := by
      rw [List.filter_eq_self]
      intro z hz
      have hzc := hVc.2.2.2 z hz
      simp only [decide_eq_true_eq]
      intro hzm
      exact hdist x (List.mem_cons_self _ _) z hzm hzc.2.2
    have hr2 : VRing ((mt x).foldl DancingMatrix.unlinkV m) c (pre ++ x :: x2 :: post) := by
      have := hVM.2 c hc1 (by rw [hs.2.2.2.2.1]; exact hc2)
      simp only [hring, hfilt] at this
      exact this
    have hdown : nth ((mt x).foldl DancingMatrix.unlinkV m).down x = x2 :=
      (vring_ptr _ c x pre (x2 :: post) hr2).1
    obtain ⟨f1, rfl⟩ : ∃ f1, f = f1 + 1 := ⟨f - 1, by omega⟩
    rw [coverTrace, if_neg hxc, hcr]
    simp only [hdown, List.map_cons]
    have hnd := hVc.2.2.1
    have hxpost : x ∉ x2 :: post := by
      have := (List.nodup_append.mp hnd).2.1
      exact (List.nodup_cons.mp this).1
    have hrec := ih ((mt x).foldl DancingMatrix.unlinkV m)
      (fun k => (rg k).filter (fun z => decide (z ∉ mt x))) (pre ++ [x]) x2 f1 hVM
      (RowsGood_congr m _ mt hs.1 hs.2.1 hs.2.2.1 hs.2.2.2.1 hs.2.2.2.2.1 hR) hc1
      (by rw [hs.2.2.2.2.1]; exact hc2)
      (by
        show (rg c).filter (fun z => decide (z ∉ mt x)) = _
        rw [hring, hfilt]; simp)
      (by
        intro z hz y hy
        rw [hs.2.2.1]
        have hzmem : z ∈ pre ++ x :: x2 :: post :=
          List.mem_append_right _ (List.mem_cons_of_mem _ hz)
        have hzc := hVc.2.2.2 z hzmem
        refine (mem_filter_not_mem _ _ _).mpr ⟨hlive z (List.mem_cons_of_mem _ hz) y hy, ?_⟩
        intro hyx
        have hzy : z ∈ mt y := mates_symm m mt hR z y ⟨hzc.1, hzc.2.1⟩ hy
        rcases mates_trans m mt hR x y z ⟨hx.1, hx.2.1⟩ hyx hzy with e | h
        · exact hxpost (e ▸ hz)
        · exact hdist x (List.mem_cons_self _ _) z h hzc.2.2)
      (by
        intro z hz y hy
        rw [hs.2.2.1]
        exact hdist z (List.mem_cons_of_mem _ hz) y hy)
      (by simp at hf ⊢; omega)
    rw [hrec, hs.2.2.2.1]
    rfl

/-- The rows that `coverInBlock(c, ...)` erases from the block and deactivates in the
union-find graph are the rows of the live cells of column `c`. -/
theorem coverInBlock_rows (m : DancingMatrix) (hs : List Nat) (rg mt : Nat → List Nat)
    (block : Block) (c : Nat) (out : List Nat) (m1 : DancingMatrix) (b1 : Block)
    (hB : BInv m hs rg mt block) (hc : c ∈ block.cols)
    (hcov : m.coverInBlock c block out = some (m1, b1, out)) :
    b1.rows = ((rg c).map (nth m.row)).foldl (fun s r => setErase r s) block.rows ∧
    m1.incrementalGraph =
      (if (m.enableGraphSync && m.useIG) = true then
        m.incrementalGraph.map (fun g =>
          ((rg c).map (nth m.row)).foldl IncrementalConnectedGraph.deactivateRow g)
      else m.incrementalGraph) := by
  have hch := hB.cols_unc c hc
  have hcr := hB.hgood.2.2.2 c hch
  obtain ⟨hlk, hrc, hlc, hH1⟩ := HGood_unlinkH m hs c hB.hgood hB.rgood.1 hB.vgood.1.2.2 hch
  have hR1 := RowsGood_unlinkH m mt c hB.rgood hrc hlc
  have hV0 : VGood (m.unlinkH c) rg := hB.vgood
  have hVc := hB.vgood.2 c hcr.1 hcr.2
  have htrace : coverTrace c (m.unlinkH c).fuel (m.unlinkH c) (nth (m.unlinkH c).down c) =
      (rg c).map (nth m.row) := by
    rcases hrg : rg c with _ | ⟨x, post⟩
    · rw [hrg] at hVc
      have hd : nth (m.unlinkH c).down c = c := (vring_ends m c [] hVc).1
      rw [hd]
      simp [coverTrace, DancingMatrix.fuel]
    · rw [hrg] at hVc
      have hd : nth (m.unlinkH c).down c = x := (vring_ends m c _ hVc).1
      rw [hd]
      have hlen : (x :: post).length ≤ m.nodes :=
        nodup_bounded_length m.nodes _ hVc.2.2.1 (fun z hz => (hVc.2.2.2 z hz).2.1)
      exact coverTrace_spec c mt post (m.unlinkH c) rg [] x _ hV0 hR1 hcr.1 hcr.2
        (by rw [hrg]; rfl)
        (by
          intro z hz y hy
          exact (hB.live c hch z (by rw [hrg]; exact hz) y hy).1)
        (by
          intro z hz y hy
          have hzc := hVc.2.2.2 z hz
          have := hB.distinct z hzc.1 hzc.2.1 y hy
          rw [hzc.2.2] at this
          exact this)
        (by
          show post.length + 2 ≤ m.col.length + 1
          simp at hlen
          unfold DancingMatrix.nodes at hlen
          omega)
  unfold DancingMatrix.coverInBlock at hcov
  dsimp only at hcov
  split at hcov
  · cases hcov
  · rename_i m2 b2 hloop
    cases hcov
    obtain ⟨i1, i2⟩ := coverInBlockLoop_trace c _ _ _ _ _ _ hloop
    rw [htrace] at i1 i2
    exact ⟨i1, i2⟩

/-- The method `uncoverInBlock(c, ...)` inserts rows into the block and, when the graph
is kept in step, reactivates the same rows in the union-find graph. -/
theorem uncoverInBlock_rows (m : DancingMatrix) (c : Nat) (block : Block) (m2 : DancingMatrix)
    (b2 : Block) (h : m.uncoverInBlock c block = some (m2, b2)) :
    ∃ T : List Nat, b2.rows = T.foldl (fun s r => setInsert r s) block.rows ∧
      m2.incrementalGraph =
        (if (m.enableGraphSync && m.useIG) = true then
          m.incrementalGraph.map (fun g => T.foldl IncrementalConnectedGraph.reactivateRow g)
        else m.incrementalGraph) := by
  unfold DancingMatrix.uncoverInBlock at h
  split at h
  · cases h
  · rename_i m1 b1 hloop
    cases h
    obtain ⟨i1, i2⟩ := uncoverInBlockLoop_trace c _ _ _ _ _ _ hloop
    exact ⟨_, i1, i2⟩

/-! ## Folds of set and graph updates -/

theorem mem_foldl_setErase : ∀ (T S : List Nat) (r : Nat), S.Nodup →
    (r ∈ T.foldl (fun s x => setErase x s) S ↔ r ∈ S ∧ r ∉ T) := by
  intro T
  induction T with
  | nil => intro S r _; simp
  | cons a rest ih =>
    intro S r hS
    rw [List.foldl_cons, ih (setErase a S) r (List.Nodup.erase a hS)]
    unfold setErase
    rw [List.Nodup.mem_erase_iff hS]
    simp only [List.mem_cons, not_or]
    tauto

theorem mem_foldl_setInsert : ∀ (T S : List Nat) (r : Nat),
    (r ∈ T.foldl (fun s x => setInsert x s) S ↔ r ∈ S ∨ r ∈ T) := by
  intro T
  induction T with
  | nil => intro S r; simp
  | cons a rest ih =>
    intro S r
    rw [List.foldl_cons, ih (setInsert a S) r, mem_setInsert]
    simp only [List.mem_cons]
    tauto

theorem foldl_usetInsert_nodup : ∀ (A pre : List Nat), (pre ++ A).Nodup →
    A.foldl (fun acc c => usetInsert c acc) pre = pre ++ A := by
  intro A
  induction A with
  | nil => intro pre _; simp
  | cons a rest ih =>
    intro pre h
    have ha : a ∉ pre := by
      intro hm
      exact (List.nodup_append.mp h).2.2 hm (List.mem_cons_self _ _)
    rw [List.foldl_cons]
    have hu : usetInsert a pre = pre ++ [a] := by
      unfold usetInsert
      rw [if_neg ha]
    rw [hu, ih (pre ++ [a]) (by simpa using h)]
    simp

theorem deactivated_idem (st : RowState) : st.deactivated.deactivated = st.deactivated := rfl

theorem reactivated_idem (st : RowState) : st.reactivated.reactivated = st.reactivated := rfl

theorem deactivated_default : (RowState.mk [] []).deactivated = RowState.mk [] [] := rfl

theorem reactivated_default : (RowState.mk [] []).reactivated = RowState.mk [] [] := rfl

theorem reactivated_deactivated (st : RowState) (h1 : st.removedColumns = [])
    (h2 : st.activeColumns.Nodup) : st.deactivated.reactivated = st := by
  cases st with
  | mk a r =>
    simp only at h1 h2
    subst h1
    unfold RowState.deactivated RowState.reactivated
    simp only
    rw [foldl_usetInsert_nodup a [] (by simpa using h2)]
    simp only [List.nil_append]
    rw [foldl_usetInsert_nodup a [] (by simpa using h2)]
    simp

theorem reactivated_self (st : RowState) (h1 : st.removedColumns = []) : st.reactivated = st := by
  cases st with
  | mk a r =>
    simp only at h1
    subst h1
    rfl

theorem getD_set_rowState (l : List RowState) (i j : Nat) (v : RowState) :
    (l.set i v).getD j (RowState.mk [] []) =
      if i = j ∧ j < l.length then v else l.getD j (RowState.mk [] []) := by
  simp only [List.getD_eq_getElem?_getD, List.getElem?_set]
  by_cases h1 : i = j
  · subst h1
    by_cases h2 : i < l.length
    · rw [if_pos rfl, if_pos h2, if_pos ⟨rfl, h2⟩]; rfl
    · rw [if_pos rfl, if_neg h2, if_neg (fun hh => h2 hh.2), List.getElem?_eq_none (by omega)]
  · rw [if_neg h1, if_neg (fun hh => h1 hh.1)]

theorem deactivateRow_getD (g : IncrementalConnectedGraph) (r i : Nat) :
    (g.deactivateRow r).rowStates.getD i (RowState.mk [] []) =
      if i = r then (g.rowStates.getD i (RowState.mk [] [])).deactivated
      else g.rowStates.getD i (RowState.mk [] []) := by
  unfold IncrementalConnectedGraph.deactivateRow
  simp only
  rw [getD_set_rowState]
  by_cases h : i = r
  · subst h
    by_cases hl : i < g.rowStates.length
    · rw [if_pos ⟨rfl, hl⟩, if_pos rfl]; rfl
    · rw [if_neg (fun hh => hl hh.2), if_pos rfl]
      have : g.rowStates.getD i (RowState.mk [] []) = RowState.mk [] [] := by
        rw [List.getD_eq_getElem?_getD, List.getElem?_eq_none (by omega)]; rfl
      rw [this]; rfl
  · rw [if_neg (fun hh => h hh.1.symm), if_neg h]

theorem reactivateRow_getD (g : IncrementalConnectedGraph) (r i : Nat) :
    (g.reactivateRow r).rowStates.getD i (RowState.mk [] []) =
      if i = r then (g.rowStates.getD i (RowState.mk [] [])).reactivated
      else g.rowStates.getD i (RowState.mk [] []) := by
  unfold IncrementalConnectedGraph.reactivateRow
  simp only
  rw [getD_set_rowState]
  by_cases h : i = r
  · subst h
    by_cases hl : i < g.rowStates.length
    · rw [if_pos ⟨rfl, hl⟩, if_pos rfl]; rfl
    · rw [if_neg (fun hh => hl hh.2), if_pos rfl]
      have : g.rowStates.getD i (RowState.mk [] []) = RowState.mk [] [] := by
        rw [List.getD_eq_getElem?_getD, List.getElem?_eq_none (by omega)]; rfl
      rw [this]; rfl
  · rw [if_neg (fun hh => h hh.1.symm), if_neg h]

theorem foldl_deactivateRow : ∀ (T : List Nat) (g : IncrementalConnectedGraph),
    (T.foldl IncrementalConnectedGraph.deactivateRow g).N = g.N ∧
    (T.foldl IncrementalConnectedGraph.deactivateRow g).rowStates.length = g.rowStates.length ∧
    ∀ i, (T.foldl IncrementalConnectedGraph.deactivateRow g).rowStates.getD i (RowState.mk [] []) =
      if i ∈ T then (g.rowStates.getD i (RowState.mk [] [])).deactivated
      else g.rowStates.getD i (RowState.mk [] []) := by
  intro T
  induction T with
  | nil => intro g; simp
  | cons a rest ih =>
    intro g
    obtain ⟨h1, h2, h3⟩ := ih (g.deactivateRow a)
    rw [List.foldl_cons]
    refine ⟨h1, ?_, ?_⟩
    · rw [h2]; unfold IncrementalConnectedGraph.deactivateRow; simp
    · intro i
      rw [h3 i, deactivateRow_getD]
      by_cases hia : i = a
      · rw [if_pos hia]
        simp only [hia, List.mem_cons, true_or, if_true, deactivated_idem, ite_self]
      · rw [if_neg hia]
        simp only [List.mem_cons, hia, false_or]

theorem foldl_reactivateRow : ∀ (T : List Nat) (g : IncrementalConnectedGraph),
    (T.foldl IncrementalConnectedGraph.reactivateRow g).N = g.N ∧
    (T.foldl IncrementalConnectedGraph.reactivateRow g).rowStates.length = g.rowStates.length ∧
    ∀ i, (T.foldl IncrementalConnectedGraph.reactivateRow g).rowStates.getD i (RowState.mk [] []) =
      if i ∈ T then (g.rowStates.getD i (RowState.mk [] [])).reactivated
      else g.rowStates.getD i (RowState.mk [] []) := by
  intro T
  induction T with
  | nil => intro g; simp
  | cons a rest ih =>
    intro g
    obtain ⟨h1, h2, h3⟩ := ih (g.reactivateRow a)
    rw [List.foldl_cons]
    refine ⟨h1, ?_, ?_⟩
    · rw [h2]; unfold IncrementalConnectedGraph.reactivateRow; simp
    · intro i
      rw [h3 i, reactivateRow_getD]
      by_cases hia : i = a
      · rw [if_pos hia]
        simp only [hia, List.mem_cons, true_or, if_true, reactivated_idem, ite_self]
      · rw [if_neg hia]
        simp only [List.mem_cons, hia, false_or]

theorem rowStates_ext (l1 l2 : List RowState) (hl : l1.length = l2.length)
    (h : ∀ i, l1.getD i (RowState.mk [] []) = l2.getD i (RowState.mk [] [])) : l1 = l2 := by
  apply List.ext_getElem hl
  intro n h1 h2
  have := h n
  rw [List.getD_eq_getElem _ _ h1, List.getD_eq_getElem _ _ h2] at this
  exact this

/-- Reactivating the rows `T2` after deactivating the rows `T1` gives the graph back when
every row of `T1` is in `T2`, no row of either has a removed column, and the active
columns of the rows of `T1` are distinct. -/
theorem foldl_reactivate_deactivate (T1 T2 : List Nat) (g : IncrementalConnectedGraph)
    (h1 : ∀ r ∈ T1, r ∈ T2)
    (h2 : ∀ r ∈ T2, (g.rowStates.getD r (RowState.mk [] [])).removedColumns = [])
    (h3 : ∀ r ∈ T1, (g.rowStates.getD r (RowState.mk [] [])).activeColumns.Nodup) :
    T2.foldl IncrementalConnectedGraph.reactivateRow
      (T1.foldl IncrementalConnectedGraph.deactivateRow g) = g := by
  obtain ⟨a1, a2, a3⟩ := foldl_deactivateRow T1 g
  obtain ⟨b1, b2, b3⟩ := foldl_reactivateRow T2 (T1.foldl IncrementalConnectedGraph.deactivateRow g)
  have hN := b1.trans a1
  have hrows : (T2.foldl IncrementalConnectedGraph.reactivateRow
      (T1.foldl IncrementalConnectedGraph.deactivateRow g)).rowStates = g.rowStates := by
    apply rowStates_ext _ _ (b2.trans a2)
    intro i
    rw [b3 i, a3 i]
    by_cases hi2 : i ∈ T2
    · rw [if_pos hi2]
      by_cases hi1 : i ∈ T1
      · rw [if_pos hi1]
        exact reactivated_deactivated _ (h2 i hi2) (h3 i hi1)
      · rw [if_neg hi1]
        exact reactivated_self _ (h2 i hi2)
    · rw [if_neg hi2, if_neg (fun hh => hi2 (h1 i hh))]
  generalize T2.foldl IncrementalConnectedGraph.reactivateRow
      (T1.foldl IncrementalConnectedGraph.deactivateRow g) = g2 at hN hrows
  cases g2
  cases g
  simp only at hN hrows
  subst hN
  subst hrows
  rfl

/-! ## The detectors under `coverInBlock` -/

/-- The rows of the block after `coverInBlock(c, ...)`: the rows of the block that have
no live cell in column `c`. -/
theorem coverInBlock_rows_mem (m : DancingMatrix) (hs : List Nat) (rg mt : Nat → List Nat)
    (block : Block) (c : Nat) (out : List Nat) (m1 : DancingMatrix) (b1 : Block)
    (hB : BInv m hs rg mt block) (hc : c ∈ block.cols)
    (hcov : m.coverInBlock c block out = some (m1, b1, out)) (r : Nat) :
    r ∈ b1.rows ↔ r ∈ block.rows ∧ ∀ z ∈ rg c, nth m.row z ≠ r := by
  rw [(coverInBlock_rows m hs rg mt block c out m1 b1 hB hc hcov).1,
    mem_foldl_setErase _ _ _ (hB.rsorted.imp (fun h => Nat.ne_of_lt h))]
  simp only [List.mem_map, not_exists, not_and]

theorem colsOK_cover (colsOf : Nat → List Nat) (m : DancingMatrix) (hs : List Nat)
    (rg mt : Nat → List Nat) (block : Block) (c : Nat) (m1 : DancingMatrix) (b1 : Block)
    (rem : List Nat) (hB : BInv m hs rg mt block) (hC : ColsOK colsOf m rg block)
    (hc : c ∈ block.cols)
    (hrows : ∀ r, r ∈ b1.rows ↔ r ∈ block.rows ∧ ∀ z ∈ rg c, nth m.row z ≠ r)
    (hcols : b1.cols = setErase c block.cols) (hrow : m1.row = m.row)
    (hrem : ∀ y ∈ rem, ∃ z ∈ rg c, y ∈ mt z) :
    ColsOK colsOf m1 (fun j => (rg j).filter (fun z => decide (z ∉ rem))) b1 := by
  have hcr := hB.hgood.2.2.2 c (hB.cols_unc c hc)
  have hVc := hB.vgood.2 c hcr.1 hcr.2
  refine ⟨?_, ?_⟩
  · intro r hr c1 hc1
    obtain ⟨hr1, hr2⟩ := (hrows r).mp hr
    obtain ⟨k1, x, hx, hxr⟩ := hC.1 r hr1 c1 hc1
    have hne : c1 ≠ c := by
      intro e
      subst e
      exact hr2 x hx hxr
    refine ⟨by rw [hcols]; exact (mem_setErase_sorted _ _ _ hB.csorted).mpr ⟨hne, k1⟩,
      x, (mem_filter_not_mem _ _ _).mpr ⟨hx, ?_⟩, by rw [hrow]; exact hxr⟩
    intro hxrem
    obtain ⟨z, hz, hxz⟩ := hrem x hxrem
    have hzc := hVc.2.2.2 z hz
    have := ((hB.rgood.2 z hzc.1 hzc.2.1).2.2.2.2 x).mp hxz
    exact hr2 z hz (this.2.2.2.symm.trans hxr)
  · intro c1 hc1 x hx
    rw [hcols] at hc1
    have h1 := (mem_setErase_sorted _ _ _ hB.csorted).mp hc1
    have hx2 := (mem_filter_not_mem _ _ _).mp hx
    rw [hrow]
    exact hC.2 c1 h1.2 x hx2.1

theorem colsOK_congr (colsOf colsOf1 : Nat → List Nat) (m : DancingMatrix) (rg : Nat → List Nat)
    (block : Block) (hC : ColsOK colsOf m rg block)
    (h : ∀ r ∈ block.rows, colsOf1 r = colsOf r)
    (hrows : ∀ c ∈ block.cols, ∀ x ∈ rg c, nth m.row x ∈ block.rows) :
    ColsOK colsOf1 m rg block := by
  refine ⟨?_, ?_⟩
  · intro r hr c hc
    rw [h r hr] at hc
    exact hC.1 r hr c hc
  · intro c hc x hx
    rw [h _ (hrows c hc x hx)]
    exact hC.2 c hc x hx

/-- The detector stays in step with the block under `coverInBlock`. -/
theorem cover_gok (m : DancingMatrix) (hs : List Nat) (rg mt : Nat → List Nat) (block : Block)
    (c : Nat) (out : List Nat) (m1 : DancingMatrix) (b1 : Block) (rem : List Nat)
    (hB : BInv m hs rg mt block) (hG : GOK m rg block) (hc : c ∈ block.cols)
    (hcov : m.coverInBlock c block out = some (m1, b1, out))
    (hB1 : BInv m1 (hs.erase c) (fun j => (rg j).filter (fun z => decide (z ∉ rem))) mt b1)
    (hcols : b1.cols = setErase c block.cols) (hrow : m1.row = m.row)
    (hrem : ∀ y ∈ rem, ∃ z ∈ rg c, y ∈ mt z) :
    GOK m1 (fun j => (rg j).filter (fun z => decide (z ∉ rem))) b1 := by
  have ht := (coverInBlock_touched m c block out m1 b1 out hcov).1
  have he1 : m1.enableGraphSync = m.enableGraphSync := by unfold Touched at ht; rw [ht]
  have hu1 : m1.useETT = m.useETT := by unfold Touched at ht; rw [ht]
  have hi1 : m1.useIG = m.useIG := by unfold Touched at ht; rw [ht]
  have hd1 : m1.detector = m.detector := by unfold Touched at ht; rw [ht]
  have hrows := coverInBlock_rows_mem m hs rg mt block c out m1 b1 hB hc hcov
  intro he
  rw [he1] at he
  obtain ⟨hE, hI⟩ := hG he
  refine ⟨?_, ?_⟩
  · intro hu
    rw [hu1] at hu
    obtain ⟨d, hd, r1, r2, r3⟩ := hE hu
    refine ⟨d, by rw [hd1]; exact hd, ?_,
      colsOK_cover _ m hs rg mt block c m1 b1 rem hB r2 hc hrows hcols hrow hrem, ?_⟩
    · intro r hr
      exact r1 r ((hrows r).mp hr).1
    · intro u hu2 v hv
      exact r3 u ((hrows u).mp hu2).1 v ((hrows v).mp hv).1
  · intro hu hi
    rw [hu1] at hu
    rw [hi1] at hi
    obtain ⟨g, hg, hlen, r1, r2⟩ := hI hu hi
    have hig := (coverInBlock_rows m hs rg mt block c out m1 b1 hB hc hcov).2
    have hfl : (m.enableGraphSync && m.useIG) = true := by rw [he, hi]; rfl
    rw [if_pos hfl, hg] at hig
    obtain ⟨f1, f2, f3⟩ := foldl_deactivateRow ((rg c).map (nth m.row)) g
    have hkeep : ∀ r ∈ b1.rows,
        (((rg c).map (nth m.row)).foldl IncrementalConnectedGraph.deactivateRow g).rowStates.getD r
          (RowState.mk [] []) = g.rowStates.getD r (RowState.mk [] []) := by
      intro r hr
      rw [f3 r, if_neg]
      intro hmem
      obtain ⟨z, hz, hzr⟩ := List.mem_map.mp hmem
      exact ((hrows r).mp hr).2 z hz hzr
    refine ⟨_, hig, by rw [f1, f2]; exact hlen, ?_, ?_⟩
    · intro r hr
      have hr0 := r1 r ((hrows r).mp hr).1
      unfold IncrementalConnectedGraph.active
      rw [f1, hkeep r hr]
      exact hr0
    · refine colsOK_congr g.active _ m1 _ b1
        (colsOK_cover _ m hs rg mt block c m1 b1 rem hB r2 hc hrows hcols hrow hrem) ?_ hB1.rows_in
      intro r hr
      unfold IncrementalConnectedGraph.active
      rw [hkeep r hr]

/-- Without the Euler-tour detector `uncoverInBlock` gives back the very state
`coverInBlock` was entered with. -/
theorem cover_exact (m : DancingMatrix) (hs : List Nat) (rg mt : Nat → List Nat) (block : Block)
    (c : Nat) (out : List Nat) (m1 : DancingMatrix) (b1 : Block)
    (hB : BInv m hs rg mt block) (hG : GOK m rg block) (hc : c ∈ block.cols)
    (hu : m.useETT = false)
    (hcov : m.coverInBlock c block out = some (m1, b1, out)) :
    m1.uncoverInBlock c b1 = some (m, block) := by
  obtain ⟨m1a, b1a, rem, hcova, _, _, _, _, hundo⟩ := coverInBlock_spec m hs rg mt block c out hB hc
  rw [hcov] at hcova
  injection hcova with hcova
  injection hcova with e1 e2
  injection e2 with e2 _
  subst e1
  subst e2
  obtain ⟨m2, hm2, ha2, he2⟩ := hundo m1 (auxEq_refl m1)
  have ht := (coverInBlock_touched m c block out m1 b1 out hcov).1
  have he1 : m1.enableGraphSync = m.enableGraphSync := by unfold Touched at ht; rw [ht]
  have hi1 : m1.useIG = m.useIG := by unfold Touched at ht; rw [ht]
  obtain ⟨j1, j2⟩ := coverInBlock_rows m hs rg mt block c out m1 b1 hB hc hcov
  obtain ⟨T, k1, k2⟩ := uncoverInBlock_rows m1 c b1 m2 block hm2
  rw [he1, hi1] at k2
  have hig : m2.incrementalGraph = m.incrementalGraph := by
    by_cases hfl : (m.enableGraphSync && m.useIG) = true
    · rw [if_pos hfl] at j2 k2
      have hfl2 := hfl
      simp only [Bool.and_eq_true] at hfl2
      obtain ⟨g, hg, hlen, r1, r2⟩ := (hG hfl2.1).2 hu hfl2.2
      rw [hg] at j2
      rw [k2, j2, hg]
      simp only [Option.map_some']
      have hrows := coverInBlock_rows_mem m hs rg mt block c out m1 b1 hB hc hcov
      have hT : ∀ r ∈ T, r ∈ block.rows := by
        intro r hr
        rw [k1, mem_foldl_setInsert]
        exact Or.inr hr
      have hT1 : ∀ r ∈ (rg c).map (nth m.row), r ∈ block.rows := by
        intro r hr
        obtain ⟨z, hz, hzr⟩ := List.mem_map.mp hr
        rw [← hzr]
        exact hB.rows_in c hc z hz
      rw [foldl_reactivate_deactivate _ T g]
      · intro r hr
        have hrb := hT1 r hr
        rw [k1, mem_foldl_setInsert] at hrb
        rcases hrb with h | h
        · obtain ⟨z, hz, hzr⟩ := List.mem_map.mp hr
          exact absurd hzr (((hrows r).mp h).2 z hz)
        · exact h
      · intro r hr
        exact (r1 r (hT r hr)).2.1
      · intro r hr
        exact (r1 r (hT1 r hr)).2.2
    · rw [if_neg hfl] at j2 k2
      rw [k2, j2]
  unfold AuxEq at ha2
  rw [hig, he2, he1] at ha2
  rw [hm2, ha2]

/-! ## The blocks of a decomposition -/

/-- A block that holds, with each of its rows, the rows of the outer block that share a
recorded column with it, and whose columns are the recorded columns of its rows, meets
the invariant. -/
theorem subblock_ok (colsOf : Nat → List Nat) (m : DancingMatrix) (hs : List Nat)
    (rg mt : Nat → List Nat) (block b : Block) (hB : BInv m hs rg mt block)
    (hC : ColsOK colsOf m rg block) (hsub : ∀ r ∈ b.rows, r ∈ block.rows)
    (hrs : b.rows.Sorted (· < ·)) (hcs : b.cols.Sorted (· < ·))
    (hcols : ∀ c, c ∈ b.cols ↔ ∃ r ∈ b.rows, c ∈ colsOf r)
    (hclosed : ∀ u ∈ b.rows, ∀ v ∈ block.rows, (∃ c, c ∈ colsOf u ∧ c ∈ colsOf v) → v ∈ b.rows) :
    BInv m hs rg mt b ∧ ColsOK colsOf m rg b := by
  have cols_sub : ∀ c ∈ b.cols, c ∈ block.cols := by
    intro c hc
    obtain ⟨r, hr, hcr⟩ := (hcols c).mp hc
    exact (hC.1 r (hsub r hr) c hcr).1
  have rows_in : ∀ c ∈ b.cols, ∀ x ∈ rg c, nth m.row x ∈ b.rows := by
    intro c hc x hx
    obtain ⟨r, hr, hcr⟩ := (hcols c).mp hc
    exact hclosed r hr _ (hB.rows_in c (cols_sub c hc) x hx) ⟨c, hcr, hC.2 c (cols_sub c hc) x hx⟩
  refine ⟨⟨hB.hgood, hB.vgood, hB.rgood, hB.live, hB.distinct, hrs, hcs, ?_, rows_in, ?_, ?_⟩, ?_, ?_⟩
  · intro c hc
    exact hB.cols_unc c (cols_sub c hc)
  · intro c hc x hx y hy
    have hcb := cols_sub c hc
    have hcr := hB.hgood.2.2.2 c (hB.cols_unc c hcb)
    have hxc := (hB.vgood.2 c hcr.1 hcr.2).2.2.2 x hx
    have hyx := ((hB.rgood.2 x hxc.1 hxc.2.1).2.2.2.2 y).mp hy
    have hlive := hB.live c (hB.cols_unc c hcb) x hx y hy
    have hyc := hB.closed c hcb x hx y hy
    have := hC.2 (nth m.col y) hyc y hlive.1
    rw [hyx.2.2.2] at this
    exact (hcols _).mpr ⟨nth m.row x, rows_in c hc x hx, this⟩
  · intro c hc
    exact hB.hdr c (cols_sub c hc)
  · intro r hr c hc
    exact ⟨(hcols c).mpr ⟨r, hr, hc⟩, (hC.1 r (hsub r hr) c hc).2⟩
  · intro c hc x hx
    exact hC.2 c (cols_sub c hc) x hx

/-- The blocks that the detector returns meet the invariant. -/
theorem decomp_ok (m : DancingMatrix) (hs : List Nat) (rg mt : Nat → List Nat) (block : Block)
    (bs : List Block) (hB : BInv m hs rg mt block) (hG : GOK m rg block)
    (he : m.enableGraphSync = true)
    (hget : (if m.useETT then
              (match m.detector with
               | none => none
               | some d => d.GetBlocks block.rows)
            else if m.useIG then m.getComponentsByIG block.rows
            else some []) = some bs) :
    ∀ b ∈ bs, BInv m hs rg mt b ∧ GOK m rg b := by
  obtain ⟨hE, hI⟩ := hG he
  by_cases hu : m.useETT = true
  · rw [if_pos hu] at hget
    obtain ⟨d, hd, r1, r2, r3⟩ := hE hu
    rw [hd] at hget
    dsimp only at hget
    obtain ⟨mp, hgr, g1, g2, g3⟩ := groupByComponent_spec d block.rows [] []
      ⟨List.Pairwise.nil, by simp, by simp⟩ (fun r hr _ => Option.isSome_iff_exists.mp (r1 r hr).2)
    rw [List.nil_append] at g2 g3
    unfold ComponentDetector.GetBlocks at hget
    rw [hgr] at hget
    dsimp only at hget
    split_ifs at hget
    · cases hget
      intro b hb
      simp at hb
    · cases hget
      intro b hb
      obtain ⟨e, hemem, hbe⟩ := List.mem_map.mp hb
      obtain ⟨n1, n2, n3⟩ := g2 e hemem
      obtain ⟨c1, c2⟩ := blockCols_spec d.row_to_cols e.2 [] List.Pairwise.nil
      subst hbe
      have hsub : ∀ r ∈ e.2, r ∈ block.rows := fun r hr => ((n3 r).mp hr).1
      obtain ⟨k1, k2⟩ := subblock_ok (fun r => mapGet d.row_to_cols r) m hs rg mt block
        (Block.mk e.2 (e.2.foldl (fun cs r => (mapGet d.row_to_cols r).foldl
          (fun cs2 c => setInsert c cs2) cs) [])) hB r2 hsub n2 c1
        (by intro c; rw [c2 c]; simp)
        (by
          intro u hu2 v hv hshare
          have hu3 := (n3 u).mp hu2
          have := r3 u hu3.1 v hv hshare
          exact (n3 v).mpr ⟨hv, (r1 v hv).1, by rw [← this]; exact hu3.2.2⟩)
      refine ⟨k1, ?_⟩
      intro _
      refine ⟨fun _ => ⟨d, hd, fun r hr => r1 r (hsub r hr), k2,
        fun u hu2 v hv => r3 u (hsub u hu2) v (hsub v hv)⟩, ?_⟩
      intro hf
      rw [hu] at hf
      cases hf
  · have hu0 : m.useETT = false := by
      cases h : m.useETT
      · rfl
      · exact absurd h hu
    rw [if_neg hu] at hget
    by_cases hi : m.useIG = true
    · rw [if_pos hi] at hget
      obtain ⟨g, hg, hlen, r1, r2⟩ := hI hu0 hi
      unfold DancingMatrix.getComponentsByIG at hget
      rw [hg] at hget
      dsimp only at hget
      obtain ⟨bs1, hcomp, s1, s2, s3, s4, s5, s6⟩ :=
        computeComponentsInRows_spec g block.rows (fun r hr => (r1 r hr).1)
      rw [hcomp] at hget
      cases hget
      intro b hb
      have hsub : ∀ r ∈ b.rows, r ∈ block.rows := fun r hr => (s3 r).mpr ⟨b, hb, hr⟩
      obtain ⟨k1, k2⟩ := subblock_ok g.active m hs rg mt block b hB r2 hsub (s1 b hb).2.1
        (s1 b hb).2.2 (s6 b hb)
        (by
          intro u hu2 v hv hshare
          exact (s5 b hb u hu2 v).mpr (Relation.ReflTransGen.single ⟨hsub u hu2, hv, hshare⟩))
      refine ⟨k1, ?_⟩
      intro _
      refine ⟨?_, fun _ _ => ⟨g, hg, hlen, fun r hr => r1 r (hsub r hr), k2⟩⟩
      intro hf
      exact absurd hf hu
    · rw [if_neg hi] at hget
      cases hget
      intro b hb
      simp at hb

/-! ## The frame of `DXD` -/

theorem auxEq_fields (a b : DancingMatrix) (h : AuxEq a b) :
    a.left = b.left ∧ a.right = b.right ∧ a.up = b.up ∧ a.down = b.down ∧ a.col = b.col ∧
    a.row = b.row ∧ a.size = b.size ∧ a.COLS = b.COLS ∧ a.useETT = b.useETT ∧
    a.useIG = b.useIG ∧ a.detector = b.detector ∧
    a.single_thread_mode = b.single_thread_mode := by
  unfold AuxEq at h
  refine ⟨?_, ?_, ?_, ?_, ?_, ?_, ?_, ?_, ?_, ?_, ?_, ?_⟩ <;> rw [h]

theorem binv_auxEq (a b : DancingMatrix) (hs : List Nat) (rg mt : Nat → List Nat) (block : Block)
    (h : AuxEq a b) (hB : BInv b hs rg mt block) : BInv a hs rg mt block := by
  unfold AuxEq at h
  rw [h]
  exact ⟨hB.hgood, hB.vgood, hB.rgood, hB.live, hB.distinct, hB.rsorted, hB.csorted,
    hB.cols_unc, hB.rows_in, hB.closed, hB.hdr⟩

theorem rel_refl (m : DancingMatrix) : Rel m m := ⟨auxEq_refl m, id, fun _ => rfl⟩

theorem rel_trans (a b c : DancingMatrix) (h1 : Rel a b) (h2 : Rel b c) : Rel a c := by
  refine ⟨auxEq_trans a b c h1.1 h2.1, fun h => h2.2.1 (h1.2.1 h), ?_⟩
  intro hc
  have hbc := h2.2.2 hc
  have hb : b.useETT = false := by rw [hbc]; exact hc
  rw [h1.2.2 hb, hbc]

theorem colsOK_auxEq (colsOf : Nat → List Nat) (a b : DancingMatrix) (rg : Nat → List Nat)
    (block : Block) (h : AuxEq a b) (hC : ColsOK colsOf b rg block) : ColsOK colsOf a rg block := by
  unfold AuxEq at h
  rw [h]
  exact hC

theorem gok_rel (a b : DancingMatrix) (rg : Nat → List Nat) (block : Block) (h : Rel a b)
    (hG : GOK b rg block) : GOK a rg block := by
  intro he
  obtain ⟨h1, h2⟩ := hG (h.2.1 he)
  have hf := auxEq_fields a b h.1
  refine ⟨?_, ?_⟩
  · intro hu
    obtain ⟨d, hd, r1, r2, r3⟩ := h1 (by rw [← hf.2.2.2.2.2.2.2.2.1]; exact hu)
    exact ⟨d, by rw [hf.2.2.2.2.2.2.2.2.2.2.1]; exact hd, r1, colsOK_auxEq _ _ _ _ _ h.1 r2, r3⟩
  · intro hu hi
    have hb : b.useETT = false := by rw [← hf.2.2.2.2.2.2.2.2.1]; exact hu
    have hab := h.2.2 hb
    rw [hab] at hi ⊢
    exact h2 hb hi

/-- One `coverInBlock` of a column of the block: the invariant is kept, and from every
state related to the one reached `uncoverInBlock` leads back to a state related to
the one left. -/
theorem coverInBlock_frame (m : DancingMatrix) (hs : List Nat) (rg mt : Nat → List Nat)
    (block : Block) (c : Nat) (out : List Nat) (hB : BInv m hs rg mt block)
    (hG : GOK m rg block) (hc : c ∈ block.cols) :
    ∃ (m1 : DancingMatrix) (b1 : Block) (rem : List Nat),
      m.coverInBlock c block out = some (m1, b1, out) ∧
      BInv m1 (hs.erase c) (fun j => (rg j).filter (fun z => decide (z ∉ rem))) mt b1 ∧
      GOK m1 (fun j => (rg j).filter (fun z => decide (z ∉ rem))) b1 ∧
      b1.cols = setErase c block.cols ∧
      (m1.col = m.col ∧ m1.row = m.row ∧ m1.COLS = m.COLS ∧ m1.nodes = m.nodes) ∧
      (∀ y ∈ rem, ∃ z ∈ rg c, y ∈ mt z) ∧
      (∀ m3, Rel m3 m1 → ∃ m2, m3.uncoverInBlock c b1 = some (m2, block) ∧ Rel m2 m) := by
  obtain ⟨m1, b1, rem, hcov, hB1, hcols, hstat, hrem, hundo⟩ :=
    coverInBlock_spec m hs rg mt block c out hB hc
  have ht := (coverInBlock_touched m c block out m1 b1 out hcov).1
  have he1 : m1.enableGraphSync = m.enableGraphSync := by unfold Touched at ht; rw [ht]
  have hu1 : m1.useETT = m.useETT := by unfold Touched at ht; rw [ht]
  refine ⟨m1, b1, rem, hcov, hB1,
    cover_gok m hs rg mt block c out m1 b1 rem hB hG hc hcov hB1 hcols hstat.2.1 hrem,
    hcols, hstat, hrem, ?_⟩
  intro m3 h3
  obtain ⟨m2, hm2, ha2, he2⟩ := hundo m3 h3.1
  refine ⟨m2, hm2, ha2, ?_, ?_⟩
  · intro h
    rw [he2] at h
    have := h3.2.1 h
    rw [he1] at this
    exact this
  · intro hu
    have h31 : m3 = m1 := h3.2.2 (by rw [hu1]; exact hu)
    rw [h31, cover_exact m hs rg mt block c out m1 b1 hB hG hc hu hcov] at hm2
    cases hm2
    rfl

/-- The loop of `DXD` that covers the columns of the other cells of the chosen row, from
the cell after `pre` on: it returns and keeps the invariant, and the loop that uncovers
them, run from a related state, comes back to the cell it started from in a state
related to the entry state. -/
theorem coverRowInBlock_frame (mt : Nat → List Nat) (curC : Nat) :
    ∀ (post pre : List Nat) (m : DancingMatrix) (hs : List Nat) (rg : Nat → List Nat)
      (block : Block) (f : Nat),
      BInv m hs rg mt block → GOK m rg block → m.COLS < curC → curC < m.nodes →
      mt curC = pre ++ post → (∀ y ∈ post, nth m.col y ∈ block.cols) → post.length < f →
      ∃ (m1 : DancingMatrix) (hs1 : List Nat) (rg1 : Nat → List Nat) (b1 : Block),
        coverRowInBlock curC f m block [] (nth m.right (pre.getLastD curC)) = some (m1, b1, []) ∧
        BInv m1 hs1 rg1 mt b1 ∧ GOK m1 rg1 b1 ∧
        (m1.col = m.col ∧ m1.row = m.row ∧ m1.COLS = m.COLS ∧ m1.nodes = m.nodes) ∧
        ∀ m4, Rel m4 m1 → ∃ m3, Rel m3 m ∧
          ∀ g, uncoverRowInBlock curC (g + post.length) m4 b1 ((mt curC).getLastD curC) =
            uncoverRowInBlock curC g m3 block (pre.getLastD curC) := by
  intro post
  induction post with
  | nil =>
    intro pre m hs rg block f hB hG h1 h2 hmt _ hf
    have hR := hB.rgood.2 curC h1 h2
    have hch : Chain m.right curC pre curC := by
      have := hR.2.1
      rw [hmt, List.append_nil] at this
      exact this
    have hnext : nth m.right (pre.getLastD curC) = curC := chain_last _ _ _ _ hch
    obtain ⟨f1, rfl⟩ : ∃ f1, f = f1 + 1 := ⟨f - 1, by omega⟩
    refine ⟨m, hs, rg, block, ?_, hB, hG, ⟨rfl, rfl, rfl, rfl⟩, ?_⟩
    · rw [hnext]; exact coverRowInBlock_nil _ _ _ _ _
    · intro m4 h4
      refine ⟨m4, h4, ?_⟩
      intro g
      rw [hmt, List.append_nil]
      rfl
  | cons y post ih =>
    intro pre m hs rg block f hB hG h1 h2 hmt hcols hf
    have hR := hB.rgood.2 curC h1 h2
    have hymem : y ∈ mt curC := by rw [hmt]; simp
    have hyc := (hR.2.2.2.2 y).mp hymem
    have hRy := hB.rgood.2 y hyc.1 hyc.2.1
    have hch := hR.2.1
    rw [hmt, chain_append] at hch
    have hnext : nth m.right (pre.getLastD curC) = y := chain_last _ _ _ _ hch.1
    have hchl := hR.2.2.1
    rw [hmt, List.reverse_append, List.reverse_cons, List.append_assoc, List.singleton_append,
      chain_append] at hchl
    have hprev : nth m.left y = pre.getLastD curC := by
      rw [chain_head _ _ _ _ hchl.2, headD_reverse]
    obtain ⟨f1, rfl⟩ : ∃ f1, f = f1 + 1 := ⟨f - 1, by omega⟩
    obtain ⟨m1, b1, rem, hcov, hB1, hG1, hb1, hstat, hrem, hundo⟩ :=
      coverInBlock_frame m hs rg mt block (nth m.col y) [] hB hG
        (hcols y (List.mem_cons_self _ _))
    have hnd : (pre ++ y :: post).Nodup := hmt ▸ hR.2.2.2.1
    have hynp : y ∉ post := by
      have := (List.nodup_append.mp hnd).2.1
      exact (List.nodup_cons.mp this).1
    obtain ⟨m2, hs2, rg2, b2, hrun, hB2, hG2, hstat2, hundo2⟩ :=
      ih (pre ++ [y]) m1 _ _ b1 f1 hB1 hG1 (by rw [hstat.2.2.1]; exact h1)
        (by rw [hstat.2.2.2]; exact h2) (by rw [hmt]; simp)
        (by
          intro z hz
          have hzmem : z ∈ mt curC := by rw [hmt]; simp [hz]
          have hzc := (hR.2.2.2.2 z).mp hzmem
          have hzy : z ∈ mt y := (hRy.2.2.2.2 z).mpr
            ⟨hzc.1, hzc.2.1, fun e => hynp (e ▸ hz), hzc.2.2.2.trans hyc.2.2.2.symm⟩
          have hne := hB.distinct y hyc.1 hyc.2.1 z hzy
          rw [hb1, hstat.1]
          exact (mem_setErase_sorted _ _ _ hB.csorted).mpr
            ⟨hne, hcols z (List.mem_cons_of_mem _ hz)⟩)
        (by simp at hf; omega)
    rw [getLastD_append_singleton] at hrun hundo2
    refine ⟨m2, hs2, rg2, b2, ?_, hB2, hG2,
      ⟨hstat2.1.trans hstat.1, hstat2.2.1.trans hstat.2.1, hstat2.2.2.1.trans hstat.2.2.1,
        hstat2.2.2.2.trans hstat.2.2.2⟩, ?_⟩
    · rw [hnext, coverRowInBlock, if_neg hyc.2.2.1, hcov]
      exact hrun
    · intro m4 h4
      obtain ⟨m3, h3, heq⟩ := hundo2 m4 h4
      obtain ⟨m5, hm5, h5⟩ := hundo m3 h3
      refine ⟨m5, h5, ?_⟩
      intro g
      have hg : g + (y :: post).length = (g + 1) + post.length := by simp; omega
      rw [hg, heq (g + 1), uncoverRowInBlock, if_neg hyc.2.2.1]
      have hcol3 : nth m3.col y = nth m.col y := by
        rw [(auxEq_fields m3 m1 h3.1).2.2.2.2.1, hstat.1]
      rw [hcol3, hm5]
      have hl5 : nth m5.left y = pre.getLastD curC := by
        rw [(auxEq_fields m5 m h5.1).1]; exact hprev
      show uncoverRowInBlock curC g m5 block (nth m5.left y) = _
      rw [hl5]

theorem linearFold_mem (size : Nat → Int) : ∀ (l : List Nat) (best : Nat × Int),
    (l.foldl (fun (best : Nat × Int) colId =>
        if size colId < best.2 then (colId, size colId) else best) best).1 = best.1 ∨
    (l.foldl (fun (best : Nat × Int) colId =>
        if size colId < best.2 then (colId, size colId) else best) best).1 ∈ l := by
  intro l
  induction l with
  | nil => intro best; exact Or.inl rfl
  | cons a rest ih =>
    intro best
    rw [List.foldl_cons]
    rcases ih (if size a < best.2 then (a, size a) else best) with h | h
    · rw [h]
      split_ifs
      · exact Or.inr (List.mem_cons_self _ _)
      · exact Or.inl rfl
    · exact Or.inr (List.mem_cons_of_mem _ h)

/-- The column that `selectOptimalColumn` returns is one of the columns it was given. -/
theorem selectOptimalColumn_mem (m : DancingMatrix) (cols : List Nat) (c : Nat)
    (h : m.selectOptimalColumn cols = some c) : c ∈ cols := by
  unfold DancingMatrix.selectOptimalColumn at h
  split_ifs at h
  · unfold DancingMatrix.selectColumnByMinHeap at h
    have hspec := heapFold_spec (fun c => nthI m.size c) cols [] List.Pairwise.nil
    split at h
    · cases h
    · rename_i firstCol rest hheap
      rw [hheap] at hspec
      have hmem : ∀ e ∈ firstCol :: rest, e.1 ∈ cols := by
        intro e he
        rcases (hspec.2 e).mp he with h0 | ⟨c0, hc0, rfl⟩
        · simp at h0
        · exact hc0
      obtain ⟨dr, _, _, hres⟩ := minHeapLoop_spec TARGET_THRESHOLD (firstCol :: rest) firstCol.1
        |firstCol.2 - TARGET_THRESHOLD| hspec.1
      injection h with h
      rcases hres with ⟨h1, _⟩ | ⟨e, he, h1, _⟩
      · rw [← h, h1]; exact hmem _ (List.mem_cons_self _ _)
      · rw [← h, h1]; exact hmem e he
  · unfold DancingMatrix.selectColumnByLinear at h
    split at h
    · cases h
    · rename_i c0 rest
      injection h with h
      rw [← h, List.foldl_cons]
      have := linearFold_mem (fun c => nthI m.size c) rest
        (if nthI m.size c0 < nthI m.size c0 then (c0, nthI m.size c0) else (c0, nthI m.size c0))
      simp only [lt_self_iff_false, if_false] at this ⊢
      rcases this with h1 | h1
      · rw [h1]; exact List.mem_cons_self _ _
      · exact List.mem_cons_of_mem _ h1

/-- The branching loop of `DXD`, entered below the cell or header `a` of the chosen
column with the live cells `post` still to come: when it returns, the block is the one
it was entered with and the state is related to the entry state. -/
theorem branchLoop_frame (mt : Nat → List Nat) (dxd : Search) (hdxd : FrameOK mt dxd)
    (choose : Nat) (depth : Int) :
    ∀ (post : List Nat) (a f : Nat) (s : DanceDNNF) (hs : List Nat) (rg : Nat → List Nat)
      (block : Block) (tot : DNNFResult) (x : Nat) (r : DNNFResult) (b1 : Block)
      (s1 : DanceDNNF),
      BInv s.m hs rg mt block → GOK s.m rg block → Chain s.m.down a post choose →
      (∀ z ∈ post, (s.m.COLS < z ∧ z < s.m.nodes ∧ z ≠ choose) ∧
        ∀ y ∈ mt z, nth s.m.col y ∈ block.cols) →
      branchLoop dxd choose depth f s block tot x (nth s.m.down a) = Outcome.ok (r, b1, s1) →
      b1 = block ∧ Rel s1.m s.m := by
  intro post
  induction post with
  | nil =>
    intro a f s hs rg block tot x r b1 s1 hB hG hch hcells h
    have hnext : nth s.m.down a = choose := hch
    rw [hnext] at h
    cases f with
    | zero => simp [branchLoop] at h
    | succ f =>
      rw [branchLoop, if_pos rfl] at h
      cases h
      exact ⟨rfl, rel_refl _⟩
  | cons z post ih =>
    intro a f s hs rg block tot x r b1 s1 hB hG hch hcells h
    have hnext : nth s.m.down a = z := hch.1
    obtain ⟨⟨hz1, hz2, hz3⟩, hzcols⟩ := hcells z (List.mem_cons_self _ _)
    rw [hnext] at h
    cases f with
    | zero => simp [branchLoop] at h
    | succ f =>
      rw [branchLoop, if_neg hz3] at h
      have hRz := hB.rgood.2 z hz1 hz2
      have hlen : (mt z).length < s.m.fuel := by
        have := nodup_bounded_length s.m.nodes (mt z) hRz.2.2.2.1
          (fun y hy => ((hRz.2.2.2.2 y).mp hy).2.1)
        unfold DancingMatrix.fuel; unfold DancingMatrix.nodes at this; omega
      obtain ⟨m1, hs1, rg1, b2, hrun, hB1, hG1, hstat, hundo⟩ :=
        coverRowInBlock_frame mt z (mt z) [] s.m hs rg block s.m.fuel hB hG hz1 hz2
          (List.nil_append _).symm hzcols hlen
      rw [List.getLastD_nil] at hrun
      rw [hrun] at h
      dsimp only at h
      rw [detectorDeleteEdges_nil] at h
      try dsimp only at h
      split at h
      · cases h
      · cases h
      · rename_i result block2 s3 hrec
        obtain ⟨hb2, hrel3⟩ := hdxd _ _ _ _ _ _ hrec ⟨hs1, rg1, hB1, hG1⟩
        have hrel3 : Rel s3.m m1 := hrel3
        try dsimp only at h
        generalize hs4 : (if (!result.isZero) = true then _ else s3) = s4 at h
        have hm4 : s4.m = s3.m := by
          rw [← hs4]
          split_ifs
          · exact (buildDecisionNode_frame _ _ _ _).1
          · rfl
        generalize (if (!result.isZero) = true then _ else tot) = tot1 at h
        obtain ⟨m3, hrel, heq⟩ := hundo s3.m hrel3
        have hf3 := auxEq_fields s3.m m1 hrel3.1
        have hleft : nth s4.m.left z = (mt z).getLastD z := by
          have ha := hB1.rgood.2 z (by rw [hstat.2.2.1]; exact hz1) (by rw [hstat.2.2.2]; exact hz2)
          rw [hm4, hf3.1, chain_head _ _ _ _ ha.2.2.1, headD_reverse]
        have hfuel : s4.m.fuel = (s.m.nodes + 1 - (mt z).length) + (mt z).length := by
          have : s4.m.fuel = s.m.fuel := by
            unfold DancingMatrix.fuel
            rw [hm4, hf3.2.2.2.2.1, hstat.1]
          rw [this]
          unfold DancingMatrix.fuel at hlen ⊢
          unfold DancingMatrix.nodes
          omega
        rw [hleft, hfuel, hm4, hb2, heq] at h
        rw [List.getLastD_nil] at h
        obtain ⟨g1, hg1⟩ : ∃ g1, s.m.nodes + 1 - (mt z).length = g1 + 1 := by
          unfold DancingMatrix.fuel at hlen
          unfold DancingMatrix.nodes
          exact ⟨s.m.col.length + 1 - (mt z).length - 1, by omega⟩
        rw [hg1, uncoverRowInBlock_nil] at h
        try dsimp only at h
        rw [detectorAddEdges_nil] at h
        try dsimp only at h
        have hf := auxEq_fields m3 s.m hrel.1
        have hdown : nth m3.down z = nth s.m.down z := by rw [hf.2.2.2.1]
        have hres := ih z f { s4 with m := m3 } hs rg block tot1 x r b1 s1
          (binv_auxEq _ _ _ _ _ _ hrel.1 hB) (gok_rel _ _ _ _ hrel hG)
          (by
            show Chain m3.down z post choose
            rw [hf.2.2.2.1]; exact hch.2)
          (by
            intro w hw
            have := hcells w (List.mem_cons_of_mem _ hw)
            show (m3.COLS < w ∧ w < m3.nodes ∧ w ≠ choose) ∧ ∀ y ∈ mt w, nth m3.col y ∈ block.cols
            unfold DancingMatrix.nodes at this ⊢
            rw [hf.2.2.2.2.1, hf.2.2.2.2.2.2.2.1]
            exact this)
          h
        exact ⟨hres.1, rel_trans _ _ _ hres.2 hrel⟩

theorem serialSearch_frame (mt : Nat → List Nat) (dxd : Search) (hdxd : FrameOK mt dxd)
    (depth : Int) (hs : List Nat) (rg : Nat → List Nat) :
    ∀ (blocks : List Block) (tot : DNNFResult) (s : DanceDNNF) (r : DNNFResult) (s1 : DanceDNNF),
      (∀ b ∈ blocks, BInv s.m hs rg mt b ∧ GOK s.m rg b) →
      serialSearch dxd depth blocks tot s = Outcome.ok (r, s1) → Rel s1.m s.m
  | [], tot, s, r, s1 => by
    intro _ h
    simp only [serialSearch] at h
    cases h; exact rel_refl _
  | b :: rest, tot, s, r, s1 => by
    intro hall h
    rw [serialSearch] at h
    split at h
    · cases h
    · cases h
    · rename_i result b2 s2 hrec
      have hrel := (hdxd _ _ _ _ _ _ hrec ⟨hs, rg, hall b (List.mem_cons_self _ _)⟩).2
      split_ifs at h
      · cases h; exact hrel
      · refine rel_trans _ _ _ (serialSearch_frame mt dxd hdxd depth hs rg rest _ _ _ _ ?_ h) hrel
        intro b3 hb3
        have := hall b3 (List.mem_cons_of_mem _ hb3)
        exact ⟨binv_auxEq _ _ _ _ _ _ hrel.1 this.1, gok_rel _ _ _ _ hrel this.2⟩

theorem parallelLoop_frame (mt : Nat → List Nat) (dxd : Search) (hdxd : FrameOK mt dxd)
    (depth : Int) (hs : List Nat) (rg : Nat → List Nat) :
    ∀ (blocks : List Block) (results : List DNNFResult) (hf ht : Bool) (s : DanceDNNF)
      (res : List DNNFResult) (hf1 ht1 : Bool) (s1 : DanceDNNF),
      (∀ b ∈ blocks, BInv s.m hs rg mt b ∧ GOK s.m rg b) →
      parallelLoop dxd depth blocks results hf ht s = some (res, hf1, ht1, s1) → Rel s1.m s.m
  | [], results, hf, ht, s, res, hf1, ht1, s1 => by
    intro _ h
    simp only [parallelLoop] at h
    cases h; exact rel_refl _
  | b :: rest, results, hf, ht, s, res, hf1, ht1, s1 => by
    intro hall h
    have hrest : ∀ b3 ∈ rest, BInv s.m hs rg mt b3 ∧ GOK s.m rg b3 :=
      fun b3 hb3 => hall b3 (List.mem_cons_of_mem _ hb3)
    rw [parallelLoop] at h
    split_ifs at h
    · exact parallelLoop_frame mt dxd hdxd depth hs rg rest _ _ _ _ _ _ _ _ hrest h
    · split at h
      · cases h
      · exact parallelLoop_frame mt dxd hdxd depth hs rg rest _ _ _ _ _ _ _ _ hrest h
      · rename_i result b2 s2 hrec
        have hrel := (hdxd _ _ _ _ _ _ hrec ⟨hs, rg, hall b (List.mem_cons_self _ _)⟩).2
        have hrest2 : ∀ b3 ∈ rest, BInv s2.m hs rg mt b3 ∧ GOK s2.m rg b3 := by
          intro b3 hb3
          have := hrest b3 hb3
          exact ⟨binv_auxEq _ _ _ _ _ _ hrel.1 this.1, gok_rel _ _ _ _ hrel this.2⟩
        split_ifs at h
        · exact rel_trans _ _ _
            (parallelLoop_frame mt dxd hdxd depth hs rg rest _ _ _ _ _ _ _ _ hrest2 h) hrel
        · exact rel_trans _ _ _
            (parallelLoop_frame mt dxd hdxd depth hs rg rest _ _ _ _ _ _ _ _ hrest2 h) hrel

theorem parallelSearchUseOmp_frame (mt : Nat → List Nat) (dxd : Search) (hdxd : FrameOK mt dxd)
    (depth : Int) (hs : List Nat) (rg : Nat → List Nat) (blocks : List Block) (s : DanceDNNF)
    (r : DNNFResult) (s1 : DanceDNNF)
    (hall : ∀ b ∈ blocks, BInv s.m hs rg mt b ∧ GOK s.m rg b)
    (h : parallelSearchUseOmp dxd depth blocks s = Outcome.ok (r, s1)) : Rel s1.m s.m := by
  unfold parallelSearchUseOmp at h
  split at h
  · cases h
  · rename_i results hf ht s2 hloop
    have hrel := parallelLoop_frame mt dxd hdxd depth hs rg _ _ _ _ _ _ _ _ _ hall hloop
    split_ifs at h
    · cases h; exact hrel
    · cases h; exact hrel

/-- A call of `DXD` that returns, entered on a block that meets the invariant with the
detector in step, gives back the block and a state related to the entry state. -/
theorem DXD_frame (mt : Nat → List Nat) : ∀ (fuel : Nat), FrameOK mt (DXD fuel)
  | 0 => by
    intro s block depth r b1 s1 h _
    simp [DXD] at h
  | fuel + 1 => by
    intro s0 block depth r b1 s1 h hpre
    have ih := DXD_frame mt fuel
    obtain ⟨hs, rg, hB0, hG0⟩ := hpre
    rw [DXD] at h
    dsimp only at h
    have hm : s0.timeBoundBroken.2.m = s0.m := rfl
    generalize s0.timeBoundBroken.2 = s at h hm
    rw [← hm] at hB0 hG0 ⊢
    have hbranch : ∀ (s2 : DanceDNNF), s2.m = s.m →
        (match s2.m.selectOptimalColumn block.cols with
          | none => Outcome.diverged
          | some choose =>
            if nthI s2.m.size choose ≤ 0 then
              Outcome.ok (DNNFResult.ofCount 0, block,
                s2.setCacheCount (hashBlockState block.cols) (DNNFResult.ofCount 0))
            else
              match s2.m.coverInBlock (nth s2.m.col choose) block [] with
              | none => Outcome.diverged
              | some (m1, block1, deleted_rows) =>
                match ({ s2 with m := m1 } : DanceDNNF).detectorDeleteEdges deleted_rows with
                | none => Outcome.diverged
                | some s2 =>
                  match branchLoop (DXD fuel) choose depth s2.m.fuel s2 block1
                      (DNNFResult.ofCount 0) DanceDNNF.F (nth s2.m.down choose) with
                  | Outcome.timeBound => Outcome.timeBound
                  | Outcome.diverged => Outcome.diverged
                  | Outcome.ok (totalResult, block2, s3) =>
                    match s3.m.uncoverInBlock (nth s3.m.col choose) block2 with
                    | none => Outcome.diverged
                    | some (m4, block3) =>
                      match ({ s3 with m := m4 } : DanceDNNF).detectorAddEdges deleted_rows with
                      | none => Outcome.diverged
                      | some s5 => Outcome.ok (totalResult, block3,
                          s5.setCacheCount (hashBlockState block.cols) totalResult)) =
          Outcome.ok (r, b1, s1) → b1 = block ∧ Rel s1.m s.m := by
      intro s2 hm2 h
      have hB : BInv s2.m hs rg mt block := hm2 ▸ hB0
      have hG : GOK s2.m rg block := hm2 ▸ hG0
      rw [← hm2]
      split at h
      · cases h
      · rename_i choose hsel
        have hch := selectOptimalColumn_mem _ _ _ hsel
        have hcc := hB.hgood.2.2.2 choose (hB.cols_unc choose hch)
        split_ifs at h
        · cases h; exact ⟨rfl, rel_refl _⟩
        · rw [hB.hdr choose hch] at h
          obtain ⟨m1, b2, rem, hcov, hB1, hG1, hb2, hstat, hrem, hundo⟩ :=
            coverInBlock_frame s2.m hs rg mt block choose [] hB hG hch
          rw [hcov] at h
          dsimp only at h
          rw [detectorDeleteEdges_nil] at h
          try dsimp only at h
          split at h
          · cases h
          · cases h
          · rename_i total block2 s3 hloop
            have hVc := hB.vgood.2 choose hcc.1 hcc.2
            have hV1 := hB1.vgood.2 choose hcc.1 (by rw [hstat.2.2.1]; exact hcc.2)
            obtain ⟨hb3, hrel3⟩ := branchLoop_frame mt (DXD fuel) ih choose depth _ choose _
              { s2 with m := m1 } _ _ b2 _ _ _ _ _ hB1 hG1 hV1.1
              (by
                intro z hz
                have hz1 := hV1.2.2.2 z hz
                have hz0 := ((mem_filter_not_mem _ _ _).mp hz).1
                have hzc := hVc.2.2.2 z hz0
                refine ⟨⟨hz1.1, hz1.2.1, by omega⟩, ?_⟩
                intro y hy
                show nth m1.col y ∈ b2.cols
                rw [hb2, hstat.1]
                refine (mem_setErase_sorted _ _ _ hB.csorted).mpr ⟨?_, hB.closed choose hch z hz0 y hy⟩
                have := hB.distinct z hzc.1 hzc.2.1 y hy
                rw [hzc.2.2] at this
                exact this)
              hloop
            have hrel3 : Rel s3.m m1 := hrel3
            have hcol3 : nth s3.m.col choose = choose := by
              rw [(auxEq_fields _ _ hrel3.1).2.2.2.2.1, hstat.1]
              exact hB.hdr choose hch
            obtain ⟨m5, hm5, hrel5⟩ := hundo s3.m hrel3
            rw [hcol3, hb3, hm5] at h
            dsimp only at h
            rw [detectorAddEdges_nil] at h
            try dsimp only at h
            cases h
            exact ⟨rfl, hrel5⟩
    by_cases h1 : s0.timeBoundBroken.1 = true
    · rw [if_pos h1] at h; cases h
    rw [if_neg h1] at h
    by_cases h2 : block.cols.isEmpty = true
    · rw [if_pos h2] at h; cases h; exact ⟨rfl, rel_refl _⟩
    rw [if_neg h2] at h
    split at h
    · cases h; exact ⟨rfl, rel_refl _⟩
    by_cases h3 : block.rows.length > 2 ∧ s.m.enableGraphSync = true
    · rw [if_pos h3] at h
      split at h
      · cases h
      · rename_i curBlock hget
        have hsub := decomp_ok s.m hs rg mt block curBlock hB0 hG0 h3.2 hget
        by_cases h4 : curBlock.length > 1
        · rw [if_pos h4] at h
          split at h
          · cases h
          · cases h
          · rename_i result s3 hsearch
            cases h
            refine ⟨rfl, ?_⟩
            show Rel s3.m s.m
            have hflip : s.m.useETT = true →
                Rel ({ s.m with enableGraphSync := false } : DancingMatrix) s.m := by
              intro hu
              refine ⟨rfl, ?_, ?_⟩
              · intro hf; cases hf
              · intro hf; rw [hu] at hf; cases hf
            have hsub2 : s.m.useETT = true → ∀ b ∈ curBlock,
                BInv ({ s.m with enableGraphSync := false } : DancingMatrix) hs rg mt b ∧
                GOK ({ s.m with enableGraphSync := false } : DancingMatrix) rg b := by
              intro hu b hb
              have := hsub b hb
              exact ⟨binv_auxEq _ _ _ _ _ _ (hflip hu).1 this.1, gok_rel _ _ _ _ (hflip hu) this.2⟩
            split_ifs at hsearch with hc1 hc2 hc3
            · have hu : s.m.useETT = true := by
                simp only [Bool.and_eq_true] at hc1
                exact hc1.1
              exact rel_trans _ _ _
                (parallelSearchUseOmp_frame mt (DXD fuel) ih depth hs rg _ _ _ _ (hsub2 hu) hsearch)
                (hflip hu)
            · have hu : s.m.useETT = true := by
                simp only [Bool.and_eq_true] at hc1
                exact hc1.1
              exact rel_trans _ _ _
                (serialSearch_frame mt (DXD fuel) ih depth hs rg _ _ _ _ _ (hsub2 hu) hsearch)
                (hflip hu)
            · exact parallelSearchUseOmp_frame mt (DXD fuel) ih depth hs rg _
                { s with MAX_B_COUNT := max s.MAX_B_COUNT curBlock.length } _ _ hsub hsearch
            · exact serialSearch_frame mt (DXD fuel) ih depth hs rg _ _
                { s with MAX_B_COUNT := max s.MAX_B_COUNT curBlock.length } _ _ hsub hsearch
        · rw [if_neg h4] at h
          exact hbranch { s with MAX_B_COUNT := max s.MAX_B_COUNT curBlock.length } rfl h
    · rw [if_neg h3] at h
      exact hbranch s rfl h

/-! ## Claim C28 -/

set_option maxRecDepth 100000 in
set_option synthInstance.maxSize 2000 in
set_option synthInstance.maxHeartbeats 200000 in
/-- C28 as stated does not hold.  (a) On the matrix of the file `2 1` with the row {1,2},
the block with rows {0} and cols {1} is consistent in the sense of the claim: column 1
is uncovered and row 0, its only live row, is in `block.rows`; `DXD` returns and gives
back cols {1,2}, since `uncoverInBlock(2, block)` inserts column 2, which
`coverInBlock(2, block, _)` could not erase.  (b) On the matrix of the file `1 1` whose
data line names column 1 twice, `InitBlock` is consistent in the same sense and
`DXD(InitBlock, 1)` returns with the size of column 1 changed from 2 to 3. -/
theorem C28_counterexample :
    (DanceDNNF.fromFile 2 1 [[1, 2]] true false none = some pairSample ∧
      (∀ c ∈ [1], c ∈ pairSample.m.uncovered) ∧
      (∀ c ∈ [1], ∀ x ∈ pairSample.m.cells c, nth pairSample.m.row x ∈ [0]) ∧
      (returned (DXD 3 pairSample (Block.mk [0] [1]) 1)).map (fun p => p.2.1) =
        some (Block.mk [0] [1, 2])) ∧
    (DanceDNNF.fromFile 1 1 [[1, 1]] true false none = some doubledSample ∧
      (∀ c ∈ doubledSample.m.InitBlock.cols, c ∈ doubledSample.m.uncovered) ∧
      (∀ c ∈ doubledSample.m.InitBlock.cols, ∀ x ∈ doubledSample.m.cells c,
        nth doubledSample.m.row x ∈ doubledSample.m.InitBlock.rows) ∧
      nthI doubledSample.m.size 1 = 2 ∧
      (returned (DXD 2 doubledSample doubledSample.m.InitBlock 1)).map
        (fun p => nthI p.2.2.m.size 1) = some 3) := by
  refine ⟨⟨?_, ?_, ?_, ?_⟩, ?_, ?_, ?_, ?_, ?_⟩ <;> decide!

/-- C28 (amended): let the matrix be well formed, the cells of every row lie in distinct
columns, and the block be consistent with the matrix: its sets are ascending, its
columns are uncovered columns whose header names them, `block.rows` holds the row of
every live cell of these columns, and `block.cols` holds the column of every cell of
these rows; let the detector be in step with the block (`GOK`).  When
`DXD(block, depth)` returns, the block, every link and every column size are as they
were at entry; without the Euler-tour detector the whole matrix object is. -/
theorem C28_DXD_restores_block_and_matrix (fuel : Nat) (s : DanceDNNF) (block : Block)
    (depth : Int) (r : DNNFResult) (b1 : Block) (s1 : DanceDNNF)
    (hwf : WF s.m)
    (hdist : ∀ x, x < s.m.nodes → s.m.COLS < x →
      ∀ y ∈ s.m.mates x, nth s.m.col y ≠ nth s.m.col x)
    (hhdr : ∀ c ∈ block.cols, nth s.m.col c = c)
    (hrs : block.rows.Sorted (· < ·)) (hcs : block.cols.Sorted (· < ·))
    (hcols : ∀ c ∈ block.cols, c ∈ s.m.uncovered)
    (hrows : ∀ c ∈ block.cols, ∀ x ∈ s.m.cells c, nth s.m.row x ∈ block.rows)
    (hclosed : ∀ c ∈ block.cols, ∀ x ∈ s.m.cells c, ∀ y ∈ s.m.mates x,
      nth s.m.col y ∈ block.cols)
    (hgraph : GOK s.m s.m.cells block)
    (h : DXD fuel s block depth = Outcome.ok (r, b1, s1)) :
    b1 = block ∧ s1.m.left = s.m.left ∧ s1.m.right = s.m.right ∧ s1.m.up = s.m.up ∧
    s1.m.down = s.m.down ∧ s1.m.size = s.m.size ∧ (s.m.useETT = false → s1.m = s.m) := by
  obtain ⟨p1, p2, p3, p4⟩ := WF_parts s.m hwf
  have hB : BInv s.m s.m.uncovered s.m.cells s.m.mates block :=
    ⟨p1, p2, p3, p4, fun x h1 h2 => hdist x h2 h1, hrs, hcs, hcols, hrows, hclosed, hhdr⟩
  obtain ⟨hb, hrel⟩ := DXD_frame s.m.mates fuel s block depth r b1 s1 h ⟨_, _, hB, hgraph⟩
  have hf := auxEq_fields _ _ hrel.1
  exact ⟨hb, hf.1, hf.2.1, hf.2.2.1, hf.2.2.2.1, hf.2.2.2.2.2.2.1, hrel.2.2⟩

set_option maxRecDepth 100000 in
set_option synthInstance.maxSize 2000 in
set_option synthInstance.maxHeartbeats 200000 in
theorem frameSample_WF : WF frameSample.m :=
  ⟨by decide!, by decide!, by decide!, by decide!, by decide!⟩

set_option maxRecDepth 100000 in
theorem frameSample_GOK : GOK frameSample.m frameSample.m.cells frameSample.m.InitBlock :=
  fun _ => ⟨fun hu => absurd hu (by decide!), fun _ _ =>
    ⟨⟨4, [RowState.mk [1, 2] [], RowState.mk [3] [], RowState.mk [2, 3] [], RowState.mk [4] []]⟩,
      by decide!, by decide!, by decide!, ⟨by decide!, by decide!⟩⟩⟩

set_option maxRecDepth 100000 in
set_option synthInstance.maxSize 2000 in
set_option synthInstance.maxHeartbeats 200000 in
theorem frameSampleTour_WF : WF frameSampleTour.m :=
  ⟨by decide!, by decide!, by decide!, by decide!, by decide!⟩

set_option maxRecDepth 100000 in
theorem frameSampleTour_GOK :
    GOK frameSampleTour.m frameSampleTour.m.cells frameSampleTour.m.InitBlock :=
  fun _ => ⟨fun _ => ⟨frameDetector, by decide!, by decide!, ⟨by decide!, by decide!⟩, by decide!⟩,
    fun hu => absurd hu (by decide!)⟩

set_option maxRecDepth 100000 in
/-- C28 on the object of the file `4 4` with the rows {1,2}, {3}, {2,3}, {4}.  With the
union-find detector the hypotheses hold for `InitBlock`, `DXD(InitBlock, 1)` returns (it
splits the block in two), and the block and the whole matrix object are as before.
With the Euler-tour detector and the parallel search the hypotheses hold as well, the
call returns with `enableGraphSync` switched off, and the block, the links and the sizes
are as before. -/
theorem C28_DXD_restores_block_and_matrix_witness :
    (WF frameSample.m ∧
      (∀ x, x < frameSample.m.nodes → frameSample.m.COLS < x →
        ∀ y ∈ frameSample.m.mates x, nth frameSample.m.col y ≠ nth frameSample.m.col x) ∧
      (∀ c ∈ frameSample.m.InitBlock.cols, nth frameSample.m.col c = c) ∧
      frameSample.m.InitBlock.rows.Sorted (· < ·) ∧ frameSample.m.InitBlock.cols.Sorted (· < ·) ∧
      (∀ c ∈ frameSample.m.InitBlock.cols, c ∈ frameSample.m.uncovered) ∧
      (∀ c ∈ frameSample.m.InitBlock.cols, ∀ x ∈ frameSample.m.cells c,
        nth frameSample.m.row x ∈ frameSample.m.InitBlock.rows) ∧
      (∀ c ∈ frameSample.m.InitBlock.cols, ∀ x ∈ frameSample.m.cells c,
        ∀ y ∈ frameSample.m.mates x, nth frameSample.m.col y ∈ frameSample.m.InitBlock.cols) ∧
      GOK frameSample.m frameSample.m.cells frameSample.m.InitBlock ∧
      ∃ r b1 s1, DXD 5 frameSample frameSample.m.InitBlock 1 = Outcome.ok (r, b1, s1) ∧
        s1.MAX_B_COUNT = 2 ∧
        b1 = frameSample.m.InitBlock ∧ s1.m.left = frameSample.m.left ∧
        s1.m.right = frameSample.m.right ∧ s1.m.up = frameSample.m.up ∧
        s1.m.down = frameSample.m.down ∧ s1.m.size = frameSample.m.size ∧
        (frameSample.m.useETT = false → s1.m = frameSample.m)) ∧
    (WF frameSampleTour.m ∧
      (∀ x, x < frameSampleTour.m.nodes → frameSampleTour.m.COLS < x →
        ∀ y ∈ frameSampleTour.m.mates x,
          nth frameSampleTour.m.col y ≠ nth frameSampleTour.m.col x) ∧
      (∀ c ∈ frameSampleTour.m.InitBlock.cols, nth frameSampleTour.m.col c = c) ∧
      frameSampleTour.m.InitBlock.rows.Sorted (· < ·) ∧
      frameSampleTour.m.InitBlock.cols.Sorted (· < ·) ∧
      (∀ c ∈ frameSampleTour.m.InitBlock.cols, c ∈ frameSampleTour.m.uncovered) ∧
      (∀ c ∈ frameSampleTour.m.InitBlock.cols, ∀ x ∈ frameSampleTour.m.cells c,
        nth frameSampleTour.m.row x ∈ frameSampleTour.m.InitBlock.rows) ∧
      (∀ c ∈ frameSampleTour.m.InitBlock.cols, ∀ x ∈ frameSampleTour.m.cells c,
        ∀ y ∈ frameSampleTour.m.mates x,
          nth frameSampleTour.m.col y ∈ frameSampleTour.m.InitBlock.cols) ∧
      GOK frameSampleTour.m frameSampleTour.m.cells frameSampleTour.m.InitBlock ∧
      ∃ r b1 s1, DXD 5 frameSampleTour frameSampleTour.m.InitBlock 1 = Outcome.ok (r, b1, s1) ∧
        (s1.MAX_B_COUNT = 2 ∧ s1.m.enableGraphSync = false) ∧
        b1 = frameSampleTour.m.InitBlock ∧ s1.m.left = frameSampleTour.m.left ∧
        s1.m.right = frameSampleTour.m.right ∧ s1.m.up = frameSampleTour.m.up ∧
        s1.m.down = frameSampleTour.m.down ∧ s1.m.size = frameSampleTour.m.size ∧
        (frameSampleTour.m.useETT = false → s1.m = frameSampleTour.m)) := by
  have hrun : (returned (DXD 5 frameSample frameSample.m.InitBlock 1)).map
      (fun p => p.2.2.MAX_B_COUNT) = some 2 := by decide!
  have hrun2 : (returned (DXD 5 frameSampleTour frameSampleTour.m.InitBlock 1)).map
      (fun p => (p.2.2.MAX_B_COUNT, p.2.2.m.enableGraphSync)) = some (2, false) := by decide!
  refine ⟨⟨frameSample_WF, by decide!, by decide!, by decide!, by decide!, by decide!,
    by decide!, by decide!, frameSample_GOK, ?_⟩,
    ⟨frameSampleTour_WF, by decide!, by decide!, by decide!, by decide!, by decide!,
    by decide!, by decide!, frameSampleTour_GOK, ?_⟩⟩
  · cases h : DXD 5 frameSample frameSample.m.InitBlock 1 with
    | ok p =>
      rw [h] at hrun
      exact ⟨p.1, p.2.1, p.2.2, rfl, by simpa [returned] using hrun,
        C28_DXD_restores_block_and_matrix 5 frameSample frameSample.m.InitBlock 1 p.1 p.2.1 p.2.2
          frameSample_WF (by decide!) (by decide!) (by decide!) (by decide!) (by decide!)
          (by decide!) (by decide!) frameSample_GOK h⟩
    | timeBound => rw [h] at hrun; cases hrun
    | diverged => rw [h] at hrun; cases hrun
  · cases h : DXD 5 frameSampleTour frameSampleTour.m.InitBlock 1 with
    | ok p =>
      rw [h] at hrun2
      exact ⟨p.1, p.2.1, p.2.2, rfl, by simpa [returned] using hrun2,
        C28_DXD_restores_block_and_matrix 5 frameSampleTour frameSampleTour.m.InitBlock 1 p.1 p.2.1
          p.2.2 frameSampleTour_WF (by decide!) (by decide!) (by decide!) (by decide!)
          (by decide!) (by decide!) (by decide!) frameSampleTour_GOK h⟩
    | timeBound => rw [h] at hrun2; cases hrun2
    | diverged => rw [h] at hrun2; cases hrun2

/-! # The classes of `IsConnected` after `Initialize` -/

/-! ## The Euler-tour forest: nodes, ancestors and roots -/

theorem node_default (t : SplayETT) (x : Nat) (h : t.pool.length ≤ x) : t.node x = default := by
  unfold SplayETT.node
  exact List.getD_eq_default _ _ h

theorem lt_of_parent (t : SplayETT) (x p : Nat) (h : (t.node x).parent = some p) :
    x < t.pool.length := by
  by_contra hx
  rw [node_default t x (by omega)] at h
  exact Option.noConfusion h

theorem lt_of_left (t : SplayETT) (x c : Nat) (h : (t.node x).left = some c) :
    x < t.pool.length := by
  by_contra hx
  rw [node_default t x (by omega)] at h
  exact Option.noConfusion h

theorem lt_of_right (t : SplayETT) (x c : Nat) (h : (t.node x).right = some c) :
    x < t.pool.length := by
  by_contra hx
  rw [node_default t x (by omega)] at h
  exact Option.noConfusion h

theorem length_setNode (t : SplayETT) (a : Nat) (nd : ETTNode) :
    (t.setNode a nd).pool.length = t.pool.length := by
  simp [SplayETT.setNode]

theorem node_setNode (t : SplayETT) (a : Nat) (nd : ETTNode) (y : Nat) :
    (t.setNode a nd).node y = if y = a ∧ a < t.pool.length then nd else t.node y := by
  unfold SplayETT.node SplayETT.setNode
  by_cases h : y = a
  · subst h
    by_cases hy : y < t.pool.length
    · simp [hy, List.getD_eq_getElem?_getD]
    · simp only [hy, and_false, if_false]
      rw [List.getD_eq_default _ _ (by simp; omega), List.getD_eq_default _ _ (by omega)]
  · have h2 : ¬ (y = a ∧ a < t.pool.length) := fun hh => h hh.1
    rw [if_neg h2]
    simp only [List.getD_eq_getElem?_getD]
    rw [List.getElem?_set_ne (Ne.symm h)]

theorem node_setNode_self (t : SplayETT) (a : Nat) (nd : ETTNode) (h : a < t.pool.length) :
    (t.setNode a nd).node a = nd := by
  rw [node_setNode]
  simp [h]

theorem node_setNode_ne (t : SplayETT) (a : Nat) (nd : ETTNode) (y : Nat) (h : y ≠ a) :
    (t.setNode a nd).node y = t.node y := by
  rw [node_setNode]
  simp [h]

theorem pushDown_id (t : SplayETT) (x : Option Nat)
    (h : ∀ y, (t.node y).reversed = false) : t.pushDown x = t := by
  cases x with
  | none => rfl
  | some x => simp [SplayETT.pushDown, h x]

theorem anc_unique (t : SplayETT) : ∀ (l1 l2 : List Nat) (y : Nat),
    Anc t y l1 → Anc t y l2 → l1 = l2 := by
  intro l1
  induction l1 with
  | nil =>
    intro l2 y h1 h2
    cases l2 with
    | nil => rfl
    | cons p l =>
      simp only [Anc] at h1 h2
      rw [h1] at h2
      exact Option.noConfusion h2.1
  | cons p l ih =>
    intro l2 y h1 h2
    cases l2 with
    | nil =>
      simp only [Anc] at h1 h2
      rw [h2] at h1
      exact Option.noConfusion h1.1
    | cons q l2 =>
      simp only [Anc] at h1 h2
      have e : p = q := by
        have := h1.1
        rw [h2.1] at this
        exact (Option.some.inj this).symm
      subst e
      rw [ih l2 p h1.2 h2.2]

/-- Every ancestor has its own chain, a proper suffix of the chain of the node. -/
theorem anc_suffix (t : SplayETT) : ∀ (l : List Nat) (y z : Nat), Anc t y l → z ∈ l →
    ∃ l1, Anc t z l1 ∧ l1.length < l.length ∧ l1.getLastD z = l.getLastD y := by
  intro l
  induction l with
  | nil =>
    intro y z _ hz
    simp at hz
  | cons p l ih =>
    intro y z h hz
    simp only [Anc] at h
    rcases List.mem_cons.mp hz with hz | hz
    · subst hz
      refine ⟨l, h.2, by simp, ?_⟩
      cases l <;> simp [List.getLastD]
    · obtain ⟨l1, h1, h2, h3⟩ := ih p z h.2 hz
      refine ⟨l1, h1, by simp; omega, ?_⟩
      rw [h3]
      cases l <;> simp [List.getLastD] at hz ⊢

theorem anc_not_mem (t : SplayETT) (l : List Nat) (y : Nat) (h : Anc t y l) : y ∉ l := by
  intro hy
  obtain ⟨l1, h1, h2, _⟩ := anc_suffix t l y y h hy
  have := anc_unique t l1 l y h1 h
  rw [this] at h2
  omega

theorem anc_nodup (t : SplayETT) : ∀ (l : List Nat) (y : Nat), Anc t y l → (y :: l).Nodup := by
  intro l
  induction l with
  | nil =>
    intro y _
    simp
  | cons p l ih =>
    intro y h
    refine List.nodup_cons.mpr ⟨anc_not_mem t _ y h, ?_⟩
    simp only [Anc] at h
    exact ih p h.2

theorem anc_lt (t : SplayETT) (hp : ∀ x p, (t.node x).parent = some p → p < t.pool.length) :
    ∀ (l : List Nat) (y : Nat), Anc t y l → ∀ z ∈ l, z < t.pool.length := by
  intro l
  induction l with
  | nil =>
    intro y _ z hz
    simp at hz
  | cons p l ih =>
    intro y h z hz
    simp only [Anc] at h
    rcases List.mem_cons.mp hz with hz | hz
    · subst hz
      exact hp y z h.1
    · exact ih p h.2 z hz

theorem anc_length (t : SplayETT) (hp : ∀ x p, (t.node x).parent = some p → p < t.pool.length)
    (l : List Nat) (y : Nat) (h : Anc t y l) : l.length ≤ t.pool.length := by
  have h1 := (List.nodup_cons.mp (anc_nodup t l y h)).2
  exact nodup_bounded_length _ _ h1 (anc_lt t hp l y h)

theorem anc_length_lt (t : SplayETT)
    (hp : ∀ x p, (t.node x).parent = some p → p < t.pool.length)
    (l : List Nat) (y : Nat) (h : Anc t y l) (hl : l ≠ []) : l.length + 1 ≤ t.pool.length := by
  have h1 := anc_nodup t l y h
  have hy : y < t.pool.length := by
    cases l with
    | nil => exact absurd rfl hl
    | cons p l =>
      simp only [Anc] at h
      exact lt_of_parent t y p h.1
  have := nodup_bounded_length t.pool.length (y :: l) h1 (by
    intro z hz
    rcases List.mem_cons.mp hz with hz | hz
    · rw [hz]
      exact hy
    · exact anc_lt t hp l y h z hz)
  simpa using this

theorem getRootLoop_anc (t : SplayETT) : ∀ (l : List Nat) (y f : Nat), Anc t y l →
    l.length < f → getRootLoop t f y = some (l.getLastD y) := by
  intro l
  induction l with
  | nil =>
    intro y f h hf
    obtain ⟨k, rfl⟩ : ∃ k, f = k + 1 := ⟨f - 1, by omega⟩
    simp only [Anc] at h
    simp [getRootLoop, h]
  | cons p l ih =>
    intro y f h hf
    obtain ⟨k, rfl⟩ : ∃ k, f = k + 1 := ⟨f - 1, by simp at hf; omega⟩
    simp only [Anc] at h
    simp only [getRootLoop, h.1]
    rw [ih p k h.2 (by simp at hf; omega)]
    cases l <;> simp [List.getLastD]

theorem rootOf_unique (t : SplayETT) (y a b : Nat) (ha : RootOf t y a) (hb : RootOf t y b) :
    a = b := by
  obtain ⟨l1, h1, e1⟩ := ha
  obtain ⟨l2, h2, e2⟩ := hb
  rw [← e1, ← e2, anc_unique t l1 l2 y h1 h2]

theorem rootOf_exists (t : SplayETT) (hf : SplayForest t) (y : Nat) : ∃ r, RootOf t y r := by
  obtain ⟨l, h⟩ := hf.anc y
  exact ⟨_, l, h, rfl⟩

theorem getRoot_rootOf (t : SplayETT) (hf : SplayForest t) (y r : Nat) (h : RootOf t y r) :
    t.getRoot y = some r := by
  obtain ⟨l, h1, e⟩ := h
  unfold SplayETT.getRoot
  rw [getRootLoop_anc t l y _ h1 (by have := anc_length t hf.par_lt l y h1; omega), e]

theorem rootOf_self (t : SplayETT) (r : Nat) (h : (t.node r).parent = none) : RootOf t r r :=
  ⟨[], h, rfl⟩

theorem rootOf_parent (t : SplayETT) (y p r : Nat) (h : (t.node y).parent = some p) :
    RootOf t y r ↔ RootOf t p r := by
  constructor
  · rintro ⟨l, h1, e⟩
    cases l with
    | nil =>
      simp only [Anc] at h1
      rw [h1] at h
      exact Option.noConfusion h
    | cons q l =>
      simp only [Anc] at h1
      have e2 : q = p := by
        have := h1.1
        rw [h] at this
        exact (Option.some.inj this).symm
      subst e2
      refine ⟨l, h1.2, ?_⟩
      rw [← e]
      cases l <;> simp [List.getLastD]
  · rintro ⟨l, h1, e⟩
    refine ⟨p :: l, ⟨h, h1⟩, ?_⟩
    rw [← e]
    cases l <;> simp [List.getLastD]

theorem rootOf_root (t : SplayETT) (y r : Nat) (h : RootOf t y r) : (t.node r).parent = none := by
  obtain ⟨l, h1, e⟩ := h
  induction l generalizing y with
  | nil =>
    simp only [Anc] at h1
    simp only [List.getLastD] at e
    rw [← e]
    exact h1
  | cons p l ih =>
    simp only [Anc] at h1
    apply ih p h1.2
    rw [← e]
    cases l <;> simp [List.getLastD]

theorem rootOf_lt (t : SplayETT) (hf : SplayForest t) (y r : Nat) (h : RootOf t y r)
    (hy : y < t.pool.length) : r < t.pool.length := by
  obtain ⟨l, h1, e⟩ := h
  cases l with
  | nil =>
    simp only [List.getLastD] at e
    rw [← e]
    exact hy
  | cons p l =>
    have := anc_lt t hf.par_lt _ y h1 ((p :: l).getLastD y) (by
      rw [List.getLastD_cons]
      exact getLastD_mem l p)
    rw [← e]
    exact this

theorem connected_rootOf (t : SplayETT) (hf : SplayForest t) (u v a b : Nat)
    (ha : RootOf t (nth t.vertexNodes u) a) (hb : RootOf t (nth t.vertexNodes v) b) :
    t.connected u v = some (decide (a = b)) := by
  simp only [SplayETT.connected, getRoot_rootOf t hf _ _ ha, getRoot_rootOf t hf _ _ hb]

/-! ## Rotations -/

/-- A node, its parent and its grandparent are three different nodes, and so are a
child, its parent and the ancestors. -/
theorem anc_distinct2 (t : SplayETT) (hf : SplayForest t) (x p : Nat)
    (hp : (t.node x).parent = some p) : x ≠ p := by
  obtain ⟨l, hl⟩ := hf.anc x
  have hn := anc_nodup t l x hl
  cases l with
  | nil =>
    simp only [Anc] at hl
    rw [hl] at hp
    exact Option.noConfusion hp
  | cons q l =>
    simp only [Anc] at hl
    have e : q = p := by
      have := hl.1
      rw [hp] at this
      exact (Option.some.inj this).symm
    subst e
    intro h
    subst h
    simp at hn

theorem anc_distinct3 (t : SplayETT) (hf : SplayForest t) (x p g : Nat)
    (hp : (t.node x).parent = some p) (hg : (t.node p).parent = some g) :
    x ≠ p ∧ x ≠ g ∧ p ≠ g := by
  obtain ⟨l, hl⟩ := hf.anc x
  have hn := anc_nodup t l x hl
  cases l with
  | nil =>
    simp only [Anc] at hl
    rw [hl] at hp
    exact Option.noConfusion hp
  | cons q l =>
    simp only [Anc] at hl
    have e : q = p := by
      have := hl.1
      rw [hp] at this
      exact (Option.some.inj this).symm
    subst e
    cases l with
    | nil =>
      simp only [Anc] at hl
      rw [hl.2] at hg
      exact Option.noConfusion hg
    | cons q2 l =>
      simp only [Anc] at hl
      have e : q2 = g := by
        have := hl.2.1
        rw [hg] at this
        exact (Option.some.inj this).symm
      subst e
      simp only [List.nodup_cons, List.mem_cons, not_or] at hn
      exact ⟨hn.1.1, hn.1.2.1, hn.2.1.1⟩

theorem anc_distinct4 (t : SplayETT) (hf : SplayForest t) (c x p g : Nat)
    (hc : (t.node c).parent = some x)
    (hp : (t.node x).parent = some p) (hg : (t.node p).parent = some g) :
    c ≠ x ∧ c ≠ p ∧ c ≠ g := by
  have h1 := anc_distinct3 t hf c x p hc hp
  refine ⟨h1.1, h1.2.1, ?_⟩
  obtain ⟨l, hl⟩ := hf.anc c
  have hn := anc_nodup t l c hl
  cases l with
  | nil =>
    simp only [Anc] at hl
    rw [hl] at hc
    exact Option.noConfusion hc
  | cons q l =>
    simp only [Anc] at hl
    have e : q = x := by
      have := hl.1
      rw [hc] at this
      exact (Option.some.inj this).symm
    subst e
    cases l with
    | nil =>
      simp only [Anc] at hl
      rw [hl.2] at hp
      exact Option.noConfusion hp
    | cons q2 l =>
      simp only [Anc] at hl
      have e : q2 = p := by
        have := hl.2.1
        rw [hp] at this
        exact (Option.some.inj this).symm
      subst e
      cases l with
      | nil =>
        simp only [Anc] at hl
        rw [hl.2.2] at hg
        exact Option.noConfusion hg
      | cons q3 l =>
        simp only [Anc] at hl
        have e : q3 = g := by
          have := hl.2.2.1
          rw [hg] at this
          exact (Option.some.inj this).symm
        subst e
        simp only [List.nodup_cons, List.mem_cons, not_or] at hn
        exact hn.1.2.2.1

theorem rotate_eq_rotComp (t : SplayETT) (hf : SplayForest t) (x p : Nat)
    (hp : (t.node x).parent = some p) : t.rotate x = rotComp t x p := by
  have hpd : (t.pushDown (some p)).pushDown (some x) = t := by
    rw [pushDown_id t _ hf.rev, pushDown_id t _ hf.rev]
  unfold SplayETT.rotate rotComp SplayETT.setLeft SplayETT.setRight SplayETT.setParent
  simp only [hp, hpd]

theorem setLeft_length (t : SplayETT) (a : Nat) (v : Option Nat) :
    (t.setLeft a v).pool.length = t.pool.length := by
  simp [SplayETT.setLeft, SplayETT.setNode]

theorem setLeft_fields (t : SplayETT) (a : Nat) (v : Option Nat) :
    (t.setLeft a v).vertexNodes = t.vertexNodes ∧ (t.setLeft a v).edges = t.edges ∧
    (t.setLeft a v).global_counter = t.global_counter := by
  simp [SplayETT.setLeft, SplayETT.setNode]

theorem setLeft_left (t : SplayETT) (a : Nat) (v : Option Nat) (y : Nat) :
    ((t.setLeft a v).node y).left = if y = a ∧ a < t.pool.length then v else (t.node y).left := by
  unfold SplayETT.setLeft
  rw [node_setNode]
  split_ifs <;> rfl

theorem setLeft_right (t : SplayETT) (a : Nat) (v : Option Nat) (y : Nat) :
    ((t.setLeft a v).node y).right = (t.node y).right := by
  unfold SplayETT.setLeft
  rw [node_setNode]
  split_ifs with h
  · rw [h.1]
  · rfl

theorem setLeft_parent (t : SplayETT) (a : Nat) (v : Option Nat) (y : Nat) :
    ((t.setLeft a v).node y).parent = (t.node y).parent := by
  unfold SplayETT.setLeft
  rw [node_setNode]
  split_ifs with h
  · rw [h.1]
  · rfl

theorem setLeft_rev (t : SplayETT) (a : Nat) (v : Option Nat) (y : Nat) :
    ((t.setLeft a v).node y).reversed = (t.node y).reversed := by
  unfold SplayETT.setLeft
  rw [node_setNode]
  split_ifs with h
  · rw [h.1]
  · rfl

theorem setLeft_id (t : SplayETT) (a : Nat) (v : Option Nat) (y : Nat) :
    ((t.setLeft a v).node y).node_id = (t.node y).node_id := by
  unfold SplayETT.setLeft
  rw [node_setNode]
  split_ifs with h
  · rw [h.1]
  · rfl

theorem setRight_length (t : SplayETT) (a : Nat) (v : Option Nat) :
    (t.setRight a v).pool.length = t.pool.length := by
  simp [SplayETT.setRight, SplayETT.setNode]

theorem setRight_fields (t : SplayETT) (a : Nat) (v : Option Nat) :
    (t.setRight a v).vertexNodes = t.vertexNodes ∧ (t.setRight a v).edges = t.edges ∧
    (t.setRight a v).global_counter = t.global_counter := by
  simp [SplayETT.setRight, SplayETT.setNode]

theorem setRight_left (t : SplayETT) (a : Nat) (v : Option Nat) (y : Nat) :
    ((t.setRight a v).node y).left = (t.node y).left := by
  unfold SplayETT.setRight
  rw [node_setNode]
  split_ifs with h
  · rw [h.1]
  · rfl

theorem setRight_right (t : SplayETT) (a : Nat) (v : Option Nat) (y : Nat) :
    ((t.setRight a v).node y).right = if y = a ∧ a < t.pool.length then v else (t.node y).right := by
  unfold SplayETT.setRight
  rw [node_setNode]
  split_ifs <;> rfl

theorem setRight_parent (t : SplayETT) (a : Nat) (v : Option Nat) (y : Nat) :
    ((t.setRight a v).node y).parent = (t.node y).parent := by
  unfold SplayETT.setRight
  rw [node_setNode]
  split_ifs with h
  · rw [h.1]
  · rfl

theorem setRight_rev (t : SplayETT) (a : Nat) (v : Option Nat) (y : Nat) :
    ((t.setRight a v).node y).reversed = (t.node y).reversed := by
  unfold SplayETT.setRight
  rw [node_setNode]
  split_ifs with h
  · rw [h.1]
  · rfl

theorem setRight_id (t : SplayETT) (a : Nat) (v : Option Nat) (y : Nat) :
    ((t.setRight a v).node y).node_id = (t.node y).node_id := by
  unfold SplayETT.setRight
  rw [node_setNode]
  split_ifs with h
  · rw [h.1]
  · rfl

theorem setParent_length (t : SplayETT) (a : Nat) (v : Option Nat) :
    (t.setParent a v).pool.length = t.pool.length := by
  simp [SplayETT.setParent, SplayETT.setNode]

theorem setParent_fields (t : SplayETT) (a : Nat) (v : Option Nat) :
    (t.setParent a v).vertexNodes = t.vertexNodes ∧ (t.setParent a v).edges = t.edges ∧
    (t.setParent a v).global_counter = t.global_counter := by
  simp [SplayETT.setParent, SplayETT.setNode]

theorem setParent_left (t : SplayETT) (a : Nat) (v : Option Nat) (y : Nat) :
    ((t.setParent a v).node y).left = (t.node y).left := by
  unfold SplayETT.setParent
  rw [node_setNode]
  split_ifs with h
  · rw [h.1]
  · rfl

theorem setParent_right (t : SplayETT) (a : Nat) (v : Option Nat) (y : Nat) :
    ((t.setParent a v).node y).right = (t.node y).right := by
  unfold SplayETT.setParent
  rw [node_setNode]
  split_ifs with h
  · rw [h.1]
  · rfl

theorem setParent_parent (t : SplayETT) (a : Nat) (v : Option Nat) (y : Nat) :
    ((t.setParent a v).node y).parent = if y = a ∧ a < t.pool.length then v else (t.node y).parent := by
  unfold SplayETT.setParent
  rw [node_setNode]
  split_ifs <;> rfl

theorem setParent_rev (t : SplayETT) (a : Nat) (v : Option Nat) (y : Nat) :
    ((t.setParent a v).node y).reversed = (t.node y).reversed := by
  unfold SplayETT.setParent
  rw [node_setNode]
  split_ifs with h
  · rw [h.1]
  · rfl

theorem setParent_id (t : SplayETT) (a : Nat) (v : Option Nat) (y : Nat) :
    ((t.setParent a v).node y).node_id = (t.node y).node_id := by
  unfold SplayETT.setParent
  rw [node_setNode]
  split_ifs with h
  · rw [h.1]
  · rfl

set_option maxHeartbeats 1000000 in
theorem rotL_parent (t : SplayETT) (hf : SplayForest t) (x p : Nat)
    (hp : (t.node x).parent = some p) (hL : (t.node p).left = some x) (y : Nat) :
    ((t.rotate x).node y).parent =
      (if y = x then (t.node p).parent else if y = p then some x
        else if (t.node x).right = some y then some p else (t.node y).parent) := by
  have hx : x < t.pool.length := lt_of_parent t x p hp
  have hpl : p < t.pool.length := hf.par_lt x p hp
  have hxp : x ≠ p := anc_distinct2 t hf x p hp
  have hpx : p ≠ x := Ne.symm hxp
  rw [rotate_eq_rotComp t hf x p hp]
  unfold rotComp
  cases hB : (t.node x).right with
  | none =>
    cases hg : (t.node p).parent with
    | none =>
      by_cases hy0 : y = x <;> by_cases hy1 : y = p <;>
        simp_all [setLeft_left, setLeft_right, setLeft_parent, setRight_left, setRight_right, setRight_parent,
        setParent_left, setParent_right, setParent_parent, setLeft_length, setRight_length,
        setParent_length]
    | some gg =>
      have hgl : gg < t.pool.length := hf.par_lt p gg hg
      obtain ⟨_, d2, d3⟩ := anc_distinct3 t hf x p gg hp hg
      have d2s := Ne.symm d2
      have d3s := Ne.symm d3
      have c2 : (gg = y) = (y = gg) := propext ⟨Eq.symm, Eq.symm⟩
      clear hf hp
      by_cases hgL : (t.node gg).left = some p
      · by_cases hy0 : y = x <;> by_cases hy1 : y = p <;> by_cases hy2 : y = gg <;>
          simp_all [setLeft_left, setLeft_right, setLeft_parent, setRight_left, setRight_right, setRight_parent,
        setParent_left, setParent_right, setParent_parent, setLeft_length, setRight_length,
        setParent_length]
      · by_cases hy0 : y = x <;> by_cases hy1 : y = p <;> by_cases hy2 : y = gg <;>
          simp_all [setLeft_left, setLeft_right, setLeft_parent, setRight_left, setRight_right, setRight_parent,
        setParent_left, setParent_right, setParent_parent, setLeft_length, setRight_length,
        setParent_length]
  | some r =>
    obtain ⟨hrl, hrp⟩ := hf.right_par x r hB
    have e1 := anc_distinct2 t hf r x hrp
    have e2 := (anc_distinct3 t hf r x p hrp hp).2.1
    have e1s := Ne.symm e1
    have e2s := Ne.symm e2
    cases hg : (t.node p).parent with
    | none =>
      have c1 : (r = y) = (y = r) := propext ⟨Eq.symm, Eq.symm⟩
      clear hf hp hrp
      by_cases hy0 : y = x <;> by_cases hy1 : y = p <;> by_cases hy2 : y = r <;>
        simp_all [setLeft_left, setLeft_right, setLeft_parent, setRight_left, setRight_right, setRight_parent,
        setParent_left, setParent_right, setParent_parent, setLeft_length, setRight_length,
        setParent_length]
    | some gg =>
      have hgl : gg < t.pool.length := hf.par_lt p gg hg
      obtain ⟨_, d2, d3⟩ := anc_distinct3 t hf x p gg hp hg
      have d2s := Ne.symm d2
      have d3s := Ne.symm d3
      have c2 : (gg = y) = (y = gg) := propext ⟨Eq.symm, Eq.symm⟩
      have e3 := (anc_distinct4 t hf r x p gg hrp hp hg).2.2
      have e3s := Ne.symm e3
      have c1 : (r = y) = (y = r) := propext ⟨Eq.symm, Eq.symm⟩
      clear hf hp hrp
      by_cases hgL : (t.node gg).left = some p
      · by_cases hy0 : y = x <;> by_cases hy1 : y = p <;> by_cases hy2 : y = r <;> by_cases hy3 : y = gg <;>
          simp_all [setLeft_left, setLeft_right, setLeft_parent, setRight_left, setRight_right, setRight_parent,
        setParent_left, setParent_right, setParent_parent, setLeft_length, setRight_length,
        setParent_length]
      · by_cases hy0 : y = x <;> by_cases hy1 : y = p <;> by_cases hy2 : y = r <;> by_cases hy3 : y = gg <;>
          simp_all [setLeft_left, setLeft_right, setLeft_parent, setRight_left, setRight_right, setRight_parent,
        setParent_left, setParent_right, setParent_parent, setLeft_length, setRight_length,
        setParent_length]

set_option maxHeartbeats 1000000 in
theorem rotL_left (t : SplayETT) (hf : SplayForest t) (x p : Nat)
    (hp : (t.node x).parent = some p) (hL : (t.node p).left = some x) (y : Nat) :
    ((t.rotate x).node y).left =
      (if y = p then (t.node x).right
        else if (t.node p).parent = some y ∧ (t.node y).left = some p then some x
        else (t.node y).left) := by
  have hx : x < t.pool.length := lt_of_parent t x p hp
  have hpl : p < t.pool.length := hf.par_lt x p hp
  have hxp : x ≠ p := anc_distinct2 t hf x p hp
  have hpx : p ≠ x := Ne.symm hxp
  rw [rotate_eq_rotComp t hf x p hp]
  unfold rotComp
  cases hB : (t.node x).right with
  | none =>
    cases hg : (t.node p).parent with
    | none =>
      by_cases hy0 : y = x <;> by_cases hy1 : y = p <;>
        simp_all [setLeft_left, setLeft_right, setLeft_parent, setRight_left, setRight_right, setRight_parent,
        setParent_left, setParent_right, setParent_parent, setLeft_length, setRight_length,
        setParent_length]
    | some gg =>
      have hgl : gg < t.pool.length := hf.par_lt p gg hg
      obtain ⟨_, d2, d3⟩ := anc_distinct3 t hf x p gg hp hg
      have d2s := Ne.symm d2
      have d3s := Ne.symm d3
      have c2 : (gg = y) = (y = gg) := propext ⟨Eq.symm, Eq.symm⟩
      clear hf hp
      by_cases hgL : (t.node gg).left = some p
      · by_cases hy0 : y = x <;> by_cases hy1 : y = p <;> by_cases hy2 : y = gg <;>
          simp_all [setLeft_left, setLeft_right, setLeft_parent, setRight_left, setRight_right, setRight_parent,
        setParent_left, setParent_right, setParent_parent, setLeft_length, setRight_length,
        setParent_length]
      · by_cases hy0 : y = x <;> by_cases hy1 : y = p <;> by_cases hy2 : y = gg <;>
          simp_all [setLeft_left, setLeft_right, setLeft_parent, setRight_left, setRight_right, setRight_parent,
        setParent_left, setParent_right, setParent_parent, setLeft_length, setRight_length,
        setParent_length]
  | some r =>
    obtain ⟨hrl, hrp⟩ := hf.right_par x r hB
    have e1 := anc_distinct2 t hf r x hrp
    have e2 := (anc_distinct3 t hf r x p hrp hp).2.1
    have e1s := Ne.symm e1
    have e2s := Ne.symm e2
    cases hg : (t.node p).parent with
    | none =>
      have c1 : (r = y) = (y = r) := propext ⟨Eq.symm, Eq.symm⟩
      clear hf hp hrp
      by_cases hy0 : y = x <;> by_cases hy1 : y = p <;> by_cases hy2 : y = r <;>
        simp_all [setLeft_left, setLeft_right, setLeft_parent, setRight_left, setRight_right, setRight_parent,
        setParent_left, setParent_right, setParent_parent, setLeft_length, setRight_length,
        setParent_length]
    | some gg =>
      have hgl : gg < t.pool.length := hf.par_lt p gg hg
      obtain ⟨_, d2, d3⟩ := anc_distinct3 t hf x p gg hp hg
      have d2s := Ne.symm d2
      have d3s := Ne.symm d3
      have c2 : (gg = y) = (y = gg) := propext ⟨Eq.symm, Eq.symm⟩
      have e3 := (anc_distinct4 t hf r x p gg hrp hp hg).2.2
      have e3s := Ne.symm e3
      have c1 : (r = y) = (y = r) := propext ⟨Eq.symm, Eq.symm⟩
      clear hf hp hrp
      by_cases hgL : (t.node gg).left = some p
      · by_cases hy0 : y = x <;> by_cases hy1 : y = p <;> by_cases hy2 : y = r <;> by_cases hy3 : y = gg <;>
          simp_all [setLeft_left, setLeft_right, setLeft_parent, setRight_left, setRight_right, setRight_parent,
        setParent_left, setParent_right, setParent_parent, setLeft_length, setRight_length,
        setParent_length]
      · by_cases hy0 : y = x <;> by_cases hy1 : y = p <;> by_cases hy2 : y = r <;> by_cases hy3 : y = gg <;>
          simp_all [setLeft_left, setLeft_right, setLeft_parent, setRight_left, setRight_right, setRight_parent,
        setParent_left, setParent_right, setParent_parent, setLeft_length, setRight_length,
        setParent_length]

set_option maxHeartbeats 1000000 in
theorem rotL_right (t : SplayETT) (hf : SplayForest t) (x p : Nat)
    (hp : (t.node x).parent = some p) (hL : (t.node p).left = some x) (y : Nat) :
    ((t.rotate x).node y).right =
      (if y = x then some p
        else if (t.node p).parent = some y ∧ (t.node y).left ≠ some p then some x
        else (t.node y).right) := by
  have hx : x < t.pool.length := lt_of_parent t x p hp
  have hpl : p < t.pool.length := hf.par_lt x p hp
  have hxp : x ≠ p := anc_distinct2 t hf x p hp
  have hpx : p ≠ x := Ne.symm hxp
  rw [rotate_eq_rotComp t hf x p hp]
  unfold rotComp
  cases hB : (t.node x).right with
  | none =>
    cases hg : (t.node p).parent with
    | none =>
      by_cases hy0 : y = x <;> by_cases hy1 : y = p <;>
        simp_all [setLeft_left, setLeft_right, setLeft_parent, setRight_left, setRight_right, setRight_parent,
        setParent_left, setParent_right, setParent_parent, setLeft_length, setRight_length,
        setParent_length]
    | some gg =>
      have hgl : gg < t.pool.length := hf.par_lt p gg hg
      obtain ⟨_, d2, d3⟩ := anc_distinct3 t hf x p gg hp hg
      have d2s := Ne.symm d2
      have d3s := Ne.symm d3
      have c2 : (gg = y) = (y = gg) := propext ⟨Eq.symm, Eq.symm⟩
      clear hf hp
      by_cases hgL : (t.node gg).left = some p
      · by_cases hy0 : y = x <;> by_cases hy1 : y = p <;> by_cases hy2 : y = gg <;>
          simp_all [setLeft_left, setLeft_right, setLeft_parent, setRight_left, setRight_right, setRight_parent,
        setParent_left, setParent_right, setParent_parent, setLeft_length, setRight_length,
        setParent_length]
      · by_cases hy0 : y = x <;> by_cases hy1 : y = p <;> by_cases hy2 : y = gg <;>
          simp_all [setLeft_left, setLeft_right, setLeft_parent, setRight_left, setRight_right, setRight_parent,
        setParent_left, setParent_right, setParent_parent, setLeft_length, setRight_length,
        setParent_length]
  | some r =>
    obtain ⟨hrl, hrp⟩ := hf.right_par x r hB
    have e1 := anc_distinct2 t hf r x hrp
    have e2 := (anc_distinct3 t hf r x p hrp hp).2.1
    have e1s := Ne.symm e1
    have e2s := Ne.symm e2
    cases hg : (t.node p).parent with
    | none =>
      have c1 : (r = y) = (y = r) := propext ⟨Eq.symm, Eq.symm⟩
      clear hf hp hrp
      by_cases hy0 : y = x <;> by_cases hy1 : y = p <;> by_cases hy2 : y = r <;>
        simp_all [setLeft_left, setLeft_right, setLeft_parent, setRight_left, setRight_right, setRight_parent,
        setParent_left, setParent_right, setParent_parent, setLeft_length, setRight_length,
        setParent_length]
    | some gg =>
      have hgl : gg < t.pool.length := hf.par_lt p gg hg
      obtain ⟨_, d2, d3⟩ := anc_distinct3 t hf x p gg hp hg
      have d2s := Ne.symm d2
      have d3s := Ne.symm d3
      have c2 : (gg = y) = (y = gg) := propext ⟨Eq.symm, Eq.symm⟩
      have e3 := (anc_distinct4 t hf r x p gg hrp hp hg).2.2
      have e3s := Ne.symm e3
      have c1 : (r = y) = (y = r) := propext ⟨Eq.symm, Eq.symm⟩
      clear hf hp hrp
      by_cases hgL : (t.node gg).left = some p
      · by_cases hy0 : y = x <;> by_cases hy1 : y = p <;> by_cases hy2 : y = r <;> by_cases hy3 : y = gg <;>
          simp_all [setLeft_left, setLeft_right, setLeft_parent, setRight_left, setRight_right, setRight_parent,
        setParent_left, setParent_right, setParent_parent, setLeft_length, setRight_length,
        setParent_length]
      · by_cases hy0 : y = x <;> by_cases hy1 : y = p <;> by_cases hy2 : y = r <;> by_cases hy3 : y = gg <;>
          simp_all [setLeft_left, setLeft_right, setLeft_parent, setRight_left, setRight_right, setRight_parent,
        setParent_left, setParent_right, setParent_parent, setLeft_length, setRight_length,
        setParent_length]

set_option maxHeartbeats 1000000 in
theorem rotR_parent (t : SplayETT) (hf : SplayForest t) (x p : Nat)
    (hp : (t.node x).parent = some p) (hL : (t.node p).left ≠ some x) (y : Nat) :
    ((t.rotate x).node y).parent =
      (if y = x then (t.node p).parent else if y = p then some x
        else if (t.node x).left = some y then some p else (t.node y).parent) := by
  have hx : x < t.pool.length := lt_of_parent t x p hp
  have hpl : p < t.pool.length := hf.par_lt x p hp
  have hxp : x ≠ p := anc_distinct2 t hf x p hp
  have hpx : p ≠ x := Ne.symm hxp
  rw [rotate_eq_rotComp t hf x p hp]
  unfold rotComp
  cases hB : (t.node x).left with
  | none =>
    cases hg : (t.node p).parent with
    | none =>
      by_cases hy0 : y = x <;> by_cases hy1 : y = p <;>
        simp_all [setLeft_left, setLeft_right, setLeft_parent, setRight_left, setRight_right, setRight_parent,
        setParent_left, setParent_right, setParent_parent, setLeft_length, setRight_length,
        setParent_length]
    | some gg =>
      have hgl : gg < t.pool.length := hf.par_lt p gg hg
      obtain ⟨_, d2, d3⟩ := anc_distinct3 t hf x p gg hp hg
      have d2s := Ne.symm d2
      have d3s := Ne.symm d3
      have c2 : (gg = y) = (y = gg) := propext ⟨Eq.symm, Eq.symm⟩
      clear hf hp
      by_cases hgL : (t.node gg).left = some p
      · by_cases hy0 : y = x <;> by_cases hy1 : y = p <;> by_cases hy2 : y = gg <;>
          simp_all [setLeft_left, setLeft_right, setLeft_parent, setRight_left, setRight_right, setRight_parent,
        setParent_left, setParent_right, setParent_parent, setLeft_length, setRight_length,
        setParent_length]
      · by_cases hy0 : y = x <;> by_cases hy1 : y = p <;> by_cases hy2 : y = gg <;>
          simp_all [setLeft_left, setLeft_right, setLeft_parent, setRight_left, setRight_right, setRight_parent,
        setParent_left, setParent_right, setParent_parent, setLeft_length, setRight_length,
        setParent_length]
  | some r =>
    obtain ⟨hrl, hrp⟩ := hf.left_par x r hB
    have e1 := anc_distinct2 t hf r x hrp
    have e2 := (anc_distinct3 t hf r x p hrp hp).2.1
    have e1s := Ne.symm e1
    have e2s := Ne.symm e2
    cases hg : (t.node p).parent with
    | none =>
      have c1 : (r = y) = (y = r) := propext ⟨Eq.symm, Eq.symm⟩
      clear hf hp hrp
      by_cases hy0 : y = x <;> by_cases hy1 : y = p <;> by_cases hy2 : y = r <;>
        simp_all [setLeft_left, setLeft_right, setLeft_parent, setRight_left, setRight_right, setRight_parent,
        setParent_left, setParent_right, setParent_parent, setLeft_length, setRight_length,
        setParent_length]
    | some gg =>
      have hgl : gg < t.pool.length := hf.par_lt p gg hg
      obtain ⟨_, d2, d3⟩ := anc_distinct3 t hf x p gg hp hg
      have d2s := Ne.symm d2
      have d3s := Ne.symm d3
      have c2 : (gg = y) = (y = gg) := propext ⟨Eq.symm, Eq.symm⟩
      have e3 := (anc_distinct4 t hf r x p gg hrp hp hg).2.2
      have e3s := Ne.symm e3
      have c1 : (r = y) = (y = r) := propext ⟨Eq.symm, Eq.symm⟩
      clear hf hp hrp
      by_cases hgL : (t.node gg).left = some p
      · by_cases hy0 : y = x <;> by_cases hy1 : y = p <;> by_cases hy2 : y = r <;> by_cases hy3 : y = gg <;>
          simp_all [setLeft_left, setLeft_right, setLeft_parent, setRight_left, setRight_right, setRight_parent,
        setParent_left, setParent_right, setParent_parent, setLeft_length, setRight_length,
        setParent_length]
      · by_cases hy0 : y = x <;> by_cases hy1 : y = p <;> by_cases hy2 : y = r <;> by_cases hy3 : y = gg <;>
          simp_all [setLeft_left, setLeft_right, setLeft_parent, setRight_left, setRight_right, setRight_parent,
        setParent_left, setParent_right, setParent_parent, setLeft_length, setRight_length,
        setParent_length]

set_option maxHeartbeats 1000000 in
theorem rotR_left (t : SplayETT) (hf : SplayForest t) (x p : Nat)
    (hp : (t.node x).parent = some p) (hL : (t.node p).left ≠ some x) (y : Nat) :
    ((t.rotate x).node y).left =
      (if y = x then some p
        else if (t.node p).parent = some y ∧ (t.node y).left = some p then some x
        else (t.node y).left) := by
  have hx : x < t.pool.length := lt_of_parent t x p hp
  have hpl : p < t.pool.length := hf.par_lt x p hp
  have hxp : x ≠ p := anc_distinct2 t hf x p hp
  have hpx : p ≠ x := Ne.symm hxp
  rw [rotate_eq_rotComp t hf x p hp]
  unfold rotComp
  cases hB : (t.node x).left with
  | none =>
    cases hg : (t.node p).parent with
    | none =>
      by_cases hy0 : y = x <;> by_cases hy1 : y = p <;>
        simp_all [setLeft_left, setLeft_right, setLeft_parent, setRight_left, setRight_right, setRight_parent,
        setParent_left, setParent_right, setParent_parent, setLeft_length, setRight_length,
        setParent_length]
    | some gg =>
      have hgl : gg < t.pool.length := hf.par_lt p gg hg
      obtain ⟨_, d2, d3⟩ := anc_distinct3 t hf x p gg hp hg
      have d2s := Ne.symm d2
      have d3s := Ne.symm d3
      have c2 : (gg = y) = (y = gg) := propext ⟨Eq.symm, Eq.symm⟩
      clear hf hp
      by_cases hgL : (t.node gg).left = some p
      · by_cases hy0 : y = x <;> by_cases hy1 : y = p <;> by_cases hy2 : y = gg <;>
          simp_all [setLeft_left, setLeft_right, setLeft_parent, setRight_left, setRight_right, setRight_parent,
        setParent_left, setParent_right, setParent_parent, setLeft_length, setRight_length,
        setParent_length]
      · by_cases hy0 : y = x <;> by_cases hy1 : y = p <;> by_cases hy2 : y = gg <;>
          simp_all [setLeft_left, setLeft_right, setLeft_parent, setRight_left, setRight_right, setRight_parent,
        setParent_left, setParent_right, setParent_parent, setLeft_length, setRight_length,
        setParent_length]
  | some r =>
    obtain ⟨hrl, hrp⟩ := hf.left_par x r hB
    have e1 := anc_distinct2 t hf r x hrp
    have e2 := (anc_distinct3 t hf r x p hrp hp).2.1
    have e1s := Ne.symm e1
    have e2s := Ne.symm e2
    cases hg : (t.node p).parent with
    | none =>
      have c1 : (r = y) = (y = r) := propext ⟨Eq.symm, Eq.symm⟩
      clear hf hp hrp
      by_cases hy0 : y = x <;> by_cases hy1 : y = p <;> by_cases hy2 : y = r <;>
        simp_all [setLeft_left, setLeft_right, setLeft_parent, setRight_left, setRight_right, setRight_parent,
        setParent_left, setParent_right, setParent_parent, setLeft_length, setRight_length,
        setParent_length]
    | some gg =>
      have hgl : gg < t.pool.length := hf.par_lt p gg hg
      obtain ⟨_, d2, d3⟩ := anc_distinct3 t hf x p gg hp hg
      have d2s := Ne.symm d2
      have d3s := Ne.symm d3
      have c2 : (gg = y) = (y = gg) := propext ⟨Eq.symm, Eq.symm⟩
      have e3 := (anc_distinct4 t hf r x p gg hrp hp hg).2.2
      have e3s := Ne.symm e3
      have c1 : (r = y) = (y = r) := propext ⟨Eq.symm, Eq.symm⟩
      clear hf hp hrp
      by_cases hgL : (t.node gg).left = some p
      · by_cases hy0 : y = x <;> by_cases hy1 : y = p <;> by_cases hy2 : y = r <;> by_cases hy3 : y = gg <;>
          simp_all [setLeft_left, setLeft_right, setLeft_parent, setRight_left, setRight_right, setRight_parent,
        setParent_left, setParent_right, setParent_parent, setLeft_length, setRight_length,
        setParent_length]
      · by_cases hy0 : y = x <;> by_cases hy1 : y = p <;> by_cases hy2 : y = r <;> by_cases hy3 : y = gg <;>
          simp_all [setLeft_left, setLeft_right, setLeft_parent, setRight_left, setRight_right, setRight_parent,
        setParent_left, setParent_right, setParent_parent, setLeft_length, setRight_length,
        setParent_length]

set_option maxHeartbeats 1000000 in
theorem rotR_right (t : SplayETT) (hf : SplayForest t) (x p : Nat)
    (hp : (t.node x).parent = some p) (hL : (t.node p).left ≠ some x) (y : Nat) :
    ((t.rotate x).node y).right =
      (if y = p then (t.node x).left
        else if (t.node p).parent = some y ∧ (t.node y).left ≠ some p then some x
        else (t.node y).right) := by
  have hx : x < t.pool.length := lt_of_parent t x p hp
  have hpl : p < t.pool.length := hf.par_lt x p hp
  have hxp : x ≠ p := anc_distinct2 t hf x p hp
  have hpx : p ≠ x := Ne.symm hxp
  rw [rotate_eq_rotComp t hf x p hp]
  unfold rotComp
  cases hB : (t.node x).left with
  | none =>
    cases hg : (t.node p).parent with
    | none =>
      by_cases hy0 : y = x <;> by_cases hy1 : y = p <;>
        simp_all [setLeft_left, setLeft_right, setLeft_parent, setRight_left, setRight_right, setRight_parent,
        setParent_left, setParent_right, setParent_parent, setLeft_length, setRight_length,
        setParent_length]
    | some gg =>
      have hgl : gg < t.pool.length := hf.par_lt p gg hg
      obtain ⟨_, d2, d3⟩ := anc_distinct3 t hf x p gg hp hg
      have d2s := Ne.symm d2
      have d3s := Ne.symm d3
      have c2 : (gg = y) = (y = gg) := propext ⟨Eq.symm, Eq.symm⟩
      clear hf hp
      by_cases hgL : (t.node gg).left = some p
      · by_cases hy0 : y = x <;> by_cases hy1 : y = p <;> by_cases hy2 : y = gg <;>
          simp_all [setLeft_left, setLeft_right, setLeft_parent, setRight_left, setRight_right, setRight_parent,
        setParent_left, setParent_right, setParent_parent, setLeft_length, setRight_length,
        setParent_length]
      · by_cases hy0 : y = x <;> by_cases hy1 : y = p <;> by_cases hy2 : y = gg <;>
          simp_all [setLeft_left, setLeft_right, setLeft_parent, setRight_left, setRight_right, setRight_parent,
        setParent_left, setParent_right, setParent_parent, setLeft_length, setRight_length,
        setParent_length]
  | some r =>
    obtain ⟨hrl, hrp⟩ := hf.left_par x r hB
    have e1 := anc_distinct2 t hf r x hrp
    have e2 := (anc_distinct3 t hf r x p hrp hp).2.1
    have e1s := Ne.symm e1
    have e2s := Ne.symm e2
    cases hg : (t.node p).parent with
    | none =>
      have c1 : (r = y) = (y = r) := propext ⟨Eq.symm, Eq.symm⟩
      clear hf hp hrp
      by_cases hy0 : y = x <;> by_cases hy1 : y = p <;> by_cases hy2 : y = r <;>
        simp_all [setLeft_left, setLeft_right, setLeft_parent, setRight_left, setRight_right, setRight_parent,
        setParent_left, setParent_right, setParent_parent, setLeft_length, setRight_length,
        setParent_length]
    | some gg =>
      have hgl : gg < t.pool.length := hf.par_lt p gg hg
      obtain ⟨_, d2, d3⟩ := anc_distinct3 t hf x p gg hp hg
      have d2s := Ne.symm d2
      have d3s := Ne.symm d3
      have c2 : (gg = y) = (y = gg) := propext ⟨Eq.symm, Eq.symm⟩
      have e3 := (anc_distinct4 t hf r x p gg hrp hp hg).2.2
      have e3s := Ne.symm e3
      have c1 : (r = y) = (y = r) := propext ⟨Eq.symm, Eq.symm⟩
      clear hf hp hrp
      by_cases hgL : (t.node gg).left = some p
      · by_cases hy0 : y = x <;> by_cases hy1 : y = p <;> by_cases hy2 : y = r <;> by_cases hy3 : y = gg <;>
          simp_all [setLeft_left, setLeft_right, setLeft_parent, setRight_left, setRight_right, setRight_parent,
        setParent_left, setParent_right, setParent_parent, setLeft_length, setRight_length,
        setParent_length]
      · by_cases hy0 : y = x <;> by_cases hy1 : y = p <;> by_cases hy2 : y = r <;> by_cases hy3 : y = gg <;>
          simp_all [setLeft_left, setLeft_right, setLeft_parent, setRight_left, setRight_right, setRight_parent,
        setParent_left, setParent_right, setParent_parent, setLeft_length, setRight_length,
        setParent_length]

theorem rotComp_rev (t : SplayETT) (x p y : Nat) :
    ((rotComp t x p).node y).reversed = (t.node y).reversed := by
  unfold rotComp
  by_cases hL : (t.node p).left = some x
  · cases hB : ((t.setLeft p (t.node x).right).node x).right <;>
      cases hg : (t.node p).parent <;> simp only [hL, hB, if_true] <;> (try split_ifs) <;>
      simp [setLeft_rev, setRight_rev, setParent_rev]
  · cases hB : ((t.setRight p (t.node x).left).node x).left <;>
      cases hg : (t.node p).parent <;> simp only [hL, hB, if_false] <;> (try split_ifs) <;>
      simp [setLeft_rev, setRight_rev, setParent_rev]

theorem rotComp_id (t : SplayETT) (x p y : Nat) :
    ((rotComp t x p).node y).node_id = (t.node y).node_id := by
  unfold rotComp
  by_cases hL : (t.node p).left = some x
  · cases hB : ((t.setLeft p (t.node x).right).node x).right <;>
      cases hg : (t.node p).parent <;> simp only [hL, hB, if_true] <;> (try split_ifs) <;>
      simp [setLeft_id, setRight_id, setParent_id]
  · cases hB : ((t.setRight p (t.node x).left).node x).left <;>
      cases hg : (t.node p).parent <;> simp only [hL, hB, if_false] <;> (try split_ifs) <;>
      simp [setLeft_id, setRight_id, setParent_id]

theorem rotComp_fields (t : SplayETT) (x p : Nat) :
    (rotComp t x p).pool.length = t.pool.length ∧ (rotComp t x p).vertexNodes = t.vertexNodes ∧
    (rotComp t x p).edges = t.edges ∧ (rotComp t x p).global_counter = t.global_counter := by
  unfold rotComp
  by_cases hL : (t.node p).left = some x
  · cases hB : ((t.setLeft p (t.node x).right).node x).right <;>
      cases hg : (t.node p).parent <;> simp only [hL, hB, if_true] <;> (try split_ifs) <;>
      simp [setLeft_length, setRight_length, setParent_length, setLeft_fields, setRight_fields,
        setParent_fields]
  · cases hB : ((t.setRight p (t.node x).left).node x).left <;>
      cases hg : (t.node p).parent <;> simp only [hL, hB, if_false] <;> (try split_ifs) <;>
      simp [setLeft_length, setRight_length, setParent_length, setLeft_fields, setRight_fields,
        setParent_fields]

/-! ### The ancestors after a rotation -/

theorem anc_frame (t s : SplayETT) : ∀ (l : List Nat) (z : Nat), Anc t z l →
    (∀ w ∈ z :: l, (s.node w).parent = (t.node w).parent) → Anc s z l := by
  intro l
  induction l with
  | nil =>
    intro z h hw
    simp only [Anc] at h ⊢
    rw [hw z (List.mem_cons_self _ _)]
    exact h
  | cons q l ih =>
    intro z h hw
    simp only [Anc] at h ⊢
    refine ⟨?_, ih q h.2 (fun w hw1 => hw w (List.mem_cons_of_mem _ hw1))⟩
    rw [hw z (List.mem_cons_self _ _)]
    exact h.1

theorem anc_cons (t : SplayETT) (y p : Nat) (l : List Nat) (hp : (t.node y).parent = some p)
    (h : Anc t y l) : ∃ l1, l = p :: l1 ∧ Anc t p l1 := by
  cases l with
  | nil =>
    simp only [Anc] at h
    rw [h] at hp
    exact Option.noConfusion hp
  | cons q l1 =>
    simp only [Anc] at h
    have e : q = p := by
      have := h.1
      rw [hp] at this
      exact (Option.some.inj this).symm
    subst e
    exact ⟨l1, rfl, h.2⟩

/-- After `rotate(x)` the ancestors of `x` are those of its former parent. -/
theorem rewired_x (t s : SplayETT) (x p : Nat) (inner : Option Nat)
    (hp : (t.node x).parent = some p)
    (hin : ∀ c, inner = some c → (t.node c).parent = some x)
    (hs : ∀ y, (s.node y).parent =
      if y = x then (t.node p).parent else if y = p then some x
      else if inner = some y then some p else (t.node y).parent)
    (l : List Nat) (h : Anc t p l) : Anc s x l := by
  have hx : Anc t x (p :: l) := ⟨hp, h⟩
  have hn := anc_nodup t _ x hx
  cases l with
  | nil =>
    simp only [Anc] at h ⊢
    rw [hs x, if_pos rfl]
    exact h
  | cons gg l2 =>
    have hh := h
    simp only [Anc] at h ⊢
    refine ⟨by rw [hs x, if_pos rfl]; exact h.1, ?_⟩
    apply anc_frame t s l2 gg h.2
    intro w hw
    have hwx : w ≠ x := by
      intro e
      subst e
      simp only [List.nodup_cons, List.mem_cons, not_or] at hn
      rcases List.mem_cons.mp hw with e | e
      · exact hn.1.2.1 e
      · exact hn.1.2.2 e
    have hwp : w ≠ p := by
      intro e
      subst e
      simp only [List.nodup_cons, List.mem_cons, not_or] at hn
      rcases List.mem_cons.mp hw with e | e
      · exact hn.2.1.1 e
      · exact hn.2.1.2 e
    have hwi : inner ≠ some w := by
      intro e
      have hc := hin w e
      have hcn := anc_nodup t _ w (show Anc t w (x :: p :: gg :: l2) from ⟨hc, hx⟩)
      simp only [List.nodup_cons, List.mem_cons, not_or] at hcn
      rcases List.mem_cons.mp hw with e | e
      · exact hcn.1.2.2.1 e
      · exact hcn.1.2.2.2 e
    rw [hs w, if_neg hwx, if_neg hwp, if_neg hwi]

/-- After `rotate(x)` every node has a chain of ancestors again, and its root is the
former one, except that `x` replaces its former parent as a root. -/
theorem rewired_anc (t s : SplayETT) (x p : Nat) (inner : Option Nat)
    (hp : (t.node x).parent = some p)
    (hin : ∀ c, inner = some c → (t.node c).parent = some x)
    (hs : ∀ y, (s.node y).parent =
      if y = x then (t.node p).parent else if y = p then some x
      else if inner = some y then some p else (t.node y).parent) :
    ∀ (l : List Nat) (y : Nat), Anc t y l →
      ∃ l1, Anc s y l1 ∧ l1.getLastD y = if l.getLastD y = p then x else l.getLastD y := by
  -- the chain of `x` after the rotation
  have hX : ∀ l1, Anc t p l1 →
      Anc s x l1 ∧ l1.getLastD x = if l1.getLastD p = p then x else l1.getLastD p := by
    intro l1 h1
    refine ⟨rewired_x t s x p inner hp hin hs l1 h1, ?_⟩
    cases l1 with
    | nil => simp [List.getLastD]
    | cons gg l2 =>
      have hnm := anc_not_mem t _ p h1
      have hmem := getLastD_mem l2 gg
      rw [List.getLastD_cons, List.getLastD_cons]
      rw [if_neg]
      intro e
      rw [e] at hmem
      exact hnm hmem
  intro l
  induction l with
  | nil =>
    intro y h
    by_cases hyx : y = x
    · subst hyx
      simp only [Anc] at h
      rw [h] at hp
      exact Option.noConfusion hp
    by_cases hyp : y = p
    · subst hyp
      obtain ⟨a1, a2⟩ := hX [] h
      refine ⟨[x], ⟨by rw [hs y, if_neg hyx, if_pos rfl], a1⟩, ?_⟩
      simp [List.getLastD]
    by_cases hyi : inner = some y
    · have := hin y hyi
      simp only [Anc] at h
      rw [h] at this
      exact Option.noConfusion this
    refine ⟨[], ?_, ?_⟩
    · simp only [Anc] at h ⊢
      rw [hs y, if_neg hyx, if_neg hyp, if_neg hyi]
      exact h
    · simp [List.getLastD, hyp]
  | cons q l0 ih =>
    intro y h
    have hh := h
    simp only [Anc] at h
    by_cases hyx : y = x
    · subst hyx
      have e : q = p := by
        have := h.1
        rw [hp] at this
        exact (Option.some.inj this).symm
      subst e
      obtain ⟨a1, a2⟩ := hX l0 h.2
      refine ⟨l0, a1, ?_⟩
      rw [a2, List.getLastD_cons]
    by_cases hyp : y = p
    · subst hyp
      obtain ⟨a1, a2⟩ := hX (q :: l0) hh
      refine ⟨x :: q :: l0, ⟨by rw [hs y, if_neg hyx, if_pos rfl], a1⟩, ?_⟩
      rw [List.getLastD_cons, a2]
    by_cases hyi : inner = some y
    · have hc := hin y hyi
      have e : q = x := by
        have := h.1
        rw [hc] at this
        exact (Option.some.inj this).symm
      subst e
      obtain ⟨l1, e1, h1⟩ := anc_cons t q p l0 hp h.2
      subst e1
      obtain ⟨a1, a2⟩ := hX l1 h1
      refine ⟨p :: q :: l1, ⟨by rw [hs y, if_neg hyx, if_neg hyp, if_pos hyi],
        by rw [hs p, if_neg (anc_not_mem t _ q h.2 |> fun hnm e => hnm (by rw [← e]; simp)),
          if_pos rfl], a1⟩, ?_⟩
      rw [List.getLastD_cons, List.getLastD_cons, a2, List.getLastD_cons, List.getLastD_cons]
    obtain ⟨l1, a1, a2⟩ := ih q h.2
    refine ⟨q :: l1, ⟨by rw [hs y, if_neg hyx, if_neg hyp, if_neg hyi]; exact h.1, a1⟩, ?_⟩
    rw [List.getLastD_cons, List.getLastD_cons, a2]

theorem rotate_forest_L (t : SplayETT) (hf : SplayForest t) (x p : Nat)
    (hp : (t.node x).parent = some p) (hL : (t.node p).left = some x) :
    SplayForest (t.rotate x) := by
  have hx : x < t.pool.length := lt_of_parent t x p hp
  have hpl : p < t.pool.length := hf.par_lt x p hp
  have hxp : x ≠ p := anc_distinct2 t hf x p hp
  have hlen : (t.rotate x).pool.length = t.pool.length := by
    rw [rotate_eq_rotComp t hf x p hp]
    exact (rotComp_fields t x p).1
  have hgx : (t.node p).parent ≠ some x := by
    intro h
    exact (anc_distinct3 t hf x p x hp h).2.1 rfl
  have hgp : (t.node p).parent ≠ some p := by
    intro h
    exact anc_distinct2 t hf p p h rfl
  have hP := rotL_parent t hf x p hp hL
  have hLf := rotL_left t hf x p hp hL
  have hRf := rotL_right t hf x p hp hL
  -- the inner child
  have hin : ∀ c, (t.node x).right = some c →
      c < t.pool.length ∧ (t.node c).parent = some x ∧ c ≠ x ∧ c ≠ p := by
    intro c hc
    obtain ⟨h1, h2⟩ := hf.right_par x c hc
    exact ⟨h1, h2, anc_distinct2 t hf c x h2, (anc_distinct3 t hf c x p h2 hp).2.1⟩
  refine ⟨?_, ?_, ?_, ?_, ?_, ?_⟩
  · intro y
    rw [rotate_eq_rotComp t hf x p hp, rotComp_rev]
    exact hf.rev y
  · intro y q hq
    rw [hlen]
    rw [hP y] at hq
    split_ifs at hq with h1 h2 h3
    · exact hf.par_lt p q hq
    · rw [← Option.some.inj hq]
      exact hx
    · rw [← Option.some.inj hq]
      exact hpl
    · exact hf.par_lt y q hq
  · intro y c hc
    rw [hlen, hP c]
    rw [hLf y] at hc
    split_ifs at hc with h1 h2
    · -- y = p, the inner child of x
      obtain ⟨c1, c2, c3, c4⟩ := hin c hc
      rw [if_neg c3, if_neg c4, if_pos hc, h1]
      exact ⟨c1, rfl⟩
    · -- y is the grandparent
      have e := Option.some.inj hc
      subst e
      rw [if_pos rfl]
      exact ⟨hx, h2.1⟩
    · obtain ⟨c1, c2⟩ := hf.left_par y c hc
      refine ⟨c1, ?_⟩
      have n1 : c ≠ x := by
        intro e
        subst e
        rw [hp] at c2
        exact h1 (Option.some.inj c2).symm
      have n2 : c ≠ p := by
        intro e
        subst e
        exact h2 ⟨c2, hc⟩
      have n3 : (t.node x).right ≠ some c := by
        intro e
        have := (hin c e).2.1
        rw [c2] at this
        have e2 := Option.some.inj this
        subst e2
        exact hf.left_ne_right y c hc e
      rw [if_neg n1, if_neg n2, if_neg n3]
      exact c2
  · intro y c hc
    rw [hlen, hP c]
    rw [hRf y] at hc
    split_ifs at hc with h1 h2
    · -- y = x, the new child is p
      have e := Option.some.inj hc
      subst e
      rw [if_neg (Ne.symm hxp), if_pos rfl, h1]
      exact ⟨hpl, rfl⟩
    · have e := Option.some.inj hc
      subst e
      rw [if_pos rfl]
      exact ⟨hx, h2.1⟩
    · obtain ⟨c1, c2⟩ := hf.right_par y c hc
      refine ⟨c1, ?_⟩
      have n1 : c ≠ x := by
        intro e
        subst e
        rw [hp] at c2
        have e2 := Option.some.inj c2
        subst e2
        exact hf.left_ne_right p c hL hc
      have n2 : c ≠ p := by
        intro e
        subst e
        have h3 : (t.node y).left = some c := by
          by_contra h4
          exact h2 ⟨c2, h4⟩
        exact hf.left_ne_right y c h3 hc
      have n3 : (t.node x).right ≠ some c := by
        intro e
        have := (hin c e).2.1
        rw [c2] at this
        exact h1 (Option.some.inj this)
      rw [if_neg n1, if_neg n2, if_neg n3]
      exact c2
  · intro y c hc
    rw [hRf y]
    rw [hLf y] at hc
    by_cases hyp : y = p
    · subst hyp
      rw [if_pos rfl] at hc
      rw [if_neg (Ne.symm hxp), if_neg (fun h => hgp h.1)]
      intro h
      have a1 := (hin c hc).2.1
      have a2 := (hf.right_par y c h).2
      rw [a1] at a2
      exact hxp (Option.some.inj a2)
    · rw [if_neg hyp] at hc
      by_cases hyx : y = x
      · subst hyx
        rw [if_neg (fun h => hgx h.1)] at hc
        rw [if_pos rfl]
        intro h
        have e := Option.some.inj h
        subst e
        have a2 := (hf.left_par y p hc).2
        exact hgx a2
      · rw [if_neg hyx]
        by_cases hg : (t.node p).parent = some y
        · by_cases hgl : (t.node y).left = some p
          · rw [if_pos ⟨hg, hgl⟩] at hc
            rw [if_neg (fun h => h.2 hgl)]
            have e := Option.some.inj hc
            subst e
            intro h
            have a2 := (hf.right_par y x h).2
            rw [hp] at a2
            exact hyp (Option.some.inj a2).symm
          · rw [if_neg (fun h => hgl h.2)] at hc
            rw [if_pos ⟨hg, hgl⟩]
            intro h
            have e := Option.some.inj h
            subst e
            have a2 := (hf.left_par y x hc).2
            rw [hp] at a2
            exact hyp (Option.some.inj a2).symm
        · rw [if_neg (fun h => hg h.1)] at hc
          rw [if_neg (fun h => hg h.1)]
          exact hf.left_ne_right y c hc
  · intro y
    obtain ⟨l, hl⟩ := hf.anc y
    obtain ⟨l1, h1, _⟩ := rewired_anc t (t.rotate x) x p (t.node x).right hp
      (fun c hc => (hin c hc).2.1) hP l y hl
    exact ⟨l1, h1⟩

theorem rotate_forest_R (t : SplayETT) (hf : SplayForest t) (x p : Nat)
    (hp : (t.node x).parent = some p) (hL : (t.node p).left ≠ some x) :
    SplayForest (t.rotate x) := by
  have hx : x < t.pool.length := lt_of_parent t x p hp
  have hpl : p < t.pool.length := hf.par_lt x p hp
  have hxp : x ≠ p := anc_distinct2 t hf x p hp
  have hlen : (t.rotate x).pool.length = t.pool.length := by
    rw [rotate_eq_rotComp t hf x p hp]
    exact (rotComp_fields t x p).1
  have hgx : (t.node p).parent ≠ some x := by
    intro h
    exact (anc_distinct3 t hf x p x hp h).2.1 rfl
  have hgp : (t.node p).parent ≠ some p := by
    intro h
    exact anc_distinct2 t hf p p h rfl
  have hP := rotR_parent t hf x p hp hL
  have hLf := rotR_left t hf x p hp hL
  have hRf := rotR_right t hf x p hp hL
  -- the inner child
  have hin : ∀ c, (t.node x).left = some c →
      c < t.pool.length ∧ (t.node c).parent = some x ∧ c ≠ x ∧ c ≠ p := by
    intro c hc
    obtain ⟨h1, h2⟩ := hf.left_par x c hc
    exact ⟨h1, h2, anc_distinct2 t hf c x h2, (anc_distinct3 t hf c x p h2 hp).2.1⟩
  refine ⟨?_, ?_, ?_, ?_, ?_, ?_⟩
  · intro y
    rw [rotate_eq_rotComp t hf x p hp, rotComp_rev]
    exact hf.rev y
  · intro y q hq
    rw [hlen]
    rw [hP y] at hq
    split_ifs at hq with h1 h2 h3
    · exact hf.par_lt p q hq
    · rw [← Option.some.inj hq]
      exact hx
    · rw [← Option.some.inj hq]
      exact hpl
    · exact hf.par_lt y q hq
  · intro y c hc
    rw [hlen, hP c]
    rw [hLf y] at hc
    split_ifs at hc with h1 h2
    · -- y = x, the new child is p
      have e := Option.some.inj hc
      subst e
      rw [if_neg (Ne.symm hxp), if_pos rfl, h1]
      exact ⟨hpl, rfl⟩
    · have e := Option.some.inj hc
      subst e
      rw [if_pos rfl]
      exact ⟨hx, h2.1⟩
    · obtain ⟨c1, c2⟩ := hf.left_par y c hc
      refine ⟨c1, ?_⟩
      have n1 : c ≠ x := by
        intro e
        subst e
        rw [hp] at c2
        have e2 := Option.some.inj c2
        subst e2
        exact hL hc
      have n2 : c ≠ p := by
        intro e
        subst e
        exact h2 ⟨c2, hc⟩
      have n3 : (t.node x).left ≠ some c := by
        intro e
        have := (hin c e).2.1
        rw [c2] at this
        exact h1 (Option.some.inj this)
      rw [if_neg n1, if_neg n2, if_neg n3]
      exact c2
  · intro y c hc
    rw [hlen, hP c]
    rw [hRf y] at hc
    split_ifs at hc with h1 h2
    · -- y = p, the inner child of x
      obtain ⟨c1, c2, c3, c4⟩ := hin c hc
      rw [if_neg c3, if_neg c4, if_pos hc, h1]
      exact ⟨c1, rfl⟩
    · have e := Option.some.inj hc
      subst e
      rw [if_pos rfl]
      exact ⟨hx, h2.1⟩
    · obtain ⟨c1, c2⟩ := hf.right_par y c hc
      refine ⟨c1, ?_⟩
      have n1 : c ≠ x := by
        intro e
        subst e
        rw [hp] at c2
        exact h1 (Option.some.inj c2).symm
      have n2 : c ≠ p := by
        intro e
        subst e
        have h3 : (t.node y).left = some c := by
          by_contra h4
          exact h2 ⟨c2, h4⟩
        exact hf.left_ne_right y c h3 hc
      have n3 : (t.node x).left ≠ some c := by
        intro e
        have := (hin c e).2.1
        rw [c2] at this
        have e2 := Option.some.inj this
        subst e2
        exact hf.left_ne_right y c e hc
      rw [if_neg n1, if_neg n2, if_neg n3]
      exact c2
  · intro y c hc
    rw [hRf y]
    rw [hLf y] at hc
    by_cases hyx : y = x
    · subst hyx
      rw [if_pos rfl] at hc
      rw [if_neg hxp, if_neg (fun h => hgx h.1)]
      have e := Option.some.inj hc
      subst e
      intro h
      have a2 := (hf.right_par y p h).2
      exact hgx a2
    · rw [if_neg hyx] at hc
      by_cases hyp : y = p
      · subst hyp
        rw [if_neg (fun h => hgp h.1)] at hc
        rw [if_pos rfl]
        intro h
        have a1 := (hin c h).2.1
        have a2 := (hf.left_par y c hc).2
        rw [a1] at a2
        exact hxp (Option.some.inj a2)
      · rw [if_neg hyp]
        by_cases hg : (t.node p).parent = some y
        · by_cases hgl : (t.node y).left = some p
          · rw [if_pos ⟨hg, hgl⟩] at hc
            rw [if_neg (fun h => h.2 hgl)]
            have e := Option.some.inj hc
            subst e
            intro h
            have a2 := (hf.right_par y x h).2
            rw [hp] at a2
            exact hyp (Option.some.inj a2).symm
          · rw [if_neg (fun h => hgl h.2)] at hc
            rw [if_pos ⟨hg, hgl⟩]
            intro h
            have e := Option.some.inj h
            subst e
            have a2 := (hf.left_par y x hc).2
            rw [hp] at a2
            exact hyp (Option.some.inj a2).symm
        · rw [if_neg (fun h => hg h.1)] at hc
          rw [if_neg (fun h => hg h.1)]
          exact hf.left_ne_right y c hc
  · intro y
    obtain ⟨l, hl⟩ := hf.anc y
    obtain ⟨l1, h1, _⟩ := rewired_anc t (t.rotate x) x p (t.node x).left hp
      (fun c hc => (hin c hc).2.1) hP l y hl
    exact ⟨l1, h1⟩

/-! ### Splaying -/

theorem rot_parent (t : SplayETT) (hf : SplayForest t) (x p : Nat)
    (hp : (t.node x).parent = some p) (y : Nat) :
    ((t.rotate x).node y).parent =
      if y = x then (t.node p).parent else if y = p then some x
      else if rotInner t x p = some y then some p else (t.node y).parent := by
  unfold rotInner
  by_cases hL : (t.node p).left = some x
  · rw [if_pos hL]
    exact rotL_parent t hf x p hp hL y
  · rw [if_neg hL]
    exact rotR_parent t hf x p hp hL y

theorem rotInner_parent (t : SplayETT) (hf : SplayForest t) (x p c : Nat)
    (h : rotInner t x p = some c) : (t.node c).parent = some x := by
  unfold rotInner at h
  split_ifs at h
  · exact (hf.right_par x c h).2
  · exact (hf.left_par x c h).2

theorem rotate_forest (t : SplayETT) (hf : SplayForest t) (x p : Nat)
    (hp : (t.node x).parent = some p) : SplayForest (t.rotate x) := by
  by_cases hL : (t.node p).left = some x
  · exact rotate_forest_L t hf x p hp hL
  · exact rotate_forest_R t hf x p hp hL

theorem rotate_frame (t : SplayETT) (hf : SplayForest t) (x p : Nat)
    (hp : (t.node x).parent = some p) : SameFrame t (t.rotate x) := by
  rw [rotate_eq_rotComp t hf x p hp]
  obtain ⟨h1, h2, h3, h4⟩ := rotComp_fields t x p
  exact ⟨h1, h2, h3, h4, fun y => rotComp_id t x p y⟩

theorem sameFrame_refl (t : SplayETT) : SameFrame t t := ⟨rfl, rfl, rfl, rfl, fun _ => rfl⟩

theorem sameFrame_trans (t s u : SplayETT) (h1 : SameFrame t s) (h2 : SameFrame s u) :
    SameFrame t u :=
  ⟨h2.1.trans h1.1, h2.2.1.trans h1.2.1, h2.2.2.1.trans h1.2.2.1, h2.2.2.2.1.trans h1.2.2.2.1,
    fun y => (h2.2.2.2.2 y).trans (h1.2.2.2.2 y)⟩

theorem rotate_anc_x (t : SplayETT) (hf : SplayForest t) (x p : Nat)
    (hp : (t.node x).parent = some p) (l : List Nat) (h : Anc t p l) : Anc (t.rotate x) x l :=
  rewired_x t (t.rotate x) x p (rotInner t x p) hp (fun c hc => rotInner_parent t hf x p c hc)
    (rot_parent t hf x p hp) l h

theorem classMove_refl (t : SplayETT) (a : Nat) (h : (t.node a).parent = none) :
    ClassMove t t a a :=
  ⟨rootOf_self t a h, h, fun y r hr => by
    split_ifs with e
    · rw [← e]
      exact hr
    · exact hr⟩

theorem classMove_trans (t s u : SplayETT) (a b c : Nat) (hf : SplayForest t)
    (h1 : ClassMove t s a b) (h2 : ClassMove s u b c) : ClassMove t u a c := by
  refine ⟨?_, h2.root, ?_⟩
  · obtain ⟨rc, hrc⟩ := rootOf_exists t hf c
    have m := h1.map c rc hrc
    have e := rootOf_unique s c _ _ m h2.src
    by_cases hca : rc = a
    · rw [← hca]
      exact hrc
    · rw [if_neg hca] at e
      subst e
      have hb : RootOf t rc rc := rootOf_self t rc (rootOf_root t c rc hrc)
      exact absurd (rootOf_unique t rc _ _ hb h1.src) hca
  · intro y r hr
    have m := h2.map y _ (h1.map y r hr)
    by_cases hra : r = a
    · simpa [hra] using m
    · rw [if_neg hra] at m ⊢
      have hrb : r ≠ b := by
        intro e
        subst e
        have hb : RootOf t r r := rootOf_self t r (rootOf_root t y r hr)
        exact hra (rootOf_unique t r _ _ hb h1.src)
      rw [if_neg hrb] at m
      exact m

theorem rotate_classMove (t : SplayETT) (hf : SplayForest t) (z q a : Nat)
    (hp : (t.node z).parent = some q) (ha : RootOf t z a) :
    ClassMove t (t.rotate z) a (if a = q then z else a) := by
  have hroot := rootOf_root t z a ha
  have hqa : RootOf t q a := (rootOf_parent t z q a hp).mp ha
  refine ⟨?_, ?_, ?_⟩
  · split_ifs
    · exact ha
    · exact rootOf_self t a hroot
  · rw [rot_parent t hf z q hp]
    by_cases haq : a = q
    · subst haq
      rw [if_pos rfl, if_pos rfl]
      exact hroot
    · rw [if_neg haq]
      have h1 : a ≠ z := by
        intro e
        subst e
        rw [hroot] at hp
        exact Option.noConfusion hp
      have h3 : rotInner t z q ≠ some a := by
        intro e
        have := rotInner_parent t hf z q a e
        rw [hroot] at this
        exact Option.noConfusion this
      rw [if_neg h1, if_neg haq, if_neg h3]
      exact hroot
  · intro y r hr
    obtain ⟨l, hl, e⟩ := hr
    obtain ⟨l1, h1, e1⟩ := rewired_anc t (t.rotate z) z q (rotInner t z q) hp
      (fun c hc => rotInner_parent t hf z q c hc) (rot_parent t hf z q hp) l y hl
    refine ⟨l1, h1, ?_⟩
    rw [e1, e]
    by_cases hra : r = a
    · subst hra
      rw [if_pos rfl]
    · rw [if_neg hra]
      have hrq : r ≠ q := by
        intro e2
        subst e2
        have hq : RootOf t r r := rootOf_self t r (rootOf_root t y r ⟨l, hl, e⟩)
        exact hra (rootOf_unique t r _ _ hq hqa)
      rw [if_neg hrq]

/-- One rotation inside the tree of `x`: the forest stays well formed and the tree
keeps its nodes. -/
theorem rotate_step (t : SplayETT) (hf : SplayForest t) (z q a : Nat)
    (hp : (t.node z).parent = some q) (ha : RootOf t z a) :
    SplayForest (t.rotate z) ∧ SameFrame t (t.rotate z) ∧
      ∃ b, ClassMove t (t.rotate z) a b :=
  ⟨rotate_forest t hf z q hp, rotate_frame t hf z q hp, _, rotate_classMove t hf z q a hp ha⟩

theorem splayLoop_spec (x : Nat) : ∀ (f : Nat) (t : SplayETT) (l : List Nat),
    SplayForest t → Anc t x l → l.length < f →
    ∃ s, splayLoop x f t = some s ∧ SplayForest s ∧ (s.node x).parent = none ∧
      SameFrame t s ∧ ClassMove t s (l.getLastD x) x := by
  intro f
  induction f using Nat.strong_induction_on with
  | _ f ih =>
    intro t l hf hl hlen
    obtain ⟨k, rfl⟩ : ∃ k, f = k + 1 := ⟨f - 1, by omega⟩
    cases l with
    | nil =>
      have hp : (t.node x).parent = none := hl
      refine ⟨t, ?_, hf, hp, sameFrame_refl t, classMove_refl t x hp⟩
      simp only [splayLoop, hp]
    | cons p l1 =>
      have hp : (t.node x).parent = some p := hl.1
      have hl1 : Anc t p l1 := hl.2
      have hax : RootOf t x ((p :: l1).getLastD x) := ⟨_, hl, rfl⟩
      cases l1 with
      | nil =>
        have hg : (t.node p).parent = none := hl1
        have h1 := rotate_anc_x t hf x p hp [] hl1
        obtain ⟨s, e1, e2, e3, e4, e5⟩ := ih k (by omega) (t.rotate x) []
          (rotate_forest t hf x p hp) h1 (by simp at hlen ⊢; omega)
        refine ⟨s, ?_, e2, e3, sameFrame_trans _ _ _ (rotate_frame t hf x p hp) e4, ?_⟩
        · simp only [splayLoop, hp, hg, pushDown_id t _ hf.rev]
          exact e1
        · have c1 := rotate_classMove t hf x p _ hp hax
          have hb : RootOf (t.rotate x) x (if (p :: ([] : List Nat)).getLastD x = p then x
              else (p :: ([] : List Nat)).getLastD x) := c1.map x _ hax |> fun m => by
            simpa using m
          have hu := rootOf_unique (t.rotate x) x _ _ hb ⟨[], h1, rfl⟩
          rw [hu] at c1
          exact classMove_trans _ _ _ _ _ _ hf c1 e5
      | cons gg l2 =>
        have hg : (t.node p).parent = some gg := hl1.1
        have hl2 : Anc t gg l2 := hl1.2
        by_cases hzz : (decide ((t.node gg).left = some p)) = (decide ((t.node p).left = some x))
        · -- zig-zig: rotate(p), rotate(x)
          have hfp := rotate_forest t hf p gg hg
          have hap : Anc (t.rotate p) p l2 := rotate_anc_x t hf p gg hg l2 hl2
          have hxp1 : ((t.rotate p).node x).parent = some p := by
            obtain ⟨d1, d2, d3⟩ := anc_distinct3 t hf x p gg hp hg
            rw [rot_parent t hf p gg hg, if_neg d1, if_neg d2, if_neg, hp]
            unfold rotInner
            by_cases hgl : (t.node gg).left = some p
            · rw [if_pos hgl]
              have : (t.node p).left = some x := by simpa [hgl] using hzz
              exact hf.left_ne_right p x this
            · rw [if_neg hgl]
              have : ¬ (t.node p).left = some x := by simpa [hgl] using hzz
              exact this
          have hax1 : Anc (t.rotate p) x (p :: l2) := ⟨hxp1, hap⟩
          have hfx := rotate_forest (t.rotate p) hfp x p hxp1
          have hax2 : Anc ((t.rotate p).rotate x) x l2 := rotate_anc_x _ hfp x p hxp1 l2 hap
          obtain ⟨s, e1, e2, e3, e4, e5⟩ := ih k (by omega) _ l2 hfx hax2
            (by simp at hlen ⊢; omega)
          refine ⟨s, ?_, e2, e3, ?_, ?_⟩
          · simp only [splayLoop, hp, hg, pushDown_id t _ hf.rev]
            rw [if_pos hzz]
            exact e1
          · exact sameFrame_trans _ _ _ (sameFrame_trans _ _ _ (rotate_frame t hf p gg hg)
              (rotate_frame _ hfp x p hxp1)) e4
          · have hpa : RootOf t p ((p :: gg :: l2).getLastD x) :=
              (rootOf_parent t x p _ hp).mp hax
            have c1 := rotate_classMove t hf p gg _ hg hpa
            have r1 : RootOf (t.rotate p) x _ := c1.map x _ hax
            rw [if_pos rfl] at r1
            have c2 := rotate_classMove (t.rotate p) hfp x p _ hxp1 r1
            have r2 : RootOf ((t.rotate p).rotate x) x _ := c2.map x _ r1
            rw [if_pos rfl] at r2
            have hu := rootOf_unique _ x _ _ r2 ⟨l2, hax2, rfl⟩
            rw [hu] at c2
            exact classMove_trans _ _ _ _ _ _ hf
              (classMove_trans _ _ _ _ _ _ hf c1 c2) e5
        · -- zig-zag: rotate(x), rotate(x)
          have hfx1 := rotate_forest t hf x p hp
          have hax1 : Anc (t.rotate x) x (gg :: l2) := rotate_anc_x t hf x p hp _ hl1
          have hxg1 : ((t.rotate x).node x).parent = some gg := hax1.1
          have hfx2 := rotate_forest (t.rotate x) hfx1 x gg hxg1
          have hax2 : Anc ((t.rotate x).rotate x) x l2 :=
            rotate_anc_x _ hfx1 x gg hxg1 l2 hax1.2
          obtain ⟨s, e1, e2, e3, e4, e5⟩ := ih k (by omega) _ l2 hfx2 hax2
            (by simp at hlen ⊢; omega)
          refine ⟨s, ?_, e2, e3, ?_, ?_⟩
          · simp only [splayLoop, hp, hg, pushDown_id t _ hf.rev]
            rw [if_neg hzz]
            exact e1
          · exact sameFrame_trans _ _ _ (sameFrame_trans _ _ _ (rotate_frame t hf x p hp)
              (rotate_frame _ hfx1 x gg hxg1)) e4
          · have c1 := rotate_classMove t hf x p _ hp hax
            have r1 : RootOf (t.rotate x) x _ := c1.map x _ hax
            rw [if_pos rfl] at r1
            have c2 := rotate_classMove (t.rotate x) hfx1 x gg _ hxg1 r1
            have r2 : RootOf ((t.rotate x).rotate x) x _ := c2.map x _ r1
            rw [if_pos rfl] at r2
            have hu := rootOf_unique _ x _ _ r2 ⟨l2, hax2, rfl⟩
            rw [hu] at c2
            exact classMove_trans _ _ _ _ _ _ hf
              (classMove_trans _ _ _ _ _ _ hf c1 c2) e5

/-- The method `splay(x)` on a well-formed forest: it returns, `x` is the root of its
tree afterwards, and the trees keep their nodes. -/
theorem splay_spec (t : SplayETT) (hf : SplayForest t) (x a : Nat) (ha : RootOf t x a) :
    ∃ s, t.splay x = some s ∧ SplayForest s ∧ (s.node x).parent = none ∧
      SameFrame t s ∧ ClassMove t s a x := by
  obtain ⟨l, hl, e⟩ := ha
  obtain ⟨s, e1, e2, e3, e4, e5⟩ := splayLoop_spec x (t.pool.length + 1) t l hf hl
    (by have := anc_length t hf.par_lt l x hl; omega)
  refine ⟨s, ?_, e2, e3, e4, by rw [← e]; exact e5⟩
  unfold SplayETT.splay
  rw [e1]
  simp only [pushDown_id s _ e2.rev]

/-! ### Detaching and attaching a subtree -/

theorem setter_rev (t : SplayETT) (a : Nat) (v : Option Nat) (y : Nat) :
    ((t.setLeft a v).node y).reversed = (t.node y).reversed ∧
    ((t.setRight a v).node y).reversed = (t.node y).reversed ∧
    ((t.setParent a v).node y).reversed = (t.node y).reversed :=
  ⟨setLeft_rev t a v y, setRight_rev t a v y, setParent_rev t a v y⟩

theorem sameFrame_setParent (t : SplayETT) (a : Nat) (v : Option Nat) :
    SameFrame t (t.setParent a v) := by
  obtain ⟨h1, h2, h3⟩ := setParent_fields t a v
  exact ⟨setParent_length t a v, h1, h2, h3, fun y => setParent_id t a v y⟩

theorem sameFrame_setRight (t : SplayETT) (a : Nat) (v : Option Nat) :
    SameFrame t (t.setRight a v) := by
  obtain ⟨h1, h2, h3⟩ := setRight_fields t a v
  exact ⟨setRight_length t a v, h1, h2, h3, fun y => setRight_id t a v y⟩

/-- The forest after `r->parent = nullptr; x->right = nullptr`, where `r` is the right
child of the root `x`: the tree of `x` falls into the trees of `x` and of `r`. -/
theorem detach_spec (s : SplayETT) (hf : SplayForest s) (x r : Nat)
    (hx : (s.node x).parent = none) (hr : (s.node x).right = some r) :
    SplayForest ((s.setParent r none).setRight x none) ∧
    SameFrame s ((s.setParent r none).setRight x none) ∧
    (((s.setParent r none).setRight x none).node x).parent = none ∧
    (((s.setParent r none).setRight x none).node x).right = none ∧
    (((s.setParent r none).setRight x none).node r).parent = none ∧
    (∀ y ρ, RootOf s y ρ → RootOf ((s.setParent r none).setRight x none) y ρ ∨
      (ρ = x ∧ RootOf ((s.setParent r none).setRight x none) y r)) := by
  obtain ⟨hrl, hrp⟩ := hf.right_par x r hr
  have hxl : x < s.pool.length := lt_of_right s x r hr
  have hrx : r ≠ x := anc_distinct2 s hf r x hrp
  have hP : ∀ y, (((s.setParent r none).setRight x none).node y).parent =
      if y = r then none else (s.node y).parent := by
    intro y
    rw [setRight_parent, setParent_parent]
    simp [hrl]
  have hL : ∀ y, (((s.setParent r none).setRight x none).node y).left = (s.node y).left := by
    intro y
    rw [setRight_left, setParent_left]
  have hR : ∀ y, (((s.setParent r none).setRight x none).node y).right =
      if y = x then none else (s.node y).right := by
    intro y
    rw [setRight_right, setParent_right, setParent_length]
    simp [hxl]
  have hlen : ((s.setParent r none).setRight x none).pool.length = s.pool.length := by
    rw [setRight_length, setParent_length]
  have hanc : ∀ (l : List Nat) (y : Nat), Anc s y l →
      ∃ l1, Anc ((s.setParent r none).setRight x none) y l1 ∧
        (l1.getLastD y = l.getLastD y ∨ (l.getLastD y = x ∧ l1.getLastD y = r)) := by
    intro l
    induction l with
    | nil =>
      intro y h
      by_cases hyr : y = r
      · subst hyr
        have : (s.node y).parent = none := h
        rw [this] at hrp
        exact Option.noConfusion hrp
      · refine ⟨[], ?_, Or.inl rfl⟩
        show _ = none
        rw [hP y, if_neg hyr]
        exact h
    | cons q l0 ih =>
      intro y h
      by_cases hyr : y = r
      · subst hyr
        refine ⟨[], ?_, Or.inr ⟨?_, rfl⟩⟩
        · show _ = none
          rw [hP y, if_pos rfl]
        · obtain ⟨l1, e1, h1⟩ := anc_cons s y x (q :: l0) hrp h
          rw [e1]
          cases l1 with
          | nil => rfl
          | cons z l2 =>
            have : (s.node x).parent = some z := h1.1
            rw [hx] at this
            exact Option.noConfusion this
      · obtain ⟨l1, a1, a2⟩ := ih q h.2
        refine ⟨q :: l1, ⟨?_, a1⟩, ?_⟩
        · rw [hP y, if_neg hyr]
          exact h.1
        · rw [List.getLastD_cons, List.getLastD_cons]
          exact a2
  refine ⟨⟨?_, ?_, ?_, ?_, ?_, ?_⟩, ?_, ?_, ?_, ?_, ?_⟩
  · intro y
    rw [(setter_rev _ x none y).2.1, (setter_rev _ r none y).2.2]
    exact hf.rev y
  · intro y q hq
    rw [hlen]
    rw [hP y] at hq
    split_ifs at hq
    exact hf.par_lt y q hq
  · intro y c hc
    rw [hL y] at hc
    obtain ⟨c1, c2⟩ := hf.left_par y c hc
    rw [hlen, hP c]
    refine ⟨c1, ?_⟩
    have hcr : c ≠ r := by
      intro e
      subst e
      rw [hrp] at c2
      have e2 := Option.some.inj c2
      subst e2
      exact hf.left_ne_right x c hc hr
    rw [if_neg hcr]
    exact c2
  · intro y c hc
    rw [hR y] at hc
    split_ifs at hc with hyx
    obtain ⟨c1, c2⟩ := hf.right_par y c hc
    rw [hlen, hP c]
    refine ⟨c1, ?_⟩
    have hcr : c ≠ r := by
      intro e
      subst e
      rw [hrp] at c2
      exact hyx (Option.some.inj c2).symm
    rw [if_neg hcr]
    exact c2
  · intro y c hc
    rw [hL y] at hc
    rw [hR y]
    split_ifs
    · exact fun h => Option.noConfusion h
    · exact hf.left_ne_right y c hc
  · intro y
    obtain ⟨l, hl⟩ := hf.anc y
    obtain ⟨l1, h1, _⟩ := hanc l y hl
    exact ⟨l1, h1⟩
  · exact sameFrame_trans _ _ _ (sameFrame_setParent s r none) (sameFrame_setRight _ x none)
  · rw [hP x, if_neg (Ne.symm hrx)]
    exact hx
  · rw [hR x, if_pos rfl]
  · rw [hP r, if_pos rfl]
  · intro y ρ hρ
    obtain ⟨l, hl, e⟩ := hρ
    obtain ⟨l1, h1, h2⟩ := hanc l y hl
    rcases h2 with h2 | ⟨h2, h3⟩
    · exact Or.inl ⟨l1, h1, by rw [h2, e]⟩
    · exact Or.inr ⟨by rw [← e, h2], l1, h1, h3⟩

/-- The method `split(x)`: `x` is splayed to the root and its right subtree, if any, is
detached. -/
theorem split_spec (t : SplayETT) (hf : SplayForest t) (x a : Nat) (ha : RootOf t x a) :
    ∃ ro s, t.split x = some (ro, s) ∧ SplayForest s ∧ SameFrame t s ∧
      (s.node x).parent = none ∧ (s.node x).right = none ∧
      (∀ r, ro = some r → (s.node r).parent = none ∧ r ≠ x ∧ RootOf t r a) ∧
      (∀ y ρ, RootOf t y ρ → (ρ ≠ a → RootOf s y ρ) ∧
        (ρ = a → RootOf s y x ∨ ∃ r, ro = some r ∧ RootOf s y r)) := by
  obtain ⟨s, e1, e2, e3, e4, e5⟩ := splay_spec t hf x a ha
  cases hr : (s.node x).right with
  | none =>
    refine ⟨none, s, ?_, e2, e4, e3, hr, ?_, ?_⟩
    · unfold SplayETT.split
      rw [e1]
      simp only [pushDown_id s _ e2.rev, hr]
    · intro r h
      exact Option.noConfusion h
    · intro y ρ hρ
      have m := e5.map y ρ hρ
      constructor
      · intro hne
        rw [if_neg hne] at m
        exact m
      · intro he
        rw [if_pos he] at m
        exact Or.inl m
  | some r =>
    obtain ⟨d1, d2, d3, d4, d5, d6⟩ := detach_spec s e2 x r e3 hr
    obtain ⟨_, hrp⟩ := e2.right_par x r hr
    refine ⟨some r, (s.setParent r none).setRight x none, ?_, d1, sameFrame_trans _ _ _ e4 d2,
      d3, d4, ?_, ?_⟩
    · unfold SplayETT.split
      rw [e1]
      simp only [pushDown_id s _ e2.rev, hr]
      rfl
    · intro r1 h
      have e := Option.some.inj h
      subst e
      refine ⟨d5, anc_distinct2 s e2 r x hrp, ?_⟩
      -- the root of `r` in `t`
      obtain ⟨ρ, hρ⟩ := rootOf_exists t hf r
      have m := e5.map r ρ hρ
      have hx : RootOf s r x := (rootOf_parent s r x x hrp).mpr (rootOf_self s x e3)
      have e := rootOf_unique s r _ _ m hx
      by_cases hρa : ρ = a
      · rw [← hρa]
        exact hρ
      · rw [if_neg hρa] at e
        subst e
        have h1 : RootOf t ρ ρ := rootOf_self t ρ (rootOf_root t r ρ hρ)
        exact absurd (rootOf_unique t ρ _ _ h1 e5.src) hρa
    · intro y ρ hρ
      have m := e5.map y ρ hρ
      constructor
      · intro hne
        rw [if_neg hne] at m
        rcases d6 y ρ m with h | ⟨h1, _⟩
        · exact h
        · subst h1
          have h2 : RootOf t ρ ρ := rootOf_self t ρ (rootOf_root t y ρ hρ)
          exact absurd (rootOf_unique t ρ _ _ h2 e5.src) hne
      · intro he
        rw [if_pos he] at m
        rcases d6 y x m with h | ⟨_, h⟩
        · exact Or.inl h
        · exact Or.inr ⟨r, rfl, h⟩

/-- The forest after `c->right = r; r->parent = c`, where `c` is a root without right
child and `r` another root: the tree of `r` joins the tree of `c`. -/
theorem attach_spec (s : SplayETT) (hf : SplayForest s) (c r : Nat)
    (hc : (s.node c).parent = none) (hcr : (s.node c).right = none)
    (hr : (s.node r).parent = none) (hne : r ≠ c)
    (hrl : r < s.pool.length) (hcl : c < s.pool.length) :
    SplayForest ((s.setRight c (some r)).setParent r (some c)) ∧
    SameFrame s ((s.setRight c (some r)).setParent r (some c)) ∧
    (((s.setRight c (some r)).setParent r (some c)).node c).parent = none ∧
    (∀ y, (((s.setRight c (some r)).setParent r (some c)).node y).right =
      if y = c then some r else (s.node y).right) ∧
    (∀ y ρ, RootOf s y ρ →
      RootOf ((s.setRight c (some r)).setParent r (some c)) y (if ρ = r then c else ρ)) := by
  have hP : ∀ y, (((s.setRight c (some r)).setParent r (some c)).node y).parent =
      if y = r then some c else (s.node y).parent := by
    intro y
    rw [setParent_parent, setRight_parent, setRight_length]
    simp [hrl]
  have hL : ∀ y, (((s.setRight c (some r)).setParent r (some c)).node y).left =
      (s.node y).left := by
    intro y
    rw [setParent_left, setRight_left]
  have hR : ∀ y, (((s.setRight c (some r)).setParent r (some c)).node y).right =
      if y = c then some r else (s.node y).right := by
    intro y
    rw [setParent_right, setRight_right]
    simp [hcl]
  have hlen : ((s.setRight c (some r)).setParent r (some c)).pool.length = s.pool.length := by
    rw [setParent_length, setRight_length]
  have hPc : (((s.setRight c (some r)).setParent r (some c)).node c).parent = none := by
    rw [hP c, if_neg (Ne.symm hne)]
    exact hc
  have hanc : ∀ (l : List Nat) (y : Nat), Anc s y l →
      ∃ l1, Anc ((s.setRight c (some r)).setParent r (some c)) y l1 ∧
        l1.getLastD y = if l.getLastD y = r then c else l.getLastD y := by
    intro l
    induction l with
    | nil =>
      intro y h
      by_cases hyr : y = r
      · subst hyr
        refine ⟨[c], ⟨?_, hPc⟩, ?_⟩
        · rw [hP y, if_pos rfl]
        · simp [List.getLastD]
      · refine ⟨[], ?_, ?_⟩
        · show _ = none
          rw [hP y, if_neg hyr]
          exact h
        · simp [List.getLastD, hyr]
    | cons q l0 ih =>
      intro y h
      have hyr : y ≠ r := by
        intro e
        subst e
        have := h.1
        rw [hr] at this
        exact Option.noConfusion this
      obtain ⟨l1, a1, a2⟩ := ih q h.2
      refine ⟨q :: l1, ⟨?_, a1⟩, ?_⟩
      · rw [hP y, if_neg hyr]
        exact h.1
      · rw [List.getLastD_cons, List.getLastD_cons]
        exact a2
  refine ⟨⟨?_, ?_, ?_, ?_, ?_, ?_⟩, ?_, hPc, hR, ?_⟩
  · intro y
    rw [(setter_rev _ r (some c) y).2.2, (setter_rev _ c (some r) y).2.1]
    exact hf.rev y
  · intro y q hq
    rw [hlen]
    rw [hP y] at hq
    split_ifs at hq
    · rw [← Option.some.inj hq]
      exact hcl
    · exact hf.par_lt y q hq
  · intro y d hd
    rw [hL y] at hd
    obtain ⟨c1, c2⟩ := hf.left_par y d hd
    rw [hlen, hP d]
    refine ⟨c1, ?_⟩
    have hdr : d ≠ r := by
      intro e
      subst e
      rw [hr] at c2
      exact Option.noConfusion c2
    rw [if_neg hdr]
    exact c2
  · intro y d hd
    rw [hR y] at hd
    rw [hlen, hP d]
    split_ifs at hd with hyc
    · have e := Option.some.inj hd
      subst e
      rw [if_pos rfl, hyc]
      exact ⟨hrl, rfl⟩
    · obtain ⟨c1, c2⟩ := hf.right_par y d hd
      refine ⟨c1, ?_⟩
      have hdr : d ≠ r := by
        intro e
        subst e
        rw [hr] at c2
        exact Option.noConfusion c2
      rw [if_neg hdr]
      exact c2
  · intro y d hd
    rw [hL y] at hd
    rw [hR y]
    split_ifs with hyc
    · intro e
      have e2 := Option.some.inj e
      subst e2
      subst hyc
      have := (hf.left_par y r hd).2
      rw [hr] at this
      exact Option.noConfusion this
    · exact hf.left_ne_right y d hd
  · intro y
    obtain ⟨l, hl⟩ := hf.anc y
    obtain ⟨l1, h1, _⟩ := hanc l y hl
    exact ⟨l1, h1⟩
  · exact sameFrame_trans _ _ _ (sameFrame_setRight s c (some r)) (sameFrame_setParent _ r (some c))
  · intro y ρ hρ
    obtain ⟨l, hl, e⟩ := hρ
    obtain ⟨l1, h1, h2⟩ := hanc l y hl
    exact ⟨l1, h1, by rw [h2, e]⟩

/-- A root whose tree holds no other node has no child. -/
theorem isolated_of_singleton (s : SplayETT) (hf : SplayForest s) (z : Nat)
    (hroot : (s.node z).parent = none) (hz : ∀ y, RootOf s y z → y = z) :
    (s.node z).left = none ∧ (s.node z).right = none := by
  constructor
  · cases h : (s.node z).left with
    | none => rfl
    | some c =>
      have hp := (hf.left_par z c h).2
      have := hz c ((rootOf_parent s c z z hp).mpr (rootOf_self s z hroot))
      subst this
      rw [hroot] at hp
      exact Option.noConfusion hp
  · cases h : (s.node z).right with
    | none => rfl
    | some c =>
      have hp := (hf.right_par z c h).2
      have := hz c ((rootOf_parent s c z z hp).mpr (rootOf_self s z hroot))
      subst this
      rw [hroot] at hp
      exact Option.noConfusion hp

theorem splay_root (t : SplayETT) (hf : SplayForest t) (x : Nat)
    (hx : (t.node x).parent = none) : t.splay x = some t := by
  unfold SplayETT.splay
  simp only [splayLoop, hx, pushDown_id t _ hf.rev]

theorem splay_zig (t : SplayETT) (hf : SplayForest t) (c l : Nat)
    (hc : (t.node c).parent = some l) (hl : (t.node l).parent = none) :
    t.splay c = some (t.rotate c) := by
  have hcl : c < t.pool.length := lt_of_parent t c l hc
  obtain ⟨k, hk⟩ : ∃ k, t.pool.length = k + 1 := ⟨t.pool.length - 1, by omega⟩
  have hf1 := rotate_forest t hf c l hc
  have hroot : ((t.rotate c).node c).parent = none := by
    rw [rot_parent t hf c l hc, if_pos rfl]
    exact hl
  unfold SplayETT.splay
  rw [hk]
  simp only [splayLoop, hc, hl, pushDown_id t _ hf.rev, hroot, pushDown_id _ _ hf1.rev]

theorem mergeSeek_here (t : SplayETT) (l f : Nat) (h : (t.node l).right = none) :
    mergeSeek (f + 1) t l = some (l, t) := by
  simp only [mergeSeek, h]

theorem mergeSeek_child (t : SplayETT) (hf : SplayForest t) (l c f : Nat)
    (h : (t.node l).right = some c) (hc : (t.node c).right = none) :
    mergeSeek (f + 2) t l = some (c, t) := by
  simp only [mergeSeek, h, hc, pushDown_id t _ hf.rev]

/-- The method `merge(l, r)` when the root `l` has no right child. -/
theorem merge_here (t : SplayETT) (hf : SplayForest t) (l r : Nat)
    (hl : (t.node l).parent = none) (hlr : (t.node l).right = none)
    (hr : (t.node r).parent = none) (hne : r ≠ l)
    (hrl : r < t.pool.length) (hll : l < t.pool.length) :
    ∃ s, t.merge (some l) (some r) = some (some l, s) ∧ SplayForest s ∧ SameFrame t s ∧
      (s.node l).parent = none ∧
      (∀ y, (s.node y).right = if y = l then some r else (t.node y).right) ∧
      (∀ y ρ, RootOf t y ρ → RootOf s y (if ρ = r then l else ρ)) := by
  obtain ⟨a1, a2, a3, a4, a5⟩ := attach_spec t hf l r hl hlr hr hne hrl hll
  refine ⟨_, ?_, a1, a2, a3, a4, a5⟩
  unfold SplayETT.merge
  simp only [mergeSeek_here t l _ hlr, splay_root t hf l hl, pushDown_id t _ hf.rev]
  rfl

/-- The method `merge(l, r)` when the right child `c` of the root `l` has no right
child: `c` is splayed to the root by one rotation and `r` becomes its right child. -/
theorem merge_child (t : SplayETT) (hf : SplayForest t) (l c r : Nat)
    (hl : (t.node l).parent = none) (hlc : (t.node l).right = some c)
    (hcr : (t.node c).right = none)
    (hr : (t.node r).parent = none) (hrc : r ≠ c) (hrl : r ≠ l)
    (hrlt : r < t.pool.length) :
    ∃ s, t.merge (some l) (some r) = some (some c, s) ∧ SplayForest s ∧ SameFrame t s ∧
      (s.node c).parent = none ∧ (s.node c).right = some r ∧
      (∀ y, y ≠ c → y ≠ l → (s.node y).right = (t.node y).right) ∧
      (∀ y ρ, RootOf t y ρ → RootOf s y (if ρ = l ∨ ρ = r then c else ρ)) := by
  obtain ⟨hclt, hcp⟩ := hf.right_par l c hlc
  have hL : (t.node l).left ≠ some c := fun h => hf.left_ne_right l c h hlc
  have hcl : c ≠ l := anc_distinct2 t hf c l hcp
  have hf1 := rotate_forest t hf c l hcp
  have hfr := rotate_frame t hf c l hcp
  have hroot : ((t.rotate c).node c).parent = none := by
    rw [rot_parent t hf c l hcp, if_pos rfl]
    exact hl
  have hright : ∀ y, y ≠ l → ((t.rotate c).node y).right = (t.node y).right := by
    intro y hy
    rw [rotR_right t hf c l hcp hL, if_neg hy, if_neg]
    rw [hl]
    exact fun h => Option.noConfusion h.1
  have hr1 : ((t.rotate c).node r).parent = none := by
    rw [rot_parent t hf c l hcp, if_neg hrc, if_neg hrl, if_neg, hr]
    intro h
    have := rotInner_parent t hf c l r h
    rw [hr] at this
    exact Option.noConfusion this
  have hcr1 : ((t.rotate c).node c).right = none := by
    rw [hright c hcl]
    exact hcr
  obtain ⟨a1, a2, a3, a4, a5⟩ := attach_spec (t.rotate c) hf1 c r hroot hcr1 hr1 hrc
    (by rw [hfr.1]; exact hrlt) (by rw [hfr.1]; exact hclt)
  have hcm := rotate_classMove t hf c l l hcp
    ((rootOf_parent t c l l hcp).mpr (rootOf_self t l hl))
  rw [if_pos rfl] at hcm
  refine ⟨_, ?_, a1, sameFrame_trans _ _ _ hfr a2, a3, ?_, ?_, ?_⟩
  · obtain ⟨k, hk⟩ : ∃ k, t.pool.length = k + 1 := ⟨t.pool.length - 1, by omega⟩
    unfold SplayETT.merge
    simp only [hk, mergeSeek_child t hf l c _ hlc hcr, splay_zig t hf c l hcp hl,
      pushDown_id _ _ hf1.rev]
    rfl
  · rw [a4 c, if_pos rfl]
  · intro y h1 h2
    rw [a4 y, if_neg h1, hright y h2]
  · intro y ρ hρ
    have m := a5 y _ (hcm.map y ρ hρ)
    by_cases h1 : ρ = l
    · subst h1
      simpa [Ne.symm hrc] using m
    · rw [if_neg h1] at m
      by_cases h2 : ρ = r
      · subst h2
        simpa using m
      · rw [if_neg h2] at m
        simpa [h1, h2] using m

/-! ### New nodes -/

theorem alloc_length (t : SplayETT) (v : Int) (key : Nat) :
    (t.allocNode v key).1 = t.pool.length ∧
    (t.allocNode v key).2.pool.length = t.pool.length + 1 ∧
    (t.allocNode v key).2.vertexNodes = t.vertexNodes ∧
    (t.allocNode v key).2.edges = t.edges := by
  simp [SplayETT.allocNode]

theorem alloc_ptrs (t : SplayETT) (v : Int) (key : Nat) (y : Nat) :
    ((t.allocNode v key).2.node y).parent = (t.node y).parent ∧
    ((t.allocNode v key).2.node y).left = (t.node y).left ∧
    ((t.allocNode v key).2.node y).right = (t.node y).right ∧
    ((t.allocNode v key).2.node y).reversed = (t.node y).reversed := by
  unfold SplayETT.node SplayETT.allocNode
  dsimp only
  rcases Nat.lt_trichotomy y t.pool.length with h | h | h
  · rw [List.getD_append _ _ _ _ h]
    exact ⟨rfl, rfl, rfl, rfl⟩
  · subst h
    rw [List.getD_append_right _ _ _ _ (le_refl _)]
    rw [List.getD_eq_default _ _ (le_refl _)]
    simp
    exact ⟨rfl, rfl, rfl, rfl⟩
  · rw [List.getD_eq_default _ _ (by simp; omega), List.getD_eq_default _ _ (by omega)]
    exact ⟨rfl, rfl, rfl, rfl⟩

theorem anc_congr (t s : SplayETT) (h : ∀ y, (s.node y).parent = (t.node y).parent)
    (y : Nat) (l : List Nat) : Anc s y l ↔ Anc t y l :=
  ⟨fun ha => anc_frame s t l y ha (fun w _ => (h w).symm),
   fun ha => anc_frame t s l y ha (fun w _ => h w)⟩

theorem rootOf_congr (t s : SplayETT) (h : ∀ y, (s.node y).parent = (t.node y).parent)
    (y r : Nat) : RootOf s y r ↔ RootOf t y r := by
  constructor
  · rintro ⟨l, h1, h2⟩
    exact ⟨l, (anc_congr t s h y l).mp h1, h2⟩
  · rintro ⟨l, h1, h2⟩
    exact ⟨l, (anc_congr t s h y l).mpr h1, h2⟩

/-- A forest with the same pointers and at least as many nodes is well formed too. -/
theorem forest_congr (t s : SplayETT) (hf : SplayForest t)
    (hlen : t.pool.length ≤ s.pool.length)
    (hp : ∀ y, (s.node y).parent = (t.node y).parent)
    (hl : ∀ y, (s.node y).left = (t.node y).left)
    (hr : ∀ y, (s.node y).right = (t.node y).right)
    (hv : ∀ y, (s.node y).reversed = (t.node y).reversed) : SplayForest s := by
  refine ⟨?_, ?_, ?_, ?_, ?_, ?_⟩
  · intro y
    rw [hv y]
    exact hf.rev y
  · intro y q hq
    rw [hp y] at hq
    exact lt_of_lt_of_le (hf.par_lt y q hq) hlen
  · intro y c hc
    rw [hl y] at hc
    rw [hp c]
    exact ⟨lt_of_lt_of_le (hf.left_par y c hc).1 hlen, (hf.left_par y c hc).2⟩
  · intro y c hc
    rw [hr y] at hc
    rw [hp c]
    exact ⟨lt_of_lt_of_le (hf.right_par y c hc).1 hlen, (hf.right_par y c hc).2⟩
  · intro y c hc
    rw [hl y] at hc
    rw [hr y]
    exact hf.left_ne_right y c hc
  · intro y
    obtain ⟨l, h⟩ := hf.anc y
    exact ⟨l, (anc_congr t s hp y l).mpr h⟩

theorem alloc_forest (t : SplayETT) (hf : SplayForest t) (v : Int) (key : Nat) :
    SplayForest (t.allocNode v key).2 :=
  forest_congr t _ hf (by rw [(alloc_length t v key).2.1]; omega)
    (fun y => (alloc_ptrs t v key y).1) (fun y => (alloc_ptrs t v key y).2.1)
    (fun y => (alloc_ptrs t v key y).2.2.1) (fun y => (alloc_ptrs t v key y).2.2.2)

/-- Outside the pool every index is its own root. -/
theorem rootOf_outside (t : SplayETT) (hf : SplayForest t) (y r : Nat)
    (h : RootOf t y r) : (y < t.pool.length ↔ r < t.pool.length) ∧ (t.pool.length ≤ y → r = y) := by
  constructor
  · constructor
    · exact rootOf_lt t hf y r h
    · intro hr
      by_contra hy
      have hd : (t.node y).parent = none := by
        rw [node_default t y (by omega)]
        rfl
      have := rootOf_unique t y _ _ h (rootOf_self t y hd)
      omega
  · intro hy
    have hd : (t.node y).parent = none := by
      rw [node_default t y hy]
      rfl
    exact rootOf_unique t y _ _ h (rootOf_self t y hd)

/-- The forest of the constructor: every node is alone. -/
theorem new_forest (n : Nat) :
    SplayForest (SplayETT.new n) ∧
    ∀ y, ((SplayETT.new n).node y).parent = none ∧ ((SplayETT.new n).node y).left = none ∧
      ((SplayETT.new n).node y).right = none := by
  induction n with
  | zero =>
    have hnode : ∀ y, (SplayETT.new 0).node y = default := by
      intro y
      exact node_default _ y (by simp [SplayETT.new])
    have hall : ∀ y, ((SplayETT.new 0).node y).parent = none ∧
        ((SplayETT.new 0).node y).left = none ∧ ((SplayETT.new 0).node y).right = none := by
      intro y
      rw [hnode y]
      exact ⟨rfl, rfl, rfl⟩
    refine ⟨⟨?_, ?_, ?_, ?_, ?_, ?_⟩, hall⟩
    · intro y
      rw [hnode y]
      rfl
    · intro y q hq
      rw [(hall y).1] at hq
      exact Option.noConfusion hq
    · intro y c hc
      rw [(hall y).2.1] at hc
      exact Option.noConfusion hc
    · intro y c hc
      rw [(hall y).2.2] at hc
      exact Option.noConfusion hc
    · intro y c hc
      rw [(hall y).2.1] at hc
      exact Option.noConfusion hc
    · intro y
      exact ⟨[], (hall y).1⟩
  | succ n ih =>
    obtain ⟨hf, hall⟩ := ih
    have hnode : ∀ y, (SplayETT.new (n + 1)).node y =
        (((SplayETT.new n).allocNode (n : Int) 0).2).node y := by
      intro y
      rw [SplayETT.new_succ]
      rfl
    have hlen : (SplayETT.new (n + 1)).pool.length =
        (((SplayETT.new n).allocNode (n : Int) 0).2).pool.length := by
      rw [SplayETT.new_succ]
    have hf1 := alloc_forest (SplayETT.new n) hf (n : Int) 0
    constructor
    · exact forest_congr _ _ hf1 (by rw [hlen]) (fun y => by rw [hnode y])
        (fun y => by rw [hnode y]) (fun y => by rw [hnode y]) (fun y => by rw [hnode y])
    · intro y
      rw [hnode y]
      obtain ⟨a1, a2, a3, _⟩ := alloc_ptrs (SplayETT.new n) (n : Int) 0 y
      rw [a1, a2, a3]
      exact hall y

/-! ### Linking an isolated vertex -/

theorem linkInv_step (t s s1 : SplayETT) (Big Q Q1 : Nat → Prop) (f : Nat → Nat)
    (hJ : LinkInv t s Big Q) (hmap : ∀ y ρ, RootOf s y ρ → RootOf s1 y (f ρ))
    (hfix : ∀ ρ, f ρ ≠ ρ → Q ρ) (hQ : ∀ ρ, Q ρ → Q1 (f ρ))
    (hB : ∀ ρ, Q1 ρ → ∃ b, RootOf t ρ b ∧ Big b) : LinkInv t s1 Big Q1 := by
  refine ⟨?_, hB⟩
  intro y b hb
  obtain ⟨j1, j2⟩ := hJ.1 y b hb
  constructor
  · intro hbig
    obtain ⟨ρ, q, hr⟩ := j1 hbig
    exact ⟨f ρ, hQ ρ q, hmap y ρ hr⟩
  · intro hsmall
    have hr := hmap y b (j2 hsmall)
    by_cases hfb : f b = b
    · rw [hfb] at hr
      exact hr
    · obtain ⟨b1, h1, h2⟩ := hJ.2 b (hfix b hfb)
      have := rootOf_unique t b _ _ h1 (rootOf_self t b (rootOf_root t y b hb))
      rw [this] at h2
      exact absurd h2 hsmall

theorem forest_edges (s : SplayETT) (hf : SplayForest s) (e : List (Nat × ETTEdge)) :
    SplayForest { s with edges := e } :=
  forest_congr s _ hf (le_refl _) (fun _ => rfl) (fun _ => rfl) (fun _ => rfl) (fun _ => rfl)

theorem rootOf_edges (s : SplayETT) (e : List (Nat × ETTEdge)) (y r : Nat)
    (h : RootOf s y r) : RootOf { s with edges := e } y r :=
  (rootOf_congr s { s with edges := e } (fun _ => rfl) y r).mpr h

/-- The value of `link(u, v)` from the values of the calls it makes. -/
theorem link_eval (t : SplayETT) (u v n ux vx key : Nat) (ro r1 r2 r3 r7 : Option Nat)
    (t3 t4 t5 t6 t7 : SplayETT)
    (hn : t.pool.length = n) (hke : makeEdgeKey u v = key) (huv : u ≠ v)
    (hkey : t.edges.any (fun e => e.1 = key) = false)
    (hconn : t.connected u v = some false)
    (hvn2 : ((t.allocNode (-1) key).2.allocNode (-1) key).2.vertexNodes = t.vertexNodes)
    (hve : nth t.vertexNodes v = vx) (hxe : nth t.vertexNodes u = ux)
    (hroot : ((t.allocNode (-1) key).2.allocNode (-1) key).2.getRoot vx = some vx)
    (hs3 : ((t.allocNode (-1) key).2.allocNode (-1) key).2.split ux = some (ro, t3))
    (hvn3 : t3.vertexNodes = t.vertexNodes)
    (hm4 : t3.merge (some ux) (some n) = some (r1, t4))
    (hm5 : t4.merge r1 (some vx) = some (r2, t5))
    (hm6 : t5.merge r2 (some (n + 1)) = some (r3, t6))
    (hm7 : t6.merge r3 ro = some (r7, t7)) :
    t.link u v =
      some (true, { t7 with edges := t7.edges ++ [(key, ETTEdge.mk n (n + 1) u v)] }) := by
  have he1 : (t.allocNode (-1) key).1 = n := by rw [(alloc_length t (-1) key).1, hn]
  have he2 : ((t.allocNode (-1) key).2.allocNode (-1) key).1 = n + 1 := by
    rw [(alloc_length _ (-1) key).1, (alloc_length t (-1) key).2.1, hn]
  unfold SplayETT.link
  rw [if_neg huv]
  simp only [hke, hkey, hconn, Bool.false_eq_true, if_false, he1, he2, hvn2, hve, hxe, hroot,
    hs3, hvn3, hm4, hm5, hm6, hm7]

/-- The last call `merge(., rightU)` of `link(u, v)` and the value of `link`, from the
forest `t6` reached before it. -/
theorem link_last (t t6 : SplayETT) (hf6 : SplayForest t6) (u v a n vx key : Nat)
    (ro : Option Nat)
    (hlen6 : t6.pool.length = n + 2) (hvn6 : t6.vertexNodes = t.vertexNodes)
    (hed6 : t6.edges = t.edges)
    (J6 : LinkInv t t6 (fun b => b = a ∨ b = vx ∨ b = n ∨ b = n + 1)
      (fun ρ => ρ = vx ∨ ro = some ρ))
    (hBn : ∃ b, RootOf t (n + 1) b ∧ (b = a ∨ b = vx ∨ b = n ∨ b = n + 1))
    (hror : ∀ r, ro = some r → r < n ∧ r ≠ vx ∧ RootOf t6 r r)
    (p6 : (t6.node vx).parent = none) (r6c : (t6.node vx).right = some (n + 1))
    (hb6 : (t6.node (n + 1)).right = none)
    (hcall : ∀ (r7 : Option Nat) (t7 : SplayETT), t6.merge (some vx) ro = some (r7, t7) →
      t.link u v =
        some (true, { t7 with edges := t7.edges ++ [(key, ETTEdge.mk n (n + 1) u v)] })) :
    ∃ s ρ, t.link u v = some (true, s) ∧ SplayForest s ∧
      s.pool.length = n + 2 ∧ s.vertexNodes = t.vertexNodes ∧
      s.edges = t.edges ++ [(key, ETTEdge.mk n (n + 1) u v)] ∧
      (ρ = vx ∨ ρ = n + 1) ∧
      ∀ y b, RootOf t y b →
        RootOf s y (if b = a ∨ b = vx ∨ b = n ∨ b = n + 1 then ρ else b) := by
  rcases Option.eq_none_or_eq_some ro with hro1 | ⟨r, hro1⟩
  · have h7 : t6.merge (some vx) ro = some (some vx, t6) := by
      rw [hro1]
      rfl
    refine ⟨_, vx, hcall _ _ h7, forest_edges t6 hf6 _, hlen6, hvn6, ?_, Or.inl rfl, ?_⟩
    · show t6.edges ++ _ = _
      rw [hed6]
    · intro y b hb
      apply rootOf_edges
      obtain ⟨j1, j2⟩ := J6.1 y b hb
      by_cases hbig : b = a ∨ b = vx ∨ b = n ∨ b = n + 1
      · obtain ⟨ρ, q, hr⟩ := j1 hbig
        rw [if_pos hbig]
        rcases q with q | q
        · rw [← q]
          exact hr
        · rw [hro1] at q
          exact Option.noConfusion q
      · have := j2 hbig
        rw [if_neg hbig]
        exact this
  · obtain ⟨q1, q2, r6p⟩ := hror r hro1
    obtain ⟨t7, hm7, hf7, fr7, p7, r7c, r7, m7⟩ := merge_child t6 hf6 vx (n + 1) r p6 r6c hb6
      (rootOf_root t6 r r r6p) (by omega) q2 (by omega)
    have h7 : t6.merge (some vx) ro = some (some (n + 1), t7) := by
      rw [hro1]
      exact hm7
    have J7 : LinkInv t t7 (fun b => b = a ∨ b = vx ∨ b = n ∨ b = n + 1)
        (fun ρ => ρ = n + 1) := by
      refine linkInv_step t t6 t7 _ _ _ (fun ρ => if ρ = vx ∨ ρ = r then n + 1 else ρ) J6 m7
        ?_ ?_ ?_
      · intro ρ h
        by_cases e : ρ = vx ∨ ρ = r
        · rcases e with e | e
          · exact Or.inl e
          · exact Or.inr (by rw [hro1, e])
        · simp [e] at h
      · intro ρ h
        by_cases e : ρ = vx ∨ ρ = r
        · simp [e]
        · simp only [e, if_false]
          rcases h with h | h
          · exact absurd (Or.inl h) e
          · rw [hro1] at h
            exact absurd (Or.inr (Option.some.inj h).symm) e
      · intro ρ h
        have e : ρ = n + 1 := h
        rw [e]
        exact hBn
    refine ⟨_, n + 1, hcall _ _ h7, forest_edges t7 hf7 _, by rw [← hlen6, fr7.1],
      by rw [fr7.2.1, hvn6], ?_, Or.inr rfl, ?_⟩
    · show t7.edges ++ _ = _
      rw [fr7.2.2.1, hed6]
    · intro y b hb
      apply rootOf_edges
      obtain ⟨j1, j2⟩ := J7.1 y b hb
      by_cases hbig : b = a ∨ b = vx ∨ b = n ∨ b = n + 1
      · obtain ⟨ρ, q, hr⟩ := j1 hbig
        have q1 : ρ = n + 1 := q
        rw [if_pos hbig, ← q1]
        exact hr
      · have := j2 hbig
        rw [if_neg hbig]
        exact this

/-- The first stage of `link(u, v)` for `v` alone in its tree: the two new nodes and the
call `split(u)`. -/
theorem link_stage_split (t : SplayETT) (hf : SplayForest t) (a n ux vx key : Nat)
    (hn : t.pool.length = n) (hux : ux < n) (hvx : vx < n)
    (ha : RootOf t ux a)
    (hvroot : (t.node vx).parent = none)
    (hvsing : ∀ y, RootOf t y vx → y = vx)
    (hav : a ≠ vx) :
    ∃ ro t3,
      ((t.allocNode (-1) key).2.allocNode (-1) key).2.split ux = some (ro, t3) ∧
      ((t.allocNode (-1) key).2.allocNode (-1) key).2.vertexNodes = t.vertexNodes ∧
      ((t.allocNode (-1) key).2.allocNode (-1) key).2.getRoot vx = some vx ∧
      SplayForest t3 ∧
      (t3.pool.length = n + 2 ∧ t3.vertexNodes = t.vertexNodes ∧ t3.edges = t.edges) ∧
      ((t3.node ux).parent = none ∧ (t3.node ux).right = none) ∧
      (∀ r, ro = some r → r < n ∧ r ≠ vx ∧ r ≠ ux ∧ RootOf t r a ∧
        (t3.node r).parent = none) ∧
      (RootOf t3 vx vx ∧ (t3.node vx).right = none) ∧
      (RootOf t3 n n ∧ (t3.node n).right = none) ∧
      (RootOf t3 (n + 1) (n + 1) ∧ (t3.node (n + 1)).right = none) ∧
      LinkInv t t3 (fun b => b = a ∨ b = vx ∨ b = n ∨ b = n + 1)
        (fun ρ => ρ = ux ∨ ρ = vx ∨ ρ = n ∨ ρ = n + 1 ∨ ro = some ρ) ∧
      (∀ ρ, (ρ = ux ∨ ρ = vx ∨ ρ = n ∨ ρ = n + 1 ∨ ro = some ρ) →
        ∃ b, RootOf t ρ b ∧ (b = a ∨ b = vx ∨ b = n ∨ b = n + 1)) := by
  have hal : a < n := by
    have := rootOf_lt t hf ux a ha (by rw [hn]; exact hux)
    rwa [hn] at this
  have huxvx : ux ≠ vx := by
    intro e
    rw [e] at ha
    exact hav (rootOf_unique t vx _ _ ha (rootOf_self t vx hvroot))
  -- the two new nodes
  obtain ⟨t1, ht1⟩ : ∃ t1, t1 = (t.allocNode (-1) key).2 := ⟨_, rfl⟩
  obtain ⟨t2, ht2⟩ : ∃ t2, t2 = (t1.allocNode (-1) key).2 := ⟨_, rfl⟩
  have he1 : (t.allocNode (-1) key).1 = n := by rw [(alloc_length t (-1) key).1, hn]
  have hlen1 : t1.pool.length = n + 1 := by rw [ht1, (alloc_length t (-1) key).2.1, hn]
  have he2 : (t1.allocNode (-1) key).1 = n + 1 := by
    rw [← hlen1]; exact (alloc_length t1 _ _).1
  have hlen2 : t2.pool.length = n + 2 := by
    rw [ht2, (alloc_length t1 _ _).2.1, hlen1]
  have hvn2 : t2.vertexNodes = t.vertexNodes := by
    rw [ht2, (alloc_length t1 _ _).2.2.1, ht1, (alloc_length t _ _).2.2.1]
  have hed2 : t2.edges = t.edges := by
    rw [ht2, (alloc_length t1 _ _).2.2.2, ht1, (alloc_length t _ _).2.2.2]
  have hp2 : ∀ y, (t2.node y).parent = (t.node y).parent := by
    intro y
    rw [ht2, (alloc_ptrs t1 _ _ y).1, ht1, (alloc_ptrs t _ _ y).1]
  have hf2 : SplayForest t2 := by
    rw [ht2]
    apply alloc_forest
    rw [ht1]
    exact alloc_forest t hf _ _
  have R2 : ∀ y r, RootOf t2 y r ↔ RootOf t y r := rootOf_congr t t2 hp2
  -- roots of the forest before the call
  have hroot_n : ∀ z, n ≤ z → RootOf t z z := by
    intro z hz
    apply rootOf_self
    rw [node_default t z (by rw [hn]; exact hz)]
    rfl
  have hsing_n : ∀ z, n ≤ z → ∀ y, RootOf t y z → y = z := by
    intro z hz y hy
    obtain ⟨o1, o2⟩ := rootOf_outside t hf y z hy
    rw [hn] at o1 o2
    have : ¬ y < n := by
      intro h
      have := o1.mp h
      omega
    exact (o2 (by omega)).symm
  have hvr : RootOf t vx vx := rootOf_self t vx hvroot
  have hvxl : vx < n := hvx
  have huxl : ux < n := hux
  -- split
  obtain ⟨ro, t3, hs3, hf3, fr3, px3, rx3, hro, m3⟩ :=
    split_spec t2 hf2 ux a ((R2 ux a).mpr ha)
  have hlen3 : t3.pool.length = n + 2 := by rw [fr3.1, hlen2]
  have hror : ∀ r, ro = some r → r < n ∧ r ≠ vx ∧ r ≠ ux ∧ RootOf t r a ∧
      (t3.node r).parent = none := by
    intro r hr
    obtain ⟨h1, h2, h3⟩ := hro r hr
    have h4 := (R2 r a).mp h3
    have hrn : r < n := by
      by_contra hge
      have := rootOf_unique t r _ _ h4 (hroot_n r (by omega))
      omega
    refine ⟨hrn, ?_, h2, h4, h1⟩
    intro e
    rw [e] at h4
    exact hav (rootOf_unique t vx _ _ h4 hvr)
  -- the nodes that are alone before the call stay alone during the split
  have halone3 : ∀ z, z ≠ a → z ≠ ux → ro ≠ some z → RootOf t z z →
      (∀ y, RootOf t y z → y = z) →
      RootOf t3 z z ∧ (t3.node z).right = none ∧ ∀ y, RootOf t3 y z → y = z := by
    intro z hza hzu hzr hz hzs
    have r3 : RootOf t3 z z := (m3 z z ((R2 z z).mpr hz)).1 hza
    have s3 : ∀ y, RootOf t3 y z → y = z := by
      intro y hy
      obtain ⟨b, hb⟩ := rootOf_exists t2 hf2 y
      obtain ⟨k1, k2⟩ := m3 y b hb
      by_cases hba : b = a
      · rcases k2 hba with h | ⟨r, hr, h⟩
        · exact absurd (rootOf_unique t3 y _ _ hy h) hzu
        · have := rootOf_unique t3 y _ _ hy h
          rw [this] at hzr
          exact absurd hr hzr
      · have := rootOf_unique t3 y _ _ hy (k1 hba)
        rw [← this] at hb
        exact hzs y ((R2 y z).mp hb)
    exact ⟨r3, (isolated_of_singleton t3 hf3 z (rootOf_root t3 z z r3) s3).2, s3⟩
  have hvne : ro ≠ some vx := fun h => (hror vx h).2.1 rfl
  have hnne : ∀ z, n ≤ z → ro ≠ some z := fun z hz h => by
    have := (hror z h).1
    omega
  obtain ⟨v3, vr3, _⟩ := halone3 vx (Ne.symm hav) (Ne.symm huxvx) hvne hvr hvsing
  obtain ⟨a3, ar3, _⟩ := halone3 n (by omega) (by omega) (hnne n (le_refl _))
    (hroot_n n (le_refl _)) (hsing_n n (le_refl _))
  obtain ⟨b3, br3, _⟩ := halone3 (n + 1) (by omega) (by omega) (hnne (n + 1) (by omega))
    (hroot_n (n + 1) (by omega)) (hsing_n (n + 1) (by omega))
  -- the bookkeeping
  obtain ⟨Big, hBig⟩ : ∃ Big : Nat → Prop, Big = fun b => b = a ∨ b = vx ∨ b = n ∨ b = n + 1 :=
    ⟨_, rfl⟩
  have hB1 : ∀ ρ, (ρ = ux ∨ ρ = vx ∨ ρ = n ∨ ρ = n + 1 ∨ ro = some ρ) →
      ∃ b, RootOf t ρ b ∧ Big b := by
    intro ρ h
    rw [hBig]
    rcases h with h | h | h | h | h
    · exact ⟨a, by rw [h]; exact ha, Or.inl rfl⟩
    · exact ⟨vx, by rw [h]; exact hvr, Or.inr (Or.inl rfl)⟩
    · exact ⟨n, by rw [h]; exact hroot_n n (le_refl _), Or.inr (Or.inr (Or.inl rfl))⟩
    · exact ⟨n + 1, by rw [h]; exact hroot_n (n + 1) (by omega),
        Or.inr (Or.inr (Or.inr rfl))⟩
    · exact ⟨a, (hror ρ h).2.2.2.1, Or.inl rfl⟩
  have J3 : LinkInv t t3 Big (fun ρ => ρ = ux ∨ ρ = vx ∨ ρ = n ∨ ρ = n + 1 ∨ ro = some ρ) := by
    refine ⟨?_, hB1⟩
    intro y b hb
    obtain ⟨k1, k2⟩ := m3 y b ((R2 y b).mpr hb)
    constructor
    · intro hbig
      rw [hBig] at hbig
      by_cases hba : b = a
      · rcases k2 hba with h | ⟨r, hr, h⟩
        · exact ⟨ux, Or.inl rfl, h⟩
        · exact ⟨r, Or.inr (Or.inr (Or.inr (Or.inr hr))), h⟩
      · refine ⟨b, ?_, k1 hba⟩
        rcases hbig with h | h | h | h
        · exact absurd h hba
        · exact Or.inr (Or.inl h)
        · exact Or.inr (Or.inr (Or.inl h))
        · exact Or.inr (Or.inr (Or.inr (Or.inl h)))
    · intro hsmall
      apply k1
      intro e
      apply hsmall
      rw [hBig]
      exact Or.inl e
  subst hBig
  refine ⟨ro, t3, ?_, ?_, ?_, hf3, ⟨hlen3, ?_, ?_⟩, ⟨px3, rx3⟩, hror, ⟨v3, vr3⟩, ⟨a3, ar3⟩,
    ⟨b3, br3⟩, J3, hB1⟩
  · rw [← ht1, ← ht2]
    exact hs3
  · rw [← ht1, ← ht2]
    exact hvn2
  · rw [← ht1, ← ht2]
    exact getRoot_rootOf t2 hf2 vx vx ((R2 vx vx).mpr hvr)
  · rw [fr3.2.1]
    exact hvn2
  · rw [fr3.2.2.1]
    exact hed2

/-- The calls `merge(u, e1)` and `merge(., rootV)` of `link(u, v)`. -/
theorem link_stage_mid (t t3 : SplayETT) (a n ux vx : Nat) (ro : Option Nat) (Big : Nat → Prop)
    (hux : ux < n) (hvx : vx < n) (huxvx : ux ≠ vx)
    (hf3 : SplayForest t3) (hlen3 : t3.pool.length = n + 2)
    (px3 : (t3.node ux).parent = none) (rx3 : (t3.node ux).right = none)
    (hror : ∀ r, ro = some r → r < n ∧ r ≠ vx ∧ r ≠ ux ∧ RootOf t r a ∧
      (t3.node r).parent = none)
    (v3 : RootOf t3 vx vx) (vr3 : (t3.node vx).right = none)
    (a3 : RootOf t3 n n) (ar3 : (t3.node n).right = none)
    (b3 : RootOf t3 (n + 1) (n + 1)) (br3 : (t3.node (n + 1)).right = none)
    (J3 : LinkInv t t3 Big (fun ρ => ρ = ux ∨ ρ = vx ∨ ρ = n ∨ ρ = n + 1 ∨ ro = some ρ))
    (hB1 : ∀ ρ, (ρ = ux ∨ ρ = vx ∨ ρ = n ∨ ρ = n + 1 ∨ ro = some ρ) →
      ∃ b, RootOf t ρ b ∧ Big b) :
    ∃ t4 t5, t3.merge (some ux) (some n) = some (some ux, t4) ∧
      t4.merge (some ux) (some vx) = some (some n, t5) ∧
      SplayForest t5 ∧ SameFrame t3 t5 ∧
      (t5.node n).parent = none ∧ (t5.node n).right = some vx ∧
      (t5.node vx).right = none ∧
      (RootOf t5 (n + 1) (n + 1) ∧ (t5.node (n + 1)).right = none) ∧
      LinkInv t t5 Big (fun ρ => ρ = n ∨ ρ = n + 1 ∨ ro = some ρ) ∧
      (∀ r, ro = some r → RootOf t5 r r) := by
  -- merge(u, e1)
  obtain ⟨t4, hm4, hf4, fr4, p4, r4, m4⟩ := merge_here t3 hf3 ux n px3 rx3
    (rootOf_root t3 n n a3) (by omega) (by omega) (by omega)
  have hlen4 : t4.pool.length = n + 2 := by rw [fr4.1, hlen3]
  have J4 : LinkInv t t4 Big (fun ρ => ρ = ux ∨ ρ = vx ∨ ρ = n + 1 ∨ ro = some ρ) := by
    refine linkInv_step t t3 t4 Big _ _ (fun ρ => if ρ = n then ux else ρ) J3 m4 ?_ ?_ ?_
    · intro ρ h
      by_cases e : ρ = n
      · exact Or.inr (Or.inr (Or.inl e))
      · simp [e] at h
    · intro ρ h
      by_cases e : ρ = n
      · simp [e]
      · simp only [e, if_false]
        rcases h with h | h | h | h | h
        · exact Or.inl h
        · exact Or.inr (Or.inl h)
        · exact absurd h e
        · exact Or.inr (Or.inr (Or.inl h))
        · exact Or.inr (Or.inr (Or.inr h))
    · intro ρ h
      apply hB1
      rcases h with h | h | h | h
      · exact Or.inl h
      · exact Or.inr (Or.inl h)
      · exact Or.inr (Or.inr (Or.inr (Or.inl h)))
      · exact Or.inr (Or.inr (Or.inr (Or.inr h)))
  -- merge(., rootV)
  have v4 : RootOf t4 vx vx := by
    have := m4 vx vx v3
    rwa [if_neg (by omega)] at this
  have b4 : RootOf t4 (n + 1) (n + 1) := by
    have := m4 (n + 1) (n + 1) b3
    rwa [if_neg (by omega)] at this
  obtain ⟨t5, hm5, hf5, fr5, p5, r5c, r5, m5⟩ := merge_child t4 hf4 ux n vx p4
    (by rw [r4 ux, if_pos rfl]) (by rw [r4 n, if_neg (by omega)]; exact ar3)
    (rootOf_root t4 vx vx v4) (by omega) (Ne.symm huxvx) (by omega)
  have hlen5 : t5.pool.length = n + 2 := by rw [fr5.1, hlen4]
  have J5 : LinkInv t t5 Big (fun ρ => ρ = n ∨ ρ = n + 1 ∨ ro = some ρ) := by
    refine linkInv_step t t4 t5 Big _ _ (fun ρ => if ρ = ux ∨ ρ = vx then n else ρ) J4 m5
      ?_ ?_ ?_
    · intro ρ h
      by_cases e : ρ = ux ∨ ρ = vx
      · rcases e with e | e
        · exact Or.inl e
        · exact Or.inr (Or.inl e)
      · simp [e] at h
    · intro ρ h
      by_cases e : ρ = ux ∨ ρ = vx
      · simp [e]
      · simp only [e, if_false]
        rcases h with h | h | h | h
        · exact absurd (Or.inl h) e
        · exact absurd (Or.inr h) e
        · exact Or.inr (Or.inl h)
        · exact Or.inr (Or.inr h)
    · intro ρ h
      apply hB1
      rcases h with h | h | h
      · exact Or.inr (Or.inr (Or.inl h))
      · exact Or.inr (Or.inr (Or.inr (Or.inl h)))
      · exact Or.inr (Or.inr (Or.inr (Or.inr h)))
  have b5 : RootOf t5 (n + 1) (n + 1) := by
    have := m5 (n + 1) (n + 1) b4
    rwa [if_neg (by omega)] at this
  refine ⟨t4, t5, hm4, hm5, hf5, sameFrame_trans _ _ _ fr4 fr5, p5, r5c, ?_, ⟨b5, ?_⟩, J5, ?_⟩
  · rw [r5 vx (by omega) (Ne.symm huxvx), r4 vx, if_neg (Ne.symm huxvx)]
    exact vr3
  · rw [r5 (n + 1) (by omega) (by omega), r4 (n + 1), if_neg (by omega)]
    exact br3
  · intro r hro1
    obtain ⟨q1, q2, q3, q4, q5⟩ := hror r hro1
    have r4a : RootOf t4 r r := by
      have := m4 r r (rootOf_self t3 r q5)
      rwa [if_neg (by omega)] at this
    have := m5 r r r4a
    rwa [if_neg (by
      intro e
      rcases e with e | e
      · exact q3 e
      · exact q2 e)] at this

/-- The call `merge(., e2)` of `link(u, v)`. -/
theorem link_stage_e2 (t t5 : SplayETT) (n vx : Nat) (ro : Option Nat) (Big : Nat → Prop)
    (hvx : vx < n)
    (hf5 : SplayForest t5) (hlen5 : t5.pool.length = n + 2)
    (p5 : (t5.node n).parent = none) (r5c : (t5.node n).right = some vx)
    (vr5 : (t5.node vx).right = none)
    (b5 : RootOf t5 (n + 1) (n + 1)) (br5 : (t5.node (n + 1)).right = none)
    (J5 : LinkInv t t5 Big (fun ρ => ρ = n ∨ ρ = n + 1 ∨ ro = some ρ))
    (hB1 : ∀ ρ, (ρ = vx ∨ ro = some ρ) → ∃ b, RootOf t ρ b ∧ Big b)
    (hror : ∀ r, ro = some r → r < n ∧ RootOf t5 r r) :
    ∃ t6, t5.merge (some n) (some (n + 1)) = some (some vx, t6) ∧
      SplayForest t6 ∧ SameFrame t5 t6 ∧
      (t6.node vx).parent = none ∧ (t6.node vx).right = some (n + 1) ∧
      (t6.node (n + 1)).right = none ∧
      LinkInv t t6 Big (fun ρ => ρ = vx ∨ ro = some ρ) ∧
      (∀ r, ro = some r → RootOf t6 r r) := by
  obtain ⟨t6, hm6, hf6, fr6, p6, r6c, r6, m6⟩ := merge_child t5 hf5 n vx (n + 1) p5 r5c vr5
    (rootOf_root t5 _ _ b5) (by omega) (by omega) (by omega)
  have J6 : LinkInv t t6 Big (fun ρ => ρ = vx ∨ ro = some ρ) := by
    refine linkInv_step t t5 t6 Big _ _ (fun ρ => if ρ = n ∨ ρ = n + 1 then vx else ρ) J5 m6
      ?_ ?_ hB1
    · intro ρ h
      by_cases e : ρ = n ∨ ρ = n + 1
      · rcases e with e | e
        · exact Or.inl e
        · exact Or.inr (Or.inl e)
      · simp [e] at h
    · intro ρ h
      by_cases e : ρ = n ∨ ρ = n + 1
      · simp [e]
      · simp only [e, if_false]
        rcases h with h | h | h
        · exact absurd (Or.inl h) e
        · exact absurd (Or.inr h) e
        · exact Or.inr h
  refine ⟨t6, hm6, hf6, fr6, p6, r6c, ?_, J6, ?_⟩
  · rw [r6 (n + 1) (by omega) (by omega)]
    exact br5
  · intro r hro1
    obtain ⟨q1, q2⟩ := hror r hro1
    have := m6 r r q2
    rwa [if_neg (by omega)] at this

/-- The method `link(u, v)` when `v` is alone in its tree and `u` lies in another tree:
the call returns true, two nodes are added, and the trees of `u` and of `v` and the two
new nodes form one tree; every other tree keeps its nodes and its root. -/
theorem link_isolated (t : SplayETT) (hf : SplayForest t) (u v a n ux vx key : Nat)
    (hn : t.pool.length = n) (hxe : nth t.vertexNodes u = ux) (hve : nth t.vertexNodes v = vx)
    (hke : makeEdgeKey u v = key)
    (huv : u ≠ v)
    (hkey : t.edges.any (fun e => e.1 = key) = false)
    (hux : ux < n) (hvx : vx < n)
    (ha : RootOf t ux a)
    (hvroot : (t.node vx).parent = none)
    (hvsing : ∀ y, RootOf t y vx → y = vx)
    (hav : a ≠ vx) :
    ∃ s ρ, t.link u v = some (true, s) ∧ SplayForest s ∧
      s.pool.length = n + 2 ∧ s.vertexNodes = t.vertexNodes ∧
      s.edges = t.edges ++ [(key, ETTEdge.mk n (n + 1) u v)] ∧
      (ρ = vx ∨ ρ = n + 1) ∧
      ∀ y b, RootOf t y b →
        RootOf s y (if b = a ∨ b = vx ∨ b = n ∨ b = n + 1 then ρ else b) := by
  have hvr : RootOf t vx vx := rootOf_self t vx hvroot
  have hconn : t.connected u v = some false := by
    rw [connected_rootOf t hf u v a vx (by rw [hxe]; exact ha) (by rw [hve]; exact hvr)]
    simp [hav]
  have huxvx : ux ≠ vx := by
    intro e
    rw [e] at ha
    exact hav (rootOf_unique t vx _ _ ha hvr)
  obtain ⟨ro, t3, hs3, hvn2, hroot, hf3, ⟨hlen3, hvn3, hed3⟩, ⟨px3, rx3⟩, hror, ⟨v3, vr3⟩,
    ⟨a3, ar3⟩, ⟨b3, br3⟩, J3, hB1⟩ :=
    link_stage_split t hf a n ux vx key hn hux hvx ha hvroot hvsing hav
  obtain ⟨t4, t5, hm4, hm5, hf5, fr5, p5, r5c, vr5, ⟨b5, br5⟩, J5, hr5⟩ :=
    link_stage_mid t t3 a n ux vx ro _ hux hvx huxvx hf3 hlen3 px3 rx3 hror v3 vr3 a3 ar3 b3 br3
      J3 hB1
  have hlen5 : t5.pool.length = n + 2 := by rw [fr5.1, hlen3]
  obtain ⟨t6, hm6, hf6, fr6, p6, r6c, hb6, J6, hr6⟩ :=
    link_stage_e2 t t5 n vx ro _ hvx hf5 hlen5 p5 r5c vr5 b5 br5 J5
      (fun ρ h => hB1 ρ (h.elim (fun e => Or.inr (Or.inl e))
        (fun e => Or.inr (Or.inr (Or.inr (Or.inr e))))))
      (fun r h => ⟨(hror r h).1, hr5 r h⟩)
  have hcall : ∀ (r7 : Option Nat) (t7 : SplayETT), t6.merge (some vx) ro = some (r7, t7) →
      t.link u v =
        some (true, { t7 with edges := t7.edges ++ [(key, ETTEdge.mk n (n + 1) u v)] }) :=
    fun r7 t7 h7 =>
      link_eval t u v n ux vx key ro (some ux) (some n) (some vx) r7 t3 t4 t5 t6 t7 hn hke
        huv hkey hconn hvn2 hve hxe hroot hs3 hvn3 hm4 hm5 hm6 h7
  exact link_last t t6 hf6 u v a n vx key ro (by rw [fr6.1, hlen5])
    (by rw [fr6.2.1, fr5.2.1, hvn3]) (by rw [fr6.2.2.1, fr5.2.2.1, hed3]) J6
    (hB1 (n + 1) (Or.inr (Or.inr (Or.inr (Or.inl rfl)))))
    (fun r h => ⟨(hror r h).1, (hror r h).2.1, hr6 r h⟩) p6 r6c hb6 hcall

/-! ## The adjacency lists that `Initialize` builds -/

theorem mem_pairsOf : ∀ (l : List Nat) (a b : Nat), (a, b) ∈ pairsOf l → a ∈ l ∧ b ∈ l := by
  intro l
  induction l with
  | nil => intro a b h; simp [pairsOf] at h
  | cons r rest ih =>
    intro a b h
    simp only [pairsOf, List.mem_append, List.mem_map, Prod.mk.injEq] at h
    rcases h with ⟨x, hx, rfl, rfl⟩ | h
    · exact ⟨List.mem_cons_self _ _, List.mem_cons_of_mem _ hx⟩
    · have := ih a b h
      exact ⟨List.mem_cons_of_mem _ this.1, List.mem_cons_of_mem _ this.2⟩

theorem pairsOf_of_mem : ∀ (l : List Nat) (a b : Nat), a ∈ l → b ∈ l → a ≠ b →
    (a, b) ∈ pairsOf l ∨ (b, a) ∈ pairsOf l := by
  intro l
  induction l with
  | nil => intro a b h; simp at h
  | cons r rest ih =>
    intro a b ha hb hab
    simp only [pairsOf, List.mem_append, List.mem_map, Prod.mk.injEq]
    rcases List.mem_cons.mp ha with ha1 | ha1
    · rcases List.mem_cons.mp hb with hb1 | hb1
      · exact absurd (ha1.trans hb1.symm) hab
      · exact Or.inl (Or.inl ⟨b, hb1, ha1.symm, rfl⟩)
    · rcases List.mem_cons.mp hb with hb1 | hb1
      · exact Or.inr (Or.inl ⟨a, ha1, hb1.symm, rfl⟩)
      · rcases ih a b ha1 hb1 hab with h | h
        · exact Or.inl (Or.inr h)
        · exact Or.inr (Or.inr h)

theorem getD_set_list (l : List (List Nat)) (i j : Nat) (v : List Nat) :
    (l.set i v).getD j [] = if i = j ∧ j < l.length then v else l.getD j [] := by
  by_cases h1 : i = j
  · subst h1
    by_cases h2 : i < l.length
    · rw [if_pos ⟨rfl, h2⟩]; exact getD_set_eq l i v h2
    · rw [if_neg (fun hh => h2 hh.2)]
      rw [List.set_eq_of_length_le (by omega)]
  · rw [if_neg (fun hh => h1 hh.1)]
    exact getD_set_ne l i j v (fun e => h1 e.symm)

/-- What `addEdgeToAdjList(u, v)` does to the detector: it puts `v` into the list of `u`
and `u` into the list of `v`, unless `u = v`. -/
theorem addEdgeToAdjList_spec (d : ComponentDetector) (u v : Nat) (hu : u < d.adj_list.length)
    (hv : v < d.adj_list.length) :
    (d.addEdgeToAdjList u v).adj_list.length = d.adj_list.length ∧
    (d.addEdgeToAdjList u v).ett = d.ett ∧ (d.addEdgeToAdjList u v).row_active = d.row_active ∧
    (d.addEdgeToAdjList u v).num_rows = d.num_rows ∧
    (d.addEdgeToAdjList u v).tree_edges = d.tree_edges ∧
    ∀ w x, x ∈ (d.addEdgeToAdjList u v).adj_list.getD w [] ↔
      (x ∈ d.adj_list.getD w [] ∨ (u ≠ v ∧ ((w = u ∧ x = v) ∨ (w = v ∧ x = u)))) := by
  unfold ComponentDetector.addEdgeToAdjList
  by_cases huv : u = v
  · rw [if_pos huv]
    refine ⟨rfl, rfl, rfl, rfl, rfl, ?_⟩
    intro w x
    constructor
    · intro h; exact Or.inl h
    · rintro (h | ⟨h, _⟩)
      · exact h
      · exact absurd huv h
  · rw [if_neg huv]
    refine ⟨by simp, rfl, rfl, rfl, rfl, ?_⟩
    intro w x
    simp only
    have e1 := getD_set_list (d.adj_list.set u (usetInsert v (d.adj_list.getD u []))) v w
      (usetInsert u ((d.adj_list.set u (usetInsert v (d.adj_list.getD u []))).getD v []))
    have e2 := getD_set_list d.adj_list u v (usetInsert v (d.adj_list.getD u []))
    have e3 := getD_set_list d.adj_list u w (usetInsert v (d.adj_list.getD u []))
    rw [e1, e2, e3]
    simp only [List.length_set]
    by_cases hwv : v = w
    · subst hwv
      rw [if_pos ⟨rfl, hv⟩, mem_usetInsert, if_neg (fun hh => huv hh.1)]
      constructor
      · rintro (h | h)
        · exact Or.inr ⟨huv, Or.inr ⟨rfl, h⟩⟩
        · exact Or.inl h
      · rintro (h | ⟨_, ⟨h1, _⟩ | ⟨_, h2⟩⟩)
        · exact Or.inr h
        · exact absurd h1.symm huv
        · exact Or.inl h2
    · rw [if_neg (fun hh => hwv hh.1)]
      by_cases hwu : u = w
      · subst hwu
        rw [if_pos ⟨rfl, hu⟩, mem_usetInsert]
        constructor
        · rintro (h | h)
          · exact Or.inr ⟨huv, Or.inl ⟨rfl, h⟩⟩
          · exact Or.inl h
        · rintro (h | ⟨_, ⟨_, h2⟩ | ⟨h1, _⟩⟩)
          · exact Or.inr h
          · exact Or.inl h2
          · exact absurd h1.symm hwv
      · rw [if_neg (fun hh => hwu hh.1)]
        constructor
        · intro h; exact Or.inl h
        · rintro (h | ⟨_, ⟨h1, _⟩ | ⟨h1, _⟩⟩)
          · exact h
          · exact absurd h1.symm hwu
          · exact absurd h1.symm hwv

theorem foldl_addEdge_spec : ∀ (pairs : List (Nat × Nat)) (d : ComponentDetector),
    (∀ p ∈ pairs, p.1 < d.adj_list.length ∧ p.2 < d.adj_list.length) →
    (pairs.foldl (fun a pr => a.addEdgeToAdjList pr.1 pr.2) d).adj_list.length =
      d.adj_list.length ∧
    (pairs.foldl (fun a pr => a.addEdgeToAdjList pr.1 pr.2) d).ett = d.ett ∧
    (pairs.foldl (fun a pr => a.addEdgeToAdjList pr.1 pr.2) d).row_active = d.row_active ∧
    (pairs.foldl (fun a pr => a.addEdgeToAdjList pr.1 pr.2) d).num_rows = d.num_rows ∧
    (pairs.foldl (fun a pr => a.addEdgeToAdjList pr.1 pr.2) d).tree_edges = d.tree_edges ∧
    ∀ w x, x ∈ (pairs.foldl (fun a pr => a.addEdgeToAdjList pr.1 pr.2) d).adj_list.getD w [] ↔
      (x ∈ d.adj_list.getD w [] ∨ (w ≠ x ∧ ((w, x) ∈ pairs ∨ (x, w) ∈ pairs))) := by
  intro pairs
  induction pairs with
  | nil =>
    intro d _
    refine ⟨rfl, rfl, rfl, rfl, rfl, ?_⟩
    intro w x
    simp
  | cons p rest ih =>
    intro d hlt
    obtain ⟨hp1, hp2⟩ := hlt p (List.mem_cons_self _ _)
    obtain ⟨a1, a2, a3, a4, a5, a6⟩ := addEdgeToAdjList_spec d p.1 p.2 hp1 hp2
    obtain ⟨b1, b2, b3, b4, b5, b6⟩ := ih (d.addEdgeToAdjList p.1 p.2)
      (by intro q hq; rw [a1]; exact hlt q (List.mem_cons_of_mem _ hq))
    rw [List.foldl_cons]
    refine ⟨b1.trans a1, b2.trans a2, b3.trans a3, b4.trans a4, b5.trans a5, ?_⟩
    intro w x
    rw [b6 w x, a6 w x]
    simp only [List.mem_cons]
    constructor
    · rintro ((h | ⟨hne, ⟨h1, h2⟩ | ⟨h1, h2⟩⟩) | ⟨hne, h | h⟩)
      · exact Or.inl h
      · refine Or.inr ⟨by rw [h1, h2]; exact hne, Or.inl (Or.inl ?_)⟩
        rw [h1, h2]
      · refine Or.inr ⟨by rw [h1, h2]; exact fun e => hne e.symm, Or.inr (Or.inl ?_)⟩
        rw [h1, h2]
      · exact Or.inr ⟨hne, Or.inl (Or.inr h)⟩
      · exact Or.inr ⟨hne, Or.inr (Or.inr h)⟩
    · rintro (h | ⟨hne, (h | h) | (h | h)⟩)
      · exact Or.inl (Or.inl h)
      · refine Or.inl (Or.inr ⟨?_, Or.inl ?_⟩)
        · rw [← h]; exact hne
        · rw [← h]; exact ⟨rfl, rfl⟩
      · exact Or.inr ⟨hne, Or.inl h⟩
      · refine Or.inl (Or.inr ⟨?_, Or.inr ?_⟩)
        · rw [← h]; exact fun e => hne e.symm
        · rw [← h]; exact ⟨rfl, rfl⟩
      · exact Or.inr ⟨hne, Or.inr h⟩

/-- The loop of `Initialize` over the columns leaves in `adj_list[w]` the rows that share
a column with `w`. -/
theorem initialize_fold_spec : ∀ (crm : List (Nat × List Nat)) (d : ComponentDetector),
    (∀ e ∈ crm, ∀ r ∈ e.2, r < d.adj_list.length) →
    (crm.foldl
        (fun (acc : ComponentDetector) (e : Nat × List Nat) =>
          (pairsOf e.2).foldl (fun a pr => a.addEdgeToAdjList pr.1 pr.2)
            { acc with row_to_cols :=
                e.2.foldl (fun mp row => mapModify mp row (usetInsert e.1)) acc.row_to_cols })
        d).adj_list.length = d.adj_list.length ∧
    (crm.foldl
        (fun (acc : ComponentDetector) (e : Nat × List Nat) =>
          (pairsOf e.2).foldl (fun a pr => a.addEdgeToAdjList pr.1 pr.2)
            { acc with row_to_cols :=
                e.2.foldl (fun mp row => mapModify mp row (usetInsert e.1)) acc.row_to_cols })
        d).ett = d.ett ∧
    (crm.foldl
        (fun (acc : ComponentDetector) (e : Nat × List Nat) =>
          (pairsOf e.2).foldl (fun a pr => a.addEdgeToAdjList pr.1 pr.2)
            { acc with row_to_cols :=
                e.2.foldl (fun mp row => mapModify mp row (usetInsert e.1)) acc.row_to_cols })
        d).row_active = d.row_active ∧
    (crm.foldl
        (fun (acc : ComponentDetector) (e : Nat × List Nat) =>
          (pairsOf e.2).foldl (fun a pr => a.addEdgeToAdjList pr.1 pr.2)
            { acc with row_to_cols :=
                e.2.foldl (fun mp row => mapModify mp row (usetInsert e.1)) acc.row_to_cols })
        d).num_rows = d.num_rows ∧
    ∀ w x, x ∈ (crm.foldl
        (fun (acc : ComponentDetector) (e : Nat × List Nat) =>
          (pairsOf e.2).foldl (fun a pr => a.addEdgeToAdjList pr.1 pr.2)
            { acc with row_to_cols :=
                e.2.foldl (fun mp row => mapModify mp row (usetInsert e.1)) acc.row_to_cols })
        d).adj_list.getD w [] ↔
      (x ∈ d.adj_list.getD w [] ∨ RowAdj crm w x) := by
  intro crm
  induction crm with
  | nil =>
    intro d _
    refine ⟨rfl, rfl, rfl, rfl, ?_⟩
    intro w x
    simp [RowAdj]
  | cons e rest ih =>
    intro d hlt
    rw [List.foldl_cons]
    obtain ⟨a1, a2, a3, a4, _, a6⟩ := foldl_addEdge_spec (pairsOf e.2)
      { d with row_to_cols :=
          e.2.foldl (fun mp row => mapModify mp row (usetInsert e.1)) d.row_to_cols }
      (by
        intro p hp
        have := mem_pairsOf e.2 p.1 p.2 hp
        exact ⟨hlt e (List.mem_cons_self _ _) _ this.1, hlt e (List.mem_cons_self _ _) _ this.2⟩)
    obtain ⟨b1, b2, b3, b4, b6⟩ := ih _
      (by intro e1 he1 r hr; rw [a1]; exact hlt e1 (List.mem_cons_of_mem _ he1) r hr)
    refine ⟨b1.trans a1, b2.trans a2, b3.trans a3, b4.trans a4, ?_⟩
    intro w x
    rw [b6 w x, a6 w x]
    unfold RowAdj
    simp only [List.mem_cons, exists_eq_or_imp]
    constructor
    · rintro ((h | ⟨hne, h⟩) | ⟨hne, h⟩)
      · exact Or.inl h
      · refine Or.inr ⟨hne, Or.inl ?_⟩
        rcases h with h | h
        · exact mem_pairsOf _ _ _ h
        · exact (mem_pairsOf _ _ _ h).symm
      · exact Or.inr ⟨hne, Or.inr h⟩
    · rintro (h | ⟨hne, h | h⟩)
      · exact Or.inl (Or.inl h)
      · exact Or.inl (Or.inr ⟨hne, pairsOf_of_mem _ _ _ h.1 h.2 hne⟩)
      · exact Or.inr ⟨hne, h⟩

/-! ## The breadth-first search of `BuildSpanningForest` -/

theorem growFrom_append : ∀ (L : List (Nat × Nat)) (S : Nat → Prop) (e : Nat × Nat),
    GrowFrom S (L ++ [e]) ↔
      (GrowFrom S L ∧ (S e.1 ∨ e.1 ∈ L.map Prod.snd) ∧ ¬ (S e.2 ∨ e.2 ∈ L.map Prod.snd)) := by
  intro L
  induction L with
  | nil =>
    intro S e
    simp [GrowFrom]
  | cons a rest ih =>
    intro S e
    have h := ih (fun x => S x ∨ x = a.2) e
    show (S a.1 ∧ ¬ S a.2 ∧ GrowFrom (fun x => S x ∨ x = a.2) (rest ++ [e])) ↔
      ((S a.1 ∧ ¬ S a.2 ∧ GrowFrom (fun x => S x ∨ x = a.2) rest) ∧ _ ∧ _)
    rw [h]
    simp only [List.map_cons, List.mem_cons]
    constructor
    · rintro ⟨h1, h2, h3, h4, h5⟩
      refine ⟨⟨h1, h2, h3⟩, ?_, ?_⟩
      · rcases h4 with (h | h) | h
        · exact Or.inl h
        · exact Or.inr (Or.inl h)
        · exact Or.inr (Or.inr h)
      · rintro (h | h | h)
        · exact h5 (Or.inl (Or.inl h))
        · exact h5 (Or.inl (Or.inr h))
        · exact h5 (Or.inr h)
    · rintro ⟨⟨h1, h2, h3⟩, h4, h5⟩
      refine ⟨h1, h2, h3, ?_, ?_⟩
      · rcases h4 with h | h | h
        · exact Or.inl (Or.inl h)
        · exact Or.inl (Or.inr h)
        · exact Or.inr h
      · rintro ((h | h) | h)
        · exact h5 (Or.inl h)
        · exact h5 (Or.inr (Or.inl h))
        · exact h5 (Or.inr (Or.inr h))

theorem getD_set_bool (l : List Bool) (i j : Nat) (hi : i < l.length) :
    (l.set i true).getD j false = true ↔ (j = i ∨ l.getD j false = true) := by
  simp only [List.getD_eq_getElem?_getD, List.getElem?_set]
  by_cases h : i = j
  · subst h
    simp [hi]
  · rw [if_neg h]
    constructor
    · intro hh; exact Or.inr hh
    · rintro (hh | hh)
      · exact absurd hh.symm h
      · exact hh

theorem count_set_true : ∀ (l : List Bool) (v : Nat), v < l.length → l.getD v false = false →
    (l.set v true).count false + 1 = l.count false := by
  intro l
  induction l with
  | nil => intro v hv; simp at hv
  | cons b rest ih =>
    intro v hv hb
    cases v with
    | zero =>
      simp only [List.getD_cons_zero] at hb
      subst hb
      simp [List.set]
    | succ v =>
      simp only [List.getD_cons_succ] at hb
      simp only [List.length_cons, Nat.add_lt_add_iff_right] at hv
      have := ih v hv hb
      simp only [List.set_cons_succ, List.count_cons]
      omega

/-- The loop over the neighbours of `u` keeps the invariant of the search, visits all of
them, and puts into the queue exactly the vertices it visits for the first time. -/
theorem bfsNeighbours_spec (adj : List (List Nat)) (n : Nat) (vis0 : Nat → Prop) (start u : Nat) :
    ∀ (nbrs : List Nat) (st : BFSState), BfsInv adj n vis0 start st →
      (u = start ∨ u ∈ st.tree_edge_list.map Prod.snd) →
      (∀ v ∈ nbrs, v ∈ adj.getD u [] ∧ v < n) →
      BfsInv adj n vis0 start (bfsNeighbours u nbrs st) ∧
      (∀ v ∈ nbrs, (bfsNeighbours u nbrs st).visited.getD v false = true) ∧
      (∀ x, st.visited.getD x false = true →
        (bfsNeighbours u nbrs st).visited.getD x false = true) ∧
      (∀ x ∈ st.q, x ∈ (bfsNeighbours u nbrs st).q) ∧
      (∀ x ∈ (bfsNeighbours u nbrs st).tree_edge_list.map Prod.snd,
        x ∈ st.tree_edge_list.map Prod.snd ∨ x ∈ (bfsNeighbours u nbrs st).q) ∧
      (bfsNeighbours u nbrs st).q.length + (bfsNeighbours u nbrs st).visited.count false =
        st.q.length + st.visited.count false := by
  intro nbrs
  induction nbrs with
  | nil =>
    intro st hI _ _
    refine ⟨hI, ?_, fun x h => h, fun x h => h, fun x h => Or.inl h, rfl⟩
    intro v hv
    simp at hv
  | cons v rest ih =>
    intro st hI hu hn
    have hv := hn v (List.mem_cons_self _ _)
    have hrest : ∀ w ∈ rest, w ∈ adj.getD u [] ∧ w < n :=
      fun w hw => hn w (List.mem_cons_of_mem _ hw)
    rw [bfsNeighbours]
    dsimp only
    by_cases hvis : st.visited.getD v false = true
    · have hc : (!st.visited.getD v false) = false := by rw [hvis]; rfl
      rw [hc]
      simp only [Bool.false_eq_true, if_false]
      have hI1 : BfsInv adj n vis0 start
          { st with all_edges_in_comp := usetInsert (makeEdgeKey u v) st.all_edges_in_comp } :=
        ⟨hI.len, hI.vis, hI.fresh, hI.grow, hI.reach, hI.qsub⟩
      obtain ⟨k1, k2, k3, k4, k5, k6⟩ := ih _ hI1 hu hrest
      refine ⟨k1, ?_, k3, k4, k5, k6⟩
      intro w hw
      rcases List.mem_cons.mp hw with rfl | hw
      · exact k3 _ hvis
      · exact k2 w hw
    · have hvf : st.visited.getD v false = false := by
        cases h : st.visited.getD v false
        · rfl
        · exact absurd h hvis
      have hc : (!st.visited.getD v false) = true := by rw [hvf]; rfl
      rw [hc]
      simp only [if_true]
      have hvlen : v < st.visited.length := by rw [hI.len]; exact hv.2
      have hvnew : ¬ (vis0 v ∨ v = start ∨ v ∈ st.tree_edge_list.map Prod.snd) :=
        fun h => hvis ((hI.vis v).mpr h)
      have hI1 : BfsInv adj n vis0 start
          { st with
            all_edges_in_comp := usetInsert (makeEdgeKey u v) st.all_edges_in_comp
            visited := st.visited.set v true
            component_vertices := st.component_vertices ++ [v]
            tree_edge_list := st.tree_edge_list ++ [(u, v)]
            tree_edges := usetInsert (makeEdgeKey u v) st.tree_edges
            q := st.q ++ [v] } := by
        refine ⟨?_, ?_, ?_, ?_, ?_, ?_⟩
        · show (st.visited.set v true).length = n
          rw [List.length_set]; exact hI.len
        · intro x
          show (st.visited.set v true).getD x false = true ↔
            (vis0 x ∨ x = start ∨ x ∈ (st.tree_edge_list ++ [(u, v)]).map Prod.snd)
          rw [getD_set_bool _ _ _ hvlen, hI.vis x]
          simp only [List.map_append, List.map_cons, List.map_nil, List.mem_append,
            List.mem_singleton]
          tauto
        · intro x hx
          simp only [List.map_append, List.map_cons, List.map_nil, List.mem_append,
            List.mem_singleton] at hx
          rcases hx with hx | rfl
          · exact hI.fresh x hx
          · exact ⟨fun h => hvnew (Or.inl h), hv.2⟩
        · show GrowFrom (fun x => x = start) (st.tree_edge_list ++ [(u, v)])
          rw [growFrom_append]
          exact ⟨hI.grow, hu, fun h => hvnew (Or.inr h)⟩
        · intro x hx
          simp only [List.map_append, List.map_cons, List.map_nil, List.mem_append,
            List.mem_singleton] at hx
          rcases hx with hx | rfl
          · exact hI.reach x hx
          · have hru : Relation.ReflTransGen (fun a b => b ∈ adj.getD a []) start u := by
              rcases hu with rfl | hu
              · exact Relation.ReflTransGen.refl
              · exact hI.reach u hu
            exact Relation.ReflTransGen.tail hru hv.1
        · intro x hx
          simp only [List.mem_append, List.mem_singleton] at hx
          simp only [List.map_append, List.map_cons, List.map_nil, List.mem_append,
            List.mem_singleton]
          rcases hx with hx | rfl
          · rcases hI.qsub x hx with h | h
            · exact Or.inl h
            · exact Or.inr (Or.inl h)
          · exact Or.inr (Or.inr rfl)
      obtain ⟨k1, k2, k3, k4, k5, k6⟩ := ih _ hI1
        (by
          simp only [List.map_append, List.map_cons, List.map_nil, List.mem_append,
            List.mem_singleton]
          rcases hu with h | h
          · exact Or.inl h
          · exact Or.inr (Or.inl h))
        hrest
      refine ⟨k1, ?_, ?_, ?_, ?_, ?_⟩
      · intro w hw
        rcases List.mem_cons.mp hw with rfl | hw
        · apply k3
          show (st.visited.set w true).getD w false = true
          exact (getD_set_bool _ _ _ hvlen).mpr (Or.inl rfl)
        · exact k2 w hw
      · intro x hx
        apply k3
        show (st.visited.set v true).getD x false = true
        exact (getD_set_bool _ _ _ hvlen).mpr (Or.inr hx)
      · intro x hx
        apply k4
        show x ∈ st.q ++ [v]
        exact List.mem_append_left _ hx
      · intro x hx
        rcases k5 x hx with h | h
        · simp only [List.map_append, List.map_cons, List.map_nil, List.mem_append,
            List.mem_singleton] at h
          rcases h with h | rfl
          · exact Or.inl h
          · refine Or.inr (k4 _ ?_)
            show x ∈ st.q ++ [x]
            simp
        · exact Or.inr h
      · rw [k6]
        show (st.q ++ [v]).length + (st.visited.set v true).count false = _
        have := count_set_true st.visited v hvlen hvf
        simp only [List.length_append, List.length_singleton]
        omega

/-- The loop `while (!q.empty())` ends within its fuel, with every visited vertex having
all its neighbours visited. -/
theorem bfsLoop_spec (adj : List (List Nat)) (n : Nat) (vis0 : Nat → Prop) (start : Nat)
    (hs : start < n) (hadj : ∀ x, x < n → ∀ y ∈ adj.getD x [], y < n) :
    ∀ (f : Nat) (st : BFSState), BfsInv adj n vis0 start st → BfsDone adj start st →
      st.q.length + st.visited.count false < f →
      ∃ st1, bfsLoop adj f st = some st1 ∧ BfsInv adj n vis0 start st1 ∧
        BfsDone adj start st1 ∧ st1.q = [] := by
  intro f
  induction f with
  | zero => intro st _ _ h; omega
  | succ f ih =>
    intro st hI hD hf
    rw [bfsLoop]
    cases hq : st.q with
    | nil => exact ⟨st, rfl, hI, hD, hq⟩
    | cons u q1 =>
      dsimp only
      have hunew : u = start ∨ u ∈ st.tree_edge_list.map Prod.snd :=
        hI.qsub u (by rw [hq]; exact List.mem_cons_self _ _)
      have hun : u < n := by
        rcases hunew with rfl | h
        · exact hs
        · exact (hI.fresh u h).2
      have hI0 : BfsInv adj n vis0 start { st with q := q1 } :=
        ⟨hI.len, hI.vis, hI.fresh, hI.grow, hI.reach,
          fun x hx => hI.qsub x (by rw [hq]; exact List.mem_cons_of_mem _ hx)⟩
      obtain ⟨k1, k2, k3, k4, k5, k6⟩ := bfsNeighbours_spec adj n vis0 start u (adj.getD u [])
        { st with q := q1 } hI0 hunew (fun v hv => ⟨hv, hadj u hun v hv⟩)
      refine ih _ k1 ?_ ?_
      · intro x hx hxq y hy
        have hcase : (x = start ∨ x ∈ st.tree_edge_list.map Prod.snd) ∨
            x ∈ (bfsNeighbours u (adj.getD u []) { st with q := q1 }).q := by
          rcases hx with h | h
          · exact Or.inl (Or.inl h)
          · rcases k5 x h with h | h
            · exact Or.inl (Or.inr h)
            · exact Or.inr h
        rcases hcase with hxold | h
        · by_cases hxu : x = u
          · subst hxu
            exact k2 y hy
          · have hxq0 : x ∉ st.q := by
              rw [hq]
              intro hm
              rcases List.mem_cons.mp hm with e | hm
              · exact hxu e
              · exact hxq (k4 x hm)
            exact k3 y (hD x hxold hxq0 y hy)
        · exact absurd h hxq
      · rw [k6]
        show q1.length + st.visited.count false < f
        rw [hq] at hf
        simp only [List.length_cons] at hf
        omega

/-! ## Linking the tree edges of a search into the Euler-tour forest -/

theorem makeEdgeKey_eq (u v : Nat) (hu : u < 2 ^ 32) (hv : v < 2 ^ 32) :
    makeEdgeKey u v = 2 ^ 32 * min u v + max u v := by
  unfold makeEdgeKey
  have hm : max u v < 2 ^ 32 := max_lt hu hv
  rw [Nat.mul_add_lt_is_or hm, Nat.shiftLeft_eq, Nat.mul_comm]

/-- Below `2^32` the key of an edge determines its two ends. -/
theorem makeEdgeKey_inj (a b u v : Nat) (ha : a < 2 ^ 32) (hb : b < 2 ^ 32) (hu : u < 2 ^ 32)
    (hv : v < 2 ^ 32) (h : makeEdgeKey a b = makeEdgeKey u v) :
    (a = u ∧ b = v) ∨ (a = v ∧ b = u) := by
  rw [makeEdgeKey_eq a b ha hb, makeEdgeKey_eq u v hu hv] at h
  have h1 : max a b < 2 ^ 32 := max_lt ha hb
  have h2 : max u v < 2 ^ 32 := max_lt hu hv
  have e1 : min a b = min u v := by
    have := congrArg (fun z => z / 2 ^ 32) h
    simp only at this
    rw [Nat.mul_add_div (by norm_num : 2 ^ 32 > 0), Nat.div_eq_of_lt h1,
      Nat.mul_add_div (by norm_num : 2 ^ 32 > 0), Nat.div_eq_of_lt h2] at this
    omega
  have e2 : max a b = max u v := by rw [e1] at h; omega
  omega

theorem ettInv_mono (n : Nat) (t : SplayETT) (T T1 : Nat → Prop) (lab : Nat → Nat)
    (h : ∀ x, T x → T1 x) (hI : EttInv n t T lab) : EttInv n t T1 lab := by
  refine ⟨hI.forest, hI.verts, hI.pool, hI.cls, ?_, ?_⟩
  · intro x hx hT
    exact hI.alone x hx (fun h0 => hT (h x h0))
  · intro e he
    obtain ⟨a, b, ha, hb, hTa, hTb, hk⟩ := hI.keys e he
    exact ⟨a, b, ha, hb, h a hTa, h b hTb, hk⟩

/-- One call `link(u, v)` of `batchLink`, for a touched `u` and an untouched `v`: the
call returns, and `v` joins the class of `u`. -/
theorem link_step (n : Nat) (t : SplayETT) (T : Nat → Prop) (lab : Nat → Nat) (u v : Nat)
    (hI : EttInv n t T lab) (hn : n ≤ 2 ^ 32) (hu : u < n) (hv : v < n) (hTu : T u)
    (hTv : ¬ T v) :
    ∃ s, t.link u v = some (true, s) ∧
      EttInv n s (fun x => T x ∨ x = v) (fun x => if x = v then lab u else lab x) := by
  have hf := hI.forest
  have huv : u ≠ v := fun e => hTv (e ▸ hTu)
  obtain ⟨a, ha⟩ := rootOf_exists t hf u
  obtain ⟨hlv, hpv, hsv⟩ := hI.alone v hv hTv
  have hav : a ≠ v := by
    intro e
    rw [e] at ha
    exact huv (hsv u ha)
  have hkey : t.edges.any (fun e => e.1 = makeEdgeKey u v) = false := by
    cases hc : t.edges.any (fun e => e.1 = makeEdgeKey u v)
    · rfl
    · exfalso
      obtain ⟨e, he, hd⟩ := List.any_eq_true.mp hc
      have hd1 : e.1 = makeEdgeKey u v := of_decide_eq_true hd
      obtain ⟨x, y, hx, hy, hTx, hTy, hk⟩ := hI.keys e he
      rw [hk] at hd1
      rcases makeEdgeKey_inj x y u v (by omega) (by omega) (by omega) (by omega) hd1 with
        ⟨_, h2⟩ | ⟨h1, _⟩
      · exact hTv (h2 ▸ hTy)
      · exact hTv (h1 ▸ hTx)
  have hxe : nth t.vertexNodes u = u := by rw [hI.verts]; exact nth_range n u hu
  have hve : nth t.vertexNodes v = v := by rw [hI.verts]; exact nth_range n v hv
  have hpool := hI.pool
  obtain ⟨s, ρ, hlink, hfs, hlen, hvn, hed, hρ, hR⟩ :=
    link_isolated t hf u v a t.pool.length u v (makeEdgeKey u v) rfl hxe hve rfl huv hkey
      (by omega) (by omega) ha hpv hsv hav
  refine ⟨s, hlink, ?_⟩
  have hal : a < t.pool.length := rootOf_lt t hf u a ha (by omega)
  -- the root of a vertex after the call
  have hroot : ∀ z rz, z < n → RootOf t z rz →
      ((z = v ∨ lab z = lab u) → RootOf s z ρ) ∧
      (¬ (z = v ∨ lab z = lab u) → RootOf s z rz ∧ rz ≠ ρ) := by
    intro z rz hz hrz
    have hrzl : rz < t.pool.length := rootOf_lt t hf z rz hrz (by omega)
    have h1 := hR z rz hrz
    have hza : rz = a ↔ lab z = lab u := by
      rw [← hI.cls z u hz hu]
      constructor
      · intro e
        exact ⟨a, e ▸ hrz, ha⟩
      · rintro ⟨r, h2, h3⟩
        rw [rootOf_unique t z _ _ hrz h2, rootOf_unique t u _ _ ha h3]
    have hzv : rz = v ↔ z = v := by
      constructor
      · intro e
        exact hsv z (e ▸ hrz)
      · intro e
        rw [e] at hrz
        exact rootOf_unique t v _ _ hrz (rootOf_self t v hpv)
    constructor
    · intro hm
      have hc : rz = a ∨ rz = v ∨ rz = t.pool.length ∨ rz = t.pool.length + 1 := by
        rcases hm with h | h
        · exact Or.inr (Or.inl (hzv.mpr h))
        · exact Or.inl (hza.mpr h)
      rw [if_pos hc] at h1
      exact h1
    · intro hm
      have hc : ¬ (rz = a ∨ rz = v ∨ rz = t.pool.length ∨ rz = t.pool.length + 1) := by
        rintro (h | h | h | h)
        · exact hm (Or.inr (hza.mp h))
        · exact hm (Or.inl (hzv.mp h))
        · omega
        · omega
      rw [if_neg hc] at h1
      refine ⟨h1, ?_⟩
      intro e
      rcases hρ with h | h
      · exact hm (Or.inl (hzv.mp (e.trans h)))
      · omega
  refine ⟨hfs, by rw [hvn]; exact hI.verts, by omega, ?_, ?_, ?_⟩
  · intro x y hx hy
    obtain ⟨rx, hrx⟩ := rootOf_exists t hf x
    obtain ⟨ry, hry⟩ := rootOf_exists t hf y
    obtain ⟨hx1, hx2⟩ := hroot x rx hx hrx
    obtain ⟨hy1, hy2⟩ := hroot y ry hy hry
    have hlx : (x = v ∨ lab x = lab u) → (if x = v then lab u else lab x) = lab u := by
      intro h
      by_cases e : x = v
      · rw [if_pos e]
      · rw [if_neg e]
        rcases h with h | h
        · exact absurd h e
        · exact h
    have hly : (y = v ∨ lab y = lab u) → (if y = v then lab u else lab y) = lab u := by
      intro h
      by_cases e : y = v
      · rw [if_pos e]
      · rw [if_neg e]
        rcases h with h | h
        · exact absurd h e
        · exact h
    have hnx : ¬ (x = v ∨ lab x = lab u) → (if x = v then lab u else lab x) = lab x ∧
        lab x ≠ lab u := by
      intro h
      have e : x ≠ v := fun e => h (Or.inl e)
      rw [if_neg e]
      exact ⟨rfl, fun e1 => h (Or.inr e1)⟩
    have hny : ¬ (y = v ∨ lab y = lab u) → (if y = v then lab u else lab y) = lab y ∧
        lab y ≠ lab u := by
      intro h
      have e : y ≠ v := fun e => h (Or.inl e)
      rw [if_neg e]
      exact ⟨rfl, fun e1 => h (Or.inr e1)⟩
    by_cases hmx : x = v ∨ lab x = lab u
    · by_cases hmy : y = v ∨ lab y = lab u
      · rw [hlx hmx, hly hmy]
        exact ⟨fun _ => rfl, fun _ => ⟨ρ, hx1 hmx, hy1 hmy⟩⟩
      · rw [hlx hmx, (hny hmy).1]
        constructor
        · rintro ⟨r, h1, h2⟩
          exfalso
          have e1 := rootOf_unique s x _ _ h1 (hx1 hmx)
          have e2 := rootOf_unique s y _ _ h2 (hy2 hmy).1
          exact (hy2 hmy).2 (e2.symm.trans e1)
        · intro e
          exact absurd e.symm (hny hmy).2
    · by_cases hmy : y = v ∨ lab y = lab u
      · rw [(hnx hmx).1, hly hmy]
        constructor
        · rintro ⟨r, h1, h2⟩
          exfalso
          have e1 := rootOf_unique s x _ _ h1 (hx2 hmx).1
          have e2 := rootOf_unique s y _ _ h2 (hy1 hmy)
          exact (hx2 hmx).2 (e1.symm.trans e2)
        · intro e
          exact absurd e (hnx hmx).2
      · rw [(hnx hmx).1, (hny hmy).1, ← hI.cls x y hx hy]
        constructor
        · rintro ⟨r, h1, h2⟩
          have e1 := rootOf_unique s x _ _ h1 (hx2 hmx).1
          have e2 := rootOf_unique s y _ _ h2 (hy2 hmy).1
          exact ⟨rx, hrx, by rw [← e1, e2]; exact hry⟩
        · rintro ⟨r, h1, h2⟩
          have e1 := rootOf_unique t x _ _ h1 hrx
          have e2 := rootOf_unique t y _ _ h2 hry
          exact ⟨rx, (hx2 hmx).1, by rw [← e1, e2]; exact (hy2 hmy).1⟩
  · intro x hx hT
    have hTx : ¬ T x := fun h => hT (Or.inl h)
    have hxv : x ≠ v := fun h => hT (Or.inr h)
    obtain ⟨hlx, hpx, hsx⟩ := hI.alone x hx hTx
    have hnm : ¬ (x = v ∨ lab x = lab u) := by
      rintro (h | h)
      · exact hxv h
      · have := (hI.cls x u hx hu).mpr h
        obtain ⟨r, h1, h2⟩ := this
        have e := rootOf_unique t x _ _ h1 (rootOf_self t x hpx)
        rw [e] at h2
        exact hTx ((hsx u h2) ▸ hTu)
    obtain ⟨hsxx, hne⟩ := (hroot x x hx (rootOf_self t x hpx)).2 hnm
    refine ⟨by rw [if_neg hxv]; exact hlx, rootOf_root s x x hsxx, ?_⟩
    intro y hy
    obtain ⟨b, hb⟩ := rootOf_exists t hf y
    have h1 := hR y b hb
    have e := rootOf_unique s y _ _ h1 hy
    by_cases hc : b = a ∨ b = v ∨ b = t.pool.length ∨ b = t.pool.length + 1
    · rw [if_pos hc] at e
      exact absurd e.symm hne
    · rw [if_neg hc] at e
      rw [e] at hb
      exact hsx y hb
  · intro e he
    rw [hed] at he
    rcases List.mem_append.mp he with he | he
    · obtain ⟨x, y, hx, hy, hTx, hTy, hk⟩ := hI.keys e he
      exact ⟨x, y, hx, hy, Or.inl hTx, Or.inl hTy, hk⟩
    · rw [List.mem_singleton] at he
      exact ⟨u, v, hu, hv, Or.inl hTu, Or.inr rfl, by rw [he]⟩

theorem growFrom_not_mem : ∀ (L : List (Nat × Nat)) (S : Nat → Prop), GrowFrom S L →
    ∀ x ∈ L.map Prod.snd, ¬ S x := by
  intro L
  induction L with
  | nil => intro S _ x hx; simp at hx
  | cons e rest ih =>
    intro S h x hx
    obtain ⟨h1, h2, h3⟩ := h
    simp only [List.map_cons, List.mem_cons] at hx
    rcases hx with rfl | hx
    · exact h2
    · exact fun hs => ih _ h3 x hx (Or.inl hs)

/-- The call `batchLink(tree_edge_list)` for tree edges that grow a tree from vertices
of one class `c`: the call returns, and the ends of the edges join the class `c`. -/
theorem batchLink_spec (n c : Nat) (hn : n ≤ 2 ^ 32) :
    ∀ (L : List (Nat × Nat)) (t : SplayETT) (T S : Nat → Prop) (lab : Nat → Nat),
      EttInv n t T lab → GrowFrom S L → (∀ x, S x → T x ∧ x < n ∧ lab x = c) →
      (∀ x ∈ L.map Prod.snd, ¬ T x ∧ x < n) →
      ∃ t1 lab1, t.batchLink L = some t1 ∧
        EttInv n t1 (fun x => T x ∨ x ∈ L.map Prod.snd) lab1 ∧
        (∀ x, x ∈ L.map Prod.snd → lab1 x = c) ∧
        (∀ x, x ∉ L.map Prod.snd → lab1 x = lab x) := by
  intro L
  induction L with
  | nil =>
    intro t T S lab hI _ _ _
    refine ⟨t, lab, rfl, ?_, ?_, fun _ _ => rfl⟩
    · exact ettInv_mono n t T _ lab (fun x h => Or.inl h) hI
    · intro x hx
      simp at hx
  | cons e rest ih =>
    intro t T S lab hI hg hS hL
    obtain ⟨u, v⟩ := e
    obtain ⟨g1, g2, g3⟩ := hg
    simp only at g1 g2 g3
    obtain ⟨hTu, hu, hlu⟩ := hS u g1
    obtain ⟨hTv, hv⟩ := hL v (by simp)
    obtain ⟨s, hlink, hIs⟩ := link_step n t T lab u v hI hn hu hv hTu hTv
    have hnm := growFrom_not_mem rest _ g3
    obtain ⟨t1, lab1, hb, hI1, hl1, hl2⟩ := ih s (fun x => T x ∨ x = v) (fun x => S x ∨ x = v)
      (fun x => if x = v then lab u else lab x) hIs g3
      (by
        intro x hx
        rcases hx with hx | hx
        · obtain ⟨a1, a2, a3⟩ := hS x hx
          refine ⟨Or.inl a1, a2, ?_⟩
          have : x ≠ v := fun e => g2 (e ▸ hx)
          show (if x = v then lab u else lab x) = c
          rw [if_neg this]
          exact a3
        · refine ⟨Or.inr hx, hx ▸ hv, ?_⟩
          show (if x = v then lab u else lab x) = c
          rw [if_pos hx]
          exact hlu)
      (by
        intro x hx
        have h1 := hL x (by simp only [List.map_cons, List.mem_cons]; exact Or.inr hx)
        refine ⟨?_, h1.2⟩
        rintro (h | h)
        · exact h1.1 h
        · exact hnm x hx (Or.inr h))
    refine ⟨t1, lab1, ?_, ?_, ?_, ?_⟩
    · rw [SplayETT.batchLink, hlink]
      exact hb
    · refine ettInv_mono n t1 _ _ lab1 ?_ hI1
      intro x hx
      simp only [List.map_cons, List.mem_cons]
      tauto
    · intro x hx
      simp only [List.map_cons, List.mem_cons] at hx
      by_cases hxr : x ∈ rest.map Prod.snd
      · exact hl1 x hxr
      · rcases hx with hx | hx
        · rw [hl2 x hxr, if_pos hx]
          exact hlu
        · exact absurd hx hxr
    · intro x hx
      simp only [List.map_cons, List.mem_cons, not_or] at hx
      rw [hl2 x hx.2, if_neg hx.1]

/-! ## `BuildSpanningForest` and `Initialize`: the classes of `IsConnected` -/

theorem getD_lt_of_true (l : List Bool) (x : Nat) (h : l.getD x false = true) : x < l.length := by
  by_contra hx
  rw [List.getD_eq_getElem?_getD, List.getElem?_eq_none (by omega)] at h
  exact Bool.noConfusion h

theorem getD_replicate_false (n x : Nat) : (List.replicate n false).getD x false = false := by
  simp only [List.getD_eq_getElem?_getD]
  rcases Nat.lt_or_ge x n with h | h
  · simp [List.getElem?_replicate, h]
  · simp [List.getElem?_replicate, Nat.not_lt.mpr h]

theorem getD_replicate_true (n x : Nat) (h : x < n) :
    (List.replicate n true).getD x false = true := by
  simp [List.getD_eq_getElem?_getD, List.getElem?_replicate, h]

theorem SplayETT.new_edges (n : Nat) : (SplayETT.new n).edges = [] := by
  induction n with
  | zero => rfl
  | succ n ih =>
    rw [SplayETT.new_succ]
    simp [SplayETT.allocNode, ih]

theorem getComponentId_forest (t : SplayETT) (hf : SplayForest t) (u : Nat) :
    ∃ c, t.getComponentId u = some c := by
  obtain ⟨r, hr⟩ := rootOf_exists t hf (nth t.vertexNodes u)
  refine ⟨(t.node r).node_id, ?_⟩
  simp only [SplayETT.getComponentId, getRoot_rootOf t hf _ _ hr]

/-- The loop of `BuildSpanningForest` returns and keeps its invariant; the rows it was
asked to start from are visited at the end. -/
theorem buildForestLoop_spec (adj : List (List Nat)) (n : Nat) (hn : n ≤ 2 ^ 32)
    (hadj : ∀ x, x < n → ∀ y ∈ adj.getD x [], y < n)
    (hsym : ∀ x y, y ∈ adj.getD x [] → x ∈ adj.getD y []) :
    ∀ (rest : List Nat) (visited : List Bool) (d : ComponentDetector) (lab : Nat → Nat),
      (∀ s ∈ rest, s < n) → d.adj_list = adj → d.num_rows = n →
      (∀ s, s < n → d.row_active.getD s false = true) →
      ForestInv adj n visited d.ett lab →
      ∃ d1 visited1 lab1, buildForestLoop rest visited d = some d1 ∧
        ForestInv adj n visited1 d1.ett lab1 ∧
        (∀ x, visited.getD x false = true → visited1.getD x false = true) ∧
        (∀ s ∈ rest, visited1.getD s false = true) := by
  intro rest
  induction rest with
  | nil =>
    intro visited d lab _ _ _ _ hI
    refine ⟨d, visited, lab, rfl, hI, fun _ h => h, ?_⟩
    intro s hs
    simp at hs
  | cons start rest ih =>
    intro visited d lab hlt hadjeq hnum hact hI
    have hs : start < n := hlt start (List.mem_cons_self _ _)
    have hrest : ∀ s ∈ rest, s < n := fun s hs => hlt s (List.mem_cons_of_mem _ hs)
    have hcond : (!(d.row_active.getD start false) || visited.getD start false) =
        visited.getD start false := by
      rw [hact start hs]
      rfl
    rw [buildForestLoop, hcond]
    cases hvs : visited.getD start false with
    | true =>
      simp only [if_true]
      obtain ⟨d1, v1, l1, h1, h2, h3, h4⟩ := ih visited d lab hrest hadjeq hnum hact hI
      refine ⟨d1, v1, l1, h1, h2, h3, ?_⟩
      intro s hs
      rcases List.mem_cons.mp hs with rfl | hs
      · exact h3 s hvs
      · exact h4 s hs
    | false =>
      simp only [Bool.false_eq_true, if_false]
      have hslen : start < visited.length := by rw [hI.len]; exact hs
      have hnv0 : ¬ (visited.getD start false = true) := by rw [hvs]; exact Bool.noConfusion
      -- the breadth-first search from `start`
      have hB0 : BfsInv adj n (fun x => visited.getD x false = true) start
          { visited := visited.set start true, q := [start], component_vertices := [start],
            tree_edge_list := [], all_edges_in_comp := [], tree_edges := d.tree_edges } := by
        refine ⟨?_, ?_, ?_, trivial, ?_, ?_⟩
        · show (visited.set start true).length = n
          rw [List.length_set]; exact hI.len
        · intro x
          show (visited.set start true).getD x false = true ↔
            (visited.getD x false = true ∨ x = start ∨ x ∈ ([] : List (Nat × Nat)).map Prod.snd)
          rw [getD_set_bool _ _ _ hslen]
          simp only [List.map_nil, List.not_mem_nil, or_false]
          tauto
        · intro x hx
          simp at hx
        · intro x hx
          simp at hx
        · intro x hx
          exact Or.inl (List.mem_singleton.mp hx)
      have hD0 : BfsDone adj start
          { visited := visited.set start true, q := [start], component_vertices := [start],
            tree_edge_list := [], all_edges_in_comp := [], tree_edges := d.tree_edges } := by
        intro x hx hq
        exfalso
        apply hq
        show x ∈ [start]
        rcases hx with hx | hx
        · rw [hx]; exact List.mem_singleton_self _
        · simp at hx
      have hfuel : ([start] : List Nat).length + (visited.set start true).count false < n + 1 := by
        have h1 := count_set_true visited start hslen hvs
        have h2 : visited.count false ≤ visited.length := List.count_le_length _ _
        rw [hI.len] at h2
        simp only [List.length_singleton]
        omega
      obtain ⟨st, hbfs, hB, hD, hq⟩ := bfsLoop_spec adj n _ start hs hadj (n + 1) _ hB0 hD0 hfuel
      -- linking the tree edges
      have hnm := growFrom_not_mem st.tree_edge_list _ hB.grow
      have hE0 : EttInv n d.ett (fun x => visited.getD x false = true ∨ x = start) lab :=
        ettInv_mono n d.ett _ _ lab (fun x h => Or.inl h) hI.ett
      have hlab0 : lab start = start := (hI.ett.alone start hs hnv0).1
      obtain ⟨t1, lab1, hbatch, hE1, hl1, hl2⟩ := batchLink_spec n start hn st.tree_edge_list d.ett
        (fun x => visited.getD x false = true ∨ x = start) (fun x => x = start) lab hE0 hB.grow
        (by
          intro x hx
          exact ⟨Or.inr hx, hx ▸ hs, hx ▸ hlab0⟩)
        (by
          intro x hx
          refine ⟨?_, (hB.fresh x hx).2⟩
          rintro (h | h)
          · exact (hB.fresh x hx).1 h
          · exact hnm x hx h)
      obtain ⟨cid, hcid⟩ := getComponentId_forest t1 hE1.forest start
      subst hadjeq
      subst hnum
      rw [hbfs]
      dsimp only
      rw [hbatch]
      dsimp only
      rw [hcid]
      dsimp only
      -- the invariant after the search
      have hnew : ∀ x, (x = start ∨ x ∈ st.tree_edge_list.map Prod.snd) →
          lab1 x = start ∧ ¬ (visited.getD x false = true) := by
        intro x hx
        by_cases hxl : x ∈ st.tree_edge_list.map Prod.snd
        · exact ⟨hl1 x hxl, (hB.fresh x hxl).1⟩
        · rcases hx with hx | hx
          · rw [hl2 x hxl, hx]
            exact ⟨hlab0, hnv0⟩
          · exact absurd hx hxl
      have hold : ∀ x, visited.getD x false = true → lab1 x = lab x := by
        intro x hx
        apply hl2
        intro hxl
        exact (hB.fresh x hxl).1 hx
      have hI1 : ForestInv d.adj_list d.num_rows st.visited t1 lab1 := by
        refine ⟨hB.len, ?_, ?_, ?_⟩
        · refine ettInv_mono _ t1 _ _ lab1 ?_ hE1
          intro x hx
          apply (hB.vis x).mpr
          tauto
        · intro x hx y hy
          rcases (hB.vis x).mp hx with h | h
          · obtain ⟨e1, e2⟩ := hI.edge x h y hy
            refine ⟨(hB.vis y).mpr (Or.inl e1), ?_⟩
            rw [hold x h, hold y e1]
            exact e2
          · have hy1 : st.visited.getD y false = true := hD x h (by rw [hq]; simp) y hy
            refine ⟨hy1, ?_⟩
            rw [(hnew x h).1]
            rcases (hB.vis y).mp hy1 with h1 | h1
            · exfalso
              exact (hnew x h).2 (hI.edge y h1 x (hsym x y hy)).1
            · exact (hnew y h1).1
        · intro x hx
          rcases (hB.vis x).mp hx with h | h
          · rw [hold x h]
            exact hI.reach x h
          · rw [(hnew x h).1]
            rcases h with h | h
            · rw [h]
            · exact hB.reach x h
      have hgen : ∀ d2 : ComponentDetector, d2.adj_list = d.adj_list → d2.num_rows = d.num_rows →
          (∀ s, s < d.num_rows → d2.row_active.getD s false = true) → d2.ett = t1 →
          ∃ d1 visited1 lab2, buildForestLoop rest st.visited d2 = some d1 ∧
            ForestInv d.adj_list d.num_rows visited1 d1.ett lab2 ∧
            (∀ x, visited.getD x false = true → visited1.getD x false = true) ∧
            (∀ s ∈ start :: rest, visited1.getD s false = true) := by
        intro d2 e1 e2 e3 e4
        obtain ⟨d1, v1, l1, h1, h2, h3, h4⟩ := ih st.visited d2 lab1 hrest e1 e2 e3
          (by rw [e4]; exact hI1)
        refine ⟨d1, v1, l1, h1, h2, ?_, ?_⟩
        · intro x hx
          exact h3 x ((hB.vis x).mpr (Or.inl hx))
        · intro s hs
          rcases List.mem_cons.mp hs with rfl | hs
          · exact h3 s ((hB.vis s).mpr (Or.inr (Or.inl rfl)))
          · exact h4 s hs
      exact hgen _ rfl rfl hact rfl

/-- The forest of the constructor satisfies the invariant of `BuildSpanningForest`. -/
theorem forestInv_new (adj : List (List Nat)) (n : Nat) :
    ForestInv adj n (List.replicate n false) (SplayETT.new n) (fun x => x) := by
  obtain ⟨hf, hall⟩ := new_forest n
  obtain ⟨h1, h2, _, _⟩ := SplayETT.new_spec n
  have hself : ∀ y r, RootOf (SplayETT.new n) y r → r = y := fun y r h =>
    rootOf_unique _ y _ _ h (rootOf_self _ y (hall y).1)
  refine ⟨List.length_replicate _ _, ⟨hf, h2, by omega, ?_, ?_, ?_⟩, ?_, ?_⟩
  · intro x y _ _
    constructor
    · rintro ⟨r, hx, hy⟩
      rw [← hself x r hx, ← hself y r hy]
    · intro e
      have e1 : x = y := e
      exact ⟨x, rootOf_self _ x (hall x).1, e1 ▸ rootOf_self _ x (hall x).1⟩
  · intro x _ _
    exact ⟨rfl, (hall x).1, fun y hy => (hself y x hy).symm⟩
  · intro e he
    rw [SplayETT.new_edges] at he
    simp at he
  · intro x hx
    exact absurd ((getD_replicate_false n x).symm.trans hx) Bool.false_ne_true
  · intro x hx
    exact absurd ((getD_replicate_false n x).symm.trans hx) Bool.false_ne_true

/-- The contract of `Initialize` on a fresh detector, for a map whose rows are below
`num_rows`: the call returns, and `IsConnected(u, v)` holds exactly when a chain of
rows leads from `u` to `v` in which consecutive rows share a column. -/
theorem Initialize_connected (n m : Nat) (crm : List (Nat × List Nat)) (hn : n < 2 ^ 31)
    (hrows : ∀ e ∈ crm, ∀ r ∈ e.2, r < n) :
    ∃ d, (ComponentDetector.new n m).Initialize crm = some d ∧
      ∀ u v, u < n → v < n →
        ∃ b, d.IsConnected u v = some b ∧
          (b = true ↔ Relation.ReflTransGen (fun a c => ∃ e ∈ crm, a ∈ e.2 ∧ c ∈ e.2) u v) := by
  have hlen0 : ({ ComponentDetector.new n m with col_to_rows := crm } : ComponentDetector).adj_list.length = n :=
    List.length_replicate _ _
  obtain ⟨k1, k2, k3, k4, k5⟩ := initialize_fold_spec crm
    { ComponentDetector.new n m with col_to_rows := crm } (by rw [hlen0]; exact hrows)
  have hadjspec : ∀ w x, x ∈ (crm.foldl
        (fun (acc : ComponentDetector) (e : Nat × List Nat) =>
          (pairsOf e.2).foldl (fun a pr => a.addEdgeToAdjList pr.1 pr.2)
            { acc with row_to_cols :=
                e.2.foldl (fun mp row => mapModify mp row (usetInsert e.1)) acc.row_to_cols })
        ({ ComponentDetector.new n m with col_to_rows := crm } : ComponentDetector)).adj_list.getD w [] ↔
      RowAdj crm w x := by
    intro w x
    rw [k5 w x]
    have : ({ ComponentDetector.new n m with col_to_rows := crm } : ComponentDetector).adj_list.getD w [] = [] :=
      getD_replicate_nil n w
    rw [this]
    simp
  obtain ⟨d1, v1, l1, h1, h2, _, h4⟩ := buildForestLoop_spec _ n (by omega)
    (by
      intro x _ y hy
      obtain ⟨_, e, he, _, hye⟩ := (hadjspec x y).mp hy
      exact hrows e he y hye)
    (by
      intro x y hy
      obtain ⟨hne, e, he, hxe, hye⟩ := (hadjspec x y).mp hy
      exact (hadjspec y x).mpr ⟨hne.symm, e, he, hye, hxe⟩)
    (List.range n) (List.replicate n false) _ (fun x => x) (fun s hs => List.mem_range.mp hs)
    rfl k4
    (by
      intro s hs
      rw [k3]
      exact getD_replicate_true n s hs)
    (by
      rw [k2]
      exact forestInv_new _ n)
  refine ⟨d1, ?_, ?_⟩
  · unfold ComponentDetector.Initialize ComponentDetector.BuildSpanningForest
    dsimp only
    rw [k4]
    exact h1
  · intro u v hu hv
    have hvu := h4 u (List.mem_range.mpr hu)
    have key : ∀ w, Relation.ReflTransGen (fun a c => ∃ e ∈ crm, a ∈ e.2 ∧ c ∈ e.2) u w →
        v1.getD w false = true ∧ l1 w = l1 u := by
      intro w hw
      induction hw with
      | refl => exact ⟨hvu, rfl⟩
      | @tail y z _ hstep ih2 =>
        obtain ⟨e, he, hye, hze⟩ := hstep
        by_cases hyz : y = z
        · rw [← hyz]
          exact ih2
        · have hz := h2.edge y ih2.1 z ((hadjspec y z).mpr ⟨hyz, e, he, hye, hze⟩)
          exact ⟨hz.1, hz.2.trans ih2.2⟩
    have hvv := h4 v (List.mem_range.mpr hv)
    have hf := h2.ett.forest
    obtain ⟨a, ha⟩ := rootOf_exists d1.ett hf u
    obtain ⟨b, hb⟩ := rootOf_exists d1.ett hf v
    have hxe : nth d1.ett.vertexNodes u = u := by rw [h2.ett.verts]; exact nth_range n u hu
    have hve : nth d1.ett.vertexNodes v = v := by rw [h2.ett.verts]; exact nth_range n v hv
    refine ⟨decide (a = b), ?_, ?_⟩
    · unfold ComponentDetector.IsConnected
      exact connected_rootOf d1.ett hf u v a b (by rw [hxe]; exact ha) (by rw [hve]; exact hb)
    · rw [decide_eq_true_iff]
      have hcls : a = b ↔ l1 u = l1 v := by
        rw [← h2.ett.cls u v hu hv]
        constructor
        · intro e
          exact ⟨a, ha, e ▸ hb⟩
        · rintro ⟨r, h5, h6⟩
          rw [rootOf_unique _ u _ _ ha h5, rootOf_unique _ v _ _ hb h6]
      rw [hcls]
      constructor
      · intro e
        have r1 := h2.reach u hvu
        have r2 := h2.reach v hvv
        rw [e] at r1
        have hsymm : Symmetric (fun a b => b ∈ (crm.foldl
            (fun (acc : ComponentDetector) (e : Nat × List Nat) =>
              (pairsOf e.2).foldl (fun a pr => a.addEdgeToAdjList pr.1 pr.2)
                { acc with row_to_cols :=
                    e.2.foldl (fun mp row => mapModify mp row (usetInsert e.1)) acc.row_to_cols })
            ({ ComponentDetector.new n m with col_to_rows := crm } : ComponentDetector)).adj_list.getD a []) := by
          intro x y hy
          obtain ⟨hne, e, he, hxe, hye⟩ := (hadjspec x y).mp hy
          exact (hadjspec y x).mpr ⟨hne.symm, e, he, hye, hxe⟩
        have r3 := (Relation.ReflTransGen.symmetric hsymm r1).trans r2
        refine Relation.ReflTransGen.mono ?_ r3
        intro x y hy
        obtain ⟨_, e, he, hxe, hye⟩ := (hadjspec x y).mp hy
        exact ⟨e, he, hxe, hye⟩
      · intro hchain
        exact (key v hchain).2.symm

/-- Claim C15: after `Initialize(col_to_rows)` on a freshly constructed detector, for all
rows `u`, `v` in `[0, num_rows)`, `IsConnected(u, v)` holds iff `u` and `v` are joined
by a chain of rows in which consecutive rows share a column. The call returns; the rows
of `col_to_rows` are row indices, below `num_rows`, and `num_rows` is an `int`. -/
theorem C15_Initialize_IsConnected_iff_chain (n m : Nat) (crm : List (Nat × List Nat))
    (hn : n < 2 ^ 31) (hrows : ∀ e ∈ crm, ∀ r ∈ e.2, r < n) :
    ∃ d, (ComponentDetector.new n m).Initialize crm = some d ∧
      ∀ u v, u < n → v < n →
        ∃ b, d.IsConnected u v = some b ∧
          (b = true ↔ Relation.ReflTransGen (fun a c => ∃ e ∈ crm, a ∈ e.2 ∧ c ∈ e.2) u v) :=
  Initialize_connected n m crm hn hrows

/-- Claim C15 on four rows and three columns, rows 0, 1, 2 chained and row 3 apart. -/
theorem C15_Initialize_IsConnected_iff_chain_witness :
    4 < 2 ^ 31 ∧ (∀ e ∈ [(1, [0, 1]), (2, [1, 2]), (3, [3])], ∀ r ∈ e.2, r < 4) ∧
    ∃ d, (ComponentDetector.new 4 3).Initialize [(1, [0, 1]), (2, [1, 2]), (3, [3])] = some d ∧
      ∀ u v, u < 4 → v < 4 →
        ∃ b, d.IsConnected u v = some b ∧
          (b = true ↔ Relation.ReflTransGen
            (fun a c => ∃ e ∈ [(1, [0, 1]), (2, [1, 2]), (3, [3])], a ∈ e.2 ∧ c ∈ e.2) u v) :=
  ⟨by decide, by decide,
    C15_Initialize_IsConnected_iff_chain 4 3 [(1, [0, 1]), (2, [1, 2]), (3, [3])]
      (by decide) (by decide)⟩

/-! # The cache key, the loader and the decomposition on sample inputs -/

set_option maxRecDepth 100000 in
/-- C39 (defect of the code): `hashBlockState` sends the distinct column sets
`{2,3,4,6,16}` and `{2,3,4,7,14}` to one value, and on `collisionInput` the parallel
search takes the count cached for the first set as the count of the second: it
reports 4, while the loaded matrix has exactly 3 exact covers. -/
theorem C39_hashBlockState_collides :
    hashBlockState [2, 3, 4, 6, 16] = hashBlockState [2, 3, 4, 7, 14] ∧
    (reported (mainSearch algorithm_type.mdxd false 16 6 collisionInput)).map Prod.fst = some 4 ∧
    (DancingMatrix.fromFile 16 6 collisionInput true false).map
      (fun m => (m.InitBlock.cols, exactCoverCount collisionInput m.InitBlock.rows m.InitBlock.cols)) =
      some ([1, 2, 3, 4, 6, 7, 14, 16], 3) := by
  decide!

set_option maxRecDepth 100000 in
/-- C35 (defect of the code): `collisionInput` and `collisionCompressed` differ by
eight all-zero columns only; for both the loader builds `InitBlock` from the rows and
the columns that hold a 1, and the parallel search reports 4 on the first and 3 on
the second. -/
theorem C35_count_changes_with_zero_columns :
    (DancingMatrix.fromFile 16 6 collisionInput true false).map (fun m => m.InitBlock) =
      some (Block.mk [0, 1, 2, 3, 4, 5] [1, 2, 3, 4, 6, 7, 14, 16]) ∧
    (DancingMatrix.fromFile 8 6 collisionCompressed true false).map (fun m => m.InitBlock) =
      some (Block.mk [0, 1, 2, 3, 4, 5] [1, 2, 3, 4, 5, 6, 7, 8]) ∧
    collisionInput.map (fun l => l.map (fun c => ([1, 2, 3, 4, 6, 7, 14, 16].indexOf c) + 1)) =
      collisionCompressed ∧
    (reported (mainSearch algorithm_type.mdxd true 16 6 collisionInput)).map Prod.fst = some 4 ∧
    (reported (mainSearch algorithm_type.mdxd true 8 6 collisionCompressed)).map Prod.fst = some 3 := by
  decide!

set_option maxRecDepth 100000 in
/-- C32 (defect of the code): in the frame `splitFrame` of the search on `splitInput`
the block has the rows 4, 5, 6 and the columns 3, 4, 5, 6; the union-find detector
splits it into three blocks whose column sets are `{3}`, `{4}`, `{5}`, so column 6
belongs to no sub-block, and `DXD` returns for this frame the product 1 of the
sub-blocks' counts, while its rows cover its columns in 0 ways. -/
theorem C32_decomposition_drops_a_column :
    splitFrame.map (fun f => f.2) = some (Block.mk [4, 5, 6] [3, 4, 5, 6]) ∧
    splitFrame.bind (fun f => f.1.m.getComponentsByIG f.2.rows) =
      some [Block.mk [4] [3], Block.mk [5] [4], Block.mk [6] [5]] ∧
    splitFrame.bind (fun f => (returned (DXD 5 f.1 f.2 2)).map (fun r => r.1.count)) = some 1 ∧
    exactCoverCount splitInput [4, 5, 6] [3, 4, 5, 6] = 0 := by
  decide!

/-! # The failures of the sub-block searches in `parallelSearchUseOmp` -/

/-- Once a flag is set the remaining iterations are skipped: the flags and the state
stay. -/
theorem parallelLoopE_skip (dxd : RaisingSearch) (d : Int) :
    ∀ (blocks : List Block) (results : List DNNFResult) (hf ht : Bool) (s : DanceDNNF),
      (hf || ht) = true →
      ∃ rs, parallelLoopE dxd d blocks results hf ht s = some (rs, hf, ht, s) := by
  intro blocks
  induction blocks with
  | nil => intro results hf ht s _; exact ⟨results, rfl⟩
  | cons b rest ih =>
    intro results hf ht s h
    rw [parallelLoopE, if_pos h]
    exact ih _ hf ht s h

/-- While the searches return counts other than zero the loop collects them. -/
theorem parallelLoopE_okRun (dxd : RaisingSearch) (d : Int) :
    ∀ (pre post : List Block) (results rs : List DNNFResult) (s s1 : DanceDNNF),
      okRun dxd d pre s = some (rs, s1) →
      parallelLoopE dxd d (pre ++ post) results false false s =
        parallelLoopE dxd d post (results ++ rs) false false s1 := by
  intro pre
  induction pre with
  | nil =>
    intro post results rs s s1 h
    simp only [okRun, Option.some.injEq, Prod.mk.injEq] at h
    rw [← h.1, ← h.2]
    simp
  | cons b rest ih =>
    intro post results rs s s1 h
    rw [okRun] at h
    rw [List.cons_append, parallelLoopE]
    simp only [Bool.or_self, Bool.false_eq_true, if_false]
    cases hd : dxd s b (d + 1) with
    | diverged => rw [hd] at h; exact Option.noConfusion h
    | thrown k s2 => rw [hd] at h; exact Option.noConfusion h
    | ok a =>
      obtain ⟨result, b1, s2⟩ := a
      rw [hd] at h
      simp only at h ⊢
      by_cases hz : result.isZero = true
      · rw [if_pos hz] at h
        exact Option.noConfusion h
      · rw [if_neg hz] at h
        rw [if_neg hz]
        cases hr : okRun dxd d rest s2 with
        | none => rw [hr] at h; exact Option.noConfusion h
        | some p =>
          rw [hr] at h
          simp only [Option.map_some', Option.some.injEq, Prod.mk.injEq] at h
          rw [ih post (results ++ [result]) p.1 s2 p.2 (by rw [hr]), ← h.1, ← h.2]
          simp

/-- The model of `parallelSearchUseOmp` without the second kind of exception is the
model with it on searches that throw "Time bound broken" only; the state that a
throwing search leaves behind is not read. -/
theorem parallelLoopE_raising (dxd : Search) (d : Int) :
    ∀ (blocks : List Block) (results : List DNNFResult) (hf ht : Bool) (s : DanceDNNF),
      parallelLoopE (fun s b k => (dxd s b k).raising s) d blocks results hf ht s =
        parallelLoop dxd d blocks results hf ht s := by
  intro blocks
  induction blocks with
  | nil => intro results hf ht s; rfl
  | cons b rest ih =>
    intro results hf ht s
    rw [parallelLoopE, parallelLoop]
    by_cases h : (hf || ht) = true
    · rw [if_pos h, if_pos h]
      exact ih _ _ _ _
    · rw [if_neg h, if_neg h]
      cases hd : dxd s b (d + 1) with
      | diverged => rfl
      | timeBound => exact ih _ _ _ _
      | ok a =>
        obtain ⟨result, b1, s1⟩ := a
        simp only [Outcome.raising]
        by_cases hz : result.isZero = true
        · rw [if_pos hz, if_pos hz]
          exact ih _ _ _ _
        · rw [if_neg hz, if_neg hz]
          exact ih _ _ _ _

/-- The method `parallelSearchUseOmp` on searches that throw "Time bound broken" only:
the two models agree on what is returned and on what is thrown. -/
theorem parallelSearchUseOmpE_raising (dxd : Search) (d : Int) (blocks : List Block)
    (s : DanceDNNF) :
    (∀ a, parallelSearchUseOmpE (fun s b k => (dxd s b k).raising s) d blocks s = Raising.ok a ↔
      parallelSearchUseOmp dxd d blocks s = Outcome.ok a) ∧
    ((∃ s1, parallelSearchUseOmpE (fun s b k => (dxd s b k).raising s) d blocks s =
        Raising.thrown Thrown.timeBound s1) ↔
      parallelSearchUseOmp dxd d blocks s = Outcome.timeBound) ∧
    (parallelSearchUseOmpE (fun s b k => (dxd s b k).raising s) d blocks s = Raising.diverged ↔
      parallelSearchUseOmp dxd d blocks s = Outcome.diverged) := by
  unfold parallelSearchUseOmpE parallelSearchUseOmp
  rw [parallelLoopE_raising]
  cases parallelLoop dxd d blocks [] false false s with
  | none => simp
  | some p =>
    obtain ⟨rs, hf, ht, s1⟩ := p
    cases ht <;> cases hf <;> simp

/-- The outcomes of `parallelSearchUseOmp`: let the searches on the blocks `pre` return
counts other than zero and let `b` be the next block.  When the search on `b` throws
"Time bound broken" the combined search throws it too; when it throws any other
exception, or returns zero, the combined search returns the count 0; when it does not
return, neither does the combined search; and when no block is left (`pre` is the whole
list) the combined search returns the product of the counts. -/
theorem parallel_search_outcomes (dxd : RaisingSearch) (d : Int) (pre post : List Block)
    (b : Block) (s s1 : DanceDNNF) (rs : List DNNFResult)
    (h : okRun dxd d pre s = some (rs, s1)) :
    (∀ s2, dxd s1 b (d + 1) = Raising.thrown Thrown.timeBound s2 →
      parallelSearchUseOmpE dxd d (pre ++ b :: post) s = Raising.thrown Thrown.timeBound s2) ∧
    (∀ s2, dxd s1 b (d + 1) = Raising.thrown Thrown.other s2 →
      parallelSearchUseOmpE dxd d (pre ++ b :: post) s = Raising.ok (DNNFResult.ofCount 0, s2)) ∧
    (∀ r b1 s2, dxd s1 b (d + 1) = Raising.ok (r, b1, s2) → r.isZero = true →
      parallelSearchUseOmpE dxd d (pre ++ b :: post) s = Raising.ok (DNNFResult.ofCount 0, s2)) ∧
    (dxd s1 b (d + 1) = Raising.diverged →
      parallelSearchUseOmpE dxd d (pre ++ b :: post) s = Raising.diverged) ∧
    parallelSearchUseOmpE dxd d pre s =
      Raising.ok (rs.foldl (fun totalResult result => totalResult.mul result)
        (DNNFResult.ofCount 1), s1) := by
  have hpre := parallelLoopE_okRun dxd d pre (b :: post) [] rs s s1 h
  have hall := parallelLoopE_okRun dxd d pre [] [] rs s s1 h
  rw [List.append_nil, List.nil_append] at hall
  rw [List.nil_append] at hpre
  refine ⟨?_, ?_, ?_, ?_, ?_⟩
  · intro s2 h2
    obtain ⟨rs1, hs⟩ := parallelLoopE_skip dxd d post (rs ++ [DNNFResult.zero]) false true s2 rfl
    unfold parallelSearchUseOmpE
    rw [hpre, parallelLoopE]
    simp only [Bool.or_self, Bool.false_eq_true, if_false, h2, hs, if_true]
  · intro s2 h2
    obtain ⟨rs1, hs⟩ := parallelLoopE_skip dxd d post (rs ++ [DNNFResult.zero]) true false s2 rfl
    unfold parallelSearchUseOmpE
    rw [hpre, parallelLoopE]
    simp only [Bool.or_self, Bool.false_eq_true, if_false, h2, hs, if_true]
  · intro r b1 s2 h2 hz
    obtain ⟨rs1, hs⟩ := parallelLoopE_skip dxd d post (rs ++ [DNNFResult.zero]) true false s2 rfl
    unfold parallelSearchUseOmpE
    rw [hpre, parallelLoopE]
    simp only [Bool.or_self, Bool.false_eq_true, if_false, h2, hz, hs, if_true]
  · intro h2
    unfold parallelSearchUseOmpE
    rw [hpre, parallelLoopE]
    simp only [Bool.or_self, Bool.false_eq_true, if_false, h2]
  · unfold parallelSearchUseOmpE
    rw [hall, parallelLoopE]
    simp only [Bool.false_eq_true, if_false]

/-- The combined search on two blocks whose searches return the count 2 returns the
product of the two counts. -/
theorem parallel_search_outcomes_sample :
    okRun constantSearch 1 [Block.mk [0] [1], Block.mk [1] [2]] frameSample =
      some ([DNNFResult.ofCount 2, DNNFResult.ofCount 2], frameSample) ∧
    parallelSearchUseOmpE constantSearch 1 [Block.mk [0] [1], Block.mk [1] [2]] frameSample =
      Raising.ok ([DNNFResult.ofCount 2, DNNFResult.ofCount 2].foldl
        (fun totalResult result => totalResult.mul result) (DNNFResult.ofCount 1), frameSample) :=
  ⟨rfl, (parallel_search_outcomes constantSearch 1 [Block.mk [0] [1], Block.mk [1] [2]] []
    (Block.mk [2] [3]) frameSample frameSample [DNNFResult.ofCount 2, DNNFResult.ofCount 2]
    rfl).2.2.2.2⟩

/-- C31: whatever the search of the sub-blocks is, when the searches on the blocks `pre`
return counts other than zero and the search on the next block `b` throws an exception
other than "Time bound broken", `parallelSearchUseOmp` surfaces no error: it returns the
count 0, the value it returns when a sub-block has no solution. -/
theorem C31_other_error_returns_count_zero (dxd : RaisingSearch) (d : Int)
    (pre post : List Block) (b : Block) (s s1 s2 : DanceDNNF) (rs : List DNNFResult)
    (h : okRun dxd d pre s = some (rs, s1))
    (h2 : dxd s1 b (d + 1) = Raising.thrown Thrown.other s2) :
    parallelSearchUseOmpE dxd d (pre ++ b :: post) s =
      Raising.ok (DNNFResult.ofCount 0, s2) := by
  have hpre := parallelLoopE_okRun dxd d pre (b :: post) [] rs s s1 h
  rw [List.nil_append] at hpre
  obtain ⟨rs1, hs⟩ := parallelLoopE_skip dxd d post (rs ++ [DNNFResult.zero]) true false s2 rfl
  unfold parallelSearchUseOmpE
  rw [hpre, parallelLoopE]
  simp only [Bool.or_self, Bool.false_eq_true, if_false, h2, hs, if_true]

/-- C31 on the single block whose search `failingSearch` throws an exception other than
"Time bound broken": the combined search returns the count 0 instead of an error. -/
theorem C31_other_error_returns_count_zero_witness :
    okRun failingSearch 1 [] frameSample = some ([], frameSample) ∧
    failingSearch frameSample (Block.mk [0] [1]) (1 + 1) =
      Raising.thrown Thrown.other frameSample ∧
    parallelSearchUseOmpE failingSearch 1 ([] ++ Block.mk [0] [1] :: []) frameSample =
      Raising.ok (DNNFResult.ofCount 0, frameSample) :=
  ⟨rfl, rfl,
    C31_other_error_returns_count_zero failingSearch 1 [] [] (Block.mk [0] [1]) frameSample
      frameSample frameSample [] rfl rfl⟩

/-! # The detector during the search -/

theorem DXD_succ (fuel : Nat) : DXD (fuel + 1) = DXDstep (DXD fuel) := rfl

theorem touched_detector (m1 m : DancingMatrix) (h : Touched m1 m) : m1.detector = m.detector := by
  unfold Touched at h
  rw [h]

/-- The row loop of `coverInBlock` calls never writes `deleted_rows_` and leaves the
detector alone. -/
theorem coverRowInBlock_keeps (curC : Nat) :
    ∀ (f : Nat) (m : DancingMatrix) (block : Block) (del : List Nat) (curR : Nat)
      (m1 : DancingMatrix) (b1 : Block) (del1 : List Nat),
      coverRowInBlock curC f m block del curR = some (m1, b1, del1) →
      del1 = del ∧ m1.detector = m.detector := by
  intro f
  induction f with
  | zero => intro m block del curR m1 b1 del1 h; simp [coverRowInBlock] at h
  | succ f ih =>
    intro m block del curR m1 b1 del1 h
    rw [coverRowInBlock] at h
    by_cases hc : curR = curC
    · rw [if_pos hc] at h
      cases h
      exact ⟨rfl, rfl⟩
    · rw [if_neg hc] at h
      cases hcov : m.coverInBlock (nth m.col curR) block del with
      | none => rw [hcov] at h; cases h
      | some p =>
        obtain ⟨m2, b2, del2⟩ := p
        rw [hcov] at h
        obtain ⟨ht, hd⟩ := coverInBlock_touched m _ block del m2 b2 del2 hcov
        obtain ⟨e1, e2⟩ := ih m2 b2 del2 _ m1 b1 del1 h
        exact ⟨e1.trans hd, e2.trans (touched_detector _ _ ht)⟩

theorem uncoverRowInBlock_keeps (curC : Nat) :
    ∀ (f : Nat) (m : DancingMatrix) (block : Block) (curR : Nat) (m1 : DancingMatrix) (b1 : Block),
      uncoverRowInBlock curC f m block curR = some (m1, b1) → m1.detector = m.detector := by
  intro f
  induction f with
  | zero => intro m block curR m1 b1 h; simp [uncoverRowInBlock] at h
  | succ f ih =>
    intro m block curR m1 b1 h
    rw [uncoverRowInBlock] at h
    by_cases hc : curR = curC
    · rw [if_pos hc] at h
      cases h
      rfl
    · rw [if_neg hc] at h
      cases hcov : m.uncoverInBlock (nth m.col curR) block with
      | none => rw [hcov] at h; cases h
      | some p =>
        obtain ⟨m2, b2⟩ := p
        rw [hcov] at h
        exact (ih m2 b2 _ m1 b1 h).trans (touched_detector _ _ (uncoverInBlock_touched m _ block m2 b2 hcov))

theorem guardDetector_pos (d0 : Option ComponentDetector) (dxd : Search) (s : DanceDNNF)
    (block : Block) (depth : Int) (h : s.m.detector = d0) :
    guardDetector d0 dxd s block depth = dxd s block depth := by
  unfold guardDetector
  rw [if_pos h]

/-- The branching loop calls `dxd` on states with the detector of its own state only,
and leaves the detector as it finds it. -/
theorem branchLoop_watch (dxd : Search) (hk : KeepsDetector dxd) (d0 : Option ComponentDetector)
    (choose : Nat) (depth : Int) :
    ∀ (f : Nat) (s : DanceDNNF) (block : Block) (tot : DNNFResult) (x curC : Nat),
      s.m.detector = d0 →
      branchLoop (guardDetector d0 dxd) choose depth f s block tot x curC =
        branchLoop dxd choose depth f s block tot x curC ∧
      ∀ r b1 s1, branchLoop dxd choose depth f s block tot x curC = Outcome.ok (r, b1, s1) →
        s1.m.detector = d0 := by
  intro f
  induction f with
  | zero =>
    intro s block tot x curC _
    refine ⟨rfl, ?_⟩
    intro r b1 s1 h
    simp [branchLoop] at h
  | succ f ih =>
    intro s block tot x curC hd0
    rw [branchLoop, branchLoop]
    by_cases hc : curC = choose
    · rw [if_pos hc, if_pos hc]
      refine ⟨rfl, ?_⟩
      intro r b1 s1 h
      cases h
      exact hd0
    · rw [if_neg hc, if_neg hc]
      cases hcov : coverRowInBlock curC s.m.fuel s.m block [] (nth s.m.right curC) with
      | none =>
        refine ⟨rfl, ?_⟩
        intro r b1 s1 h
        cases h
      | some p =>
        obtain ⟨m1, block1, del⟩ := p
        obtain ⟨hdel, hdet1⟩ := coverRowInBlock_keeps curC _ _ _ _ _ m1 block1 del hcov
        subst hdel
        dsimp only
        rw [detectorDeleteEdges_nil]
        dsimp only
        rw [guardDetector_pos d0 dxd _ block1 (depth + 1) (hdet1.trans hd0)]
        cases hrec : dxd { s with m := m1 } block1 (depth + 1) with
        | timeBound =>
          refine ⟨rfl, ?_⟩
          intro r b1 s1 h
          cases h
        | diverged =>
          refine ⟨rfl, ?_⟩
          intro r b1 s1 h
          cases h
        | ok q =>
          obtain ⟨result, block2, s3⟩ := q
          have hdet3 : s3.m.detector = d0 := (hk _ _ _ _ _ _ hrec).trans (hdet1.trans hd0)
          dsimp only
          generalize hs4 : (if (!result.isZero) = true then _ else s3) = s4
          have hm4 : s4.m = s3.m := by
            rw [← hs4]
            split_ifs
            · exact (buildDecisionNode_frame _ _ _ _).1
            · rfl
          generalize (if (!result.isZero) = true then _ else tot) = tot1
          cases hun : uncoverRowInBlock curC s4.m.fuel s4.m block2 (nth s4.m.left curC) with
          | none =>
            refine ⟨rfl, ?_⟩
            intro r b1 s1 h
            cases h
          | some p5 =>
            obtain ⟨m5, block3⟩ := p5
            have hdet5 : m5.detector = d0 := by
              rw [uncoverRowInBlock_keeps curC _ _ _ _ m5 block3 hun, hm4]
              exact hdet3
            dsimp only
            rw [detectorAddEdges_nil]
            dsimp only
            exact ih { s4 with m := m5 } block3 tot1 x _ hdet5

/-- The method `serialSearch` calls `dxd` on states with the detector of its own state
only, and leaves the detector as it finds it. -/
theorem serialSearch_watch (dxd : Search) (hk : KeepsDetector dxd) (d0 : Option ComponentDetector)
    (depth : Int) :
    ∀ (blocks : List Block) (tot : DNNFResult) (s : DanceDNNF), s.m.detector = d0 →
      serialSearch (guardDetector d0 dxd) depth blocks tot s = serialSearch dxd depth blocks tot s ∧
      ∀ r s1, serialSearch dxd depth blocks tot s = Outcome.ok (r, s1) → s1.m.detector = d0 := by
  intro blocks
  induction blocks with
  | nil =>
    intro tot s hd0
    refine ⟨rfl, ?_⟩
    intro r s1 h
    simp only [serialSearch] at h
    cases h
    exact hd0
  | cons b rest ih =>
    intro tot s hd0
    rw [serialSearch, serialSearch, guardDetector_pos d0 dxd s b (depth + 1) hd0]
    cases hrec : dxd s b (depth + 1) with
    | timeBound =>
      refine ⟨rfl, ?_⟩
      intro r s1 h
      cases h
    | diverged =>
      refine ⟨rfl, ?_⟩
      intro r s1 h
      cases h
    | ok q =>
      obtain ⟨result, b1, s2⟩ := q
      have hdet : s2.m.detector = d0 := (hk _ _ _ _ _ _ hrec).trans hd0
      dsimp only
      by_cases hz : result.isZero = true
      · rw [if_pos hz, if_pos hz]
        refine ⟨rfl, ?_⟩
        intro r s1 h
        cases h
        exact hdet
      · rw [if_neg hz, if_neg hz]
        exact ih _ s2 hdet

/-- The loop of `parallelSearchUseOmp` calls `dxd` on states with the detector of its
own state only, and leaves the detector as it finds it. -/
theorem parallelLoop_watch (dxd : Search) (hk : KeepsDetector dxd) (d0 : Option ComponentDetector)
    (depth : Int) :
    ∀ (blocks : List Block) (results : List DNNFResult) (hf ht : Bool) (s : DanceDNNF),
      s.m.detector = d0 →
      parallelLoop (guardDetector d0 dxd) depth blocks results hf ht s =
        parallelLoop dxd depth blocks results hf ht s ∧
      ∀ res hf1 ht1 s1, parallelLoop dxd depth blocks results hf ht s = some (res, hf1, ht1, s1) →
        s1.m.detector = d0 := by
  intro blocks
  induction blocks with
  | nil =>
    intro results hf ht s hd0
    refine ⟨rfl, ?_⟩
    intro res hf1 ht1 s1 h
    simp only [parallelLoop] at h
    cases h
    exact hd0
  | cons b rest ih =>
    intro results hf ht s hd0
    rw [parallelLoop, parallelLoop]
    by_cases hfl : (hf || ht) = true
    · rw [if_pos hfl, if_pos hfl]
      exact ih _ _ _ s hd0
    · rw [if_neg hfl, if_neg hfl, guardDetector_pos d0 dxd s b (depth + 1) hd0]
      cases hrec : dxd s b (depth + 1) with
      | timeBound => exact ih _ _ _ s hd0
      | diverged =>
        refine ⟨rfl, ?_⟩
        intro res hf1 ht1 s1 h
        cases h
      | ok q =>
        obtain ⟨result, b1, s2⟩ := q
        have hdet : s2.m.detector = d0 := (hk _ _ _ _ _ _ hrec).trans hd0
        dsimp only
        by_cases hz : result.isZero = true
        · rw [if_pos hz, if_pos hz]
          exact ih _ _ _ s2 hdet
        · rw [if_neg hz, if_neg hz]
          exact ih _ _ _ s2 hdet

theorem parallelSearchUseOmp_watch (dxd : Search) (hk : KeepsDetector dxd)
    (d0 : Option ComponentDetector) (depth : Int) (blocks : List Block) (s : DanceDNNF)
    (hd0 : s.m.detector = d0) :
    parallelSearchUseOmp (guardDetector d0 dxd) depth blocks s =
      parallelSearchUseOmp dxd depth blocks s ∧
    ∀ r s1, parallelSearchUseOmp dxd depth blocks s = Outcome.ok (r, s1) → s1.m.detector = d0 := by
  obtain ⟨h1, h2⟩ := parallelLoop_watch dxd hk d0 depth blocks [] false false s hd0
  unfold parallelSearchUseOmp
  rw [h1]
  refine ⟨rfl, ?_⟩
  intro r s1 h
  cases hl : parallelLoop dxd depth blocks [] false false s with
  | none => rw [hl] at h; cases h
  | some p =>
    obtain ⟨res, hf1, ht1, s2⟩ := p
    rw [hl] at h
    have := h2 _ _ _ _ hl
    dsimp only at h
    split_ifs at h
    · cases h; exact this
    · cases h; exact this

/-- The body of `DXD` in terms of its parts. -/
theorem DXDstep_eq (dxd : Search) (s0 : DanceDNNF) (block : Block) (depth : Int) :
    DXDstep dxd s0 block depth =
      if s0.timeBoundBroken.1 then Outcome.timeBound
      else if block.cols.isEmpty then Outcome.ok (DNNFResult.ofCount 1, block, s0.timeBoundBroken.2)
      else
        match assocGet s0.timeBoundBroken.2.countCache (hashBlockState block.cols) with
        | some r => Outcome.ok (r, block, s0.timeBoundBroken.2)
        | none =>
          if block.rows.length > 2 ∧ s0.timeBoundBroken.2.m.enableGraphSync then
            match detectBlocks s0.timeBoundBroken.2 block with
            | none => Outcome.diverged
            | some curBlock =>
              decompStep dxd block depth (hashBlockState block.cols) s0.timeBoundBroken.2 curBlock
          else branchStep dxd block depth (hashBlockState block.cols) s0.timeBoundBroken.2 := rfl

theorem setCacheCount_m (s : DanceDNNF) (key : Nat) (count : DNNFResult) :
    (s.setCacheCount key count).m = s.m := rfl

/-- The branching part of a frame calls `dxd` on states with the detector of the frame
only, and leaves the detector as it finds it. -/
theorem branchStep_watch (dxd : Search) (hk : KeepsDetector dxd) (d0 : Option ComponentDetector)
    (block : Block) (depth : Int) (state : Nat) (s : DanceDNNF) (hd0 : s.m.detector = d0) :
    branchStep (guardDetector d0 dxd) block depth state s = branchStep dxd block depth state s ∧
    ∀ r b1 s1, branchStep dxd block depth state s = Outcome.ok (r, b1, s1) →
      s1.m.detector = d0 := by
  unfold branchStep
  cases hsel : s.m.selectOptimalColumn block.cols with
  | none =>
    refine ⟨rfl, ?_⟩
    intro r b1 s1 h
    cases h
  | some choose =>
    dsimp only
    by_cases hsz : nthI s.m.size choose ≤ 0
    · rw [if_pos hsz, if_pos hsz]
      refine ⟨rfl, ?_⟩
      intro r b1 s1 h
      cases h
      exact hd0
    · rw [if_neg hsz, if_neg hsz]
      cases hcov : s.m.coverInBlock (nth s.m.col choose) block [] with
      | none =>
        refine ⟨rfl, ?_⟩
        intro r b1 s1 h
        cases h
      | some p =>
        obtain ⟨m1, block1, del⟩ := p
        obtain ⟨ht, hdel⟩ := coverInBlock_touched s.m _ block [] m1 block1 del hcov
        subst hdel
        have hdet1 : m1.detector = d0 := (touched_detector _ _ ht).trans hd0
        dsimp only
        rw [detectorDeleteEdges_nil]
        dsimp only
        obtain ⟨e1, e2⟩ := branchLoop_watch dxd hk d0 choose depth m1.fuel { s with m := m1 } block1
          (DNNFResult.ofCount 0) DanceDNNF.F (nth m1.down choose) hdet1
        rw [e1]
        cases hloop : branchLoop dxd choose depth m1.fuel { s with m := m1 } block1
            (DNNFResult.ofCount 0) DanceDNNF.F (nth m1.down choose) with
        | timeBound =>
          refine ⟨rfl, ?_⟩
          intro r b1 s1 h
          cases h
        | diverged =>
          refine ⟨rfl, ?_⟩
          intro r b1 s1 h
          cases h
        | ok q =>
          obtain ⟨totalResult, block2, s3⟩ := q
          have hdet3 := e2 _ _ _ hloop
          refine ⟨rfl, ?_⟩
          intro r b1 s1 h
          dsimp only at h
          cases hun : s3.m.uncoverInBlock (nth s3.m.col choose) block2 with
          | none => rw [hun] at h; cases h
          | some p4 =>
            obtain ⟨m4, block3⟩ := p4
            rw [hun] at h
            dsimp only at h
            rw [detectorAddEdges_nil] at h
            dsimp only at h
            have hdet4 : m4.detector = d0 :=
              (touched_detector _ _ (uncoverInBlock_touched s3.m _ block2 m4 block3 hun)).trans
                hdet3
            cases h
            exact hdet4

/-- The part of a frame after the call of the detector calls `dxd` on states with the
detector of the frame only, and leaves the detector as it finds it. -/
theorem decompStep_watch (dxd : Search) (hk : KeepsDetector dxd) (d0 : Option ComponentDetector)
    (block : Block) (depth : Int) (state : Nat) (s : DanceDNNF) (curBlock : List Block)
    (hd0 : s.m.detector = d0) :
    decompStep (guardDetector d0 dxd) block depth state s curBlock =
      decompStep dxd block depth state s curBlock ∧
    ∀ r b1 s1, decompStep dxd block depth state s curBlock = Outcome.ok (r, b1, s1) →
      s1.m.detector = d0 := by
  unfold decompStep
  dsimp only
  by_cases hlen : curBlock.length > 1
  · rw [if_pos hlen, if_pos hlen]
    generalize hs2 : (if (s.m.useETT && s.isParallelSearch) = true then
        ({ s with MAX_B_COUNT := max s.MAX_B_COUNT curBlock.length,
                  m := { s.m with enableGraphSync := false } } : DanceDNNF)
      else { s with MAX_B_COUNT := max s.MAX_B_COUNT curBlock.length }) = s2
    have hdet2 : s2.m.detector = d0 := by
      rw [← hs2]
      split_ifs
      · exact hd0
      · exact hd0
    by_cases hp : s2.isParallelSearch = true
    · rw [if_pos hp, if_pos hp]
      obtain ⟨e1, e2⟩ := parallelSearchUseOmp_watch dxd hk d0 depth curBlock s2 hdet2
      rw [e1]
      refine ⟨rfl, ?_⟩
      intro r b1 s1 h
      cases hrun : parallelSearchUseOmp dxd depth curBlock s2 with
      | timeBound => rw [hrun] at h; cases h
      | diverged => rw [hrun] at h; cases h
      | ok q =>
        obtain ⟨result, s3⟩ := q
        have hdet3 := e2 _ _ hrun
        rw [hrun] at h
        cases h
        exact hdet3
    · rw [if_neg hp, if_neg hp]
      obtain ⟨e1, e2⟩ := serialSearch_watch dxd hk d0 depth curBlock (DNNFResult.ofCount 1) s2 hdet2
      rw [e1]
      refine ⟨rfl, ?_⟩
      intro r b1 s1 h
      cases hrun : serialSearch dxd depth curBlock (DNNFResult.ofCount 1) s2 with
      | timeBound => rw [hrun] at h; cases h
      | diverged => rw [hrun] at h; cases h
      | ok q =>
        obtain ⟨result, s3⟩ := q
        have hdet3 := e2 _ _ hrun
        rw [hrun] at h
        cases h
        exact hdet3
  · rw [if_neg hlen, if_neg hlen]
    exact branchStep_watch dxd hk d0 block depth state _ hd0

/-- A frame of `DXD` calls `dxd` on states with the detector of the frame only, and
leaves the detector as it finds it. -/
theorem DXDstep_watch (dxd : Search) (hk : KeepsDetector dxd) (s0 : DanceDNNF) (block : Block)
    (depth : Int) :
    DXDstep (guardDetector s0.m.detector dxd) s0 block depth = DXDstep dxd s0 block depth ∧
    ∀ r b1 s1, DXDstep dxd s0 block depth = Outcome.ok (r, b1, s1) →
      s1.m.detector = s0.m.detector := by
  rw [DXDstep_eq, DXDstep_eq]
  have hd0 : s0.timeBoundBroken.2.m.detector = s0.m.detector := rfl
  generalize s0.timeBoundBroken.2 = s at hd0
  generalize s0.m.detector = d0 at hd0
  by_cases htb : s0.timeBoundBroken.1 = true
  · rw [if_pos htb, if_pos htb]
    refine ⟨rfl, ?_⟩
    intro r b1 s1 h
    cases h
  · rw [if_neg htb, if_neg htb]
    by_cases hemp : block.cols.isEmpty = true
    · rw [if_pos hemp, if_pos hemp]
      refine ⟨rfl, ?_⟩
      intro r b1 s1 h
      cases h
      exact hd0
    · rw [if_neg hemp, if_neg hemp]
      cases hcache : assocGet s.countCache (hashBlockState block.cols) with
      | some r0 =>
        refine ⟨rfl, ?_⟩
        intro r b1 s1 h
        cases h
        exact hd0
      | none =>
        dsimp only
        by_cases hdec : block.rows.length > 2 ∧ s.m.enableGraphSync = true
        · rw [if_pos hdec, if_pos hdec]
          cases hget : detectBlocks s block with
          | none =>
            refine ⟨rfl, ?_⟩
            intro r b1 s1 h
            cases h
          | some curBlock => exact decompStep_watch dxd hk d0 block depth _ s curBlock hd0
        · rw [if_neg hdec, if_neg hdec]
          exact branchStep_watch dxd hk d0 block depth _ s hd0

/-- The method `DXD` leaves the detector as it finds it. -/
theorem DXD_keepsDetector : ∀ (fuel : Nat), KeepsDetector (DXD fuel)
  | 0 => by
    intro s block depth r b1 s1 h
    simp [DXD] at h
  | fuel + 1 => by
    intro s block depth r b1 s1 h
    rw [DXD_succ] at h
    exact (DXDstep_watch (DXD fuel) (DXD_keepsDetector fuel) s block depth).2 r b1 s1 h

/-- No frame of a search is entered with a detector other than the detector of the
first frame: the watched search is the search. -/
theorem DXDwatch_eq (d0 : Option ComponentDetector) :
    ∀ (fuel : Nat), guardDetector d0 (DXDwatch d0 fuel) = guardDetector d0 (DXD fuel)
  | 0 => rfl
  | fuel + 1 => by
    funext s block depth
    unfold guardDetector
    by_cases h : s.m.detector = d0
    · rw [if_pos h, if_pos h, DXD_succ]
      show DXDstep (guardDetector d0 (DXDwatch d0 fuel)) s block depth = _
      rw [DXDwatch_eq d0 fuel, ← h]
      exact (DXDstep_watch (DXD fuel) (DXD_keepsDetector fuel) s block depth).1
    · rw [if_neg h, if_neg h]

/-- Claim C34: `coverInBlock`, alone and in the row loop of `DXD`, returns the set
`removed_rows` as it was passed, so the sets that `DXD` passes on to
`detector->DeleteEdges` and `detector->AddEdges`, which start empty, are empty, and
both calls return the detector as it is; in a search no frame is entered with a
detector other than the one of the first frame (the search that stops at such a frame
is the search itself), and a search that returns leaves the detector, with its
`row_active` flags, its forest and its index of non-tree edges, as it found it. -/
theorem C34_detector_is_never_updated :
    (∀ (m : DancingMatrix) (c : Nat) (block : Block) (m1 : DancingMatrix) (b1 : Block)
        (out : List Nat), m.coverInBlock c block [] = some (m1, b1, out) → out = []) ∧
    (∀ (curC f : Nat) (m : DancingMatrix) (block : Block) (curR : Nat) (m1 : DancingMatrix)
        (b1 : Block) (out : List Nat),
        coverRowInBlock curC f m block [] curR = some (m1, b1, out) → out = []) ∧
    (∀ d : ComponentDetector, d.DeleteEdges [] = some d ∧ d.AddEdges [] = some d) ∧
    (∀ (fuel : Nat) (s : DanceDNNF) (block : Block) (depth : Int),
        DXDwatch s.m.detector fuel s block depth = DXD fuel s block depth) ∧
    (∀ (fuel : Nat) (s : DanceDNNF) (block : Block) (depth : Int) (r : DNNFResult)
        (b1 : Block) (s1 : DanceDNNF),
        DXD fuel s block depth = Outcome.ok (r, b1, s1) → s1.m.detector = s.m.detector) := by
  refine ⟨?_, ?_, ?_, ?_, ?_⟩
  · intro m c block m1 b1 out h
    exact (coverInBlock_touched m c block [] m1 b1 out h).2
  · intro curC f m block curR m1 b1 out h
    exact (coverRowInBlock_keeps curC f m block [] curR m1 b1 out h).1
  · intro d
    exact ⟨rfl, rfl⟩
  · intro fuel s block depth
    have h := congrFun (congrFun (congrFun (DXDwatch_eq s.m.detector fuel) s) block) depth
    unfold guardDetector at h
    rw [if_pos rfl, if_pos rfl] at h
    exact h
  · intro fuel s block depth r b1 s1 h
    exact DXD_keepsDetector fuel s block depth r b1 s1 h

/-! # Construction by `insert` -/

theorem nth_append_lt (l : List Nat) (v i : Nat) (h : i < l.length) : nth (l ++ [v]) i = nth l i := by
  unfold nth
  simp [List.getD_eq_getElem?_getD, List.getElem?_append_left h]

theorem nth_append_eq (l : List Nat) (v : Nat) : nth (l ++ [v]) l.length = v := by
  unfold nth
  simp [List.getD_eq_getElem?_getD]

theorem cyc_rot1 (N P : List Nat) (b : Nat) (L : List Nat) :
    Cyc N P (L ++ [b]) ↔ Cyc N P (b :: L) := by
  cases L with
  | nil => exact Iff.rfl
  | cons a t =>
    show (Chain N a (t ++ [b]) a ∧ Chain P a (t ++ [b]).reverse a) ↔
      (Chain N b (a :: t) b ∧ Chain P b (a :: t).reverse b)
    rw [chain_append, List.reverse_append, List.reverse_cons a t, chain_append]
    simp only [List.reverse_cons, List.reverse_nil, List.nil_append, List.singleton_append, Chain]
    tauto

theorem cyc_rotate (N P : List Nat) : ∀ (A B : List Nat), Cyc N P (A ++ B) → Cyc N P (B ++ A) := by
  intro A
  induction A with
  | nil => intro B h; simpa using h
  | cons a A ih =>
    intro B h
    have h1 : Cyc N P (A ++ B ++ [a]) := (cyc_rot1 N P a (A ++ B)).mpr h
    have h2 := ih (B ++ [a]) (by rw [← List.append_assoc]; exact h1)
    simpa using h2

theorem cyc_frame (N P N1 P1 : List Nat) (L : List Nat)
    (h : ∀ z ∈ L, nth N1 z = nth N z ∧ nth P1 z = nth P z) (hc : Cyc N P L) : Cyc N1 P1 L := by
  cases L with
  | nil => trivial
  | cons a t =>
    refine ⟨chain_frame N N1 t a a (fun z hz => (h z hz).1) hc.1, ?_⟩
    apply chain_frame P P1 t.reverse a a _ hc.2
    intro z hz
    apply (h z _).2
    rcases List.mem_cons.mp hz with e | hz
    · rw [e]; exact List.mem_cons_self _ _
    · exact List.mem_cons_of_mem _ (List.mem_reverse.mp hz)

/-- Linking the new node `n` in after the last node `cur` of a closed list, as `insert`
does for both directions; `v` is the node after `cur`. -/
theorem cyc_insert_last (N P : List Nat) (A : List Nat) (cur n v : Nat) (hv : nth N cur = v)
    (hc : Cyc N P (A ++ [cur])) (hN : N.length = n) (hP : P.length = n)
    (hlt : ∀ z ∈ A ++ [cur], z < n) (hnd : (A ++ [cur]).Nodup) :
    Cyc ((N ++ [v]).set cur n) ((P ++ [cur]).set v n) (A ++ [cur, n]) := by
  have hcur : cur < n := hlt cur (by simp)
  have hN1 : ∀ z, z < n → z ≠ cur → nth ((N ++ [v]).set cur n) z = nth N z := by
    intro z hz hne
    rw [nth_set_ne _ _ _ _ hne, nth_append_lt _ _ _ (by omega)]
  have hN2 : nth ((N ++ [v]).set cur n) cur = n :=
    nth_set_eq _ _ _ (by simp; omega)
  have hN3 : nth ((N ++ [v]).set cur n) n = v := by
    rw [nth_set_ne _ _ _ _ (by omega), ← hN, nth_append_eq]
  cases A with
  | nil =>
    have h1 : nth N cur = cur := hc.1
    have hvc : v = cur := hv.symm.trans h1
    subst hvc
    have hP2 : nth ((P ++ [v]).set v n) v = n := nth_set_eq _ _ _ (by simp; omega)
    have hP3 : nth ((P ++ [v]).set v n) n = v := by
      rw [nth_set_ne _ _ _ _ (by omega), ← hP, nth_append_eq]
    exact ⟨⟨hN2, hN3⟩, ⟨hP2, hP3⟩⟩
  | cons h t =>
    have hc1 : Chain N h (t ++ [cur]) h := hc.1
    have hc2 : Chain P h (t ++ [cur]).reverse h := hc.2
    rw [chain_append] at hc1
    rw [List.reverse_append] at hc2
    have hnext : nth N cur = h := hc1.2
    have hvh : v = h := hv.symm.trans hnext
    subst hvh
    have hh : v < n := hlt v (by simp)
    have hnd0 : (v :: (t ++ [cur])).Nodup := hnd
    rw [List.nodup_cons, List.nodup_append] at hnd0
    have hnd1 : v ∉ t ++ [cur] := hnd0.1
    have hhc : v ≠ cur := fun e => hnd1 (by simp [e])
    have hnd2 : cur ∉ t := fun hm => hnd0.2.2.2 hm (List.mem_singleton_self _)
    have hP1 : ∀ z, z < n → z ≠ v → nth ((P ++ [cur]).set v n) z = nth P z := by
      intro z hz hne
      rw [nth_set_ne _ _ _ _ hne, nth_append_lt _ _ _ (by omega)]
    have hP2 : nth ((P ++ [cur]).set v n) v = n := nth_set_eq _ _ _ (by simp; omega)
    have hP3 : nth ((P ++ [cur]).set v n) n = cur := by
      rw [nth_set_ne _ _ _ _ (by omega), ← hP, nth_append_eq]
    show Chain _ v (t ++ [cur, n]) v ∧ Chain _ v (t ++ [cur, n]).reverse v
    constructor
    · rw [chain_append]
      refine ⟨?_, hN2, hN3⟩
      apply chain_frame N _ t v cur _ hc1.1
      intro z hz
      apply hN1 z (hlt z (by simp at hz ⊢; tauto))
      intro e
      rcases List.mem_cons.mp hz with e2 | hz
      · exact hhc (e2 ▸ e)
      · exact hnd2 (e ▸ hz)
    · have hrev : (t ++ [cur, n]).reverse = n :: cur :: t.reverse := by simp
      rw [hrev]
      have hc3 : nth P v = cur ∧ Chain P cur t.reverse v := by simpa [Chain] using hc2
      refine ⟨hP2, hP3, ?_⟩
      apply chain_frame P _ t.reverse cur v _ hc3.2
      intro z hz
      have hzm : z ∈ t ++ [cur] := by
        rcases List.mem_cons.mp hz with e | hz
        · simp [e]
        · simp [List.mem_reverse.mp hz]
      apply hP1 z (hlt z (List.mem_cons_of_mem _ hzm))
      intro e
      exact hnd1 (e ▸ hzm)

/-- Linking the new node `n` in after the node `cur` of the closed list `a :: xs`: the list
read from `a` holds `n` besides `xs`, and read from `n` it holds `a :: xs`. -/
theorem ring_insert (N P : List Nat) (a : Nat) (xs : List Nat) (cur n v : Nat)
    (hv : nth N cur = v) (hc : Cyc N P (a :: xs)) (hN : N.length = n) (hP : P.length = n)
    (hlt : ∀ z ∈ a :: xs, z < n) (hnd : (a :: xs).Nodup) (hcur : cur ∈ a :: xs) :
    (∃ xs1, Cyc ((N ++ [v]).set cur n) ((P ++ [cur]).set v n) (a :: xs1) ∧ (a :: xs1).Nodup ∧
      (∀ y, y ∈ xs1 ↔ y = n ∨ y ∈ xs) ∧ xs1.length = xs.length + 1) ∧
    (∃ ys, Cyc ((N ++ [v]).set cur n) ((P ++ [cur]).set v n) (n :: ys) ∧ (n :: ys).Nodup ∧
      ∀ y, y ∈ ys ↔ y ∈ a :: xs) := by
  have hn : n ∉ a :: xs := fun h => Nat.lt_irrefl _ (hlt n h)
  have hna : n ≠ a := fun e => hn (by simp [e])
  have hnx : n ∉ xs := fun h => hn (List.mem_cons_of_mem _ h)
  rcases List.mem_cons.mp hcur with e | hmem
  · subst e
    have h1 : Cyc N P (xs ++ [cur]) := cyc_rotate N P [cur] xs hc
    have h2 := cyc_insert_last N P xs cur n v hv h1 hN hP
      (by intro z hz; apply hlt; simp at hz ⊢; tauto)
      (by
        rw [List.nodup_cons] at hnd
        rw [List.nodup_append]
        refine ⟨hnd.2, List.nodup_singleton _, ?_⟩
        intro z hz hz2
        rw [List.mem_singleton] at hz2
        exact hnd.1 (hz2 ▸ hz))
    have hnd' := List.nodup_cons.mp hnd
    constructor
    · refine ⟨n :: xs, cyc_rotate _ _ xs [cur, n] h2, ?_, ?_, by simp⟩
      · rw [List.nodup_cons, List.nodup_cons]
        refine ⟨?_, hnx, hnd'.2⟩
        simp only [List.mem_cons, not_or]
        exact ⟨fun e => hna e.symm, hnd'.1⟩
      · intro y; simp
    · refine ⟨xs ++ [cur], ?_, ?_, ?_⟩
      · apply (cyc_rot1 _ _ n (xs ++ [cur])).mp
        simpa using h2
      · rw [List.nodup_cons]
        refine ⟨by simp only [List.mem_append, List.mem_singleton, not_or]; exact ⟨hnx, hna⟩, ?_⟩
        rw [List.nodup_append]
        refine ⟨hnd'.2, List.nodup_singleton _, ?_⟩
        intro z hz hz2
        rw [List.mem_singleton] at hz2
        exact hnd'.1 (hz2 ▸ hz)
      · intro y; simp; tauto
  · obtain ⟨A, B, hAB⟩ := List.append_of_mem hmem
    subst hAB
    have h0 : Cyc N P ((a :: A ++ [cur]) ++ B) := by simpa using hc
    have h1 : Cyc N P ((B ++ a :: A) ++ [cur]) := by
      have := cyc_rotate N P (a :: A ++ [cur]) B h0
      simpa using this
    have hperm : ∀ z, z ∈ (B ++ a :: A) ++ [cur] ↔ z ∈ a :: (A ++ cur :: B) := by
      intro z; simp; tauto
    have hndp : ((B ++ a :: A) ++ [cur]).Nodup := by
      have hp : List.Perm ((B ++ a :: A) ++ [cur]) (a :: (A ++ cur :: B)) := by
        have e1 : (B ++ a :: A) ++ [cur] = B ++ (a :: A ++ [cur]) := by simp
        have e2 : a :: (A ++ cur :: B) = (a :: A ++ [cur]) ++ B := by simp
        rw [e1, e2]
        exact List.perm_append_comm
      exact hp.nodup_iff.mpr hnd
    have h2 := cyc_insert_last N P (B ++ a :: A) cur n v hv h1 hN hP
      (fun z hz => hlt z ((hperm z).mp hz)) hndp
    constructor
    · refine ⟨A ++ [cur, n] ++ B, ?_, ?_, ?_, by simp; omega⟩
      · have h3 : Cyc ((N ++ [v]).set cur n) ((P ++ [cur]).set v n) (B ++ (a :: A ++ [cur, n])) := by
          simpa using h2
        have := cyc_rotate _ _ B (a :: A ++ [cur, n]) h3
        simpa using this
      · have hp : List.Perm (a :: (A ++ [cur, n] ++ B)) (n :: a :: (A ++ cur :: B)) := by
          have e1 : a :: (A ++ [cur, n] ++ B) = (a :: A ++ [cur]) ++ n :: B := by simp
          rw [e1]
          have e2 : a :: (A ++ cur :: B) = (a :: A ++ [cur]) ++ B := by simp
          rw [e2]
          exact List.perm_middle
        rw [hp.nodup_iff, List.nodup_cons]
        exact ⟨hn, hnd⟩
      · intro y; simp; tauto
    · refine ⟨(B ++ a :: A) ++ [cur], ?_, ?_, ?_⟩
      · apply (cyc_rot1 _ _ n _).mp
        simpa using h2
      · rw [List.nodup_cons]
        exact ⟨fun h => hn ((hperm n).mp h), hndp⟩
      · exact hperm

theorem chain_next_mem (N : List Nat) : ∀ (xs : List Nat) (a b cur : Nat),
    Chain N a xs b → cur ∈ a :: xs → nth N cur ∈ b :: xs := by
  intro xs
  induction xs with
  | nil =>
    intro a b cur h hc
    simp only [List.mem_singleton] at hc
    subst hc
    simp only [List.mem_singleton]
    exact h
  | cons x rest ih =>
    intro a b cur h hc
    rcases List.mem_cons.mp hc with e | hc
    · subst e
      rw [h.1]; simp
    · have := ih x b cur h.2 hc
      rcases List.mem_cons.mp this with e | h2
      · simp [e]
      · simp [h2]

theorem chain_right_range (R : List Nat) (n : Nat)
    (hR : ∀ i, i ≤ n → nth R i = if i = n then 0 else i + 1) :
    ∀ (k a : Nat), a + k = n → Chain R a (List.range' (a + 1) k) 0 := by
  intro k
  induction k with
  | zero =>
    intro a h
    have : a = n := by omega
    show nth R a = 0
    rw [hR a (by omega)]; simp [this]
  | succ k ih =>
    intro a h
    show nth R a = a + 1 ∧ Chain R (a + 1) (List.range' (a + 1 + 1) k) 0
    refine ⟨?_, ih (a + 1) (by omega)⟩
    rw [hR a (by omega)]
    have : a ≠ n := by omega
    simp [this]

theorem range_one_succ_reverse (k : Nat) :
    (List.range' 1 (k + 1)).reverse = (k + 1) :: (List.range' 1 k).reverse := by
  rw [List.range'_concat, List.reverse_append]
  simp [Nat.add_comm]

theorem chain_left_range (L : List Nat) (n : Nat)
    (hL : ∀ i, i ≤ n → nth L i = if i = 0 then n else i - 1) :
    ∀ (k : Nat), k + 1 ≤ n → Chain L (k + 1) (List.range' 1 k).reverse 0 := by
  intro k
  induction k with
  | zero =>
    intro h
    show nth L 1 = 0
    rw [hL 1 h]; simp
  | succ k ih =>
    intro h
    rw [range_one_succ_reverse]
    show nth L (k + 1 + 1) = k + 1 ∧ Chain L (k + 1) (List.range' 1 k).reverse 0
    refine ⟨?_, ih (by omega)⟩
    rw [hL _ h]; simp

theorem emptyMatrix_hgood (rows cols : Nat) (a b : Bool) :
    HGood (emptyMatrix rows cols a b) (List.range' 1 cols) := by
  have hR : ∀ i, i ≤ cols → nth (emptyMatrix rows cols a b).right i = if i = cols then 0 else i + 1 := by
    intro i hi
    exact nth_map_range _ _ _ (by omega)
  have hL : ∀ i, i ≤ cols → nth (emptyMatrix rows cols a b).left i = if i = 0 then cols else i - 1 := by
    intro i hi
    exact nth_map_range _ _ _ (by omega)
  refine ⟨?_, ?_, List.nodup_range' 1 cols, ?_⟩
  · exact chain_right_range _ cols hR cols 0 (by omega)
  · cases cols with
    | zero =>
      show nth _ 0 = 0
      rw [hL 0 (le_refl _)]; simp
    | succ k =>
      rw [range_one_succ_reverse]
      show nth (emptyMatrix rows (k + 1) a b).left 0 = k + 1 ∧ _
      refine ⟨?_, chain_left_range _ (k + 1) hL k (le_refl _)⟩
      rw [hL 0 (by omega)]; simp
  · intro h hh
    rw [List.mem_range'_1] at hh
    show 1 ≤ h ∧ h ≤ cols
    omega

theorem emptyMatrix_built (rows cols : Nat) (a b : Bool) :
    Built (emptyMatrix rows cols a b) (fun _ => []) (fun _ => []) := by
  have hn : (emptyMatrix rows cols a b).nodes = cols + 1 := by
    simp [DancingMatrix.nodes, emptyMatrix]
  have hC : (emptyMatrix rows cols a b).COLS = cols := rfl
  refine ⟨emptyMatrix_hgood rows cols a b, ⟨⟨?_, ?_, ?_⟩, ?_⟩, ⟨⟨?_, ?_⟩, ?_⟩, ?_, ⟨?_, ?_, ?_⟩, ?_, ?_, ?_⟩
  · rw [hn]; simp [emptyMatrix]
  · rw [hn]; simp [emptyMatrix]
  · rw [hn, hC]
  · intro k hk1 hk2
    rw [hC] at hk2
    have h1 : nth (emptyMatrix rows cols a b).down k = k := nth_range _ _ (by omega)
    have h2 : nth (emptyMatrix rows cols a b).up k = k := nth_range _ _ (by omega)
    exact ⟨h1, h2, List.nodup_nil, by intro x hx; simp at hx⟩
  · rw [hn]; simp [emptyMatrix]
  · rw [hn]; simp [emptyMatrix]
  · intro x h1 h2
    rw [hn] at h2; rw [hC] at h1; omega
  · intro x h1 h2
    rw [hn] at h2; rw [hC] at h1; omega
  · rw [hn]; simp [emptyMatrix]
  · simp [emptyMatrix]
  · simp [emptyMatrix]
  · intro k hk1 hk2
    rw [hC] at hk2
    have : k < cols + 1 := by omega
    simp [nthI, emptyMatrix, List.getD_eq_getElem?_getD, this]
  · intro r hr
    have hr2 : r < rows := hr
    have h0 : (emptyMatrix rows cols a b).rowRight.getD r none = none := by
      simp [emptyMatrix, List.getD_eq_getElem?_getD, hr2]
    constructor
    · intro _ x h1 h2
      rw [hn] at h2; rw [hC] at h1; omega
    · intro h hh
      rw [h0] at hh; cases hh
  · intro k hk
    rw [hC] at hk
    exact nth_range _ _ (by omega)

theorem insertSeekDown_spec (m : DancingMatrix) (r c : Nat) :
    ∀ (post : List Nat) (cur f : Nat), Chain m.down cur post c → post.length < f →
      ∃ cur1, insertSeekDown m r c f cur = some cur1 ∧ cur1 ∈ cur :: post := by
  intro post
  induction post with
  | nil =>
    intro cur f h hf
    obtain ⟨f1, rfl⟩ : ∃ f1, f = f1 + 1 := ⟨f - 1, by simp at hf; omega⟩
    have h1 : nth m.down cur = c := h
    refine ⟨cur, ?_, List.mem_cons_self _ _⟩
    simp [insertSeekDown, h1]
  | cons y post ih =>
    intro cur f h hf
    obtain ⟨f1, rfl⟩ : ∃ f1, f = f1 + 1 := ⟨f - 1, by simp at hf; omega⟩
    have h1 : nth m.down cur = y := h.1
    by_cases hcond : nth m.down cur ≠ c ∧ nth m.row (nth m.down cur) < r
    · obtain ⟨cur1, k1, k2⟩ := ih y f1 h.2 (by simp at hf; omega)
      refine ⟨cur1, ?_, List.mem_cons_of_mem _ k2⟩
      rw [insertSeekDown, if_pos hcond, h1]
      exact k1
    · refine ⟨cur, ?_, List.mem_cons_self _ _⟩
      rw [insertSeekDown, if_neg hcond]

theorem insertSeekRight_spec (m : DancingMatrix) (rowHead c : Nat) :
    ∀ (post : List Nat) (cur f : Nat), Chain m.right cur post rowHead → post.length < f →
      ∃ cur1, insertSeekRight m rowHead c f cur = some cur1 ∧ cur1 ∈ cur :: post := by
  intro post
  induction post with
  | nil =>
    intro cur f h hf
    obtain ⟨f1, rfl⟩ : ∃ f1, f = f1 + 1 := ⟨f - 1, by simp at hf; omega⟩
    have h1 : nth m.right cur = rowHead := h
    refine ⟨cur, ?_, List.mem_cons_self _ _⟩
    simp [insertSeekRight, h1]
  | cons y post ih =>
    intro cur f h hf
    obtain ⟨f1, rfl⟩ : ∃ f1, f = f1 + 1 := ⟨f - 1, by simp at hf; omega⟩
    have h1 : nth m.right cur = y := h.1
    by_cases hcond : nth m.right cur ≠ rowHead ∧ nth m.col (nth m.right cur) < c
    · obtain ⟨cur1, k1, k2⟩ := ih y f1 h.2 (by simp at hf; omega)
      refine ⟨cur1, ?_, List.mem_cons_of_mem _ k2⟩
      rw [insertSeekRight, if_pos hcond, h1]
      exact k1
    · refine ⟨cur, ?_, List.mem_cons_self _ _⟩
      rw [insertSeekRight, if_neg hcond]

/-- The vertical lists after `insert` has linked the new node in below `cur`. -/
theorem vgood_insert (m m1 : DancingMatrix) (rg : Nat → List Nat) (c cur : Nat)
    (hV : VGood m rg) (hc1 : 1 ≤ c) (hc2 : c ≤ m.COLS) (hcur : cur ∈ c :: rg c)
    (hup : m1.up = (m.up ++ [cur]).set (nth m.down cur) m.nodes)
    (hdown : m1.down = (m.down ++ [nth m.down cur]).set cur m.nodes)
    (hcol : m1.col = m.col ++ [c]) (hC : m1.COLS = m.COLS) :
    ∃ xs1, VGood m1 (fun k => if k = c then xs1 else rg k) ∧
      (∀ y, y ∈ xs1 ↔ y = m.nodes ∨ y ∈ rg c) ∧ xs1.length = (rg c).length + 1 := by
  obtain ⟨⟨hl1, hl2, hl3⟩, hr⟩ := hV
  obtain ⟨hD, hU, hnd, hmem⟩ := hr c hc1 hc2
  have hn1 : m1.nodes = m.nodes + 1 := by
    unfold DancingMatrix.nodes; rw [hcol]; simp
  have hlt : ∀ z ∈ c :: rg c, z < m.nodes := by
    intro z hz
    rcases List.mem_cons.mp hz with e | hz
    · omega
    · exact (hmem z hz).2.1
  have hndc : (c :: rg c).Nodup := by
    rw [List.nodup_cons]
    refine ⟨fun h => ?_, hnd⟩
    have := (hmem c h).1
    omega
  obtain ⟨⟨xs1, k1, k2, k3, k4⟩, _⟩ := ring_insert m.down m.up c (rg c) cur m.nodes (nth m.down cur) rfl
    ⟨hD, hU⟩ hl2 hl1 hlt hndc hcur
  have hdn : nth m.down cur ∈ c :: rg c := chain_next_mem m.down (rg c) c c cur hD hcur
  refine ⟨xs1, ⟨⟨?_, ?_, ?_⟩, ?_⟩, k3, k4⟩
  · rw [hup, hn1]; simp [hl1]
  · rw [hdown, hn1]; simp [hl2]
  · rw [hC, hn1]; omega
  · intro k hk1 hk2
    rw [hC] at hk2
    by_cases hkc : k = c
    · subst hkc
      simp only [if_true]
      refine ⟨?_, ?_, (List.nodup_cons.mp k2).2, ?_⟩
      · rw [hdown]; exact k1.1
      · rw [hup]; exact k1.2
      · intro x hx
        rw [hC, hn1, hcol]
        rcases (k3 x).mp hx with e | hx
        · subst e
          refine ⟨by omega, by omega, ?_⟩
          exact nth_append_eq _ _
        · have := hmem x hx
          refine ⟨this.1, by omega, ?_⟩
          rw [nth_append_lt _ _ _ this.2.1]
          exact this.2.2
    · simp only [if_neg hkc]
      obtain ⟨gD, gU, gnd, gmem⟩ := hr k hk1 hk2
      have hdisj : ∀ w, w ∈ c :: rg c → w ∉ k :: rg k := by
        intro w hw hw2
        rcases List.mem_cons.mp hw with e | hw
        · subst e
          rcases List.mem_cons.mp hw2 with e2 | hw2
          · exact hkc e2.symm
          · have := (gmem _ hw2).1; omega
        · have hwd := hmem w hw
          rcases List.mem_cons.mp hw2 with e2 | hw2
          · subst e2; omega
          · exact hkc ((gmem w hw2).2.2.symm.trans hwd.2.2)
      have hlk : ∀ z ∈ k :: rg k, z < m.nodes := by
        intro z hz
        rcases List.mem_cons.mp hz with e | hz
        · omega
        · exact (gmem z hz).2.1
      refine ⟨?_, ?_, gnd, ?_⟩
      · rw [hdown]
        apply chain_frame m.down _ (rg k) k k _ gD
        intro z hz
        rw [nth_set_ne _ _ _ _ (fun (e : z = cur) => hdisj cur hcur (by rw [← e]; exact hz)),
          nth_append_lt _ _ _ (by rw [hl2]; exact hlk z hz)]
      · rw [hup]
        apply chain_frame m.up _ (rg k).reverse k k _ gU
        intro z hz
        have hz2 : z ∈ k :: rg k := by
          rcases List.mem_cons.mp hz with e | hz
          · simp [e]
          · exact List.mem_cons_of_mem _ (List.mem_reverse.mp hz)
        rw [nth_set_ne _ _ _ _ (fun (e : z = nth m.down cur) => hdisj _ hdn (by rw [← e]; exact hz2)),
          nth_append_lt _ _ _ (by rw [hl1]; exact hlk z hz2)]
      · intro x hx
        have := gmem x hx
        rw [hC, hn1, hcol, nth_append_lt _ _ _ this.2.1]
        exact ⟨this.1, by omega, this.2.2⟩

theorem hgood_frame (m m1 : DancingMatrix) (hs : List Nat) (h : HGood m hs)
    (hC : m1.COLS = m.COLS)
    (hf : ∀ z, z ≤ m.COLS → nth m1.left z = nth m.left z ∧ nth m1.right z = nth m.right z) :
    HGood m1 hs := by
  obtain ⟨h1, h2, h3, h4⟩ := h
  have hz : ∀ z ∈ 0 :: hs, z ≤ m.COLS := by
    intro z hz
    rcases List.mem_cons.mp hz with e | hz
    · omega
    · exact (h4 z hz).2
  refine ⟨?_, ?_, h3, ?_⟩
  · exact chain_frame m.right m1.right hs 0 0 (fun z hz2 => (hf z (hz z hz2)).2) h1
  · apply chain_frame m.left m1.left hs.reverse 0 0 _ h2
    intro z hz2
    apply (hf z (hz z _)).1
    rcases List.mem_cons.mp hz2 with e | hz2
    · simp [e]
    · exact List.mem_cons_of_mem _ (List.mem_reverse.mp hz2)
  · intro h hh
    rw [hC]; exact h4 h hh

/-- The horizontal lists after `insert` has linked the new node into a row that has a
cell: `cur` is the cell of the row it is linked in after. -/
theorem rgood_insert_some (m m1 : DancingMatrix) (mt : Nat → List Nat) (r c cur : Nat)
    (hR : RowsGood m mt) (hrl : m.row.length = m.nodes) (hc1 : 1 ≤ c) (hc2 : c ≤ m.COLS)
    (hk1 : m.COLS < cur) (hk2 : cur < m.nodes) (hk3 : nth m.row cur = r)
    (hleft : m1.left = (m.left ++ [cur]).set (nth m.right cur) m.nodes)
    (hright : m1.right = (m.right ++ [nth m.right cur]).set cur m.nodes)
    (hcol : m1.col = m.col ++ [c]) (hrow : m1.row = m.row ++ [r]) (hC : m1.COLS = m.COLS) :
    ∃ mt1, RowsGood m1 mt1 := by
  obtain ⟨⟨hll, hrr⟩, hrows⟩ := hR
  have hcl : m.col.length = m.nodes := rfl
  have hrowlt : ∀ y, y < m.nodes → nth (m.row ++ [r]) y = nth m.row y :=
    fun y hy => nth_append_lt _ _ _ (by rw [hrl]; exact hy)
  have hrownew : nth (m.row ++ [r]) m.nodes = r := by rw [← hrl]; exact nth_append_eq _ _
  have hcollt : ∀ y, y < m.nodes → nth (m.col ++ [c]) y = nth m.col y :=
    fun y hy => nth_append_lt _ _ _ hy
  have hcolnew : nth (m.col ++ [c]) m.nodes = c := nth_append_eq _ _
  have hring : ∀ x, m.COLS < x → x < m.nodes →
      Cyc m.right m.left (x :: mt x) ∧ (x :: mt x).Nodup ∧ ∀ z ∈ x :: mt x, z < m.nodes := by
    intro x h1 h2
    obtain ⟨_, g1, g2, g3, g4⟩ := hrows x h1 h2
    refine ⟨⟨g1, g2⟩, ?_, ?_⟩
    · rw [List.nodup_cons]
      exact ⟨fun h => ((g4 x).mp h).2.2.1 rfl, g3⟩
    · intro z hz
      rcases List.mem_cons.mp hz with e | hz
      · omega
      · exact ((g4 z).mp hz).2.1
  have hv : nth m.right cur ∈ cur :: mt cur :=
    chain_next_mem m.right (mt cur) cur cur cur (hrows cur hk1 hk2).2.1 (List.mem_cons_self _ _)
  have hvrow : nth m.row (nth m.right cur) = r := by
    rcases List.mem_cons.mp hv with e | h
    · rw [e]; exact hk3
    · rw [(((hrows cur hk1 hk2).2.2.2.2 _).mp h).2.2.2]; exact hk3
  have key : ∀ x, ∃ ys, m.COLS < x → x < m.nodes + 1 →
      (1 ≤ nth (m.col ++ [c]) x ∧ nth (m.col ++ [c]) x ≤ m.COLS) ∧
      Chain ((m.right ++ [nth m.right cur]).set cur m.nodes) x ys x ∧
      Chain ((m.left ++ [cur]).set (nth m.right cur) m.nodes) x ys.reverse x ∧ ys.Nodup ∧
      ∀ y, y ∈ ys ↔ (m.COLS < y ∧ y < m.nodes + 1 ∧ y ≠ x ∧
        nth (m.row ++ [r]) y = nth (m.row ++ [r]) x) := by
    intro x
    by_cases hx : m.COLS < x ∧ x < m.nodes + 1
    swap
    · exact ⟨[], fun h1 h2 => absurd ⟨h1, h2⟩ hx⟩
    by_cases hxn : x = m.nodes
    · -- the new node
      subst hxn
      obtain ⟨q1, q2, q3⟩ := hring cur hk1 hk2
      obtain ⟨_, ys, k1, k2, k3⟩ := ring_insert m.right m.left cur (mt cur) cur m.nodes
        (nth m.right cur) rfl q1 hrr hll q3 q2 (List.mem_cons_self _ _)
      refine ⟨ys, fun _ _ => ⟨?_, k1.1, k1.2, (List.nodup_cons.mp k2).2, ?_⟩⟩
      · rw [hcolnew]; exact ⟨hc1, hc2⟩
      · intro y
        rw [k3 y, hrownew]
        constructor
        · intro hy
          have hylt := q3 y hy
          rw [hrowlt y hylt]
          rcases List.mem_cons.mp hy with e | hy
          · rw [e]; exact ⟨hk1, by omega, by omega, hk3⟩
          · have := ((hrows cur hk1 hk2).2.2.2.2 y).mp hy
            exact ⟨this.1, by omega, by omega, this.2.2.2.trans hk3⟩
        · rintro ⟨h1, h2, h3, h4⟩
          have hylt : y < m.nodes := by omega
          rw [hrowlt y hylt] at h4
          by_cases e : y = cur
          · rw [e]; exact List.mem_cons_self _ _
          · exact List.mem_cons_of_mem _
              (((hrows cur hk1 hk2).2.2.2.2 y).mpr ⟨h1, hylt, e, h4.trans hk3.symm⟩)
    · have hxlt : x < m.nodes := by omega
      obtain ⟨g0, g1, g2, g3, g4⟩ := hrows x hx.1 hxlt
      obtain ⟨q1, q2, q3⟩ := hring x hx.1 hxlt
      by_cases hxr : nth m.row x = r
      · -- a cell of the row
        have hcurx : cur ∈ x :: mt x := by
          by_cases e : cur = x
          · rw [e]; exact List.mem_cons_self _ _
          · exact List.mem_cons_of_mem _ ((g4 cur).mpr ⟨hk1, hk2, e, hk3.trans hxr.symm⟩)
        obtain ⟨⟨xs1, k1, k2, k3, _⟩, _⟩ := ring_insert m.right m.left x (mt x) cur m.nodes
          (nth m.right cur) rfl q1 hrr hll q3 q2 hcurx
        refine ⟨xs1, fun _ _ => ⟨?_, k1.1, k1.2, (List.nodup_cons.mp k2).2, ?_⟩⟩
        · rw [hcollt x hxlt]; exact g0
        · intro y
          rw [k3 y, hrowlt x hxlt]
          constructor
          · rintro (e | hy)
            · rw [e, hrownew]; exact ⟨by omega, by omega, by omega, hxr.symm⟩
            · have := (g4 y).mp hy
              rw [hrowlt y this.2.1]
              exact ⟨this.1, by omega, this.2.2.1, this.2.2.2⟩
          · rintro ⟨h1, h2, h3, h4⟩
            by_cases e : y = m.nodes
            · exact Or.inl e
            · have hylt : y < m.nodes := by omega
              rw [hrowlt y hylt] at h4
              exact Or.inr ((g4 y).mpr ⟨h1, hylt, h3, h4⟩)
      · -- a cell of another row
        have hzrow : ∀ z ∈ x :: mt x, nth m.row z = nth m.row x := by
          intro z hz
          rcases List.mem_cons.mp hz with e | hz
          · rw [e]
          · exact ((g4 z).mp hz).2.2.2
        have hfr : ∀ z ∈ x :: mt x,
            nth ((m.right ++ [nth m.right cur]).set cur m.nodes) z = nth m.right z ∧
            nth ((m.left ++ [cur]).set (nth m.right cur) m.nodes) z = nth m.left z := by
          intro z hz
          have hzl := q3 z hz
          have hzr := hzrow z hz
          constructor
          · rw [nth_set_ne _ _ _ _ (fun (e : z = cur) => hxr (by rw [← hzr, e]; exact hk3)),
              nth_append_lt _ _ _ (by rw [hrr]; exact hzl)]
          · rw [nth_set_ne _ _ _ _
                (fun (e : z = nth m.right cur) => hxr (by rw [← hzr, e]; exact hvrow)),
              nth_append_lt _ _ _ (by rw [hll]; exact hzl)]
        have hcy := cyc_frame m.right m.left _ _ (x :: mt x) hfr q1
        refine ⟨mt x, fun _ _ => ⟨?_, hcy.1, hcy.2, g3, ?_⟩⟩
        · rw [hcollt x hxlt]; exact g0
        · intro y
          rw [g4 y, hrowlt x hxlt]
          constructor
          · rintro ⟨h1, h2, h3, h4⟩
            rw [hrowlt y h2]
            exact ⟨h1, by omega, h3, h4⟩
          · rintro ⟨h1, h2, h3, h4⟩
            by_cases e : y = m.nodes
            · rw [e, hrownew] at h4
              exact absurd h4.symm hxr
            · have hylt : y < m.nodes := by omega
              rw [hrowlt y hylt] at h4
              exact ⟨h1, hylt, h3, h4⟩
  choose mt1 hmt1 using key
  have hn1 : m1.nodes = m.nodes + 1 := by
    unfold DancingMatrix.nodes; rw [hcol]; simp
  refine ⟨mt1, ?_⟩
  unfold RowsGood
  rw [hn1, hleft, hright, hcol, hrow, hC]
  refine ⟨⟨?_, ?_⟩, ?_⟩
  · simp [hll]
  · simp [hrr]
  · intro x h1 h2
    exact hmt1 x h1 h2

/-- The horizontal lists after `insert` has made the new node the only cell of its row. -/
theorem rgood_insert_none (m m1 : DancingMatrix) (mt : Nat → List Nat) (r c : Nat)
    (hR : RowsGood m mt) (hrl : m.row.length = m.nodes) (hc1 : 1 ≤ c) (hc2 : c ≤ m.COLS)
    (hno : ∀ x, m.COLS < x → x < m.nodes → nth m.row x ≠ r)
    (hleft : m1.left = m.left ++ [m.nodes]) (hright : m1.right = m.right ++ [m.nodes])
    (hcol : m1.col = m.col ++ [c]) (hrow : m1.row = m.row ++ [r]) (hC : m1.COLS = m.COLS) :
    ∃ mt1, RowsGood m1 mt1 := by
  obtain ⟨⟨hll, hrr⟩, hrows⟩ := hR
  have hcl : m.col.length = m.nodes := rfl
  have hrowlt : ∀ y, y < m.nodes → nth (m.row ++ [r]) y = nth m.row y :=
    fun y hy => nth_append_lt _ _ _ (by rw [hrl]; exact hy)
  have hrownew : nth (m.row ++ [r]) m.nodes = r := by rw [← hrl]; exact nth_append_eq _ _
  have hn1 : m1.nodes = m.nodes + 1 := by
    unfold DancingMatrix.nodes; rw [hcol]; simp
  refine ⟨fun x => if x = m.nodes then [] else mt x, ?_⟩
  unfold RowsGood
  rw [hn1, hleft, hright, hcol, hrow, hC]
  refine ⟨⟨by simp [hll], by simp [hrr]⟩, ?_⟩
  intro x h1 h2
  by_cases hxn : x = m.nodes
  · subst hxn
    simp only [if_true]
    refine ⟨?_, ?_, ?_, List.nodup_nil, ?_⟩
    · have : nth (m.col ++ [c]) m.nodes = c := nth_append_eq _ _
      rw [this]; exact ⟨hc1, hc2⟩
    · show nth (m.right ++ [m.nodes]) m.nodes = m.nodes
      rw [← hrr]; exact nth_append_eq _ _
    · show nth (m.left ++ [m.nodes]) m.nodes = m.nodes
      rw [← hll]; exact nth_append_eq _ _
    · intro y
      simp only [List.not_mem_nil, false_iff, not_and]
      intro g1 g2 g3 g4
      have hylt : y < m.nodes := by omega
      rw [hrownew, hrowlt y hylt] at g4
      exact hno y g1 hylt g4
  · have hxlt : x < m.nodes := by omega
    simp only [if_neg hxn]
    obtain ⟨g0, g1, g2, g3, g4⟩ := hrows x h1 hxlt
    have hzl : ∀ z ∈ x :: mt x, z < m.nodes := by
      intro z hz
      rcases List.mem_cons.mp hz with e | hz
      · omega
      · exact ((g4 z).mp hz).2.1
    refine ⟨?_, ?_, ?_, g3, ?_⟩
    · rw [nth_append_lt _ _ _ hxlt]; exact g0
    · apply chain_frame m.right _ (mt x) x x _ g1
      intro z hz
      exact nth_append_lt _ _ _ (by rw [hrr]; exact hzl z hz)
    · apply chain_frame m.left _ (mt x).reverse x x _ g2
      intro z hz
      apply nth_append_lt _ _ _
      rw [hll]
      apply hzl
      rcases List.mem_cons.mp hz with e | hz
      · simp [e]
      · exact List.mem_cons_of_mem _ (List.mem_reverse.mp hz)
    · intro y
      rw [g4 y, hrowlt x hxlt]
      constructor
      · rintro ⟨q1, q2, q3, q4⟩
        rw [hrowlt y q2]
        exact ⟨q1, by omega, q3, q4⟩
      · rintro ⟨q1, q2, q3, q4⟩
        by_cases e : y = m.nodes
        · rw [e, hrownew] at q4
          exact absurd q4.symm (hno x h1 hxlt)
        · have hylt : y < m.nodes := by omega
          rw [hrowlt y hylt] at q4
          exact ⟨q1, hylt, q3, q4⟩

/-- What a call of `insert` that returns has written. -/
theorem insert_fields (m m1 : DancingMatrix) (r c : Nat) (h : m.insert r c = some m1) :
    ∃ cur, insertSeekDown m r c m.fuel c = some cur ∧
      m1.up = (m.up ++ [cur]).set (nth m.down cur) m.nodes ∧
      m1.down = (m.down ++ [nth m.down cur]).set cur m.nodes ∧
      m1.col = m.col ++ [c] ∧ m1.row = m.row ++ [r] ∧
      m1.size = m.size.set c (nthI m.size c + 1) ∧
      m1 = { m with left := m1.left, right := m1.right, up := m1.up, down := m1.down,
                    col := m1.col, row := m1.row, size := m1.size, rowSize := m1.rowSize,
                    rowRight := m1.rowRight } ∧
      ((m.rowRight.getD r none = none ∧ m1.left = m.left ++ [m.nodes] ∧
          m1.right = m.right ++ [m.nodes] ∧ m1.rowRight = m.rowRight.set r (some m.nodes)) ∨
       (∃ rowHead cur2, m.rowRight.getD r none = some rowHead ∧
          insertSeekRight m rowHead c m.fuel rowHead = some cur2 ∧
          m1.left = (m.left ++ [cur2]).set (nth m.right cur2) m.nodes ∧
          m1.right = (m.right ++ [nth m.right cur2]).set cur2 m.nodes ∧
          m1.rowRight = m.rowRight)) := by
  unfold DancingMatrix.insert at h
  split_ifs at h with hg
  cases hsd : insertSeekDown m r c m.fuel c with
  | none => rw [hsd] at h; cases h
  | some cur =>
    rw [hsd] at h
    simp only [] at h
    cases hrr : m.rowRight.getD r none with
    | none =>
      rw [hrr] at h
      simp only [Option.some.injEq] at h
      subst h
      exact ⟨cur, rfl, rfl, rfl, rfl, rfl, rfl, rfl, Or.inl ⟨rfl, rfl, rfl, rfl⟩⟩
    | some rowHead =>
      rw [hrr] at h
      simp only [] at h
      cases hsr : insertSeekRight m rowHead c m.fuel rowHead with
      | none => rw [hsr] at h; cases h
      | some cur2 =>
        rw [hsr] at h
        simp only [Option.some.injEq] at h
        subst h
        exact ⟨cur, rfl, rfl, rfl, rfl, rfl, rfl, rfl, Or.inr ⟨rowHead, cur2, rfl, hsr, rfl, rfl, rfl⟩⟩

theorem insert_some (m : DancingMatrix) (r c cur : Nat) (hr : r < m.ROWS) (hc : c ≤ m.COLS)
    (hsd : insertSeekDown m r c m.fuel c = some cur)
    (hrow : m.rowRight.getD r none = none ∨
      ∃ rowHead cur2, m.rowRight.getD r none = some rowHead ∧
        insertSeekRight m rowHead c m.fuel rowHead = some cur2) :
    ∃ m1, m.insert r c = some m1 := by
  unfold DancingMatrix.insert
  rw [if_pos ⟨hr, hc⟩, hsd]
  simp only []
  rcases hrow with h | ⟨rowHead, cur2, h1, h2⟩
  · rw [h]; exact ⟨_, rfl⟩
  · rw [h1]; simp only []; rw [h2]; exact ⟨_, rfl⟩

theorem getD_set_option (l : List (Option Nat)) (i j : Nat) (v : Option Nat) :
    (l.set i v).getD j none = if j = i ∧ i < l.length then v else l.getD j none := by
  simp only [List.getD_eq_getElem?_getD, List.getElem?_set]
  by_cases h : i = j
  · subst h
    by_cases h2 : i < l.length
    · simp [h2]
    · simp [h2]
      have : l[i]? = none := by simp; omega
      simp [this]
  · have h' : ¬ j = i := fun e => h e.symm
    simp [h, h']

/-- A call `insert(r, c)` with `r < ROWS` and `1 ≤ c ≤ COLS` on a matrix under
construction returns and keeps the invariant of the construction. -/
theorem insert_built (m : DancingMatrix) (rg mt : Nat → List Nat) (r c : Nat)
    (hB : Built m rg mt) (hr : r < m.ROWS) (hc1 : 1 ≤ c) (hc2 : c ≤ m.COLS) :
    ∃ m1 rg1 mt1, m.insert r c = some m1 ∧ Built m1 rg1 mt1 := by
  obtain ⟨hH, hV, hR, hF, hL, hS, hHd, hhdr⟩ := hB
  have hcn : m.COLS + 1 ≤ m.nodes := hV.1.2.2
  obtain ⟨hD, hU, hnd, hmem⟩ := hV.2 c hc1 hc2
  have hfuel : ∀ l : List Nat, l.Nodup → (∀ x ∈ l, x < m.nodes) → l.length < m.fuel := by
    intro l h1 h2
    have := nodup_bounded_length m.nodes l h1 h2
    unfold DancingMatrix.fuel; unfold DancingMatrix.nodes at this; omega
  obtain ⟨cur, hsd, hcur⟩ := insertSeekDown_spec m r c (rg c) c m.fuel hD
    (hfuel _ hnd (fun x hx => (hmem x hx).2.1))
  have hrowcase : m.rowRight.getD r none = none ∨
      ∃ rowHead cur2, m.rowRight.getD r none = some rowHead ∧
        insertSeekRight m rowHead c m.fuel rowHead = some cur2 := by
    cases hrr : m.rowRight.getD r none with
    | none => exact Or.inl rfl
    | some rowHead =>
      right
      obtain ⟨g1, g2, _⟩ := (hHd r hr).2 rowHead hrr
      obtain ⟨_, q1, _, q3, q4⟩ := hR.2 rowHead g1 g2
      obtain ⟨cur2, hsr, _⟩ := insertSeekRight_spec m rowHead c (mt rowHead) rowHead m.fuel q1
        (hfuel _ q3 (fun x hx => ((q4 x).mp hx).2.1))
      exact ⟨rowHead, cur2, rfl, hsr⟩
  obtain ⟨m1, hins⟩ := insert_some m r c cur hr hc2 hsd hrowcase
  obtain ⟨cur0, e0, eup, edown, ecol, erow, esize, etouch, ecase⟩ := insert_fields m m1 r c hins
  have ecur : cur0 = cur := Option.some.inj (e0.symm.trans hsd)
  subst ecur
  have hC : m1.COLS = m.COLS := by rw [etouch]
  have hRw : m1.ROWS = m.ROWS := by rw [etouch]
  have hn1 : m1.nodes = m.nodes + 1 := by
    unfold DancingMatrix.nodes; rw [ecol]; simp
  obtain ⟨xs1, hV1, hx1, hx2⟩ := vgood_insert m m1 rg c cur0 hV hc1 hc2 hcur eup edown ecol hC
  have hrowlt : ∀ y, y < m.nodes → nth m1.row y = nth m.row y := by
    intro y hy; rw [erow]; exact nth_append_lt _ _ _ (by rw [hL.1]; exact hy)
  have hrownew : nth m1.row m.nodes = r := by rw [erow, ← hL.1]; exact nth_append_eq _ _
  have hcollt : ∀ y, y < m.nodes → nth m1.col y = nth m.col y := by
    intro y hy; rw [ecol]; exact nth_append_lt _ _ _ hy
  have hcolnew : nth m1.col m.nodes = c := by rw [ecol]; exact nth_append_eq _ _
  -- the rows and the root list
  have hrowpart : (∃ mt1, RowsGood m1 mt1) ∧ HGood m1 (List.range' 1 m1.COLS) ∧
      m1.rowRight.length = m1.ROWS ∧
      ∀ r1, r1 < m1.ROWS →
        (m1.rowRight.getD r1 none = none → ∀ x, m1.COLS < x → x < m1.nodes → nth m1.row x ≠ r1) ∧
        (∀ h, m1.rowRight.getD r1 none = some h → m1.COLS < h ∧ h < m1.nodes ∧ nth m1.row h = r1) := by
    rw [hC, hRw, hn1]
    rcases ecase with ⟨c1, c2, c3, c4⟩ | ⟨rowHead, cur2, c1, c2, c3, c4, c5⟩
    · have hno := (hHd r hr).1 c1
      refine ⟨rgood_insert_none m m1 mt r c hR hL.1 hc1 hc2 hno c2 c3 ecol erow hC, ?_, ?_, ?_⟩
      · apply hgood_frame m m1 _ hH hC
        intro z hz
        rw [c2, c3]
        exact ⟨nth_append_lt _ _ _ (by rw [hR.1.1]; omega),
          nth_append_lt _ _ _ (by rw [hR.1.2]; omega)⟩
      · rw [c4]; simp [hL.2.2]
      · intro r1 hr1
        rw [c4, getD_set_option]
        by_cases e : r1 = r
        · subst e
          rw [if_pos ⟨rfl, by rw [hL.2.2]; exact hr⟩]
          refine ⟨fun h => Option.noConfusion h, ?_⟩
          intro h hh
          injection hh with hh
          subst hh
          exact ⟨by omega, by omega, hrownew⟩
        · rw [if_neg (fun h => e h.1)]
          obtain ⟨g1, g2⟩ := hHd r1 hr1
          refine ⟨?_, ?_⟩
          · intro hnone x hx1 hx2
            by_cases hxn : x = m.nodes
            · rw [hxn, hrownew]; exact fun h => e h.symm
            · rw [hrowlt x (by omega)]; exact g1 hnone x hx1 (by omega)
          · intro h hh
            obtain ⟨q1, q2, q3⟩ := g2 h hh
            exact ⟨q1, by omega, by rw [hrowlt h q2]; exact q3⟩
    · obtain ⟨g1, g2, g3⟩ := (hHd r hr).2 rowHead c1
      obtain ⟨_, q1, _, q3, q4⟩ := hR.2 rowHead g1 g2
      obtain ⟨cur2b, hsr, hcur2⟩ := insertSeekRight_spec m rowHead c (mt rowHead) rowHead m.fuel q1
        (hfuel _ q3 (fun x hx => ((q4 x).mp hx).2.1))
      have e2 : cur2b = cur2 := Option.some.inj (hsr.symm.trans c2)
      subst e2
      have hcell : m.COLS < cur2b ∧ cur2b < m.nodes ∧ nth m.row cur2b = r := by
        rcases List.mem_cons.mp hcur2 with e | h
        · rw [e]; exact ⟨g1, g2, g3⟩
        · have := (q4 _).mp h
          exact ⟨this.1, this.2.1, this.2.2.2.trans g3⟩
      have hnext : nth m.right cur2b ∈ cur2b :: mt cur2b :=
        chain_next_mem m.right (mt cur2b) cur2b cur2b cur2b (hR.2 cur2b hcell.1 hcell.2.1).2.1
          (List.mem_cons_self _ _)
      have hnextc : m.COLS < nth m.right cur2b := by
        rcases List.mem_cons.mp hnext with e | h
        · rw [e]; exact hcell.1
        · exact (((hR.2 cur2b hcell.1 hcell.2.1).2.2.2.2 _).mp h).1
      refine ⟨rgood_insert_some m m1 mt r c cur2b hR hL.1 hc1 hc2 hcell.1 hcell.2.1 hcell.2.2
          c3 c4 ecol erow hC, ?_, ?_, ?_⟩
      · apply hgood_frame m m1 _ hH hC
        intro z hz
        rw [c3, c4]
        constructor
        · rw [nth_set_ne _ _ _ _ (by omega), nth_append_lt _ _ _ (by rw [hR.1.1]; omega)]
        · rw [nth_set_ne _ _ _ _ (by omega), nth_append_lt _ _ _ (by rw [hR.1.2]; omega)]
      · rw [c5]; exact hL.2.2
      · intro r1 hr1
        rw [c5]
        obtain ⟨k1, k2⟩ := hHd r1 hr1
        refine ⟨?_, ?_⟩
        · intro hnone x hx1 hx2
          by_cases hxn : x = m.nodes
          · rw [hxn, hrownew]
            intro e
            rw [e, hnone] at c1
            cases c1
          · rw [hrowlt x (by omega)]; exact k1 hnone x hx1 (by omega)
        · intro h hh
          obtain ⟨p1, p2, p3⟩ := k2 h hh
          exact ⟨p1, by omega, by rw [hrowlt h p2]; exact p3⟩
  obtain ⟨⟨mt1, hR1⟩, hH1, hlen1, hheads1⟩ := hrowpart
  refine ⟨m1, fun k => if k = c then xs1 else rg k, mt1, hins, hH1, hV1, hR1, ?_, ⟨?_, ?_, hlen1⟩,
    ?_, hheads1, ?_⟩
  · intro x h1 h2
    rw [hC] at h1; rw [hn1] at h2
    by_cases hxn : x = m.nodes
    · rw [hxn, hcolnew]
      simp only [if_true]
      exact (hx1 _).mpr (Or.inl rfl)
    · have hxlt : x < m.nodes := by omega
      rw [hcollt x hxlt]
      by_cases hk : nth m.col x = c
      · rw [if_pos hk]
        exact (hx1 _).mpr (Or.inr (hk ▸ hF x h1 hxlt))
      · rw [if_neg hk]; exact hF x h1 hxlt
  · rw [erow, hn1]; simp [hL.1]
  · rw [esize, hC]; simp [hL.2.1]
  · intro k hk1 hk2
    rw [hC] at hk2
    rw [esize, nthI_set]
    by_cases hk : k = c
    · subst hk
      rw [if_pos ⟨rfl, by rw [hL.2.1]; omega⟩]
      simp only [if_true]
      rw [hx2, hS k hk1 hk2]
      push_cast; ring
    · rw [if_neg (fun h => hk h.1)]
      simp only [if_neg hk]
      exact hS k hk1 hk2
  · intro k hk
    rw [hC] at hk
    rw [hcollt k (by omega)]
    exact hhdr k hk

/-! # The column sizes under `cover` -/

theorem filter_ne_length (l : List Nat) (y : Nat) (hnd : l.Nodup) (hy : y ∈ l) :
    (l.filter (fun z => decide (z ≠ y))).length + 1 = l.length := by
  obtain ⟨pre, post, rfl⟩ := List.append_of_mem hy
  rw [filter_ne_split pre post y hnd]
  simp
  omega

theorem sizegood_unlinkV (m : DancingMatrix) (rg : Nat → List Nat) (y : Nat) (hV : VGood m rg)
    (hS : SizeGood m rg) (hc : 1 ≤ nth m.col y ∧ nth m.col y ≤ m.COLS)
    (hy : y ∈ rg (nth m.col y)) :
    SizeGood (m.unlinkV y) (fun k => (rg k).filter (fun z => decide (z ≠ y))) := by
  obtain ⟨hl, hs⟩ := hS
  have hsz : (m.unlinkV y).size = m.size.set (nth m.col y) (nthI m.size (nth m.col y) - 1) := rfl
  refine ⟨by rw [hsz]; simpa using hl, ?_⟩
  intro k hk1 hk2
  have hk2 : k ≤ m.COLS := hk2
  rw [hsz, nthI_set]
  have hring := hV.2 _ hc.1 hc.2
  by_cases hkc : k = nth m.col y
  · subst hkc
    rw [if_pos ⟨rfl, by omega⟩, hs _ hk1 hk2]
    have := filter_ne_length _ y hring.2.2.1 hy
    show _ = (((rg (nth m.col y)).filter (fun z => decide (z ≠ y))).length : Int)
    omega
  · rw [if_neg (fun h => hkc h.1), hs k hk1 hk2]
    have hrk := hV.2 k hk1 hk2
    have hynot : y ∉ rg k := fun hm => hkc ((hrk.2.2.2 y hm).2.2).symm
    have hfil : (rg k).filter (fun z => decide (z ≠ y)) = rg k := by
      apply List.filter_eq_self.mpr
      intro a ha; simp; intro e; exact hynot (e ▸ ha)
    show _ = (((rg k).filter (fun z => decide (z ≠ y))).length : Int)
    rw [hfil]

theorem foldl_unlinkV_size : ∀ (ys : List Nat) (m : DancingMatrix) (rg : Nat → List Nat),
    VGood m rg → SizeGood m rg →
    (∀ y ∈ ys, (1 ≤ nth m.col y ∧ nth m.col y ≤ m.COLS) ∧ y ∈ rg (nth m.col y)) → ys.Nodup →
    SizeGood (ys.foldl DancingMatrix.unlinkV m) (fun k => (rg k).filter (fun z => decide (z ∉ ys))) := by
  intro ys
  induction ys with
  | nil =>
    intro m rg _ h _ _
    have : (fun k => (rg k).filter (fun z => decide (z ∉ ([] : List Nat)))) = rg := by
      funext k; exact filter_not_mem_nil _
    rw [this]; exact h
  | cons y ys ih =>
    intro m rg hV hS hy hnd
    have hy0 := hy y (List.mem_cons_self _ _)
    obtain ⟨_, hg⟩ := vgood_unlinkV m rg y hV hy0.1 hy0.2
    have hs1 := sizegood_unlinkV m rg y hV hS hy0.1 hy0.2
    have hnd2 := List.nodup_cons.mp hnd
    have hys : ∀ z ∈ ys, (1 ≤ nth (m.unlinkV y).col z ∧ nth (m.unlinkV y).col z ≤ (m.unlinkV y).COLS) ∧
        z ∈ (fun k => (rg k).filter (fun z => decide (z ≠ y))) (nth (m.unlinkV y).col z) := by
      intro z hz
      have hz0 := hy z (List.mem_cons_of_mem _ hz)
      refine ⟨hz0.1, ?_⟩
      show z ∈ (rg (nth m.col z)).filter (fun z => decide (z ≠ y))
      rw [List.mem_filter]
      refine ⟨hz0.2, ?_⟩
      have : z ≠ y := fun e => hnd2.1 (e ▸ hz)
      simp [this]
    have g1 := ih (m.unlinkV y) _ hg hs1 hys hnd2.2
    have : (fun k => (rg k).filter (fun z => decide (z ∉ y :: ys))) =
        (fun k => ((fun k => (rg k).filter (fun z => decide (z ≠ y))) k).filter
          (fun z => decide (z ∉ ys))) := by
      funext k; exact (filter_filter_ne _ _ _).symm
    rw [this]; exact g1

/-- One turn of the column loop of `cover` at the live cell `x` of column `c`, with the
column sizes. -/
theorem coverLoop_turn_size (c : Nat) (mt : Nat → List Nat) (m : DancingMatrix)
    (rg : Nat → List Nat) (pre : List Nat) (x : Nat) (post : List Nat)
    (hV : VGood m rg) (hS : SizeGood m rg) (hR : RowsGood m mt) (hc1 : 1 ≤ c) (hc2 : c ≤ m.COLS)
    (hring : rg c = pre ++ x :: post)
    (hlive : ∀ z ∈ x :: post, ∀ y ∈ mt z, y ∈ rg (nth m.col y)) :
    ∃ m2 : DancingMatrix,
      (∀ f, coverLoop c (f + 1) m x = coverLoop c f m2 (nth m2.down x)) ∧
      VGood m2 (fun j => (rg j).filter (fun z => decide (z ∉ mt x))) ∧
      SizeGood m2 (fun j => (rg j).filter (fun z => decide (z ∉ mt x))) ∧
      RowsGood m2 mt ∧ (m2.col = m.col ∧ m2.COLS = m.COLS) ∧
      (∀ z ∈ post.filter (fun z => decide (z ∉ mt x)), ∀ y ∈ mt z,
        y ∈ (rg (nth m.col y)).filter (fun z => decide (z ∉ mt x))) := by
  have hVc : VRing m c (pre ++ x :: post) := hring ▸ hV.2 c hc1 hc2
  have hmemx : x ∈ pre ++ x :: post := List.mem_append_right _ (List.mem_cons_self _ _)
  have hx := hVc.2.2.2 x hmemx
  have hxc : x ≠ c := by omega
  have hRx := hR.2 x hx.1 hx.2.1
  have hxn : x ∉ mt x := fun h => ((hRx.2.2.2.2 x).mp h).2.2.1 rfl
  have hlen : (mt x).length < m.fuel := by
    have := nodup_bounded_length m.nodes (mt x) hRx.2.2.2.1
      (fun y hy => ((hRx.2.2.2.2 y).mp hy).2.1)
    unfold DancingMatrix.fuel; unfold DancingMatrix.nodes at this; omega
  have hcr := coverRow_eq x (mt x) x m m.fuel hRx.2.1 hxn hlen
  have hys : ∀ y ∈ mt x, (1 ≤ nth m.col y ∧ nth m.col y ≤ m.COLS) ∧ y ∈ rg (nth m.col y) := by
    intro y hy
    have hy1 := (hRx.2.2.2.2 y).mp hy
    exact ⟨(hR.2 y hy1.1 hy1.2.1).1, hlive x (List.mem_cons_self _ _) y hy⟩
  obtain ⟨hVM, _⟩ := foldl_unlinkV_roundtrip (mt x) m rg hV hys hRx.2.2.2.1
  have hSM := foldl_unlinkV_size (mt x) m rg hV hS hys hRx.2.2.2.1
  have hs := foldl_unlinkV_static (mt x) m
  have hpost : ∀ z ∈ post, (m.COLS < z ∧ z < m.nodes) ∧ z ≠ x := by
    intro z hz
    have hz1 := hVc.2.2.2 z (List.mem_append_right _ (List.mem_cons_of_mem _ hz))
    refine ⟨⟨hz1.1, hz1.2.1⟩, ?_⟩
    intro e
    have hnd := (List.nodup_append.mp hVc.2.2.1).2.1
    exact (List.nodup_cons.mp hnd).1 (e ▸ hz)
  refine ⟨{ (mt x).foldl DancingMatrix.unlinkV m with
      rowsSet := setErase (nth m.row x) m.rowsSet }, ?_, hVM, hSM, ?_, ?_, ?_⟩
  · intro f; exact coverLoop_step c x (mt x) m f hxc hcr
  · exact RowsGood_congr m _ mt hs.1 hs.2.1 hs.2.2.1 hs.2.2.2.1 hs.2.2.2.2.1 hR
  · exact ⟨hs.2.2.1, hs.2.2.2.2.1⟩
  · intro z hz y hy
    rw [mem_filter_not_mem] at hz ⊢
    refine ⟨hlive z (List.mem_cons_of_mem _ hz.1) y hy, ?_⟩
    intro hyx
    have hzc := hpost z hz.1
    have hzy : z ∈ mt y := mates_symm m mt hR z y hzc.1 hy
    rcases mates_trans m mt hR x y z ⟨hx.1, hx.2.1⟩ hyx hzy with e | h
    · exact hzc.2 e
    · exact hz.2 h

/-- The column loop of `cover(c)` entered at the live cell `x` of column `c` ends in a
state whose column sizes are the numbers of live cells. -/
theorem coverLoop_size (c : Nat) (mt : Nat → List Nat) :
    ∀ (n : Nat) (m : DancingMatrix) (rg : Nat → List Nat) (pre : List Nat) (x : Nat)
      (post : List Nat),
      post.length ≤ n → VGood m rg → SizeGood m rg → RowsGood m mt → 1 ≤ c → c ≤ m.COLS →
      rg c = pre ++ x :: post →
      (∀ z ∈ x :: post, ∀ y ∈ mt z, y ∈ rg (nth m.col y)) →
      ∃ (m1 : DancingMatrix) (rg1 : Nat → List Nat),
        (∀ f, post.length + 2 ≤ f → coverLoop c f m x = some m1) ∧
        VGood m1 rg1 ∧ SizeGood m1 rg1 := by
  intro n
  induction n with
  | zero =>
    intro m rg pre x post hn hV hS hR hc1 hc2 hring hlive
    have hp0 : post = [] := List.length_eq_zero.mp (Nat.le_zero.mp hn)
    subst hp0
    obtain ⟨m2, t1, t3, t3s, _, t5, _⟩ :=
      coverLoop_turn_size c mt m rg pre x [] hV hS hR hc1 hc2 hring hlive
    have hVc : VRing m c (pre ++ x :: []) := hring ▸ hV.2 c hc1 hc2
    have hx := hVc.2.2.2 x (List.mem_append_right _ (List.mem_cons_self _ _))
    have hRx := hR.2 x hx.1 hx.2.1
    have hxn : x ∉ mt x := fun h => ((hRx.2.2.2.2 x).mp h).2.2.1 rfl
    have hr2 : VRing m2 c (pre.filter (fun z => decide (z ∉ mt x)) ++ x :: []) := by
      have := t3.2 c hc1 (by rw [t5.2]; exact hc2)
      simp only [hring, filter_ring pre [] (mt x) x hxn] at this
      exact this
    have hdown : nth m2.down x = c := (vring_ptr m2 c x _ [] hr2).1
    refine ⟨m2, _, ?_, t3, t3s⟩
    intro f hf
    obtain ⟨f1, rfl⟩ : ∃ f1, f = f1 + 1 + 1 := ⟨f - 2, by simp at hf; omega⟩
    rw [t1, hdown]
    simp [coverLoop]
  | succ n ih =>
    intro m rg pre x post hn hV hS hR hc1 hc2 hring hlive
    obtain ⟨m2, t1, t3, t3s, t4, t5, t6⟩ :=
      coverLoop_turn_size c mt m rg pre x post hV hS hR hc1 hc2 hring hlive
    have hVc : VRing m c (pre ++ x :: post) := hring ▸ hV.2 c hc1 hc2
    have hx := hVc.2.2.2 x (List.mem_append_right _ (List.mem_cons_self _ _))
    have hRx := hR.2 x hx.1 hx.2.1
    have hxn : x ∉ mt x := fun h => ((hRx.2.2.2.2 x).mp h).2.2.1 rfl
    have hc2b : c ≤ m2.COLS := by rw [t5.2]; exact hc2
    rcases hp : post.filter (fun z => decide (z ∉ mt x)) with _ | ⟨x2, post3⟩
    · have hr2 : VRing m2 c (pre.filter (fun z => decide (z ∉ mt x)) ++ x :: []) := by
        have := t3.2 c hc1 hc2b
        simp only [hring, filter_ring pre post (mt x) x hxn, hp] at this
        exact this
      have hdown : nth m2.down x = c := (vring_ptr m2 c x _ [] hr2).1
      refine ⟨m2, _, ?_, t3, t3s⟩
      intro f hf
      obtain ⟨f1, rfl⟩ : ∃ f1, f = f1 + 1 + 1 := ⟨f - 2, by omega⟩
      rw [t1, hdown]
      simp [coverLoop]
    · have hring2 : (fun j => (rg j).filter (fun z => decide (z ∉ mt x))) c =
          (pre.filter (fun z => decide (z ∉ mt x)) ++ [x]) ++ x2 :: post3 := by
        show (rg c).filter (fun z => decide (z ∉ mt x)) = _
        rw [hring, filter_ring pre post (mt x) x hxn, hp]; simp
      have hr2b : VRing m2 c (pre.filter (fun z => decide (z ∉ mt x)) ++ x :: (x2 :: post3)) := by
        have := t3.2 c hc1 hc2b
        rw [hring2, List.append_assoc] at this
        exact this
      have hdown : nth m2.down x = x2 := (vring_ptr m2 c x _ _ hr2b).1
      have hlen3 : post3.length + 1 ≤ post.length := by
        have := List.length_filter_le (fun z => decide (z ∉ mt x)) post
        rw [hp] at this; simpa using this
      obtain ⟨m1, rg1, i1, i2, i3⟩ :=
        ih m2 _ (pre.filter (fun z => decide (z ∉ mt x)) ++ [x]) x2 post3 (by omega) t3 t3s t4 hc1
          hc2b hring2
          (by intro z hz y hy
              rw [t5.1]
              exact t6 z (by rw [hp]; exact hz) y hy)
      refine ⟨m1, rg1, ?_, i2, i3⟩
      intro f hf
      obtain ⟨f1, rfl⟩ : ∃ f1, f = f1 + 1 := ⟨f - 1, by omega⟩
      rw [t1, hdown]
      exact i1 f1 (by omega)

theorem vring_unique (m : DancingMatrix) (k : Nat) (xs ys : List Nat) (h1 : VRing m k xs)
    (h2 : VRing m k ys) (hk : k ≤ m.COLS) : xs = ys := by
  have hx : k ∉ xs := fun h => by have := (h1.2.2.2 k h).1; omega
  have hy : k ∉ ys := fun h => by have := (h2.2.2.2 k h).1; omega
  have w1 := (walk_iff m.down k xs k (xs.length + ys.length + 1)).mpr ⟨h1.1, hx, by omega⟩
  have w2 := (walk_iff m.down k ys k (xs.length + ys.length + 1)).mpr ⟨h2.1, hy, by omega⟩
  exact Option.some.inj (w1.symm.trans w2)

theorem sizegood_of_vgood (m : DancingMatrix) (rg rg1 : Nat → List Nat) (hV : VGood m rg)
    (hV1 : VGood m rg1) (hS : SizeGood m rg) : SizeGood m rg1 := by
  refine ⟨hS.1, ?_⟩
  intro k hk1 hk2
  rw [hS.2 k hk1 hk2, vring_unique m k _ _ (hV.2 k hk1 hk2) (hV1.2 k hk1 hk2) hk2]

/-- The column loop of `cover(c)` run from the header keeps the column sizes equal to
the numbers of live cells. -/
theorem coverLoop_sizes (c : Nat) (mt : Nat → List Nat) (m : DancingMatrix)
    (rg : Nat → List Nat) (hV : VGood m rg) (hS : SizeGood m rg) (hR : RowsGood m mt)
    (hc1 : 1 ≤ c) (hc2 : c ≤ m.COLS)
    (hlive : ∀ z ∈ rg c, ∀ y ∈ mt z, y ∈ rg (nth m.col y))
    (m1 : DancingMatrix) (rg1 : Nat → List Nat)
    (h : coverLoop c m.fuel m (nth m.down c) = some m1) (hV1 : VGood m1 rg1) :
    SizeGood m1 rg1 := by
  have hVc : VRing m c (rg c) := hV.2 c hc1 hc2
  rcases hrg : rg c with _ | ⟨x, post⟩
  · rw [hrg] at hVc
    have hd : nth m.down c = c := (vring_ends m c [] hVc).1
    rw [hd] at h
    simp [coverLoop, DancingMatrix.fuel] at h
    subst h
    exact sizegood_of_vgood m rg rg1 hV hV1 hS
  · rw [hrg] at hVc hlive
    have hlen : (x :: post).length ≤ m.nodes :=
      nodup_bounded_length m.nodes _ hVc.2.2.1 (fun z hz => (hVc.2.2.2 z hz).2.1)
    obtain ⟨m2, rg2, i1, i2, i3⟩ :=
      coverLoop_size c mt post.length m rg [] x post (Nat.le_refl _) hV hS hR hc1 hc2
        (by rw [hrg]; rfl) hlive
    have hd : nth m.down c = x := (vring_ends m c _ hVc).1
    rw [hd, i1 m.fuel (by simp at hlen; unfold DancingMatrix.fuel; unfold DancingMatrix.nodes at hlen; omega)] at h
    injection h with h
    subst h
    exact sizegood_of_vgood _ rg2 rg1 i2 hV1 i3

/-! # The bookkeeping fields do not steer the links -/

theorem sameLinks_refl (a : DancingMatrix) : SameLinks a a :=
  ⟨rfl, rfl, rfl, rfl, rfl, rfl, rfl, rfl, rfl, rfl⟩

theorem sameLinks_symm (a b : DancingMatrix) (h : SameLinks a b) : SameLinks b a :=
  ⟨h.1.symm, h.2.1.symm, h.2.2.1.symm, h.2.2.2.1.symm, h.2.2.2.2.1.symm, h.2.2.2.2.2.1.symm,
    h.2.2.2.2.2.2.1.symm, h.2.2.2.2.2.2.2.1.symm, h.2.2.2.2.2.2.2.2.1.symm,
    h.2.2.2.2.2.2.2.2.2.symm⟩

theorem sameLinks_trans (a b c : DancingMatrix) (h : SameLinks a b) (g : SameLinks b c) :
    SameLinks a c :=
  ⟨h.1.trans g.1, h.2.1.trans g.2.1, h.2.2.1.trans g.2.2.1, h.2.2.2.1.trans g.2.2.2.1,
    h.2.2.2.2.1.trans g.2.2.2.2.1, h.2.2.2.2.2.1.trans g.2.2.2.2.2.1,
    h.2.2.2.2.2.2.1.trans g.2.2.2.2.2.2.1, h.2.2.2.2.2.2.2.1.trans g.2.2.2.2.2.2.2.1,
    h.2.2.2.2.2.2.2.2.1.trans g.2.2.2.2.2.2.2.2.1, h.2.2.2.2.2.2.2.2.2.trans g.2.2.2.2.2.2.2.2.2⟩

theorem sameLinks_fuel (a b : DancingMatrix) (h : SameLinks a b) : a.fuel = b.fuel := by
  unfold DancingMatrix.fuel; rw [h.2.2.2.2.1]

theorem unlinkV_same (a b : DancingMatrix) (y : Nat) (h : SameLinks a b) :
    SameLinks (a.unlinkV y) (b.unlinkV y) := by
  obtain ⟨e1, e2, e3, e4, e5, e6, e7, e8, e9, e10⟩ := h
  unfold SameLinks DancingMatrix.unlinkV
  simp only [e1, e2, e3, e4, e5, e6, e7, e8, e9, e10, and_self]

theorem relinkV_same (a b : DancingMatrix) (y : Nat) (h : SameLinks a b) :
    SameLinks (a.relinkV y) (b.relinkV y) := by
  obtain ⟨e1, e2, e3, e4, e5, e6, e7, e8, e9, e10⟩ := h
  unfold SameLinks DancingMatrix.relinkV
  simp only [e1, e2, e3, e4, e5, e6, e7, e8, e9, e10, and_self]

theorem unlinkH_same (a b : DancingMatrix) (c : Nat) (h : SameLinks a b) :
    SameLinks (a.unlinkH c) (b.unlinkH c) := by
  obtain ⟨e1, e2, e3, e4, e5, e6, e7, e8, e9, e10⟩ := h
  unfold SameLinks DancingMatrix.unlinkH
  simp only [e1, e2, e3, e4, e5, e6, e7, e8, e9, e10, and_self]

theorem relinkH_same (a b : DancingMatrix) (c : Nat) (h : SameLinks a b) :
    SameLinks (a.relinkH c) (b.relinkH c) := by
  obtain ⟨e1, e2, e3, e4, e5, e6, e7, e8, e9, e10⟩ := h
  unfold SameLinks DancingMatrix.relinkH
  simp only [e1, e2, e3, e4, e5, e6, e7, e8, e9, e10, and_self]

theorem coverRow_same (x : Nat) : ∀ (f : Nat) (a b : DancingMatrix) (y : Nat) (b1 : DancingMatrix),
    SameLinks a b → coverRow x f b y = some b1 →
    ∃ a1, coverRow x f a y = some a1 ∧ SameLinks a1 b1 := by
  intro f
  induction f with
  | zero => intro a b y b1 _ h; simp [coverRow] at h
  | succ f ih =>
    intro a b y b1 hs h
    simp only [coverRow] at h ⊢
    by_cases hy : y = x
    · rw [if_pos hy] at h ⊢
      injection h with h
      subst h
      exact ⟨a, rfl, hs⟩
    · rw [if_neg hy] at h ⊢
      have hs1 := unlinkV_same a b y hs
      have e : nth (a.unlinkV y).right y = nth (b.unlinkV y).right y := by rw [hs1.2.1]
      rw [e]
      exact ih _ _ _ b1 hs1 h

theorem uncoverRow_same (x : Nat) : ∀ (f : Nat) (a b : DancingMatrix) (y : Nat) (b1 : DancingMatrix),
    SameLinks a b → uncoverRow x f b y = some b1 →
    ∃ a1, uncoverRow x f a y = some a1 ∧ SameLinks a1 b1 := by
  intro f
  induction f with
  | zero => intro a b y b1 _ h; simp [uncoverRow] at h
  | succ f ih =>
    intro a b y b1 hs h
    simp only [uncoverRow] at h ⊢
    by_cases hy : y = x
    · rw [if_pos hy] at h ⊢
      injection h with h
      subst h
      exact ⟨a, rfl, hs⟩
    · rw [if_neg hy] at h ⊢
      have hs1 := relinkV_same a b y hs
      have e : nth (a.relinkV y).left y = nth (b.relinkV y).left y := by rw [hs1.1]
      rw [e]
      exact ih _ _ _ b1 hs1 h

theorem sameLinks_rowsSet (a b : DancingMatrix) (s t : List Nat) (h : SameLinks a b) :
    SameLinks { a with rowsSet := s } { b with rowsSet := t } := h

theorem coverLoop_same (c : Nat) : ∀ (f : Nat) (a b : DancingMatrix) (x : Nat) (b1 : DancingMatrix),
    SameLinks a b → coverLoop c f b x = some b1 →
    ∃ a1, coverLoop c f a x = some a1 ∧ SameLinks a1 b1 := by
  intro f
  induction f with
  | zero => intro a b x b1 _ h; simp [coverLoop] at h
  | succ f ih =>
    intro a b x b1 hs h
    simp only [coverLoop] at h ⊢
    by_cases hx : x = c
    · rw [if_pos hx] at h ⊢
      injection h with h
      subst h
      exact ⟨a, rfl, hs⟩
    · rw [if_neg hx] at h ⊢
      cases hb : coverRow x b.fuel b (nth b.right x) with
      | none => rw [hb] at h; cases h
      | some b2 =>
        rw [hb] at h
        obtain ⟨a2, ha2, hs2⟩ := coverRow_same x b.fuel a b (nth b.right x) b2 hs hb
        rw [sameLinks_fuel a b hs, hs.2.1, ha2]
        simp only [] at h ⊢
        have e : nth a2.down x = nth b2.down x := by rw [hs2.2.2.2.1]
        rw [e]
        exact ih _ _ _ b1 (sameLinks_rowsSet a2 b2 _ _ hs2) h

theorem uncoverLoop_same (c : Nat) : ∀ (f : Nat) (a b : DancingMatrix) (x : Nat) (b1 : DancingMatrix),
    SameLinks a b → uncoverLoop c f b x = some b1 →
    ∃ a1, uncoverLoop c f a x = some a1 ∧ SameLinks a1 b1 := by
  intro f
  induction f with
  | zero => intro a b x b1 _ h; simp [uncoverLoop] at h
  | succ f ih =>
    intro a b x b1 hs h
    simp only [uncoverLoop] at h ⊢
    by_cases hx : x = c
    · rw [if_pos hx] at h ⊢
      injection h with h
      subst h
      exact ⟨a, rfl, hs⟩
    · rw [if_neg hx] at h ⊢
      cases hb : uncoverRow x b.fuel b (nth b.left x) with
      | none => rw [hb] at h; cases h
      | some b2 =>
        rw [hb] at h
        obtain ⟨a2, ha2, hs2⟩ := uncoverRow_same x b.fuel a b (nth b.left x) b2 hs hb
        rw [sameLinks_fuel a b hs, hs.1, ha2]
        simp only [] at h ⊢
        have e : nth a2.up x = nth b2.up x := by rw [hs2.2.2.1]
        rw [e]
        exact ih _ _ _ b1 (sameLinks_rowsSet a2 b2 _ _ hs2) h

theorem cover_same (a b : DancingMatrix) (c : Nat) (b1 : DancingMatrix) (hs : SameLinks a b)
    (h : b.cover c = some b1) : ∃ a1, a.cover c = some a1 ∧ SameLinks a1 b1 := by
  unfold DancingMatrix.cover at h ⊢
  simp only [] at h ⊢
  have hs1 : SameLinks { a.unlinkH c with colsSet := setErase c (a.unlinkH c).colsSet }
      { b.unlinkH c with colsSet := setErase c (b.unlinkH c).colsSet } := unlinkH_same a b c hs
  have e : nth (a.unlinkH c).down c = nth (b.unlinkH c).down c := by rw [hs1.2.2.2.1]
  have ef := sameLinks_fuel _ _ hs1
  rw [ef]
  show ∃ a1, coverLoop c _ _ (nth (a.unlinkH c).down c) = some a1 ∧ _
  rw [e]
  exact coverLoop_same c _ _ _ _ b1 hs1 h

theorem uncover_same (a b : DancingMatrix) (c : Nat) (b1 : DancingMatrix) (hs : SameLinks a b)
    (h : b.uncover c = some b1) : ∃ a1, a.uncover c = some a1 ∧ SameLinks a1 b1 := by
  unfold DancingMatrix.uncover at h ⊢
  cases hb : uncoverLoop c b.fuel b (nth b.up c) with
  | none => rw [hb] at h; cases h
  | some b2 =>
    rw [hb] at h
    obtain ⟨a2, ha2, hs2⟩ := uncoverLoop_same c b.fuel a b (nth b.up c) b2 hs hb
    rw [sameLinks_fuel a b hs, hs.2.2.1, ha2]
    simp only [Option.some.injEq] at h ⊢
    subst h
    exact ⟨_, rfl, relinkH_same a2 b2 c hs2⟩

theorem coverInBlock_same (a b : DancingMatrix) (c : Nat) (block : Block) (out : List Nat)
    (b1 : DancingMatrix) (hs : SameLinks a b) (h : b.cover c = some b1) :
    ∃ a1 bl, a.coverInBlock c block out = some (a1, bl, out) ∧ SameLinks a1 b1 := by
  unfold DancingMatrix.cover at h
  simp only [] at h
  have hs1 : SameLinks
      { a.unlinkH c with rowsSet := block.rows, incrementalGraph := (a.unlinkH c).incrementalGraph }
      { b.unlinkH c with colsSet := setErase c (b.unlinkH c).colsSet } := unlinkH_same a b c hs
  obtain ⟨r, hr, hsr⟩ := coverLoop_same c _ _ _ _ b1 hs1 h
  have ef : (a.unlinkH c).fuel =
      DancingMatrix.fuel { b.unlinkH c with colsSet := setErase c (b.unlinkH c).colsSet } :=
    sameLinks_fuel _ _ hs1
  have e : nth (a.unlinkH c).down c = nth (b.unlinkH c).down c := by rw [hs1.2.2.2.1]
  obtain ⟨g, hg⟩ := coverInBlockLoop_sim c (a.unlinkH c).fuel (a.unlinkH c)
    { block with cols := setErase c block.cols } (nth (a.unlinkH c).down c) r
    (a.unlinkH c).incrementalGraph (by rw [ef, e]; exact hr)
  refine ⟨{ r with incrementalGraph := g, rowsSet := (a.unlinkH c).rowsSet },
    { rows := r.rowsSet, cols := setErase c block.cols }, ?_, hsr⟩
  unfold DancingMatrix.coverInBlock
  simp only []
  rw [hg]

theorem uncoverInBlock_same (a b : DancingMatrix) (c : Nat) (block : Block)
    (b1 : DancingMatrix) (hs : SameLinks a b) (h : b.uncover c = some b1) :
    ∃ a1 bl, a.uncoverInBlock c block = some (a1, bl) ∧ SameLinks a1 b1 := by
  unfold DancingMatrix.uncover at h
  cases hb : uncoverLoop c b.fuel b (nth b.up c) with
  | none => rw [hb] at h; cases h
  | some b2 =>
    rw [hb] at h
    simp only [Option.some.injEq] at h
    subst h
    have hs1 : SameLinks { a with rowsSet := block.rows, incrementalGraph := a.incrementalGraph } b :=
      hs
    obtain ⟨r, hr, hsr⟩ := uncoverLoop_same c b.fuel _ b (nth b.up c) b2 hs1 hb
    have e : nth a.up c = nth b.up c := by rw [hs.2.2.1]
    obtain ⟨g, hg⟩ := uncoverInBlockLoop_sim c a.fuel a block (nth a.up c) r a.incrementalGraph
      (by rw [sameLinks_fuel a b hs, e]; exact hr)
    refine ⟨DancingMatrix.relinkH { r with incrementalGraph := g, rowsSet := a.rowsSet } c,
      { rows := r.rowsSet, cols := setInsert c block.cols }, ?_, relinkH_same _ b2 c hsr⟩
    unfold DancingMatrix.uncoverInBlock
    rw [hg]

/-! # The links and the column sizes in every state reached by nested covering calls -/

theorem linv_same (a b : DancingMatrix) (hs : List Nat) (rg mt : Nat → List Nat)
    (h : SameLinks a b) (hI : LInv b hs rg mt) : LInv a hs rg mt := by
  obtain ⟨e1, e2, e3, e4, e5, e6, e7, e8, e9, e10⟩ := h
  unfold LInv HGood VGood VRing RowsGood Live SizeGood DancingMatrix.nodes at *
  rw [e1, e2, e3, e4, e5, e6, e7, e8]
  exact hI

theorem built_same (a b : DancingMatrix) (rg mt : Nat → List Nat)
    (h : SameLinks a b) (hB : Built b rg mt) : Built a rg mt := by
  obtain ⟨h1, h2, h3, h4, h5, h6, h7, h8⟩ := hB
  obtain ⟨e1, e2, e3, e4, e5, e6, e7, e8, e9, e10⟩ := h
  constructor
  · unfold HGood at *; rw [e1, e2, e8]; exact h1
  · unfold VGood VRing DancingMatrix.nodes at *; rw [e3, e4, e5, e8]; exact h2
  · unfold RowsGood DancingMatrix.nodes at *; rw [e1, e2, e5, e6, e8]; exact h3
  · unfold DancingMatrix.nodes at *; rw [e5, e8]; exact h4
  · unfold DancingMatrix.nodes at *; rw [e5, e6, e7, e8, e9, e10]; exact h5
  · rw [e7, e8]; exact h6
  · unfold DancingMatrix.nodes at *; rw [e5, e6, e8, e9, e10]; exact h7
  · rw [e5, e8]; exact h8

theorem nth_mem_or_zero (l : List Nat) (i : Nat) : nth l i ∈ l ∨ nth l i = 0 := by
  unfold nth
  by_cases h : i < l.length
  · left
    rw [List.getD_eq_getElem _ _ h]
    exact List.getElem_mem h
  · right
    rw [List.getD_eq_default _ _ (by omega)]

/-- An ascending list that holds the row of every node. -/
theorem exists_rows_sorted (m : DancingMatrix) :
    ∃ R : List Nat, R.Sorted (· < ·) ∧ ∀ x, nth m.row x ∈ R := by
  refine ⟨(insert 0 m.row.toFinset).sort (· ≤ ·), Finset.sort_sorted_lt _, ?_⟩
  intro x
  rw [Finset.mem_sort, Finset.mem_insert, List.mem_toFinset]
  rcases nth_mem_or_zero m.row x with h | h
  · exact Or.inr h
  · exact Or.inl h

/-- A covering call of an uncovered column, of either kind and from every state with the
links of `m`, returns and leads to the links of one state `m1` that meets the
invariant; the matching uncovering call, of either kind, leads back to the links of
`m`. -/
theorem cover_linv (m : DancingMatrix) (hs : List Nat) (rg mt : Nat → List Nat) (c : Nat)
    (hI : LInv m hs rg mt) (hc : c ∈ hs) :
    ∃ (m1 : DancingMatrix) (rg1 : Nat → List Nat), LInv m1 (hs.erase c) rg1 mt ∧
      (∀ a, SameLinks a m → ∃ a1, a.cover c = some a1 ∧ SameLinks a1 m1) ∧
      (∀ a block out, SameLinks a m →
        ∃ a1 bl, a.coverInBlock c block out = some (a1, bl, out) ∧ SameLinks a1 m1) ∧
      (∀ a, SameLinks a m1 → ∃ a2, a.uncover c = some a2 ∧ SameLinks a2 m) ∧
      (∀ a block, SameLinks a m1 →
        ∃ a2 bl, a.uncoverInBlock c block = some (a2, bl) ∧ SameLinks a2 m) := by
  obtain ⟨hH, hV, hR, hL, hS⟩ := hI
  obtain ⟨R, hRs, hRm⟩ := exists_rows_sorted m
  have hInv : Inv { m with rowsSet := R } hs rg mt :=
    ⟨hH, hV, hR, hL, hRs, fun _ _ x _ => hRm x⟩
  obtain ⟨m1, rg1, k1, k2, k3, _⟩ := cover_spec _ hs rg mt c hInv hc
  have hcr := hH.2.2.2 c hc
  obtain ⟨_, hrc, hlc, _⟩ := HGood_unlinkH m hs c hH hR.1 hV.1.2.2 hc
  have hR1 := RowsGood_unlinkH m mt c hR hrc hlc
  have hsz : SizeGood m1 rg1 := by
    have k1b := k1
    unfold DancingMatrix.cover at k1b
    exact coverLoop_sizes c mt
      { DancingMatrix.unlinkH { m with rowsSet := R } c with
        colsSet := setErase c (DancingMatrix.unlinkH { m with rowsSet := R } c).colsSet }
      rg hV hS hR1 hcr.1 hcr.2 (fun z hz y hy => (hL c hc z hz y hy).1) m1 rg1 k1b k2.2.1
  have h0 : SameLinks m { m with rowsSet := R } := sameLinks_refl m
  have h3 : SameLinks { ({ m with rowsSet := R } : DancingMatrix) with
      colsSet := setInsert c (setErase c m.colsSet) } m := sameLinks_refl m
  refine ⟨m1, rg1, ⟨k2.1, k2.2.1, k2.2.2.1, k2.2.2.2.1, hsz⟩, ?_, ?_, ?_, ?_⟩
  · intro a ha
    exact cover_same a _ c m1 (sameLinks_trans _ _ _ ha h0) k1
  · intro a block out ha
    exact coverInBlock_same a _ c block out m1 (sameLinks_trans _ _ _ ha h0) k1
  · intro a ha
    obtain ⟨a2, q1, q2⟩ := uncover_same a m1 c _ ha k3
    exact ⟨a2, q1, sameLinks_trans _ _ _ q2 h3⟩
  · intro a block ha
    obtain ⟨a2, bl, q1, q2⟩ := uncoverInBlock_same a m1 c block _ ha k3
    exact ⟨a2, bl, q1, sameLinks_trans _ _ _ q2 h3⟩

/-- Every sequence of covering and uncovering calls that is properly nested as far as it
goes returns, and the state reached has the links of a state that meets the
invariant. -/
theorem nestedSoFar_linv (mt : Nat → List Nat) :
    ∀ (ops : List BlockOp) (hist : List (Nat × DancingMatrix)) (unc hs : List Nat)
      (rg : Nat → List Nat) (m a : DancingMatrix),
      LInv m hs rg mt → SameLinks a m → (∀ x, x ∈ hs ↔ x ∈ unc) → unc.Nodup →
      PendL mt hist m hs → nestedSoFar ops (hist.map Prod.fst) unc = true →
      ∃ a1 m1 hs1 rg1, runBlockOps ops a = some a1 ∧ SameLinks a1 m1 ∧ LInv m1 hs1 rg1 mt := by
  intro ops
  induction ops with
  | nil =>
    intro hist unc hs rg m a hI ha _ _ _ _
    exact ⟨a, m, hs, rg, rfl, ha, hI⟩
  | cons op rest ih =>
    intro hist unc hs rg m a hI ha hmem hnd hp hn
    have hnds : hs.Nodup := hI.1.2.2.1
    have hcov : ∀ c, c ∈ unc → nestedSoFar rest (c :: hist.map Prod.fst) (unc.erase c) = true →
        ∃ m1 rg1, LInv m1 (hs.erase c) rg1 mt ∧
          (∀ a, SameLinks a m → ∃ a1, a.cover c = some a1 ∧ SameLinks a1 m1) ∧
          (∀ a block out, SameLinks a m →
            ∃ a1 bl, a.coverInBlock c block out = some (a1, bl, out) ∧ SameLinks a1 m1) ∧
          ∀ a1, SameLinks a1 m1 →
            ∃ a2 m2 hs2 rg2, runBlockOps rest a1 = some a2 ∧ SameLinks a2 m2 ∧ LInv m2 hs2 rg2 mt := by
      intro c hcu hn2
      have hc : c ∈ hs := (hmem c).mpr hcu
      obtain ⟨m1, rg1, k1, k2, k3, k4, k5⟩ := cover_linv m hs rg mt c hI hc
      refine ⟨m1, rg1, k1, k2, k3, ?_⟩
      intro a1 ha1
      apply ih ((c, m) :: hist) (unc.erase c) (hs.erase c) rg1 m1 a1 k1 ha1
      · intro x
        rw [List.Nodup.mem_erase_iff hnds, List.Nodup.mem_erase_iff hnd, hmem x]
      · exact hnd.erase c
      · refine ⟨k4, k5, ?_, hs, rg, hI, ?_, hp⟩
        · intro h; exact ((List.Nodup.mem_erase_iff hnds).mp h).1 rfl
        · intro x
          rw [List.Nodup.mem_erase_iff hnds]
          constructor
          · intro hx
            by_cases e : x = c
            · exact Or.inl e
            · exact Or.inr ⟨e, hx⟩
          · intro hx
            rcases hx with e | hx
            · rw [e]; exact hc
            · exact hx.2
      · exact hn2
    have hunc : ∀ c, (match hist.map Prod.fst with
          | [] => false
          | top :: stack1 => decide (top = c) && nestedSoFar rest stack1 (c :: unc)) = true →
        ∃ mb, (∀ a, SameLinks a m → ∃ a2, a.uncover c = some a2 ∧ SameLinks a2 mb) ∧
          (∀ a block, SameLinks a m → ∃ a2 bl, a.uncoverInBlock c block = some (a2, bl) ∧
            SameLinks a2 mb) ∧
          ∀ a1, SameLinks a1 mb →
            ∃ a2 m2 hs2 rg2, runBlockOps rest a1 = some a2 ∧ SameLinks a2 m2 ∧ LInv m2 hs2 rg2 mt := by
      intro c hn2
      cases hist with
      | nil => simp at hn2
      | cons p hist1 =>
        obtain ⟨c0, mb⟩ := p
        simp only [List.map_cons, Bool.and_eq_true, decide_eq_true_eq] at hn2
        obtain ⟨p1, p2, p3, hsb, rgb, p4, p5, p6⟩ := hp
        have e : c0 = c := hn2.1
        subst e
        refine ⟨mb, p1, p2, ?_⟩
        intro a1 ha1
        apply ih hist1 (c0 :: unc) hsb rgb mb a1 p4 ha1 _ _ p6 hn2.2
        · intro x
          rw [p5 x, List.mem_cons, hmem x]
        · exact List.nodup_cons.mpr ⟨fun h => p3 ((hmem c0).mpr h), hnd⟩
    cases op with
    | cover c =>
      simp only [nestedSoFar, Bool.and_eq_true, decide_eq_true_eq] at hn
      obtain ⟨m1, rg1, _, k2, _, k4⟩ := hcov c hn.1 hn.2
      obtain ⟨a1, q1, q2⟩ := k2 a ha
      simp only [runBlockOps, q1]
      exact k4 a1 q2
    | coverInBlock c block out =>
      simp only [nestedSoFar, Bool.and_eq_true, decide_eq_true_eq] at hn
      obtain ⟨m1, rg1, _, _, k3, k4⟩ := hcov c hn.1 hn.2
      obtain ⟨a1, bl, q1, q2⟩ := k3 a block out ha
      simp only [runBlockOps, q1]
      exact k4 a1 q2
    | uncover c =>
      simp only [nestedSoFar] at hn
      obtain ⟨mb, k1, _, k3⟩ := hunc c hn
      obtain ⟨a1, q1, q2⟩ := k1 a ha
      simp only [runBlockOps, q1]
      exact k3 a1 q2
    | uncoverInBlock c block =>
      simp only [nestedSoFar] at hn
      obtain ⟨mb, _, k2, k3⟩ := hunc c hn
      obtain ⟨a1, bl, q1, q2⟩ := k2 a block ha
      simp only [runBlockOps, q1]
      exact k3 a1 q2

theorem constructed_built (rows cols : Nat) (m : DancingMatrix) (h : Constructed rows cols m) :
    ∃ rg mt, Built m rg mt ∧ m.COLS = cols ∧ m.ROWS = rows := by
  induction h with
  | empty a b => exact ⟨_, _, emptyMatrix_built rows cols a b, rfl, rfl⟩
  | insert m m1 r c _ hr hc1 hc2 hins ih =>
    obtain ⟨rg, mt, hB, e1, e2⟩ := ih
    obtain ⟨m2, rg1, mt1, h2, hB2⟩ := insert_built m rg mt r c hB (by rw [e2]; exact hr) hc1
      (by rw [e1]; exact hc2)
    have e : m2 = m1 := Option.some.inj (h2.symm.trans hins)
    subst e
    obtain ⟨_, _, _, _, _, _, _, et, _⟩ := insert_fields m m2 r c hins
    exact ⟨rg1, mt1, hB2, by rw [et]; exact e1, by rw [et]; exact e2⟩
  | book m m1 _ hs ih =>
    obtain ⟨rg, mt, hB, e1, e2⟩ := ih
    exact ⟨rg, mt, built_same m1 m rg mt hs hB, hs.2.2.2.2.2.2.2.1.trans e1,
      hs.2.2.2.2.2.2.2.2.1.trans e2⟩

theorem built_linv (m : DancingMatrix) (rg mt : Nat → List Nat) (hB : Built m rg mt) :
    LInv m (List.range' 1 m.COLS) rg mt := by
  obtain ⟨hH, hV, hR, hF, hL, hS, _, _⟩ := hB
  refine ⟨hH, hV, hR, ?_, hL.2.1, hS⟩
  intro c hc x hx y hy
  rw [List.mem_range'_1] at hc
  have hxc := (hV.2 c hc.1 (by omega)).2.2.2 x hx
  have hyc := ((hR.2 x hxc.1 hxc.2.1).2.2.2.2 y).mp hy
  have hycol := (hR.2 y hyc.1 hyc.2.1).1
  refine ⟨hF y hyc.1 hyc.2.1, ?_⟩
  rw [List.mem_range'_1]
  omega

theorem vring_colRing (m : DancingMatrix) (k : Nat) (xs : List Nat) (h : VRing m k xs)
    (hk : k ≤ m.COLS) : m.colRing k = some xs := by
  unfold DancingMatrix.colRing
  apply (walk_iff m.down k xs k m.fuel).mpr
  refine ⟨h.1, fun hm => ?_, ?_⟩
  · have := (h.2.2.2 k hm).1; omega
  · have := nodup_bounded_length m.nodes xs h.2.2.1 (fun x hx => (h.2.2.2 x hx).2.1)
    unfold DancingMatrix.fuel; unfold DancingMatrix.nodes at this; omega

theorem vring_linked (m : DancingMatrix) (k : Nat) (xs : List Nat) (h : VRing m k xs) :
    ∀ x ∈ k :: xs, m.linkedV x := by
  have key : ∀ (pre post : List Nat) (x : Nat), xs = pre ++ x :: post → m.linkedV x := by
    intro pre post x e
    subst e
    have hp := vring_ptr m k x pre post h
    unfold DancingMatrix.linkedV
    rw [hp.1, hp.2]
    constructor
    · cases post with
      | nil =>
        show nth m.up k = x
        rw [(vring_ends m k _ h).2]; exact getLastD_append_singleton _ _ _
      | cons y post =>
        show nth m.up y = x
        have h2 : VRing m k ((pre ++ [x]) ++ y :: post) := by simpa using h
        rw [(vring_ptr m k y (pre ++ [x]) post h2).2]; exact getLastD_append_singleton _ _ _
    · rcases List.eq_nil_or_concat pre with e | ⟨pre1, z, e⟩
      · subst e
        show nth m.down k = x
        rw [(vring_ends m k _ h).1]; rfl
      · subst e
        rw [List.concat_eq_append] at h ⊢
        rw [getLastD_append_singleton]
        have h2 : VRing m k (pre1 ++ z :: (x :: post)) := by simpa using h
        rw [(vring_ptr m k z pre1 (x :: post) h2).1]; rfl
  intro x hx
  rcases List.mem_cons.mp hx with e | hx
  · subst e
    have he := vring_ends m x xs h
    unfold DancingMatrix.linkedV
    rw [he.1, he.2]
    constructor
    · cases xs with
      | nil => exact he.2
      | cons y post =>
        show nth m.up y = x
        exact (vring_ptr m x y [] post h).2
    · rcases List.eq_nil_or_concat xs with e | ⟨pre1, z, e⟩
      · subst e; exact he.1
      · subst e
        rw [List.concat_eq_append] at h ⊢
        rw [getLastD_append_singleton]
        have h2 : VRing m x (pre1 ++ z :: []) := by simpa using h
        exact (vring_ptr m x z pre1 [] h2).1
  · obtain ⟨pre, post, e⟩ := List.append_of_mem hx
    exact key pre post x e

/-! # The file constructor as a construction by `insert` -/

theorem loadLine_constructed (rows cols currentRow : Nat) :
    ∀ (line : List Nat) (m m1 : DancingMatrix), Constructed rows cols m →
      m.ROWS = rows → m.COLS = cols → loadLine currentRow line m = some m1 →
      Constructed rows cols m1 ∧ m1.ROWS = rows ∧ m1.COLS = cols := by
  intro line
  induction line with
  | nil =>
    intro m m1 hc hr hcl h
    simp only [loadLine, Option.some.injEq] at h
    subst h
    exact ⟨hc, hr, hcl⟩
  | cons c rest ih =>
    intro m m1 hc hr hcl h
    rw [loadLine] at h
    split_ifs at h with hrange
    cases hins : m.insert currentRow c with
    | none => rw [hins] at h; cases h
    | some m2 =>
      rw [hins] at h
      simp only [] at h
      have hguard : currentRow < m.ROWS ∧ c ≤ m.COLS := by
        unfold DancingMatrix.insert at hins
        by_contra hg
        rw [if_neg hg] at hins
        cases hins
      obtain ⟨_, _, _, _, _, _, _, et, _⟩ := insert_fields m m2 currentRow c hins
      have h2 : Constructed rows cols m2 :=
        Constructed.insert m m2 currentRow c hc (by rw [← hr]; exact hguard.1) (by omega)
          (by rw [← hcl]; exact hguard.2) hins
      have hr2 : m2.ROWS = rows := by rw [et]; exact hr
      have hc2 : m2.COLS = cols := by rw [et]; exact hcl
      refine ih _ m1 ?_ ?_ ?_ h
      · exact Constructed.book m2 _ h2 (sameLinks_refl m2)
      · exact hr2
      · exact hc2

theorem loadLines_constructed (rows cols : Nat) :
    ∀ (lines : List (List Nat)) (k : Nat) (m m1 : DancingMatrix), Constructed rows cols m →
      m.ROWS = rows → m.COLS = cols → loadLines k lines m = some m1 →
      Constructed rows cols m1 ∧ m1.ROWS = rows ∧ m1.COLS = cols := by
  intro lines
  induction lines with
  | nil =>
    intro k m m1 hc hr hcl h
    simp only [loadLines, Option.some.injEq] at h
    subst h
    exact ⟨hc, hr, hcl⟩
  | cons line rest ih =>
    intro k m m1 hc hr hcl h
    rw [loadLines] at h
    cases hl : loadLine k line m with
    | none => rw [hl] at h; cases h
    | some m2 =>
      rw [hl] at h
      simp only [] at h
      have h2 := loadLine_constructed rows cols k line m m2 hc hr hcl hl
      split_ifs at h
      · injection h with h
        subst h
        exact h2
      · exact ih (k + 1) m2 m1 h2.1 h2.2.1 h2.2.2 h

/-- The matrix built by the file constructor is reached by `insert` calls in range. -/
theorem fromFile_constructed (cols rows : Nat) (lines : List (List Nat)) (useIg useETT : Bool)
    (m : DancingMatrix) (h : DancingMatrix.fromFile cols rows lines useIg useETT = some m) :
    Constructed rows cols m := by
  unfold DancingMatrix.fromFile at h
  by_cases h1 : rows > MAX_ROW
  · rw [if_pos h1] at h; cases h
  rw [if_neg h1] at h
  by_cases h2 : cols + 1 ≥ INT_RANGE ∨ rows * cols ≥ INT_RANGE
  · rw [if_pos h2] at h; cases h
  rw [if_neg h2] at h
  cases hl : loadLines 0 lines (emptyMatrix rows cols useIg useETT) with
  | none => rw [hl] at h; cases h
  | some m0 =>
    rw [hl] at h
    simp only [] at h
    have h0 := (loadLines_constructed rows cols lines 0 _ m0 (Constructed.empty useIg useETT)
      rfl rfl hl).1
    have key : ∀ m2 : DancingMatrix, SameLinks m2 m0 →
        (if useIg = true then
          match IncrementalConnectedGraph.initializeGraph rows m2 with
          | none => none
          | some g => some { m2 with incrementalGraph := some g }
        else some m2) = some m → Constructed rows cols m := by
      intro m2 hs h
      split_ifs at h
      · cases hg : IncrementalConnectedGraph.initializeGraph rows m2 with
        | none => rw [hg] at h; cases h
        | some g =>
          rw [hg] at h
          injection h with h
          subst h
          exact Constructed.book m0 _ h0 hs
      · injection h with h
        subst h
        exact Constructed.book m0 _ h0 hs
    by_cases hett : useETT = true
    · rw [if_pos hett] at h
      cases hd : (ComponentDetector.new m0.ROWS m0.COLS).Initialize m0.col_to_rows with
      | none => simp [hd] at h
      | some d =>
        simp only [hd] at h
        refine key _ ?_ h
        exact sameLinks_refl m0
    · rw [if_neg hett] at h
      refine key _ ?_ h
      exact sameLinks_refl m0

/-! # The number of columns under the covering methods -/

theorem coverRow_COLS (x : Nat) : ∀ (f : Nat) (m : DancingMatrix) (y : Nat) (r : DancingMatrix),
    coverRow x f m y = some r → r.COLS = m.COLS := by
  intro f
  induction f with
  | zero => intro m y r h; simp [coverRow] at h
  | succ f ih =>
    intro m y r h
    simp only [coverRow] at h
    split at h
    · cases h; rfl
    · exact ih (m.unlinkV y) _ r h

theorem uncoverRow_COLS (x : Nat) : ∀ (f : Nat) (m : DancingMatrix) (y : Nat) (r : DancingMatrix),
    uncoverRow x f m y = some r → r.COLS = m.COLS := by
  intro f
  induction f with
  | zero => intro m y r h; simp [uncoverRow] at h
  | succ f ih =>
    intro m y r h
    simp only [uncoverRow] at h
    split at h
    · cases h; rfl
    · exact ih (m.relinkV y) _ r h

theorem coverLoop_COLS (c : Nat) : ∀ (f : Nat) (m : DancingMatrix) (x : Nat) (r : DancingMatrix),
    coverLoop c f m x = some r → r.COLS = m.COLS := by
  intro f
  induction f with
  | zero => intro m x r h; simp [coverLoop] at h
  | succ f ih =>
    intro m x r h
    simp only [coverLoop] at h
    split at h
    · cases h; rfl
    · cases hc : coverRow x m.fuel m (nth m.right x) with
      | none => rw [hc] at h; cases h
      | some m1 =>
        rw [hc] at h
        have := ih _ _ r h
        rw [this]
        exact coverRow_COLS x _ _ _ m1 hc

theorem uncoverLoop_COLS (c : Nat) : ∀ (f : Nat) (m : DancingMatrix) (x : Nat) (r : DancingMatrix),
    uncoverLoop c f m x = some r → r.COLS = m.COLS := by
  intro f
  induction f with
  | zero => intro m x r h; simp [uncoverLoop] at h
  | succ f ih =>
    intro m x r h
    simp only [uncoverLoop] at h
    split at h
    · cases h; rfl
    · cases hc : uncoverRow x m.fuel m (nth m.left x) with
      | none => rw [hc] at h; cases h
      | some m1 =>
        rw [hc] at h
        have := ih _ _ r h
        rw [this]
        exact uncoverRow_COLS x _ _ _ m1 hc

theorem cover_COLS (m m1 : DancingMatrix) (c : Nat) (h : m.cover c = some m1) :
    m1.COLS = m.COLS := by
  unfold DancingMatrix.cover at h
  have := coverLoop_COLS c _ _ _ m1 h
  exact this

theorem uncover_COLS (m m1 : DancingMatrix) (c : Nat) (h : m.uncover c = some m1) :
    m1.COLS = m.COLS := by
  unfold DancingMatrix.uncover at h
  cases hc : uncoverLoop c m.fuel m (nth m.up c) with
  | none => rw [hc] at h; cases h
  | some m2 =>
    rw [hc] at h
    simp only [Option.some.injEq] at h
    subst h
    exact uncoverLoop_COLS c _ _ _ m2 hc

theorem touched_COLS (m1 m : DancingMatrix) (h : Touched m1 m) : m1.COLS = m.COLS := by
  unfold Touched at h
  rw [h]

theorem runBlockOps_COLS : ∀ (ops : List BlockOp) (m m1 : DancingMatrix),
    runBlockOps ops m = some m1 → m1.COLS = m.COLS := by
  intro ops
  induction ops with
  | nil => intro m m1 h; simp only [runBlockOps, Option.some.injEq] at h; rw [h]
  | cons op rest ih =>
    intro m m1 h
    cases op with
    | cover c =>
      simp only [runBlockOps] at h
      cases hc : m.cover c with
      | none => rw [hc] at h; cases h
      | some m2 => rw [hc] at h; rw [ih m2 m1 h, cover_COLS m m2 c hc]
    | uncover c =>
      simp only [runBlockOps] at h
      cases hc : m.uncover c with
      | none => rw [hc] at h; cases h
      | some m2 => rw [hc] at h; rw [ih m2 m1 h, uncover_COLS m m2 c hc]
    | coverInBlock c block out =>
      simp only [runBlockOps] at h
      cases hc : m.coverInBlock c block out with
      | none => rw [hc] at h; cases h
      | some p =>
        obtain ⟨m2, b2, o2⟩ := p
        rw [hc] at h
        rw [ih m2 m1 h, touched_COLS m2 m (coverInBlock_touched m c block out m2 b2 o2 hc).1]
    | uncoverInBlock c block =>
      simp only [runBlockOps] at h
      cases hc : m.uncoverInBlock c block with
      | none => rw [hc] at h; cases h
      | some p =>
        obtain ⟨m2, b2⟩ := p
        rw [hc] at h
        rw [ih m2 m1 h, touched_COLS m2 m (uncoverInBlock_touched m c block m2 b2 hc)]

/-! ## Claim C36 -/

/-- Claim C36: in every state reachable from construction by `insert` (the header part of a
constructor, then calls `insert(r, c)` with `r < rows` and `1 ≤ c ≤ cols`, the
constructor writing its bookkeeping fields in between) and then by a sequence of
`cover`, `uncover`, `coverInBlock` and `uncoverInBlock` calls that is properly nested
as far as it goes, every call returns, and in the state reached the vertical list of
every column `1..cols` is closed, the `size` of its header is the number of cells in
the list, and `x.down.up = x` and `x.up.down = x` hold for the header and for every
cell `x` of the list. -/
theorem C36_sizes_and_vertical_links (rows cols : Nat) (m : DancingMatrix) (ops : List BlockOp)
    (hm : Constructed rows cols m) (hn : nestedSoFar ops [] (List.range' 1 cols) = true) :
    ∃ m1, runBlockOps ops m = some m1 ∧
      ∀ k, 1 ≤ k → k ≤ cols →
        m1.colRing k ≠ none ∧ nthI m1.size k = ((m1.cells k).length : Int) ∧
        ∀ x ∈ k :: m1.cells k, m1.linkedV x := by
  obtain ⟨rg, mt, hB, hC, _⟩ := constructed_built rows cols m hm
  have hI := built_linv m rg mt hB
  rw [hC] at hI
  obtain ⟨a1, m1, hs1, rg1, h1, h2, h3⟩ := nestedSoFar_linv mt ops [] (List.range' 1 cols)
    (List.range' 1 cols) rg m m hI (sameLinks_refl m) (fun _ => Iff.rfl)
    (List.nodup_range' 1 cols) trivial hn
  have hI1 := linv_same a1 m1 hs1 rg1 mt h2 h3
  have hcols : a1.COLS = cols := by
    have := runBlockOps_COLS ops m a1 h1
    rw [this, hC]
  refine ⟨a1, h1, ?_⟩
  intro k hk1 hk2
  have hring := hI1.2.1.2 k hk1 (by rw [hcols]; exact hk2)
  have hcr := vring_colRing a1 k _ hring (by rw [hcols]; exact hk2)
  have hcells : a1.cells k = rg1 k := by
    unfold DancingMatrix.cells; rw [hcr]; rfl
  refine ⟨by rw [hcr]; exact Option.some_ne_none _, ?_, ?_⟩
  · rw [hcells]; exact hI1.2.2.2.2.2 k hk1 (by rw [hcols]; exact hk2)
  · rw [hcells]; exact vring_linked a1 k _ hring

set_option maxRecDepth 100000 in
theorem C36_sizes_and_vertical_links_witness :
    Constructed 3 3 sampleMatrix ∧
    nestedSoFar [BlockOp.cover 2, BlockOp.coverInBlock 3 sampleMatrix.InitBlock [],
      BlockOp.uncoverInBlock 3 sampleMatrix.InitBlock, BlockOp.cover 1] []
      (List.range' 1 3) = true ∧
    ∃ m1, runBlockOps [BlockOp.cover 2, BlockOp.coverInBlock 3 sampleMatrix.InitBlock [],
        BlockOp.uncoverInBlock 3 sampleMatrix.InitBlock, BlockOp.cover 1] sampleMatrix = some m1 ∧
      ∀ k, 1 ≤ k → k ≤ 3 →
        m1.colRing k ≠ none ∧ nthI m1.size k = ((m1.cells k).length : Int) ∧
        ∀ x ∈ k :: m1.cells k, m1.linkedV x :=
  ⟨fromFile_constructed 3 3 [[1, 2], [3], [2, 3]] false false sampleMatrix (by decide!),
    by decide!,
    C36_sizes_and_vertical_links 3 3 sampleMatrix _
      (fromFile_constructed 3 3 [[1, 2], [3], [2, 3]] false false sampleMatrix (by decide!))
      (by decide!)⟩

/-! # Termination of the search -/

/-! # Totality of the search -/

/-- The loop of `DXD` that covers the columns of the other cells of the chosen row keeps
every property that `coverInBlock` keeps. -/
theorem coverRowInBlock_inv (mt : Nat → List Nat) (curC : Nat)
    (Q : DancingMatrix → (Nat → List Nat) → Block → Prop) (hQ : KeptByCover mt Q) :
    ∀ (post pre : List Nat) (m : DancingMatrix) (hs : List Nat) (rg : Nat → List Nat)
      (block : Block) (f : Nat),
      BInv m hs rg mt block → GOK m rg block → Q m rg block → m.COLS < curC → curC < m.nodes →
      mt curC = pre ++ post → (∀ y ∈ post, nth m.col y ∈ block.cols) → post.length < f →
      ∃ (m1 : DancingMatrix) (hs1 : List Nat) (rg1 : Nat → List Nat) (b1 : Block),
        coverRowInBlock curC f m block [] (nth m.right (pre.getLastD curC)) = some (m1, b1, []) ∧
        BInv m1 hs1 rg1 mt b1 ∧ GOK m1 rg1 b1 ∧ Q m1 rg1 b1 ∧
        (∀ c, c ∈ b1.cols ↔ c ∈ block.cols ∧ ∀ y ∈ post, nth m.col y ≠ c) := by
  intro post
  induction post with
  | nil =>
    intro pre m hs rg block f hB hG hq h1 h2 hmt _ hf
    have hR := hB.rgood.2 curC h1 h2
    have hch : Chain m.right curC pre curC := by
      have := hR.2.1
      rw [hmt, List.append_nil] at this
      exact this
    have hnext : nth m.right (pre.getLastD curC) = curC := chain_last _ _ _ _ hch
    obtain ⟨f1, rfl⟩ : ∃ f1, f = f1 + 1 := ⟨f - 1, by omega⟩
    refine ⟨m, hs, rg, block, ?_, hB, hG, hq, ?_⟩
    · rw [hnext]; exact coverRowInBlock_nil _ _ _ _ _
    · intro c; simp
  | cons y post ih =>
    intro pre m hs rg block f hB hG hq h1 h2 hmt hcols hf
    have hR := hB.rgood.2 curC h1 h2
    have hymem : y ∈ mt curC := by rw [hmt]; simp
    have hyc := (hR.2.2.2.2 y).mp hymem
    have hRy := hB.rgood.2 y hyc.1 hyc.2.1
    have hch := hR.2.1
    rw [hmt, chain_append] at hch
    have hnext : nth m.right (pre.getLastD curC) = y := chain_last _ _ _ _ hch.1
    obtain ⟨f1, rfl⟩ : ∃ f1, f = f1 + 1 := ⟨f - 1, by omega⟩
    obtain ⟨m1, b1, rem, hcov, hB1, hG1, hb1, hstat, hrem, _⟩ :=
      coverInBlock_frame m hs rg mt block (nth m.col y) [] hB hG
        (hcols y (List.mem_cons_self _ _))
    have hq1 := hQ m hs rg block (nth m.col y) m1 b1 rem hB hG (hcols y (List.mem_cons_self _ _))
      hq hcov hB1 hb1 hrem
    have hnd : (pre ++ y :: post).Nodup := hmt ▸ hR.2.2.2.1
    have hynp : y ∉ post := by
      have := (List.nodup_append.mp hnd).2.1
      exact (List.nodup_cons.mp this).1
    obtain ⟨m2, hs2, rg2, b2, hrun, hB2, hG2, hq2, hc2⟩ :=
      ih (pre ++ [y]) m1 _ _ b1 f1 hB1 hG1 hq1 (by rw [hstat.2.2.1]; exact h1)
        (by rw [hstat.2.2.2]; exact h2) (by rw [hmt]; simp)
        (by
          intro z hz
          have hzmem : z ∈ mt curC := by rw [hmt]; simp [hz]
          have hzc := (hR.2.2.2.2 z).mp hzmem
          have hzy : z ∈ mt y := (hRy.2.2.2.2 z).mpr
            ⟨hzc.1, hzc.2.1, fun e => hynp (e ▸ hz), hzc.2.2.2.trans hyc.2.2.2.symm⟩
          have hne := hB.distinct y hyc.1 hyc.2.1 z hzy
          rw [hb1, hstat.1]
          exact (mem_setErase_sorted _ _ _ hB.csorted).mpr
            ⟨hne, hcols z (List.mem_cons_of_mem _ hz)⟩)
        (by simp at hf; omega)
    rw [getLastD_append_singleton] at hrun
    refine ⟨m2, hs2, rg2, b2, ?_, hB2, hG2, hq2, ?_⟩
    · rw [hnext, coverRowInBlock, if_neg hyc.2.2.1, hcov]
      exact hrun
    · intro c
      rw [hc2 c, hb1, mem_setErase_sorted _ _ _ hB.csorted, hstat.1]
      simp only [List.mem_cons, forall_eq_or_imp]
      constructor
      · rintro ⟨⟨g1, g2⟩, g3⟩
        exact ⟨g2, fun e => g1 e.symm, g3⟩
      · rintro ⟨g1, g2, g3⟩
        exact ⟨⟨fun e => g2 e.symm, g1⟩, g3⟩

theorem rowsLive_kept (mt : Nat → List Nat) : KeptByCover mt RowsLive := by
  intro m hs rg block c m1 b1 rem hB _ hc hq hcov hB1 hb1 hrem r hr
  have hrows := coverInBlock_rows_mem m hs rg mt block c [] m1 b1 hB hc hcov r
  obtain ⟨hr0, hrc⟩ := hrows.mp hr
  obtain ⟨c1, hc1, x, hx, hxr⟩ := hq r hr0
  have hst := (coverInBlock_touched m c block [] m1 b1 [] hcov).1
  have hrow : m1.row = m.row := by unfold Touched at hst; rw [hst]
  have hcc := hB.hgood.2.2.2 c (hB.cols_unc c hc)
  have hcc1 := hB.hgood.2.2.2 c1 (hB.cols_unc c1 hc1)
  refine ⟨c1, ?_, x, ?_, by rw [hrow]; exact hxr⟩
  · rw [hb1]
    refine (mem_setErase_sorted _ _ _ hB.csorted).mpr ⟨?_, hc1⟩
    intro e
    subst e
    exact hrc x hx hxr
  · refine (mem_filter_not_mem _ _ _).mpr ⟨hx, ?_⟩
    intro hxrem
    obtain ⟨z, hz, hxz⟩ := hrem x hxrem
    have hzc := (hB.vgood.2 c hcc.1 hcc.2).2.2.2 z hz
    have := ((hB.rgood.2 z hzc.1 hzc.2.1).2.2.2.2 x).mp hxz
    exact hrc z hz (this.2.2.2.symm.trans hxr)

theorem pairwise_other {α : Type} (R : α → α → Prop) : ∀ (l : List α), l.Pairwise R →
    1 < l.length → ∀ a ∈ l, ∃ b ∈ l, R a b ∨ R b a := by
  intro l hp hlen a ha
  match l, hp, hlen, ha with
  | x :: y :: rest, hp, _, ha =>
    have hxy : ∀ z ∈ y :: rest, R x z := (List.pairwise_cons.mp hp).1
    rcases List.mem_cons.mp ha with e | h
    · subst e
      exact ⟨y, by simp, Or.inl (hxy y (List.mem_cons_self _ _))⟩
    · exact ⟨x, by simp, Or.inr (hxy a h)⟩

theorem length_lt_of_subset_missing (l1 l2 : List Nat) (c : Nat) (h1 : l1.Nodup)
    (hsub : ∀ x ∈ l1, x ∈ l2) (hc : c ∈ l2) (hc1 : c ∉ l1) : l1.length < l2.length := by
  have hnd : (c :: l1).Nodup := List.nodup_cons.mpr ⟨hc1, h1⟩
  have hs : c :: l1 ⊆ l2 := by
    intro x hx
    rcases List.mem_cons.mp hx with e | hx
    · rw [e]; exact hc
    · exact hsub x hx
  have := (List.Nodup.subperm hnd hs).length_le
  simp only [List.length_cons] at this
  omega

/-- The blocks of a decomposition into at least two parts: every row of a part has a live
cell in a column of the part, and every part has fewer columns than the whole. -/
theorem subblocks_smaller (colsOf : Nat → List Nat) (m : DancingMatrix) (rg : Nat → List Nat)
    (block : Block) (bs : List Block) (hC : ColsOK colsOf m rg block)
    (hL : RowsLive m rg block)
    (hsub : ∀ b ∈ bs, ∀ r ∈ b.rows, r ∈ block.rows)
    (hne : ∀ b ∈ bs, b.rows ≠ []) (hcs : ∀ b ∈ bs, b.cols.Sorted (· < ·))
    (hcols : ∀ b ∈ bs, ∀ c, c ∈ b.cols ↔ ∃ r ∈ b.rows, c ∈ colsOf r)
    (hdis : bs.Pairwise (fun a b => ∀ c ∈ a.cols, c ∉ b.cols)) :
    (∀ b ∈ bs, RowsLive m rg b) ∧
    (1 < bs.length → ∀ b ∈ bs, b.cols.length < block.cols.length) := by
  have hlive : ∀ b ∈ bs, RowsLive m rg b := by
    intro b hb r hr
    obtain ⟨c, hc, x, hx, hxr⟩ := hL r (hsub b hb r hr)
    have := hC.2 c hc x hx
    rw [hxr] at this
    exact ⟨c, (hcols b hb c).mpr ⟨r, hr, this⟩, x, hx, hxr⟩
  refine ⟨hlive, ?_⟩
  intro hlen b hb
  obtain ⟨b2, hb2, hR⟩ := pairwise_other _ bs hdis hlen b hb
  obtain ⟨r2, hr2⟩ := List.exists_mem_of_ne_nil _ (hne b2 hb2)
  obtain ⟨c, hc, _, _, _⟩ := hlive b2 hb2 r2 hr2
  have hcb : c ∈ block.cols := by
    obtain ⟨r, hr, hcr⟩ := (hcols b2 hb2 c).mp hc
    exact (hC.1 r (hsub b2 hb2 r hr) c hcr).1
  refine length_lt_of_subset_missing b.cols block.cols c
    ((hcs b hb).imp (fun h => Nat.ne_of_lt h)) ?_ hcb ?_
  · intro x hx
    obtain ⟨r, hr, hcr⟩ := (hcols b hb x).mp hx
    exact (hC.1 r (hsub b hb r hr) x hcr).1
  · intro hcb1
    rcases hR with h | h
    · exact h c hcb1 hc
    · exact h c hc hcb1

/-- With the detector in step, the question for the components of the block is answered,
the blocks returned meet the invariant, and when there are at least two of them each
has fewer columns than the block. -/
theorem decomp_total (m : DancingMatrix) (hs : List Nat) (rg mt : Nat → List Nat) (block : Block)
    (hB : BInv m hs rg mt block) (hG : GOK m rg block) (hL : RowsLive m rg block)
    (he : m.enableGraphSync = true) :
    ∃ bs, (if m.useETT then
              (match m.detector with
               | none => none
               | some d => d.GetBlocks block.rows)
            else if m.useIG then m.getComponentsByIG block.rows
            else some []) = some bs ∧
      (∀ b ∈ bs, BInv m hs rg mt b ∧ GOK m rg b ∧ RowsLive m rg b) ∧
      (1 < bs.length → ∀ b ∈ bs, b.cols.length < block.cols.length) := by
  have hfin : ∀ bs, (if m.useETT then
              (match m.detector with
               | none => none
               | some d => d.GetBlocks block.rows)
            else if m.useIG then m.getComponentsByIG block.rows
            else some []) = some bs →
      ((∀ b ∈ bs, RowsLive m rg b) ∧
        (1 < bs.length → ∀ b ∈ bs, b.cols.length < block.cols.length)) →
      ∃ bs, (if m.useETT then
              (match m.detector with
               | none => none
               | some d => d.GetBlocks block.rows)
            else if m.useIG then m.getComponentsByIG block.rows
            else some []) = some bs ∧
      (∀ b ∈ bs, BInv m hs rg mt b ∧ GOK m rg b ∧ RowsLive m rg b) ∧
      (1 < bs.length → ∀ b ∈ bs, b.cols.length < block.cols.length) := by
    intro bs hget hrest
    have hok := decomp_ok m hs rg mt block bs hB hG he hget
    exact ⟨bs, hget, fun b hb => ⟨(hok b hb).1, (hok b hb).2, hrest.1 b hb⟩, hrest.2⟩
  obtain ⟨hE, hI⟩ := hG he
  by_cases hu : m.useETT = true
  · obtain ⟨d, hd, r1, r2, r3⟩ := hE hu
    obtain ⟨mp, hgr, g1, g2, g3⟩ := groupByComponent_spec d block.rows [] []
      ⟨List.Pairwise.nil, by simp, by simp⟩ (fun r hr _ => Option.isSome_iff_exists.mp (r1 r hr).2)
    rw [List.nil_append] at g2 g3
    by_cases hlen : mp.length ≤ 1
    · apply hfin []
      · rw [if_pos hu, hd]
        dsimp only
        unfold ComponentDetector.GetBlocks
        rw [hgr]
        dsimp only
        rw [if_pos hlen]
      · exact ⟨fun b hb => by simp at hb, fun h => by simp at h⟩
    · apply hfin (mp.map (fun e =>
        Block.mk e.2 (e.2.foldl (fun cs r => (mapGet d.row_to_cols r).foldl
          (fun cs2 c => setInsert c cs2) cs) [])))
      · rw [if_pos hu, hd]
        dsimp only
        unfold ComponentDetector.GetBlocks
        rw [hgr]
        dsimp only
        rw [if_neg hlen]
      · have hbs : ∀ b ∈ mp.map (fun e =>
            Block.mk e.2 (e.2.foldl (fun cs r => (mapGet d.row_to_cols r).foldl
              (fun cs2 c => setInsert c cs2) cs) [])),
            ∃ e ∈ mp, b.rows = e.2 ∧ b.cols.Sorted (· < ·) ∧
              ∀ c, c ∈ b.cols ↔ ∃ r ∈ e.2, c ∈ mapGet d.row_to_cols r := by
          intro b hb
          obtain ⟨e, hemem, hbe⟩ := List.mem_map.mp hb
          obtain ⟨c1, c2⟩ := blockCols_spec d.row_to_cols e.2 [] List.Pairwise.nil
          subst hbe
          exact ⟨e, hemem, rfl, c1, by intro c; rw [c2 c]; simp⟩
        apply subblocks_smaller (fun r => mapGet d.row_to_cols r) m rg block _ r2 hL
        · intro b hb r hr
          obtain ⟨e, he1, he2, _, _⟩ := hbs b hb
          rw [he2] at hr
          exact (((g2 e he1).2.2 r).mp hr).1
        · intro b hb
          obtain ⟨e, he1, he2, _, _⟩ := hbs b hb
          rw [he2]
          exact (g2 e he1).1
        · intro b hb
          obtain ⟨e, he1, he2, he3, _⟩ := hbs b hb
          exact he3
        · intro b hb c
          obtain ⟨e, he1, he2, _, he4⟩ := hbs b hb
          rw [he4 c, he2]
        · rw [List.pairwise_map]
          refine g1.imp_of_mem ?_
          intro e1 e2 he1 he2 hne c hc1 hc2
          obtain ⟨q1, q2⟩ := blockCols_spec d.row_to_cols e1.2 [] List.Pairwise.nil
          obtain ⟨q3, q4⟩ := blockCols_spec d.row_to_cols e2.2 [] List.Pairwise.nil
          have hc1 := (q2 c).mp hc1
          have hc2 := (q4 c).mp hc2
          simp only [List.not_mem_nil, false_or] at hc1 hc2
          obtain ⟨u, hu1, hu2⟩ := hc1
          obtain ⟨v, hv1, hv2⟩ := hc2
          have hu3 := ((g2 e1 he1).2.2 u).mp hu1
          have hv3 := ((g2 e2 he2).2.2 v).mp hv1
          have := r3 u hu3.1 v hv3.1 ⟨c, hu2, hv2⟩
          rw [hu3.2.2, hv3.2.2] at this
          exact hne (Option.some.inj this)
  · have hu0 : m.useETT = false := by
      cases h : m.useETT
      · rfl
      · exact absurd h hu
    by_cases hi : m.useIG = true
    · obtain ⟨g, hg, hlen, r1, r2⟩ := hI hu0 hi
      obtain ⟨bs1, hcomp, s1, s2, s3, s4, s5, s6⟩ :=
        computeComponentsInRows_spec g block.rows (fun r hr => (r1 r hr).1)
      apply hfin bs1
      · rw [if_neg hu, if_pos hi]
        unfold DancingMatrix.getComponentsByIG
        rw [hg]
        exact hcomp
      · exact subblocks_smaller g.active m rg block bs1 r2 hL
          (fun b hb r hr => (s3 r).mpr ⟨b, hb, hr⟩) (fun b hb => (s1 b hb).1)
          (fun b hb => (s1 b hb).2.2) s6 s4
    · apply hfin []
      · rw [if_neg hu, if_neg hi]
      · exact ⟨fun b hb => by simp at hb, fun h => by simp at h⟩

theorem rowsLive_auxEq (a b : DancingMatrix) (rg : Nat → List Nat) (block : Block)
    (h : AuxEq a b) (hL : RowsLive b rg block) : RowsLive a rg block := by
  unfold AuxEq at h
  rw [h]
  exact hL

theorem sound_rel (mt : Nat → List Nat) (a b : DancingMatrix) (block : Block) (h : Rel a b)
    (hS : Sound mt b block) : Sound mt a block := by
  obtain ⟨hs, rg, h1, h2, h3⟩ := hS
  exact ⟨hs, rg, binv_auxEq _ _ _ _ _ _ h.1 h1, gok_rel _ _ _ _ h h2, rowsLive_auxEq _ _ _ _ h.1 h3⟩

theorem sorted_subset_length (l1 l2 : List Nat) (h1 : l1.Sorted (· < ·))
    (hsub : ∀ x ∈ l1, x ∈ l2) : l1.length ≤ l2.length :=
  (List.Nodup.subperm (h1.imp (fun h => Nat.ne_of_lt h)) hsub).length_le

/-- One turn of the branching loop of `DXD` on a sound block: the call of `dxd` is made on
a sound block with at most as many columns, and the turn ends in a state related to
the one it began in. -/
theorem branchLoop_turn (mt : Nat → List Nat) (n : Nat) (dxd : Search)
    (hdxd : TotalBelow mt n dxd) (choose : Nat) (depth : Int) (z f : Nat) (s : DanceDNNF)
    (block : Block) (tot : DNNFResult) (x : Nat)
    (hS : Sound mt s.m block) (hn : block.cols.length < n) (hd : s.deadline = none)
    (hz : s.m.COLS < z ∧ z < s.m.nodes ∧ z ≠ choose)
    (hzc : ∀ y ∈ mt z, nth s.m.col y ∈ block.cols) :
    ∀ (P : Outcome (DNNFResult × Block × DanceDNNF) → Prop),
      (∀ s6 tot1, Rel s6.m s.m → s6.deadline = none →
        P (branchLoop dxd choose depth f s6 block tot1 x (nth s6.m.down z))) →
      P (branchLoop dxd choose depth (f + 1) s block tot x z) := by
  obtain ⟨hs, rg, hB, hG, hL⟩ := hS
  obtain ⟨hz1, hz2, hz3⟩ := hz
  have hRz := hB.rgood.2 z hz1 hz2
  have hlen : (mt z).length < s.m.fuel := by
    have := nodup_bounded_length s.m.nodes (mt z) hRz.2.2.2.1
      (fun y hy => ((hRz.2.2.2.2 y).mp hy).2.1)
    unfold DancingMatrix.fuel; unfold DancingMatrix.nodes at this; omega
  obtain ⟨m1, hs1, rg1, b2, hrun, _, _, hstat, hundo⟩ :=
    coverRowInBlock_frame mt z (mt z) [] s.m hs rg block s.m.fuel hB hG hz1 hz2
      (List.nil_append _).symm hzc hlen
  obtain ⟨m1a, hs1a, rg1a, b2a, hruna, hB1, hG1, hL1, hcols1⟩ :=
    coverRowInBlock_inv mt z RowsLive (rowsLive_kept mt) (mt z) [] s.m hs rg block s.m.fuel hB hG
      hL hz1 hz2 (List.nil_append _).symm hzc hlen
  have hsame := hrun.symm.trans hruna
  simp only [Option.some.injEq, Prod.mk.injEq, and_true] at hsame
  obtain ⟨e1, e2⟩ := hsame
  subst e1
  subst e2
  rw [List.getLastD_nil] at hrun
  have hlen2 : b2.cols.length < n := by
    have := sorted_subset_length b2.cols block.cols hB1.csorted (fun c hc => ((hcols1 c).mp hc).1)
    omega
  obtain ⟨result, s3, hrec, hrel3, hd3⟩ := hdxd { s with m := m1 } b2 (depth + 1)
    ⟨hs1a, rg1a, hB1, hG1, hL1⟩ hd hlen2
  have hrel3 : Rel s3.m m1 := hrel3
  obtain ⟨m3, hrel, heq⟩ := hundo s3.m hrel3
  have hf3 := auxEq_fields s3.m m1 hrel3.1
  have hf := auxEq_fields m3 s.m hrel.1
  obtain ⟨g1, hg1⟩ : ∃ g1, s.m.nodes + 1 - (mt z).length = g1 + 1 := by
    unfold DancingMatrix.fuel at hlen
    unfold DancingMatrix.nodes
    exact ⟨s.m.col.length + 1 - (mt z).length - 1, by omega⟩
  intro P hP
  rw [branchLoop, if_neg hz3, hrun]
  dsimp only
  rw [detectorDeleteEdges_nil]
  dsimp only
  rw [hrec]
  dsimp only
  generalize hs4 : (if (!result.isZero) = true then _ else s3) = s4
  have hm4 : s4.m = s3.m := by
    rw [← hs4]
    split_ifs
    · exact (buildDecisionNode_frame _ _ _ _).1
    · rfl
  have hd4 : s4.deadline = none := by
    rw [← hs4]
    split_ifs
    · rw [(buildDecisionNode_frame _ _ _ _).2.1]; exact hd3
    · exact hd3
  generalize (if (!result.isZero) = true then _ else tot) = tot1
  have hleft : nth s4.m.left z = (mt z).getLastD z := by
    have ha := hB1.rgood.2 z (by rw [hstat.2.2.1]; exact hz1) (by rw [hstat.2.2.2]; exact hz2)
    rw [hm4, hf3.1, chain_head _ _ _ _ ha.2.2.1, headD_reverse]
  have hfuel : s4.m.fuel = (s.m.nodes + 1 - (mt z).length) + (mt z).length := by
    have : s4.m.fuel = s.m.fuel := by
      unfold DancingMatrix.fuel
      rw [hm4, hf3.2.2.2.2.1, hstat.1]
    rw [this]
    unfold DancingMatrix.fuel at hlen ⊢
    unfold DancingMatrix.nodes
    omega
  rw [hleft, hfuel, hm4, heq]
  rw [List.getLastD_nil, hg1, uncoverRowInBlock_nil]
  dsimp only
  rw [detectorAddEdges_nil]
  exact hP { s4 with m := m3 } tot1 hrel hd4

theorem selectOptimalColumn_some (m : DancingMatrix) (cols : List Nat) (h : cols ≠ []) :
    ∃ c, m.selectOptimalColumn cols = some c := by
  unfold DancingMatrix.selectOptimalColumn
  split_ifs
  · unfold DancingMatrix.selectColumnByMinHeap
    have hspec := heapFold_spec (fun c => nthI m.size c) cols [] List.Pairwise.nil
    cases hheap : cols.foldl (fun h colId => heapPush (colId, nthI m.size colId) h) [] with
    | nil =>
      obtain ⟨c, hc⟩ := List.exists_mem_of_ne_nil _ h
      have := (hspec.2 (c, nthI m.size c)).mpr (Or.inr ⟨c, hc, rfl⟩)
      rw [hheap] at this
      simp at this
    | cons a rest => exact ⟨_, rfl⟩
  · unfold DancingMatrix.selectColumnByLinear
    cases cols with
    | nil => exact absurd rfl h
    | cons c0 rest => exact ⟨_, rfl⟩

/-- The branching loop of `DXD` on a sound block, entered below the cell or header `a` of
the chosen column with the live cells `post` still to come: it returns, gives back the
block and ends in a state related to the one it began in. -/
theorem branchLoop_total (mt : Nat → List Nat) (n : Nat) (dxd : Search)
    (hdxd : TotalBelow mt n dxd) (choose : Nat) (depth : Int) :
    ∀ (post : List Nat) (a f : Nat) (s : DanceDNNF) (block : Block) (tot : DNNFResult) (x : Nat),
      Sound mt s.m block → block.cols.length < n → s.deadline = none →
      Chain s.m.down a post choose →
      (∀ z ∈ post, (s.m.COLS < z ∧ z < s.m.nodes ∧ z ≠ choose) ∧
        ∀ y ∈ mt z, nth s.m.col y ∈ block.cols) →
      post.length < f →
      ∃ r s1, branchLoop dxd choose depth f s block tot x (nth s.m.down a) =
          Outcome.ok (r, block, s1) ∧ Rel s1.m s.m ∧ s1.deadline = none := by
  intro post
  induction post with
  | nil =>
    intro a f s block tot x _ _ hd hch _ hf
    have hnext : nth s.m.down a = choose := hch
    obtain ⟨f1, rfl⟩ : ∃ f1, f = f1 + 1 := ⟨f - 1, by simp at hf; omega⟩
    rw [hnext, branchLoop, if_pos rfl]
    exact ⟨tot, s, rfl, rel_refl _, hd⟩
  | cons z post ih =>
    intro a f s block tot x hS hn hd hch hcells hf
    have hnext : nth s.m.down a = z := hch.1
    obtain ⟨hz, hzcols⟩ := hcells z (List.mem_cons_self _ _)
    obtain ⟨f1, rfl⟩ : ∃ f1, f = f1 + 1 := ⟨f - 1, by simp at hf; omega⟩
    rw [hnext]
    refine branchLoop_turn mt n dxd hdxd choose depth z f1 s block tot x hS hn hd hz hzcols
      (fun o => ∃ r s1, o = Outcome.ok (r, block, s1) ∧ Rel s1.m s.m ∧ s1.deadline = none) ?_
    intro s6 tot1 hrel hd6
    have hfl := auxEq_fields s6.m s.m hrel.1
    obtain ⟨r, s1, h1, h2, h3⟩ := ih z f1 s6 block tot1 x (sound_rel mt _ _ _ hrel hS) hn hd6
      (by rw [hfl.2.2.2.1]; exact hch.2)
      (by
        intro w hw
        have := hcells w (List.mem_cons_of_mem _ hw)
        unfold DancingMatrix.nodes at this ⊢
        rw [hfl.2.2.2.2.1, hfl.2.2.2.2.2.2.2.1]
        exact this)
      (by simp at hf; omega)
    exact ⟨r, s1, h1, rel_trans _ _ _ h2 hrel, h3⟩

/-- The branching part of a frame of `DXD` on a sound block with at least one column and at
most `n` columns returns, gives back the block and ends in a state related to the one
it began in. -/
theorem branchStep_total (mt : Nat → List Nat) (n : Nat) (dxd : Search)
    (hdxd : TotalBelow mt n dxd) (block : Block) (depth : Int) (state : Nat) (s : DanceDNNF)
    (hS : Sound mt s.m block) (hne : block.cols ≠ []) (hn : block.cols.length ≤ n)
    (hd : s.deadline = none) :
    ∃ r s1, branchStep dxd block depth state s = Outcome.ok (r, block, s1) ∧ Rel s1.m s.m ∧
      s1.deadline = none := by
  obtain ⟨hs, rg, hB, hG, hL⟩ := hS
  obtain ⟨choose, hsel⟩ := selectOptimalColumn_some s.m block.cols hne
  have hch := selectOptimalColumn_mem _ _ _ hsel
  have hcc := hB.hgood.2.2.2 choose (hB.cols_unc choose hch)
  unfold branchStep
  rw [hsel]
  dsimp only
  by_cases hsz : nthI s.m.size choose ≤ 0
  · rw [if_pos hsz]
    exact ⟨_, _, rfl, rel_refl _, hd⟩
  rw [if_neg hsz, hB.hdr choose hch]
  obtain ⟨m1, b2, rem, hcov, hB1, hG1, hb2, hstat, hrem, hundo⟩ :=
    coverInBlock_frame s.m hs rg mt block choose [] hB hG hch
  have hL1 := rowsLive_kept mt s.m hs rg block choose m1 b2 rem hB hG hch hL hcov hB1 hb2 hrem
  rw [hcov]
  dsimp only
  rw [detectorDeleteEdges_nil]
  dsimp only
  have hVc := hB.vgood.2 choose hcc.1 hcc.2
  have hV1 := hB1.vgood.2 choose hcc.1 (by rw [hstat.2.2.1]; exact hcc.2)
  have hlen2 : b2.cols.length < n := by
    rw [hb2]
    unfold setErase
    rw [List.length_erase_of_mem hch]
    have : 0 < block.cols.length := List.length_pos.mpr hne
    omega
  obtain ⟨total, s3, hloop, hrel3, hd3⟩ := branchLoop_total mt n dxd hdxd choose depth _ choose
    m1.fuel { s with m := m1 } b2 (DNNFResult.ofCount 0) DanceDNNF.F
    ⟨_, _, hB1, hG1, hL1⟩ hlen2 hd hV1.1
    (by
      intro z hz
      have hz1 := hV1.2.2.2 z hz
      have hz0 := ((mem_filter_not_mem _ _ _).mp hz).1
      have hzc := hVc.2.2.2 z hz0
      refine ⟨⟨hz1.1, hz1.2.1, by omega⟩, ?_⟩
      intro y hy
      show nth m1.col y ∈ b2.cols
      rw [hb2, hstat.1]
      refine (mem_setErase_sorted _ _ _ hB.csorted).mpr ⟨?_, hB.closed choose hch z hz0 y hy⟩
      have := hB.distinct z hzc.1 hzc.2.1 y hy
      rw [hzc.2.2] at this
      exact this)
    (by
      have := nodup_bounded_length m1.nodes _ hV1.2.2.1 (fun z hz => (hV1.2.2.2 z hz).2.1)
      unfold DancingMatrix.fuel; unfold DancingMatrix.nodes at this; omega)
  have hrel3 : Rel s3.m m1 := hrel3
  rw [hloop]
  dsimp only
  have hcol3 : nth s3.m.col choose = choose := by
    rw [(auxEq_fields _ _ hrel3.1).2.2.2.2.1, hstat.1]
    exact hB.hdr choose hch
  obtain ⟨m5, hm5, hrel5⟩ := hundo s3.m hrel3
  rw [hcol3, hm5]
  dsimp only
  rw [detectorAddEdges_nil]
  exact ⟨_, _, rfl, hrel5, hd3⟩

theorem serialSearch_total (mt : Nat → List Nat) (n : Nat) (dxd : Search)
    (hdxd : TotalBelow mt n dxd) (depth : Int) :
    ∀ (blocks : List Block) (tot : DNNFResult) (s : DanceDNNF),
      (∀ b ∈ blocks, Sound mt s.m b ∧ b.cols.length < n) → s.deadline = none →
      ∃ r s1, serialSearch dxd depth blocks tot s = Outcome.ok (r, s1) ∧ Rel s1.m s.m ∧
        s1.deadline = none := by
  intro blocks
  induction blocks with
  | nil =>
    intro tot s _ hd
    exact ⟨tot, s, rfl, rel_refl _, hd⟩
  | cons b rest ih =>
    intro tot s hall hd
    obtain ⟨hS, hn⟩ := hall b (List.mem_cons_self _ _)
    obtain ⟨result, s1, hrec, hrel, hd1⟩ := hdxd s b (depth + 1) hS hd hn
    rw [serialSearch, hrec]
    dsimp only
    by_cases hz : result.isZero = true
    · rw [if_pos hz]
      exact ⟨_, _, rfl, hrel, hd1⟩
    · rw [if_neg hz]
      obtain ⟨r, s2, h1, h2, h3⟩ := ih (tot.mul result) s1
        (fun b3 hb3 => ⟨sound_rel mt _ _ _ hrel (hall b3 (List.mem_cons_of_mem _ hb3)).1,
          (hall b3 (List.mem_cons_of_mem _ hb3)).2⟩) hd1
      exact ⟨r, s2, h1, rel_trans _ _ _ h2 hrel, h3⟩

theorem parallelLoop_skip_total (dxd : Search) (depth : Int) :
    ∀ (blocks : List Block) (results : List DNNFResult) (s : DanceDNNF),
      ∃ res, parallelLoop dxd depth blocks results true false s = some (res, true, false, s) := by
  intro blocks
  induction blocks with
  | nil => intro results s; exact ⟨results, rfl⟩
  | cons b rest ih =>
    intro results s
    rw [parallelLoop]
    simp only [Bool.or_false, if_true]
    exact ih _ s

theorem parallelLoop_total (mt : Nat → List Nat) (n : Nat) (dxd : Search)
    (hdxd : TotalBelow mt n dxd) (depth : Int) :
    ∀ (blocks : List Block) (results : List DNNFResult) (s : DanceDNNF),
      (∀ b ∈ blocks, Sound mt s.m b ∧ b.cols.length < n) → s.deadline = none →
      ∃ res hf1 s1, parallelLoop dxd depth blocks results false false s =
          some (res, hf1, false, s1) ∧ Rel s1.m s.m ∧ s1.deadline = none := by
  intro blocks
  induction blocks with
  | nil =>
    intro results s _ hd
    exact ⟨results, false, s, rfl, rel_refl _, hd⟩
  | cons b rest ih =>
    intro results s hall hd
    obtain ⟨hS, hn⟩ := hall b (List.mem_cons_self _ _)
    obtain ⟨result, s1, hrec, hrel, hd1⟩ := hdxd s b (depth + 1) hS hd hn
    rw [parallelLoop]
    simp only [Bool.or_false, Bool.false_eq_true, if_false]
    rw [hrec]
    dsimp only
    by_cases hz : result.isZero = true
    · rw [if_pos hz]
      obtain ⟨res, hres⟩ := parallelLoop_skip_total dxd depth rest (results ++ [DNNFResult.zero]) s1
      exact ⟨res, true, s1, hres, hrel, hd1⟩
    · rw [if_neg hz]
      obtain ⟨res, hf1, s2, h1, h2, h3⟩ := ih (results ++ [result]) s1
        (fun b3 hb3 => ⟨sound_rel mt _ _ _ hrel (hall b3 (List.mem_cons_of_mem _ hb3)).1,
          (hall b3 (List.mem_cons_of_mem _ hb3)).2⟩) hd1
      exact ⟨res, hf1, s2, h1, rel_trans _ _ _ h2 hrel, h3⟩

theorem parallelSearchUseOmp_total (mt : Nat → List Nat) (n : Nat) (dxd : Search)
    (hdxd : TotalBelow mt n dxd) (depth : Int) (blocks : List Block) (s : DanceDNNF)
    (hall : ∀ b ∈ blocks, Sound mt s.m b ∧ b.cols.length < n) (hd : s.deadline = none) :
    ∃ r s1, parallelSearchUseOmp dxd depth blocks s = Outcome.ok (r, s1) ∧ Rel s1.m s.m ∧
      s1.deadline = none := by
  obtain ⟨res, hf1, s1, h1, h2, h3⟩ := parallelLoop_total mt n dxd hdxd depth blocks [] s hall hd
  unfold parallelSearchUseOmp
  rw [h1]
  dsimp only
  simp only [Bool.false_eq_true, if_false]
  by_cases hf : hf1 = true
  · rw [if_pos hf]; exact ⟨_, _, rfl, h2, h3⟩
  · rw [if_neg hf]; exact ⟨_, _, rfl, h2, h3⟩

theorem rel_syncOff (m : DancingMatrix) (hu : m.useETT = true) :
    Rel ({ m with enableGraphSync := false } : DancingMatrix) m := by
  refine ⟨rfl, ?_, ?_⟩
  · intro hf; cases hf
  · intro hf; rw [hu] at hf; cases hf

theorem totalBelow_mono (mt : Nat → List Nat) (n k : Nat) (dxd : Search)
    (h : TotalBelow mt n dxd) (hk : k ≤ n) : TotalBelow mt k dxd :=
  fun s block depth hS hd hl => h s block depth hS hd (by omega)

/-- The search of the blocks of a decomposition returns, whichever of the two searches
is used. -/
theorem blocksSearch_total (mt : Nat → List Nat) (n : Nat) (dxd : Search)
    (hdxd : TotalBelow mt n dxd) (depth : Int) (curBlock : List Block) (s2 : DanceDNNF)
    (hall : ∀ b ∈ curBlock, Sound mt s2.m b ∧ b.cols.length < n) (hd : s2.deadline = none) :
    ∃ r s3, (if s2.isParallelSearch then parallelSearchUseOmp dxd depth curBlock s2
             else serialSearch dxd depth curBlock (DNNFResult.ofCount 1) s2) = Outcome.ok (r, s3) ∧
      Rel s3.m s2.m ∧ s3.deadline = none := by
  by_cases hp : s2.isParallelSearch = true
  · rw [if_pos hp]
    exact parallelSearchUseOmp_total mt n dxd hdxd depth curBlock s2 hall hd
  · rw [if_neg hp]
    exact serialSearch_total mt n dxd hdxd depth curBlock _ s2 hall hd

theorem decompStep_total (mt : Nat → List Nat) (n : Nat) (dxd : Search)
    (hdxd : TotalBelow mt n dxd) (block : Block) (depth : Int) (state : Nat) (s : DanceDNNF)
    (curBlock : List Block)
    (hS : Sound mt s.m block) (hne : block.cols ≠ []) (hn : block.cols.length ≤ n)
    (hd : s.deadline = none) (hsub : ∀ b ∈ curBlock, Sound mt s.m b)
    (hlt : 1 < curBlock.length → ∀ b ∈ curBlock, b.cols.length < block.cols.length) :
    ∃ r s1, decompStep dxd block depth state s curBlock = Outcome.ok (r, block, s1) ∧
      Rel s1.m s.m ∧ s1.deadline = none := by
  unfold decompStep
  dsimp only
  by_cases h4 : curBlock.length > 1
  · rw [if_pos h4]
    have hlen : ∀ b ∈ curBlock, b.cols.length < n := fun b hb => by
      have := hlt h4 b hb
      omega
    by_cases hc1 : (s.m.useETT && s.isParallelSearch) = true
    · rw [if_pos hc1]
      have hu : s.m.useETT = true := by
        simp only [Bool.and_eq_true] at hc1
        exact hc1.1
      obtain ⟨r, s3, h1, h2, h3⟩ := blocksSearch_total mt n dxd hdxd depth curBlock
        { s with MAX_B_COUNT := max s.MAX_B_COUNT curBlock.length,
                 m := { s.m with enableGraphSync := false } }
        (fun b hb => ⟨sound_rel mt _ _ _ (rel_syncOff s.m hu) (hsub b hb), hlen b hb⟩) hd
      rw [h1]
      exact ⟨_, _, rfl, rel_trans _ _ _ h2 (rel_syncOff s.m hu), h3⟩
    · rw [if_neg hc1]
      obtain ⟨r, s3, h1, h2, h3⟩ := blocksSearch_total mt n dxd hdxd depth curBlock
        { s with MAX_B_COUNT := max s.MAX_B_COUNT curBlock.length }
        (fun b hb => ⟨hsub b hb, hlen b hb⟩) hd
      rw [h1]
      exact ⟨_, _, rfl, h2, h3⟩
  · rw [if_neg h4]
    exact branchStep_total mt n dxd hdxd block depth state
      { s with MAX_B_COUNT := max s.MAX_B_COUNT curBlock.length } hS hne hn hd

/-- One frame of `DXD` on a sound block with at most `n` columns returns when the calls
it makes on sound blocks with fewer than `n` columns return. -/
theorem DXDstep_total (mt : Nat → List Nat) (n : Nat) (dxd : Search)
    (hdxd : TotalBelow mt n dxd) (s0 : DanceDNNF) (block : Block) (depth : Int)
    (hS : Sound mt s0.m block) (hd : s0.deadline = none) (hn : block.cols.length ≤ n) :
    ∃ r s1, DXDstep dxd s0 block depth = Outcome.ok (r, block, s1) ∧ Rel s1.m s0.m ∧
      s1.deadline = none := by
  rw [DXDstep_eq]
  have htb : s0.timeBoundBroken.1 = false := by
    unfold DanceDNNF.timeBoundBroken
    rw [hd]
  have hm : s0.timeBoundBroken.2.m = s0.m := rfl
  have hd2 : s0.timeBoundBroken.2.deadline = none := hd
  generalize s0.timeBoundBroken.2 = s at hm hd2
  rw [← hm] at hS ⊢
  rw [htb]
  simp only [Bool.false_eq_true, if_false]
  by_cases h2 : block.cols.isEmpty = true
  · rw [if_pos h2]; exact ⟨_, _, rfl, rel_refl _, hd2⟩
  rw [if_neg h2]
  have hne : block.cols ≠ [] := fun e => h2 (by rw [e]; rfl)
  cases hc : assocGet s.countCache (hashBlockState block.cols) with
  | some r => exact ⟨_, _, rfl, rel_refl _, hd2⟩
  | none =>
    dsimp only
    by_cases h3 : block.rows.length > 2 ∧ s.m.enableGraphSync = true
    · rw [if_pos h3]
      obtain ⟨hs, rg, hB, hG, hL⟩ := hS
      obtain ⟨bs, hbs, hsub, hlt⟩ := decomp_total s.m hs rg mt block hB hG hL h3.2
      have hdb : detectBlocks s block = some bs := hbs
      rw [hdb]
      exact decompStep_total mt n dxd hdxd block depth _ s bs ⟨hs, rg, hB, hG, hL⟩ hne hn hd2
        (fun b hb => ⟨hs, rg, hsub b hb⟩) hlt
    · rw [if_neg h3]
      exact branchStep_total mt n dxd hdxd block depth _ s hS hne hn hd2

theorem DXD_total (mt : Nat → List Nat) : ∀ fuel, TotalBelow mt fuel (DXD fuel)
  | 0 => fun _ _ _ _ _ h => absurd h (Nat.not_lt_zero _)
  | fuel + 1 => fun s block depth hS hd hn => by
    rw [DXD_succ]
    exact DXDstep_total mt fuel (DXD fuel) (DXD_total mt fuel) s block depth hS hd (by omega)

theorem branchLoop_within (dxd1 dxd2 : Search) (h : Within dxd1 dxd2) (choose : Nat) (depth : Int) :
    ∀ (f : Nat) (s : DanceDNNF) (block : Block) (tot : DNNFResult) (x curC : Nat),
      branchLoop dxd1 choose depth f s block tot x curC = Outcome.diverged ∨
      branchLoop dxd1 choose depth f s block tot x curC =
        branchLoop dxd2 choose depth f s block tot x curC := by
  intro f
  induction f with
  | zero => intro s block tot x curC; exact Or.inr rfl
  | succ f ih =>
    intro s block tot x curC
    rw [branchLoop, branchLoop]
    by_cases hc : curC = choose
    · rw [if_pos hc, if_pos hc]; exact Or.inr rfl
    rw [if_neg hc, if_neg hc]
    cases hcov : coverRowInBlock curC s.m.fuel s.m block [] (nth s.m.right curC) with
    | none => exact Or.inr rfl
    | some p =>
      obtain ⟨m1, block1, del⟩ := p
      dsimp only
      cases hdel : ({ s with m := m1 } : DanceDNNF).detectorDeleteEdges del with
      | none => exact Or.inr rfl
      | some s2 =>
        dsimp only
        rcases h s2 block1 (depth + 1) with hdiv | heq
        · rw [hdiv]; exact Or.inl rfl
        rw [heq]
        cases hrec : dxd2 s2 block1 (depth + 1) with
        | timeBound => exact Or.inr rfl
        | diverged => exact Or.inr rfl
        | ok q =>
          obtain ⟨result, block2, s3⟩ := q
          dsimp only
          generalize (if (!result.isZero) = true then _ else s3) = s4
          generalize (if (!result.isZero) = true then _ else tot) = tot1
          cases hun : uncoverRowInBlock curC s4.m.fuel s4.m block2 (nth s4.m.left curC) with
          | none => exact Or.inr rfl
          | some q2 =>
            obtain ⟨m5, block3⟩ := q2
            dsimp only
            cases hadd : ({ s4 with m := m5 } : DanceDNNF).detectorAddEdges del with
            | none => exact Or.inr rfl
            | some s6 => exact ih s6 block3 tot1 x _

theorem serialSearch_within (dxd1 dxd2 : Search) (h : Within dxd1 dxd2) (depth : Int) :
    ∀ (blocks : List Block) (tot : DNNFResult) (s : DanceDNNF),
      serialSearch dxd1 depth blocks tot s = Outcome.diverged ∨
      serialSearch dxd1 depth blocks tot s = serialSearch dxd2 depth blocks tot s := by
  intro blocks
  induction blocks with
  | nil => intro tot s; exact Or.inr rfl
  | cons b rest ih =>
    intro tot s
    rw [serialSearch, serialSearch]
    rcases h s b (depth + 1) with hdiv | heq
    · rw [hdiv]; exact Or.inl rfl
    rw [heq]
    cases hrec : dxd2 s b (depth + 1) with
    | timeBound => exact Or.inr rfl
    | diverged => exact Or.inr rfl
    | ok q =>
      obtain ⟨result, b2, s1⟩ := q
      dsimp only
      by_cases hz : result.isZero = true
      · rw [if_pos hz, if_pos hz]; exact Or.inr rfl
      · rw [if_neg hz, if_neg hz]; exact ih _ s1

theorem parallelLoop_within (dxd1 dxd2 : Search) (h : Within dxd1 dxd2) (depth : Int) :
    ∀ (blocks : List Block) (results : List DNNFResult) (hf ht : Bool) (s : DanceDNNF),
      parallelLoop dxd1 depth blocks results hf ht s = none ∨
      parallelLoop dxd1 depth blocks results hf ht s =
        parallelLoop dxd2 depth blocks results hf ht s := by
  intro blocks
  induction blocks with
  | nil => intro results hf ht s; exact Or.inr rfl
  | cons b rest ih =>
    intro results hf ht s
    rw [parallelLoop, parallelLoop]
    by_cases hc : (hf || ht) = true
    · rw [if_pos hc, if_pos hc]; exact ih _ _ _ s
    rw [if_neg hc, if_neg hc]
    rcases h s b (depth + 1) with hdiv | heq
    · rw [hdiv]; exact Or.inl rfl
    rw [heq]
    cases hrec : dxd2 s b (depth + 1) with
    | timeBound => exact ih _ _ _ s
    | diverged => exact Or.inr rfl
    | ok q =>
      obtain ⟨result, b2, s1⟩ := q
      dsimp only
      by_cases hz : result.isZero = true
      · rw [if_pos hz, if_pos hz]; exact ih _ _ _ s1
      · rw [if_neg hz, if_neg hz]; exact ih _ _ _ s1

theorem parallelSearchUseOmp_within (dxd1 dxd2 : Search) (h : Within dxd1 dxd2) (depth : Int)
    (blocks : List Block) (s : DanceDNNF) :
    parallelSearchUseOmp dxd1 depth blocks s = Outcome.diverged ∨
    parallelSearchUseOmp dxd1 depth blocks s = parallelSearchUseOmp dxd2 depth blocks s := by
  unfold parallelSearchUseOmp
  rcases parallelLoop_within dxd1 dxd2 h depth blocks [] false false s with hdiv | heq
  · rw [hdiv]; exact Or.inl rfl
  · rw [heq]; exact Or.inr rfl

theorem branchStep_within (dxd1 dxd2 : Search) (h : Within dxd1 dxd2) (block : Block)
    (depth : Int) (state : Nat) (s : DanceDNNF) :
    branchStep dxd1 block depth state s = Outcome.diverged ∨
    branchStep dxd1 block depth state s = branchStep dxd2 block depth state s := by
  unfold branchStep
  cases hsel : s.m.selectOptimalColumn block.cols with
  | none => exact Or.inr rfl
  | some choose =>
    dsimp only
    by_cases hsz : nthI s.m.size choose ≤ 0
    · rw [if_pos hsz, if_pos hsz]; exact Or.inr rfl
    rw [if_neg hsz, if_neg hsz]
    cases hcov : s.m.coverInBlock (nth s.m.col choose) block [] with
    | none => exact Or.inr rfl
    | some p =>
      obtain ⟨m1, block1, del⟩ := p
      dsimp only
      cases hdel : ({ s with m := m1 } : DanceDNNF).detectorDeleteEdges del with
      | none => exact Or.inr rfl
      | some s2 =>
        dsimp only
        rcases branchLoop_within dxd1 dxd2 h choose depth s2.m.fuel s2 block1
          (DNNFResult.ofCount 0) DanceDNNF.F (nth s2.m.down choose) with hdiv | heq
        · rw [hdiv]; exact Or.inl rfl
        · rw [heq]; exact Or.inr rfl

theorem decompStep_within (dxd1 dxd2 : Search) (h : Within dxd1 dxd2) (block : Block)
    (depth : Int) (state : Nat) (s : DanceDNNF) (curBlock : List Block) :
    decompStep dxd1 block depth state s curBlock = Outcome.diverged ∨
    decompStep dxd1 block depth state s curBlock = decompStep dxd2 block depth state s curBlock := by
  unfold decompStep
  dsimp only
  by_cases h4 : curBlock.length > 1
  · rw [if_pos h4, if_pos h4]
    generalize (if (s.m.useETT && s.isParallelSearch) = true then _ else _ : DanceDNNF) = s2
    by_cases hp : s2.isParallelSearch = true
    · rw [if_pos hp, if_pos hp]
      rcases parallelSearchUseOmp_within dxd1 dxd2 h depth curBlock s2 with hdiv | heq
      · rw [hdiv]; exact Or.inl rfl
      · rw [heq]; exact Or.inr rfl
    · rw [if_neg hp, if_neg hp]
      rcases serialSearch_within dxd1 dxd2 h depth curBlock (DNNFResult.ofCount 1) s2 with hdiv | heq
      · rw [hdiv]; exact Or.inl rfl
      · rw [heq]; exact Or.inr rfl
  · rw [if_neg h4, if_neg h4]
    exact branchStep_within dxd1 dxd2 h block depth state _

/-- The body of `DXD` is monotone in the search it calls. -/
theorem DXDstep_within (dxd1 dxd2 : Search) (h : Within dxd1 dxd2) :
    Within (DXDstep dxd1) (DXDstep dxd2) := by
  intro s0 block depth
  rw [DXDstep_eq, DXDstep_eq]
  by_cases h1 : s0.timeBoundBroken.1 = true
  · rw [if_pos h1, if_pos h1]; exact Or.inr rfl
  rw [if_neg h1, if_neg h1]
  by_cases h2 : block.cols.isEmpty = true
  · rw [if_pos h2, if_pos h2]; exact Or.inr rfl
  rw [if_neg h2, if_neg h2]
  cases hc : assocGet s0.timeBoundBroken.2.countCache (hashBlockState block.cols) with
  | some r => exact Or.inr rfl
  | none =>
    dsimp only
    by_cases h3 : block.rows.length > 2 ∧ s0.timeBoundBroken.2.m.enableGraphSync = true
    · rw [if_pos h3, if_pos h3]
      cases hdb : detectBlocks s0.timeBoundBroken.2 block with
      | none => exact Or.inr rfl
      | some bs => exact decompStep_within dxd1 dxd2 h block depth _ _ bs
    · rw [if_neg h3, if_neg h3]
      exact branchStep_within dxd1 dxd2 h block depth _ _

theorem within_trans (a b c : Search) (h1 : Within a b) (h2 : Within b c) : Within a c := by
  intro s block depth
  rcases h1 s block depth with h | h
  · exact Or.inl h
  · rw [h]; exact h2 s block depth

theorem guardCols_within (n : Nat) (dxd : Search) : Within (guardCols n dxd) dxd := by
  intro s block depth
  unfold guardCols
  by_cases h : block.cols.length < n
  · rw [if_pos h]; exact Or.inr rfl
  · rw [if_neg h]; exact Or.inl rfl

/-- The search with the check returns only what `DXD` returns. -/
theorem DXDcols_within : ∀ fuel, Within (DXDcols fuel) (DXD fuel)
  | 0 => fun _ _ _ => Or.inl rfl
  | fuel + 1 => fun s block depth => by
    rw [DXD_succ]
    exact DXDstep_within _ _
      (within_trans _ _ _ (guardCols_within block.cols.length (DXDcols fuel)) (DXDcols_within fuel))
      s block depth

theorem guardCols_total (mt : Nat → List Nat) (n : Nat) (dxd : Search) (h : TotalBelow mt n dxd) :
    TotalBelow mt n (guardCols n dxd) := by
  intro s block depth hS hd hl
  unfold guardCols
  rw [if_pos hl]
  exact h s block depth hS hd hl

/-- The search with the check returns on every sound block with fewer than `fuel`
columns: no recursive call is stopped by the check. -/
theorem DXDcols_total (mt : Nat → List Nat) : ∀ fuel, TotalBelow mt fuel (DXDcols fuel)
  | 0 => fun _ _ _ _ _ h => absurd h (Nat.not_lt_zero _)
  | fuel + 1 => fun s block depth hS hd hn => by
    show ∃ r s1, DXDstep (guardCols block.cols.length (DXDcols fuel)) s block depth = _ ∧ _
    exact DXDstep_total mt block.cols.length _
      (guardCols_total mt _ _ (totalBelow_mono mt fuel _ _ (DXDcols_total mt fuel) (by omega)))
      s block depth hS hd (le_refl _)

theorem mapModify_fst (mp : List (Nat × List Nat)) (k : Nat) (f : List Nat → List Nat) :
    (mapModify mp k f).map Prod.fst =
      if mp.any (fun e => e.1 = k) then mp.map Prod.fst else mp.map Prod.fst ++ [k] := by
  unfold mapModify
  split_ifs with h
  · rw [List.map_map]
    apply List.map_congr_left
    intro e _
    simp only [Function.comp]
    split_ifs <;> rfl
  · simp

theorem mapModify_keys (mp : List (Nat × List Nat)) (k : Nat) (f : List Nat → List Nat)
    (h : (mp.map Prod.fst).Nodup) : ((mapModify mp k f).map Prod.fst).Nodup := by
  rw [mapModify_fst]
  split_ifs with ha
  · exact h
  · rw [List.nodup_append]
    refine ⟨h, List.nodup_singleton _, ?_⟩
    intro a ha1 ha2
    rw [List.mem_singleton] at ha2
    subst ha2
    apply ha
    rw [List.any_eq_true]
    obtain ⟨e, he, he1⟩ := List.mem_map.mp ha1
    exact ⟨e, he, by simpa using he1⟩

theorem mem_mapModify_elim (mp : List (Nat × List Nat)) (k : Nat) (f : List Nat → List Nat)
    (e : Nat × List Nat) (h : e ∈ mapModify mp k f) :
    (e ∈ mp ∧ e.1 ≠ k) ∨ (e.1 = k ∧ ((∃ old, (k, old) ∈ mp ∧ e.2 = f old) ∨ e.2 = f [])) := by
  unfold mapModify at h
  split_ifs at h with ha
  · obtain ⟨e0, he0, hee⟩ := List.mem_map.mp h
    by_cases hk : e0.1 = k
    · rw [if_pos hk] at hee
      subst hee
      exact Or.inr ⟨hk, Or.inl ⟨e0.2, by rw [← hk]; exact he0, rfl⟩⟩
    · rw [if_neg hk] at hee
      subst hee
      exact Or.inl ⟨he0, hk⟩
  · rcases List.mem_append.mp h with h1 | h1
    · left
      refine ⟨h1, fun hk => ha ?_⟩
      rw [List.any_eq_true]
      exact ⟨e, h1, by simpa using hk⟩
    · rw [List.mem_singleton] at h1
      subst h1
      exact Or.inr ⟨rfl, Or.inr rfl⟩

theorem mem_mapModify_of_ne (mp : List (Nat × List Nat)) (k : Nat) (f : List Nat → List Nat)
    (e : Nat × List Nat) (h : e ∈ mp) (hk : e.1 ≠ k) : e ∈ mapModify mp k f := by
  unfold mapModify
  split_ifs with ha
  · exact List.mem_map.mpr ⟨e, h, by rw [if_neg hk]⟩
  · exact List.mem_append_left _ h

theorem mem_mapModify_of_eq (mp : List (Nat × List Nat)) (k : Nat) (f : List Nat → List Nat)
    (e : Nat × List Nat) (h : e ∈ mp) (hk : e.1 = k) : (k, f e.2) ∈ mapModify mp k f := by
  unfold mapModify
  have ha : mp.any (fun e => decide (e.1 = k)) = true := by
    rw [List.any_eq_true]
    exact ⟨e, h, by simpa using hk⟩
  rw [if_pos ha]
  exact List.mem_map.mpr ⟨e, h, by rw [if_pos hk, hk]⟩

theorem mapModify_has_key (mp : List (Nat × List Nat)) (k : Nat) (f : List Nat → List Nat) :
    ∃ e ∈ mapModify mp k f, e.1 = k ∧ ((∃ old, (k, old) ∈ mp ∧ e.2 = f old) ∨ e.2 = f []) := by
  by_cases ha : mp.any (fun e => decide (e.1 = k)) = true
  · rw [List.any_eq_true] at ha
    obtain ⟨e, he, hk⟩ := ha
    have hk : e.1 = k := by simpa using hk
    exact ⟨_, mem_mapModify_of_eq mp k f e he hk, rfl, Or.inl ⟨e.2, by rw [← hk]; exact he, rfl⟩⟩
  · refine ⟨(k, f []), ?_, rfl, Or.inr rfl⟩
    unfold mapModify
    rw [if_neg ha]
    simp

/-- The content of the arena after the constructor has read one more column index of
the line: `insert(k, c)` and the bookkeeping writes. -/
theorem content_step (C R : Nat) (col row rs cs : List Nat) (crm : List (Nat × List Nat))
    (k : Nat) (seen : List Nat) (c : Nat)
    (h : Content C R col row rs cs crm k seen) (hc : c ∉ seen) (hk : k < R) :
    Content C R (col ++ [c]) (row ++ [k]) (setInsert k rs) (setInsert c cs)
      (mapModify crm c (fun l => l ++ [k])) k (c :: seen) := by
  obtain ⟨h1, h2, h3, h4, h5, h6, h7, h8, h9, h10, h11⟩ := h
  have hlen : (col ++ [c]).length = col.length + 1 := by simp
  have hcold : ∀ x, x < col.length → nth (col ++ [c]) x = nth col x :=
    fun x hx => nth_append_lt _ _ _ hx
  have hrold : ∀ x, x < col.length → nth (row ++ [k]) x = nth row x :=
    fun x hx => nth_append_lt _ _ _ (by rw [h1]; exact hx)
  have hcnew : nth (col ++ [c]) col.length = c := nth_append_eq _ _
  have hrnew : nth (row ++ [k]) col.length = k := by
    rw [← h1]; exact nth_append_eq _ _
  have hsplit : ∀ x, x < (col ++ [c]).length → x < col.length ∨ x = col.length := by
    intro x hx; rw [hlen] at hx; omega
  constructor
  · simp [h1]
  · rw [hlen]; omega
  · exact sorted_setInsert _ _ h3
  · exact sorted_setInsert _ _ h4
  · intro x hx1 hx2
    rcases hsplit x hx2 with hx | hx
    · rw [hcold x hx, hrold x hx]
      obtain ⟨a1, a2, a3, a4, a5⟩ := h5 x hx1 hx
      exact ⟨(mem_setInsert _ _ _).mpr (Or.inr a1), (mem_setInsert _ _ _).mpr (Or.inr a2), a3, a4,
        fun e => List.mem_cons_of_mem _ (a5 e)⟩
    · subst hx
      rw [hcnew, hrnew]
      exact ⟨(mem_setInsert _ _ _).mpr (Or.inl rfl), (mem_setInsert _ _ _).mpr (Or.inl rfl), hk,
        le_refl _, fun _ => List.mem_cons_self _ _⟩
  · intro r hr
    rcases (mem_setInsert _ _ _).mp hr with hr | hr
    · exact ⟨col.length, h2, by rw [hlen]; omega, by rw [hrnew, hr]⟩
    · obtain ⟨x, a1, a2, a3⟩ := h6 r hr
      exact ⟨x, a1, by rw [hlen]; omega, by rw [hrold x a2]; exact a3⟩
  · intro c1 hc1
    rcases (mem_setInsert _ _ _).mp hc1 with hc1 | hc1
    · exact ⟨col.length, h2, by rw [hlen]; omega, by rw [hcnew, hc1]⟩
    · obtain ⟨x, a1, a2, a3⟩ := h7 c1 hc1
      exact ⟨x, a1, by rw [hlen]; omega, by rw [hcold x a2]; exact a3⟩
  · intro x y hx1 hx2 hy1 hy2 hxy hrow
    rcases hsplit x hx2 with hx | hx <;> rcases hsplit y hy2 with hy | hy
    · rw [hcold x hx, hcold y hy]
      rw [hrold x hx, hrold y hy] at hrow
      exact h8 x y hx1 hx hy1 hy hxy hrow
    · subst hy
      rw [hcold x hx, hcnew]
      rw [hrold x hx, hrnew] at hrow
      intro e
      exact hc (e ▸ (h5 x hx1 hx).2.2.2.2 hrow)
    · subst hx
      rw [hcold y hy, hcnew]
      rw [hrold y hy, hrnew] at hrow
      intro e
      exact hc (e ▸ (h5 y hy1 hy).2.2.2.2 hrow.symm)
    · exact absurd (hx.trans hy.symm) hxy
  · exact mapModify_keys _ _ _ h9
  · intro e he r hr
    rcases mem_mapModify_elim _ _ _ e he with ⟨he1, _⟩ | ⟨hek, hold⟩
    · obtain ⟨x, a1, a2, a3, a4⟩ := h10 e he1 r hr
      exact ⟨x, a1, by rw [hlen]; omega, by rw [hcold x a2]; exact a3, by rw [hrold x a2]; exact a4⟩
    · have hnew : ∃ x, C < x ∧ x < (col ++ [c]).length ∧ nth (col ++ [c]) x = e.1 ∧
          nth (row ++ [k]) x = k :=
        ⟨col.length, h2, by rw [hlen]; omega, by rw [hcnew, hek], hrnew⟩
      rcases hold with ⟨old, hold1, hold2⟩ | hold2
      · rw [hold2] at hr
        rcases List.mem_append.mp hr with hr | hr
        · obtain ⟨x, a1, a2, a3, a4⟩ := h10 (c, old) hold1 r hr
          exact ⟨x, a1, by rw [hlen]; omega, by rw [hcold x a2, hek]; exact a3,
            by rw [hrold x a2]; exact a4⟩
        · rw [List.mem_singleton] at hr
          rw [hr]; exact hnew
      · rw [hold2] at hr
        simp only [List.nil_append, List.mem_singleton] at hr
        rw [hr]; exact hnew
  · intro x hx1 hx2
    rcases hsplit x hx2 with hx | hx
    · rw [hcold x hx, hrold x hx]
      obtain ⟨e, he, a1, a2⟩ := h11 x hx1 hx
      by_cases hek : e.1 = c
      · exact ⟨_, mem_mapModify_of_eq crm c _ e he hek, by rw [← a1, hek],
          List.mem_append_left _ a2⟩
      · exact ⟨e, mem_mapModify_of_ne crm c _ e he hek, a1, a2⟩
    · subst hx
      rw [hcnew, hrnew]
      obtain ⟨e, he, a1, a2⟩ := mapModify_has_key crm c (fun l => l ++ [k])
      refine ⟨e, he, a1, ?_⟩
      rcases a2 with ⟨old, _, a3⟩ | a3
      · rw [a3]; simp
      · rw [a3]; simp

/-- The line is done: the content with the next row current and nothing read. -/
theorem content_next (C R : Nat) (col row rs cs : List Nat) (crm : List (Nat × List Nat))
    (k : Nat) (seen : List Nat) (h : Content C R col row rs cs crm k seen) :
    Content C R col row rs cs crm (k + 1) [] := by
  obtain ⟨h1, h2, h3, h4, h5, h6, h7, h8, h9, h10, h11⟩ := h
  refine ⟨h1, h2, h3, h4, ?_, h6, h7, h8, h9, h10, h11⟩
  intro x hx1 hx2
  obtain ⟨a1, a2, a3, a4, _⟩ := h5 x hx1 hx2
  exact ⟨a1, a2, a3, by omega, fun e => by omega⟩

theorem emptyMatrix_filled (rows cols : Nat) (a b : Bool) :
    Filled (emptyMatrix rows cols a b) 0 [] := by
  have hl : (emptyMatrix rows cols a b).col.length = cols + 1 := by simp [emptyMatrix]
  have hC : (emptyMatrix rows cols a b).COLS = cols := rfl
  unfold Filled
  constructor
  · simp [emptyMatrix]
  · rw [hl, hC]; omega
  · exact List.sorted_nil
  · exact List.sorted_nil
  · intro x h1 h2; rw [hl] at h2; rw [hC] at h1; omega
  · intro r hr; simp [emptyMatrix] at hr
  · intro r hr; simp [emptyMatrix] at hr
  · intro x y h1 h2; rw [hl] at h2; rw [hC] at h1; omega
  · simp [emptyMatrix]
  · intro e he; simp [emptyMatrix] at he
  · intro x h1 h2; rw [hl] at h2; rw [hC] at h1; omega

/-- The loop over the column indices of a line that names distinct columns keeps the
content of the arena and leaves the flags alone. -/
theorem loadLine_filled (k : Nat) :
    ∀ (line : List Nat) (m m1 : DancingMatrix) (seen : List Nat), Filled m k seen →
      line.Nodup → (∀ c ∈ line, c ∉ seen) → loadLine k line m = some m1 →
      (∃ seen1, Filled m1 k seen1) ∧ m1.useETT = m.useETT ∧ m1.useIG = m.useIG ∧
        m1.enableGraphSync = m.enableGraphSync := by
  intro line
  induction line with
  | nil =>
    intro m m1 seen hF _ _ h
    simp only [loadLine, Option.some.injEq] at h
    subst h
    exact ⟨⟨seen, hF⟩, rfl, rfl, rfl⟩
  | cons c rest ih =>
    intro m m1 seen hF hnd hdis h
    rw [loadLine] at h
    split_ifs at h with hrange
    cases hins : m.insert k c with
    | none => rw [hins] at h; cases h
    | some m2 =>
      rw [hins] at h
      simp only [] at h
      have hguard : k < m.ROWS ∧ c ≤ m.COLS := by
        unfold DancingMatrix.insert at hins
        by_contra hg
        rw [if_neg hg] at hins
        cases hins
      obtain ⟨_, _, _, _, ecol, erow, _, et, _⟩ := insert_fields m m2 k c hins
      have e1 : m2.COLS = m.COLS := by rw [et]
      have e2 : m2.ROWS = m.ROWS := by rw [et]
      have e3 : m2.rowsSet = m.rowsSet := by rw [et]
      have e4 : m2.colsSet = m.colsSet := by rw [et]
      have e5 : m2.col_to_rows = m.col_to_rows := by rw [et]
      have e6 : m2.useETT = m.useETT := by rw [et]
      have e7 : m2.useIG = m.useIG := by rw [et]
      have e8 : m2.enableGraphSync = m.enableGraphSync := by rw [et]
      have hnd1 := List.nodup_cons.mp hnd
      have hstep := content_step _ _ _ _ _ _ _ k seen c hF (hdis c (List.mem_cons_self _ _)) hguard.1
      obtain ⟨hf, g1, g2, g3⟩ := ih _ m1 (c :: seen)
        (by
          unfold Filled
          show Content m2.COLS m2.ROWS m2.col m2.row (setInsert k m2.rowsSet)
            (setInsert c m2.colsSet) (mapModify m2.col_to_rows c (fun l => l ++ [k])) k (c :: seen)
          rw [e1, e2, e3, e4, e5, ecol, erow]
          exact hstep)
        hnd1.2
        (by
          intro c1 hc1 hmem
          rcases List.mem_cons.mp hmem with e | e
          · exact hnd1.1 (e ▸ hc1)
          · exact hdis c1 (List.mem_cons_of_mem _ hc1) e)
        h
      exact ⟨hf, g1.trans e6, g2.trans e7, g3.trans e8⟩

theorem loadLines_filled :
    ∀ (lines : List (List Nat)) (k : Nat) (m m1 : DancingMatrix), Filled m k [] →
      (∀ l ∈ lines, l.Nodup) → loadLines k lines m = some m1 →
      (∃ k1 seen1, Filled m1 k1 seen1) ∧ m1.useETT = m.useETT ∧ m1.useIG = m.useIG ∧
        m1.enableGraphSync = m.enableGraphSync := by
  intro lines
  induction lines with
  | nil =>
    intro k m m1 hF _ h
    simp only [loadLines, Option.some.injEq] at h
    subst h
    exact ⟨⟨k, [], hF⟩, rfl, rfl, rfl⟩
  | cons line rest ih =>
    intro k m m1 hF hnd h
    rw [loadLines] at h
    cases hl : loadLine k line m with
    | none => rw [hl] at h; cases h
    | some m2 =>
      rw [hl] at h
      simp only [] at h
      obtain ⟨⟨seen1, hF2⟩, g1, g2, g3⟩ := loadLine_filled k line m m2 [] hF
        (hnd line (List.mem_cons_self _ _)) (fun c _ hc => by simp at hc) hl
      split_ifs at h
      · injection h with h
        subst h
        exact ⟨⟨k, seen1, hF2⟩, g1, g2, g3⟩
      · obtain ⟨hf, q1, q2, q3⟩ := ih (k + 1) m2 m1 (content_next _ _ _ _ _ _ _ _ _ hF2)
          (fun l hl => hnd l (List.mem_cons_of_mem _ hl)) h
        exact ⟨hf, q1.trans g1, q2.trans g2, q3.trans g3⟩

/-- The parts of the result of the file constructor: the matrix `m0` left by the loop over
the lines, `InitBlock` made of its two sets, the Euler-tour detector initialised from
`col_to_rows` when asked for, and the union-find graph initialised from the links when
asked for. -/
theorem fromFile_parts (cols rows : Nat) (lines : List (List Nat)) (useIg useETT : Bool)
    (m : DancingMatrix) (h : DancingMatrix.fromFile cols rows lines useIg useETT = some m) :
    ∃ m0 det ig, loadLines 0 lines (emptyMatrix rows cols useIg useETT) = some m0 ∧
      rows ≤ MAX_ROW ∧
      m = { m0 with InitBlock := Block.mk m0.rowsSet m0.colsSet, detector := det,
                    incrementalGraph := ig } ∧
      (useETT = true → ∃ d,
        (ComponentDetector.new m0.ROWS m0.COLS).Initialize m0.col_to_rows = some d ∧
          det = some d) ∧
      (useIg = true → ∃ g,
        IncrementalConnectedGraph.initializeGraph rows
          { m0 with InitBlock := Block.mk m0.rowsSet m0.colsSet, detector := det } = some g ∧
          ig = some g) := by
  unfold DancingMatrix.fromFile at h
  by_cases h1 : rows > MAX_ROW
  · rw [if_pos h1] at h; cases h
  rw [if_neg h1] at h
  by_cases h2 : cols + 1 ≥ INT_RANGE ∨ rows * cols ≥ INT_RANGE
  · rw [if_pos h2] at h; cases h
  rw [if_neg h2] at h
  cases hl : loadLines 0 lines (emptyMatrix rows cols useIg useETT) with
  | none => rw [hl] at h; cases h
  | some m0 =>
    rw [hl] at h
    simp only [] at h
    have key : ∀ det : Option ComponentDetector,
        (useETT = true → ∃ d,
          (ComponentDetector.new m0.ROWS m0.COLS).Initialize m0.col_to_rows = some d ∧
            det = some d) →
        (if useIg = true then
          match IncrementalConnectedGraph.initializeGraph rows
              { m0 with InitBlock := Block.mk m0.rowsSet m0.colsSet, detector := det } with
          | none => none
          | some g => some { m0 with InitBlock := Block.mk m0.rowsSet m0.colsSet, detector := det,
                                     incrementalGraph := some g }
        else some { m0 with InitBlock := Block.mk m0.rowsSet m0.colsSet, detector := det }) =
          some m →
        ∃ m0a det ig, some m0 = some m0a ∧ rows ≤ MAX_ROW ∧
          m = { m0a with InitBlock := Block.mk m0a.rowsSet m0a.colsSet, detector := det,
                         incrementalGraph := ig } ∧
          (useETT = true → ∃ d,
            (ComponentDetector.new m0a.ROWS m0a.COLS).Initialize m0a.col_to_rows = some d ∧
              det = some d) ∧
          (useIg = true → ∃ g,
            IncrementalConnectedGraph.initializeGraph rows
              { m0a with InitBlock := Block.mk m0a.rowsSet m0a.colsSet, detector := det } =
                some g ∧ ig = some g) := by
      intro det hdet h
      by_cases hig : useIg = true
      · rw [if_pos hig] at h
        cases hg : IncrementalConnectedGraph.initializeGraph rows
            { m0 with InitBlock := Block.mk m0.rowsSet m0.colsSet, detector := det } with
        | none => rw [hg] at h; cases h
        | some g =>
          rw [hg] at h
          injection h with h
          exact ⟨m0, det, some g, rfl, by omega, h.symm, hdet, fun _ => ⟨g, hg, rfl⟩⟩
      · rw [if_neg hig] at h
        injection h with h
        exact ⟨m0, det, m0.incrementalGraph, rfl, by omega, h.symm, hdet,
          fun e => absurd e hig⟩
    by_cases hett : useETT = true
    · rw [if_pos hett] at h
      cases hd : (ComponentDetector.new m0.ROWS m0.COLS).Initialize m0.col_to_rows with
      | none => simp [hd] at h
      | some d =>
        simp only [hd] at h
        exact key (some d) (fun _ => ⟨d, hd, rfl⟩) h
    · rw [if_neg hett] at h
      exact key m0.detector (fun e => absurd e hett) h

/-- The block made of the two sets of the file constructor meets the block invariant on
the matrix the constructor has filled, and each of its rows has a live cell in one of
its columns. -/
theorem loaded_binv (m : DancingMatrix) (rg mt : Nat → List Nat) (k : Nat) (seen : List Nat)
    (hB : Built m rg mt) (hF : Filled m k seen) :
    BInv m (List.range' 1 m.COLS) rg mt (Block.mk m.rowsSet m.colsSet) ∧
      RowsLive m rg (Block.mk m.rowsSet m.colsSet) := by
  obtain ⟨f1, f2, f3, f4, f5, f6, f7, f8, f9, f10, f11⟩ := hF
  have hcu : ∀ c ∈ m.colsSet, 1 ≤ c ∧ c ≤ m.COLS := by
    intro c hc
    obtain ⟨x, a1, a2, a3⟩ := f7 c hc
    have := (hB.rgood.2 x a1 a2).1
    rw [a3] at this
    exact this
  refine ⟨⟨hB.hgood, hB.vgood, hB.rgood, (built_linv m rg mt hB).2.2.2.1, ?_, f3, f4, ?_, ?_, ?_, ?_⟩, ?_⟩
  · intro x hx1 hx2 y hy
    obtain ⟨b1, b2, b3, b4⟩ := ((hB.rgood.2 x hx1 hx2).2.2.2.2 y).mp hy
    exact f8 y x b1 b2 hx1 hx2 b3 b4
  · intro c hc
    have := hcu c hc
    rw [List.mem_range'_1]
    omega
  · intro c hc x hx
    have hcc := hcu c hc
    have hx1 := (hB.vgood.2 c hcc.1 hcc.2).2.2.2 x hx
    exact (f5 x hx1.1 hx1.2.1).1
  · intro c hc x hx y hy
    have hcc := hcu c hc
    have hx1 := (hB.vgood.2 c hcc.1 hcc.2).2.2.2 x hx
    obtain ⟨b1, b2, _, _⟩ := ((hB.rgood.2 x hx1.1 hx1.2.1).2.2.2.2 y).mp hy
    exact (f5 y b1 b2).2.1
  · intro c hc
    exact hB.hdr c (hcu c hc).2
  · intro r hr
    obtain ⟨x, a1, a2, a3⟩ := f6 r hr
    exact ⟨nth m.col x, (f5 x a1 a2).2.1, x, hB.full x a1 a2, a3⟩

theorem nodup_usetInsert (x : Nat) (s : List Nat) (h : s.Nodup) : (usetInsert x s).Nodup := by
  unfold usetInsert
  split_ifs with hx
  · exact h
  · rw [List.nodup_append]
    refine ⟨h, List.nodup_singleton _, ?_⟩
    intro a ha hb
    rw [List.mem_singleton] at hb
    subst hb
    exact hx ha

/-- The inner loop of `IncrementalConnectedGraph::initialize` down a column with the cells
`post` still to come: it returns, and adds the column index to the active columns of
the rows of these cells and changes nothing else. -/
theorem igInitRows_spec (m : DancingMatrix) (colIndex curCol : Nat) :
    ∀ (post : List Nat) (a f : Nat) (rs : List RowState),
      Chain m.down a post curCol →
      (∀ z ∈ post, z ≠ curCol ∧ nth m.row z < rs.length) → post.length < f →
      ∃ rs1, igInitRows m colIndex curCol f (nth m.down a) rs = some rs1 ∧
        rs1.length = rs.length ∧
        ∀ r, (rs1.getD r (RowState.mk [] [])).removedColumns =
            (rs.getD r (RowState.mk [] [])).removedColumns ∧
          ((rs.getD r (RowState.mk [] [])).activeColumns.Nodup →
            (rs1.getD r (RowState.mk [] [])).activeColumns.Nodup) ∧
          ∀ c, c ∈ (rs1.getD r (RowState.mk [] [])).activeColumns ↔
            (c ∈ (rs.getD r (RowState.mk [] [])).activeColumns ∨
              (c = colIndex ∧ ∃ z ∈ post, nth m.row z = r)) := by
  intro post
  induction post with
  | nil =>
    intro a f rs hch _ hf
    have hnext : nth m.down a = curCol := hch
    obtain ⟨f1, rfl⟩ : ∃ f1, f = f1 + 1 := ⟨f - 1, by simp at hf; omega⟩
    rw [hnext, igInitRows, if_pos rfl]
    refine ⟨rs, rfl, rfl, fun r => ⟨rfl, id, fun c => ?_⟩⟩
    simp
  | cons z post ih =>
    intro a f rs hch hall hf
    have hnext : nth m.down a = z := hch.1
    obtain ⟨hz1, hz2⟩ := hall z (List.mem_cons_self _ _)
    obtain ⟨f1, rfl⟩ : ∃ f1, f = f1 + 1 := ⟨f - 1, by simp at hf; omega⟩
    rw [hnext, igInitRows, if_neg hz1]
    dsimp only
    obtain ⟨rs1, h1, h2, h3⟩ := ih z f1
      (rs.set (nth m.row z)
        { rs.getD (nth m.row z) (RowState.mk [] []) with
          activeColumns := usetInsert colIndex
            (rs.getD (nth m.row z) (RowState.mk [] [])).activeColumns })
      hch.2
      (fun w hw => ⟨(hall w (List.mem_cons_of_mem _ hw)).1, by
        rw [List.length_set]; exact (hall w (List.mem_cons_of_mem _ hw)).2⟩)
      (by simp at hf; omega)
    refine ⟨rs1, h1, by rw [h2, List.length_set], ?_⟩
    intro r
    obtain ⟨a1, a2, a3⟩ := h3 r
    rw [getD_set_rowState] at a1 a2 a3
    by_cases hr : r = nth m.row z
    · rw [if_pos ⟨hr.symm, by rw [hr]; exact hz2⟩] at a1 a2 a3
      dsimp only at a1 a2 a3
      rw [← hr] at a1 a2 a3
      refine ⟨a1, fun hn => a2 (nodup_usetInsert _ _ hn), fun c => ?_⟩
      rw [a3 c, mem_usetInsert]
      constructor
      · rintro ((h | h) | ⟨h, w, hw, hwr⟩)
        · exact Or.inr ⟨h, z, List.mem_cons_self _ _, hr.symm⟩
        · exact Or.inl h
        · exact Or.inr ⟨h, w, List.mem_cons_of_mem _ hw, hwr⟩
      · rintro (h | ⟨h, w, hw, hwr⟩)
        · exact Or.inl (Or.inr h)
        · rcases List.mem_cons.mp hw with e | e
          · exact Or.inl (Or.inl h)
          · exact Or.inr ⟨h, w, e, hwr⟩
    · rw [if_neg (fun hh => hr hh.1.symm)] at a1 a2 a3
      refine ⟨a1, a2, fun c => ?_⟩
      rw [a3 c]
      constructor
      · rintro (h | ⟨h, w, hw, hwr⟩)
        · exact Or.inl h
        · exact Or.inr ⟨h, w, List.mem_cons_of_mem _ hw, hwr⟩
      · rintro (h | ⟨h, w, hw, hwr⟩)
        · exact Or.inl h
        · rcases List.mem_cons.mp hw with e | e
          · exact absurd (by rw [← hwr, e]) hr
          · exact Or.inr ⟨h, w, e, hwr⟩

/-- The outer loop of `IncrementalConnectedGraph::initialize` along the root list, the
headers `j, j + 1, ..` still to come and `colIndex = j`: it returns, and adds every
column to the active columns of the rows of its cells and changes nothing else. -/
theorem igInitCols_spec (m : DancingMatrix) (rg : Nat → List Nat) (hV : VGood m rg) :
    ∀ (n j a f : Nat) (rs : List RowState),
      Chain m.right a (List.range' j n) 0 → 1 ≤ j → j + n ≤ m.COLS + 1 →
      (∀ c, j ≤ c → c < j + n → ∀ z ∈ rg c, nth m.row z < rs.length) → n < f →
      ∃ rs1, igInitCols m f (nth m.right a) j rs = some rs1 ∧ rs1.length = rs.length ∧
        ∀ r, (rs1.getD r (RowState.mk [] [])).removedColumns =
            (rs.getD r (RowState.mk [] [])).removedColumns ∧
          ((rs.getD r (RowState.mk [] [])).activeColumns.Nodup →
            (rs1.getD r (RowState.mk [] [])).activeColumns.Nodup) ∧
          ∀ c, c ∈ (rs1.getD r (RowState.mk [] [])).activeColumns ↔
            (c ∈ (rs.getD r (RowState.mk [] [])).activeColumns ∨
              (j ≤ c ∧ c < j + n ∧ ∃ z ∈ rg c, nth m.row z = r)) := by
  intro n
  induction n with
  | zero =>
    intro j a f rs hch _ _ _ hf
    have hnext : nth m.right a = 0 := hch
    obtain ⟨f1, rfl⟩ : ∃ f1, f = f1 + 1 := ⟨f - 1, by omega⟩
    rw [hnext, igInitCols, if_pos rfl]
    refine ⟨rs, rfl, rfl, fun r => ⟨rfl, id, fun c => ?_⟩⟩
    constructor
    · exact Or.inl
    · rintro (h | ⟨h1, h2, _⟩)
      · exact h
      · omega
  | succ n ih =>
    intro j a f rs hch hj hjn hrows hf
    rw [List.range'_succ] at hch
    have hnext : nth m.right a = j := hch.1
    obtain ⟨f1, rfl⟩ : ∃ f1, f = f1 + 1 := ⟨f - 1, by omega⟩
    have hj0 : j ≠ 0 := by omega
    rw [hnext, igInitCols, if_neg hj0]
    obtain ⟨hD, _, hnd, hmem⟩ := hV.2 j hj (by omega)
    obtain ⟨rs1, h1, h2, h3⟩ := igInitRows_spec m j j (rg j) j m.fuel rs hD
      (fun z hz => ⟨by have := (hmem z hz).1; omega, hrows j (le_refl _) (by omega) z hz⟩)
      (by
        have := nodup_bounded_length m.nodes _ hnd (fun z hz => (hmem z hz).2.1)
        unfold DancingMatrix.fuel; unfold DancingMatrix.nodes at this; omega)
    rw [h1]
    dsimp only
    obtain ⟨rs2, g1, g2, g3⟩ := ih (j + 1) j f1 rs1 hch.2 (by omega) (by omega)
      (fun c hc1 hc2 z hz => by rw [h2]; exact hrows c (by omega) (by omega) z hz) (by omega)
    refine ⟨rs2, g1, by rw [g2, h2], ?_⟩
    intro r
    obtain ⟨a1, a2, a3⟩ := h3 r
    obtain ⟨b1, b2, b3⟩ := g3 r
    refine ⟨b1.trans a1, fun hn => b2 (a2 hn), fun c => ?_⟩
    rw [b3 c, a3 c]
    constructor
    · rintro ((h | ⟨h, z, hz, hzr⟩) | ⟨h1, h2, z, hz, hzr⟩)
      · exact Or.inl h
      · exact Or.inr ⟨by omega, by omega, z, by rw [h]; exact hz, hzr⟩
      · exact Or.inr ⟨by omega, by omega, z, hz, hzr⟩
    · rintro (h | ⟨h1, h2, z, hz, hzr⟩)
      · exact Or.inl (Or.inl h)
      · by_cases hc : c = j
        · exact Or.inl (Or.inr ⟨hc, z, by rw [← hc]; exact hz, hzr⟩)
        · exact Or.inr ⟨by omega, by omega, z, hz, hzr⟩

theorem getD_replicate_rowState (n r : Nat) :
    (List.replicate n (RowState.mk [] [])).getD r (RowState.mk [] []) = RowState.mk [] [] := by
  simp only [List.getD_eq_getElem?_getD]
  rcases Nat.lt_or_ge r n with h | h
  · simp [List.getElem?_replicate, h]
  · simp [List.getElem?_replicate, Nat.not_lt.mpr h]

/-- The union-find graph that the file constructor initialises is in step with the block
made of the two sets of the constructor. -/
theorem initializeGraph_igok (m : DancingMatrix) (rg mt : Nat → List Nat) (k : Nat)
    (seen : List Nat) (hB : Built m rg mt) (hF : Filled m k seen) :
    ∃ g, IncrementalConnectedGraph.initializeGraph m.ROWS m = some g ∧
      ∀ m1 : DancingMatrix, m1.row = m.row → m1.incrementalGraph = some g →
        IGOK m1 rg (Block.mk m.rowsSet m.colsSet) := by
  obtain ⟨f1, f2, f3, f4, f5, f6, f7, f8, f9, f10, f11⟩ := hF
  have hcu : ∀ c ∈ m.colsSet, 1 ≤ c ∧ c ≤ m.COLS := by
    intro c hc
    obtain ⟨x, a1, a2, a3⟩ := f7 c hc
    have := (hB.rgood.2 x a1 a2).1
    rw [a3] at this
    exact this
  obtain ⟨rs1, h1, h2, h3⟩ := igInitCols_spec m rg hB.vgood m.COLS 1 0 m.fuel
    (List.replicate m.ROWS (RowState.mk [] [])) hB.hgood.1 (le_refl _) (by omega)
    (fun c hc1 hc2 z hz => by
      rw [List.length_replicate]
      have hz1 := (hB.vgood.2 c hc1 (by omega)).2.2.2 z hz
      exact (f5 z hz1.1 hz1.2.1).2.2.1)
    (by
      have := hB.vgood.1.2.2
      unfold DancingMatrix.fuel; unfold DancingMatrix.nodes at this; omega)
  refine ⟨{ N := m.ROWS, rowStates := rs1 }, ?_, ?_⟩
  · unfold IncrementalConnectedGraph.initializeGraph
    rw [h1]
  intro m1 hrow hig
  refine ⟨_, hig, by rw [h2, List.length_replicate], ?_, ?_, ?_⟩
  · intro r hr
    obtain ⟨x, a1, a2, a3⟩ := f6 r hr
    obtain ⟨b1, b2, b3⟩ := h3 r
    rw [getD_replicate_rowState] at b1 b2
    refine ⟨?_, b1, b2 List.nodup_nil⟩
    show r < m.ROWS
    rw [← a3]
    exact (f5 x a1 a2).2.2.1
  · intro r hr c hc
    have hc1 := ((h3 r).2.2 c).mp hc
    rw [getD_replicate_rowState] at hc1
    rcases hc1 with hc1 | ⟨c1, c2, z, hz, hzr⟩
    · simp at hc1
    · have hz1 := (hB.vgood.2 c c1 (by omega)).2.2.2 z hz
      refine ⟨?_, z, hz, ?_⟩
      · show c ∈ m.colsSet
        rw [← hz1.2.2]
        exact (f5 z hz1.1 hz1.2.1).2.1
      · rw [hrow]
        exact hzr
  · intro c hc x hx
    have hcc := hcu c hc
    refine ((h3 _).2.2 c).mpr (Or.inr ⟨hcc.1, by omega, x, hx, ?_⟩)
    rw [hrow]

theorem mapGet_map_other (mp : List (Nat × List Nat)) (k : Nat) (f : List Nat → List Nat)
    (r : Nat) (hr : r ≠ k) :
    mapGet (mp.map (fun e => if e.1 = k then (e.1, f e.2) else e)) r = mapGet mp r := by
  unfold mapGet
  induction mp with
  | nil => rfl
  | cons e rest ih =>
    simp only [List.map_cons, List.find?_cons]
    by_cases hek : e.1 = k
    · rw [if_pos hek]
      have : ¬ e.1 = r := fun h => hr (h.symm.trans hek)
      simp only [this, decide_False]
      exact ih
    · rw [if_neg hek]
      by_cases her : e.1 = r
      · simp [her]
      · simp only [her, decide_False]
        exact ih

theorem mapGet_map_key (mp : List (Nat × List Nat)) (k : Nat) (f : List Nat → List Nat)
    (h : ∃ e ∈ mp, e.1 = k) :
    mapGet (mp.map (fun e => if e.1 = k then (e.1, f e.2) else e)) k = f (mapGet mp k) := by
  unfold mapGet
  induction mp with
  | nil => obtain ⟨e, he, _⟩ := h; simp at he
  | cons e rest ih =>
    simp only [List.map_cons, List.find?_cons]
    by_cases hek : e.1 = k
    · rw [if_pos hek]
      simp [hek]
    · rw [if_neg hek]
      simp only [hek, decide_False]
      apply ih
      obtain ⟨e1, he1, hk1⟩ := h
      rcases List.mem_cons.mp he1 with e2 | e2
      · rw [e2] at hk1; exact absurd hk1 hek
      · exact ⟨e1, e2, hk1⟩

theorem mapGet_mapModify (mp : List (Nat × List Nat)) (k : Nat) (f : List Nat → List Nat)
    (r : Nat) :
    mapGet (mapModify mp k f) r = if r = k then f (mapGet mp k) else mapGet mp r := by
  unfold mapModify
  by_cases ha : mp.any (fun e => decide (e.1 = k)) = true
  · rw [if_pos ha]
    by_cases hr : r = k
    · rw [if_pos hr, hr]
      apply mapGet_map_key
      rw [List.any_eq_true] at ha
      obtain ⟨e, he, hk⟩ := ha
      exact ⟨e, he, by simpa using hk⟩
    · rw [if_neg hr]
      exact mapGet_map_other mp k f r hr
  · rw [if_neg ha]
    have hnone : mp.find? (fun e => decide (e.1 = k)) = none := by
      rw [List.find?_eq_none]
      intro e he hk
      apply ha
      rw [List.any_eq_true]
      exact ⟨e, he, hk⟩
    unfold mapGet
    rw [List.find?_append]
    by_cases hr : r = k
    · subst hr
      rw [if_pos rfl, hnone]
      simp
    · rw [if_neg hr]
      cases hf : mp.find? (fun e => decide (e.1 = r)) with
      | some e => simp
      | none => simp [Ne.symm hr]

theorem addEdgeToAdjList_row_to_cols (d : ComponentDetector) (u v : Nat) :
    (d.addEdgeToAdjList u v).row_to_cols = d.row_to_cols := by
  unfold ComponentDetector.addEdgeToAdjList
  split_ifs <;> rfl

theorem foldl_addEdge_row_to_cols : ∀ (pairs : List (Nat × Nat)) (d : ComponentDetector),
    (pairs.foldl (fun a pr => a.addEdgeToAdjList pr.1 pr.2) d).row_to_cols = d.row_to_cols := by
  intro pairs
  induction pairs with
  | nil => intro d; rfl
  | cons p rest ih =>
    intro d
    rw [List.foldl_cons, ih, addEdgeToAdjList_row_to_cols]

theorem mem_rowFold (k : Nat) : ∀ (rows : List Nat) (mp : List (Nat × List Nat)) (r c : Nat),
    c ∈ mapGet (rows.foldl (fun mp row => mapModify mp row (usetInsert k)) mp) r ↔
      (c ∈ mapGet mp r ∨ (c = k ∧ r ∈ rows)) := by
  intro rows
  induction rows with
  | nil => intro mp r c; simp
  | cons a rest ih =>
    intro mp r c
    rw [List.foldl_cons, ih, mapGet_mapModify]
    by_cases hr : r = a
    · subst hr
      rw [if_pos rfl, mem_usetInsert]
      simp only [List.mem_cons, true_or, and_true]
      tauto
    · rw [if_neg hr]
      simp only [List.mem_cons, hr, false_or]

/-- The map `row_to_cols` after the loop of `Initialize` over `col_to_rows`: a row has the
columns it had and the columns under which it is listed. -/
theorem initialize_fold_row_to_cols : ∀ (crm : List (Nat × List Nat)) (d : ComponentDetector)
    (r c : Nat),
    c ∈ mapGet (crm.foldl
        (fun (acc : ComponentDetector) (e : Nat × List Nat) =>
          (pairsOf e.2).foldl (fun a pr => a.addEdgeToAdjList pr.1 pr.2)
            { acc with row_to_cols :=
                e.2.foldl (fun mp row => mapModify mp row (usetInsert e.1)) acc.row_to_cols })
        d).row_to_cols r ↔
      (c ∈ mapGet d.row_to_cols r ∨ ∃ e ∈ crm, e.1 = c ∧ r ∈ e.2) := by
  intro crm
  induction crm with
  | nil => intro d r c; simp
  | cons e rest ih =>
    intro d r c
    rw [List.foldl_cons, ih, foldl_addEdge_row_to_cols]
    dsimp only
    rw [mem_rowFold]
    simp only [List.mem_cons, exists_eq_or_imp]
    constructor
    · rintro ((h | ⟨h1, h2⟩) | h)
      · exact Or.inl h
      · exact Or.inr (Or.inl ⟨h1.symm, h2⟩)
      · exact Or.inr (Or.inr h)
    · rintro (h | ⟨h1, h2⟩ | h)
      · exact Or.inl (Or.inl h)
      · exact Or.inl (Or.inr ⟨h1.symm, h2⟩)
      · exact Or.inr h

theorem buildForestLoop_keeps : ∀ (rest : List Nat) (visited : List Bool)
    (d d1 : ComponentDetector), buildForestLoop rest visited d = some d1 →
    d1.row_to_cols = d.row_to_cols ∧ d1.row_active = d.row_active := by
  intro rest
  induction rest with
  | nil =>
    intro visited d d1 h
    simp only [buildForestLoop, Option.some.injEq] at h
    subst h
    exact ⟨rfl, rfl⟩
  | cons start rest ih =>
    intro visited d d1 h
    rw [buildForestLoop] at h
    by_cases hc : (!(d.row_active.getD start false) || visited.getD start false) = true
    · rw [if_pos hc] at h
      exact ih _ _ _ h
    · rw [if_neg hc] at h
      split at h
      · cases h
      · split at h
        · cases h
        · split at h
          · cases h
          · have h2 := ih _ _ _ h
            exact h2

theorem connected_componentId (t : SplayETT) (u v : Nat) (h : t.connected u v = some true) :
    t.getComponentId u = t.getComponentId v ∧ (t.getComponentId u).isSome = true := by
  unfold SplayETT.connected at h
  unfold SplayETT.getComponentId
  cases ha : t.getRoot (nth t.vertexNodes u) with
  | none => rw [ha] at h; simp at h
  | some a =>
    cases hb : t.getRoot (nth t.vertexNodes v) with
    | none => rw [ha, hb] at h; simp at h
    | some b =>
      rw [ha, hb] at h
      simp only [Option.some.injEq, decide_eq_true_eq] at h
      subst h
      exact ⟨rfl, rfl⟩

/-- The Euler-tour detector that the file constructor initialises from `col_to_rows` is in
step with the block made of the two sets of the constructor. -/
theorem initialize_ettok (m : DancingMatrix) (rg mt : Nat → List Nat) (k : Nat)
    (seen : List Nat) (hB : Built m rg mt) (hF : Filled m k seen) (hR : m.ROWS < 2 ^ 31)
    (d : ComponentDetector)
    (hd : (ComponentDetector.new m.ROWS m.COLS).Initialize m.col_to_rows = some d)
    (m1 : DancingMatrix) (hdet : m1.detector = some d) (hrow : m1.row = m.row) :
    ETTOK m1 rg (Block.mk m.rowsSet m.colsSet) := by
  obtain ⟨f1, f2, f3, f4, f5, f6, f7, f8, f9, f10, f11⟩ := hF
  have hcu : ∀ c ∈ m.colsSet, 1 ≤ c ∧ c ≤ m.COLS := by
    intro c hc
    obtain ⟨x, a1, a2, a3⟩ := f7 c hc
    have := (hB.rgood.2 x a1 a2).1
    rw [a3] at this
    exact this
  have hrows : ∀ e ∈ m.col_to_rows, ∀ r ∈ e.2, r < m.ROWS := by
    intro e he r hr
    obtain ⟨x, a1, a2, _, a4⟩ := f10 e he r hr
    rw [← a4]
    exact (f5 x a1 a2).2.2.1
  have hrs : ∀ r ∈ m.rowsSet, r < m.ROWS := by
    intro r hr
    obtain ⟨x, a1, a2, a3⟩ := f6 r hr
    rw [← a3]
    exact (f5 x a1 a2).2.2.1
  obtain ⟨d0, hd0, hconn⟩ := Initialize_connected m.ROWS m.COLS m.col_to_rows hR hrows
  have e0 : d0 = d := Option.some.inj (hd0.symm.trans hd)
  subst e0
  have hd2 := hd
  unfold ComponentDetector.Initialize ComponentDetector.BuildSpanningForest at hd2
  dsimp only at hd2
  obtain ⟨q1, q2⟩ := buildForestLoop_keeps _ _ _ _ hd2
  obtain ⟨_, _, k3, _, _⟩ := initialize_fold_spec m.col_to_rows
    { ComponentDetector.new m.ROWS m.COLS with col_to_rows := m.col_to_rows }
    (by
      have : ({ ComponentDetector.new m.ROWS m.COLS with col_to_rows := m.col_to_rows } :
          ComponentDetector).adj_list.length = m.ROWS := List.length_replicate _ _
      rw [this]; exact hrows)
  have hrtc : ∀ r c, c ∈ mapGet d0.row_to_cols r ↔ ∃ e ∈ m.col_to_rows, e.1 = c ∧ r ∈ e.2 := by
    intro r c
    rw [q1, initialize_fold_row_to_cols]
    constructor
    · rintro (h | h)
      · exact absurd h (by simp [ComponentDetector.new, mapGet])
      · exact h
    · exact Or.inr
  have hone : ∀ u v, u < m.ROWS → v < m.ROWS →
      (∃ e ∈ m.col_to_rows, u ∈ e.2 ∧ v ∈ e.2) → d0.ett.connected u v = some true := by
    intro u v hu hv hs
    obtain ⟨b, hb1, hb2⟩ := hconn u v hu hv
    have : b = true := hb2.mpr (Relation.ReflTransGen.single hs)
    rw [this] at hb1
    exact hb1
  have hself : ∀ u, u < m.ROWS → d0.ett.connected u u = some true := by
    intro u hu
    obtain ⟨b, hb1, hb2⟩ := hconn u u hu hu
    have : b = true := hb2.mpr Relation.ReflTransGen.refl
    rw [this] at hb1
    exact hb1
  refine ⟨d0, hdet, ?_, ⟨?_, ?_⟩, ?_⟩
  · intro r hr
    have hr1 := hrs r hr
    refine ⟨?_, (connected_componentId _ _ _ (hself r hr1)).2⟩
    rw [q2, k3]
    exact getD_replicate_true _ _ hr1
  · intro r hr c hc
    obtain ⟨e, he, he1, he2⟩ := (hrtc r c).mp hc
    obtain ⟨x, a1, a2, a3, a4⟩ := f10 e he r he2
    rw [he1] at a3
    refine ⟨?_, x, ?_, ?_⟩
    · show c ∈ m.colsSet
      rw [← a3]
      exact (f5 x a1 a2).2.1
    · rw [← a3]
      exact hB.full x a1 a2
    · rw [hrow]; exact a4
  · intro c hc x hx
    have hcc := hcu c hc
    have hx1 := (hB.vgood.2 c hcc.1 hcc.2).2.2.2 x hx
    obtain ⟨e, he, he1, he2⟩ := f11 x hx1.1 hx1.2.1
    rw [hrow]
    exact (hrtc _ c).mpr ⟨e, he, by rw [he1, hx1.2.2], he2⟩
  · intro u hu v hv hs
    obtain ⟨c, hc1, hc2⟩ := hs
    obtain ⟨e, he, he1, he2⟩ := (hrtc u c).mp hc1
    obtain ⟨e', he', he1', he2'⟩ := (hrtc v c).mp hc2
    have hee : e = e' := List.inj_on_of_nodup_map f9 he he' (he1.trans he1'.symm)
    subst hee
    exact (connected_componentId _ _ _ (hone u v (hrs u hu) (hrs v hv) ⟨e, he, he2, he2'⟩)).1

/-- The matrix loaded by the file constructor from lines that name distinct columns, with
the flags `single_thread_mode`, `dxz_mode` and `enableGraphSync` at any values: `InitBlock`
meets the block invariant, the detector in use is in step with it, and each of its rows
has a live cell in one of its columns. -/
theorem fromFile_sound (cols rows : Nat) (lines : List (List Nat)) (useIg useETT : Bool)
    (m : DancingMatrix) (h : DancingMatrix.fromFile cols rows lines useIg useETT = some m)
    (hnd : ∀ l ∈ lines, l.Nodup) :
    ∃ mt, ∀ (a b c : Bool),
      Sound mt ({ m with single_thread_mode := a, dxz_mode := b, enableGraphSync := c } :
        DancingMatrix) m.InitBlock := by
  obtain ⟨m0, det, ig, hl, hmax, hm, hdet, hig⟩ := fromFile_parts cols rows lines useIg useETT m h
  have hc := loadLines_constructed rows cols lines 0 _ m0 (Constructed.empty useIg useETT)
    rfl rfl hl
  obtain ⟨rg, mt, hB, eC, eR⟩ := constructed_built rows cols m0 hc.1
  obtain ⟨⟨k, seen, hF⟩, g1, g2, _⟩ := loadLines_filled lines 0 _ m0
    (emptyMatrix_filled rows cols useIg useETT) hnd hl
  have g1 : m0.useETT = useETT := g1
  have g2 : m0.useIG = useIg := g2
  refine ⟨mt, fun a b c => ?_⟩
  have hB1 : Built ({ m with single_thread_mode := a, dxz_mode := b, enableGraphSync := c } :
      DancingMatrix) rg mt := by
    subst hm
    exact built_same _ m0 rg mt ⟨rfl, rfl, rfl, rfl, rfl, rfl, rfl, rfl, rfl, rfl⟩ hB
  have hF1 : Filled ({ m with single_thread_mode := a, dxz_mode := b, enableGraphSync := c } :
      DancingMatrix) k seen := by
    subst hm
    exact hF
  have hblock : m.InitBlock = Block.mk m0.rowsSet m0.colsSet := by rw [hm]
  have hdetm : m.detector = det := by rw [hm]
  have higm : m.incrementalGraph = ig := by rw [hm]
  have hrowm : m.row = m0.row := by rw [hm]
  have hum : m.useETT = m0.useETT := by rw [hm]
  have him : m.useIG = m0.useIG := by rw [hm]
  have hrs : m.rowsSet = m0.rowsSet := by rw [hm]
  have hcs : m.colsSet = m0.colsSet := by rw [hm]
  have hCm : m.COLS = m0.COLS := by rw [hm]
  obtain ⟨hI, hL⟩ := loaded_binv _ rg mt k seen hB1 hF1
  have hI : BInv ({ m with single_thread_mode := a, dxz_mode := b, enableGraphSync := c } :
      DancingMatrix) (List.range' 1 m.COLS) rg mt (Block.mk m.rowsSet m.colsSet) := hI
  have hL : RowsLive ({ m with single_thread_mode := a, dxz_mode := b, enableGraphSync := c } :
      DancingMatrix) rg (Block.mk m.rowsSet m.colsSet) := hL
  have hbk : Block.mk m.rowsSet m.colsSet = m.InitBlock := by rw [hblock, hrs, hcs]
  rw [hbk] at hI hL
  refine ⟨List.range' 1 m.COLS, rg, hI, ?_, hL⟩
  intro _
  rw [hblock]
  constructor
  · intro hu
    have hu1 : useETT = true := g1.symm.trans (hum.symm.trans hu)
    obtain ⟨d, hd, hdd⟩ := hdet hu1
    exact initialize_ettok m0 rg mt k seen hB hF
      (by rw [eR]; unfold MAX_ROW at hmax; omega) d hd _ (hdetm.trans hdd) hrowm
  · intro _ hi
    have hi1 : useIg = true := g2.symm.trans (him.symm.trans hi)
    obtain ⟨g, hg, hgg⟩ := hig hi1
    have hB2 : Built ({ m0 with InitBlock := Block.mk m0.rowsSet m0.colsSet, detector := det } :
        DancingMatrix) rg mt :=
      built_same _ m0 rg mt ⟨rfl, rfl, rfl, rfl, rfl, rfl, rfl, rfl, rfl, rfl⟩ hB
    have hF2 : Filled ({ m0 with InitBlock := Block.mk m0.rowsSet m0.colsSet, detector := det } :
        DancingMatrix) k seen := hF
    obtain ⟨g', hg', hok⟩ := initializeGraph_igok _ rg mt k seen hB2 hF2
    have hg2 : IncrementalConnectedGraph.initializeGraph rows
        ({ m0 with InitBlock := Block.mk m0.rowsSet m0.colsSet, detector := det } :
          DancingMatrix) = some g' := by
      rw [← eR]; exact hg'
    have e : g = g' := Option.some.inj (hg.symm.trans hg2)
    subst e
    exact hok _ hrowm (higm.trans hgg)

/-- On a matrix loaded by the file constructor from lines that name distinct columns, with
the time bound never broken: `DXD(InitBlock, 1)` returns within any recursion depth above
the number of columns of `InitBlock` and gives the block back, and so does the run with
the check that every recursive call gets strictly fewer columns than its caller had. -/
theorem loaded_DXD_total (cols rows : Nat) (lines : List (List Nat)) (useIG useETT : Bool)
    (s0 s : DanceDNNF) (stm dxz sync : Bool) (fuel : Nat)
    (hload : DanceDNNF.fromFile cols rows lines useIG useETT none = some s0)
    (hnd : ∀ l ∈ lines, l.Nodup)
    (hm : s.m = { s0.m with single_thread_mode := stm, dxz_mode := dxz, enableGraphSync := sync })
    (hd : s.deadline = none) (hfuel : s0.m.InitBlock.cols.length < fuel) :
    ∃ r s1, DXD fuel s s0.m.InitBlock 1 = Outcome.ok (r, s0.m.InitBlock, s1) ∧
      DXDcols fuel s s0.m.InitBlock 1 = Outcome.ok (r, s0.m.InitBlock, s1) := by
  unfold DanceDNNF.fromFile at hload
  cases hl : DancingMatrix.fromFile cols rows lines useIG useETT with
  | none => rw [hl] at hload; cases hload
  | some m =>
    rw [hl] at hload
    injection hload with hload
    have hm0 : s0.m = m := by rw [← hload]
    rw [hm0] at hm hfuel ⊢
    obtain ⟨mt, hsound⟩ := fromFile_sound cols rows lines useIG useETT m hl hnd
    have hS : Sound mt s.m m.InitBlock := by rw [hm]; exact hsound stm dxz sync
    obtain ⟨r, s1, h1, _, _⟩ := DXDcols_total mt fuel s m.InitBlock 1 hS hd hfuel
    refine ⟨r, s1, ?_, h1⟩
    rcases DXDcols_within fuel s m.InitBlock 1 with h | h
    · rw [h] at h1; cases h1
    · rw [← h]; exact h1

set_option maxRecDepth 100000 in
/-- C38 as stated does not hold.  On the object of the file `1 2` whose data lines are
`1 1` and `1`, `InitBlock` has the one column 1 and `DXD(InitBlock, 1)` returns (the
count 6) only when the recursion may go four frames deep: with three frames it does not
return.  The run with the check on every recursive call stops: a recursive call gets a
block that has not strictly fewer columns than its caller's block had at entry. -/
theorem C38_counterexample :
    DanceDNNF.fromFile 1 2 [[1, 1], [1]] true false none = some twiceSample ∧
    twiceSample.deadline = none ∧
    twiceSample.m.InitBlock.cols = [1] ∧
    (returned (DXD 4 twiceSample twiceSample.m.InitBlock 1)).map (fun p => p.1.count) = some 6 ∧
    (DXD 3 twiceSample twiceSample.m.InitBlock 1).isDiverged = true ∧
    (DXDcols 4 twiceSample twiceSample.m.InitBlock 1).isDiverged = true := by
  refine ⟨?_, ?_, ?_, ?_, ?_, ?_⟩ <;> decide!

/-- C38 (amended): for every matrix loaded by the file constructor from data lines each of
which names distinct columns, whatever the detector, the search mode and the values of
the flags `single_thread_mode`, `dxz_mode` and `enableGraphSync`, and with the time bound
never broken, `DXD(InitBlock, 1)` returns within any recursion depth above the number of
columns of `InitBlock`, and every recursive call, from the branching loop or from the
search of the blocks of a decomposition, receives a block with strictly fewer columns than
its caller's block had at entry: the run that checks this at every call returns the same
result. -/
theorem C38_DXD_terminates_with_fewer_columns (cols rows : Nat) (lines : List (List Nat))
    (useIG useETT : Bool) (s0 s : DanceDNNF) (stm dxz sync : Bool) (fuel : Nat)
    (hload : DanceDNNF.fromFile cols rows lines useIG useETT none = some s0)
    (hnd : ∀ l ∈ lines, l.Nodup)
    (hm : s.m = { s0.m with single_thread_mode := stm, dxz_mode := dxz, enableGraphSync := sync })
    (hd : s.deadline = none) (hfuel : s0.m.InitBlock.cols.length < fuel) :
    ∃ r s1, DXD fuel s s0.m.InitBlock 1 = Outcome.ok (r, s0.m.InitBlock, s1) ∧
      DXDcols fuel s s0.m.InitBlock 1 = Outcome.ok (r, s0.m.InitBlock, s1) :=
  loaded_DXD_total cols rows lines useIG useETT s0 s stm dxz sync fuel hload hnd hm hd hfuel

set_option maxRecDepth 100000 in
/-- C38 on the object of the file `4 4` with the rows {1,2}, {3}, {2,3}, {4} and the
union-find detector, and on the same file with the Euler-tour detector and the parallel
search: the hypotheses hold and `DXD(InitBlock, 1)` returns within five frames, every
recursive call getting fewer columns. -/
theorem C38_DXD_terminates_with_fewer_columns_witness :
    (DanceDNNF.fromFile 4 4 [[1, 2], [3], [2, 3], [4]] true false none = some frameSample ∧
      (∀ l ∈ [[1, 2], [3], [2, 3], [4]], l.Nodup) ∧
      frameSample.m = { frameSample.m with single_thread_mode := false, dxz_mode := false, enableGraphSync := true } ∧
      frameSample.deadline = none ∧ frameSample.m.InitBlock.cols.length < 5 ∧
      ∃ r s1, DXD 5 frameSample frameSample.m.InitBlock 1 =
          Outcome.ok (r, frameSample.m.InitBlock, s1) ∧
        DXDcols 5 frameSample frameSample.m.InitBlock 1 =
          Outcome.ok (r, frameSample.m.InitBlock, s1)) :=
  ⟨by decide!, by decide, by decide!, by decide!, by decide!,
    C38_DXD_terminates_with_fewer_columns 4 4 [[1, 2], [3], [2, 3], [4]] true false frameSample
      frameSample false false true 5 (by decide!) (by decide) (by decide!) (by decide!)
      (by decide!)⟩

/-! ## The count that DXD returns without decomposition -/

theorem mem_within (L : Nat → List Nat) (R : Finset Nat) (S : List Nat) (r : Nat) :
    r ∈ within L R S ↔ r ∈ R ∧ ∀ c ∈ L r, c ∈ S := by
  unfold within
  rw [Finset.mem_filter]

/-- The exact covers of `S` are counted by the row that covers the column `c`: the count
is the sum, over the rows within `S` that have a 1 in `c`, of the counts of the exact
covers of the columns that the row leaves. -/
theorem subCount_rec (L : Nat → List Nat) (R : Finset Nat) (S : List Nat) (c : Nat)
    (hc : c ∈ S) :
    subCount L R S =
      ∑ r ∈ (within L R S).filter (fun r => c ∈ L r),
        subCount L R (S.filter (fun d => decide (d ∉ L r))) := by
  unfold subCount coverCount
  rw [← Finset.card_sigma]
  symm
  refine Finset.card_bij (fun (p : (_ : Nat) × Finset Nat) _ => insert p.1 p.2) ?_ ?_ ?_
  · rintro ⟨r0, T⟩ hp
    simp only [Finset.mem_sigma, Finset.mem_filter, Finset.mem_powerset, mem_within] at hp
    obtain ⟨⟨⟨hr0R, hr0S⟩, hr0c⟩, hTsub, hTcov⟩ := hp
    have hTin : ∀ r ∈ T, r ∈ R ∧ ∀ d ∈ L r, d ∈ S ∧ d ∉ L r0 := by
      intro r hr
      have := hTsub hr
      rw [mem_within] at this
      refine ⟨this.1, fun d hd => ?_⟩
      have := this.2 d hd
      simpa using this
    rw [Finset.mem_filter, Finset.mem_powerset]
    refine ⟨?_, ?_⟩
    · intro r hr
      rw [mem_within]
      rcases Finset.mem_insert.mp hr with e | e
      · rw [e]; exact ⟨hr0R, hr0S⟩
      · exact ⟨(hTin r e).1, fun d hd => ((hTin r e).2 d hd).1⟩
    · intro d hd
      by_cases hd0 : d ∈ L r0
      · have : (insert r0 T).filter (fun r => d ∈ L r) = {r0} := by
          ext r
          simp only [Finset.mem_filter, Finset.mem_insert, Finset.mem_singleton]
          constructor
          · rintro ⟨h1 | h1, h2⟩
            · exact h1
            · exact absurd hd0 ((hTin r h1).2 d h2).2
          · intro e; rw [e]; exact ⟨Or.inl rfl, hd0⟩
        rw [this, Finset.card_singleton]
      · have : (insert r0 T).filter (fun r => d ∈ L r) = T.filter (fun r => d ∈ L r) := by
          ext r
          simp only [Finset.mem_filter, Finset.mem_insert]
          constructor
          · rintro ⟨h1 | h1, h2⟩
            · rw [h1] at h2; exact absurd h2 hd0
            · exact ⟨h1, h2⟩
          · rintro ⟨h1, h2⟩; exact ⟨Or.inr h1, h2⟩
        rw [this]
        exact hTcov d (by simp [hd, hd0])
  · rintro ⟨r0, T⟩ hp ⟨r1, T1⟩ hp1 heq
    simp only [Finset.mem_sigma, Finset.mem_filter, Finset.mem_powerset, mem_within] at hp hp1
    obtain ⟨⟨⟨_, _⟩, hr0c⟩, hTsub, _⟩ := hp
    obtain ⟨⟨⟨_, _⟩, hr1c⟩, hT1sub, _⟩ := hp1
    have hnot : ∀ (a b : Nat) (U : Finset Nat), c ∈ L a → c ∈ L b →
        (∀ r ∈ U, r ∈ within L R (S.filter (fun d => decide (d ∉ L b)))) → a ∈ insert b U →
        a = b := by
      intro a b U ha hb hU hmem
      rcases Finset.mem_insert.mp hmem with e | e
      · exact e
      · have := hU a e
        rw [mem_within] at this
        have := this.2 c ha
        simp at this
        exact absurd hb this.2
    have hnotin : ∀ (b : Nat) (U : Finset Nat), c ∈ L b →
        (∀ r ∈ U, r ∈ within L R (S.filter (fun d => decide (d ∉ L b)))) → b ∉ U := by
      intro b U hb hU hmem
      have := hU b hmem
      rw [mem_within] at this
      have := this.2 c hb
      simp at this
      exact absurd hb this.2
    have heq : insert r0 T = insert r1 T1 := heq
    have e : r0 = r1 := hnot r0 r1 T1 hr0c hr1c (fun r hr => hT1sub hr)
      (by rw [← heq]; exact Finset.mem_insert_self _ _)
    subst e
    have h0 := hnotin r0 T hr0c (fun r hr => hTsub hr)
    have h1 := hnotin r0 T1 hr0c (fun r hr => hT1sub hr)
    have : T = T1 := by
      have := congrArg (fun U => U.erase r0) heq
      simpa [Finset.erase_insert h0, Finset.erase_insert h1] using this
    rw [this]
  · intro T hT
    rw [Finset.mem_filter, Finset.mem_powerset] at hT
    obtain ⟨hTsub, hTcov⟩ := hT
    obtain ⟨r0, hr0⟩ := Finset.card_eq_one.mp (hTcov c hc)
    have hr0T : r0 ∈ T ∧ c ∈ L r0 := by
      have : r0 ∈ T.filter (fun r => c ∈ L r) := by rw [hr0]; exact Finset.mem_singleton_self _
      simpa using this
    have hr0W := (mem_within L R S r0).mp (hTsub hr0T.1)
    have hdisj : ∀ r ∈ T, r ≠ r0 → ∀ d ∈ L r, d ∉ L r0 := by
      intro r hr hne d hd hd0
      have hdS := hr0W.2 d hd0
      obtain ⟨r1, hr1⟩ := Finset.card_eq_one.mp (hTcov d hdS)
      have m1 : r ∈ T.filter (fun r => d ∈ L r) := by simp [hr, hd]
      have m0 : r0 ∈ T.filter (fun r => d ∈ L r) := by simp [hr0T.1, hd0]
      rw [hr1, Finset.mem_singleton] at m1 m0
      exact hne (m1.trans m0.symm)
    refine ⟨⟨r0, T.erase r0⟩, ?_, ?_⟩
    · simp only [Finset.mem_sigma, Finset.mem_filter, Finset.mem_powerset, mem_within]
      refine ⟨⟨hr0W, hr0T.2⟩, ?_, ?_⟩
      · intro r hr
        have hr1 := Finset.mem_erase.mp hr
        have hrW := (mem_within L R S r).mp (hTsub hr1.2)
        rw [mem_within]
        refine ⟨hrW.1, fun d hd => ?_⟩
        simp only [List.mem_filter, decide_eq_true_eq]
        exact ⟨hrW.2 d hd, hdisj r hr1.2 hr1.1 d hd⟩
      · intro d hd
        simp only [List.mem_filter, decide_eq_true_eq] at hd
        have : (T.erase r0).filter (fun r => d ∈ L r) = T.filter (fun r => d ∈ L r) := by
          ext r
          simp only [Finset.mem_filter, Finset.mem_erase]
          constructor
          · rintro ⟨⟨_, h1⟩, h2⟩; exact ⟨h1, h2⟩
          · rintro ⟨h1, h2⟩
            refine ⟨⟨?_, h1⟩, h2⟩
            intro e; rw [e] at h2; exact hd.2 h2
        rw [this]
        exact hTcov d hd.1
    · exact Finset.insert_erase hr0T.1

theorem sublist_sorted_ext (rows a b : List Nat) (hs : rows.Sorted (· < ·))
    (ha : a.Sublist rows) (hb : b.Sublist rows) (h : ∀ x, x ∈ a ↔ x ∈ b) : a = b := by
  have hsa : a.Sorted (· < ·) := hs.sublist ha
  have hsb : b.Sorted (· < ·) := hs.sublist hb
  have hna : a.Nodup := hsa.imp (fun h => Nat.ne_of_lt h)
  have hnb : b.Nodup := hsb.imp (fun h => Nat.ne_of_lt h)
  exact List.eq_of_perm_of_sorted ((List.perm_ext_iff_of_nodup hna hnb).mpr h) hsa hsb

theorem filter_card_toFinset (l : List Nat) (hn : l.Nodup) (q : Nat → Bool) :
    (l.toFinset.filter (fun r => q r = true)).card = (l.filter q).length := by
  have : l.toFinset.filter (fun r => q r = true) = (l.filter q).toFinset := by
    ext r
    simp [List.mem_filter]
  rw [this, List.toFinset_card_of_nodup (hn.filter _)]

/-- The number `exactCoverCount` of the exact covers, counted over the sublists of an
ascending list of rows, is the number of the sets of rows that are exact covers. -/
theorem exactCoverCount_eq (lines : List (List Nat)) (rows cols : List Nat)
    (hs : rows.Sorted (· < ·)) :
    exactCoverCount lines rows cols = coverCount (fun r => lines.getD r []) rows.toFinset cols := by
  have hn : rows.Nodup := hs.imp (fun h => Nat.ne_of_lt h)
  unfold exactCoverCount coverCount
  rw [← List.toFinset_card_of_nodup ((List.nodup_sublists.mpr hn).filter _)]
  refine Finset.card_bij (fun chosen _ => chosen.toFinset) ?_ ?_ ?_
  · intro chosen hch
    rw [List.mem_toFinset, List.mem_filter, List.mem_sublists] at hch
    obtain ⟨hsub, hall⟩ := hch
    rw [Finset.mem_filter, Finset.mem_powerset]
    refine ⟨fun r hr => ?_, ?_⟩
    · exact List.mem_toFinset.mpr (hsub.subset (List.mem_toFinset.mp hr))
    · intro c hc
      rw [List.all_eq_true] at hall
      have := hall c hc
      rw [decide_eq_true_eq] at this
      have h2 := filter_card_toFinset chosen (hn.sublist hsub)
        (fun r => decide (c ∈ lines.getD r []))
      simp only [decide_eq_true_eq] at h2
      show (chosen.toFinset.filter (fun r => c ∈ lines.getD r [])).card = 1
      rw [h2]
      exact this
  · intro a ha b hb hab
    rw [List.mem_toFinset, List.mem_filter, List.mem_sublists] at ha hb
    apply sublist_sorted_ext rows a b hs ha.1 hb.1
    intro x
    have := congrArg (fun T => x ∈ T) hab
    simpa using this
  · intro T hT
    rw [Finset.mem_filter, Finset.mem_powerset] at hT
    obtain ⟨hsub, hcov⟩ := hT
    have hT2 : (rows.filter (fun r => decide (r ∈ T))).toFinset = T := by
      ext r
      simp only [List.mem_toFinset, List.mem_filter, decide_eq_true_eq]
      constructor
      · exact fun h => h.2
      · exact fun h => ⟨List.mem_toFinset.mp (hsub h), h⟩
    refine ⟨rows.filter (fun r => decide (r ∈ T)), ?_, hT2⟩
    rw [List.mem_toFinset, List.mem_filter, List.mem_sublists]
    refine ⟨List.filter_sublist _, ?_⟩
    rw [List.all_eq_true]
    intro c hc
    rw [decide_eq_true_eq]
    have h2 := filter_card_toFinset (rows.filter (fun r => decide (r ∈ T))) (hn.filter _)
      (fun r => decide (c ∈ lines.getD r []))
    simp only [decide_eq_true_eq] at h2
    rw [← h2, hT2]
    exact hcov c hc

/-- No column is left: the one exact cover is the empty set of rows, every row having
a 1. -/
theorem subCount_nil (L : Nat → List Nat) (R : Finset Nat) (hL : ∀ r ∈ R, L r ≠ []) :
    subCount L R [] = 1 := by
  unfold subCount coverCount
  have hw : within L R [] = ∅ := by
    ext r
    rw [mem_within]
    constructor
    · rintro ⟨h1, h2⟩
      exfalso
      cases hl : L r with
      | nil => exact hL r h1 hl
      | cons a t =>
        have := h2 a (by rw [hl]; exact List.mem_cons_self _ _)
        simp at this
    · intro h; simp at h
  rw [hw]
  simp

/-- A column without a row within the block: no exact cover. -/
theorem subCount_zero (L : Nat → List Nat) (R : Finset Nat) (S : List Nat) (c : Nat)
    (hc : c ∈ S) (h : ∀ r ∈ within L R S, c ∉ L r) : subCount L R S = 0 := by
  rw [subCount_rec L R S c hc]
  have : (within L R S).filter (fun r => c ∈ L r) = ∅ := by
    ext r
    simp only [Finset.mem_filter, Finset.not_mem_empty, iff_false, not_and]
    exact h r
  rw [this, Finset.sum_empty]

/-- All rows lie within the columns: the count of the block is the count over all rows. -/
theorem subCount_closed (L : Nat → List Nat) (R : Finset Nat) (S : List Nat)
    (h : ∀ r ∈ R, ∀ c ∈ L r, c ∈ S) : subCount L R S = coverCount L R S := by
  unfold subCount
  have : within L R S = R := by
    ext r
    rw [mem_within]
    exact ⟨fun h1 => h1.1, fun h1 => ⟨h1, h r h1⟩⟩
  rw [this]

theorem normalizeDown_pos : ∀ (f : Nat) (s : ScientificCount), 0 < s.mantissa →
    0 < (normalizeDown f s).mantissa := by
  intro f
  induction f with
  | zero => intro s h; exact h
  | succ f ih =>
    intro s h
    rw [normalizeDown]
    split_ifs
    · exact ih _ (div_pos h (by norm_num))
    · exact h

theorem normalizeUp_pos : ∀ (f : Nat) (s : ScientificCount), 0 < s.mantissa →
    0 < (normalizeUp f s).mantissa := by
  intro f
  induction f with
  | zero => intro s h; exact h
  | succ f ih =>
    intro s h
    rw [normalizeUp]
    split_ifs
    · exact ih _ (mul_pos h (by norm_num))
    · exact h

theorem normalize_pos (s : ScientificCount) (h : 0 < s.mantissa) : 0 < s.normalize.mantissa := by
  unfold ScientificCount.normalize
  rw [if_neg (ne_of_gt h)]
  exact normalizeUp_pos _ _ (normalizeDown_pos _ _ h)

theorem sciOfCount_pos (n : Nat) (h : 0 < n) : 0 < (ScientificCount.ofCount n).mantissa := by
  unfold ScientificCount.ofCount
  rw [if_neg (by omega)]
  apply normalize_pos
  show (0 : ℚ) < (n : ℚ)
  exact_mod_cast h

theorem sciAdd_pos (a b : ScientificCount) (ha : 0 < a.mantissa) (hb : 0 < b.mantissa) :
    0 < (a.add b).mantissa := by
  unfold ScientificCount.add
  have hza : a.isZero = false := by simp [ScientificCount.isZero, ne_of_gt ha]
  have hzb : b.isZero = false := by simp [ScientificCount.isZero, ne_of_gt hb]
  rw [hza, hzb]
  simp only [Bool.false_eq_true, if_false]
  split_ifs
  · exact ha
  · exact hb
  · exact normalize_pos _ (add_pos (mul_pos ha (pow_pos (by norm_num) _)) hb)
  · exact normalize_pos _ (add_pos ha (mul_pos hb (pow_pos (by norm_num) _)))

theorem counts_ofCount (n : Nat) (h : n < 2 ^ 64) : Counts (DNNFResult.ofCount n) n :=
  ⟨fun _ => rfl, fun h2 => absurd h (by omega)⟩

theorem counts_isZero (r : DNNFResult) (N : Nat) (h : Counts r N) :
    r.isZero = true ↔ N = 0 := by
  by_cases hN : N < 2 ^ 64
  · rw [h.1 hN]
    simp [DNNFResult.isZero, DNNFResult.ofCount]
  · obtain ⟨h1, h2⟩ := h.2 (by omega)
    unfold DNNFResult.isZero
    rw [h1]
    simp only [if_true, ScientificCount.isZero, decide_eq_true_eq]
    constructor
    · intro e; rw [e] at h2; exact absurd h2 (lt_irrefl _)
    · intro e; omega

theorem counts_sci_pos (r : DNNFResult) (N : Nat) (h : Counts r N) (hN : 0 < N) :
    0 < r.sciCount.mantissa := by
  by_cases hlt : N < 2 ^ 64
  · rw [h.1 hlt]
    exact sciOfCount_pos N hN
  · exact (h.2 (by omega)).2

/-- The sum of two results stands for the sum of the numbers they stand for. -/
theorem counts_add (a b : DNNFResult) (A B : Nat) (ha : Counts a A) (hb : Counts b B) :
    Counts (a.add b) (A + B) := by
  have hza := counts_isZero a A ha
  have hzb := counts_isZero b B hb
  unfold DNNFResult.add
  by_cases hA : A = 0
  · rw [if_pos (hza.mpr hA), hA, Nat.zero_add]
    exact hb
  have hza2 : ¬ a.isZero = true := fun h => hA (hza.mp h)
  rw [if_neg hza2]
  by_cases hB : B = 0
  · rw [if_pos (hzb.mpr hB), hB, Nat.add_zero]
    exact ha
  have hzb2 : ¬ b.isZero = true := fun h => hB (hzb.mp h)
  rw [if_neg hzb2]
  have hpa := counts_sci_pos a A ha (Nat.pos_of_ne_zero hA)
  have hpb := counts_sci_pos b B hb (Nat.pos_of_ne_zero hB)
  have hsci : Counts (DNNFResult.ofSci (a.sciCount.add b.sciCount)) (A + B) ∨ A + B < 2 ^ 64 := by
    by_cases hs : A + B < 2 ^ 64
    · exact Or.inr hs
    · exact Or.inl ⟨fun h => absurd h hs, fun _ => ⟨rfl, sciAdd_pos _ _ hpa hpb⟩⟩
  by_cases hov : (a.overflowed || b.overflowed) = true
  · rw [if_pos hov]
    rcases hsci with h | h
    · exact h
    · exfalso
      have h1 := ha.1 (by omega)
      have h2 := hb.1 (by omega)
      rw [h1, h2] at hov
      simp [DNNFResult.ofCount] at hov
  · rw [if_neg hov]
    simp only [Bool.or_eq_true, not_or, Bool.not_eq_true] at hov
    have hAlt : A < 2 ^ 64 := by
      by_contra h
      have := (ha.2 (by omega)).1
      rw [hov.1] at this
      cases this
    have hBlt : B < 2 ^ 64 := by
      by_contra h
      have := (hb.2 (by omega)).1
      rw [hov.2] at this
      cases this
    have ea := ha.1 hAlt
    have eb := hb.1 hBlt
    have eac : a.count = A := by rw [ea]; rfl
    have ebc : b.count = B := by rw [eb]; rfl
    rw [eac, ebc]
    by_cases hle : A ≤ ULLONG_MAX - B
    · rw [if_pos hle]
      unfold ULLONG_MAX at hle
      exact counts_ofCount _ (by omega)
    · rw [if_neg hle]
      unfold ULLONG_MAX at hle
      rcases hsci with h | h
      · exact h
      · omega

theorem subCount_congr (L : Nat → List Nat) (R : Finset Nat) (S S1 : List Nat)
    (h : ∀ d, d ∈ S ↔ d ∈ S1) : subCount L R S = subCount L R S1 := by
  unfold subCount coverCount
  have hw : within L R S = within L R S1 := by
    ext r
    rw [mem_within, mem_within]
    exact ⟨fun g => ⟨g.1, fun c hc => (h c).mp (g.2 c hc)⟩,
      fun g => ⟨g.1, fun c hc => (h c).mpr (g.2 c hc)⟩⟩
  rw [hw]
  congr 1
  ext T
  simp only [Finset.mem_filter]
  exact ⟨fun g => ⟨g.1, fun c hc => g.2 c ((h c).mpr hc)⟩,
    fun g => ⟨g.1, fun c hc => g.2 c ((h c).mp hc)⟩⟩

theorem sizeGood_kept (mt : Nat → List Nat) :
    KeptByCover mt (fun m rg _ => SizeGood m rg) := by
  intro m hs rg block c m1 b1 rem hB _ hc hq hcov hB1 _ _
  have hI : LInv m hs rg mt := ⟨hB.hgood, hB.vgood, hB.rgood, hB.live, hq⟩
  obtain ⟨m2, rg2, hI2, _, hcb, _, _⟩ := cover_linv m hs rg mt c hI (hB.cols_unc c hc)
  obtain ⟨a1, bl, ha1, hsame⟩ := hcb m block [] (sameLinks_refl m)
  have e := Option.some.inj (ha1.symm.trans hcov)
  have e1 : a1 = m1 := congrArg Prod.fst e
  subst e1
  have hI3 := linv_same a1 m2 _ rg2 mt hsame hI2
  exact sizegood_of_vgood a1 rg2 _ hI3.2.1 hB1.vgood hI3.2.2.2.2

theorem allLive_kept (L : Nat → List Nat) (R : Finset Nat) (mt : Nat → List Nat) :
    KeptByCover mt (fun m rg block => RowCols L R m mt ∧ AllLive L R m rg block) := by
  intro m hs rg block c m1 b1 rem hB _ hc hq hcov hB1 hb1 hrem
  obtain ⟨hRC, hAL⟩ := hq
  have hst := (coverInBlock_touched m c block [] m1 b1 [] hcov).1
  have hrow : m1.row = m.row := by unfold Touched at hst; rw [hst]
  have hcol : m1.col = m.col := by unfold Touched at hst; rw [hst]
  have hC : m1.COLS = m.COLS := by unfold Touched at hst; rw [hst]
  have hcc := hB.hgood.2.2.2 c (hB.cols_unc c hc)
  constructor
  · intro x h1 h2
    unfold DancingMatrix.nodes at h2
    rw [hrow, hcol]
    rw [hC] at h1
    rw [hcol] at h2
    exact hRC x h1 h2
  · intro r hr hin c1 hc1
    have hin0 : ∀ d ∈ L r, d ∈ block.cols := by
      intro d hd
      have := hin d hd
      rw [hb1] at this
      exact ((mem_setErase_sorted _ _ _ hB.csorted).mp this).2
    obtain ⟨x, hx, hxr⟩ := hAL r hr hin0 c1 hc1
    refine ⟨x, ?_, by rw [hrow]; exact hxr⟩
    refine (mem_filter_not_mem _ _ _).mpr ⟨hx, ?_⟩
    intro hxrem
    obtain ⟨z, hz, hxz⟩ := hrem x hxrem
    have hzc := (hB.vgood.2 c hcc.1 hcc.2).2.2.2 z hz
    have hxz2 := ((hB.rgood.2 z hzc.1 hzc.2.1).2.2.2.2 x).mp hxz
    have hcL : c ∈ L r := by
      have := ((hRC z hzc.1 hzc.2.1).2 c).mpr (Or.inl hzc.2.2.symm)
      rw [← hxz2.2.2.2, hxr] at this
      exact this
    have := hin c hcL
    rw [hb1] at this
    exact ((mem_setErase_sorted _ _ _ hB.csorted).mp this).1 rfl

theorem countState_kept (L : Nat → List Nat) (R : Finset Nat) (mt : Nat → List Nat) :
    KeptByCover mt (CountState L R mt) := by
  intro m hs rg block c m1 b1 rem hB hG hc hq hcov hB1 hb1 hrem
  obtain ⟨q1, q2, q3, q4⟩ := hq
  have k3 := allLive_kept L R mt m hs rg block c m1 b1 rem hB hG hc ⟨q3, q4⟩ hcov hB1 hb1 hrem
  exact ⟨rowsLive_kept mt m hs rg block c m1 b1 rem hB hG hc q1 hcov hB1 hb1 hrem,
    sizeGood_kept mt m hs rg block c m1 b1 rem hB hG hc q2 hcov hB1 hb1 hrem, k3.1, k3.2⟩

theorem assocGet_map_other {α : Type} (mp : List (Nat × α)) (k : Nat) (v : α) (r : Nat)
    (hr : r ≠ k) :
    assocGet (mp.map (fun e => if e.1 = k then (k, v) else e)) r = assocGet mp r := by
  unfold assocGet
  induction mp with
  | nil => rfl
  | cons e rest ih =>
    simp only [List.map_cons, List.find?_cons]
    by_cases hek : e.1 = k
    · rw [if_pos hek]
      have h1 : ¬ k = r := fun h => hr h.symm
      have h2 : ¬ e.1 = r := fun h => hr (h.symm.trans hek)
      simp only [h1, h2, decide_False]
      exact ih
    · rw [if_neg hek]
      by_cases her : e.1 = r
      · simp [her]
      · simp only [her, decide_False]
        exact ih

theorem assocGet_map_key {α : Type} (mp : List (Nat × α)) (k : Nat) (v : α)
    (h : ∃ e ∈ mp, e.1 = k) :
    assocGet (mp.map (fun e => if e.1 = k then (k, v) else e)) k = some v := by
  unfold assocGet
  induction mp with
  | nil => obtain ⟨e, he, _⟩ := h; simp at he
  | cons e rest ih =>
    simp only [List.map_cons, List.find?_cons]
    by_cases hek : e.1 = k
    · rw [if_pos hek]
      simp
    · rw [if_neg hek]
      simp only [hek, decide_False]
      apply ih
      obtain ⟨e1, he1, hk1⟩ := h
      rcases List.mem_cons.mp he1 with e2 | e2
      · rw [e2] at hk1; exact absurd hk1 hek
      · exact ⟨e1, e2, hk1⟩

theorem assocGet_assocSet {α : Type} (mp : List (Nat × α)) (k : Nat) (v : α) (r : Nat) :
    assocGet (assocSet mp k v) r = if r = k then some v else assocGet mp r := by
  unfold assocSet
  by_cases ha : mp.any (fun e => decide (e.1 = k)) = true
  · rw [if_pos ha]
    by_cases hr : r = k
    · rw [if_pos hr, hr]
      apply assocGet_map_key
      rw [List.any_eq_true] at ha
      obtain ⟨e, he, hk⟩ := ha
      exact ⟨e, he, by simpa using hk⟩
    · rw [if_neg hr]
      exact assocGet_map_other mp k v r hr
  · rw [if_neg ha]
    have hnone : mp.find? (fun e => decide (e.1 = k)) = none := by
      rw [List.find?_eq_none]
      intro e he hk
      apply ha
      rw [List.any_eq_true]
      exact ⟨e, he, hk⟩
    unfold assocGet
    rw [List.find?_append]
    by_cases hr : r = k
    · subst hr
      rw [if_pos rfl, hnone]
      simp
    · rw [if_neg hr]
      cases hf : mp.find? (fun e => decide (e.1 = r)) with
      | some e => simp
      | none => simp [Ne.symm hr]

theorem cacheOK_set (L : Nat → List Nat) (R : Finset Nat) (cols0 : List Nat) (s : DanceDNNF)
    (S : List Nat) (v : DNNFResult) (h : CacheOK L R cols0 s) (hS : S ∈ cols0.sublists)
    (hv : Counts v (subCount L R S)) :
    CacheOK L R cols0 (s.setCacheCount (hashBlockState S) v) := by
  intro k w hk
  unfold DanceDNNF.setCacheCount at hk
  dsimp only at hk
  rw [assocGet_assocSet] at hk
  by_cases e : k = hashBlockState S
  · rw [if_pos e] at hk
    injection hk with hk
    subst hk
    exact ⟨S, hS, e.symm, hv⟩
  · rw [if_neg e] at hk
    exact h k w hk

theorem cacheOK_hit (L : Nat → List Nat) (R : Finset Nat) (cols0 : List Nat) (s : DanceDNNF)
    (S : List Nat) (v : DNNFResult) (h : CacheOK L R cols0 s) (hinj : HashInj cols0)
    (hS : S ∈ cols0.sublists) (hv : assocGet s.countCache (hashBlockState S) = some v) :
    Counts v (subCount L R S) := by
  obtain ⟨S1, hS1, he, hc⟩ := h _ _ hv
  have := hinj S1 hS1 S hS he
  rw [← this]
  exact hc

theorem sorted_subset_sublist (a b : List Nat) (ha : a.Sorted (· < ·)) (hb : b.Sorted (· < ·))
    (h : ∀ x ∈ a, x ∈ b) : a.Sublist b :=
  List.sublist_of_subperm_of_sorted
    (List.Nodup.subperm (ha.imp (fun h => Nat.ne_of_lt h)) h) ha hb

theorem countState_auxEq (L : Nat → List Nat) (R : Finset Nat) (mt : Nat → List Nat)
    (a b : DancingMatrix) (rg : Nat → List Nat) (block : Block) (h : AuxEq a b)
    (hq : CountState L R mt b rg block) : CountState L R mt a rg block := by
  have hf := auxEq_fields a b h
  obtain ⟨q1, q2, q3, q4⟩ := hq
  refine ⟨rowsLive_auxEq a b rg block h q1, ?_, ?_, ?_⟩
  · unfold SizeGood at q2 ⊢
    rw [hf.2.2.2.2.2.2.1, hf.2.2.2.2.2.2.2.1]
    exact q2
  · unfold RowCols DancingMatrix.nodes at q3 ⊢
    rw [hf.2.2.2.2.1, hf.2.2.2.2.2.1, hf.2.2.2.2.2.2.2.1]
    exact q3
  · unfold AllLive at q4 ⊢
    rw [hf.2.2.2.2.2.1]
    exact q4

theorem countSync_kept (L : Nat → List Nat) (R : Finset Nat) (mt : Nat → List Nat) :
    KeptByCover mt (fun m rg block => CountState L R mt m rg block ∧
      m.enableGraphSync = false) := by
  intro m hs rg block c m1 b1 rem hB hG hc hq hcov hB1 hb1 hrem
  have hst := (coverInBlock_touched m c block [] m1 b1 [] hcov).1
  have he : m1.enableGraphSync = m.enableGraphSync := by unfold Touched at hst; rw [hst]
  exact ⟨countState_kept L R mt m hs rg block c m1 b1 rem hB hG hc hq.1 hcov hB1 hb1 hrem,
    he.trans hq.2⟩

theorem gok_syncOff (m : DancingMatrix) (rg : Nat → List Nat) (block : Block)
    (h : m.enableGraphSync = false) : GOK m rg block := by
  intro h1
  rw [h] at h1
  cases h1

/-- One turn of the branching loop of `DXD` without decomposition: the call of `dxd` is
made in a state of the kind the count rests on, and the turn adds to the running total
the number of exact covers of the columns that the row of the cell `z` leaves. -/
theorem branchLoop_turn_count (L : Nat → List Nat) (R : Finset Nat) (mt : Nat → List Nat)
    (cols0 : List Nat) (n : Nat) (dxd : Search) (hdxd : CountBelow L R mt cols0 n dxd)
    (choose : Nat) (depth : Int) (z f : Nat) (s : DanceDNNF) (block : Block)
    (tot : DNNFResult) (x A : Nat)
    (hpre : CountPre L R mt cols0 s block) (hn : block.cols.length < n)
    (hz : s.m.COLS < z ∧ z < s.m.nodes ∧ z ≠ choose)
    (hzc : ∀ y ∈ mt z, nth s.m.col y ∈ block.cols) (htot : Counts tot A) :
    ∀ (P : Outcome (DNNFResult × Block × DanceDNNF) → Prop),
      (∀ s6 tot1, Rel s6.m s.m → s6.deadline = none → CacheOK L R cols0 s6 →
        Counts tot1 (A + subCount L R
          (block.cols.filter (fun d => decide (∀ y ∈ mt z, nth s.m.col y ≠ d)))) →
        P (branchLoop dxd choose depth f s6 block tot1 x (nth s6.m.down z))) →
      P (branchLoop dxd choose depth (f + 1) s block tot x z) := by
  obtain ⟨⟨hs, rg, hB, hQ⟩, hsync, hsub, hC, hd⟩ := hpre
  have hG : GOK s.m rg block := gok_syncOff _ _ _ hsync
  obtain ⟨hz1, hz2, hz3⟩ := hz
  have hRz := hB.rgood.2 z hz1 hz2
  have hlen : (mt z).length < s.m.fuel := by
    have := nodup_bounded_length s.m.nodes (mt z) hRz.2.2.2.1
      (fun y hy => ((hRz.2.2.2.2 y).mp hy).2.1)
    unfold DancingMatrix.fuel; unfold DancingMatrix.nodes at this; omega
  obtain ⟨m1, hs1, rg1, b2, hrun, _, _, hstat, hundo⟩ :=
    coverRowInBlock_frame mt z (mt z) [] s.m hs rg block s.m.fuel hB hG hz1 hz2
      (List.nil_append _).symm hzc hlen
  obtain ⟨m1a, hs1a, rg1a, b2a, hruna, hB1, hG1, hQ1, hcols1⟩ :=
    coverRowInBlock_inv mt z _ (countSync_kept L R mt) (mt z) [] s.m hs rg block s.m.fuel hB hG
      ⟨hQ, hsync⟩ hz1 hz2 (List.nil_append _).symm hzc hlen
  have hsame := hrun.symm.trans hruna
  simp only [Option.some.injEq, Prod.mk.injEq, and_true] at hsame
  obtain ⟨e1, e2⟩ := hsame
  subst e1
  subst e2
  rw [List.getLastD_nil] at hrun
  have hsubset : ∀ c ∈ b2.cols, c ∈ block.cols := fun c hc => ((hcols1 c).mp hc).1
  have hlen2 : b2.cols.length < n := by
    have := sorted_subset_length b2.cols block.cols hB1.csorted hsubset
    omega
  obtain ⟨result, s3, hrec, hrel3, hd3, hC3, hres⟩ := hdxd { s with m := m1 } b2 (depth + 1)
    ⟨⟨hs1a, rg1a, hB1, hQ1.1⟩, hQ1.2,
      (sorted_subset_sublist _ _ hB1.csorted hB.csorted hsubset).trans hsub,
      fun k v hk => hC k v hk, hd⟩ hlen2
  have hrel3 : Rel s3.m m1 := hrel3
  have hres2 : Counts result (subCount L R
      (block.cols.filter (fun d => decide (∀ y ∈ mt z, nth s.m.col y ≠ d)))) := by
    rw [← subCount_congr L R b2.cols _ (fun d => by
      rw [hcols1 d, List.mem_filter, decide_eq_true_eq])]
    exact hres
  obtain ⟨m3, hrel, heq⟩ := hundo s3.m hrel3
  have hf3 := auxEq_fields s3.m m1 hrel3.1
  have hf := auxEq_fields m3 s.m hrel.1
  obtain ⟨g1, hg1⟩ : ∃ g1, s.m.nodes + 1 - (mt z).length = g1 + 1 := by
    unfold DancingMatrix.fuel at hlen
    unfold DancingMatrix.nodes
    exact ⟨s.m.col.length + 1 - (mt z).length - 1, by omega⟩
  intro P hP
  rw [branchLoop, if_neg hz3, hrun]
  dsimp only
  rw [detectorDeleteEdges_nil]
  dsimp only
  rw [hrec]
  dsimp only
  generalize hs4 : (if (!result.isZero) = true then _ else s3) = s4
  have hm4 : s4.m = s3.m := by
    rw [← hs4]
    split_ifs
    · exact (buildDecisionNode_frame _ _ _ _).1
    · rfl
  have hd4 : s4.deadline = none := by
    rw [← hs4]
    split_ifs
    · rw [(buildDecisionNode_frame _ _ _ _).2.1]; exact hd3
    · exact hd3
  have hc4 : s4.countCache = s3.countCache := by
    rw [← hs4]
    split_ifs
    · rw [(buildDecisionNode_frame _ _ _ _).2.2.1]
    · rfl
  generalize htt : (if (!result.isZero) = true then tot.add result else tot) = tot1
  have hct : Counts tot1 (A + subCount L R
      (block.cols.filter (fun d => decide (∀ y ∈ mt z, nth s.m.col y ≠ d)))) := by
    rw [← htt]
    by_cases hzr : result.isZero = true
    · have h0 := (counts_isZero _ _ hres2).mp hzr
      rw [h0, Nat.add_zero]
      simp only [hzr, Bool.not_true, Bool.false_eq_true, if_false]
      exact htot
    · have : (!result.isZero) = true := by simpa using hzr
      rw [if_pos this]
      exact counts_add _ _ _ _ htot hres2
  have hleft : nth s4.m.left z = (mt z).getLastD z := by
    have ha := hB1.rgood.2 z (by rw [hstat.2.2.1]; exact hz1) (by rw [hstat.2.2.2]; exact hz2)
    rw [hm4, hf3.1, chain_head _ _ _ _ ha.2.2.1, headD_reverse]
  have hfuel : s4.m.fuel = (s.m.nodes + 1 - (mt z).length) + (mt z).length := by
    have : s4.m.fuel = s.m.fuel := by
      unfold DancingMatrix.fuel
      rw [hm4, hf3.2.2.2.2.1, hstat.1]
    rw [this]
    unfold DancingMatrix.fuel at hlen ⊢
    unfold DancingMatrix.nodes
    omega
  rw [hleft, hfuel, hm4, heq]
  rw [List.getLastD_nil, hg1, uncoverRowInBlock_nil]
  dsimp only
  rw [detectorAddEdges_nil]
  exact hP { s4 with m := m3 } tot1 hrel hd4 (fun k v hk => hC3 k v (by rw [← hc4]; exact hk)) hct

theorem countPre_rel (L : Nat → List Nat) (R : Finset Nat) (mt : Nat → List Nat)
    (cols0 : List Nat) (s6 s : DanceDNNF) (block : Block) (hrel : Rel s6.m s.m)
    (hd : s6.deadline = none) (hC : CacheOK L R cols0 s6)
    (hpre : CountPre L R mt cols0 s block) : CountPre L R mt cols0 s6 block := by
  obtain ⟨⟨hs, rg, hB, hQ⟩, hsync, hsub, _, _⟩ := hpre
  refine ⟨⟨hs, rg, binv_auxEq _ _ _ _ _ _ hrel.1 hB, countState_auxEq L R mt _ _ _ _ hrel.1 hQ⟩,
    ?_, hsub, hC, hd⟩
  cases h : s6.m.enableGraphSync with
  | false => rfl
  | true =>
    have := hrel.2.1 h
    rw [hsync] at this
    cases this

/-- The branching loop of `DXD` without decomposition over the cells `post` of the chosen
column that are still to be visited: it returns, and adds to the running total, for each
cell, the number of exact covers of the columns that the row of the cell leaves. -/
theorem branchLoop_count (L : Nat → List Nat) (R : Finset Nat) (mt : Nat → List Nat)
    (cols0 : List Nat) (n : Nat) (dxd : Search) (hdxd : CountBelow L R mt cols0 n dxd)
    (choose : Nat) (depth : Int) (col : List Nat) :
    ∀ (post : List Nat) (a f : Nat) (s : DanceDNNF) (block : Block) (tot : DNNFResult)
      (x A : Nat),
      CountPre L R mt cols0 s block → block.cols.length < n → s.m.col = col →
      Chain s.m.down a post choose →
      (∀ z ∈ post, (s.m.COLS < z ∧ z < s.m.nodes ∧ z ≠ choose) ∧
        ∀ y ∈ mt z, nth s.m.col y ∈ block.cols) →
      post.length < f → Counts tot A →
      ∃ r s1, branchLoop dxd choose depth f s block tot x (nth s.m.down a) =
          Outcome.ok (r, block, s1) ∧ Rel s1.m s.m ∧ s1.deadline = none ∧
          CacheOK L R cols0 s1 ∧
          Counts r (A + (post.map (fun z => subCount L R
            (block.cols.filter (fun d => decide (∀ y ∈ mt z, nth col y ≠ d))))).sum) := by
  intro post
  induction post with
  | nil =>
    intro a f s block tot x A hpre _ _ hch _ hf htot
    have hnext : nth s.m.down a = choose := hch
    obtain ⟨f1, rfl⟩ : ∃ f1, f = f1 + 1 := ⟨f - 1, by simp at hf; omega⟩
    rw [hnext, branchLoop, if_pos rfl]
    refine ⟨tot, s, rfl, rel_refl _, hpre.2.2.2.2, hpre.2.2.2.1, ?_⟩
    simpa using htot
  | cons z post ih =>
    intro a f s block tot x A hpre hn hcol hch hcells hf htot
    have hnext : nth s.m.down a = z := hch.1
    obtain ⟨hz, hzcols⟩ := hcells z (List.mem_cons_self _ _)
    obtain ⟨f1, rfl⟩ : ∃ f1, f = f1 + 1 := ⟨f - 1, by simp at hf; omega⟩
    rw [hnext]
    refine branchLoop_turn_count L R mt cols0 n dxd hdxd choose depth z f1 s block tot x A
      hpre hn hz hzcols htot
      (fun o => ∃ r s1, o = Outcome.ok (r, block, s1) ∧ Rel s1.m s.m ∧ s1.deadline = none ∧
        CacheOK L R cols0 s1 ∧
        Counts r (A + ((z :: post).map (fun z => subCount L R
          (block.cols.filter (fun d => decide (∀ y ∈ mt z, nth col y ≠ d))))).sum)) ?_
    intro s6 tot1 hrel hd6 hC6 htot1
    have hfl := auxEq_fields s6.m s.m hrel.1
    obtain ⟨r, s1, h1, h2, h3, h4, h5⟩ := ih z f1 s6 block tot1 x _
      (countPre_rel L R mt cols0 s6 s block hrel hd6 hC6 hpre) hn
      (by rw [hfl.2.2.2.2.1]; exact hcol)
      (by rw [hfl.2.2.2.1]; exact hch.2)
      (by
        intro w hw
        have := hcells w (List.mem_cons_of_mem _ hw)
        unfold DancingMatrix.nodes at this ⊢
        rw [hfl.2.2.2.2.1, hfl.2.2.2.2.2.2.2.1]
        exact this)
      (by simp at hf; omega) htot1
    refine ⟨r, s1, h1, rel_trans _ _ _ h2 hrel, h3, h4, ?_⟩
    rw [List.map_cons, List.sum_cons, ← Nat.add_assoc, ← hcol]
    rw [← hcol] at h5
    exact h5

/-- The recurrence of the count over the live cells of a column of the block: the exact
covers of the columns of the block are counted by the row that covers the column `c`. -/
theorem branch_sum (L : Nat → List Nat) (R : Finset Nat) (mt : Nat → List Nat)
    (m : DancingMatrix) (hs : List Nat) (rg : Nat → List Nat) (block : Block) (c : Nat)
    (hB : BInv m hs rg mt block) (hQ : CountState L R mt m rg block) (hc : c ∈ block.cols) :
    ((rg c).map (fun z => subCount L R
      ((setErase c block.cols).filter (fun d => decide (∀ y ∈ mt z, nth m.col y ≠ d))))).sum =
      subCount L R block.cols := by
  have hcc := hB.hgood.2.2.2 c (hB.cols_unc c hc)
  have hV := hB.vgood.2 c hcc.1 hcc.2
  obtain ⟨_, _, hRC, hAL⟩ := hQ
  have hI : (within L R block.cols).filter (fun r => c ∈ L r) =
      ((rg c).map (nth m.row)).toFinset := by
    ext r
    simp only [Finset.mem_filter, mem_within, List.mem_toFinset, List.mem_map]
    constructor
    · rintro ⟨⟨hrR, hrS⟩, hcr⟩
      exact hAL r hrR hrS c hcr
    · rintro ⟨z, hz, rfl⟩
      have hzc := hV.2.2.2 z hz
      have hrc := hRC z hzc.1 hzc.2.1
      refine ⟨⟨hrc.1, ?_⟩, (hrc.2 c).mpr (Or.inl hzc.2.2.symm)⟩
      intro d hd
      rcases (hrc.2 d).mp hd with e | ⟨y, hy, e⟩
      · rw [e, hzc.2.2]; exact hc
      · rw [← e]; exact hB.closed c hc z hz y hy
  have hnd : ((rg c).map (nth m.row)).Nodup := by
    refine List.Nodup.map_on ?_ hV.2.2.1
    intro x hx y hy hxy
    by_contra hne
    have hxc := hV.2.2.2 x hx
    have hyc := hV.2.2.2 y hy
    have hmem : y ∈ mt x :=
      ((hB.rgood.2 x hxc.1 hxc.2.1).2.2.2.2 y).mpr
        ⟨hyc.1, hyc.2.1, fun e => hne e.symm, hxy.symm⟩
    have := hB.distinct x hxc.1 hxc.2.1 y hmem
    rw [hxc.2.2, hyc.2.2] at this
    exact this rfl
  rw [subCount_rec L R block.cols c hc, hI, List.sum_toFinset _ hnd, List.map_map]
  congr 1
  apply List.map_congr_left
  intro z hz
  have hzc := hV.2.2.2 z hz
  have hrc := hRC z hzc.1 hzc.2.1
  simp only [Function.comp]
  apply subCount_congr
  intro d
  rw [List.mem_filter, List.mem_filter, mem_setErase_sorted _ _ _ hB.csorted,
    decide_eq_true_eq, decide_eq_true_eq, hrc.2 d, hzc.2.2]
  constructor
  · rintro ⟨⟨h1, h2⟩, h3⟩
    refine ⟨h2, ?_⟩
    rintro (e | ⟨y, hy, e⟩)
    · exact h1 e
    · exact h3 y hy e
  · rintro ⟨h1, h2⟩
    exact ⟨⟨fun e => h2 (Or.inl e), h1⟩, fun y hy e => h2 (Or.inr ⟨y, hy, e⟩)⟩

/-- The branching part of a frame of `DXD` without decomposition returns the number of
exact covers of the columns of the block and stores it in the cache. -/
theorem branchStep_count (L : Nat → List Nat) (R : Finset Nat) (mt : Nat → List Nat)
    (cols0 : List Nat) (n : Nat) (dxd : Search) (hdxd : CountBelow L R mt cols0 n dxd)
    (block : Block) (depth : Int) (s : DanceDNNF)
    (hpre : CountPre L R mt cols0 s block) (hne : block.cols ≠ [])
    (hn : block.cols.length ≤ n) :
    ∃ r s1, branchStep dxd block depth (hashBlockState block.cols) s =
        Outcome.ok (r, block, s1) ∧ Rel s1.m s.m ∧ s1.deadline = none ∧
        CacheOK L R cols0 s1 ∧ Counts r (subCount L R block.cols) := by
  have hpre0 := hpre
  obtain ⟨⟨hs, rg, hB, hQ⟩, hsync, hsub, hC, hd⟩ := hpre
  have hG : GOK s.m rg block := gok_syncOff _ _ _ hsync
  obtain ⟨choose, hsel⟩ := selectOptimalColumn_some s.m block.cols hne
  have hch := selectOptimalColumn_mem _ _ _ hsel
  have hcc := hB.hgood.2.2.2 choose (hB.cols_unc choose hch)
  have hmemS : block.cols ∈ cols0.sublists := List.mem_sublists.mpr hsub
  unfold branchStep
  rw [hsel]
  dsimp only
  by_cases hsz : nthI s.m.size choose ≤ 0
  · rw [if_pos hsz]
    have hzero : subCount L R block.cols = 0 := by
      apply subCount_zero L R block.cols choose hch
      intro r hr hcr
      rw [mem_within] at hr
      obtain ⟨x, hx, _⟩ := hQ.2.2.2 r hr.1 hr.2 choose hcr
      have hlen := hQ.2.1.2 choose hcc.1 hcc.2
      rw [hlen] at hsz
      have : (rg choose).length = 0 := by omega
      rw [List.length_eq_zero] at this
      rw [this] at hx
      cases hx
    have hcz : Counts (DNNFResult.ofCount 0) (subCount L R block.cols) := by
      rw [hzero]
      exact counts_ofCount 0 (by norm_num)
    exact ⟨_, _, rfl, rel_refl _, hd, cacheOK_set L R cols0 s block.cols _ hC hmemS hcz, hcz⟩
  rw [if_neg hsz, hB.hdr choose hch]
  obtain ⟨m1, b2, rem, hcov, hB1, hG1, hb2, hstat, hrem, hundo⟩ :=
    coverInBlock_frame s.m hs rg mt block choose [] hB hG hch
  have hQ1 := countSync_kept L R mt s.m hs rg block choose m1 b2 rem hB hG hch ⟨hQ, hsync⟩
    hcov hB1 hb2 hrem
  rw [hcov]
  dsimp only
  rw [detectorDeleteEdges_nil]
  dsimp only
  have hVc := hB.vgood.2 choose hcc.1 hcc.2
  have hV1 := hB1.vgood.2 choose hcc.1 (by rw [hstat.2.2.1]; exact hcc.2)
  have hlen2 : b2.cols.length < n := by
    rw [hb2]
    unfold setErase
    rw [List.length_erase_of_mem hch]
    have : 0 < block.cols.length := List.length_pos.mpr hne
    omega
  have hsub2 : b2.cols.Sublist cols0 := by
    rw [hb2]
    unfold setErase
    exact (List.erase_sublist _ _).trans hsub
  have hsame : (rg choose).filter (fun z => decide (z ∉ rem)) = rg choose := by
    rw [List.filter_eq_self]
    intro z hz
    rw [decide_eq_true_eq]
    intro hzr
    obtain ⟨w, hw, hzw⟩ := hrem z hzr
    have hwc := hVc.2.2.2 w hw
    have hzc := hVc.2.2.2 z hz
    have := hB.distinct w hwc.1 hwc.2.1 z hzw
    rw [hwc.2.2, hzc.2.2] at this
    exact this rfl
  obtain ⟨total, s3, hloop, hrel3, hd3, hC3, hcnt⟩ :=
    branchLoop_count L R mt cols0 n dxd hdxd choose depth m1.col _ choose
      m1.fuel { s with m := m1 } b2 (DNNFResult.ofCount 0) DanceDNNF.F 0
      ⟨⟨_, _, hB1, hQ1.1⟩, hQ1.2, hsub2, fun k v hk => hC k v hk, hd⟩ hlen2 rfl hV1.1
      (by
        intro z hz
        have hz1 := hV1.2.2.2 z hz
        have hz0 := ((mem_filter_not_mem _ _ _).mp hz).1
        have hzc := hVc.2.2.2 z hz0
        refine ⟨⟨hz1.1, hz1.2.1, by omega⟩, ?_⟩
        intro y hy
        show nth m1.col y ∈ b2.cols
        rw [hb2, hstat.1]
        refine (mem_setErase_sorted _ _ _ hB.csorted).mpr ⟨?_, hB.closed choose hch z hz0 y hy⟩
        have := hB.distinct z hzc.1 hzc.2.1 y hy
        rw [hzc.2.2] at this
        exact this)
      (by
        have := nodup_bounded_length m1.nodes _ hV1.2.2.1 (fun z hz => (hV1.2.2.2 z hz).2.1)
        unfold DancingMatrix.fuel; unfold DancingMatrix.nodes at this; omega)
      (counts_ofCount 0 (by norm_num))
  have hrel3 : Rel s3.m m1 := hrel3
  have hcnt2 : Counts total (subCount L R block.cols) := by
    have := branch_sum L R mt s.m hs rg block choose hB hQ hch
    rw [← this]
    dsimp only at hcnt
    rw [hsame, hb2, hstat.1, Nat.zero_add] at hcnt
    exact hcnt
  rw [hloop]
  dsimp only
  have hcol3 : nth s3.m.col choose = choose := by
    rw [(auxEq_fields _ _ hrel3.1).2.2.2.2.1, hstat.1]
    exact hB.hdr choose hch
  obtain ⟨m5, hm5, hrel5⟩ := hundo s3.m hrel3
  rw [hcol3, hm5]
  dsimp only
  rw [detectorAddEdges_nil]
  refine ⟨_, _, rfl, hrel5, hd3, ?_, hcnt2⟩
  exact cacheOK_set L R cols0 { s3 with m := m5 } block.cols _
    (fun k v hk => hC3 k v hk) hmemS hcnt2

/-- One frame of `DXD` without decomposition on a block with at most `n` columns returns
the number of exact covers of the columns of the block when the calls it makes on blocks
with fewer than `n` columns do. -/
theorem DXDstep_count (L : Nat → List Nat) (R : Finset Nat) (mt : Nat → List Nat)
    (cols0 : List Nat) (hinj : HashInj cols0) (hL : ∀ r ∈ R, L r ≠ [])
    (n : Nat) (dxd : Search) (hdxd : CountBelow L R mt cols0 n dxd)
    (s0 : DanceDNNF) (block : Block) (depth : Int)
    (hpre : CountPre L R mt cols0 s0 block) (hn : block.cols.length ≤ n) :
    ∃ r s1, DXDstep dxd s0 block depth = Outcome.ok (r, block, s1) ∧ Rel s1.m s0.m ∧
      s1.deadline = none ∧ CacheOK L R cols0 s1 ∧ Counts r (subCount L R block.cols) := by
  rw [DXDstep_eq]
  have hd : s0.deadline = none := hpre.2.2.2.2
  have htb : s0.timeBoundBroken.1 = false := by
    unfold DanceDNNF.timeBoundBroken
    rw [hd]
  have hpre2 : CountPre L R mt cols0 s0.timeBoundBroken.2 block :=
    ⟨hpre.1, hpre.2.1, hpre.2.2.1, fun k v hk => hpre.2.2.2.1 k v hk, hd⟩
  have hm : s0.timeBoundBroken.2.m = s0.m := rfl
  generalize s0.timeBoundBroken.2 = s at hm hpre2
  rw [← hm]
  rw [htb]
  simp only [Bool.false_eq_true, if_false]
  by_cases h2 : block.cols.isEmpty = true
  · rw [if_pos h2]
    have he : block.cols = [] := List.isEmpty_iff.mp h2
    refine ⟨_, _, rfl, rel_refl _, hpre2.2.2.2.2, hpre2.2.2.2.1, ?_⟩
    rw [he, subCount_nil L R hL]
    exact counts_ofCount 1 (by norm_num)
  rw [if_neg h2]
  have hne : block.cols ≠ [] := fun e => h2 (by rw [e]; rfl)
  cases hc : assocGet s.countCache (hashBlockState block.cols) with
  | some r =>
    exact ⟨_, _, rfl, rel_refl _, hpre2.2.2.2.2, hpre2.2.2.2.1,
      cacheOK_hit L R cols0 s block.cols r hpre2.2.2.2.1 hinj
        (List.mem_sublists.mpr hpre2.2.2.1) hc⟩
  | none =>
    dsimp only
    have h3 : ¬ (block.rows.length > 2 ∧ s.m.enableGraphSync = true) := by
      rintro ⟨_, h⟩
      rw [hpre2.2.1] at h
      cases h
    rw [if_neg h3]
    exact branchStep_count L R mt cols0 n dxd hdxd block depth s hpre2 hne hn

theorem DXD_count (L : Nat → List Nat) (R : Finset Nat) (mt : Nat → List Nat)
    (cols0 : List Nat) (hinj : HashInj cols0) (hL : ∀ r ∈ R, L r ≠ []) :
    ∀ fuel, CountBelow L R mt cols0 fuel (DXD fuel)
  | 0 => fun _ _ _ _ h => absurd h (Nat.not_lt_zero _)
  | fuel + 1 => fun s block depth hpre hn => by
    rw [DXD_succ]
    exact DXDstep_count L R mt cols0 hinj hL fuel (DXD fuel)
      (DXD_count L R mt cols0 hinj hL fuel) s block depth hpre (by omega)

theorem emptyMatrix_linesRead (lines : List (List Nat)) (rows cols : Nat) (a b : Bool) :
    LinesRead lines (emptyMatrix rows cols a b) 0 [] := by
  refine ⟨by simp [emptyMatrix], by simp [emptyMatrix], ?_⟩
  intro r d
  constructor
  · rintro ⟨x, h1, h2, _⟩
    simp [emptyMatrix] at h1 h2
    omega
  · rintro (⟨h, _⟩ | ⟨_, h⟩)
    · omega
    · cases h

/-- The loop over the column indices of a line adds, for each index read, a node of the
row being read in that column. -/
theorem loadLine_linesRead (lines : List (List Nat)) (k : Nat) :
    ∀ (line : List Nat) (m m1 : DancingMatrix) (seen : List Nat), LinesRead lines m k seen →
      loadLine k line m = some m1 →
      ∃ seen1, LinesRead lines m1 k seen1 ∧ ∀ d, d ∈ seen1 ↔ (d ∈ line ∨ d ∈ seen) := by
  intro line
  induction line with
  | nil =>
    intro m m1 seen hL h
    simp only [loadLine, Option.some.injEq] at h
    subst h
    exact ⟨seen, hL, fun d => by simp⟩
  | cons c rest ih =>
    intro m m1 seen hL h
    rw [loadLine] at h
    split_ifs at h with hrange
    cases hins : m.insert k c with
    | none => rw [hins] at h; cases h
    | some m2 =>
      rw [hins] at h
      simp only [] at h
      obtain ⟨_, _, _, _, ecol, erow, _, et, _⟩ := insert_fields m m2 k c hins
      have e1 : m2.COLS = m.COLS := by rw [et]
      obtain ⟨hlen, hC, hcells⟩ := hL
      have hlen2 : (m.col ++ [c]).length = m.col.length + 1 := by simp
      have hcold : ∀ x, x < m.col.length → nth (m.col ++ [c]) x = nth m.col x :=
        fun x hx => nth_append_lt _ _ _ hx
      have hrold : ∀ x, x < m.col.length → nth (m.row ++ [k]) x = nth m.row x :=
        fun x hx => nth_append_lt _ _ _ (by rw [hlen]; exact hx)
      have hcnew : nth (m.col ++ [c]) m.col.length = c := nth_append_eq _ _
      have hrnew : nth (m.row ++ [k]) m.col.length = k := by
        rw [← hlen]; exact nth_append_eq _ _
      obtain ⟨seen1, h1, h2⟩ := ih _ m1 (c :: seen)
        (by
          unfold LinesRead
          show m2.row.length = m2.col.length ∧ m2.COLS < m2.col.length ∧
            ∀ r d, (∃ x, m2.COLS < x ∧ x < m2.col.length ∧ nth m2.row x = r ∧
              nth m2.col x = d) ↔ ((r < k ∧ d ∈ lines.getD r []) ∨ (r = k ∧ d ∈ c :: seen))
          rw [e1, ecol, erow]
          refine ⟨by simp [hlen], by rw [hlen2]; omega, ?_⟩
          intro r d
          constructor
          · rintro ⟨x, hx1, hx2, hx3, hx4⟩
            rw [hlen2] at hx2
            rcases Nat.lt_succ_iff_lt_or_eq.mp hx2 with hx | hx
            · rw [hrold x hx] at hx3
              rw [hcold x hx] at hx4
              rcases (hcells r d).mp ⟨x, hx1, hx, hx3, hx4⟩ with g | g
              · exact Or.inl g
              · exact Or.inr ⟨g.1, List.mem_cons_of_mem _ g.2⟩
            · subst hx
              rw [hrnew] at hx3
              rw [hcnew] at hx4
              exact Or.inr ⟨hx3.symm, by rw [← hx4]; exact List.mem_cons_self _ _⟩
          · intro g
            have hold : (∃ x, m.COLS < x ∧ x < m.col.length ∧ nth m.row x = r ∧
                nth m.col x = d) →
                ∃ x, m.COLS < x ∧ x < (m.col ++ [c]).length ∧ nth (m.row ++ [k]) x = r ∧
                  nth (m.col ++ [c]) x = d := by
              rintro ⟨x, a1, a2, a3, a4⟩
              exact ⟨x, a1, by rw [hlen2]; omega, by rw [hrold x a2]; exact a3,
                by rw [hcold x a2]; exact a4⟩
            rcases g with g | ⟨g1, g2⟩
            · exact hold ((hcells r d).mpr (Or.inl g))
            · rcases List.mem_cons.mp g2 with e | e
              · exact ⟨m.col.length, hC, by rw [hlen2]; omega, by rw [hrnew, g1],
                  by rw [hcnew, e]⟩
              · exact hold ((hcells r d).mpr (Or.inr ⟨g1, e⟩)))
        h
      refine ⟨seen1, h1, fun d => ?_⟩
      rw [h2 d, List.mem_cons, List.mem_cons]
      tauto

/-- The loop over the lines leaves in the arena exactly the nodes that the lines read
name. -/
theorem loadLines_linesRead (lines : List (List Nat)) :
    ∀ (rest : List (List Nat)) (k : Nat) (m m1 : DancingMatrix), lines.drop k = rest →
      LinesRead lines m k [] → loadLines k rest m = some m1 →
      ∃ k1, LinesRead lines m1 k1 [] := by
  intro rest
  induction rest with
  | nil =>
    intro k m m1 _ hL h
    simp only [loadLines, Option.some.injEq] at h
    subst h
    exact ⟨k, hL⟩
  | cons line rest ih =>
    intro k m m1 hdrop hL h
    rw [loadLines] at h
    cases hl : loadLine k line m with
    | none => rw [hl] at h; cases h
    | some m2 =>
      rw [hl] at h
      simp only [] at h
      obtain ⟨seen1, hL2, hseen⟩ := loadLine_linesRead lines k line m m2 [] hL hl
      have hline : lines.getD k [] = line := by
        have h0 : (lines.drop k)[0]? = some line := by rw [hdrop]; simp
        rw [List.getElem?_drop, Nat.add_zero] at h0
        rw [List.getD_eq_getElem?_getD, h0]
        rfl
      have hdrop2 : lines.drop (k + 1) = rest := by
        have : (lines.drop k).drop 1 = rest := by rw [hdrop]; rfl
        rw [List.drop_drop] at this
        rw [← this]
      have hnext : LinesRead lines m2 (k + 1) [] := by
        obtain ⟨a1, a2, a3⟩ := hL2
        refine ⟨a1, a2, fun r d => ?_⟩
        rw [a3 r d]
        constructor
        · rintro (⟨g1, g2⟩ | ⟨g1, g2⟩)
          · exact Or.inl ⟨by omega, g2⟩
          · rcases (hseen d).mp g2 with e | e
            · refine Or.inl ⟨by omega, ?_⟩
              rw [g1, hline]
              exact e
            · cases e
        · rintro (⟨g1, g2⟩ | ⟨_, g2⟩)
          · rcases Nat.lt_succ_iff_lt_or_eq.mp g1 with e | e
            · exact Or.inl ⟨e, g2⟩
            · refine Or.inr ⟨e, (hseen d).mpr (Or.inl ?_)⟩
              rw [e, hline] at g2
              exact g2
          · cases g2
      split_ifs at h
      · injection h with h
        subst h
        exact ⟨k + 1, hnext⟩
      · exact ih (k + 1) m2 m1 hdrop2 hnext h

/-- The properties the count rests on hold of the matrix that the file constructor builds
from lines that name distinct columns, the rows being the rows of `rowsSet` and the columns
of row `r` the indices of line `r`. -/
theorem built_countState (lines : List (List Nat)) (m : DancingMatrix) (rg mt : Nat → List Nat)
    (k : Nat) (seen : List Nat) (k1 : Nat)
    (hB : Built m rg mt) (hF : Filled m k seen) (hLR : LinesRead lines m k1 []) :
    CountState (fun r => lines.getD r []) m.rowsSet.toFinset mt m rg
        (Block.mk m.rowsSet m.colsSet) ∧
      (∀ r ∈ m.rowsSet.toFinset, lines.getD r [] ≠ []) ∧
      (∀ r ∈ m.rowsSet.toFinset, ∀ c ∈ lines.getD r [], c ∈ m.colsSet) := by
  obtain ⟨_, _, hcells⟩ := hLR
  have hcell : ∀ r d, (∃ x, m.COLS < x ∧ x < m.col.length ∧ nth m.row x = r ∧
      nth m.col x = d) ↔ (r < k1 ∧ d ∈ lines.getD r []) := by
    intro r d
    rw [hcells r d]
    constructor
    · rintro (g | ⟨_, g⟩)
      · exact g
      · cases g
    · exact Or.inl
  have hrow : ∀ x, m.COLS < x → x < m.col.length → nth m.row x < k1 :=
    fun x h1 h2 => ((hcell _ _).mp ⟨x, h1, h2, rfl, rfl⟩).1
  have hhit : ∀ r ∈ m.rowsSet.toFinset, ∃ x, m.COLS < x ∧ x < m.col.length ∧ nth m.row x = r :=
    fun r hr => hF.rows_hit r (List.mem_toFinset.mp hr)
  refine ⟨⟨(loaded_binv m rg mt k seen hB hF).2, ⟨hB.lens.2.1, hB.sizes⟩, ?_, ?_⟩, ?_, ?_⟩
  · intro x h1 h2
    unfold DancingMatrix.nodes at h2
    refine ⟨List.mem_toFinset.mpr (hF.cells x h1 h2).1, fun d => ?_⟩
    have hR := (hB.rgood.2 x h1 h2).2.2.2.2
    constructor
    · intro hd
      obtain ⟨y, a1, a2, a3, a4⟩ := (hcell _ d).mpr ⟨hrow x h1 h2, hd⟩
      by_cases e : y = x
      · left; rw [← a4, e]
      · right; exact ⟨y, (hR y).mpr ⟨a1, a2, e, a3⟩, a4⟩
    · rintro (e | ⟨y, hy, e⟩)
      · rw [e]; exact ((hcell _ _).mp ⟨x, h1, h2, rfl, rfl⟩).2
      · have hy2 := (hR y).mp hy
        exact ((hcell _ _).mp ⟨y, hy2.1, hy2.2.1, hy2.2.2.2, e⟩).2
  · intro r hr _ c hc
    obtain ⟨x0, b1, b2, b3⟩ := hhit r hr
    have hk : r < k1 := by rw [← b3]; exact hrow x0 b1 b2
    obtain ⟨y, a1, a2, a3, a4⟩ := (hcell r c).mpr ⟨hk, hc⟩
    refine ⟨y, ?_, a3⟩
    rw [← a4]
    exact hB.full y a1 a2
  · intro r hr he
    obtain ⟨x0, b1, b2, b3⟩ := hhit r hr
    have := ((hcell r (nth m.col x0)).mp ⟨x0, b1, b2, b3, rfl⟩).2
    rw [he] at this
    cases this
  · intro r hr c hc
    obtain ⟨x0, b1, b2, b3⟩ := hhit r hr
    have hk : r < k1 := by rw [← b3]; exact hrow x0 b1 b2
    obtain ⟨y, a1, a2, a3, a4⟩ := (hcell r c).mpr ⟨hk, hc⟩
    rw [← a4]
    exact (hF.cells y a1 a2).2.1

theorem countState_block (L : Nat → List Nat) (R R1 : Finset Nat) (mt : Nat → List Nat)
    (m : DancingMatrix) (rg : Nat → List Nat) (block block1 : Block) (hb : block1 = block)
    (hR : R1 = R) (h : CountState L R mt m rg block) : CountState L R1 mt m rg block1 := by
  subst hb
  subst hR
  exact h

/-- The matrix that the file constructor builds from lines that name distinct columns
meets, with `InitBlock`, the block invariant and the properties the count rests on,
whatever the values of the flags `single_thread_mode` and `dxz_mode`; the rows are the
rows of `InitBlock` and the columns of row `r` are the indices of line `r`. -/
theorem fromFile_countState (cols rows : Nat) (lines : List (List Nat)) (useIg useETT : Bool)
    (m : DancingMatrix) (h : DancingMatrix.fromFile cols rows lines useIg useETT = some m)
    (hnd : ∀ l ∈ lines, l.Nodup) :
    ∃ mt, (∀ (a b : Bool), ∃ hs rg,
        BInv ({ m with single_thread_mode := a, dxz_mode := b, enableGraphSync := false } :
          DancingMatrix) hs rg mt m.InitBlock ∧
        CountState (fun r => lines.getD r []) m.InitBlock.rows.toFinset mt
          ({ m with single_thread_mode := a, dxz_mode := b, enableGraphSync := false } :
            DancingMatrix) rg m.InitBlock) ∧
      (∀ r ∈ m.InitBlock.rows.toFinset, lines.getD r [] ≠ []) ∧
      (∀ r ∈ m.InitBlock.rows.toFinset, ∀ c ∈ lines.getD r [], c ∈ m.InitBlock.cols) := by
  obtain ⟨m0, det, ig, hl, hmax, hm, hdet, hig⟩ := fromFile_parts cols rows lines useIg useETT m h
  have hc := loadLines_constructed rows cols lines 0 _ m0 (Constructed.empty useIg useETT)
    rfl rfl hl
  obtain ⟨rg, mt, hB, eC, eR⟩ := constructed_built rows cols m0 hc.1
  obtain ⟨⟨k, seen, hF⟩, _, _, _⟩ := loadLines_filled lines 0 _ m0
    (emptyMatrix_filled rows cols useIg useETT) hnd hl
  obtain ⟨k1, hLR⟩ := loadLines_linesRead lines lines 0 _ m0 rfl
    (emptyMatrix_linesRead lines rows cols useIg useETT) hl
  have hblock : m.InitBlock = Block.mk m0.rowsSet m0.colsSet := by rw [hm]
  have hrs : m.rowsSet = m0.rowsSet := by rw [hm]
  have hcs : m.colsSet = m0.colsSet := by rw [hm]
  have hbk : Block.mk m.rowsSet m.colsSet = m.InitBlock := by rw [hblock, hrs, hcs]
  have hrows : m.InitBlock.rows = m0.rowsSet := by rw [hblock]
  have hcols : m.InitBlock.cols = m0.colsSet := by rw [hblock]
  obtain ⟨_, hne, hcl⟩ := built_countState lines m0 rg mt k seen k1 hB hF hLR
  refine ⟨mt, fun a b => ?_, ?_, ?_⟩
  · have hB1 : Built ({ m with single_thread_mode := a, dxz_mode := b, enableGraphSync := false } : DancingMatrix) rg mt := by
      subst hm
      exact built_same _ m0 rg mt ⟨rfl, rfl, rfl, rfl, rfl, rfl, rfl, rfl, rfl, rfl⟩ hB
    have hF1 : Filled ({ m with single_thread_mode := a, dxz_mode := b, enableGraphSync := false } : DancingMatrix) k seen := by
      subst hm
      exact hF
    have hLR1 : LinesRead lines ({ m with single_thread_mode := a, dxz_mode := b, enableGraphSync := false } : DancingMatrix) k1 [] := by
      subst hm
      exact hLR
    obtain ⟨hI, _⟩ := loaded_binv _ rg mt k seen hB1 hF1
    have hI : BInv ({ m with single_thread_mode := a, dxz_mode := b, enableGraphSync := false } : DancingMatrix) (List.range' 1 m.COLS) rg mt
        (Block.mk m.rowsSet m.colsSet) := hI
    obtain ⟨hQ, _, _⟩ := built_countState lines _ rg mt k seen k1 hB1 hF1 hLR1
    have hQ : CountState (fun r => lines.getD r []) m.rowsSet.toFinset mt
        ({ m with single_thread_mode := a, dxz_mode := b, enableGraphSync := false } : DancingMatrix) rg (Block.mk m.rowsSet m.colsSet) := hQ
    rw [hbk] at hI
    exact ⟨List.range' 1 m.COLS, rg, hI,
      countState_block _ _ _ mt _ rg _ _ hbk.symm (by rw [hrows, hrs]) hQ⟩
  · rw [hrows]; exact hne
  · rw [hrows, hcols]; exact hcl

theorem fromFile_fresh (cols rows : Nat) (lines : List (List Nat)) (useIG useETT : Bool)
    (deadline : Option Nat) (s0 : DanceDNNF)
    (h : DanceDNNF.fromFile cols rows lines useIG useETT deadline = some s0) :
    s0.deadline = deadline ∧ s0.countCache = [] ∧
      DancingMatrix.fromFile cols rows lines useIG useETT = some s0.m := by
  unfold DanceDNNF.fromFile at h
  cases hl : DancingMatrix.fromFile cols rows lines useIG useETT with
  | none => rw [hl] at h; cases h
  | some m =>
    rw [hl] at h
    injection h with h
    subst h
    exact ⟨rfl, rfl, rfl⟩

/-- On a matrix loaded by the file constructor from lines that name distinct columns, with
`enableGraphSync` off, an empty cache and the time bound never broken, and with
`hashBlockState` taking distinct values on distinct subsets of the columns of `InitBlock`:
`DXD(InitBlock, 1)` returns within any recursion depth above the number of columns of
`InitBlock`, gives the block back, and its result stands for the number of exact covers. -/
theorem loaded_DXD_count (cols rows : Nat) (lines : List (List Nat)) (useIG useETT : Bool)
    (s0 s : DanceDNNF) (stm dxz : Bool) (fuel : Nat)
    (hload : DanceDNNF.fromFile cols rows lines useIG useETT none = some s0)
    (hnd : ∀ l ∈ lines, l.Nodup)
    (hm : s.m = { s0.m with single_thread_mode := stm, dxz_mode := dxz, enableGraphSync := false })
    (hd : s.deadline = none) (hcache : s.countCache = [])
    (hinj : HashInj s0.m.InitBlock.cols) (hfuel : s0.m.InitBlock.cols.length < fuel) :
    ∃ r s1, DXD fuel s s0.m.InitBlock 1 = Outcome.ok (r, s0.m.InitBlock, s1) ∧
      Counts r (exactCoverCount lines s0.m.InitBlock.rows s0.m.InitBlock.cols) := by
  obtain ⟨_, _, hl⟩ := fromFile_fresh cols rows lines useIG useETT none s0 hload
  obtain ⟨mt, hst, hLne, hclosed⟩ := fromFile_countState cols rows lines useIG useETT s0.m hl hnd
  obtain ⟨hs, rg, hB, hQ⟩ := hst stm dxz
  have hpre : CountPre (fun r => lines.getD r []) s0.m.InitBlock.rows.toFinset mt
      s0.m.InitBlock.cols s s0.m.InitBlock := by
    refine ⟨⟨hs, rg, by rw [hm]; exact hB, by rw [hm]; exact hQ⟩, by rw [hm],
      List.Sublist.refl _, ?_, hd⟩
    intro k v hk
    rw [hcache] at hk
    cases hk
  obtain ⟨r, s1, h1, _, _, _, h5⟩ := DXD_count (fun r => lines.getD r [])
    s0.m.InitBlock.rows.toFinset mt s0.m.InitBlock.cols hinj hLne fuel s s0.m.InitBlock 1
    hpre hfuel
  refine ⟨r, s1, h1, ?_⟩
  rw [exactCoverCount_eq lines _ _ hB.rsorted, ← subCount_closed _ _ _ hclosed]
  exact h5

set_option maxRecDepth 100000 in
/-- C33 as stated does not hold.  On the object of the file `1 1` whose data line is
`1 1` (column 1 named twice) `hashBlockState` takes distinct values on the two subsets
of the columns of `InitBlock`, the matrix has one exact cover (its one row), and
`DXD(InitBlock, 1)` with `enableGraphSync` off returns the count 2 with either column
selection, as does `runDXZ`. -/
theorem C33_counterexample :
    DanceDNNF.fromFile 1 1 [[1, 1]] true false none = some doubledSample ∧
    HashInj doubledSample.m.InitBlock.cols ∧
    exactCoverCount [[1, 1]] doubledSample.m.InitBlock.rows doubledSample.m.InitBlock.cols = 1 ∧
    (∀ stm : Bool,
      (returned (DXD 2 { doubledSample with m := { doubledSample.m with single_thread_mode := stm, dxz_mode := true, enableGraphSync := false } }
        doubledSample.m.InitBlock 1)).map (fun p => p.1) = some (DNNFResult.ofCount 2)) ∧
    (returned doubledSample.runDXZ).map (fun p => p.1) = some (DNNFResult.ofCount 2) := by
  refine ⟨?_, ?_, ?_, ?_, ?_⟩ <;> decide!

/-- C33 (amended): for every matrix loaded by the file constructor from data lines each of
which names distinct columns, with `enableGraphSync` off (as `runDXZ` sets it), whatever
the detector, the search mode and the values of `single_thread_mode` (the column
selection) and `dxz_mode`, with the time bound never broken, and under the hypothesis that
`hashBlockState` takes distinct values on distinct subsets of `InitBlock.cols`:
`DXD(InitBlock, 1)` returns within any recursion depth above the number of columns of
`InitBlock`, gives the block back, and its result stands for the number of sets of rows
that cover every column of `InitBlock.cols` exactly once: it is that number as an exact
64-bit count when the number is below `2^64`, and is flagged as overflowed otherwise. -/
theorem C33_DXD_counts_exact_covers (cols rows : Nat) (lines : List (List Nat))
    (useIG useETT : Bool) (s0 : DanceDNNF) (stm dxz par : Bool) (mb fuel : Nat)
    (hload : DanceDNNF.fromFile cols rows lines useIG useETT none = some s0)
    (hnd : ∀ l ∈ lines, l.Nodup)
    (hinj : HashInj s0.m.InitBlock.cols) (hfuel : s0.m.InitBlock.cols.length < fuel) :
    ∃ r s1,
      DXD fuel { s0 with m := { s0.m with single_thread_mode := stm, dxz_mode := dxz, enableGraphSync := false }, isParallelSearch := par, MAX_B_COUNT := mb }
        s0.m.InitBlock 1 = Outcome.ok (r, s0.m.InitBlock, s1) ∧
      Counts r (exactCoverCount lines s0.m.InitBlock.rows s0.m.InitBlock.cols) :=
  loaded_DXD_count cols rows lines useIG useETT s0 _ stm dxz fuel hload hnd rfl
    (fromFile_fresh cols rows lines useIG useETT none s0 hload).1
    (fromFile_fresh cols rows lines useIG useETT none s0 hload).2.1 hinj hfuel

set_option maxRecDepth 100000 in
/-- C33 on the object of the file `4 4` with the rows {1,2}, {3}, {2,3}, {4}: the lines
name distinct columns, `hashBlockState` takes distinct values on the sixteen subsets of
the columns, and `DXD(InitBlock, 1)` as `runDXZ` calls it returns within five frames a
result that stands for the number of exact covers. -/
theorem C33_DXD_counts_exact_covers_witness :
    (DanceDNNF.fromFile 4 4 [[1, 2], [3], [2, 3], [4]] true false none = some frameSample ∧
      (∀ l ∈ [[1, 2], [3], [2, 3], [4]], l.Nodup) ∧
      HashInj frameSample.m.InitBlock.cols ∧ frameSample.m.InitBlock.cols.length < 5 ∧
      ∃ r s1,
        DXD 5 { frameSample with m := { frameSample.m with single_thread_mode := false, dxz_mode := true, enableGraphSync := false }, isParallelSearch := false, MAX_B_COUNT := 1 }
          frameSample.m.InitBlock 1 = Outcome.ok (r, frameSample.m.InitBlock, s1) ∧
        Counts r (exactCoverCount [[1, 2], [3], [2, 3], [4]] frameSample.m.InitBlock.rows
          frameSample.m.InitBlock.cols)) :=
  ⟨by decide!, by decide, by decide!, by decide!,
    C33_DXD_counts_exact_covers 4 4 [[1, 2], [3], [2, 3], [4]] true false frameSample
      false true false 1 5 (by decide!) (by decide) (by decide!) (by decide!)⟩

/-! ## Link followed by cut on the Euler-tour forest

The splay trees are read as sequences of nodes: `split` and `merge` cut and join
sequences, `link` puts the sequence of one tree into another, and `cut` takes the part
between the two nodes of an edge out again. -/

/-! ### Rotations under local conditions -/

theorem rotate_rotComp (t : SplayETT) (hrev : ∀ y, (t.node y).reversed = false) (x p : Nat)
    (hp : (t.node x).parent = some p) : t.rotate x = rotComp t x p := by
  have hpd : (t.pushDown (some p)).pushDown (some x) = t := by
    rw [pushDown_id t _ hrev, pushDown_id t _ hrev]
  unfold SplayETT.rotate rotComp SplayETT.setLeft SplayETT.setRight SplayETT.setParent
  simp only [hp, hpd]

set_option maxHeartbeats 1000000 in
theorem rL_parent (t : SplayETT) (x p : Nat) (hf : RotOK t x p)
    (hp : (t.node x).parent = some p) (hL : (t.node p).left = some x) (y : Nat) :
    ((t.rotate x).node y).parent =
      (if y = x then (t.node p).parent else if y = p then some x
        else if (t.node x).right = some y then some p else (t.node y).parent) := by
  have hx : x < t.pool.length := lt_of_parent t x p hp
  have hpl : p < t.pool.length := hf.pl
  have hxp : x ≠ p := hf.xp
  have hpx : p ≠ x := Ne.symm hxp
  rw [rotate_rotComp t hf.rev x p hp]
  unfold rotComp
  cases hB : (t.node x).right with
  | none =>
    cases hg : (t.node p).parent with
    | none =>
      by_cases hy0 : y = x <;> by_cases hy1 : y = p <;>
        simp_all [setLeft_left, setLeft_right, setLeft_parent, setRight_left, setRight_right, setRight_parent,
        setParent_left, setParent_right, setParent_parent, setLeft_length, setRight_length,
        setParent_length]
    | some gg =>
      have hgl : gg < t.pool.length := (hf.g gg hg).1
      obtain ⟨_, d2, d3⟩ := hf.g gg hg
      have d2s := Ne.symm d2
      have d3s := Ne.symm d3
      have c2 : (gg = y) = (y = gg) := propext ⟨Eq.symm, Eq.symm⟩
      clear hf hp
      by_cases hgL : (t.node gg).left = some p
      · by_cases hy0 : y = x <;> by_cases hy1 : y = p <;> by_cases hy2 : y = gg <;>
          simp_all [setLeft_left, setLeft_right, setLeft_parent, setRight_left, setRight_right, setRight_parent,
        setParent_left, setParent_right, setParent_parent, setLeft_length, setRight_length,
        setParent_length]
      · by_cases hy0 : y = x <;> by_cases hy1 : y = p <;> by_cases hy2 : y = gg <;>
          simp_all [setLeft_left, setLeft_right, setLeft_parent, setRight_left, setRight_right, setRight_parent,
        setParent_left, setParent_right, setParent_parent, setLeft_length, setRight_length,
        setParent_length]
  | some r =>
    obtain ⟨hrl, e1, e2, hR3⟩ := hf.innerR r hB
    have e1s := Ne.symm e1
    have e2s := Ne.symm e2
    cases hg : (t.node p).parent with
    | none =>
      have c1 : (r = y) = (y = r) := propext ⟨Eq.symm, Eq.symm⟩
      clear hf hp hR3
      by_cases hy0 : y = x <;> by_cases hy1 : y = p <;> by_cases hy2 : y = r <;>
        simp_all [setLeft_left, setLeft_right, setLeft_parent, setRight_left, setRight_right, setRight_parent,
        setParent_left, setParent_right, setParent_parent, setLeft_length, setRight_length,
        setParent_length]
    | some gg =>
      have hgl : gg < t.pool.length := (hf.g gg hg).1
      obtain ⟨_, d2, d3⟩ := hf.g gg hg
      have d2s := Ne.symm d2
      have d3s := Ne.symm d3
      have c2 : (gg = y) = (y = gg) := propext ⟨Eq.symm, Eq.symm⟩
      have e3 := hR3 gg hg
      have e3s := Ne.symm e3
      have c1 : (r = y) = (y = r) := propext ⟨Eq.symm, Eq.symm⟩
      clear hf hp hR3
      by_cases hgL : (t.node gg).left = some p
      · by_cases hy0 : y = x <;> by_cases hy1 : y = p <;> by_cases hy2 : y = r <;> by_cases hy3 : y = gg <;>
          simp_all [setLeft_left, setLeft_right, setLeft_parent, setRight_left, setRight_right, setRight_parent,
        setParent_left, setParent_right, setParent_parent, setLeft_length, setRight_length,
        setParent_length]
      · by_cases hy0 : y = x <;> by_cases hy1 : y = p <;> by_cases hy2 : y = r <;> by_cases hy3 : y = gg <;>
          simp_all [setLeft_left, setLeft_right, setLeft_parent, setRight_left, setRight_right, setRight_parent,
        setParent_left, setParent_right, setParent_parent, setLeft_length, setRight_length,
        setParent_length]

set_option maxHeartbeats 1000000 in
theorem rL_left (t : SplayETT) (x p : Nat) (hf : RotOK t x p)
    (hp : (t.node x).parent = some p) (hL : (t.node p).left = some x) (y : Nat) :
    ((t.rotate x).node y).left =
      (if y = p then (t.node x).right
        else if (t.node p).parent = some y ∧ (t.node y).left = some p then some x
        else (t.node y).left) := by
  have hx : x < t.pool.length := lt_of_parent t x p hp
  have hpl : p < t.pool.length := hf.pl
  have hxp : x ≠ p := hf.xp
  have hpx : p ≠ x := Ne.symm hxp
  rw [rotate_rotComp t hf.rev x p hp]
  unfold rotComp
  cases hB : (t.node x).right with
  | none =>
    cases hg : (t.node p).parent with
    | none =>
      by_cases hy0 : y = x <;> by_cases hy1 : y = p <;>
        simp_all [setLeft_left, setLeft_right, setLeft_parent, setRight_left, setRight_right, setRight_parent,
        setParent_left, setParent_right, setParent_parent, setLeft_length, setRight_length,
        setParent_length]
    | some gg =>
      have hgl : gg < t.pool.length := (hf.g gg hg).1
      obtain ⟨_, d2, d3⟩ := hf.g gg hg
      have d2s := Ne.symm d2
      have d3s := Ne.symm d3
      have c2 : (gg = y) = (y = gg) := propext ⟨Eq.symm, Eq.symm⟩
      clear hf hp
      by_cases hgL : (t.node gg).left = some p
      · by_cases hy0 : y = x <;> by_cases hy1 : y = p <;> by_cases hy2 : y = gg <;>
          simp_all [setLeft_left, setLeft_right, setLeft_parent, setRight_left, setRight_right, setRight_parent,
        setParent_left, setParent_right, setParent_parent, setLeft_length, setRight_length,
        setParent_length]
      · by_cases hy0 : y = x <;> by_cases hy1 : y = p <;> by_cases hy2 : y = gg <;>
          simp_all [setLeft_left, setLeft_right, setLeft_parent, setRight_left, setRight_right, setRight_parent,
        setParent_left, setParent_right, setParent_parent, setLeft_length, setRight_length,
        setParent_length]
  | some r =>
    obtain ⟨hrl, e1, e2, hR3⟩ := hf.innerR r hB
    have e1s := Ne.symm e1
    have e2s := Ne.symm e2
    cases hg : (t.node p).parent with
    | none =>
      have c1 : (r = y) = (y = r) := propext ⟨Eq.symm, Eq.symm⟩
      clear hf hp hR3
      by_cases hy0 : y = x <;> by_cases hy1 : y = p <;> by_cases hy2 : y = r <;>
        simp_all [setLeft_left, setLeft_right, setLeft_parent, setRight_left, setRight_right, setRight_parent,
        setParent_left, setParent_right, setParent_parent, setLeft_length, setRight_length,
        setParent_length]
    | some gg =>
      have hgl : gg < t.pool.length := (hf.g gg hg).1
      obtain ⟨_, d2, d3⟩ := hf.g gg hg
      have d2s := Ne.symm d2
      have d3s := Ne.symm d3
      have c2 : (gg = y) = (y = gg) := propext ⟨Eq.symm, Eq.symm⟩
      have e3 := hR3 gg hg
      have e3s := Ne.symm e3
      have c1 : (r = y) = (y = r) := propext ⟨Eq.symm, Eq.symm⟩
      clear hf hp hR3
      by_cases hgL : (t.node gg).left = some p
      · by_cases hy0 : y = x <;> by_cases hy1 : y = p <;> by_cases hy2 : y = r <;> by_cases hy3 : y = gg <;>
          simp_all [setLeft_left, setLeft_right, setLeft_parent, setRight_left, setRight_right, setRight_parent,
        setParent_left, setParent_right, setParent_parent, setLeft_length, setRight_length,
        setParent_length]
      · by_cases hy0 : y = x <;> by_cases hy1 : y = p <;> by_cases hy2 : y = r <;> by_cases hy3 : y = gg <;>
          simp_all [setLeft_left, setLeft_right, setLeft_parent, setRight_left, setRight_right, setRight_parent,
        setParent_left, setParent_right, setParent_parent, setLeft_length, setRight_length,
        setParent_length]

set_option maxHeartbeats 1000000 in
theorem rL_right (t : SplayETT) (x p : Nat) (hf : RotOK t x p)
    (hp : (t.node x).parent = some p) (hL : (t.node p).left = some x) (y : Nat) :
    ((t.rotate x).node y).right =
      (if y = x then some p
        else if (t.node p).parent = some y ∧ (t.node y).left ≠ some p then some x
        else (t.node y).right) := by
  have hx : x < t.pool.length := lt_of_parent t x p hp
  have hpl : p < t.pool.length := hf.pl
  have hxp : x ≠ p := hf.xp
  have hpx : p ≠ x := Ne.symm hxp
  rw [rotate_rotComp t hf.rev x p hp]
  unfold rotComp
  cases hB : (t.node x).right with
  | none =>
    cases hg : (t.node p).parent with
    | none =>
      by_cases hy0 : y = x <;> by_cases hy1 : y = p <;>
        simp_all [setLeft_left, setLeft_right, setLeft_parent, setRight_left, setRight_right, setRight_parent,
        setParent_left, setParent_right, setParent_parent, setLeft_length, setRight_length,
        setParent_length]
    | some gg =>
      have hgl : gg < t.pool.length := (hf.g gg hg).1
      obtain ⟨_, d2, d3⟩ := hf.g gg hg
      have d2s := Ne.symm d2
      have d3s := Ne.symm d3
      have c2 : (gg = y) = (y = gg) := propext ⟨Eq.symm, Eq.symm⟩
      clear hf hp
      by_cases hgL : (t.node gg).left = some p
      · by_cases hy0 : y = x <;> by_cases hy1 : y = p <;> by_cases hy2 : y = gg <;>
          simp_all [setLeft_left, setLeft_right, setLeft_parent, setRight_left, setRight_right, setRight_parent,
        setParent_left, setParent_right, setParent_parent, setLeft_length, setRight_length,
        setParent_length]
      · by_cases hy0 : y = x <;> by_cases hy1 : y = p <;> by_cases hy2 : y = gg <;>
          simp_all [setLeft_left, setLeft_right, setLeft_parent, setRight_left, setRight_right, setRight_parent,
        setParent_left, setParent_right, setParent_parent, setLeft_length, setRight_length,
        setParent_length]
  | some r =>
    obtain ⟨hrl, e1, e2, hR3⟩ := hf.innerR r hB
    have e1s := Ne.symm e1
    have e2s := Ne.symm e2
    cases hg : (t.node p).parent with
    | none =>
      have c1 : (r = y) = (y = r) := propext ⟨Eq.symm, Eq.symm⟩
      clear hf hp hR3
      by_cases hy0 : y = x <;> by_cases hy1 : y = p <;> by_cases hy2 : y = r <;>
        simp_all [setLeft_left, setLeft_right, setLeft_parent, setRight_left, setRight_right, setRight_parent,
        setParent_left, setParent_right, setParent_parent, setLeft_length, setRight_length,
        setParent_length]
    | some gg =>
      have hgl : gg < t.pool.length := (hf.g gg hg).1
      obtain ⟨_, d2, d3⟩ := hf.g gg hg
      have d2s := Ne.symm d2
      have d3s := Ne.symm d3
      have c2 : (gg = y) = (y = gg) := propext ⟨Eq.symm, Eq.symm⟩
      have e3 := hR3 gg hg
      have e3s := Ne.symm e3
      have c1 : (r = y) = (y = r) := propext ⟨Eq.symm, Eq.symm⟩
      clear hf hp hR3
      by_cases hgL : (t.node gg).left = some p
      · by_cases hy0 : y = x <;> by_cases hy1 : y = p <;> by_cases hy2 : y = r <;> by_cases hy3 : y = gg <;>
          simp_all [setLeft_left, setLeft_right, setLeft_parent, setRight_left, setRight_right, setRight_parent,
        setParent_left, setParent_right, setParent_parent, setLeft_length, setRight_length,
        setParent_length]
      · by_cases hy0 : y = x <;> by_cases hy1 : y = p <;> by_cases hy2 : y = r <;> by_cases hy3 : y = gg <;>
          simp_all [setLeft_left, setLeft_right, setLeft_parent, setRight_left, setRight_right, setRight_parent,
        setParent_left, setParent_right, setParent_parent, setLeft_length, setRight_length,
        setParent_length]

set_option maxHeartbeats 1000000 in
theorem rR_parent (t : SplayETT) (x p : Nat) (hf : RotOK t x p)
    (hp : (t.node x).parent = some p) (hL : (t.node p).left ≠ some x) (y : Nat) :
    ((t.rotate x).node y).parent =
      (if y = x then (t.node p).parent else if y = p then some x
        else if (t.node x).left = some y then some p else (t.node y).parent) := by
  have hx : x < t.pool.length := lt_of_parent t x p hp
  have hpl : p < t.pool.length := hf.pl
  have hxp : x ≠ p := hf.xp
  have hpx : p ≠ x := Ne.symm hxp
  rw [rotate_rotComp t hf.rev x p hp]
  unfold rotComp
  cases hB : (t.node x).left with
  | none =>
    cases hg : (t.node p).parent with
    | none =>
      by_cases hy0 : y = x <;> by_cases hy1 : y = p <;>
        simp_all [setLeft_left, setLeft_right, setLeft_parent, setRight_left, setRight_right, setRight_parent,
        setParent_left, setParent_right, setParent_parent, setLeft_length, setRight_length,
        setParent_length]
    | some gg =>
      have hgl : gg < t.pool.length := (hf.g gg hg).1
      obtain ⟨_, d2, d3⟩ := hf.g gg hg
      have d2s := Ne.symm d2
      have d3s := Ne.symm d3
      have c2 : (gg = y) = (y = gg) := propext ⟨Eq.symm, Eq.symm⟩
      clear hf hp
      by_cases hgL : (t.node gg).left = some p
      · by_cases hy0 : y = x <;> by_cases hy1 : y = p <;> by_cases hy2 : y = gg <;>
          simp_all [setLeft_left, setLeft_right, setLeft_parent, setRight_left, setRight_right, setRight_parent,
        setParent_left, setParent_right, setParent_parent, setLeft_length, setRight_length,
        setParent_length]
      · by_cases hy0 : y = x <;> by_cases hy1 : y = p <;> by_cases hy2 : y = gg <;>
          simp_all [setLeft_left, setLeft_right, setLeft_parent, setRight_left, setRight_right, setRight_parent,
        setParent_left, setParent_right, setParent_parent, setLeft_length, setRight_length,
        setParent_length]
  | some r =>
    obtain ⟨hrl, e1, e2, hR3⟩ := hf.innerL r hB
    have e1s := Ne.symm e1
    have e2s := Ne.symm e2
    cases hg : (t.node p).parent with
    | none =>
      have c1 : (r = y) = (y = r) := propext ⟨Eq.symm, Eq.symm⟩
      clear hf hp hR3
      by_cases hy0 : y = x <;> by_cases hy1 : y = p <;> by_cases hy2 : y = r <;>
        simp_all [setLeft_left, setLeft_right, setLeft_parent, setRight_left, setRight_right, setRight_parent,
        setParent_left, setParent_right, setParent_parent, setLeft_length, setRight_length,
        setParent_length]
    | some gg =>
      have hgl : gg < t.pool.length := (hf.g gg hg).1
      obtain ⟨_, d2, d3⟩ := hf.g gg hg
      have d2s := Ne.symm d2
      have d3s := Ne.symm d3
      have c2 : (gg = y) = (y = gg) := propext ⟨Eq.symm, Eq.symm⟩
      have e3 := hR3 gg hg
      have e3s := Ne.symm e3
      have c1 : (r = y) = (y = r) := propext ⟨Eq.symm, Eq.symm⟩
      clear hf hp hR3
      by_cases hgL : (t.node gg).left = some p
      · by_cases hy0 : y = x <;> by_cases hy1 : y = p <;> by_cases hy2 : y = r <;> by_cases hy3 : y = gg <;>
          simp_all [setLeft_left, setLeft_right, setLeft_parent, setRight_left, setRight_right, setRight_parent,
        setParent_left, setParent_right, setParent_parent, setLeft_length, setRight_length,
        setParent_length]
      · by_cases hy0 : y = x <;> by_cases hy1 : y = p <;> by_cases hy2 : y = r <;> by_cases hy3 : y = gg <;>
          simp_all [setLeft_left, setLeft_right, setLeft_parent, setRight_left, setRight_right, setRight_parent,
        setParent_left, setParent_right, setParent_parent, setLeft_length, setRight_length,
        setParent_length]

set_option maxHeartbeats 1000000 in
theorem rR_left (t : SplayETT) (x p : Nat) (hf : RotOK t x p)
    (hp : (t.node x).parent = some p) (hL : (t.node p).left ≠ some x) (y : Nat) :
    ((t.rotate x).node y).left =
      (if y = x then some p
        else if (t.node p).parent = some y ∧ (t.node y).left = some p then some x
        else (t.node y).left) := by
  have hx : x < t.pool.length := lt_of_parent t x p hp
  have hpl : p < t.pool.length := hf.pl
  have hxp : x ≠ p := hf.xp
  have hpx : p ≠ x := Ne.symm hxp
  rw [rotate_rotComp t hf.rev x p hp]
  unfold rotComp
  cases hB : (t.node x).left with
  | none =>
    cases hg : (t.node p).parent with
    | none =>
      by_cases hy0 : y = x <;> by_cases hy1 : y = p <;>
        simp_all [setLeft_left, setLeft_right, setLeft_parent, setRight_left, setRight_right, setRight_parent,
        setParent_left, setParent_right, setParent_parent, setLeft_length, setRight_length,
        setParent_length]
    | some gg =>
      have hgl : gg < t.pool.length := (hf.g gg hg).1
      obtain ⟨_, d2, d3⟩ := hf.g gg hg
      have d2s := Ne.symm d2
      have d3s := Ne.symm d3
      have c2 : (gg = y) = (y = gg) := propext ⟨Eq.symm, Eq.symm⟩
      clear hf hp
      by_cases hgL : (t.node gg).left = some p
      · by_cases hy0 : y = x <;> by_cases hy1 : y = p <;> by_cases hy2 : y = gg <;>
          simp_all [setLeft_left, setLeft_right, setLeft_parent, setRight_left, setRight_right, setRight_parent,
        setParent_left, setParent_right, setParent_parent, setLeft_length, setRight_length,
        setParent_length]
      · by_cases hy0 : y = x <;> by_cases hy1 : y = p <;> by_cases hy2 : y = gg <;>
          simp_all [setLeft_left, setLeft_right, setLeft_parent, setRight_left, setRight_right, setRight_parent,
        setParent_left, setParent_right, setParent_parent, setLeft_length, setRight_length,
        setParent_length]
  | some r =>
    obtain ⟨hrl, e1, e2, hR3⟩ := hf.innerL r hB
    have e1s := Ne.symm e1
    have e2s := Ne.symm e2
    cases hg : (t.node p).parent with
    | none =>
      have c1 : (r = y) = (y = r) := propext ⟨Eq.symm, Eq.symm⟩
      clear hf hp hR3
      by_cases hy0 : y = x <;> by_cases hy1 : y = p <;> by_cases hy2 : y = r <;>
        simp_all [setLeft_left, setLeft_right, setLeft_parent, setRight_left, setRight_right, setRight_parent,
        setParent_left, setParent_right, setParent_parent, setLeft_length, setRight_length,
        setParent_length]
    | some gg =>
      have hgl : gg < t.pool.length := (hf.g gg hg).1
      obtain ⟨_, d2, d3⟩ := hf.g gg hg
      have d2s := Ne.symm d2
      have d3s := Ne.symm d3
      have c2 : (gg = y) = (y = gg) := propext ⟨Eq.symm, Eq.symm⟩
      have e3 := hR3 gg hg
      have e3s := Ne.symm e3
      have c1 : (r = y) = (y = r) := propext ⟨Eq.symm, Eq.symm⟩
      clear hf hp hR3
      by_cases hgL : (t.node gg).left = some p
      · by_cases hy0 : y = x <;> by_cases hy1 : y = p <;> by_cases hy2 : y = r <;> by_cases hy3 : y = gg <;>
          simp_all [setLeft_left, setLeft_right, setLeft_parent, setRight_left, setRight_right, setRight_parent,
        setParent_left, setParent_right, setParent_parent, setLeft_length, setRight_length,
        setParent_length]
      · by_cases hy0 : y = x <;> by_cases hy1 : y = p <;> by_cases hy2 : y = r <;> by_cases hy3 : y = gg <;>
          simp_all [setLeft_left, setLeft_right, setLeft_parent, setRight_left, setRight_right, setRight_parent,
        setParent_left, setParent_right, setParent_parent, setLeft_length, setRight_length,
        setParent_length]

set_option maxHeartbeats 1000000 in
theorem rR_right (t : SplayETT) (x p : Nat) (hf : RotOK t x p)
    (hp : (t.node x).parent = some p) (hL : (t.node p).left ≠ some x) (y : Nat) :
    ((t.rotate x).node y).right =
      (if y = p then (t.node x).left
        else if (t.node p).parent = some y ∧ (t.node y).left ≠ some p then some x
        else (t.node y).right) := by
  have hx : x < t.pool.length := lt_of_parent t x p hp
  have hpl : p < t.pool.length := hf.pl
  have hxp : x ≠ p := hf.xp
  have hpx : p ≠ x := Ne.symm hxp
  rw [rotate_rotComp t hf.rev x p hp]
  unfold rotComp
  cases hB : (t.node x).left with
  | none =>
    cases hg : (t.node p).parent with
    | none =>
      by_cases hy0 : y = x <;> by_cases hy1 : y = p <;>
        simp_all [setLeft_left, setLeft_right, setLeft_parent, setRight_left, setRight_right, setRight_parent,
        setParent_left, setParent_right, setParent_parent, setLeft_length, setRight_length,
        setParent_length]
    | some gg =>
      have hgl : gg < t.pool.length := (hf.g gg hg).1
      obtain ⟨_, d2, d3⟩ := hf.g gg hg
      have d2s := Ne.symm d2
      have d3s := Ne.symm d3
      have c2 : (gg = y) = (y = gg) := propext ⟨Eq.symm, Eq.symm⟩
      clear hf hp
      by_cases hgL : (t.node gg).left = some p
      · by_cases hy0 : y = x <;> by_cases hy1 : y = p <;> by_cases hy2 : y = gg <;>
          simp_all [setLeft_left, setLeft_right, setLeft_parent, setRight_left, setRight_right, setRight_parent,
        setParent_left, setParent_right, setParent_parent, setLeft_length, setRight_length,
        setParent_length]
      · by_cases hy0 : y = x <;> by_cases hy1 : y = p <;> by_cases hy2 : y = gg <;>
          simp_all [setLeft_left, setLeft_right, setLeft_parent, setRight_left, setRight_right, setRight_parent,
        setParent_left, setParent_right, setParent_parent, setLeft_length, setRight_length,
        setParent_length]
  | some r =>
    obtain ⟨hrl, e1, e2, hR3⟩ := hf.innerL r hB
    have e1s := Ne.symm e1
    have e2s := Ne.symm e2
    cases hg : (t.node p).parent with
    | none =>
      have c1 : (r = y) = (y = r) := propext ⟨Eq.symm, Eq.symm⟩
      clear hf hp hR3
      by_cases hy0 : y = x <;> by_cases hy1 : y = p <;> by_cases hy2 : y = r <;>
        simp_all [setLeft_left, setLeft_right, setLeft_parent, setRight_left, setRight_right, setRight_parent,
        setParent_left, setParent_right, setParent_parent, setLeft_length, setRight_length,
        setParent_length]
    | some gg =>
      have hgl : gg < t.pool.length := (hf.g gg hg).1
      obtain ⟨_, d2, d3⟩ := hf.g gg hg
      have d2s := Ne.symm d2
      have d3s := Ne.symm d3
      have c2 : (gg = y) = (y = gg) := propext ⟨Eq.symm, Eq.symm⟩
      have e3 := hR3 gg hg
      have e3s := Ne.symm e3
      have c1 : (r = y) = (y = r) := propext ⟨Eq.symm, Eq.symm⟩
      clear hf hp hR3
      by_cases hgL : (t.node gg).left = some p
      · by_cases hy0 : y = x <;> by_cases hy1 : y = p <;> by_cases hy2 : y = r <;> by_cases hy3 : y = gg <;>
          simp_all [setLeft_left, setLeft_right, setLeft_parent, setRight_left, setRight_right, setRight_parent,
        setParent_left, setParent_right, setParent_parent, setLeft_length, setRight_length,
        setParent_length]
      · by_cases hy0 : y = x <;> by_cases hy1 : y = p <;> by_cases hy2 : y = r <;> by_cases hy3 : y = gg <;>
          simp_all [setLeft_left, setLeft_right, setLeft_parent, setRight_left, setRight_right, setRight_parent,
        setParent_left, setParent_right, setParent_parent, setLeft_length, setRight_length,
        setParent_length]

/-! ### Trees held by the pool -/

theorem rep_node (t : SplayETT) (l r : BT) (x : Nat) (par : Option Nat) :
    Rep t (BT.node l x r) par ↔
      (x < t.pool.length ∧ (t.node x).parent = par ∧ (t.node x).left = l.root ∧
        (t.node x).right = r.root ∧ Rep t l (some x) ∧ Rep t r (some x)) := Iff.rfl

theorem toList_node (l r : BT) (x : Nat) :
    (BT.node l x r).toList = l.toList ++ x :: r.toList := rfl

theorem mem_node (l r : BT) (x y : Nat) :
    y ∈ (BT.node l x r).toList ↔ (y ∈ l.toList ∨ y = x ∨ y ∈ r.toList) := by
  rw [toList_node, List.mem_append, List.mem_cons]

theorem nodup_node (l r : BT) (x : Nat) (h : (BT.node l x r).toList.Nodup) :
    l.toList.Nodup ∧ r.toList.Nodup ∧ x ∉ l.toList ∧ x ∉ r.toList ∧
      ∀ a ∈ l.toList, a ∉ r.toList := by
  rw [toList_node, List.nodup_append, List.nodup_cons] at h
  obtain ⟨h1, ⟨h2, h3⟩, h4⟩ := h
  refine ⟨h1, h3, fun hx => h4 hx (List.mem_cons_self _ _), h2, fun a ha har => ?_⟩
  exact h4 ha (List.mem_cons_of_mem _ har)

theorem root_mem (b : BT) (c : Nat) (h : b.root = some c) : c ∈ b.toList := by
  cases b with
  | leaf => cases h
  | node l x r =>
    simp only [BT.root, Option.some.injEq] at h
    rw [mem_node]
    exact Or.inr (Or.inl h.symm)

theorem rep_root (t : SplayETT) (b : BT) (par : Option Nat) (c : Nat) (h : Rep t b par)
    (hc : b.root = some c) : (t.node c).parent = par := by
  cases b with
  | leaf => cases hc
  | node l x r =>
    simp only [BT.root, Option.some.injEq] at hc
    subst hc
    exact h.2.1

theorem rep_frame (t s : SplayETT) (hlen : s.pool.length = t.pool.length) :
    ∀ (b : BT) (par : Option Nat), Rep t b par → (∀ y ∈ b.toList, PtrEq s t y) →
      Rep s b par := by
  intro b
  induction b with
  | leaf => intro _ _ _; trivial
  | node l x r ihl ihr =>
    intro par h hf
    obtain ⟨h1, h2, h3, h4, h5, h6⟩ := h
    have hx := hf x ((mem_node l r x x).mpr (Or.inr (Or.inl rfl)))
    refine ⟨by rw [hlen]; exact h1, hx.1.trans h2, hx.2.1.trans h3, hx.2.2.trans h4, ?_, ?_⟩
    · exact ihl (some x) h5 (fun y hy => hf y ((mem_node l r x y).mpr (Or.inl hy)))
    · exact ihr (some x) h6 (fun y hy => hf y ((mem_node l r x y).mpr (Or.inr (Or.inr hy))))

theorem rep_newparent (t s : SplayETT) (hlen : s.pool.length = t.pool.length) (b : BT)
    (p0 p1 : Option Nat) (h : Rep t b p0) (hnd : b.toList.Nodup)
    (hroot : ∀ w, b.root = some w → (s.node w).parent = p1 ∧
      (s.node w).left = (t.node w).left ∧ (s.node w).right = (t.node w).right)
    (hrest : ∀ y ∈ b.toList, b.root ≠ some y → PtrEq s t y) : Rep s b p1 := by
  cases b with
  | leaf => trivial
  | node l w r =>
    obtain ⟨h1, h2, h3, h4, h5, h6⟩ := h
    obtain ⟨n1, n2, n3, n4, n5⟩ := nodup_node l r w hnd
    obtain ⟨q1, q2, q3⟩ := hroot w rfl
    refine ⟨by rw [hlen]; exact h1, q1, q2.trans h3, q3.trans h4, ?_, ?_⟩
    · refine rep_frame t s hlen l (some w) h5 (fun y hy => ?_)
      refine hrest y ((mem_node l r w y).mpr (Or.inl hy)) ?_
      intro e
      simp only [BT.root, Option.some.injEq] at e
      exact n3 (e ▸ hy)
    · refine rep_frame t s hlen r (some w) h6 (fun y hy => ?_)
      refine hrest y ((mem_node l r w y).mpr (Or.inr (Or.inr hy))) ?_
      intro e
      simp only [BT.root, Option.some.injEq] at e
      exact n4 (e ▸ hy)

theorem rep_lt (t : SplayETT) : ∀ (b : BT) (par : Option Nat), Rep t b par →
    ∀ y ∈ b.toList, y < t.pool.length := by
  intro b
  induction b with
  | leaf => intro _ _ y hy; cases hy
  | node l x r ihl ihr =>
    intro par h y hy
    obtain ⟨h1, _, _, _, h5, h6⟩ := h
    rcases (mem_node l r x y).mp hy with hy | hy | hy
    · exact ihl _ h5 y hy
    · rw [hy]; exact h1
    · exact ihr _ h6 y hy

/-- A node of a tree held by the pool is its root, with the parent of the tree, or has
its parent among the nodes of the tree. -/
theorem rep_parent (t : SplayETT) : ∀ (b : BT) (par : Option Nat), Rep t b par →
    b.toList.Nodup → ∀ y ∈ b.toList,
      (b.root = some y ∧ (t.node y).parent = par) ∨
      (b.root ≠ some y ∧ ∃ q ∈ b.toList, (t.node y).parent = some q ∧ q ≠ y) := by
  intro b
  induction b with
  | leaf => intro _ _ _ y hy; cases hy
  | node l x r ihl ihr =>
    intro par h hnd y hy
    obtain ⟨h1, h2, h3, h4, h5, h6⟩ := h
    obtain ⟨n1, n2, n3, n4, n5⟩ := nodup_node l r x hnd
    have hxm : x ∈ (BT.node l x r).toList := (mem_node l r x x).mpr (Or.inr (Or.inl rfl))
    rcases (mem_node l r x y).mp hy with hy | hy | hy
    · have hne : x ≠ y := fun e => n3 (e ▸ hy)
      right
      refine ⟨fun e => hne (Option.some.inj e), ?_⟩
      rcases ihl _ h5 n1 y hy with ⟨_, g⟩ | ⟨_, q, hq, g1, g2⟩
      · exact ⟨x, hxm, g, hne⟩
      · exact ⟨q, (mem_node l r x q).mpr (Or.inl hq), g1, g2⟩
    · left
      rw [hy]
      exact ⟨rfl, h2⟩
    · have hne : x ≠ y := fun e => n4 (e ▸ hy)
      right
      refine ⟨fun e => hne (Option.some.inj e), ?_⟩
      rcases ihr _ h6 n2 y hy with ⟨_, g⟩ | ⟨_, q, hq, g1, g2⟩
      · exact ⟨x, hxm, g, hne⟩
      · exact ⟨q, (mem_node l r x q).mpr (Or.inr (Or.inr hq)), g1, g2⟩

/-- A child pointer of a node of a tree held by the pool leads to a node of the tree whose
parent pointer leads back. -/
theorem rep_child (t : SplayETT) : ∀ (b : BT) (par : Option Nat), Rep t b par →
    ∀ y ∈ b.toList, ∀ c, ((t.node y).left = some c ∨ (t.node y).right = some c) →
      c ∈ b.toList ∧ (t.node c).parent = some y := by
  intro b
  induction b with
  | leaf => intro _ _ y hy; cases hy
  | node l x r ihl ihr =>
    intro par h y hy c hc
    obtain ⟨h1, h2, h3, h4, h5, h6⟩ := h
    rcases (mem_node l r x y).mp hy with hy | hy | hy
    · obtain ⟨g1, g2⟩ := ihl _ h5 y hy c hc
      exact ⟨(mem_node l r x c).mpr (Or.inl g1), g2⟩
    · subst hy
      rcases hc with hc | hc
      · rw [h3] at hc
        exact ⟨(mem_node l r y c).mpr (Or.inl (root_mem l c hc)), rep_root t l _ c h5 hc⟩
      · rw [h4] at hc
        exact ⟨(mem_node l r y c).mpr (Or.inr (Or.inr (root_mem r c hc))),
          rep_root t r _ c h6 hc⟩
    · obtain ⟨g1, g2⟩ := ihr _ h6 y hy c hc
      exact ⟨(mem_node l r x c).mpr (Or.inr (Or.inr g1)), g2⟩

/-- A node of a tree below the parent `q` whose parent pointer leads to `q` is the root
of the tree. -/
theorem rep_root_of_parent (t : SplayETT) (b : BT) (q z : Nat) (h : Rep t b (some q))
    (hnd : b.toList.Nodup) (hz : z ∈ b.toList) (hq : q ∉ b.toList)
    (hp : (t.node z).parent = some q) : b.root = some z := by
  rcases rep_parent t b _ h hnd z hz with ⟨g, _⟩ | ⟨_, q1, hq1, g1, _⟩
  · exact g
  · rw [hp] at g1
    injection g1 with g1
    exact absurd (g1 ▸ hq1) hq

theorem rotate_fields (t : SplayETT) (hrev : ∀ y, (t.node y).reversed = false) (z q : Nat)
    (hp : (t.node z).parent = some q) :
    (t.rotate z).pool.length = t.pool.length ∧ (t.rotate z).vertexNodes = t.vertexNodes ∧
    (t.rotate z).edges = t.edges ∧ (t.rotate z).global_counter = t.global_counter ∧
    ∀ y, ((t.rotate z).node y).reversed = false := by
  rw [rotate_rotComp t hrev z q hp]
  obtain ⟨h1, h2, h3, h4⟩ := rotComp_fields t z q
  exact ⟨h1, h2, h3, h4, fun y => by rw [rotComp_rev]; exact hrev y⟩

/-- The child pointers after `rotate(z)` of a node other than `z` and its parent `q`: the
parent of `q` gets `z` in the place of `q`. -/
theorem rot_children (t : SplayETT) (z q : Nat) (hok : RotOK t z q)
    (hp : (t.node z).parent = some q) (y : Nat) (hyz : y ≠ z) (hyq : y ≠ q) :
    ((t.rotate z).node y).left =
        (if (t.node q).parent = some y ∧ (t.node y).left = some q then some z
          else (t.node y).left) ∧
      ((t.rotate z).node y).right =
        (if (t.node q).parent = some y ∧ (t.node y).left ≠ some q then some z
          else (t.node y).right) := by
  by_cases hL : (t.node q).left = some z
  · rw [rL_left t z q hok hp hL y, rL_right t z q hok hp hL y, if_neg hyq, if_neg hyz]
    exact ⟨rfl, rfl⟩
  · rw [rR_left t z q hok hp hL y, rR_right t z q hok hp hL y, if_neg hyq, if_neg hyz]
    exact ⟨rfl, rfl⟩

theorem rot_parent_other (t : SplayETT) (z q : Nat) (hok : RotOK t z q)
    (hp : (t.node z).parent = some q) (y : Nat) (hyz : y ≠ z) (hyq : y ≠ q)
    (hcl : (t.node z).left ≠ some y) (hcr : (t.node z).right ≠ some y) :
    ((t.rotate z).node y).parent = (t.node y).parent := by
  by_cases hL : (t.node q).left = some z
  · rw [rL_parent t z q hok hp hL y, if_neg hyz, if_neg hyq, if_neg hcr]
  · rw [rR_parent t z q hok hp hL y, if_neg hyz, if_neg hyq, if_neg hcl]

/-- A node that is not `z`, not the parent of `z`, not the parent of that parent and not
a child of `z` keeps its pointers under `rotate(z)`. -/
theorem rot_frame (t : SplayETT) (z q : Nat) (hok : RotOK t z q)
    (hp : (t.node z).parent = some q) (y : Nat) (hyz : y ≠ z) (hyq : y ≠ q)
    (hcl : (t.node z).left ≠ some y) (hcr : (t.node z).right ≠ some y)
    (hg : (t.node q).parent ≠ some y) : PtrEq (t.rotate z) t y := by
  obtain ⟨h1, h2⟩ := rot_children t z q hok hp y hyz hyq
  refine ⟨rot_parent_other t z q hok hp y hyz hyq hcl hcr, ?_, ?_⟩
  · rw [h1, if_neg (fun h => hg h.1)]
  · rw [h2, if_neg (fun h => hg h.1)]

/-! ### A rotation inside a tree -/

theorem not_some_of_not_mem (b : BT) (par : Option Nat) (y : Nat)
    (hpar : ∀ w, par = some w → w ∉ b.toList) (hy : y ∈ b.toList) : par ≠ some y :=
  fun e => hpar y e hy

/-- The rotation `rotate(z)` inside a tree held by the pool: the pool holds afterwards a
tree with the same sequence of nodes, with `z` in the place of its former parent `q`. -/
theorem rotate_rep_aux (t : SplayETT) (z q : Nat) (hok : RotOK t z q)
    (hp : (t.node z).parent = some q) :
    ∀ (b : BT) (par : Option Nat), Rep t b par → b.toList.Nodup → z ∈ b.toList →
      b.root ≠ some z → (∀ w, par = some w → w ∉ b.toList) →
      ∃ b1, Rep (t.rotate z) b1 par ∧ b1.toList = b.toList ∧
        b1.root = (if b.root = some q then some z else b.root) := by
  have hlen : (t.rotate z).pool.length = t.pool.length := (rotate_fields t hok.rev z q hp).1
  intro b
  induction b with
  | leaf => intro _ _ _ hz; cases hz
  | node l y r ihl ihr =>
    intro par h hnd hz hroot hpar
    obtain ⟨h1, h2, h3, h4, h5, h6⟩ := h
    obtain ⟨n1, n2, n3, n4, n5⟩ := nodup_node l r y hnd
    have hyz : y ≠ z := fun e => hroot (by rw [e]; rfl)
    have hzlr : z ∈ l.toList ∨ z ∈ r.toList := by
      rcases (mem_node l r y z).mp hz with g | g | g
      · exact Or.inl g
      · exact absurd g.symm hyz
      · exact Or.inr g
    have hparz : par ≠ some z := not_some_of_not_mem _ par z hpar hz
    have hpary : par ≠ some y :=
      not_some_of_not_mem _ par y hpar ((mem_node l r y y).mpr (Or.inr (Or.inl rfl)))
    by_cases hyq : q = y
    · subst hyq
      rcases hzlr with hzl | hzr
      · -- `z` is the left child of `q`
        have hlroot := rep_root_of_parent t l q z h5 n1 hzl n3 hp
        cases l with
        | leaf => cases hlroot
        | node A z0 B =>
          simp only [BT.root, Option.some.injEq] at hlroot
          subst hlroot
          have hL : (t.node q).left = some z0 := h3
          obtain ⟨a1, a2, a3, a4, a5, a6⟩ := h5
          obtain ⟨m1, m2, m3, m4, m5⟩ := nodup_node A B z0 n1
          have hqA : ∀ y1 ∈ A.toList, y1 ≠ q := fun y1 hy1 e =>
            n3 (e ▸ (mem_node A B z0 y1).mpr (Or.inl hy1))
          have hqB : ∀ y1 ∈ B.toList, y1 ≠ q := fun y1 hy1 e =>
            n3 (e ▸ (mem_node A B z0 y1).mpr (Or.inr (Or.inr hy1)))
          have hparm : ∀ y1, y1 ∈ (BT.node (BT.node A z0 B) q r).toList →
              (t.node q).parent ≠ some y1 := fun y1 hy1 => by
            rw [h2]; exact not_some_of_not_mem _ par y1 hpar hy1
          have hch : ∀ y1, y1 ∈ (BT.node (BT.node A z0 B) q r).toList → y1 ≠ z0 → y1 ≠ q →
              ((t.rotate z0).node y1).left = (t.node y1).left ∧
              ((t.rotate z0).node y1).right = (t.node y1).right := fun y1 hy1 e1 e2 => by
            obtain ⟨g1, g2⟩ := rot_children t z0 q hok hp y1 e1 e2
            rw [g1, g2, if_neg (fun g => hparm y1 hy1 g.1), if_neg (fun g => hparm y1 hy1 g.1)]
            exact ⟨rfl, rfl⟩
          have hpa : ∀ y1, y1 ≠ z0 → y1 ≠ q → B.root ≠ some y1 →
              ((t.rotate z0).node y1).parent = (t.node y1).parent := fun y1 e1 e2 e3 => by
            rw [rL_parent t z0 q hok hp hL y1, if_neg e1, if_neg e2, if_neg (by rw [a4]; exact e3)]
          have inA : ∀ y1 ∈ A.toList, y1 ∈ (BT.node (BT.node A z0 B) q r).toList :=
            fun y1 hy1 => (mem_node _ r q y1).mpr (Or.inl ((mem_node A B z0 y1).mpr (Or.inl hy1)))
          have inB : ∀ y1 ∈ B.toList, y1 ∈ (BT.node (BT.node A z0 B) q r).toList :=
            fun y1 hy1 => (mem_node _ r q y1).mpr
              (Or.inl ((mem_node A B z0 y1).mpr (Or.inr (Or.inr hy1))))
          have inR : ∀ y1 ∈ r.toList, y1 ∈ (BT.node (BT.node A z0 B) q r).toList :=
            fun y1 hy1 => (mem_node _ r q y1).mpr (Or.inr (Or.inr hy1))
          refine ⟨BT.node A z0 (BT.node B q r), ⟨?_, ?_, ?_, ?_, ?_, ?_, ?_, ?_, ?_, ?_, ?_⟩, ?_, ?_⟩
          · rw [hlen]; exact a1
          · rw [rL_parent t z0 q hok hp hL z0, if_pos rfl]; exact h2
          · rw [rL_left t z0 q hok hp hL z0, if_neg hok.xp,
              if_neg (fun g => hparm z0 hz g.1)]
            exact a3
          · rw [rL_right t z0 q hok hp hL z0, if_pos rfl]; rfl
          · refine rep_frame t _ hlen A _ a5 (fun y1 hy1 => ?_)
            have e1 : y1 ≠ z0 := fun e => m3 (e ▸ hy1)
            have e3 : B.root ≠ some y1 := fun e => m5 y1 hy1 (root_mem B y1 e)
            obtain ⟨g1, g2⟩ := hch y1 (inA y1 hy1) e1 (hqA y1 hy1)
            exact ⟨hpa y1 e1 (hqA y1 hy1) e3, g1, g2⟩
          · rw [hlen]; exact h1
          · rw [rL_parent t z0 q hok hp hL q, if_neg (Ne.symm hok.xp), if_pos rfl]
          · rw [rL_left t z0 q hok hp hL q, if_pos rfl]; exact a4
          · rw [rL_right t z0 q hok hp hL q, if_neg (Ne.symm hok.xp),
              if_neg (fun g => hparm q ((mem_node _ r q q).mpr (Or.inr (Or.inl rfl))) g.1)]
            exact h4
          · refine rep_newparent t _ hlen B (some z0) (some q) a6 m2 (fun w hw => ?_)
              (fun y1 hy1 hne => ?_)
            · have hwB := root_mem B w hw
              have e1 : w ≠ z0 := fun e => m4 (e ▸ hwB)
              obtain ⟨g1, g2⟩ := hch w (inB w hwB) e1 (hqB w hwB)
              refine ⟨?_, g1, g2⟩
              rw [rL_parent t z0 q hok hp hL w, if_neg e1, if_neg (hqB w hwB),
                if_pos (by rw [a4]; exact hw)]
            · have e1 : y1 ≠ z0 := fun e => m4 (e ▸ hy1)
              obtain ⟨g1, g2⟩ := hch y1 (inB y1 hy1) e1 (hqB y1 hy1)
              exact ⟨hpa y1 e1 (hqB y1 hy1) hne, g1, g2⟩
          · refine rep_frame t _ hlen r _ h6 (fun y1 hy1 => ?_)
            have hz0l : z0 ∈ (BT.node A z0 B).toList := (mem_node A B z0 z0).mpr (Or.inr (Or.inl rfl))
            have e1 : y1 ≠ z0 := fun e => n5 z0 hz0l (e ▸ hy1)
            have e2 : y1 ≠ q := fun e => n4 (e ▸ hy1)
            have e3 : B.root ≠ some y1 := fun e =>
              n5 y1 ((mem_node A B z0 y1).mpr (Or.inr (Or.inr (root_mem B y1 e)))) hy1
            obtain ⟨g1, g2⟩ := hch y1 (inR y1 hy1) e1 e2
            exact ⟨hpa y1 e1 e2 e3, g1, g2⟩
          · simp [BT.toList, List.append_assoc]
          · simp [BT.root]
      · -- `z` is the right child of `q`
        have hrroot := rep_root_of_parent t r q z h6 n2 hzr n4 hp
        cases r with
        | leaf => cases hrroot
        | node B z0 C =>
          simp only [BT.root, Option.some.injEq] at hrroot
          subst hrroot
          have hz0r : z0 ∈ (BT.node B z0 C).toList := (mem_node B C z0 z0).mpr (Or.inr (Or.inl rfl))
          have hL : (t.node q).left ≠ some z0 := by
            rw [h3]
            intro e
            exact n5 z0 (root_mem l z0 e) hz0r
          obtain ⟨a1, a2, a3, a4, a5, a6⟩ := h6
          obtain ⟨m1, m2, m3, m4, m5⟩ := nodup_node B C z0 n2
          have hqB : ∀ y1 ∈ B.toList, y1 ≠ q := fun y1 hy1 e =>
            n4 (e ▸ (mem_node B C z0 y1).mpr (Or.inl hy1))
          have hqC : ∀ y1 ∈ C.toList, y1 ≠ q := fun y1 hy1 e =>
            n4 (e ▸ (mem_node B C z0 y1).mpr (Or.inr (Or.inr hy1)))
          have hparm : ∀ y1, y1 ∈ (BT.node l q (BT.node B z0 C)).toList →
              (t.node q).parent ≠ some y1 := fun y1 hy1 => by
            rw [h2]; exact not_some_of_not_mem _ par y1 hpar hy1
          have hch : ∀ y1, y1 ∈ (BT.node l q (BT.node B z0 C)).toList → y1 ≠ z0 → y1 ≠ q →
              ((t.rotate z0).node y1).left = (t.node y1).left ∧
              ((t.rotate z0).node y1).right = (t.node y1).right := fun y1 hy1 e1 e2 => by
            obtain ⟨g1, g2⟩ := rot_children t z0 q hok hp y1 e1 e2
            rw [g1, g2, if_neg (fun g => hparm y1 hy1 g.1), if_neg (fun g => hparm y1 hy1 g.1)]
            exact ⟨rfl, rfl⟩
          have hpa : ∀ y1, y1 ≠ z0 → y1 ≠ q → B.root ≠ some y1 →
              ((t.rotate z0).node y1).parent = (t.node y1).parent := fun y1 e1 e2 e3 => by
            rw [rR_parent t z0 q hok hp hL y1, if_neg e1, if_neg e2, if_neg (by rw [a3]; exact e3)]
          have inL : ∀ y1 ∈ l.toList, y1 ∈ (BT.node l q (BT.node B z0 C)).toList :=
            fun y1 hy1 => (mem_node l _ q y1).mpr (Or.inl hy1)
          have inB : ∀ y1 ∈ B.toList, y1 ∈ (BT.node l q (BT.node B z0 C)).toList :=
            fun y1 hy1 => (mem_node l _ q y1).mpr
              (Or.inr (Or.inr ((mem_node B C z0 y1).mpr (Or.inl hy1))))
          have inC : ∀ y1 ∈ C.toList, y1 ∈ (BT.node l q (BT.node B z0 C)).toList :=
            fun y1 hy1 => (mem_node l _ q y1).mpr
              (Or.inr (Or.inr ((mem_node B C z0 y1).mpr (Or.inr (Or.inr hy1)))))
          refine ⟨BT.node (BT.node l q B) z0 C, ⟨?_, ?_, ?_, ?_, ⟨?_, ?_, ?_, ?_, ?_, ?_⟩, ?_⟩, ?_, ?_⟩
          · rw [hlen]; exact a1
          · rw [rR_parent t z0 q hok hp hL z0, if_pos rfl]; exact h2
          · rw [rR_left t z0 q hok hp hL z0, if_pos rfl]; rfl
          · rw [rR_right t z0 q hok hp hL z0, if_neg hok.xp,
              if_neg (fun g => hparm z0 hz g.1)]
            exact a4
          · rw [hlen]; exact h1
          · rw [rR_parent t z0 q hok hp hL q, if_neg (Ne.symm hok.xp), if_pos rfl]
          · rw [rR_left t z0 q hok hp hL q, if_neg (Ne.symm hok.xp),
              if_neg (fun g => hparm q ((mem_node l _ q q).mpr (Or.inr (Or.inl rfl))) g.1)]
            exact h3
          · rw [rR_right t z0 q hok hp hL q, if_pos rfl]; exact a3
          · refine rep_frame t _ hlen l _ h5 (fun y1 hy1 => ?_)
            have e1 : y1 ≠ z0 := fun e => n5 y1 hy1 (e ▸ hz0r)
            have e2 : y1 ≠ q := fun e => n3 (e ▸ hy1)
            have e3 : B.root ≠ some y1 := fun e =>
              n5 y1 hy1 ((mem_node B C z0 y1).mpr (Or.inl (root_mem B y1 e)))
            obtain ⟨g1, g2⟩ := hch y1 (inL y1 hy1) e1 e2
            exact ⟨hpa y1 e1 e2 e3, g1, g2⟩
          · refine rep_newparent t _ hlen B (some z0) (some q) a5 m1 (fun w hw => ?_)
              (fun y1 hy1 hne => ?_)
            · have hwB := root_mem B w hw
              have e1 : w ≠ z0 := fun e => m3 (e ▸ hwB)
              obtain ⟨g1, g2⟩ := hch w (inB w hwB) e1 (hqB w hwB)
              refine ⟨?_, g1, g2⟩
              rw [rR_parent t z0 q hok hp hL w, if_neg e1, if_neg (hqB w hwB),
                if_pos (by rw [a3]; exact hw)]
            · have e1 : y1 ≠ z0 := fun e => m3 (e ▸ hy1)
              obtain ⟨g1, g2⟩ := hch y1 (inB y1 hy1) e1 (hqB y1 hy1)
              exact ⟨hpa y1 e1 (hqB y1 hy1) hne, g1, g2⟩
          · refine rep_frame t _ hlen C _ a6 (fun y1 hy1 => ?_)
            have e1 : y1 ≠ z0 := fun e => m4 (e ▸ hy1)
            have e3 : B.root ≠ some y1 := fun e => m5 y1 (root_mem B y1 e) hy1
            obtain ⟨g1, g2⟩ := hch y1 (inC y1 hy1) e1 (hqC y1 hy1)
            exact ⟨hpa y1 e1 (hqC y1 hy1) e3, g1, g2⟩
          · simp [BT.toList, List.append_assoc]
          · simp [BT.root]
    · -- `q` lies deeper in the tree
      have hyq2 : y ≠ q := fun e => hyq e.symm
      have hrootq : ¬ (some y = some q) := fun e => hyq (Option.some.inj e).symm
      rcases hzlr with hzl | hzr
      · have hlz : l.root ≠ some z := fun e => by
          have := rep_root t l _ z h5 e
          rw [hp] at this
          exact hyq (Option.some.inj this)
        obtain ⟨l1, hl1, hl1l, hl1r⟩ := ihl (some y) h5 n1 hzl hlz
          (fun w hw => by rw [← Option.some.inj hw]; exact n3)
        have hql : q ∈ l.toList := by
          rcases rep_parent t l _ h5 n1 z hzl with ⟨g, _⟩ | ⟨_, q1, hq1, g1, _⟩
          · exact absurd g hlz
          · rw [hp] at g1
            rw [Option.some.inj g1]
            exact hq1
        have hcz : ∀ c, ((t.node z).left = some c ∨ (t.node z).right = some c) → c ∈ l.toList :=
          fun c hc => (rep_child t l _ h5 z hzl c hc).1
        have hcl : (t.node z).left ≠ some y := fun e => n3 (hcz y (Or.inl e))
        have hcr : (t.node z).right ≠ some y := fun e => n3 (hcz y (Or.inr e))
        obtain ⟨g1, g2⟩ := rot_children t z q hok hp y hyz hyq2
        refine ⟨BT.node l1 y r, ⟨?_, ?_, ?_, ?_, hl1, ?_⟩, ?_, ?_⟩
        · rw [hlen]; exact h1
        · rw [rot_parent_other t z q hok hp y hyz hyq2 hcl hcr]; exact h2
        · rw [g1, hl1r, h3]
          by_cases e : l.root = some q
          · rw [if_pos e, if_pos ⟨rep_root t l _ q h5 e, e⟩]
          · rw [if_neg e, if_neg (fun g => e g.2)]
        · rw [g2, if_neg, h4]
          rintro ⟨e1, e2⟩
          exact e2 (h3.trans (rep_root_of_parent t l y q h5 n1 hql n3 e1))
        · refine rep_frame t _ hlen r _ h6 (fun y1 hy1 => ?_)
          refine rot_frame t z q hok hp y1 (fun e => n5 z hzl (e ▸ hy1))
            (fun e => n5 q hql (e ▸ hy1)) (fun e => n5 y1 (hcz y1 (Or.inl e)) hy1)
            (fun e => n5 y1 (hcz y1 (Or.inr e)) hy1) ?_
          intro e
          rcases rep_parent t l _ h5 n1 q hql with ⟨_, g⟩ | ⟨_, q1, hq1, g3, _⟩
          · rw [g] at e
            exact n4 ((Option.some.inj e) ▸ hy1)
          · rw [g3] at e
            exact n5 q1 hq1 ((Option.some.inj e) ▸ hy1)
        · rw [toList_node, toList_node, hl1l]
        · simp only [BT.root]
          rw [if_neg hrootq]
      · have hrz : r.root ≠ some z := fun e => by
          have := rep_root t r _ z h6 e
          rw [hp] at this
          exact hyq (Option.some.inj this)
        obtain ⟨r1, hr1, hr1l, hr1r⟩ := ihr (some y) h6 n2 hzr hrz
          (fun w hw => by rw [← Option.some.inj hw]; exact n4)
        have hqr : q ∈ r.toList := by
          rcases rep_parent t r _ h6 n2 z hzr with ⟨g, _⟩ | ⟨_, q1, hq1, g1, _⟩
          · exact absurd g hrz
          · rw [hp] at g1
            rw [Option.some.inj g1]
            exact hq1
        have hcz : ∀ c, ((t.node z).left = some c ∨ (t.node z).right = some c) → c ∈ r.toList :=
          fun c hc => (rep_child t r _ h6 z hzr c hc).1
        have hcl : (t.node z).left ≠ some y := fun e => n4 (hcz y (Or.inl e))
        have hcr : (t.node z).right ≠ some y := fun e => n4 (hcz y (Or.inr e))
        have hlq : l.root ≠ some q := fun e => n5 q (root_mem l q e) hqr
        obtain ⟨g1, g2⟩ := rot_children t z q hok hp y hyz hyq2
        refine ⟨BT.node l y r1, ⟨?_, ?_, ?_, ?_, ?_, hr1⟩, ?_, ?_⟩
        · rw [hlen]; exact h1
        · rw [rot_parent_other t z q hok hp y hyz hyq2 hcl hcr]; exact h2
        · rw [g1, if_neg, h3]
          rintro ⟨_, e2⟩
          exact hlq (h3.symm.trans e2)
        · rw [g2, hr1r, h4]
          by_cases e : r.root = some q
          · rw [if_pos e, if_pos ⟨rep_root t r _ q h6 e, by rw [h3]; exact hlq⟩]
          · rw [if_neg e, if_neg]
            rintro ⟨e1, _⟩
            exact e (rep_root_of_parent t r y q h6 n2 hqr n4 e1)
        · refine rep_frame t _ hlen l _ h5 (fun y1 hy1 => ?_)
          refine rot_frame t z q hok hp y1 (fun e => n5 y1 hy1 (e ▸ hzr))
            (fun e => n5 y1 hy1 (e ▸ hqr)) (fun e => n5 y1 hy1 (hcz y1 (Or.inl e)))
            (fun e => n5 y1 hy1 (hcz y1 (Or.inr e))) ?_
          intro e
          rcases rep_parent t r _ h6 n2 q hqr with ⟨_, g⟩ | ⟨_, q1, hq1, g3, _⟩
          · rw [g] at e
            exact n3 ((Option.some.inj e) ▸ hy1)
          · rw [g3] at e
            exact n5 y1 hy1 ((Option.some.inj e) ▸ hq1)
        · rw [toList_node, toList_node, hr1l]
        · simp only [BT.root]
          rw [if_neg hrootq]

/-! ### Depth and ancestors -/

/-- In a tree held by the pool the parent pointer leads one level up. -/
theorem rep_depth (t : SplayETT) : ∀ (b : BT) (par : Option Nat), Rep t b par →
    b.toList.Nodup → (∀ w, par = some w → w ∉ b.toList) →
    ∀ y ∈ b.toList, ∀ q ∈ b.toList, (t.node y).parent = some q →
      b.depth y = b.depth q + 1 := by
  intro b
  induction b with
  | leaf => intro _ _ _ _ y hy; cases hy
  | node l x r ihl ihr =>
    intro par h hnd hpar y hy q hq hp
    obtain ⟨h1, h2, h3, h4, h5, h6⟩ := h
    obtain ⟨n1, n2, n3, n4, n5⟩ := nodup_node l r x hnd
    have key : ∀ (c : BT), Rep t c (some x) → c.toList.Nodup → x ∉ c.toList →
        (∀ y ∈ c.toList, ∀ q ∈ c.toList, (t.node y).parent = some q →
          c.depth y = c.depth q + 1) →
        y ∈ c.toList → (q = x ∧ c.depth y = 0) ∨ (q ∈ c.toList ∧ c.depth y = c.depth q + 1) := by
      intro c hc hcn hxc ih hyc
      rcases rep_parent t c _ hc hcn y hyc with ⟨g1, g2⟩ | ⟨_, q1, hq1, g3, _⟩
      · left
        rw [hp] at g2
        refine ⟨Option.some.inj g2, ?_⟩
        cases c with
        | leaf => cases g1
        | node A w B =>
          simp only [BT.root, Option.some.injEq] at g1
          simp only [BT.depth, g1, if_true]
      · right
        rw [hp] at g3
        have e := Option.some.inj g3
        rw [e]
        exact ⟨hq1, ih y hyc q1 hq1 (by rw [← e]; exact hp)⟩
    rcases (mem_node l r x y).mp hy with hyl | hyx | hyr
    · have hxy : x ≠ y := fun e => n3 (e ▸ hyl)
      have hd : (BT.node l x r).depth y = l.depth y + 1 := by
        simp only [BT.depth, if_neg hxy, if_pos hyl]
      rw [hd]
      rcases key l h5 n1 n3 (ihl (some x) h5 n1 (fun w hw => by
          rw [← Option.some.inj hw]; exact n3)) hyl with ⟨g1, g2⟩ | ⟨g1, g2⟩
      · rw [g1, g2]
        simp only [BT.depth, if_true]
      · have hxq : x ≠ q := fun e => n3 (e ▸ g1)
        rw [g2]
        simp only [BT.depth, if_neg hxq, if_pos g1]
    · exfalso
      rw [hyx, h2] at hp
      exact hpar q hp hq
    · have hxy : x ≠ y := fun e => n4 (e ▸ hyr)
      have hyl : y ∉ l.toList := fun e => n5 y e hyr
      have hd : (BT.node l x r).depth y = r.depth y + 1 := by
        simp only [BT.depth, if_neg hxy, if_neg hyl]
      rw [hd]
      rcases key r h6 n2 n4 (ihr (some x) h6 n2 (fun w hw => by
          rw [← Option.some.inj hw]; exact n4)) hyr with ⟨g1, g2⟩ | ⟨g1, g2⟩
      · rw [g1, g2]
        simp only [BT.depth, if_true]
      · have hxq : x ≠ q := fun e => n4 (e ▸ g1)
        have hql : q ∉ l.toList := fun e => n5 q e g1
        rw [g2]
        simp only [BT.depth, if_neg hxq, if_neg hql]

/-- Every node of a tree held by the pool has a chain of ancestors, all of them nodes of
the tree. -/
theorem rep_anc (t : SplayETT) (b : BT) (h : Rep t b none) (hnd : b.toList.Nodup) :
    ∀ (n y : Nat), y ∈ b.toList → b.depth y ≤ n →
      ∃ l, Anc t y l ∧ ∀ w ∈ l, w ∈ b.toList := by
  intro n
  induction n with
  | zero =>
    intro y hy hd
    rcases rep_parent t b _ h hnd y hy with ⟨_, g⟩ | ⟨_, q, hq, g1, _⟩
    · exact ⟨[], g, fun w hw => by cases hw⟩
    · have := rep_depth t b none h hnd (fun w hw => by cases hw) y hy q hq g1
      omega
  | succ n ih =>
    intro y hy hd
    rcases rep_parent t b _ h hnd y hy with ⟨_, g⟩ | ⟨_, q, hq, g1, _⟩
    · exact ⟨[], g, fun w hw => by cases hw⟩
    · have := rep_depth t b none h hnd (fun w hw => by cases hw) y hy q hq g1
      obtain ⟨l, hl, hlm⟩ := ih q hq (by omega)
      refine ⟨q :: l, ⟨g1, hl⟩, fun w hw => ?_⟩
      rcases List.mem_cons.mp hw with e | e
      · rw [e]; exact hq
      · exact hlm w e

theorem rep_anc_mem (t : SplayETT) (b : BT) (h : Rep t b none) (hnd : b.toList.Nodup)
    (y : Nat) (hy : y ∈ b.toList) : ∃ l, Anc t y l ∧ ∀ w ∈ l, w ∈ b.toList :=
  rep_anc t b h hnd (b.depth y) y hy (le_refl _)

/-- In a tree held by the pool a node with a parent meets the conditions under which
`rotate` is followed store by store. -/
theorem rotOK_of_rep (t : SplayETT) (hrev : ∀ y, (t.node y).reversed = false) (b : BT)
    (h : Rep t b none) (hnd : b.toList.Nodup) (z q : Nat) (hz : z ∈ b.toList)
    (hp : (t.node z).parent = some q) : RotOK t z q ∧ q ∈ b.toList := by
  have hno : ∀ w, (none : Option Nat) = some w → w ∉ b.toList := fun w hw => by cases hw
  have hq : q ∈ b.toList := by
    rcases rep_parent t b _ h hnd z hz with ⟨_, g⟩ | ⟨_, q1, hq1, g1, _⟩
    · rw [hp] at g; cases g
    · rw [hp] at g1
      rw [Option.some.inj g1]
      exact hq1
  have dz := rep_depth t b none h hnd hno z hz q hq hp
  have hg : ∀ gg, (t.node q).parent = some gg → gg ∈ b.toList ∧ b.depth q = b.depth gg + 1 := by
    intro gg hgg
    rcases rep_parent t b _ h hnd q hq with ⟨_, g⟩ | ⟨_, q1, hq1, g1, _⟩
    · rw [hgg] at g; cases g
    · rw [hgg] at g1
      have e := Option.some.inj g1
      rw [e]
      exact ⟨hq1, rep_depth t b none h hnd hno q hq q1 hq1 (by rw [← e]; exact hgg)⟩
  have hc : ∀ r, ((t.node z).left = some r ∨ (t.node z).right = some r) →
      r < t.pool.length ∧ r ≠ z ∧ r ≠ q ∧ ∀ gg, (t.node q).parent = some gg → r ≠ gg := by
    intro r hr
    obtain ⟨g1, g2⟩ := rep_child t b _ h z hz r hr
    have dr := rep_depth t b none h hnd hno r g1 z hz g2
    refine ⟨rep_lt t b _ h r g1, fun e => ?_, fun e => ?_, fun gg hgg e => ?_⟩
    · rw [e] at dr; omega
    · rw [e] at dr; omega
    · have := (hg gg hgg).2
      rw [e] at dr; omega
  refine ⟨⟨hrev, rep_lt t b _ h q hq, fun e => ?_, fun gg hgg => ?_, fun r hr => hc r (Or.inr hr),
    fun r hr => hc r (Or.inl hr)⟩, hq⟩
  · rw [e] at dz; omega
  · obtain ⟨g1, g2⟩ := hg gg hgg
    refine ⟨rep_lt t b _ h gg g1, fun e => ?_, fun e => ?_⟩
    · rw [e] at dz; omega
    · rw [e] at g2; omega

/-- The method `rotate(z)` on a node with a parent, in a tree held by the pool: the pool
holds afterwards a tree with the same sequence of nodes, and no pointer of a node outside
the tree changes. -/
theorem rotate_tree (t : SplayETT) (hrev : ∀ y, (t.node y).reversed = false) (b : BT)
    (h : Rep t b none) (hnd : b.toList.Nodup) (z q : Nat) (hz : z ∈ b.toList)
    (hp : (t.node z).parent = some q) :
    ∃ b1, Rep (t.rotate z) b1 none ∧ b1.toList = b.toList ∧
      (b1.root = if b.root = some q then some z else b.root) ∧
      ∀ y, y ∉ b.toList → PtrEq (t.rotate z) t y := by
  obtain ⟨hok, hq⟩ := rotOK_of_rep t hrev b h hnd z q hz hp
  have hroot : b.root ≠ some z := fun e => by
    have := rep_root t b _ z h e
    rw [hp] at this
    cases this
  obtain ⟨b1, g1, g2, g3⟩ := rotate_rep_aux t z q hok hp b none h hnd hz hroot
    (fun w hw => by cases hw)
  refine ⟨b1, g1, g2, g3, fun y hy => ?_⟩
  refine rot_frame t z q hok hp y (fun e => hy (e ▸ hz)) (fun e => hy (e ▸ hq))
    (fun e => hy (rep_child t b _ h z hz y (Or.inl e)).1)
    (fun e => hy (rep_child t b _ h z hz y (Or.inr e)).1) (fun e => ?_)
  rcases rep_parent t b _ h hnd q hq with ⟨_, g⟩ | ⟨_, q1, hq1, g4, _⟩
  · rw [g] at e; cases e
  · rw [g4] at e
    exact hy ((Option.some.inj e) ▸ hq1)

theorem rot_parent_self (t : SplayETT) (z q : Nat) (hok : RotOK t z q)
    (hp : (t.node z).parent = some q) :
    ((t.rotate z).node z).parent = (t.node q).parent := by
  by_cases hL : (t.node q).left = some z
  · rw [rL_parent t z q hok hp hL z, if_pos rfl]
  · rw [rR_parent t z q hok hp hL z, if_pos rfl]

theorem rot_parent_q (t : SplayETT) (z q : Nat) (hok : RotOK t z q)
    (hp : (t.node z).parent = some q) :
    ((t.rotate z).node q).parent = some z := by
  by_cases hL : (t.node q).left = some z
  · rw [rL_parent t z q hok hp hL q, if_neg (Ne.symm hok.xp), if_pos rfl]
  · rw [rR_parent t z q hok hp hL q, if_neg (Ne.symm hok.xp), if_pos rfl]

/-- After `rotate(z)` the ancestors of `z` are the former ancestors of its parent. -/
theorem rotate_anc_self (t : SplayETT) (z q : Nat) (hok : RotOK t z q)
    (hp : (t.node z).parent = some q) (l : List Nat) (h : Anc t z (q :: l))
    (hch : ∀ c, ((t.node z).left = some c ∨ (t.node z).right = some c) → c ∉ l) :
    Anc (t.rotate z) z l := by
  have hnd := anc_nodup t _ z h
  obtain ⟨_, hq⟩ := h
  cases l with
  | nil =>
    show ((t.rotate z).node z).parent = none
    rw [rot_parent_self t z q hok hp]
    exact hq
  | cons gg l1 =>
    obtain ⟨hg, hl1⟩ := hq
    refine ⟨by rw [rot_parent_self t z q hok hp]; exact hg, ?_⟩
    refine anc_frame t _ l1 gg hl1 (fun w hw => ?_)
    have hwz : w ≠ z := fun e => by
      rw [List.nodup_cons] at hnd
      exact hnd.1 (List.mem_cons_of_mem _ (e ▸ hw))
    have hwq : w ≠ q := fun e => by
      rw [List.nodup_cons, List.nodup_cons] at hnd
      exact hnd.2.1 (e ▸ hw)
    exact rot_parent_other t z q hok hp w hwz hwq (fun e => hch w (Or.inl e) hw)
      (fun e => hch w (Or.inr e) hw)

/-! ### Splay on a tree -/

theorem ptrEq_refl (t : SplayETT) (y : Nat) : PtrEq t t y := ⟨rfl, rfl, rfl⟩

theorem ptrEq_trans (u s t : SplayETT) (y : Nat) (h1 : PtrEq u s y) (h2 : PtrEq s t y) :
    PtrEq u t y := ⟨h1.1.trans h2.1, h1.2.1.trans h2.2.1, h1.2.2.trans h2.2.2⟩

theorem treeStep_refl (t : SplayETT) (hrev : ∀ y, (t.node y).reversed = false) (b : BT)
    (h : Rep t b none) : TreeStep t t b b :=
  ⟨hrev, rfl, rfl, rfl, rfl, h, rfl, fun y _ => ptrEq_refl t y⟩

theorem treeStep_trans (t s u : SplayETT) (b b1 b2 : BT) (h1 : TreeStep t s b b1)
    (h2 : TreeStep s u b1 b2) : TreeStep t u b b2 :=
  ⟨h2.rev, h2.len.trans h1.len, h2.vn.trans h1.vn, h2.ed.trans h1.ed, h2.gc.trans h1.gc,
    h2.rep, h2.list.trans h1.list,
    fun y hy => ptrEq_trans u s t y (h2.frame y (by rw [h1.list]; exact hy)) (h1.frame y hy)⟩

theorem rotate_treeStep (t : SplayETT) (hrev : ∀ y, (t.node y).reversed = false) (b : BT)
    (h : Rep t b none) (hnd : b.toList.Nodup) (z q : Nat) (hz : z ∈ b.toList)
    (hp : (t.node z).parent = some q) :
    ∃ b1, TreeStep t (t.rotate z) b b1 := by
  obtain ⟨b1, g1, g2, _, g4⟩ := rotate_tree t hrev b h hnd z q hz hp
  obtain ⟨f1, f2, f3, f4, f5⟩ := rotate_fields t hrev z q hp
  exact ⟨b1, f5, f1, f2, f3, f4, g1, g2, g4⟩

/-- The two children of a node of a tree held by the pool are distinct. -/
theorem rep_left_ne_right (t : SplayETT) : ∀ (b : BT) (par : Option Nat), Rep t b par →
    b.toList.Nodup → ∀ y ∈ b.toList, ∀ c, (t.node y).left = some c →
      (t.node y).right ≠ some c := by
  intro b
  induction b with
  | leaf => intro _ _ _ y hy; cases hy
  | node l x r ihl ihr =>
    intro par h hnd y hy c hc
    obtain ⟨h1, h2, h3, h4, h5, h6⟩ := h
    obtain ⟨n1, n2, n3, n4, n5⟩ := nodup_node l r x hnd
    rcases (mem_node l r x y).mp hy with hy | hy | hy
    · exact ihl _ h5 n1 y hy c hc
    · subst hy
      intro e
      rw [h3] at hc
      rw [h4] at e
      exact n5 c (root_mem l c hc) (root_mem r c e)
    · exact ihr _ h6 n2 y hy c hc

/-- The first rotation of a zig-zig step, `rotate(p)` above `g`, leaves the outer child `x`
of `p` below `p`. -/
theorem rot_parent_outer (t : SplayETT) (p g : Nat) (hok : RotOK t p g)
    (hp : (t.node p).parent = some g) (x : Nat) (hxp : x ≠ p) (hxg : x ≠ g)
    (hside : decide ((t.node g).left = some p) = decide ((t.node p).left = some x))
    (hlr : (t.node p).left = some x → (t.node p).right ≠ some x) :
    ((t.rotate p).node x).parent = (t.node x).parent := by
  by_cases hL : (t.node g).left = some p
  · have hx : (t.node p).left = some x := by simpa [hL] using hside
    rw [rL_parent t p g hok hp hL x, if_neg hxp, if_neg hxg, if_neg (hlr hx)]
  · have hx : ¬ (t.node p).left = some x := by simpa [hL] using hside
    rw [rR_parent t p g hok hp hL x, if_neg hxp, if_neg hxg, if_neg hx]

theorem child_not_anc (t : SplayETT) (x c : Nat) (l : List Nat) (h : Anc t x l)
    (hc : (t.node c).parent = some x) : c ∉ l := by
  have hnd := anc_nodup t (x :: l) c ⟨hc, h⟩
  rw [List.nodup_cons] at hnd
  exact fun e => hnd.1 (List.mem_cons_of_mem _ e)

/-- The loop of `splay(x)` on a node of a tree held by the pool: it ends, the pool holds
afterwards a tree with the same sequence of nodes and the root `x`, and the nodes outside
the tree keep their pointers. -/
theorem splayLoop_tree (x : Nat) : ∀ (f : Nat) (t : SplayETT) (b : BT) (l : List Nat),
    (∀ y, (t.node y).reversed = false) → Rep t b none → b.toList.Nodup → x ∈ b.toList →
    Anc t x l → l.length < f →
    ∃ t1 b1, splayLoop x f t = some t1 ∧ TreeStep t t1 b b1 ∧ b1.root = some x := by
  intro f
  induction f using Nat.strong_induction_on with
  | _ f ih =>
    intro t b l hrev h hnd hx hl hlen
    obtain ⟨k, rfl⟩ : ∃ k, f = k + 1 := ⟨f - 1, by omega⟩
    cases l with
    | nil =>
      have hp : (t.node x).parent = none := hl
      refine ⟨t, b, ?_, treeStep_refl t hrev b h, ?_⟩
      · simp only [splayLoop, hp]
      · rcases rep_parent t b _ h hnd x hx with ⟨g, _⟩ | ⟨_, q, _, g1, _⟩
        · exact g
        · rw [hp] at g1; cases g1
    | cons p l1 =>
      have hp : (t.node x).parent = some p := hl.1
      have hl1 : Anc t p l1 := hl.2
      have hchx : ∀ c, ((t.node x).left = some c ∨ (t.node x).right = some c) →
          (t.node c).parent = some x := fun c hc => (rep_child t b _ h x hx c hc).2
      obtain ⟨hokx, hpm⟩ := rotOK_of_rep t hrev b h hnd x p hx hp
      cases l1 with
      | nil =>
        have hg : (t.node p).parent = none := hl1
        obtain ⟨b1, s1⟩ := rotate_treeStep t hrev b h hnd x p hx hp
        have h1 : Anc (t.rotate x) x [] :=
          rotate_anc_self t x p hokx hp [] hl (fun c _ hc => by cases hc)
        obtain ⟨t2, b2, e1, e2, e3⟩ := ih k (by omega) (t.rotate x) b1 [] s1.rev s1.rep
          (by rw [s1.list]; exact hnd) (by rw [s1.list]; exact hx) h1
          (by simp at hlen ⊢; omega)
        refine ⟨t2, b2, ?_, treeStep_trans _ _ _ _ _ _ s1 e2, e3⟩
        simp only [splayLoop, hp, hg, pushDown_id t _ hrev]
        exact e1
      | cons gg l2 =>
        have hg : (t.node p).parent = some gg := hl1.1
        have hl2 : Anc t gg l2 := hl1.2
        have hndc := anc_nodup t _ x hl
        have hxp : x ≠ p := hokx.xp
        have hxg : x ≠ gg := (hokx.g gg hg).2.1
        by_cases hzz : (decide ((t.node gg).left = some p)) = (decide ((t.node p).left = some x))
        · -- zig-zig: rotate(p), rotate(x)
          obtain ⟨hokp, _⟩ := rotOK_of_rep t hrev b h hnd p gg hpm hg
          obtain ⟨b1, s1⟩ := rotate_treeStep t hrev b h hnd p gg hpm hg
          have hap : Anc (t.rotate p) p l2 :=
            rotate_anc_self t p gg hokp hg l2 hl1 (fun c hc =>
              child_not_anc t gg c l2 hl2 |> fun _ => by
                have hcp := (rep_child t b _ h p hpm c hc).2
                have := anc_nodup t (p :: gg :: l2) c ⟨hcp, hl1⟩
                rw [List.nodup_cons] at this
                exact fun e => this.1 (List.mem_cons_of_mem _ (List.mem_cons_of_mem _ e)))
          have hxp1 : ((t.rotate p).node x).parent = some p := by
            rw [rot_parent_outer t p gg hokp hg x hxp hxg hzz
              (rep_left_ne_right t b _ h hnd p hpm x), hp]
          have hax1 : Anc (t.rotate p) x (p :: l2) := ⟨hxp1, hap⟩
          have hx1 : x ∈ b1.toList := by rw [s1.list]; exact hx
          have hnd1 : b1.toList.Nodup := by rw [s1.list]; exact hnd
          obtain ⟨hokx1, _⟩ := rotOK_of_rep _ s1.rev b1 s1.rep hnd1 x p hx1 hxp1
          obtain ⟨b2, s2⟩ := rotate_treeStep _ s1.rev b1 s1.rep hnd1 x p hx1 hxp1
          have hax2 : Anc ((t.rotate p).rotate x) x l2 :=
            rotate_anc_self _ x p hokx1 hxp1 l2 hax1 (fun c hc =>
              child_not_anc _ p c l2 hap |> fun _ => by
                have hcp := (rep_child _ b1 _ s1.rep x hx1 c hc).2
                have := anc_nodup _ (x :: p :: l2) c ⟨hcp, hax1⟩
                rw [List.nodup_cons] at this
                exact fun e => this.1 (List.mem_cons_of_mem _ (List.mem_cons_of_mem _ e)))
          obtain ⟨t3, b3, e1, e2, e3⟩ := ih k (by omega) _ b2 l2 s2.rev s2.rep
            (by rw [s2.list]; exact hnd1) (by rw [s2.list]; exact hx1) hax2
            (by simp at hlen ⊢; omega)
          refine ⟨t3, b3, ?_, treeStep_trans _ _ _ _ _ _ (treeStep_trans _ _ _ _ _ _ s1 s2) e2, e3⟩
          simp only [splayLoop, hp, hg, pushDown_id t _ hrev]
          rw [if_pos hzz]
          exact e1
        · -- zig-zag: rotate(x), rotate(x)
          obtain ⟨b1, s1⟩ := rotate_treeStep t hrev b h hnd x p hx hp
          have hax1 : Anc (t.rotate x) x (gg :: l2) :=
            rotate_anc_self t x p hokx hp _ hl (fun c hc =>
              child_not_anc t p c (gg :: l2) hl1 |> fun _ => by
                have hcp := hchx c hc
                have := anc_nodup t (x :: p :: gg :: l2) c ⟨hcp, hl⟩
                rw [List.nodup_cons] at this
                exact fun e => this.1 (List.mem_cons_of_mem _ (List.mem_cons_of_mem _ e)))
          have hxg1 : ((t.rotate x).node x).parent = some gg := hax1.1
          have hx1 : x ∈ b1.toList := by rw [s1.list]; exact hx
          have hnd1 : b1.toList.Nodup := by rw [s1.list]; exact hnd
          obtain ⟨hokx1, _⟩ := rotOK_of_rep _ s1.rev b1 s1.rep hnd1 x gg hx1 hxg1
          obtain ⟨b2, s2⟩ := rotate_treeStep _ s1.rev b1 s1.rep hnd1 x gg hx1 hxg1
          have hax2 : Anc ((t.rotate x).rotate x) x l2 :=
            rotate_anc_self _ x gg hokx1 hxg1 l2 hax1 (fun c hc =>
              child_not_anc _ gg c l2 hax1.2 |> fun _ => by
                have hcp := (rep_child _ b1 _ s1.rep x hx1 c hc).2
                have := anc_nodup _ (x :: gg :: l2) c ⟨hcp, hax1⟩
                rw [List.nodup_cons] at this
                exact fun e => this.1 (List.mem_cons_of_mem _ (List.mem_cons_of_mem _ e)))
          obtain ⟨t3, b3, e1, e2, e3⟩ := ih k (by omega) _ b2 l2 s2.rev s2.rep
            (by rw [s2.list]; exact hnd1) (by rw [s2.list]; exact hx1) hax2
            (by simp at hlen ⊢; omega)
          refine ⟨t3, b3, ?_, treeStep_trans _ _ _ _ _ _ (treeStep_trans _ _ _ _ _ _ s1 s2) e2, e3⟩
          simp only [splayLoop, hp, hg, pushDown_id t _ hrev]
          rw [if_neg hzz]
          exact e1

/-- The method `splay(x)` on a node of a tree held by the pool: it returns, the pool holds
afterwards a tree with the same sequence of nodes and the root `x`, and the nodes outside
the tree keep their pointers. -/
theorem splay_tree (t : SplayETT) (hrev : ∀ y, (t.node y).reversed = false) (b : BT)
    (h : Rep t b none) (hnd : b.toList.Nodup) (x : Nat) (hx : x ∈ b.toList) :
    ∃ t1 b1, t.splay x = some t1 ∧ TreeStep t t1 b b1 ∧ b1.root = some x := by
  obtain ⟨l, hl, hlm⟩ := rep_anc_mem t b h hnd x hx
  have hlen : l.length < t.pool.length + 1 := by
    have h1 := anc_nodup t l x hl
    have h2 := nodup_bounded_length t.pool.length (x :: l) h1 (fun w hw => by
      rcases List.mem_cons.mp hw with e | e
      · rw [e]; exact rep_lt t b _ h x hx
      · exact rep_lt t b _ h w (hlm w e))
    simp at h2
    omega
  obtain ⟨t1, b1, e1, e2, e3⟩ := splayLoop_tree x (t.pool.length + 1) t b l hrev h hnd hx hl hlen
  refine ⟨t1, b1, ?_, e2, e3⟩
  unfold SplayETT.splay
  rw [e1]
  simp only [pushDown_id t1 _ e2.rev]

/-! ### Split and merge on trees -/

theorem shell_of_treeStep (t s : SplayETT) (b b1 : BT) (h : TreeStep t s b b1) :
    Shell t s b.toList := ⟨h.rev, h.len, h.vn, h.ed, h.gc, h.frame⟩

theorem shell_refl (t : SplayETT) (hrev : ∀ y, (t.node y).reversed = false) (A : List Nat) :
    Shell t t A := ⟨hrev, rfl, rfl, rfl, rfl, fun y _ => ptrEq_refl t y⟩

theorem shell_mono (t s : SplayETT) (A B : List Nat) (h : Shell t s A) (hAB : ∀ y ∈ A, y ∈ B) :
    Shell t s B := ⟨h.rev, h.len, h.vn, h.ed, h.gc, fun y hy => h.frame y (fun e => hy (hAB y e))⟩

theorem shell_trans (t s u : SplayETT) (A : List Nat) (h1 : Shell t s A) (h2 : Shell s u A) :
    Shell t u A :=
  ⟨h2.rev, h2.len.trans h1.len, h2.vn.trans h1.vn, h2.ed.trans h1.ed, h2.gc.trans h1.gc,
    fun y hy => ptrEq_trans u s t y (h2.frame y hy) (h1.frame y hy)⟩

/-- A tree that an operation does not touch is held by the pool as before. -/
theorem rep_shell (t s : SplayETT) (A : List Nat) (h : Shell t s A) (c : BT) (par : Option Nat)
    (hc : Rep t c par) (hd : ∀ y ∈ c.toList, y ∉ A) : Rep s c par :=
  rep_frame t s h.len c par hc (fun y hy => h.frame y (hd y hy))

/-- The stores of `split` after the splay: the right child `r` of the root `x` is cut
off. -/
theorem detach_ptrs (t : SplayETT) (x r : Nat) (hr : r < t.pool.length) (hx : x < t.pool.length)
    (y : Nat) :
    (((t.setParent r none).setRight x none).node y).parent =
        (if y = r then none else (t.node y).parent) ∧
      (((t.setParent r none).setRight x none).node y).left = (t.node y).left ∧
      (((t.setParent r none).setRight x none).node y).right =
        (if y = x then none else (t.node y).right) := by
  refine ⟨?_, ?_, ?_⟩
  · rw [setRight_parent, setParent_parent]
    by_cases e : y = r
    · rw [if_pos ⟨e, hr⟩, if_pos e]
    · rw [if_neg (fun g => e g.1), if_neg e]
  · rw [setRight_left, setParent_left]
  · rw [setRight_right, setParent_length, setParent_right]
    by_cases e : y = x
    · rw [if_pos ⟨e, hx⟩, if_pos e]
    · rw [if_neg (fun g => e g.1), if_neg e]

theorem detach_shell (t : SplayETT) (hrev : ∀ y, (t.node y).reversed = false) (x r : Nat)
    (hr : r < t.pool.length) (hx : x < t.pool.length) (A : List Nat) (hxA : x ∈ A)
    (hrA : r ∈ A) : Shell t ((t.setParent r none).setRight x none) A := by
  refine ⟨fun y => by rw [setRight_rev, setParent_rev]; exact hrev y,
    by rw [setRight_length, setParent_length],
    by rw [(setRight_fields _ _ _).1, (setParent_fields _ _ _).1],
    by rw [(setRight_fields _ _ _).2.1, (setParent_fields _ _ _).2.1],
    by rw [(setRight_fields _ _ _).2.2, (setParent_fields _ _ _).2.2], fun y hy => ?_⟩
  obtain ⟨g1, g2, g3⟩ := detach_ptrs t x r hr hx y
  refine ⟨?_, g2, ?_⟩
  · rw [g1, if_neg (fun (e : y = r) => hy (e ▸ hrA))]
  · rw [g3, if_neg (fun (e : y = x) => hy (e ▸ hxA))]

/-- The method `split(x)` on a node of a tree held by the pool: it returns the root of
the part of the sequence after `x`, and the pool holds afterwards the part up to `x`, with
the root `x` and no right child, and the part after `x` as two trees. -/
theorem split_tree (t : SplayETT) (hrev : ∀ y, (t.node y).reversed = false) (b : BT)
    (h : Rep t b none) (hnd : b.toList.Nodup) (x : Nat) (hx : x ∈ b.toList) :
    ∃ t1 L R, t.split x = some (R.root, t1) ∧ Shell t t1 b.toList ∧
      Rep t1 (BT.node L x BT.leaf) none ∧ Rep t1 R none ∧
      L.toList ++ x :: R.toList = b.toList := by
  obtain ⟨t1, b1, e1, s1, e3⟩ := splay_tree t hrev b h hnd x hx
  cases b1 with
  | leaf => cases e3
  | node L x0 R =>
    simp only [BT.root, Option.some.injEq] at e3
    subst e3
    have hnd1 : (BT.node L x0 R).toList.Nodup := by rw [s1.list]; exact hnd
    obtain ⟨n1, n2, n3, n4, n5⟩ := nodup_node L R x0 hnd1
    obtain ⟨a1, a2, a3, a4, a5, a6⟩ := s1.rep
    unfold SplayETT.split
    rw [e1]
    simp only [pushDown_id t1 _ s1.rev]
    cases R with
    | leaf =>
      have a4n : (t1.node x0).right = none := a4
      refine ⟨t1, L, BT.leaf, ?_, shell_of_treeStep _ _ _ _ s1, s1.rep, trivial, s1.list⟩
      simp only [a4n]
      rfl
    | node R1 r R2 =>
      have a4s : (t1.node x0).right = some r := a4
      have hrR : r ∈ (BT.node R1 r R2).toList := (mem_node R1 R2 r r).mpr (Or.inr (Or.inl rfl))
      have hrl : r < t1.pool.length := a6.1
      have hxr : x0 ≠ r := fun e => n4 (e ▸ hrR)
      have hmemx : x0 ∈ b.toList := hx
      have hmemr : r ∈ b.toList := by
        rw [← s1.list]
        exact (mem_node L _ x0 r).mpr (Or.inr (Or.inr hrR))
      have hsh := detach_shell t1 s1.rev x0 r hrl a1 b.toList hmemx hmemr
      have hptr := detach_ptrs t1 x0 r hrl a1
      refine ⟨(t1.setParent r none).setRight x0 none, L, BT.node R1 r R2, ?_,
        shell_trans _ _ _ _ (shell_of_treeStep _ _ _ _ s1) hsh, ?_, ?_, s1.list⟩
      · simp only [a4s]
        rfl
      · refine ⟨by rw [hsh.len]; exact a1, ?_, ?_, ?_, ?_, trivial⟩
        · rw [(hptr x0).1, if_neg hxr]; exact a2
        · rw [(hptr x0).2.1]; exact a3
        · rw [(hptr x0).2.2, if_pos rfl]; rfl
        · refine rep_frame t1 _ hsh.len L _ a5 (fun y hy => ?_)
          have e1 : y ≠ r := fun e => n5 y hy (e ▸ hrR)
          have e2 : y ≠ x0 := fun e => n3 (e ▸ hy)
          obtain ⟨g1, g2, g3⟩ := hptr y
          exact ⟨by rw [g1, if_neg e1], g2, by rw [g3, if_neg e2]⟩
      · refine rep_newparent t1 _ hsh.len _ (some x0) none a6 n2 (fun w hw => ?_)
          (fun y hy hne => ?_)
        · simp only [BT.root, Option.some.injEq] at hw
          subst hw
          obtain ⟨g1, g2, g3⟩ := hptr r
          exact ⟨by rw [g1, if_pos rfl], g2, by rw [g3, if_neg (Ne.symm hxr)]⟩
        · have e1 : y ≠ r := fun e => hne (by rw [e]; rfl)
          have e2 : y ≠ x0 := fun e => n4 (e ▸ hy)
          obtain ⟨g1, g2, g3⟩ := hptr y
          exact ⟨by rw [g1, if_neg e1], g2, by rw [g3, if_neg e2]⟩

/-- The loop of `merge` walks from the root of a tree to the last node of its sequence. -/
theorem mergeSeek_tree (t : SplayETT) (hrev : ∀ y, (t.node y).reversed = false) :
    ∀ (c : BT) (par : Option Nat) (l f : Nat), Rep t c par → c.root = some l →
      c.toList.length < f →
      ∃ curr init, mergeSeek f t l = some (curr, t) ∧ c.toList = init ++ [curr] := by
  intro c
  induction c with
  | leaf => intro _ _ _ _ hr; cases hr
  | node A x B _ ihB =>
    intro par l f h hroot hf
    simp only [BT.root, Option.some.injEq] at hroot
    subst hroot
    obtain ⟨k, rfl⟩ : ∃ k, f = k + 1 := ⟨f - 1, by omega⟩
    obtain ⟨h1, h2, h3, h4, h5, h6⟩ := h
    cases B with
    | leaf =>
      have h4n : (t.node x).right = none := h4
      refine ⟨x, A.toList, ?_, rfl⟩
      simp only [mergeSeek, h4n]
    | node B1 r B2 =>
      have h4s : (t.node x).right = some r := h4
      obtain ⟨curr, init, g1, g2⟩ := ihB (some x) r k h6 rfl (by
        rw [toList_node, List.length_append, List.length_cons] at hf
        omega)
      refine ⟨curr, A.toList ++ x :: init, ?_, ?_⟩
      · simp only [mergeSeek, h4s, pushDown_id t _ hrev]
        exact g1
      · rw [toList_node, g2]
        simp

theorem last_unique (L R init : List Nat) (c : Nat) (hnd : (L ++ c :: R).Nodup)
    (h : L ++ c :: R = init ++ [c]) : R = [] ∧ L = init := by
  cases hR : R.reverse with
  | nil =>
    have hR0 : R = [] := by simpa using hR
    subst hR0
    refine ⟨rfl, ?_⟩
    have : L ++ [c] = init ++ [c] := h
    exact List.append_cancel_right this
  | cons a R1 =>
    exfalso
    have hRa : R = R1.reverse ++ [a] := by
      have := congrArg List.reverse hR
      simpa using this
    rw [hRa] at h hnd
    have h2 : (L ++ c :: R1.reverse) ++ [a] = init ++ [c] := by
      rw [← h]; simp
    have h3 := List.append_inj' h2 rfl
    have hac : a = c := by simpa using h3.2
    rw [hac] at hnd
    rw [List.nodup_append, List.nodup_cons] at hnd
    exact hnd.2.1.1 (by simp)

/-- The stores of `merge` after the splay: the root `r` of the right tree becomes the
right child of the root `c` of the left tree. -/
theorem attach_ptrs (t : SplayETT) (c r : Nat) (hc : c < t.pool.length) (hr : r < t.pool.length)
    (y : Nat) :
    (((t.setRight c (some r)).setParent r (some c)).node y).parent =
        (if y = r then some c else (t.node y).parent) ∧
      (((t.setRight c (some r)).setParent r (some c)).node y).left = (t.node y).left ∧
      (((t.setRight c (some r)).setParent r (some c)).node y).right =
        (if y = c then some r else (t.node y).right) := by
  refine ⟨?_, ?_, ?_⟩
  · rw [setParent_parent, setRight_length, setRight_parent]
    by_cases e : y = r
    · rw [if_pos ⟨e, hr⟩, if_pos e]
    · rw [if_neg (fun g => e g.1), if_neg e]
  · rw [setParent_left, setRight_left]
  · rw [setParent_right, setRight_right]
    by_cases e : y = c
    · rw [if_pos ⟨e, hc⟩, if_pos e]
    · rw [if_neg (fun g => e g.1), if_neg e]

theorem attach_shell (t : SplayETT) (hrev : ∀ y, (t.node y).reversed = false) (c r : Nat)
    (hc : c < t.pool.length) (hr : r < t.pool.length) (A : List Nat) (hcA : c ∈ A)
    (hrA : r ∈ A) : Shell t ((t.setRight c (some r)).setParent r (some c)) A := by
  refine ⟨fun y => by rw [setParent_rev, setRight_rev]; exact hrev y,
    by rw [setParent_length, setRight_length],
    by rw [(setParent_fields _ _ _).1, (setRight_fields _ _ _).1],
    by rw [(setParent_fields _ _ _).2.1, (setRight_fields _ _ _).2.1],
    by rw [(setParent_fields _ _ _).2.2, (setRight_fields _ _ _).2.2], fun y hy => ?_⟩
  obtain ⟨g1, g2, g3⟩ := attach_ptrs t c r hc hr y
  refine ⟨?_, g2, ?_⟩
  · rw [g1, if_neg (fun (e : y = r) => hy (e ▸ hrA))]
  · rw [g3, if_neg (fun (e : y = c) => hy (e ▸ hcA))]

/-- The method `merge(left, right)` on the roots of two trees held by the pool: it
returns the root of a tree that the pool holds afterwards, whose sequence is the
sequence of the left tree followed by the sequence of the right tree. -/
theorem merge_tree (t : SplayETT) (hrev : ∀ y, (t.node y).reversed = false) (bl br : BT)
    (hl : Rep t bl none) (hr : Rep t br none) (hnd : (bl.toList ++ br.toList).Nodup) :
    ∃ t1 b1, t.merge bl.root br.root = some (b1.root, t1) ∧
      Shell t t1 (bl.toList ++ br.toList) ∧ Rep t1 b1 none ∧
      b1.toList = bl.toList ++ br.toList := by
  cases bl with
  | leaf =>
    refine ⟨t, br, ?_, shell_refl t hrev _, hr, by simp [BT.toList]⟩
    simp only [SplayETT.merge, BT.root]
  | node A l B =>
    cases br with
    | leaf =>
      refine ⟨t, BT.node A l B, ?_, shell_refl t hrev _, hl, by simp [BT.toList]⟩
      simp only [SplayETT.merge, BT.root]
    | node C r D =>
      rw [List.nodup_append] at hnd
      obtain ⟨ndl, ndr, hdis⟩ := hnd
      have hlenl : (BT.node A l B).toList.length < t.pool.length + 1 := by
        have := nodup_bounded_length t.pool.length _ ndl (rep_lt t _ _ hl)
        omega
      obtain ⟨curr, init, g1, g2⟩ := mergeSeek_tree t hrev (BT.node A l B) none l
        (t.pool.length + 1) hl rfl hlenl
      have hcm : curr ∈ (BT.node A l B).toList := by rw [g2]; simp
      obtain ⟨t2, b2, e1, s1, e3⟩ := splay_tree t hrev (BT.node A l B) hl ndl curr hcm
      cases b2 with
      | leaf => cases e3
      | node L c0 R =>
        simp only [BT.root, Option.some.injEq] at e3
        subst e3
        have hnd2 : (BT.node L c0 R).toList.Nodup := by rw [s1.list]; exact ndl
        have hl2 : L.toList ++ c0 :: R.toList = init ++ [c0] := by
          rw [← g2, ← s1.list]; rfl
        obtain ⟨hR0, hLi⟩ := last_unique L.toList R.toList init c0 hnd2 hl2
        have hRleaf : R = BT.leaf := by
          cases R with
          | leaf => rfl
          | node R1 w R2 => simp [BT.toList] at hR0
        subst hRleaf
        obtain ⟨n1, n2, n3, n4, n5⟩ := nodup_node L BT.leaf c0 hnd2
        obtain ⟨a1, a2, a3, a4, a5, a6⟩ := s1.rep
        have hrm : r ∈ (BT.node C r D).toList := (mem_node C D r r).mpr (Or.inr (Or.inl rfl))
        have hcr : c0 ≠ r := fun e => hdis hcm (e ▸ hrm)
        have hbr2 : Rep t2 (BT.node C r D) none :=
          rep_frame t t2 s1.len _ _ hr (fun y hy => s1.frame y (fun e => hdis e hy))
        have hrl : r < t2.pool.length := hbr2.1
        have hcA : c0 ∈ (BT.node A l B).toList ++ (BT.node C r D).toList :=
          List.mem_append_left _ hcm
        have hrA : r ∈ (BT.node A l B).toList ++ (BT.node C r D).toList :=
          List.mem_append_right _ hrm
        have hsh := attach_shell t2 s1.rev c0 r a1 hrl _ hcA hrA
        have hptr := attach_ptrs t2 c0 r a1 hrl
        have hLsub : ∀ y ∈ L.toList, y ∈ (BT.node A l B).toList := fun y hy => by
          rw [← s1.list]
          exact (mem_node L BT.leaf c0 y).mpr (Or.inl hy)
        refine ⟨(t2.setRight c0 (some r)).setParent r (some c0), BT.node L c0 (BT.node C r D), ?_,
          shell_trans _ _ _ _
            (shell_mono _ _ _ _ (shell_of_treeStep _ _ _ _ s1) (fun y hy => List.mem_append_left _ hy))
            hsh, ?_, ?_⟩
        · simp only [SplayETT.merge, BT.root, g1, e1, pushDown_id t2 _ s1.rev]
          rfl
        · refine ⟨by rw [hsh.len]; exact a1, ?_, ?_, ?_, ?_, ?_⟩
          · rw [(hptr c0).1, if_neg hcr]; exact a2
          · rw [(hptr c0).2.1]; exact a3
          · rw [(hptr c0).2.2, if_pos rfl]; rfl
          · refine rep_frame t2 _ hsh.len L _ a5 (fun y hy => ?_)
            have e1 : y ≠ r := fun e => hdis (hLsub y hy) (e ▸ hrm)
            have e2 : y ≠ c0 := fun e => n3 (e ▸ hy)
            obtain ⟨q1, q2, q3⟩ := hptr y
            exact ⟨by rw [q1, if_neg e1], q2, by rw [q3, if_neg e2]⟩
          · refine rep_newparent t2 _ hsh.len _ none (some c0) hbr2 ndr (fun w hw => ?_)
              (fun y hy hne => ?_)
            · simp only [BT.root, Option.some.injEq] at hw
              subst hw
              obtain ⟨q1, q2, q3⟩ := hptr r
              exact ⟨by rw [q1, if_pos rfl], q2, by rw [q3, if_neg (Ne.symm hcr)]⟩
            · have e1 : y ≠ r := fun e => hne (by rw [e]; rfl)
              have e2 : y ≠ c0 := fun e => hdis hcm (e ▸ hy)
              obtain ⟨q1, q2, q3⟩ := hptr y
              exact ⟨by rw [q1, if_neg e1], q2, by rw [q3, if_neg e2]⟩
        · have : (BT.node A l B).toList = L.toList ++ [c0] := by
            rw [← s1.list]; rfl
          rw [this]
          simp [BT.toList]

/-! ### The order of a sequence -/

theorem bef_mem (S : List Nat) (a b : Nat) (h : Bef S a b) : a ∈ S ∧ b ∈ S :=
  ⟨h.subset (by simp), h.subset (by simp)⟩

theorem bef_of_split (X Y : List Nat) (a b : Nat) (hb : b ∈ Y) : Bef (X ++ a :: Y) a b := by
  unfold Bef
  refine List.Sublist.trans ?_ (List.sublist_append_right X (a :: Y))
  exact List.Sublist.cons₂ a (List.singleton_sublist.mpr hb)

theorem bef_split : ∀ (S : List Nat) (a b : Nat), Bef S a b →
    ∃ X Y, S = X ++ a :: Y ∧ b ∈ Y := by
  intro S
  induction S with
  | nil => intro a b h; cases h
  | cons x S ih =>
    intro a b h
    unfold Bef at h
    rcases List.sublist_cons_iff.mp h with h1 | ⟨r, hr, h1⟩
    · obtain ⟨X, Y, e, hb⟩ := ih a b h1
      exact ⟨x :: X, Y, by rw [e]; rfl, hb⟩
    · injection hr with e1 e2
      subst e1
      subst e2
      exact ⟨[], S, rfl, List.singleton_sublist.mp h1⟩

theorem bef_ne (S : List Nat) (hnd : S.Nodup) (a b : Nat) (h : Bef S a b) : a ≠ b := by
  intro e
  subst e
  have := List.Nodup.sublist h hnd
  simp at this

theorem bef_total : ∀ (S : List Nat) (a b : Nat), a ∈ S → b ∈ S → a ≠ b →
    Bef S a b ∨ Bef S b a := by
  intro S
  induction S with
  | nil => intro a b ha; cases ha
  | cons x S ih =>
    intro a b ha hb hab
    rcases List.mem_cons.mp ha with e1 | e1
    · rcases List.mem_cons.mp hb with e2 | e2
      · exact absurd (e1.trans e2.symm) hab
      · left
        rw [e1]
        exact bef_of_split [] S x b e2
    · rcases List.mem_cons.mp hb with e2 | e2
      · right
        rw [e2]
        exact bef_of_split [] S x a e1
      · rcases ih a b e1 e2 hab with g | g
        · exact Or.inl (List.Sublist.cons x g)
        · exact Or.inr (List.Sublist.cons x g)

theorem nodup_split_unique : ∀ (P Q P1 Q1 : List Nat) (a : Nat), (P ++ a :: Q).Nodup →
    P ++ a :: Q = P1 ++ a :: Q1 → P = P1 ∧ Q = Q1 := by
  intro P
  induction P with
  | nil =>
    intro Q P1 Q1 a hnd h
    cases P1 with
    | nil =>
      simp only [List.nil_append, List.cons.injEq, true_and] at h
      exact ⟨rfl, h⟩
    | cons x P2 =>
      exfalso
      simp only [List.nil_append, List.cons_append, List.cons.injEq] at h
      obtain ⟨e1, e2⟩ := h
      rw [List.nil_append, List.nodup_cons] at hnd
      apply hnd.1
      rw [e2]
      simp
  | cons y P ih =>
    intro Q P1 Q1 a hnd h
    cases P1 with
    | nil =>
      exfalso
      simp only [List.nil_append, List.cons_append, List.cons.injEq] at h
      obtain ⟨e1, e2⟩ := h
      rw [List.cons_append, List.nodup_cons] at hnd
      apply hnd.1
      rw [e1]
      simp
    | cons x P2 =>
      simp only [List.cons_append, List.cons.injEq] at h
      obtain ⟨e1, e2⟩ := h
      rw [List.cons_append, List.nodup_cons] at hnd
      obtain ⟨g1, g2⟩ := ih Q P2 Q1 a hnd.2 e2
      exact ⟨by rw [e1, g1], g2⟩

theorem bef_antisymm (S : List Nat) (hnd : S.Nodup) (a b : Nat) (h : Bef S a b)
    (h2 : Bef S b a) : False := by
  obtain ⟨X, Y, e, hb⟩ := bef_split S a b h
  obtain ⟨X1, Y1, e1, ha⟩ := bef_split S b a h2
  obtain ⟨Ya, Yb, ey⟩ := List.append_of_mem hb
  have e2 : S = (X ++ a :: Ya) ++ b :: Yb := by rw [e, ey]; simp
  rw [e2] at hnd e1
  obtain ⟨_, g2⟩ := nodup_split_unique _ _ X1 Y1 b hnd e1
  rw [← g2] at ha
  rw [List.append_assoc, List.nodup_append] at hnd
  have := hnd.2.1
  rw [List.cons_append, List.nodup_cons] at this
  exact this.1 (by simp [ha])

/-- The order of two nodes of a subsequence is their order in the sequence. -/
theorem bef_sub (S S1 : List Nat) (hs : List.Sublist S S1) (hnd : S1.Nodup) (a b : Nat)
    (ha : a ∈ S) (hb : b ∈ S) : Bef S a b ↔ Bef S1 a b := by
  constructor
  · intro h
    exact List.Sublist.trans h hs
  · intro h
    have hab := bef_ne S1 hnd a b h
    rcases bef_total S a b ha hb hab with g | g
    · exact g
    · exact absurd (List.Sublist.trans g hs) (fun g2 => bef_antisymm S1 hnd a b h g2)

/-- In a sequence without repetition, `c` lies between `a` and `b` exactly when it lies in
the part of the sequence between them. -/
theorem between_iff (X Y Z : List Nat) (a b c : Nat)
    (hnd : (X ++ a :: (Y ++ b :: Z)).Nodup) :
    (Bef (X ++ a :: (Y ++ b :: Z)) a c ∧ Bef (X ++ a :: (Y ++ b :: Z)) c b) ↔ c ∈ Y := by
  constructor
  · rintro ⟨h1, h2⟩
    obtain ⟨X1, Y1, e1, hc⟩ := bef_split _ a c h1
    obtain ⟨g1, g2⟩ := nodup_split_unique X _ X1 Y1 a hnd e1
    rw [← g2] at hc
    rcases List.mem_append.mp hc with hc | hc
    · exact hc
    · exfalso
      rcases List.mem_cons.mp hc with hc | hc
      · exact bef_ne _ hnd c b h2 hc
      · -- `c` lies after `b`
        have h3 : Bef (X ++ a :: (Y ++ b :: Z)) b c := by
          have : X ++ a :: (Y ++ b :: Z) = (X ++ a :: Y) ++ b :: Z := by simp
          rw [this]
          exact bef_of_split _ Z b c hc
        exact bef_antisymm _ hnd c b h2 h3
  · intro hc
    refine ⟨bef_of_split X _ a c (List.mem_append_left _ hc), ?_⟩
    obtain ⟨Y1, Y2, e⟩ := List.append_of_mem hc
    have : X ++ a :: (Y ++ b :: Z) = (X ++ a :: Y1) ++ c :: (Y2 ++ b :: Z) := by
      rw [e]; simp
    rw [this]
    exact bef_of_split _ _ c b (by simp)

/-! ### Forests of trees and the answers of connected -/

theorem getLastD_mem_cons : ∀ (l : List Nat) (d : Nat), l.getLastD d ∈ d :: l
  | [], d => by simp
  | x :: l, d => by
    rw [List.getLastD_cons]
    exact List.mem_cons_of_mem _ (getLastD_mem_cons l x)

/-- The method `getRoot` on a node of a tree held by the pool returns the root of the
tree. -/
theorem getRoot_tree (t : SplayETT) (b : BT) (h : Rep t b none) (hnd : b.toList.Nodup)
    (a : Nat) (ha : a ∈ b.toList) : ∃ r, b.root = some r ∧ t.getRoot a = some r := by
  obtain ⟨l, hl, hlm⟩ := rep_anc_mem t b h hnd a ha
  have hlen : l.length < t.pool.length + 1 := by
    have h1 := anc_nodup t l a hl
    have h2 := nodup_bounded_length t.pool.length (a :: l) h1 (fun w hw => by
      rcases List.mem_cons.mp hw with e | e
      · rw [e]; exact rep_lt t b _ h a ha
      · exact rep_lt t b _ h w (hlm w e))
    simp at h2
    omega
  have hg := getRootLoop_anc t l a (t.pool.length + 1) hl hlen
  have hlast : l.getLastD a ∈ b.toList := by
    rcases List.mem_cons.mp (getLastD_mem_cons l a) with e | e
    · rw [e]; exact ha
    · exact hlm _ e
  have hpar : (t.node (l.getLastD a)).parent = none := rootOf_root t a _ ⟨l, hl, rfl⟩
  refine ⟨l.getLastD a, ?_, hg⟩
  rcases rep_parent t b _ h hnd _ hlast with ⟨g, _⟩ | ⟨_, q, _, g1, _⟩
  · exact g
  · rw [hpar] at g1; cases g1

theorem sameT_unique (t : SplayETT) (F : BT → Prop) (hF : TreesOK t F) (b c : BT) (hb : F b)
    (hc : F c) (y : Nat) (hyb : y ∈ b.toList) (hyc : y ∈ c.toList) : b = c := by
  by_contra hne
  exact hF.disj b c hb hc hne y hyb hyc

/-- The method `connected(x, y)` answers whether the two vertex nodes are nodes of one
tree. -/
theorem connected_trees (t : SplayETT) (F : BT → Prop) (hF : TreesOK t F) (x y : Nat) :
    ∃ c, t.connected x y = some c ∧
      (c = true ↔ SameT F (nth t.vertexNodes x) (nth t.vertexNodes y)) := by
  obtain ⟨bx, hbx, hx⟩ := hF.vmem x
  obtain ⟨bY, hbY, hy⟩ := hF.vmem y
  obtain ⟨rx, e1, g1⟩ := getRoot_tree t bx (hF.reps bx hbx) (hF.nd bx hbx) _ hx
  obtain ⟨ry, e2, g2⟩ := getRoot_tree t bY (hF.reps bY hbY) (hF.nd bY hbY) _ hy
  refine ⟨decide (rx = ry), ?_, ?_⟩
  · unfold SplayETT.connected
    rw [g1, g2]
  · rw [decide_eq_true_eq]
    constructor
    · intro e
      have : bx = bY := sameT_unique t F hF bx bY hbx hbY rx (root_mem bx rx e1)
        (e ▸ root_mem bY ry e2)
      exact ⟨bx, hbx, hx, this ▸ hy⟩
    · rintro ⟨b, hb, h1, h2⟩
      have e3 : bx = b := sameT_unique t F hF bx b hbx hb _ hx h1
      have e4 : bY = b := sameT_unique t F hF bY b hbY hb _ hy h2
      rw [e3] at e1
      rw [e4] at e2
      exact Option.some.inj (e1.symm.trans e2)

/-! ### The split and the merges of link -/

theorem shell_sub (t s : SplayETT) (A B : List Nat) (h : Shell t s A)
    (hAB : ∀ y, y ∈ A → y ∈ B) : Shell t s B := shell_mono t s A B h hAB

/-- The splits and merges of `link(u, v)` after the two edge nodes are allocated: `a` is
the vertex node of `u` in the tree `Tu`, `Tv` is the tree of `v` with the root `rootV`,
`n1` and `n2` are the two edge nodes, each a tree of its own.  All calls return, and the
pool holds afterwards one tree: the sequence of `Tu` with `n1`, the sequence of `Tv` and
`n2` put in after `a`. -/
theorem link_core (t2 : SplayETT) (hrev : ∀ y, (t2.node y).reversed = false) (Tu Tv : BT)
    (a n1 n2 rootV : Nat) (hTu : Rep t2 Tu none) (hTv : Rep t2 Tv none)
    (h1 : Rep t2 (BT.node BT.leaf n1 BT.leaf) none)
    (h2 : Rep t2 (BT.node BT.leaf n2 BT.leaf) none)
    (hnd : (Tu.toList ++ (Tv.toList ++ [n1, n2])).Nodup) (ha : a ∈ Tu.toList)
    (hrv : Tv.root = some rootV) :
    ∃ rightU t3 r1 t4 r2 t5 r3 t6 r7 t7 N L R,
      t2.split a = some (rightU, t3) ∧ t3.merge (some a) (some n1) = some (r1, t4) ∧
      t4.merge r1 (some rootV) = some (r2, t5) ∧ t5.merge r2 (some n2) = some (r3, t6) ∧
      t6.merge r3 rightU = some (r7, t7) ∧
      Shell t2 t7 (Tu.toList ++ (Tv.toList ++ [n1, n2])) ∧ Rep t7 N none ∧
      L ++ a :: R = Tu.toList ∧ N.toList = L ++ a :: n1 :: (Tv.toList ++ n2 :: R) ∧
      t3.vertexNodes = t2.vertexNodes ∧ N.toList.Nodup := by
  have hndu : Tu.toList.Nodup := (List.nodup_append.mp hnd).1
  obtain ⟨t3, L, R, e3, s3, hL3, hR3, hLR⟩ := split_tree t2 hrev Tu hTu hndu a ha
  rw [← hLR] at hnd
  have hbasic : L.toList.Nodup ∧ R.toList.Nodup ∧ Tv.toList.Nodup ∧ a ∉ L.toList ∧
      a ∉ R.toList ∧ a ∉ Tv.toList ∧ a ≠ n1 ∧ a ≠ n2 ∧ n1 ≠ n2 ∧ n1 ∉ L.toList ∧
      n1 ∉ R.toList ∧ n1 ∉ Tv.toList ∧ n2 ∉ L.toList ∧ n2 ∉ R.toList ∧ n2 ∉ Tv.toList ∧
      (∀ y ∈ L.toList, y ∉ R.toList) ∧ (∀ y ∈ L.toList, y ∉ Tv.toList) ∧
      (∀ y ∈ R.toList, y ∉ Tv.toList) := by
    simp only [List.nodup_append, List.nodup_cons, List.mem_append, List.mem_cons,
      List.mem_singleton, List.not_mem_nil, List.nodup_nil, or_false, not_or,
      List.Disjoint] at hnd
    obtain ⟨⟨q1, ⟨q2, q3⟩, q4⟩, ⟨q5, ⟨q6, _⟩, q7⟩, q8⟩ := hnd
    have k1 : ∀ y, y ∈ L.toList → (y ∈ Tv.toList ∨ y = n1 ∨ y = n2) → False :=
      fun y hy => q8 (Or.inl hy)
    have k2 : ∀ y, (y = a ∨ y ∈ R.toList) → (y ∈ Tv.toList ∨ y = n1 ∨ y = n2) → False :=
      fun y hy => q8 (Or.inr hy)
    have k3 : ∀ y, y ∈ Tv.toList → (y = n1 ∨ y = n2) → False := fun y hy => q7 hy
    refine ⟨q1, q3, q5, fun e => q4 e (Or.inl rfl), q2,
      fun e => k2 a (Or.inl rfl) (Or.inl e), fun e => k2 a (Or.inl rfl) (Or.inr (Or.inl e)),
      fun e => k2 a (Or.inl rfl) (Or.inr (Or.inr e)), q6,
      fun e => k1 n1 e (Or.inr (Or.inl rfl)), fun e => k2 n1 (Or.inr e) (Or.inr (Or.inl rfl)),
      fun e => k3 n1 e (Or.inl rfl), fun e => k1 n2 e (Or.inr (Or.inr rfl)),
      fun e => k2 n2 (Or.inr e) (Or.inr (Or.inr rfl)), fun e => k3 n2 e (Or.inr rfl),
      fun y hy e => q4 hy (Or.inr e), fun y hy e => k1 y hy (Or.inl e),
      fun y hy e => k2 y (Or.inr hy) (Or.inl e)⟩
  obtain ⟨b1, b2, b3, b4, b5, b6, b7, b8, b9, b10, b11, b12, b13, b14, b15, b16, b17, b18⟩ :=
    hbasic
  -- the set of nodes that the calls may touch
  have inA_L : ∀ y ∈ L.toList, y ∈ L.toList ++ a :: R.toList ++ (Tv.toList ++ [n1, n2]) :=
    fun y hy => by simp [hy]
  have inA_R : ∀ y ∈ R.toList, y ∈ L.toList ++ a :: R.toList ++ (Tv.toList ++ [n1, n2]) :=
    fun y hy => by simp [hy]
  have inA_V : ∀ y ∈ Tv.toList, y ∈ L.toList ++ a :: R.toList ++ (Tv.toList ++ [n1, n2]) :=
    fun y hy => by simp [hy]
  have inA_a : a ∈ L.toList ++ a :: R.toList ++ (Tv.toList ++ [n1, n2]) := by simp
  have inA_1 : n1 ∈ L.toList ++ a :: R.toList ++ (Tv.toList ++ [n1, n2]) := by simp
  have inA_2 : n2 ∈ L.toList ++ a :: R.toList ++ (Tv.toList ++ [n1, n2]) := by simp
  have s3A : Shell t2 t3 (L.toList ++ a :: R.toList ++ (Tv.toList ++ [n1, n2])) :=
    shell_sub _ _ _ _ s3 (fun y hy => by rw [← hLR] at hy; exact List.mem_append_left _ hy)
  -- first merge: the part up to `a` with `n1`
  have h13 : Rep t3 (BT.node BT.leaf n1 BT.leaf) none :=
    rep_shell t2 t3 _ s3 _ _ h1 (fun y hy => by
      rw [← hLR]
      simp only [BT.toList, List.nil_append, List.mem_singleton] at hy
      subst hy
      simp only [List.mem_append, List.mem_cons, not_or]
      exact ⟨b10, Ne.symm b7, b11⟩)
  obtain ⟨t4, N4, e4, s4, hN4, l4⟩ := merge_tree t3 s3.rev (BT.node L a BT.leaf)
    (BT.node BT.leaf n1 BT.leaf) hL3 h13 (by
      simp only [BT.toList, List.nil_append, List.append_nil, List.nodup_append,
        List.nodup_cons, List.not_mem_nil, not_false_eq_true, List.nodup_nil, and_true,
        List.Disjoint, List.mem_append, List.mem_singleton, true_and]
      refine ⟨⟨b1, ?_⟩, ?_⟩
      · intro y hy e; exact b4 (e ▸ hy)
      · rintro y (hy | hy) e
        · exact b10 (e ▸ hy)
        · exact b7 (hy ▸ e ▸ rfl))
  have l4' : N4.toList = L.toList ++ [a, n1] := by
    rw [l4]; simp [BT.toList]
  have s4A : Shell t3 t4 (L.toList ++ a :: R.toList ++ (Tv.toList ++ [n1, n2])) :=
    shell_sub _ _ _ _ s4 (fun y hy => by
      simp only [BT.toList, List.nil_append, List.append_nil, List.mem_append,
        List.mem_singleton, List.mem_cons, List.not_mem_nil, or_false] at hy
      rcases hy with (hy | hy) | hy
      · exact inA_L y hy
      · rw [hy]; exact inA_a
      · rw [hy]; exact inA_1)
  -- second merge: with the tree of `v`
  have hTv4 : Rep t4 Tv none := by
    have q3 : Rep t3 Tv none := rep_shell t2 t3 _ s3 _ _ hTv (fun y hy => by
      rw [← hLR]
      simp only [List.mem_append, List.mem_cons, not_or]
      exact ⟨fun e => b17 y e hy, fun e => b6 (e ▸ hy), fun e => b18 y e hy⟩)
    refine rep_shell t3 t4 _ s4 _ _ q3 (fun y hy => ?_)
    simp only [BT.toList, List.nil_append, List.append_nil, List.mem_append,
      List.mem_singleton, List.mem_cons, List.not_mem_nil, or_false, not_or]
    exact ⟨⟨fun e => b17 y e hy, fun e => b6 (e ▸ hy)⟩, fun e => b12 (e ▸ hy)⟩
  obtain ⟨t5, N5, e5, s5, hN5, l5⟩ := merge_tree t4 s4.rev N4 Tv hN4 hTv4 (by
    rw [l4']
    simp only [List.nodup_append, List.nodup_cons, List.mem_cons, List.mem_singleton,
      List.not_mem_nil, not_false_eq_true, List.nodup_nil, and_true, List.Disjoint,
      List.mem_append, or_false]
    refine ⟨⟨b1, b7, ?_⟩, b3, ?_⟩
    · rintro y hy (e | e)
      · exact b4 (e ▸ hy)
      · exact b10 (e ▸ hy)
    · rintro y (hy | hy | hy) e
      · exact b17 y hy e
      · exact b6 (hy ▸ e)
      · exact b12 (hy ▸ e))
  have l5' : N5.toList = L.toList ++ a :: n1 :: Tv.toList := by
    rw [l5, l4']; simp
  have s5A : Shell t4 t5 (L.toList ++ a :: R.toList ++ (Tv.toList ++ [n1, n2])) :=
    shell_sub _ _ _ _ s5 (fun y hy => by
      rw [l4'] at hy
      simp only [List.mem_append, List.mem_cons, List.mem_singleton, List.not_mem_nil,
        or_false] at hy
      rcases hy with (hy | hy | hy) | hy
      · exact inA_L y hy
      · rw [hy]; exact inA_a
      · rw [hy]; exact inA_1
      · exact inA_V y hy)
  -- third merge: with `n2`
  have h25 : Rep t5 (BT.node BT.leaf n2 BT.leaf) none := by
    have hn2 : ∀ y ∈ (BT.node BT.leaf n2 BT.leaf).toList, y = n2 := fun y hy => by
      simpa [BT.toList] using hy
    have q3 : Rep t3 (BT.node BT.leaf n2 BT.leaf) none :=
      rep_shell t2 t3 _ s3 _ _ h2 (fun y hy => by
        rw [hn2 y hy, ← hLR]
        simp only [List.mem_append, List.mem_cons, not_or]
        exact ⟨b13, Ne.symm b8, b14⟩)
    have q4 : Rep t4 (BT.node BT.leaf n2 BT.leaf) none :=
      rep_shell t3 t4 _ s4 _ _ q3 (fun y hy => by
        rw [hn2 y hy]
        simp only [BT.toList, List.nil_append, List.append_nil, List.mem_append,
          List.mem_singleton, List.mem_cons, List.not_mem_nil, or_false, not_or]
        exact ⟨⟨b13, Ne.symm b8⟩, Ne.symm b9⟩)
    refine rep_shell t4 t5 _ s5 _ _ q4 (fun y hy => ?_)
    rw [hn2 y hy, l4']
    simp only [List.mem_append, List.mem_cons, List.mem_singleton, List.not_mem_nil,
      or_false, not_or]
    exact ⟨⟨b13, Ne.symm b8, Ne.symm b9⟩, b15⟩
  obtain ⟨t6, N6, e6, s6, hN6, l6⟩ := merge_tree t5 s5.rev N5 (BT.node BT.leaf n2 BT.leaf)
    hN5 h25 (by
      rw [l5']
      simp only [BT.toList, List.nil_append, List.nodup_append, List.nodup_cons,
        List.mem_cons, List.mem_singleton, List.not_mem_nil, not_false_eq_true,
        List.nodup_nil, and_true, List.Disjoint, List.mem_append, or_false, not_or,
        true_and]
      refine ⟨⟨b1, ⟨⟨b7, b6⟩, b12, b3⟩, ?_⟩, ?_⟩
      · rintro y hy (e | e | e)
        · exact b4 (e ▸ hy)
        · exact b10 (e ▸ hy)
        · exact b17 y hy e
      · rintro y (hy | hy | hy | hy) e
        · exact b13 (e ▸ hy)
        · exact b8 (hy ▸ e)
        · exact b9 (hy ▸ e)
        · exact b15 (e ▸ hy))
  have l6' : N6.toList = L.toList ++ a :: n1 :: (Tv.toList ++ [n2]) := by
    rw [l6, l5']; simp [BT.toList]
  have s6A : Shell t5 t6 (L.toList ++ a :: R.toList ++ (Tv.toList ++ [n1, n2])) :=
    shell_sub _ _ _ _ s6 (fun y hy => by
      rw [l5'] at hy
      simp only [BT.toList, List.nil_append, List.mem_append, List.mem_cons,
        List.mem_singleton, List.not_mem_nil, or_false] at hy
      rcases hy with (hy | hy | hy | hy) | hy
      · exact inA_L y hy
      · rw [hy]; exact inA_a
      · rw [hy]; exact inA_1
      · exact inA_V y hy
      · rw [hy]; exact inA_2)
  -- fourth merge: with the part after `a`
  have hR6 : Rep t6 R none := by
    have q4 : Rep t4 R none := rep_shell t3 t4 _ s4 _ _ hR3 (fun y hy => by
      simp only [BT.toList, List.nil_append, List.append_nil, List.mem_append,
        List.mem_singleton, List.mem_cons, List.not_mem_nil, or_false, not_or]
      exact ⟨⟨fun e => b16 y e hy, fun e => b5 (e ▸ hy)⟩, fun e => b11 (e ▸ hy)⟩)
    have q5 : Rep t5 R none := rep_shell t4 t5 _ s5 _ _ q4 (fun y hy => by
      rw [l4']
      simp only [List.mem_append, List.mem_cons, List.mem_singleton, List.not_mem_nil,
        or_false, not_or]
      exact ⟨⟨fun e => b16 y e hy, fun e => b5 (e ▸ hy), fun e => b11 (e ▸ hy)⟩,
        b18 y hy⟩)
    refine rep_shell t5 t6 _ s6 _ _ q5 (fun y hy => ?_)
    rw [l5']
    simp only [BT.toList, List.nil_append, List.mem_append, List.mem_cons,
      List.mem_singleton, List.not_mem_nil, or_false, not_or]
    exact ⟨⟨fun e => b16 y e hy, fun e => b5 (e ▸ hy), fun e => b11 (e ▸ hy), b18 y hy⟩,
      fun e => b14 (e ▸ hy)⟩
  have hnd7 : (N6.toList ++ R.toList).Nodup := by
    rw [l6']
    simp only [List.nodup_append, List.nodup_cons, List.mem_cons, List.mem_singleton,
      List.not_mem_nil, not_false_eq_true, List.nodup_nil, and_true, List.Disjoint,
      List.mem_append, or_false, not_or, true_and]
    refine ⟨⟨b1, ⟨⟨b7, b6, b8⟩, ⟨b12, b9⟩, b3, ?_⟩, ?_⟩, b2, ?_⟩
    · intro y hy e; exact b15 (e ▸ hy)
    · rintro y hy (e | e | e | e)
      · exact b4 (e ▸ hy)
      · exact b10 (e ▸ hy)
      · exact b17 y hy e
      · exact b13 (e ▸ hy)
    · rintro y (hy | hy | hy | hy | hy) e
      · exact b16 y hy e
      · exact b5 (hy ▸ e)
      · exact b11 (hy ▸ e)
      · exact b18 y e hy
      · exact b14 (hy ▸ e)
  obtain ⟨t7, N7, e7, s7, hN7, l7⟩ := merge_tree t6 s6.rev N6 R hN6 hR6 hnd7
  have s7A : Shell t6 t7 (L.toList ++ a :: R.toList ++ (Tv.toList ++ [n1, n2])) :=
    shell_sub _ _ _ _ s7 (fun y hy => by
      rw [l6'] at hy
      simp only [List.mem_append, List.mem_cons, List.mem_singleton, List.not_mem_nil,
        or_false] at hy
      rcases hy with (hy | hy | hy | hy | hy) | hy
      · exact inA_L y hy
      · rw [hy]; exact inA_a
      · rw [hy]; exact inA_1
      · exact inA_V y hy
      · rw [hy]; exact inA_2
      · exact inA_R y hy)
  refine ⟨R.root, t3, N4.root, t4, N5.root, t5, N6.root, t6, N7.root, t7, N7, L.toList,
    R.toList, e3, e4, ?_, e6, e7, ?_, hN7, hLR, ?_, s3.vn, l7 ▸ hnd7⟩
  · rw [← hrv]; exact e5
  · rw [← hLR]
    have := shell_trans _ _ _ _ (shell_trans _ _ _ _ (shell_trans _ _ _ _
      (shell_trans _ _ _ _ s3A s4A) s5A) s6A) s7A
    simpa using this
  · rw [l7, l6']; simp

/-! ### New nodes and the guards of link and cut -/

theorem rep_grow (t s : SplayETT) (hlen : t.pool.length ≤ s.pool.length) :
    ∀ (b : BT) (par : Option Nat), Rep t b par → (∀ y ∈ b.toList, PtrEq s t y) →
      Rep s b par := by
  intro b
  induction b with
  | leaf => intro _ _ _; trivial
  | node l x r ihl ihr =>
    intro par h hf
    obtain ⟨h1, h2, h3, h4, h5, h6⟩ := h
    have hx := hf x ((mem_node l r x x).mpr (Or.inr (Or.inl rfl)))
    refine ⟨by omega, hx.1.trans h2, hx.2.1.trans h3, hx.2.2.trans h4, ?_, ?_⟩
    · exact ihl (some x) h5 (fun y hy => hf y ((mem_node l r x y).mpr (Or.inl hy)))
    · exact ihr (some x) h6 (fun y hy => hf y ((mem_node l r x y).mpr (Or.inr (Or.inr hy))))

/-- The two `allocNode` calls of `link`: the pool grows by two nodes without pointers,
everything else is unchanged. -/
theorem alloc_two (t : SplayETT) (key : Nat) :
    ((t.allocNode (-1) key).2.allocNode (-1) key).2.pool.length = t.pool.length + 2 ∧
    ((t.allocNode (-1) key).2.allocNode (-1) key).2.vertexNodes = t.vertexNodes ∧
    ((t.allocNode (-1) key).2.allocNode (-1) key).2.edges = t.edges ∧
    (t.allocNode (-1) key).1 = t.pool.length ∧
    ((t.allocNode (-1) key).2.allocNode (-1) key).1 = t.pool.length + 1 ∧
    (∀ y, PtrEq ((t.allocNode (-1) key).2.allocNode (-1) key).2 t y) ∧
    (∀ y, (((t.allocNode (-1) key).2.allocNode (-1) key).2.node y).reversed =
      (t.node y).reversed) := by
  obtain ⟨a1, a2, a3, a4⟩ := alloc_length t (-1) key
  obtain ⟨c1, c2, c3, c4⟩ := alloc_length (t.allocNode (-1) key).2 (-1) key
  refine ⟨by omega, c3.trans a3, c4.trans a4, a1, by omega, fun y => ?_, fun y => ?_⟩
  · obtain ⟨p1, p2, p3, _⟩ := alloc_ptrs t (-1) key y
    obtain ⟨q1, q2, q3, _⟩ := alloc_ptrs (t.allocNode (-1) key).2 (-1) key y
    exact ⟨q1.trans p1, q2.trans p2, q3.trans p3⟩
  · exact (alloc_ptrs (t.allocNode (-1) key).2 (-1) key y).2.2.2.trans
      (alloc_ptrs t (-1) key y).2.2.2

theorem rep_fresh (t : SplayETT) (x : Nat) (hx : x < t.pool.length)
    (hp : (t.node x).parent = none) (hl : (t.node x).left = none)
    (hr : (t.node x).right = none) : Rep t (BT.node BT.leaf x BT.leaf) none :=
  ⟨hx, hp, hl, hr, trivial, trivial⟩

/-- The body of `link(u, v)` once the guards are passed. -/
theorem link_run (t : SplayETT) (u v : Nat) (hne : u ≠ v)
    (hany : t.edges.any (fun e => e.1 = makeEdgeKey u v) = false)
    (hc : t.connected u v = some false) (t3 t4 t5 t6 t7 : SplayETT) (rootV : Nat)
    (rightU r1 r2 r3 r7 : Option Nat)
    (hroot : ((t.allocNode (-1) (makeEdgeKey u v)).2.allocNode (-1) (makeEdgeKey u v)).2.getRoot
      (nth t.vertexNodes v) = some rootV)
    (e3 : ((t.allocNode (-1) (makeEdgeKey u v)).2.allocNode (-1) (makeEdgeKey u v)).2.split
      (nth t.vertexNodes u) = some (rightU, t3))
    (hv3 : t3.vertexNodes = t.vertexNodes)
    (e4 : t3.merge (some (nth t.vertexNodes u)) (some t.pool.length) = some (r1, t4))
    (e5 : t4.merge r1 (some rootV) = some (r2, t5))
    (e6 : t5.merge r2 (some (t.pool.length + 1)) = some (r3, t6))
    (e7 : t6.merge r3 rightU = some (r7, t7)) :
    t.link u v = some (true, { t7 with edges := t7.edges ++
      [(makeEdgeKey u v, ETTEdge.mk t.pool.length (t.pool.length + 1) u v)] }) := by
  obtain ⟨_, a2, _, a4, a5, _, _⟩ := alloc_two t (makeEdgeKey u v)
  unfold SplayETT.link
  rw [if_neg hne]
  simp only [hany, Bool.false_eq_true, if_false, hc, a2, hroot, e3, hv3, a4, e4, e5, a5, e6, e7]

theorem link_unchanged (t : SplayETT) (u v : Nat) (t1 : SplayETT)
    (h : t.link u v = some (false, t1)) : t1 = t := by
  unfold SplayETT.link at h
  by_cases h1 : u = v
  · rw [if_pos h1] at h
    simp only [Option.some.injEq, Prod.mk.injEq, true_and] at h; exact h.symm
  · rw [if_neg h1] at h
    dsimp only at h
    by_cases h2 : (t.edges.any fun e => decide (e.1 = makeEdgeKey u v)) = true
    · rw [if_pos h2] at h
      simp only [Option.some.injEq, Prod.mk.injEq, true_and] at h; exact h.symm
    · rw [if_neg h2] at h
      split at h
      · cases h
      · simp only [Option.some.injEq, Prod.mk.injEq, true_and] at h; exact h.symm
      · repeat (first | (split at h) | (cases h))

theorem cut_unchanged (t : SplayETT) (u v : Nat) (t1 : SplayETT)
    (h : t.cut u v = some (false, t1)) : t1 = t := by
  unfold SplayETT.cut at h
  by_cases h1 : u = v
  · rw [if_pos h1] at h
    simp only [Option.some.injEq, Prod.mk.injEq, true_and] at h; exact h.symm
  · rw [if_neg h1] at h
    dsimp only at h
    split at h
    · simp only [Option.some.injEq, Prod.mk.injEq, true_and] at h; exact h.symm
    · repeat (first | (split at h) | (cases h))

/-! ### Link on a forest of trees -/

theorem rep_edges (t : SplayETT) (ed : List (Nat × ETTEdge)) (b : BT) (par : Option Nat)
    (h : Rep t b par) : Rep { t with edges := ed } b par :=
  rep_frame t { t with edges := ed } rfl b par h (fun _ _ => ⟨rfl, rfl, rfl⟩)

/-- The call `link(u, v)` on a forest of trees: it returns; either it leaves the forest as
it is, or the trees `Tu` of `u` and `Tv` of `v` are two, and they become one tree `N`
whose sequence is that of `Tu` with the first edge node, the sequence of `Tv` and the
second edge node put in after the vertex node of `u`. -/
theorem link_trees (t : SplayETT) (F : BT → Prop) (hF : TreesOK t F) (u v : Nat) :
    t.link u v = some (false, t) ∨
    ∃ t1 Tu Tv N L R, t.link u v = some (true, t1) ∧ F Tu ∧ F Tv ∧ Tu ≠ Tv ∧
      L ++ nth t.vertexNodes u :: R = Tu.toList ∧
      N.toList = L ++ nth t.vertexNodes u :: t.pool.length ::
        (Tv.toList ++ (t.pool.length + 1) :: R) ∧
      TreesOK t1 (fun b => b = N ∨ (F b ∧ b ≠ Tu ∧ b ≠ Tv)) ∧
      t1.edges = t.edges ++
        [(makeEdgeKey u v, ETTEdge.mk t.pool.length (t.pool.length + 1) u v)] ∧
      t1.vertexNodes = t.vertexNodes ∧ (∀ e ∈ t.edges, e.1 ≠ makeEdgeKey u v) := by
  by_cases hne : u = v
  · left
    unfold SplayETT.link
    rw [if_pos hne]
  by_cases hany : (t.edges.any fun e => decide (e.1 = makeEdgeKey u v)) = true
  · left
    unfold SplayETT.link
    rw [if_neg hne]
    simp only [hany, if_true]
  have hany2 : (t.edges.any fun e => decide (e.1 = makeEdgeKey u v)) = false :=
    Bool.eq_false_iff.mpr hany
  obtain ⟨c, hc, hcs⟩ := connected_trees t F hF u v
  cases c with
  | true =>
    left
    unfold SplayETT.link
    rw [if_neg hne]
    simp only [hany2, Bool.false_eq_true, if_false, hc]
  | false =>
  right
  have hnot : ¬ SameT F (nth t.vertexNodes u) (nth t.vertexNodes v) := fun h => by
    have := hcs.mpr h
    cases this
  obtain ⟨Tu, fTu, hu⟩ := hF.vmem u
  obtain ⟨Tv, fTv, hv⟩ := hF.vmem v
  have hTne : Tu ≠ Tv := fun e => hnot ⟨Tu, fTu, hu, e ▸ hv⟩
  obtain ⟨a1, a2, a3, a4, a5, a6, a7⟩ := alloc_two t (makeEdgeKey u v)
  generalize ht2 : ((t.allocNode (-1) (makeEdgeKey u v)).2.allocNode (-1) (makeEdgeKey u v)).2
    = t2 at a1 a2 a3 a6 a7
  have hrev2 : ∀ y, (t2.node y).reversed = false := fun y => (a7 y).trans (hF.rev y)
  have grow : ∀ b, F b → Rep t2 b none := fun b hb =>
    rep_grow t t2 (by omega) b none (hF.reps b hb) (fun y _ => a6 y)
  have hlt : ∀ b, F b → ∀ y ∈ b.toList, y < t.pool.length := fun b hb =>
    rep_lt t b none (hF.reps b hb)
  have hd : (default : ETTNode).parent = none ∧ (default : ETTNode).left = none ∧
      (default : ETTNode).right = none := ⟨rfl, rfl, rfl⟩
  have fresh : ∀ x, t.pool.length ≤ x → x < t.pool.length + 2 →
      Rep t2 (BT.node BT.leaf x BT.leaf) none := fun x h1 h2 => by
    obtain ⟨p1, p2, p3⟩ := a6 x
    rw [node_default t x h1] at p1 p2 p3
    exact rep_fresh t2 x (by omega) (p1.trans hd.1) (p2.trans hd.2.1) (p3.trans hd.2.2)
  have hnd : (Tu.toList ++ (Tv.toList ++ [t.pool.length, t.pool.length + 1])).Nodup := by
    rw [List.nodup_append]
    refine ⟨hF.nd Tu fTu, ?_, ?_⟩
    · rw [List.nodup_append]
      refine ⟨hF.nd Tv fTv, by simp, ?_⟩
      intro y hy hy2
      have := hlt Tv fTv y hy
      simp only [List.mem_cons, List.mem_singleton, List.not_mem_nil, or_false] at hy2
      omega
    · intro y hy hy2
      have := hlt Tu fTu y hy
      simp only [List.mem_append, List.mem_cons, List.mem_singleton, List.not_mem_nil,
        or_false] at hy2
      rcases hy2 with hy2 | hy2
      · exact hF.disj Tu Tv fTu fTv hTne y hy hy2
      · omega
  obtain ⟨rootV, hrv, hgr⟩ := getRoot_tree t2 Tv (grow Tv fTv) (hF.nd Tv fTv) _ hv
  obtain ⟨rightU, t3, r1, t4, r2, t5, r3, t6, r7, t7, N, L, R, e3, e4, e5, e6, e7, sh, hN,
    hLR, hNl, hv3, hNnd⟩ := link_core t2 hrev2 Tu Tv (nth t.vertexNodes u) t.pool.length
      (t.pool.length + 1) rootV (grow Tu fTu) (grow Tv fTv)
      (fresh _ (le_refl _) (by omega)) (fresh _ (by omega) (by omega)) hnd hu hrv
  have hlink := link_run t u v hne hany2 hc t3 t4 t5 t6 t7 rootV rightU r1 r2 r3 r7
    (by rw [ht2]; exact hgr) (by rw [ht2]; exact e3) (hv3.trans a2) e4 e5 e6 e7
  have hmemN : ∀ y, y ∈ N.toList ↔ (y ∈ Tu.toList ∨ y ∈ Tv.toList ∨ y = t.pool.length ∨
      y = t.pool.length + 1) := fun y => by
    rw [hNl, ← hLR]
    simp only [List.mem_append, List.mem_cons]
    tauto
  refine ⟨_, Tu, Tv, N, L, R, hlink, fTu, fTv, hTne, hLR, hNl, ?_, ?_, ?_, ?_⟩
  · refine ⟨fun y => sh.rev y, ?_, ?_, ?_, ?_⟩
    · rintro b (hb | ⟨hb, n1, n2⟩)
      · rw [hb]; exact rep_edges t7 _ N none hN
      · refine rep_edges t7 _ b none (rep_shell t2 t7 _ sh b none (grow b hb) ?_)
        intro y hy hy2
        have := hlt b hb y hy
        simp only [List.mem_append, List.mem_cons, List.mem_singleton, List.not_mem_nil,
          or_false] at hy2
        rcases hy2 with hy2 | hy2 | hy2 | hy2
        · exact hF.disj b Tu hb fTu n1 y hy hy2
        · exact hF.disj b Tv hb fTv n2 y hy hy2
        · omega
        · omega
    · rintro b (hb | ⟨hb, _, _⟩)
      · rw [hb]; exact hNnd
      · exact hF.nd b hb
    · have key : ∀ c, F c → c ≠ Tu → c ≠ Tv → ∀ y ∈ N.toList, y ∉ c.toList := by
        intro c hc n1 n2 y hy hy2
        have := hlt c hc y hy2
        rcases (hmemN y).mp hy with h | h | h | h
        · exact hF.disj c Tu hc fTu n1 y hy2 h
        · exact hF.disj c Tv hc fTv n2 y hy2 h
        · omega
        · omega
      rintro b c (hb | ⟨hb, n1, n2⟩) (hc | ⟨hc, m1, m2⟩) hbc y hy
      · exact absurd (hb.trans hc.symm) hbc
      · rw [hb] at hy; exact key c hc m1 m2 y hy
      · rw [hc]; exact fun h => key b hb n1 n2 y h hy
      · exact hF.disj b c hb hc hbc y hy
    · intro w
      obtain ⟨b, hb, hw⟩ := hF.vmem w
      have hvn : (({ t7 with edges := t7.edges ++ [(makeEdgeKey u v,
          ETTEdge.mk t.pool.length (t.pool.length + 1) u v)] } : SplayETT)).vertexNodes
          = t.vertexNodes := sh.vn.trans a2
      rw [hvn]
      by_cases h1 : b = Tu
      · exact ⟨N, Or.inl rfl, (hmemN _).mpr (Or.inl (h1 ▸ hw))⟩
      by_cases h2 : b = Tv
      · exact ⟨N, Or.inl rfl, (hmemN _).mpr (Or.inr (Or.inl (h2 ▸ hw)))⟩
      exact ⟨b, Or.inr ⟨hb, h1, h2⟩, hw⟩
  · show t7.edges ++ _ = _
    rw [sh.ed, a3]
  · exact sh.vn.trans a2
  · intro e he hk
    have : (t.edges.any fun e => decide (e.1 = makeEdgeKey u v)) = true :=
      List.any_eq_true.mpr ⟨e, he, by simpa using hk⟩
    exact hany this

/-! ### The order after link -/

theorem bef_app (A B : List Nat) (x y : Nat) (hx : x ∈ A) (hy : y ∈ B) : Bef (A ++ B) x y := by
  unfold Bef
  have h1 : List.Sublist [x] A := List.singleton_sublist.mpr hx
  have h2 : List.Sublist [y] B := List.singleton_sublist.mpr hy
  exact List.Sublist.append h1 h2

/-- In a forest of trees the order of two nodes is the order in the tree that holds one of
them. -/
theorem fbef_in (t : SplayETT) (F : BT → Prop) (hT : TreesOK t F) (b : BT) (hb : F b)
    (x y : Nat) (h : x ∈ b.toList ∨ y ∈ b.toList) : FBef F x y ↔ Bef b.toList x y := by
  constructor
  · rintro ⟨c, hc, hxy⟩
    obtain ⟨m1, m2⟩ := bef_mem _ x y hxy
    have : c = b := by
      rcases h with h | h
      · exact sameT_unique t F hT c b hc hb x m1 h
      · exact sameT_unique t F hT c b hc hb y m2 h
    rw [← this]; exact hxy
  · intro hxy
    exact ⟨b, hb, hxy⟩

theorem sp_mem (F : BT → Prop) (Tu Tv N : BT) (L R : List Nat) (a n1 n2 : Nat)
    (sp : Spliced F Tu Tv N L R a n1 n2) (y : Nat) :
    y ∈ N.toList ↔ (y ∈ Tu.toList ∨ y ∈ Tv.toList ∨ y = n1 ∨ y = n2) := by
  rw [sp.hN, ← sp.hu]
  simp only [List.mem_append, List.mem_cons]
  tauto

theorem sp_memU (F : BT → Prop) (Tu Tv N : BT) (L R : List Nat) (a n1 n2 : Nat)
    (sp : Spliced F Tu Tv N L R a n1 n2) (y : Nat) :
    y ∈ Tu.toList ↔ (y ∈ L ++ [a] ∨ y ∈ R) := by
  rw [← sp.hu]
  simp only [List.mem_append, List.mem_cons, List.mem_singleton, List.not_mem_nil, or_false]
  tauto

theorem sp_subU (F : BT → Prop) (Tu Tv N : BT) (L R : List Nat) (a n1 n2 : Nat)
    (sp : Spliced F Tu Tv N L R a n1 n2) : List.Sublist Tu.toList N.toList := by
  rw [sp.hN, ← sp.hu]
  refine List.Sublist.append (List.Sublist.refl L) (List.Sublist.cons₂ a ?_)
  refine List.Sublist.cons n1 ?_
  exact List.Sublist.trans (List.sublist_cons_self n2 R) (List.sublist_append_right _ _)

theorem sp_subV (F : BT → Prop) (Tu Tv N : BT) (L R : List Nat) (a n1 n2 : Nat)
    (sp : Spliced F Tu Tv N L R a n1 n2) : List.Sublist Tv.toList N.toList := by
  rw [sp.hN]
  refine List.Sublist.trans ?_ (List.sublist_append_right L _)
  refine List.Sublist.cons a (List.Sublist.cons n1 ?_)
  exact List.sublist_append_left _ _

/-- The order of the parts of the new sequence. -/
theorem sp_pos (F : BT → Prop) (Tu Tv N : BT) (L R : List Nat) (a n1 n2 : Nat)
    (sp : Spliced F Tu Tv N L R a n1 n2) (x y : Nat)
    (h : (x ∈ L ++ [a] ∧ (y = n1 ∨ y ∈ Tv.toList ∨ y = n2 ∨ y ∈ R)) ∨
      (x = n1 ∧ (y ∈ Tv.toList ∨ y = n2 ∨ y ∈ R)) ∨
      (x ∈ Tv.toList ∧ (y = n2 ∨ y ∈ R)) ∨ (x = n2 ∧ y ∈ R)) : Bef N.toList x y := by
  rcases h with ⟨hx, hy⟩ | ⟨hx, hy⟩ | ⟨hx, hy⟩ | ⟨hx, hy⟩
  · have e : N.toList = (L ++ [a]) ++ (n1 :: (Tv.toList ++ n2 :: R)) := by
      rw [sp.hN]; simp
    rw [e]
    refine bef_app _ _ x y hx ?_
    simp only [List.mem_append, List.mem_cons]
    tauto
  · have e : N.toList = (L ++ [a, n1]) ++ (Tv.toList ++ n2 :: R) := by
      rw [sp.hN]; simp
    rw [e]
    refine bef_app _ _ x y (by simp [hx]) ?_
    simp only [List.mem_append, List.mem_cons]
    tauto
  · have e : N.toList = (L ++ a :: n1 :: Tv.toList) ++ (n2 :: R) := by
      rw [sp.hN]; simp
    rw [e]
    refine bef_app _ _ x y (by simp [hx]) ?_
    simp only [List.mem_cons]
    tauto
  · have e : N.toList = (L ++ a :: n1 :: (Tv.toList ++ [n2])) ++ R := by
      rw [sp.hN]; simp
    rw [e]
    exact bef_app _ _ x y (by simp [hx]) hy

/-- A node `y` of the part put in lies between two nodes `x` and `z` of another old tree
exactly when that tree is `Tu`, `x` lies up to `a` and `z` after it. -/
theorem sp_cross (t : SplayETT) (F : BT → Prop) (hT : TreesOK t F) (Tu Tv N : BT)
    (L R : List Nat) (a n1 n2 : Nat) (sp : Spliced F Tu Tv N L R a n1 n2) (te : BT)
    (hte : F te) (x z y : Nat) (hx : x ∈ te.toList) (hz : z ∈ te.toList)
    (hy : y = n1 ∨ y ∈ Tv.toList ∨ y = n2) (hyt : y ∉ te.toList) :
    (Bef N.toList x y ∧ Bef N.toList y z) ↔ (te = Tu ∧ x ∈ L ++ [a] ∧ z ∈ R) := by
  have anti := bef_antisymm N.toList sp.nd
  constructor
  · rintro ⟨h1, h2⟩
    have hxN := (bef_mem _ _ _ h1).1
    have hte2 : te = Tu ∨ te = Tv := by
      rcases (sp_mem F Tu Tv N L R a n1 n2 sp x).mp hxN with h | h | h | h
      · exact Or.inl (sameT_unique t F hT te Tu hte sp.fu x hx h)
      · exact Or.inr (sameT_unique t F hT te Tv hte sp.fv x hx h)
      · exact absurd h (sp.fresh te hte x hx).1
      · exact absurd h (sp.fresh te hte x hx).2
    rcases hte2 with e | e
    · subst e
      refine ⟨rfl, ?_, ?_⟩
      · rcases (sp_memU F te Tv N L R a n1 n2 sp x).mp hx with h | h
        · exact h
        · exfalso
          refine anti x y h1 (sp_pos F te Tv N L R a n1 n2 sp y x ?_)
          rcases hy with hy | hy | hy
          · exact Or.inr (Or.inl ⟨hy, Or.inr (Or.inr h)⟩)
          · exact Or.inr (Or.inr (Or.inl ⟨hy, Or.inr h⟩))
          · exact Or.inr (Or.inr (Or.inr ⟨hy, h⟩))
      · rcases (sp_memU F te Tv N L R a n1 n2 sp z).mp hz with h | h
        · exfalso
          refine anti y z h2 (sp_pos F te Tv N L R a n1 n2 sp z y (Or.inl ⟨h, ?_⟩))
          rcases hy with hy | hy | hy
          · exact Or.inl hy
          · exact Or.inr (Or.inl hy)
          · exact Or.inr (Or.inr (Or.inl hy))
        · exact h
    · subst e
      exfalso
      rcases hy with hy | hy | hy
      · exact anti x y h1 (sp_pos F Tu te N L R a n1 n2 sp y x
          (Or.inr (Or.inl ⟨hy, Or.inl hx⟩)))
      · exact hyt hy
      · exact anti y z h2 (sp_pos F Tu te N L R a n1 n2 sp z y
          (Or.inr (Or.inr (Or.inl ⟨hz, Or.inl hy⟩))))
  · rintro ⟨e, hxP, hzR⟩
    constructor
    · refine sp_pos F Tu Tv N L R a n1 n2 sp x y (Or.inl ⟨hxP, ?_⟩)
      rcases hy with hy | hy | hy
      · exact Or.inl hy
      · exact Or.inr (Or.inl hy)
      · exact Or.inr (Or.inr (Or.inl hy))
    · refine sp_pos F Tu Tv N L R a n1 n2 sp y z ?_
      rcases hy with hy | hy | hy
      · exact Or.inr (Or.inl ⟨hy, Or.inr (Or.inr hzR)⟩)
      · exact Or.inr (Or.inr (Or.inl ⟨hy, Or.inr hzR⟩))
      · exact Or.inr (Or.inr (Or.inr ⟨hy, hzR⟩))

/-- No node of `Tu` lies between two nodes of `Tv` in the new sequence. -/
theorem sp_cross_none (F : BT → Prop) (Tu Tv N : BT) (L R : List Nat) (a n1 n2 : Nat)
    (sp : Spliced F Tu Tv N L R a n1 n2) (x z y : Nat) (hx : x ∈ Tv.toList)
    (hz : z ∈ Tv.toList) (hy : y ∈ Tu.toList) :
    ¬ (Bef N.toList x y ∧ Bef N.toList y z) := by
  have anti := bef_antisymm N.toList sp.nd
  rintro ⟨h1, h2⟩
  rcases (sp_memU F Tu Tv N L R a n1 n2 sp y).mp hy with h | h
  · exact anti x y h1 (sp_pos F Tu Tv N L R a n1 n2 sp y x (Or.inl ⟨h, Or.inr (Or.inl hx)⟩))
  · exact anti y z h2 (sp_pos F Tu Tv N L R a n1 n2 sp z y
      (Or.inr (Or.inr (Or.inl ⟨hz, Or.inr h⟩))))

/-! ### The edge map after link -/

/-- The edge map after `link`: the old edges keep their order in the new trees, and the
new edge takes the tree of `v` between its two nodes. -/
theorem link_edges (t t1 : SplayETT) (F : BT → Prop) (hT : TreesOK t F) (hE : EdgesOK t F)
    (Tu Tv N : BT) (L R : List Nat) (a n1 n2 : Nat) (sp : Spliced F Tu Tv N L R a n1 n2)
    (hT1 : TreesOK t1 (fun b => b = N ∨ (F b ∧ b ≠ Tu ∧ b ≠ Tv)))
    (key uu vv : Nat) (hed : t1.edges = t.edges ++ [(key, ETTEdge.mk n1 n2 uu vv)])
    (hvn : t1.vertexNodes = t.vertexNodes) :
    EdgesOK t1 (fun b => b = N ∨ (F b ∧ b ≠ Tu ∧ b ≠ Tv)) := by
  have hN' : (fun b => b = N ∨ (F b ∧ b ≠ Tu ∧ b ≠ Tv)) N := Or.inl rfl
  have spm := sp_mem F Tu Tv N L R a n1 n2 sp
  have n1N : n1 ∈ N.toList := (spm n1).mpr (Or.inr (Or.inr (Or.inl rfl)))
  have n2N : n2 ∈ N.toList := (spm n2).mpr (Or.inr (Or.inr (Or.inr rfl)))
  have uniq := sameT_unique t F hT
  have mono : ∀ x y, FBef F x y → FBef (fun b => b = N ∨ (F b ∧ b ≠ Tu ∧ b ≠ Tv)) x y := by
    rintro x y ⟨b, hb, h⟩
    by_cases h1 : b = Tu
    · exact ⟨N, hN', List.Sublist.trans h (h1 ▸ sp_subU F Tu Tv N L R a n1 n2 sp)⟩
    by_cases h2 : b = Tv
    · exact ⟨N, hN', List.Sublist.trans h (h2 ▸ sp_subV F Tu Tv N L R a n1 n2 sp)⟩
    exact ⟨b, Or.inr ⟨hb, h1, h2⟩, h⟩
  have inN : ∀ x y, (x ∈ N.toList ∨ y ∈ N.toList) →
      (FBef (fun b => b = N ∨ (F b ∧ b ≠ Tu ∧ b ≠ Tv)) x y ↔ Bef N.toList x y) :=
    fun x y h => fbef_in t1 _ hT1 N hN' x y h
  have oldN : ∀ b, F b → ∀ x ∈ b.toList, x ∈ N.toList → b = Tu ∨ b = Tv := by
    intro b hb x hx hxN
    rcases (spm x).mp hxN with h | h | h | h
    · exact Or.inl (uniq b Tu hb sp.fu x hx h)
    · exact Or.inr (uniq b Tv hb sp.fv x hx h)
    · exact absurd h (sp.fresh b hb x hx).1
    · exact absurd h (sp.fresh b hb x hx).2
  have back : ∀ b, F b → ∀ x y, x ∈ b.toList → y ∈ b.toList →
      FBef (fun b => b = N ∨ (F b ∧ b ≠ Tu ∧ b ≠ Tv)) x y → Bef b.toList x y := by
    rintro b hb x y hx hy ⟨c, hc, h⟩
    rcases hc with hc | ⟨hc, _, _⟩
    · subst hc
      rcases oldN b hb x hx (bef_mem _ _ _ h).1 with e | e
      · subst e
        exact (bef_sub _ _ (sp_subU F b Tv c L R a n1 n2 sp) sp.nd x y hx hy).mpr h
      · subst e
        exact (bef_sub _ _ (sp_subV F Tu b c L R a n1 n2 sp) sp.nd x y hx hy).mpr h
    · have : c = b := uniq c b hc hb x (bef_mem _ _ _ h).1 hx
      rw [← this]; exact h
  have same : ∀ b, F b → ∀ x y, x ∈ b.toList → y ∈ b.toList →
      (FBef (fun b => b = N ∨ (F b ∧ b ≠ Tu ∧ b ≠ Tv)) x y ↔ FBef F x y) :=
    fun b hb x y hx hy => ⟨fun h => ⟨b, hb, back b hb x y hx hy h⟩, mono x y⟩
  have hmem : ∀ e, e ∈ t1.edges ↔ (e ∈ t.edges ∨ e = (key, ETTEdge.mk n1 n2 uu vv)) := by
    intro e
    rw [hed]
    simp only [List.mem_append, List.mem_singleton]
  have hnew : Bef N.toList n1 n2 :=
    sp_pos F Tu Tv N L R a n1 n2 sp n1 n2 (Or.inr (Or.inl ⟨rfl, Or.inr (Or.inl rfl)⟩))
  have irr : ∀ x, ¬ FBef (fun b => b = N ∨ (F b ∧ b ≠ Tu ∧ b ≠ Tv)) x x := by
    rintro x ⟨c, hc, h⟩
    exact bef_ne _ (hT1.nd c hc) x x h rfl
  have eN : N.toList = (L ++ [a]) ++ n1 :: (Tv.toList ++ n2 :: R) := by
    rw [sp.hN]; simp
  have btw : ∀ c, (Bef N.toList n1 c ∧ Bef N.toList c n2) ↔ c ∈ Tv.toList := by
    intro c
    have := between_iff (L ++ [a]) Tv.toList R n1 n2 c (eN ▸ sp.nd)
    rw [← eN] at this
    exact this
  refine ⟨?_, ?_, ?_, ?_⟩
  · -- the two nodes of an edge in one tree, in order
    intro e he
    rcases (hmem e).mp he with he | he
    · exact mono _ _ (hE.ein e he)
    · subst he
      exact ⟨N, hN', hnew⟩
  · -- of two edges, the one inside or outside the other
    intro e he g hg
    rcases (hmem e).mp he with he | he <;> rcases (hmem g).mp hg with hg | hg
    · obtain ⟨te, hte, hbe⟩ := hE.ein e he
      obtain ⟨tg, htg, hbg⟩ := hE.ein g hg
      obtain ⟨e1m, e2m⟩ := bef_mem _ _ _ hbe
      obtain ⟨g1m, g2m⟩ := bef_mem _ _ _ hbg
      by_cases hsame : te = tg
      · subst hsame
        rw [same te hte _ _ e1m g1m, same te hte _ _ g1m e2m, same te hte _ _ e1m g2m,
          same te hte _ _ g2m e2m]
        exact hE.lam e he g hg
      · by_cases hv : tg = Tv
        · subst hv
          have q : ∀ y ∈ tg.toList,
              ((FBef (fun b => b = N ∨ (F b ∧ b ≠ Tu ∧ b ≠ tg)) e.2.first y ∧
                FBef (fun b => b = N ∨ (F b ∧ b ≠ Tu ∧ b ≠ tg)) y e.2.second) ↔
              (te = Tu ∧ e.2.first ∈ L ++ [a] ∧ e.2.second ∈ R)) := by
            intro y hy
            have hyN : y ∈ N.toList := (spm y).mpr (Or.inr (Or.inl hy))
            rw [inN _ _ (Or.inr hyN), inN _ _ (Or.inl hyN)]
            exact sp_cross t F hT Tu tg N L R a n1 n2 sp te hte _ _ y e1m e2m
              (Or.inr (Or.inl hy)) (fun h => hT.disj tg te htg hte (Ne.symm hsame) y hy h)
          rw [q _ g1m, q _ g2m]
        · have q : ∀ y ∈ tg.toList,
              ¬ (FBef (fun b => b = N ∨ (F b ∧ b ≠ Tu ∧ b ≠ Tv)) e.2.first y ∧
                FBef (fun b => b = N ∨ (F b ∧ b ≠ Tu ∧ b ≠ Tv)) y e.2.second) := by
            rintro y hy ⟨⟨c, hc, h1⟩, h2⟩
            obtain ⟨m1, m2⟩ := bef_mem _ _ _ h1
            rcases hc with hc | ⟨hc, _, _⟩
            · subst hc
              have hgU : tg = Tu := by
                rcases oldN tg htg y hy m2 with h | h
                · exact h
                · exact absurd h hv
              have heV : te = Tv := by
                rcases oldN te hte _ e1m m1 with h | h
                · exact absurd (h.trans hgU.symm) hsame
                · exact h
              subst hgU
              subst heV
              exact sp_cross_none F tg te c L R a n1 n2 sp _ _ y e1m e2m hy
                ⟨h1, (inN _ _ (Or.inl m2)).mp h2⟩
            · exact hsame ((uniq te c hte hc _ e1m m1).trans (uniq c tg hc htg y m2 hy))
          exact ⟨fun h => absurd h (q _ g1m), fun h => absurd h (q _ g2m)⟩
    · subst hg
      obtain ⟨te, hte, hbe⟩ := hE.ein e he
      obtain ⟨e1m, e2m⟩ := bef_mem _ _ _ hbe
      show (FBef _ e.2.first n1 ∧ FBef _ n1 e.2.second) ↔
        (FBef _ e.2.first n2 ∧ FBef _ n2 e.2.second)
      rw [inN _ _ (Or.inr n1N), inN _ _ (Or.inl n1N), inN _ _ (Or.inr n2N),
        inN _ _ (Or.inl n2N)]
      rw [sp_cross t F hT Tu Tv N L R a n1 n2 sp te hte _ _ n1 e1m e2m (Or.inl rfl)
          (fun h => (sp.fresh te hte n1 h).1 rfl),
        sp_cross t F hT Tu Tv N L R a n1 n2 sp te hte _ _ n2 e1m e2m (Or.inr (Or.inr rfl))
          (fun h => (sp.fresh te hte n2 h).2 rfl)]
    · subst he
      obtain ⟨tg, htg, hbg⟩ := hE.ein g hg
      obtain ⟨g1m, g2m⟩ := bef_mem _ _ _ hbg
      show (FBef _ n1 g.2.first ∧ FBef _ g.2.first n2) ↔
        (FBef _ n1 g.2.second ∧ FBef _ g.2.second n2)
      rw [inN _ _ (Or.inl n1N), inN _ _ (Or.inr n2N), inN _ _ (Or.inl n1N),
        inN _ _ (Or.inr n2N), btw, btw]
      constructor
      · intro h
        have : tg = Tv := uniq tg Tv htg sp.fv _ g1m h
        exact this ▸ g2m
      · intro h
        have : tg = Tv := uniq tg Tv htg sp.fv _ g2m h
        exact this ▸ g1m
    · subst he
      subst hg
      exact ⟨fun h => absurd h.1 (irr n1), fun h => absurd h.2 (irr n2)⟩
  · -- edges with different keys have different nodes
    have oldne : ∀ e ∈ t.edges, (e.2.first ≠ n1 ∧ e.2.first ≠ n2) ∧
        (e.2.second ≠ n1 ∧ e.2.second ≠ n2) := by
      intro e he
      obtain ⟨te, hte, hbe⟩ := hE.ein e he
      obtain ⟨e1m, e2m⟩ := bef_mem _ _ _ hbe
      exact ⟨sp.fresh te hte _ e1m, sp.fresh te hte _ e2m⟩
    intro e he g hg hkk
    rcases (hmem e).mp he with he | he <;> rcases (hmem g).mp hg with hg | hg
    · exact hE.edist e he g hg hkk
    · subst hg
      obtain ⟨⟨p1, p2⟩, q1, q2⟩ := oldne e he
      exact ⟨Ne.symm p1, Ne.symm q1, Ne.symm p2, Ne.symm q2⟩
    · subst he
      obtain ⟨⟨p1, p2⟩, q1, q2⟩ := oldne g hg
      exact ⟨p1, p2, q1, q2⟩
    · subst he
      subst hg
      exact absurd rfl hkk
  · -- no vertex node is the first node of an edge
    intro e he w
    rw [hvn]
    rcases (hmem e).mp he with he | he
    · exact hE.vne e he w
    · subst he
      obtain ⟨b, hb, hw⟩ := hT.vmem w
      exact (sp.fresh b hb _ hw).1

/-! ### The splays, the splits and the merge of cut -/

/-- The store `left->parent = nullptr` of `cut`: the tree below a node becomes a tree of
its own. -/
theorem reparent_tree (t : SplayETT) (hrev : ∀ y, (t.node y).reversed = false) (b : BT)
    (p0 : Option Nat) (h : Rep t b p0) (hnd : b.toList.Nodup) :
    Shell t (match b.root with
        | some l => t.setNode l { t.node l with parent := none }
        | none => t) b.toList ∧
      Rep (match b.root with
        | some l => t.setNode l { t.node l with parent := none }
        | none => t) b none := by
  cases b with
  | leaf => exact ⟨shell_refl t hrev _, trivial⟩
  | node l w r =>
    show Shell t (t.setParent w none) _ ∧ Rep (t.setParent w none) _ none
    have hw : w < t.pool.length := h.1
    have hpe : ∀ y, y ≠ w → PtrEq (t.setParent w none) t y := fun y hy => by
      refine ⟨?_, setParent_left t w none y, setParent_right t w none y⟩
      rw [setParent_parent, if_neg (fun g => hy g.1)]
    constructor
    · refine ⟨fun y => by rw [setParent_rev]; exact hrev y, setParent_length t w none,
        (setParent_fields t w none).1, (setParent_fields t w none).2.1,
        (setParent_fields t w none).2.2, fun y hy => hpe y (fun e => hy ?_)⟩
      rw [e, mem_node]; exact Or.inr (Or.inl rfl)
    · refine rep_newparent t (t.setParent w none) (setParent_length t w none) _ p0 none h hnd
        ?_ ?_
      · intro w1 e
        simp only [BT.root, Option.some.injEq] at e
        subst e
        refine ⟨?_, setParent_left t w none w, setParent_right t w none w⟩
        rw [setParent_parent, if_pos ⟨rfl, hw⟩]
      · intro y _ hy
        exact hpe y (fun e => hy (by rw [e]; rfl))

/-- The splays, splits and the merge of `cut` on the tree that holds the two edge nodes
`e1` and `e2`, the first before the second: all calls return, the branch that swaps the
two nodes is not taken, and the pool holds afterwards the part of the sequence outside
the two nodes as one tree and the part between them, with `e2`, as another. -/
theorem cut_core (t : SplayETT) (hrev : ∀ y, (t.node y).reversed = false) (S : BT)
    (hS : Rep t S none) (X Y Z : List Nat) (e1 e2 : Nat)
    (hl : S.toList = X ++ e1 :: (Y ++ e2 :: Z)) (hnd : S.toList.Nodup) :
    ∃ t1 t2 right t4 r5 t5 r7 t7 A B,
      t.splay e1 = some t1 ∧ t1.splay e2 = some t2 ∧ (t2.node e2).parent = none ∧
      t2.split e2 = some (right, t4) ∧ t4.split e1 = some (r5, t5) ∧
      (match (t5.node e1).left with
        | some l => t5.setNode l { t5.node l with parent := none }
        | none => t5).merge (t5.node e1).left right = some (r7, t7) ∧
      Shell t t7 S.toList ∧ Rep t7 A none ∧ Rep t7 B none ∧
      A.toList = X ++ Z ∧ B.toList = Y ++ [e2] := by
  have m1 : e1 ∈ S.toList := by rw [hl]; simp
  have m2 : e2 ∈ S.toList := by rw [hl]; simp
  have hnd0 := hnd
  rw [hl] at hnd0
  have hbasic : X.Nodup ∧ Y.Nodup ∧ Z.Nodup ∧ e1 ∉ X ∧ e1 ∉ Y ∧ e1 ∉ Z ∧ e2 ∉ X ∧ e2 ∉ Y ∧
      e2 ∉ Z ∧ e1 ≠ e2 ∧ (∀ y ∈ X, y ∉ Y) ∧ (∀ y ∈ X, y ∉ Z) ∧ (∀ y ∈ Y, y ∉ Z) := by
    simp only [List.nodup_append, List.nodup_cons, List.mem_append, List.mem_cons,
      List.Disjoint, not_or] at hnd0
    obtain ⟨q1, ⟨⟨q2, q3, q4⟩, q5, ⟨q6, q7⟩, q8⟩, q9⟩ := hnd0
    refine ⟨q1, q5, q7, ?_, q2, q4, ?_, ?_, q6, q3, ?_, ?_, ?_⟩
    · intro h; exact q9 h (Or.inl rfl)
    · intro h; exact q9 h (Or.inr (Or.inr (Or.inl rfl)))
    · intro h; exact q8 h (Or.inl rfl)
    · intro y hy h; exact q9 hy (Or.inr (Or.inl h))
    · intro y hy h; exact q9 hy (Or.inr (Or.inr (Or.inr h)))
    · intro y hy h; exact q8 hy (Or.inr h)
  obtain ⟨b1, b2, b3, b4, b5, b6, b7, b8, b9, b10, b11, b12, b13⟩ := hbasic
  -- the two splays
  obtain ⟨t1, S1, s1e, ts1, _⟩ := splay_tree t hrev S hS hnd e1 m1
  obtain ⟨t2, S2, s2e, ts2, r2⟩ := splay_tree t1 ts1.rev S1 ts1.rep (ts1.list ▸ hnd) e2
    (ts1.list ▸ m2)
  have l2 : S2.toList = S.toList := ts2.list.trans ts1.list
  have hpar : (t2.node e2).parent = none := rep_root t2 S2 none e2 ts2.rep r2
  -- split at `e2`
  obtain ⟨t4, L2, R2, e4, sh4, hL2, hR2, l4⟩ := split_tree t2 ts2.rev S2 ts2.rep
    (l2 ▸ hnd) e2 (l2 ▸ m2)
  have l4' : L2.toList ++ e2 :: R2.toList = (X ++ e1 :: Y) ++ e2 :: Z := by
    rw [l4, l2, hl]; simp
  obtain ⟨g1, g2⟩ := nodup_split_unique L2.toList R2.toList (X ++ e1 :: Y) Z e2
    (by rw [l4, l2]; exact hnd) l4'
  -- split at `e1`
  have l5 : (BT.node L2 e2 BT.leaf).toList = X ++ e1 :: (Y ++ [e2]) := by
    simp [BT.toList, g1]
  have nd5 : (BT.node L2 e2 BT.leaf).toList.Nodup := by
    rw [l5]
    refine List.Nodup.sublist ?_ hnd0
    refine List.Sublist.append (List.Sublist.refl X) (List.Sublist.cons₂ e1 ?_)
    refine List.Sublist.append (List.Sublist.refl Y) (List.Sublist.cons₂ e2 ?_)
    exact List.nil_sublist Z
  obtain ⟨t5, L1, R1, e5, sh5, hL1, hR1, l6⟩ := split_tree t4 sh4.rev (BT.node L2 e2 BT.leaf)
    hL2 nd5 e1 (by rw [l5]; simp)
  obtain ⟨g3, g4⟩ := nodup_split_unique L1.toList R1.toList X (Y ++ [e2]) e1
    (by rw [l6]; exact nd5) (l6.trans l5)
  have hR2_5 : Rep t5 R2 none := rep_shell t4 t5 _ sh5 R2 none hR2 (fun y hy => by
    rw [l5]
    rw [g2] at hy
    simp only [List.mem_append, List.mem_cons, List.mem_singleton, List.not_mem_nil,
      or_false, not_or]
    exact ⟨fun h => b12 y h hy, fun h => b6 (h ▸ hy), fun h => b13 y h hy,
      fun h => b9 (h ▸ hy)⟩)
  -- the left part becomes a tree of its own
  have hleft : (t5.node e1).left = L1.root := hL1.2.2.1
  obtain ⟨sh6, hL1_6⟩ := reparent_tree t5 sh5.rev L1 (some e1) hL1.2.2.2.2.1 (g3 ▸ b1)
  rw [← hleft] at sh6 hL1_6
  generalize ht6 : (match (t5.node e1).left with
        | some l => t5.setNode l { t5.node l with parent := none }
        | none => t5) = t6 at sh6 hL1_6
  have hR2_6 : Rep t6 R2 none := rep_shell t5 t6 _ sh6 R2 none hR2_5 (fun y hy => by
    rw [g3]; rw [g2] at hy; exact fun h => b12 y h hy)
  have hR1_6 : Rep t6 R1 none := rep_shell t5 t6 _ sh6 R1 none hR1 (fun y hy => by
    rw [g3]; rw [g4] at hy
    simp only [List.mem_append, List.mem_singleton] at hy
    rcases hy with hy | hy
    · exact fun h => b11 y h hy
    · exact fun h => b7 (hy ▸ h))
  -- the merge of the parts outside the two nodes
  obtain ⟨t7, A, e7, sh7, hA, lA⟩ := merge_tree t6 sh6.rev L1 R2 hL1_6 hR2_6 (by
    rw [g3, g2, List.nodup_append]
    exact ⟨b1, b3, fun y hy h => b12 y hy h⟩)
  have hR1_7 : Rep t7 R1 none := rep_shell t6 t7 _ sh7 R1 none hR1_6 (fun y hy => by
    rw [g3, g2]; rw [g4] at hy
    simp only [List.mem_append, List.mem_singleton, not_or] at hy ⊢
    rcases hy with hy | hy
    · exact ⟨fun h => b11 y h hy, fun h => b13 y hy h⟩
    · exact ⟨fun h => b7 (hy ▸ h), fun h => b9 (hy ▸ h)⟩)
  refine ⟨t1, t2, R2.root, t4, R1.root, t5, A.root, t7, A, R1, s1e, s2e, hpar, e4, e5, ?_,
    ?_, hA, hR1_7, by rw [lA, g3, g2], g4⟩
  · rw [ht6, hleft]; exact e7
  · have k1 : Shell t t1 S.toList := shell_of_treeStep t t1 S S1 ts1
    have k2 : Shell t1 t2 S.toList := ts1.list ▸ shell_of_treeStep t1 t2 S1 S2 ts2
    have k4 : Shell t2 t4 S.toList := l2 ▸ sh4
    have k5 : Shell t4 t5 S.toList := shell_mono _ _ _ _ sh5 (fun y hy => by
      rw [l5] at hy; rw [hl]
      simp only [List.mem_append, List.mem_cons, List.mem_singleton, List.not_mem_nil,
        or_false] at hy ⊢
      tauto)
    have k6 : Shell t5 t6 S.toList := shell_mono _ _ _ _ sh6 (fun y hy => by
      rw [g3] at hy; rw [hl]; simp [hy])
    have k7 : Shell t6 t7 S.toList := shell_mono _ _ _ _ sh7 (fun y hy => by
      rw [g3, g2] at hy; rw [hl]
      simp only [List.mem_append, List.mem_cons] at hy ⊢
      tauto)
    exact shell_trans _ _ _ _ (shell_trans _ _ _ _ (shell_trans _ _ _ _
      (shell_trans _ _ _ _ (shell_trans _ _ _ _ k1 k2) k4) k5) k6) k7

/-! ### Cut on a forest of trees -/

/-- The body of `cut(u, v)` once the edge is found. -/
theorem cut_run (t : SplayETT) (u v : Nat) (hne : u ≠ v) (k : Nat) (edge : ETTEdge)
    (hfind : t.edges.find? (fun e => e.1 = makeEdgeKey u v) = some (k, edge))
    (t1 t2 t4 t5 t7 : SplayETT) (right r5 r7 : Option Nat)
    (h1 : t.splay edge.first = some t1) (h2 : t1.splay edge.second = some t2)
    (hp : (t2.node edge.second).parent = none)
    (h4 : t2.split edge.second = some (right, t4))
    (h5 : t4.split edge.first = some (r5, t5))
    (h7 : (match (t5.node edge.first).left with
        | some l => t5.setNode l { t5.node l with parent := none }
        | none => t5).merge (t5.node edge.first).left right = some (r7, t7)) :
    t.cut u v = some (true,
      { t7 with edges := t7.edges.filter (fun e => e.1 ≠ makeEdgeKey u v) }) := by
  unfold SplayETT.cut
  rw [if_neg hne]
  simp only [hfind, h1, h2, hp, Option.isSome_none, Bool.false_eq_true, if_false, h4, h5]
  generalize (t5.node edge.first).left = lf at h7
  cases lf with
  | none =>
    dsimp only at h7 ⊢
    rw [h7]
  | some l =>
    dsimp only at h7 ⊢
    rw [h7]

theorem un_subA (F : BT → Prop) (S A B : BT) (X Y Z : List Nat) (e1 e2 : Nat)
    (un : Unspliced F S A B X Y Z e1 e2) : List.Sublist A.toList S.toList := by
  rw [un.hA, un.hS]
  refine List.Sublist.append (List.Sublist.refl X) (List.Sublist.cons e1 ?_)
  exact List.Sublist.trans (List.sublist_cons_self e2 Z) (List.sublist_append_right _ _)

theorem un_subB (F : BT → Prop) (S A B : BT) (X Y Z : List Nat) (e1 e2 : Nat)
    (un : Unspliced F S A B X Y Z e1 e2) : List.Sublist B.toList S.toList := by
  rw [un.hB, un.hS]
  refine List.Sublist.trans ?_ (List.sublist_append_right X _)
  refine List.Sublist.cons e1 ?_
  exact List.Sublist.append (List.Sublist.refl Y) (List.Sublist.cons₂ e2 (List.nil_sublist Z))

theorem un_mem (F : BT → Prop) (S A B : BT) (X Y Z : List Nat) (e1 e2 : Nat)
    (un : Unspliced F S A B X Y Z e1 e2) (y : Nat) (hy : y ∈ S.toList) (h1 : y ≠ e1) :
    y ∈ A.toList ∨ y ∈ B.toList := by
  rw [un.hS] at hy
  rw [un.hA, un.hB]
  simp only [List.mem_append, List.mem_cons, List.mem_singleton] at hy ⊢
  tauto

theorem un_disj (F : BT → Prop) (S A B : BT) (X Y Z : List Nat) (e1 e2 : Nat)
    (un : Unspliced F S A B X Y Z e1 e2) (hnd : S.toList.Nodup) (y : Nat)
    (hA : y ∈ A.toList) (hB : y ∈ B.toList) : False := by
  rw [un.hS] at hnd
  rw [un.hA] at hA
  rw [un.hB] at hB
  simp only [List.nodup_append, List.nodup_cons, List.mem_append, List.mem_cons,
    List.Disjoint, not_or, List.mem_singleton, List.not_mem_nil, or_false] at hnd hA hB
  obtain ⟨_, ⟨⟨_, _, _⟩, _, ⟨q6, _⟩, q8⟩, q9⟩ := hnd
  rcases hA with hA | hA <;> rcases hB with hB | hB
  · exact q9 hA (Or.inr (Or.inl hB))
  · exact q9 hA (Or.inr (Or.inr (Or.inl hB)))
  · exact q8 hB (Or.inr hA)
  · exact q6 (hB ▸ hA)

/-- The call `cut(u, v)` on a forest of trees with its edge map, when the edge is in the
map: it returns true, and the tree `S` of the edge becomes two trees: `A` with the part of
the sequence outside the two edge nodes, and `B` with the part between them and the
second edge node. -/
theorem cut_trees (t : SplayETT) (F : BT → Prop) (hT : TreesOK t F) (hE : EdgesOK t F)
    (u v : Nat) (hne : u ≠ v) (k : Nat) (edge : ETTEdge)
    (hfind : t.edges.find? (fun e => e.1 = makeEdgeKey u v) = some (k, edge)) :
    ∃ t2 S A B X Y Z, t.cut u v = some (true, t2) ∧
      Unspliced F S A B X Y Z edge.first edge.second ∧
      TreesOK t2 (fun b => b = A ∨ b = B ∨ (F b ∧ b ≠ S)) ∧
      t2.edges = t.edges.filter (fun e => e.1 ≠ makeEdgeKey u v) ∧
      t2.vertexNodes = t.vertexNodes := by
  have hmemE : (k, edge) ∈ t.edges := List.mem_of_find?_eq_some hfind
  obtain ⟨S, fS, hbef⟩ := hE.ein _ hmemE
  obtain ⟨X, W, hXW, h2W⟩ := bef_split _ _ _ hbef
  obtain ⟨Y, Z, hYZ⟩ := List.append_of_mem h2W
  have hl : S.toList = X ++ edge.first :: (Y ++ edge.second :: Z) := by
    rw [hXW, hYZ]
  obtain ⟨t1, t2, right, t4, r5, t5, r7, t7, A, B, c1, c2, c3, c4, c5, c6, sh, hA, hB, lA,
    lB⟩ := cut_core t hT.rev S (hT.reps S fS) X Y Z edge.first edge.second hl (hT.nd S fS)
  have hcut := cut_run t u v hne k edge hfind t1 t2 t4 t5 t7 right r5 r7 c1 c2 c3 c4 c5 c6
  have un : Unspliced F S A B X Y Z edge.first edge.second := ⟨fS, hl, lA, lB⟩
  have subA := un_subA F S A B X Y Z _ _ un
  have subB := un_subB F S A B X Y Z _ _ un
  have hAB : A ≠ B := by
    intro e
    have m : edge.second ∈ B.toList := by rw [lB]; simp
    exact un_disj F S A B X Y Z _ _ un (hT.nd S fS) _ (e ▸ m) m
  refine ⟨_, S, A, B, X, Y, Z, hcut, un, ?_, ?_, sh.vn⟩
  · refine ⟨fun y => sh.rev y, ?_, ?_, ?_, ?_⟩
    · rintro b (hb | hb | ⟨hb, n1⟩)
      · rw [hb]; exact rep_edges t7 _ A none hA
      · rw [hb]; exact rep_edges t7 _ B none hB
      · exact rep_edges t7 _ b none (rep_shell t t7 _ sh b none (hT.reps b hb)
          (fun y hy => hT.disj b S hb fS n1 y hy))
    · rintro b (hb | hb | ⟨hb, _⟩)
      · rw [hb]; exact List.Nodup.sublist subA (hT.nd S fS)
      · rw [hb]; exact List.Nodup.sublist subB (hT.nd S fS)
      · exact hT.nd b hb
    · have keyA : ∀ c, F c → c ≠ S → ∀ y ∈ A.toList, y ∉ c.toList :=
        fun c hc n y hy h => hT.disj c S hc fS n y h (subA.subset hy)
      have keyB : ∀ c, F c → c ≠ S → ∀ y ∈ B.toList, y ∉ c.toList :=
        fun c hc n y hy h => hT.disj c S hc fS n y h (subB.subset hy)
      have dAB : ∀ y ∈ A.toList, y ∉ B.toList :=
        fun y h1 h2 => un_disj F S A B X Y Z _ _ un (hT.nd S fS) y h1 h2
      rintro b c (hb | hb | ⟨hb, n1⟩) (hc | hc | ⟨hc, m1⟩) hbc y hy
      · exact absurd (hb.trans hc.symm) hbc
      · rw [hb] at hy; rw [hc]; exact dAB y hy
      · rw [hb] at hy; exact keyA c hc m1 y hy
      · rw [hb] at hy; rw [hc]; exact fun h => dAB y h hy
      · exact absurd (hb.trans hc.symm) hbc
      · rw [hb] at hy; exact keyB c hc m1 y hy
      · rw [hc]; exact fun h => keyA b hb n1 y h hy
      · rw [hc]; exact fun h => keyB b hb n1 y h hy
      · exact hT.disj b c hb hc hbc y hy
    · intro w
      obtain ⟨b, hb, hw⟩ := hT.vmem w
      have hvn : ∀ ed, ({ t7 with edges := ed } : SplayETT).vertexNodes = t.vertexNodes :=
        fun _ => sh.vn
      rw [hvn]
      by_cases h1 : b = S
      · rcases un_mem F S A B X Y Z _ _ un _ (h1 ▸ hw) (hE.vne _ hmemE w) with h | h
        · exact ⟨A, Or.inl rfl, h⟩
        · exact ⟨B, Or.inr (Or.inl rfl), h⟩
      · exact ⟨b, Or.inr (Or.inr ⟨hb, h1⟩), hw⟩
  · show t7.edges.filter _ = _
    rw [sh.ed]

/-! ### The edge map after cut -/

/-- The edge map after `cut`: every other edge has both nodes in one of the two new trees
or in an old one, in the old order. -/
theorem cut_edges (t t2 : SplayETT) (F : BT → Prop) (hT : TreesOK t F) (hE : EdgesOK t F)
    (S A B : BT) (X Y Z : List Nat) (k key : Nat) (edge : ETTEdge)
    (un : Unspliced F S A B X Y Z edge.first edge.second)
    (hT2 : TreesOK t2 (fun b => b = A ∨ b = B ∨ (F b ∧ b ≠ S)))
    (hmemE : (k, edge) ∈ t.edges) (hk : k = key)
    (hed : t2.edges = t.edges.filter (fun e => e.1 ≠ key))
    (hvn : t2.vertexNodes = t.vertexNodes) :
    EdgesOK t2 (fun b => b = A ∨ b = B ∨ (F b ∧ b ≠ S)) := by
  have uniq := sameT_unique t F hT
  have uniq2 := sameT_unique t2 _ hT2
  have subA := un_subA F S A B X Y Z _ _ un
  have subB := un_subB F S A B X Y Z _ _ un
  have hndS := hT.nd S un.fs
  have hmem : ∀ e, e ∈ t2.edges → e ∈ t.edges ∧ e.1 ≠ key := by
    intro e he
    rw [hed, List.mem_filter] at he
    exact ⟨he.1, by simpa using he.2⟩
  have down : ∀ x y, FBef (fun b => b = A ∨ b = B ∨ (F b ∧ b ≠ S)) x y → FBef F x y := by
    rintro x y ⟨c, hc, h⟩
    rcases hc with hc | hc | ⟨hc, _⟩
    · exact ⟨S, un.fs, List.Sublist.trans h (hc ▸ subA)⟩
    · exact ⟨S, un.fs, List.Sublist.trans h (hc ▸ subB)⟩
    · exact ⟨c, hc, h⟩
  have up : ∀ c, (fun b => b = A ∨ b = B ∨ (F b ∧ b ≠ S)) c → ∀ x y, x ∈ c.toList →
      y ∈ c.toList → FBef F x y → Bef c.toList x y := by
    rintro c hc x y hx hy ⟨b, hb, h⟩
    obtain ⟨m1, m2⟩ := bef_mem _ _ _ h
    rcases hc with hc | hc | ⟨hc, _⟩
    · subst hc
      have : b = S := uniq b S hb un.fs x m1 (subA.subset hx)
      subst this
      exact (bef_sub _ _ subA hndS x y hx hy).mpr h
    · subst hc
      have : b = S := uniq b S hb un.fs x m1 (subB.subset hx)
      subst this
      exact (bef_sub _ _ subB hndS x y hx hy).mpr h
    · have : b = c := uniq b c hb hc x m1 hx
      rw [← this]; exact h
  -- the two nodes of another edge lie in one new tree
  have home : ∀ e ∈ t2.edges, ∃ c, (fun b => b = A ∨ b = B ∨ (F b ∧ b ≠ S)) c ∧
      e.2.first ∈ c.toList ∧ e.2.second ∈ c.toList := by
    intro e he
    obtain ⟨he1, hek⟩ := hmem e he
    obtain ⟨b, hb, hbe⟩ := hE.ein e he1
    obtain ⟨m1, m2⟩ := bef_mem _ _ _ hbe
    by_cases hbS : b = S
    · subst hbS
      obtain ⟨d1, d2, d3, d4⟩ := hE.edist (k, edge) hmemE e he1 (fun h => hek (h ▸ hk))
      have hlam := hE.lam (k, edge) hmemE e he1
      have e1S : edge.first ∈ b.toList := by rw [un.hS]; simp
      rw [fbef_in t F hT b hb _ _ (Or.inl e1S), fbef_in t F hT b hb _ _ (Or.inl m1),
        fbef_in t F hT b hb _ _ (Or.inl e1S), fbef_in t F hT b hb _ _ (Or.inl m2)] at hlam
      have hnd0 := hndS
      rw [un.hS] at hlam hnd0
      rw [between_iff X Y Z _ _ _ hnd0, between_iff X Y Z _ _ _ hnd0] at hlam
      by_cases hY : e.2.first ∈ Y
      · refine ⟨B, Or.inr (Or.inl rfl), ?_, ?_⟩
        · rw [un.hB]; exact List.mem_append_left _ hY
        · rw [un.hB]; exact List.mem_append_left _ (hlam.mp hY)
      · have hY2 : e.2.second ∉ Y := fun h => hY (hlam.mpr h)
        rw [un.hS] at m1 m2
        simp only [List.mem_append, List.mem_cons] at m1 m2
        refine ⟨A, Or.inl rfl, ?_, ?_⟩
        · rw [un.hA, List.mem_append]
          rcases m1 with h | h | h | h | h
          · exact Or.inl h
          · exact absurd h d1
          · exact absurd h hY
          · exact absurd h d2
          · exact Or.inr h
        · rw [un.hA, List.mem_append]
          rcases m2 with h | h | h | h | h
          · exact Or.inl h
          · exact absurd h d3
          · exact absurd h hY2
          · exact absurd h d4
          · exact Or.inr h
    · exact ⟨b, Or.inr (Or.inr ⟨hb, hbS⟩), m1, m2⟩
  refine ⟨?_, ?_, ?_, ?_⟩
  · intro e he
    obtain ⟨c, hc, m1, m2⟩ := home e he
    exact ⟨c, hc, up c hc _ _ m1 m2 (hE.ein e (hmem e he).1)⟩
  · intro e he g hg
    obtain ⟨ce, hce, e1m, e2m⟩ := home e he
    obtain ⟨cg, hcg, g1m, g2m⟩ := home g hg
    have q : ∀ y ∈ cg.toList,
        ((FBef (fun b => b = A ∨ b = B ∨ (F b ∧ b ≠ S)) e.2.first y ∧
          FBef (fun b => b = A ∨ b = B ∨ (F b ∧ b ≠ S)) y e.2.second) ↔
        ((FBef F e.2.first y ∧ FBef F y e.2.second) ∧ ce = cg)) := by
      intro y hy
      constructor
      · rintro ⟨h1, h2⟩
        refine ⟨⟨down _ _ h1, down _ _ h2⟩, ?_⟩
        obtain ⟨c, hc, h⟩ := h1
        obtain ⟨m1, m2⟩ := bef_mem _ _ _ h
        exact (uniq2 ce c hce hc _ e1m m1).trans (uniq2 c cg hc hcg y m2 hy)
      · rintro ⟨⟨h1, h2⟩, e⟩
        subst e
        exact ⟨⟨ce, hce, up ce hce _ _ e1m hy h1⟩, ⟨ce, hce, up ce hce _ _ hy e2m h2⟩⟩
    rw [q _ g1m, q _ g2m, hE.lam e (hmem e he).1 g (hmem g hg).1]
  · intro e he g hg hkk
    exact hE.edist e (hmem e he).1 g (hmem g hg).1 hkk
  · intro e he w
    rw [hvn]
    exact hE.vne e (hmem e he).1 w

/-! ### Reachable forests -/

theorem new_rev (n : Nat) (y : Nat) : ((SplayETT.new n).node y).reversed = false :=
  (new_forest n).1.rev y

/-- The forest of the constructor, for at least one vertex: every vertex node is a tree
of its own, and the edge map is empty. -/
theorem new_trees (n : Nat) (hn : 0 < n) :
    TreesOK (SplayETT.new n) (fun b => ∃ i, i < n ∧ b = BT.node BT.leaf i BT.leaf) ∧
    EdgesOK (SplayETT.new n) (fun b => ∃ i, i < n ∧ b = BT.node BT.leaf i BT.leaf) := by
  obtain ⟨h1, h2, _, _⟩ := SplayETT.new_spec n
  have hp := (new_forest n).2
  constructor
  · refine ⟨new_rev n, ?_, ?_, ?_, ?_⟩
    · rintro b ⟨i, hi, rfl⟩
      exact rep_fresh _ i (by omega) (hp i).1 (hp i).2.1 (hp i).2.2
    · rintro b ⟨i, hi, rfl⟩
      simp [BT.toList]
    · rintro b c ⟨i, hi, rfl⟩ ⟨j, hj, rfl⟩ hbc y hy hy2
      simp only [BT.toList, List.nil_append, List.mem_singleton] at hy hy2
      exact hbc (by rw [← hy, ← hy2])
    · intro u
      rw [h2]
      refine ⟨BT.node BT.leaf (nth (List.range n) u) BT.leaf, ⟨_, ?_, rfl⟩, by simp [BT.toList]⟩
      unfold nth
      by_cases hu : u < n
      · rw [List.getD_eq_getElem _ _ (by simpa using hu)]
        simpa using hu
      · rw [List.getD_eq_default _ _ (by simpa using hu)]
        exact hn
  · have he := SplayETT.new_edges n
    refine ⟨?_, ?_, ?_, ?_⟩
    · intro e h; rw [he] at h; cases h
    · intro e h; rw [he] at h; cases h
    · intro e h; rw [he] at h; cases h
    · intro e h; rw [he] at h; cases h

/-- A forest of trees with its edge map stays one under `link`. -/
theorem link_inv (t : SplayETT) (F : BT → Prop) (hT : TreesOK t F) (hE : EdgesOK t F)
    (u v : Nat) (b : Bool) (t1 : SplayETT) (h : t.link u v = some (b, t1)) :
    ∃ F1, TreesOK t1 F1 ∧ EdgesOK t1 F1 := by
  rcases link_trees t F hT u v with h0 | ⟨t1x, Tu, Tv, N, L, R, hl, fu, fv, hne, hu, hN, hT1,
    hed, hvn, _⟩
  · rw [h0] at h
    cases h
    exact ⟨F, hT, hE⟩
  · rw [hl] at h
    cases h
    have sp : Spliced F Tu Tv N L R (nth t.vertexNodes u) t.pool.length (t.pool.length + 1) :=
      ⟨fu, fv, hne, hu, hN, hT1.nd N (Or.inl rfl), fun b hb y hy => by
        have := rep_lt t b none (hT.reps b hb) y hy
        exact ⟨by omega, by omega⟩⟩
    exact ⟨_, hT1, link_edges t t1 F hT hE Tu Tv N L R _ _ _ sp hT1 _ u v hed hvn⟩

/-- A forest of trees with its edge map stays one under `cut`. -/
theorem cut_inv (t : SplayETT) (F : BT → Prop) (hT : TreesOK t F) (hE : EdgesOK t F)
    (u v : Nat) (b : Bool) (t1 : SplayETT) (h : t.cut u v = some (b, t1)) :
    ∃ F1, TreesOK t1 F1 ∧ EdgesOK t1 F1 := by
  by_cases hne : u = v
  · unfold SplayETT.cut at h
    rw [if_pos hne] at h
    cases h
    exact ⟨F, hT, hE⟩
  cases hfind : t.edges.find? (fun e => e.1 = makeEdgeKey u v) with
  | none =>
    unfold SplayETT.cut at h
    rw [if_neg hne] at h
    simp only [hfind] at h
    cases h
    exact ⟨F, hT, hE⟩
  | some E =>
    obtain ⟨k, edge⟩ := E
    obtain ⟨t2, S, A, B, X, Y, Z, hc, un, hT2, hed, hvn⟩ :=
      cut_trees t F hT hE u v hne k edge hfind
    rw [hc] at h
    cases h
    have hk : k = makeEdgeKey u v := by
      have := List.find?_some hfind
      simpa using this
    exact ⟨_, hT2, cut_edges t t1 F hT hE S A B X Y Z k _ edge un hT2
      (List.mem_of_find?_eq_some hfind) hk hed hvn⟩

/-- Every forest reached from `SplayETT(n)`, `n` at least one, is a forest of trees with
its edge map. -/
theorem reach_inv (n : Nat) (hn : 0 < n) (t : SplayETT) (h : ETTReach n t) :
    ∃ F, TreesOK t F ∧ EdgesOK t F := by
  induction h with
  | init => exact ⟨_, (new_trees n hn).1, (new_trees n hn).2⟩
  | link t u v b t1 _ hl ih =>
    obtain ⟨F, hT, hE⟩ := ih
    exact link_inv t F hT hE u v b t1 hl
  | cut t u v b t1 _ hc ih =>
    obtain ⟨F, hT, hE⟩ := ih
    exact cut_inv t F hT hE u v b t1 hc

theorem link_new_zero (u v : Nat) :
    (SplayETT.new 0).link u v = some (false, SplayETT.new 0) := by
  unfold SplayETT.link
  by_cases h : u = v
  · rw [if_pos h]
  · rw [if_neg h]
    have hc : (SplayETT.new 0).connected u v = some true := by
      simp [SplayETT.connected, SplayETT.getRoot, getRootLoop, SplayETT.new, nth,
        SplayETT.node]
    have he : (SplayETT.new 0).edges = [] := rfl
    simp only [he, List.any_nil, Bool.false_eq_true, if_false, hc]

theorem cut_new_zero (u v : Nat) :
    (SplayETT.new 0).cut u v = some (false, SplayETT.new 0) := by
  unfold SplayETT.cut
  by_cases h : u = v
  · rw [if_pos h]
  · rw [if_neg h]
    have he : (SplayETT.new 0).edges = [] := rfl
    simp only [he, List.find?_nil]

/-- Without vertices no call changes the forest. -/
theorem reach_zero (t : SplayETT) (h : ETTReach 0 t) : t = SplayETT.new 0 := by
  induction h with
  | init => rfl
  | link t u v b t1 _ hl ih =>
    subst ih
    rw [link_new_zero] at hl
    cases hl
    rfl
  | cut t u v b t1 _ hc ih =>
    subst ih
    rw [cut_new_zero] at hc
    cases hc
    rfl

/-! ### Cut right after link -/

/-- The call `cut(u, v)` right after a `link(u, v)` that returned true, on a forest of
trees with its edge map: it returns true, and two vertex nodes are in one tree afterwards
exactly when they were before the link. -/
theorem link_cut_trees (t : SplayETT) (F : BT → Prop) (hT : TreesOK t F) (hE : EdgesOK t F)
    (u v : Nat) (t1 : SplayETT) (hl : t.link u v = some (true, t1)) :
    ∃ t2 F2, t1.cut u v = some (true, t2) ∧ TreesOK t2 F2 ∧
      t2.vertexNodes = t.vertexNodes ∧
      ∀ x y, SameT F2 (nth t.vertexNodes x) (nth t.vertexNodes y) ↔
        SameT F (nth t.vertexNodes x) (nth t.vertexNodes y) := by
  have huv : u ≠ v := by
    intro e
    unfold SplayETT.link at hl
    rw [if_pos e] at hl
    cases hl
  rcases link_trees t F hT u v with h0 | ⟨t1x, Tu, Tv, N, L, R, hl2, fu, fv, hne, hu, hN, hT1,
    hed, hvn, hkey⟩
  · rw [h0] at hl
    cases hl
  rw [hl2] at hl
  cases hl
  have fresh : ∀ b, F b → ∀ y ∈ b.toList, y ≠ t.pool.length ∧ y ≠ t.pool.length + 1 :=
    fun b hb y hy => by
      have := rep_lt t b none (hT.reps b hb) y hy
      exact ⟨by omega, by omega⟩
  have sp : Spliced F Tu Tv N L R (nth t.vertexNodes u) t.pool.length (t.pool.length + 1) :=
    ⟨fu, fv, hne, hu, hN, hT1.nd N (Or.inl rfl), fresh⟩
  have hE1 := link_edges t t1 F hT hE Tu Tv N L R _ _ _ sp hT1 _ u v hed hvn
  have hfind : t1.edges.find? (fun e => e.1 = makeEdgeKey u v) =
      some (makeEdgeKey u v, ETTEdge.mk t.pool.length (t.pool.length + 1) u v) := by
    rw [hed, List.find?_append]
    have : t.edges.find? (fun e => decide (e.1 = makeEdgeKey u v)) = none := by
      rw [List.find?_eq_none]
      intro e he
      simpa using hkey e he
    rw [this]
    simp
  obtain ⟨t2, S, A, B, X, Y, Z, hc, un, hT2, _, hvn2⟩ :=
    cut_trees t1 _ hT1 hE1 u v huv _ _ hfind
  have spm := sp_mem F Tu Tv N L R _ _ _ sp
  -- the tree of the new edge is the new tree
  have hSN : S = N := by
    refine sameT_unique t1 _ hT1 S N un.fs (Or.inl rfl) t.pool.length ?_ ?_
    · rw [un.hS]; simp
    · exact (spm _).mpr (Or.inr (Or.inr (Or.inl rfl)))
  subst hSN
  have eN : S.toList = (L ++ [nth t.vertexNodes u]) ++
      t.pool.length :: (Tv.toList ++ (t.pool.length + 1) :: R) := by
    rw [hN]; simp
  have hS := un.hS
  dsimp only at hS
  obtain ⟨g1, g2⟩ := nodup_split_unique X _ (L ++ [nth t.vertexNodes u]) _ t.pool.length
    (hS ▸ sp.nd) (hS.symm.trans eN)
  have ndY : (Y ++ (t.pool.length + 1) :: Z).Nodup := by
    have h0 := sp.nd
    rw [hS] at h0
    exact (List.nodup_cons.mp (List.nodup_append.mp h0).2.1).2
  obtain ⟨g3, g4⟩ := nodup_split_unique Y Z Tv.toList R (t.pool.length + 1) ndY g2
  have hAl : ∀ y, y ∈ A.toList ↔ y ∈ Tu.toList := fun y => by
    rw [un.hA, g1, g4, ← hu]
    simp only [List.mem_append, List.mem_cons, List.mem_singleton, List.not_mem_nil, or_false]
    tauto
  have hBl : ∀ y, y ∈ B.toList ↔ (y ∈ Tv.toList ∨ y = t.pool.length + 1) := fun y => by
    rw [un.hB, g3]
    simp only [List.mem_append, List.mem_singleton]
  refine ⟨t2, _, hc, hT2, hvn2.trans hvn, fun x y => ?_⟩
  obtain ⟨bx, hbx, hx⟩ := hT.vmem x
  obtain ⟨bY, hbY, hy⟩ := hT.vmem y
  constructor
  · rintro ⟨c, hc, m1, m2⟩
    rcases hc with hc | hc | ⟨hc, hcS⟩
    · subst hc
      exact ⟨Tu, fu, (hAl _).mp m1, (hAl _).mp m2⟩
    · subst hc
      refine ⟨Tv, fv, ?_, ?_⟩
      · rcases (hBl _).mp m1 with h | h
        · exact h
        · exact absurd h (fresh bx hbx _ hx).2
      · rcases (hBl _).mp m2 with h | h
        · exact h
        · exact absurd h (fresh bY hbY _ hy).2
    · rcases hc with hc | ⟨hc, _, _⟩
      · exact absurd hc hcS
      · exact ⟨c, hc, m1, m2⟩
  · rintro ⟨c, hc, m1, m2⟩
    by_cases h1 : c = Tu
    · subst h1
      exact ⟨A, Or.inl rfl, (hAl _).mpr m1, (hAl _).mpr m2⟩
    by_cases h2 : c = Tv
    · subst h2
      exact ⟨B, Or.inr (Or.inl rfl), (hBl _).mpr (Or.inl m1), (hBl _).mpr (Or.inl m2)⟩
    refine ⟨c, Or.inr (Or.inr ⟨Or.inr ⟨hc, h1, h2⟩, ?_⟩), m1, m2⟩
    intro e
    subst e
    rcases (spm _).mp m1 with h | h | h | h
    · exact h1 (sameT_unique t F hT c Tu hc fu _ m1 h)
    · exact h2 (sameT_unique t F hT c Tv hc fv _ m1 h)
    · exact (fresh c hc _ m1).1 h
    · exact (fresh c hc _ m1).2 h

/-- On a forest of trees with its edge map, `cut(u, v)` right after a `link(u, v)` that
returned true returns true, and `connected` returns afterwards what it returned before the
link. -/
theorem link_cut_connected (t : SplayETT) (F : BT → Prop) (hT : TreesOK t F)
    (hE : EdgesOK t F) (u v : Nat) (t1 : SplayETT) (hl : t.link u v = some (true, t1)) :
    ∃ t2, t1.cut u v = some (true, t2) ∧
      ∀ x y, ∃ c, t.connected x y = some c ∧ t2.connected x y = some c := by
  obtain ⟨t2, F2, hc, hT2, hvn, hsame⟩ := link_cut_trees t F hT hE u v t1 hl
  refine ⟨t2, hc, fun x y => ?_⟩
  obtain ⟨c, e, hcs⟩ := connected_trees t F hT x y
  obtain ⟨c2, e2, hcs2⟩ := connected_trees t2 F2 hT2 x y
  rw [hvn, hsame x y, ← hcs] at hcs2
  refine ⟨c, e, ?_⟩
  rw [e2]
  cases c <;> cases c2 <;> simp_all

/-! ### The claim on reachable forests -/

/-- C37: on every forest reached from `SplayETT(n)` by calls of `link` and `cut`, whatever
their arguments, if `link(u, v)` returns true then the `cut(u, v)` that follows returns
true, and every call `connected(x, y)` returns afterwards the answer it returned before
the link. -/
theorem C37_link_then_cut_restores_connectivity (n : Nat) (t t1 : SplayETT) (u v : Nat)
    (hr : ETTReach n t) (hl : t.link u v = some (true, t1)) :
    ∃ t2, t1.cut u v = some (true, t2) ∧
      ∀ x y, ∃ c, t.connected x y = some c ∧ t2.connected x y = some c := by
  rcases Nat.eq_zero_or_pos n with h0 | hn
  · subst h0
    have := reach_zero t hr
    subst this
    rw [link_new_zero] at hl
    cases hl
  · obtain ⟨F, hT, hE⟩ := reach_inv n hn t hr
    exact link_cut_connected t F hT hE u v t1 hl

set_option maxRecDepth 100000 in
/-- C37 on the forest on three vertices after `link(0, 1)`: `link(2, 1)` returns true, and
the `cut(2, 1)` that follows returns true and restores every answer of `connected`. -/
theorem C37_link_then_cut_restores_connectivity_witness :
    ETTReach 3 linkedForest1 ∧ linkedForest1.link 2 1 = some (true, linkedForest2) ∧
    ∃ t2, linkedForest2.cut 2 1 = some (true, t2) ∧
      ∀ x y, ∃ c, linkedForest1.connected x y = some c ∧ t2.connected x y = some c :=
  ⟨ETTReach.link (SplayETT.new 3) 0 1 true linkedForest1 ETTReach.init (by decide!),
    by decide!,
    C37_link_then_cut_restores_connectivity 3 linkedForest1 linkedForest2 2 1
      (ETTReach.link (SplayETT.new 3) 0 1 true linkedForest1 ETTReach.init (by decide!))
      (by decide!)⟩

end AlgLab
